import Mathlib

/-!
# Candor runtime: register allocator, copying collector and IA-32 stubs

A shallow embedding of `src/lir.cc` (linear-scan register allocation over
live intervals), `src/gc.cc` (the grey-queue copying collector) and the code
emitted by `src/ia32/stubs-ia32.cc` and `src/ia32/lir-ia32.cc`, together with
the properties established about them.

Conventions of the embedding

* C `int` positions and indices are `Int`; `-1` keeps its role as the
  "nothing found" value of `FindIntersection` and as the placeholder spill
  index.
* Heap-allocated C++ objects that are shared through pointers (`LInterval*`)
  live in a table and are named by their `id`; intrusive lists of pointers
  become lists of ids.
* A failing `assert` or `UNEXPECTED` aborts the run: the embedding returns
  `none`.
* Loops whose trip count is not structurally bounded take a fuel argument.
* Emitted code is embedded as the function it computes on a machine state
  (`Cpu`): an instruction of the assembler is a function on states, a
  conditional jump is an `if` on the flags, a label that several jumps reach
  is a definition of its own, and a label whose code is not embedded is an
  exit of the embedding. Machine words are natural numbers below `2 ^ bits`.
-/

set_option autoImplicit false

namespace candor

/-! ## Data model of the low-level IR -/

/-- Number of allocatable registers, `kLIRRegisterCount` of `src/x64/lir-x64.h`. -/
def kLIRRegisterCount : Nat := 10

/-- The C constant `INT_MAX` of `<limits.h>`. -/
def INT_MAX : Int := 2147483647

/-- Use kinds, `LUse::Type`. -/
inductive UseType where
  | kAny
  | kRegister
deriving DecidableEq, Repr

/-- Interval states, `LInterval::Type`. -/
inductive IntervalType where
  | kVirtual
  | kRegister
  | kStackSlot
deriving DecidableEq, Repr

/-- A half-open live range `[start, end)` of an interval (`LRange`). -/
structure LRange where
  start : Int
  end_ : Int
deriving DecidableEq, Repr

/-- A use of an interval by an instruction (`LUse`); `instr` is
`use->instr()->id`. The owning interval is the one whose `uses` list holds it. -/
structure LUse where
  type : UseType
  instr : Int
deriving DecidableEq, Repr

/-- A live interval (`LInterval`). `index` is the register number in register
state and the spill slot in stackslot state. -/
structure LInterval where
  id : Nat
  type : IntervalType
  index : Int
  fixed : Bool
  ranges : List LRange
  uses : List LUse
  split_parent : Option Nat
  split_children : List Nat
deriving DecidableEq, Repr

/-- An empty, unallocated placeholder used when a table lookup misses. -/
def LInterval.blank : LInterval :=
  { id := 0, type := IntervalType.kVirtual, index := 0, fixed := false,
    ranges := [], uses := [], split_parent := none, split_children := [] }

instance : Inhabited LInterval := ⟨LInterval.blank⟩

/-! ### Accessors of `LInterval`

The inline accessors live in `lir-inl.h`, which is not part of the sources
at hand; they are modelled after their names and their uses in `lir.cc`. -/

/-- Modelled from the spec: `LInterval::is_register()` of the missing
`lir-inl.h`; the interval is in register state. -/
def LInterval.is_register (i : LInterval) : Bool := i.type == IntervalType.kRegister

/-- Modelled from the spec: `LInterval::is_stackslot()` of the missing
`lir-inl.h`; the interval is in stackslot state. -/
def LInterval.is_stackslot (i : LInterval) : Bool := i.type == IntervalType.kStackSlot

/-- Modelled from the spec: `LInterval::is_virtual()` of the missing `lir-inl.h`. -/
def LInterval.is_virtual (i : LInterval) : Bool := i.type == IntervalType.kVirtual

/-- Modelled from the spec: `LInterval::IsFixed()` of the missing `lir-inl.h`;
fixed intervals shadow physical registers one to one. -/
def LInterval.IsFixed (i : LInterval) : Bool := i.fixed

/-- Modelled from the spec: `LInterval::IsEqual` of the missing `lir-inl.h`;
two intervals are equal when they are in the same state with the same index
(same register, or same spill slot). -/
def LInterval.IsEqual (a b : LInterval) : Bool := a.type == b.type && a.index == b.index

/-- Modelled from the spec: `LInterval::Allocate(reg)` of the missing
`lir-inl.h`; puts the interval in register state with register `reg`. -/
def LInterval.Allocate (i : LInterval) (reg : Int) : LInterval :=
  { i with type := IntervalType.kRegister, index := reg }

/-- Modelled from the spec: `LInterval::Spill(slot)` of the missing
`lir-inl.h`; puts the interval in stackslot state with spill index `slot`. -/
def LInterval.Spill (i : LInterval) (slot : Int) : LInterval :=
  { i with type := IntervalType.kStackSlot, index := slot }

/-- Modelled from the spec: `LInterval::start()` of the missing `lir-inl.h`;
the start of the first range (ranges are kept sorted). An interval without
ranges has no start. -/
def LInterval.start (i : LInterval) : Option Int := i.ranges.head?.map LRange.start

/-- Modelled from the spec: `LInterval::end()` of the missing `lir-inl.h`;
the end of the last range. -/
def LInterval.end_ (i : LInterval) : Option Int := i.ranges.getLast?.map LRange.end_

/-! ### Ranges and uses (`lir.cc`, lines 943-1066) -/

/-- `LRange::FindIntersection`: the first position shared by two ranges, or `-1`. -/
def LRange.FindIntersection (a w : LRange) : Int :=
  if a.start ≥ w.start ∧ a.start < w.end_ then a.start
  else if w.start ≥ a.start ∧ w.start < a.end_ then w.start
  else -1

/-- Inner loop of `LInterval::FindIntersection`: one range against the ranges
of the other interval, first hit wins. -/
def FindIntersectionRow (a : LRange) : List LRange → Int
  | [] => -1
  | b :: bs =>
    let r := a.FindIntersection b
    if r ≠ -1 then r else FindIntersectionRow a bs

/-- Outer loop of `LInterval::FindIntersection` over range lists. -/
def FindIntersectionRanges : List LRange → List LRange → Int
  | [], _ => -1
  | a :: as, bs =>
    let r := FindIntersectionRow a bs
    if r ≠ -1 then r else FindIntersectionRanges as bs

/-- `LInterval::FindIntersection`. -/
def LInterval.FindIntersection (i w : LInterval) : Int :=
  FindIntersectionRanges i.ranges w.ranges

/-- Loop of `LInterval::Covers` over the range list. -/
def CoversRanges (pos : Int) : List LRange → Bool
  | [] => false
  | r :: rs =>
    if r.start > pos then false
    else if r.end_ > pos then true
    else CoversRanges pos rs

/-- `LInterval::Covers`. -/
def LInterval.Covers (i : LInterval) (pos : Int) : Bool := CoversRanges pos i.ranges

/-- `LInterval::AddRange`: extend the first range when it starts where the new
one ends, otherwise prepend; the assertion requires the new range to end
before the first one starts. -/
def LInterval.AddRange (i : LInterval) (s e : Int) : Option LInterval :=
  match i.ranges with
  | [] => some { i with ranges := [⟨s, e⟩] }
  | h :: rest =>
    if h.start = e then some { i with ranges := ⟨s, h.end_⟩ :: rest }
    else if e < h.start then some { i with ranges := ⟨s, e⟩ :: h :: rest }
    else none

/-- `LInterval::UseAt`. -/
def LInterval.UseAt (i : LInterval) (pos : Int) : Option LUse :=
  i.uses.find? (fun u => u.instr == pos)

/-- The test of the first loop of `LInterval::UseAfter`. -/
def useMatches (pos : Int) (t : UseType) (u : LUse) : Bool :=
  decide (u.instr ≥ pos) && (t == UseType.kAny || u.type == t)

/-- Modelled from the spec: `List<T>::InsertSorted<Shape>` of the missing
`utils.h`, on keys: the new element goes before the first element whose key
is greater, so the list stays sorted by key. -/
def insertSortedBy {α : Type} (key : α → Int) (x : α) : List α → List α
  | [] => [x]
  | y :: ys => if key x < key y then x :: y :: ys else y :: insertSortedBy key x ys

/-- Modelled from the spec: `List<T>::Sort<Shape>` of the missing `utils.h`,
on keys: the list sorted by key (insertion sort). -/
def sortBy {α : Type} (key : α → Int) : List α → List α
  | [] => []
  | x :: xs => insertSortedBy key x (sortBy key xs)

/-- The list sorted by key, elements with equal keys keeping their order. -/
def sortStableBy {α : Type} (key : α → Int) (l : List α) : List α :=
  (sortBy key l.reverse)

/-- `LInterval::Use`: record a use, keeping the use list sorted by
instruction id (`LUseShape::Compare`). -/
def LInterval.Use (i : LInterval) (t : UseType) (instr : Int) : LInterval :=
  { i with uses := insertSortedBy LUse.instr ⟨t, instr⟩ i.uses }

/-! ## Instructions, blocks and the generator state -/

/-- A LIR instruction as far as the allocator looks at it: its id, the
intervals it reads, clobbers and writes (with the kind of each use), whether
it contains a call, and, for a gap, its parallel moves and scratch interval.
`block` is the position of the owning block in the flattened block list. -/
structure LInstruction where
  id : Int
  inputs : List (Nat × UseType)
  scratches : List (Nat × UseType)
  result : Option (Nat × UseType)
  has_call : Bool
  is_gap : Bool
  pairs : List (Nat × Nat)
  gap_tmp : Option Nat
  block : Nat
deriving DecidableEq, Repr

/-- An ordinary (non-gap) instruction. -/
def LInstruction.mk_plain (id : Int) (block : Nat) (inputs scratches : List (Nat × UseType))
    (result : Option (Nat × UseType)) (has_call : Bool) : LInstruction :=
  { id := id, inputs := inputs, scratches := scratches, result := result,
    has_call := has_call, is_gap := false, pairs := [], gap_tmp := none, block := block }

/-- A block of the flattened list (`HIRBlock` with its `LBlock`): its
instructions, its successors (positions in the flattened list) and its
liveness sets, which are sets of interval ids (`LUseMap` keyed by
`NumberKey(interval id)`), kept in insertion order. -/
structure LBlock where
  instructions : List LInstruction
  succ : List Nat
  live_gen : List Nat
  live_kill : List Nat
  live_in : List Nat
  live_out : List Nat
  start_id : Int
  end_id : Int
deriving DecidableEq, Repr

/-- The state of `LGen` that liveness analysis and register allocation work on. -/
structure LGen where
  blocks : List LBlock
  instructions : List LInstruction
  intervals : List LInterval
  unhandled : List Nat
  active : List Nat
  inactive : List Nat
  unhandled_spills : List Nat
  active_spills : List Nat
  inactive_spills : List Nat
  free_spills : List Nat
  spill_index : Int
  virtual_index : Int
deriving Repr

/-- Dereference an interval pointer. -/
def LGen.get (g : LGen) (id : Nat) : LInterval := g.intervals.getD id default

/-- Write an interval back through its pointer. -/
def LGen.put (g : LGen) (v : LInterval) : LGen :=
  { g with intervals := g.intervals.set v.id v }

/-- A C `assert`: the run goes on only when the condition holds. -/
def assert (b : Bool) : Option Unit := if b then some () else none

/-- Store into a C `int` array indexed by a register number. -/
def setAt (l : List Int) (i : Int) (v : Int) : List Int :=
  if 0 ≤ i then l.set i.toNat v else l

/-- Load from a C `int` array indexed by a register number. -/
def getAt (l : List Int) (i : Int) : Int :=
  if 0 ≤ i then l.getD i.toNat 0 else 0

/-- `LGen::CreateInterval`: a fresh interval with the next id, appended to
`intervals_`. -/
def LGen.CreateInterval (g : LGen) (t : IntervalType) (index : Int) : LGen × Nat :=
  let id := g.intervals.length
  ({ g with intervals := g.intervals ++
      [{ id := id, type := t, index := index, fixed := false, ranges := [], uses := [],
         split_parent := none, split_children := [] }] }, id)

/-- Modelled from the spec: `LGen::CreateVirtual` of the missing `lir-inl.h`;
a fresh virtual interval numbered by `virtual_index_`. -/
def LGen.CreateVirtual (g : LGen) : LGen × Nat :=
  let (g1, id) := g.CreateInterval IntervalType.kVirtual g.virtual_index
  ({ g1 with virtual_index := g1.virtual_index + 1 }, id)

/-- `LGen::Spill`: put the interval in stackslot state with the placeholder
index `-1` and queue it for spill-slot assignment. -/
def LGen.Spill (g : LGen) (id : Nat) : Option LGen := do
  let i := g.get id
  assert (!i.is_stackslot)
  let g1 := g.put (i.Spill (-1))
  pure { g1 with unhandled_spills := g1.unhandled_spills ++ [id] }

/-- Modelled from the spec: `LGen::IsBlockStart` of the missing `lir-inl.h`;
whether some block of the flattened list starts at `pos`. -/
def LGen.IsBlockStart (g : LGen) (pos : Int) : Bool :=
  g.blocks.any (fun b => b.start_id == pos)

/-- Add a move to every copy of the gap at `pos` (`LGap::Add` through the
shared pointer). -/
def addPair (pos : Int) (p : Nat × Nat) (l : List LInstruction) : List LInstruction :=
  l.map (fun x => if x.is_gap && x.id == pos then { x with pairs := x.pairs ++ [p] } else x)

/-- The insertion loop at the end of `LGen::GetGap`: put the gap before the
instruction of the block whose id is `pos + 1`, if there is one. -/
def insertGapInBlock (pos : Int) (gap : LInstruction) : List LInstruction → List LInstruction
  | [] => []
  | x :: xs => if x.id ≠ pos + 1 then x :: insertGapInBlock pos gap xs else gap :: x :: xs

/-- `LGen::GetGap`: the gap at `pos`, created when absent together with its
scratch interval, which is spilled right away. -/
def LGen.GetGap (g : LGen) (pos : Int) : Option LGen :=
  let before := g.instructions.takeWhile (fun x => x.id < pos)
  let rest := g.instructions.dropWhile (fun x => x.id < pos)
  match rest with
  | [] => none
  | h :: _ =>
    if h.id = pos then (if h.is_gap then some g else none)
    else
      match before.getLast? with
      | none => none
      | some prev => do
        let (g1, tmp) := g.CreateVirtual
        let t ← (g1.get tmp).AddRange (pos - 1) (pos + 1)
        let g2 ← (g1.put t).Spill tmp
        let gap : LInstruction :=
          { id := pos, inputs := [], scratches := [], result := none, has_call := false,
            is_gap := true, pairs := [], gap_tmp := some tmp, block := prev.block }
        pure { g2 with
          instructions := before ++ gap :: rest,
          blocks := g2.blocks.modify
            (fun b => { b with instructions := insertGapInBlock pos gap b.instructions })
            prev.block }

/-- The use loop of `LGen::Split`, walking from the tail: uses at or after
`pos` move to the front of the child's list; the first earlier use stops the
walk. Returns what is left (tail first) and the child's uses. -/
def splitUses (pos : Int) : List LUse → List LUse → List LUse × List LUse
  | [], child => ([], child)
  | u :: rest, child =>
    if u.instr < pos then (u :: rest, child) else splitUses pos rest (u :: child)

/-- The range loop of `LGen::Split`, walking from the tail: a range ending
after `pos` moves to the child, cut at `pos` when it starts before it (the
left piece is pushed at the tail of the parent); the first range ending at or
before `pos` stops the walk. Returns what is left (tail first), the pushed
pieces and the child's ranges. -/
def splitRanges (pos : Int) :
    List LRange → List LRange → List LRange → List LRange × List LRange × List LRange
  | [], pushed, child => ([], pushed, child)
  | r :: rest, pushed, child =>
    if r.end_ ≤ pos then (r :: rest, pushed, child)
    else if r.start < pos then
      splitRanges pos rest (pushed ++ [⟨r.start, pos⟩]) (⟨pos, r.end_⟩ :: child)
    else splitRanges pos rest pushed (r :: child)

/-- Key of `LIntervalShape::Compare`: the start of the interval (0 for an
interval without ranges, which the lists never hold). -/
def LGen.startKey (g : LGen) (id : Nat) : Int := ((g.get id).start).getD 0

/-- What the two loops of `LGen::Split` leave in the interval that is split:
the uses before `pos` and the ranges up to `pos`. -/
def LInterval.splitLeft (i : LInterval) (pos : Int) : LInterval :=
  { i with uses := (splitUses pos i.uses.reverse []).1.reverse,
           ranges := (splitRanges pos i.ranges.reverse [] []).1.reverse ++
             (splitRanges pos i.ranges.reverse [] []).2.1 }

/-- What the two loops of `LGen::Split` put in the fresh child `c` of `i`, and
its `split_parent` link. -/
def LInterval.splitRight (c i : LInterval) (pos : Int) (pid : Nat) : LInterval :=
  { c with uses := (splitUses pos i.uses.reverse []).2,
           ranges := (splitRanges pos i.ranges.reverse [] []).2.2,
           split_parent := some pid }

/-- The parent computed by `LGen::Split`: the interval itself when it has no
`split_parent`, else its `split_parent`. -/
def LInterval.splitRoot (i : LInterval) (iid : Nat) : Nat :=
  match i.split_parent with
  | none => iid
  | some p => p

/-- Lines 841-876 of `LGen::Split`: create the child, move uses and ranges,
link the child to the parent. -/
def LGen.splitMove (g : LGen) (iid : Nat) (pos : Int) : LGen × Nat :=
  let i := g.get iid
  let g1 := g.CreateVirtual.1
  let cid := g.CreateVirtual.2
  let pid := i.splitRoot iid
  let g2 := (g1.put (i.splitLeft pos)).put ((g1.get cid).splitRight i pos pid)
  let parent := g2.get pid
  (g2.put { parent with split_children := cid :: parent.split_children }, cid)

/-- The call `unhandled_.InsertSorted<LIntervalShape>(child)`. -/
def LGen.queueUnhandled (g : LGen) (id : Nat) : LGen :=
  { g with unhandled := insertSortedBy g.startKey id g.unhandled }

/-- The part of `LGen::Split` that moves uses and ranges, links the child and
queues it (lines 838-881): returns the new state and the child. -/
def LGen.SplitCore (g : LGen) (iid : Nat) (pos : Int) : Option (LGen × Nat) := do
  assert (!(g.get iid).IsFixed)
  let s ← (g.get iid).start
  let e ← (g.get iid).end_
  assert (decide (pos > s ∧ pos < e))
  let g3 := (g.splitMove iid pos).1
  let cid := (g.splitMove iid pos).2
  let cs ← (g3.get cid).start
  let g4 := g3.queueUnhandled cid
  let ie ← (g4.get iid).end_
  assert (decide (ie ≤ pos))
  assert (decide (cs ≥ pos))
  pure (g4, cid)

/-- `LGen::Split`: split interval `iid` at `pos`; unless the parent now ends
on a block edge, a move from parent to child is added to the gap at `pos`. -/
def LGen.Split (g : LGen) (iid : Nat) (pos : Int) : Option (LGen × Nat) := do
  let (g4, cid) ← g.SplitCore iid pos
  let ie ← (g4.get iid).end_
  if g4.IsBlockStart ie then pure (g4, cid)
  else do
    let g5 ← g4.GetGap pos
    pure ({ g5 with instructions := addPair pos (iid, cid) g5.instructions,
                    blocks := g5.blocks.map
                      (fun b => { b with instructions := addPair pos (iid, cid) b.instructions }) },
          cid)

/-! ## Linear scan (`lir.cc`, lines 314-570) -/

/-- Recursion of `LInterval::UseAfter` through split children, `d` bounding
the depth of the split tree. -/
def LGen.UseAfterD (g : LGen) : Nat → Nat → Int → UseType → Option LUse
  | 0, _, _, _ => none
  | d + 1, id, pos, t =>
    match (g.get id).uses.find? (useMatches pos t) with
    | some u => some u
    | none => (g.get id).split_children.findSome? (fun c => g.UseAfterD d c pos t)

/-- `LInterval::UseAfter(pos, use_type)`: the first use at or after `pos` of
the given kind, in the interval or else in its split children. -/
def LGen.UseAfter (g : LGen) (id : Nat) (pos : Int) (t : UseType) : Option LUse :=
  g.UseAfterD (g.intervals.length + 1) id pos t

/-- First loop of `LGen::ShuffleIntervals`, over `active`: returns what
stays, what moves to `inactive` and what has expired. -/
def LGen.shuffleActive (g : LGen) (pos : Int) :
    List Nat → Option (List Nat × List Nat × List Nat)
  | [] => some ([], [], [])
  | id :: rest => do
    let (a, ina, h) ← g.shuffleActive pos rest
    let e ← (g.get id).end_
    if e < pos then pure (a, ina, id :: h)
    else if !(g.get id).Covers pos then pure (a, id :: ina, h)
    else pure (id :: a, ina, h)

/-- Second loop of `LGen::ShuffleIntervals`, over `inactive`: returns what
stays, what moves to `active` and what has expired. -/
def LGen.shuffleInactive (g : LGen) (pos : Int) :
    List Nat → Option (List Nat × List Nat × List Nat)
  | [] => some ([], [], [])
  | id :: rest => do
    let (ina, a, h) ← g.shuffleInactive pos rest
    let e ← (g.get id).end_
    if e < pos then pure (ina, a, id :: h)
    else if (g.get id).Covers pos then pure (ina, id :: a, h)
    else pure (id :: ina, a, h)

/-- `LGen::ShuffleIntervals(active, inactive, handled, pos)`, returning the
new `active`, the new `inactive` and the intervals pushed to `handled`. -/
def LGen.ShuffleIntervals (g : LGen) (active inactive : List Nat) (pos : Int) :
    Option (List Nat × List Nat × List Nat) := do
  let (a1, toIna, h1) ← g.shuffleActive pos active
  let (ina2, toA, h2) ← g.shuffleInactive pos (inactive ++ toIna)
  pure (a1 ++ toA, ina2, h1 ++ h2)

/-- First loop of `TryAllocateFreeReg`: registers of active intervals are not
free at all. -/
def LGen.freeActive (g : LGen) : List Nat → List Int → Option (List Int)
  | [], fp => some fp
  | id :: rest, fp => do
    assert (g.get id).is_register
    g.freeActive rest (setAt fp (g.get id).index 0)

/-- Second loop of `TryAllocateFreeReg`: a register of an inactive interval
is free up to its first intersection with `current`. -/
def LGen.freeInactive (g : LGen) (cur : Nat) : List Nat → List Int → Option (List Int)
  | [], fp => some fp
  | id :: rest, fp => do
    assert (g.get id).is_register
    let pos := (g.get cur).FindIntersection (g.get id)
    if pos = -1 then g.freeInactive cur rest fp
    else if getAt fp (g.get id).index ≤ pos then g.freeInactive cur rest fp
    else g.freeInactive cur rest (setAt fp (g.get id).index pos)

/-- The arg-max loops of both allocation routines: the first register with
the greatest position, starting from `(best, reg)`. -/
def maxLoop : List Int → Int → Int → Int → Int × Int
  | [], _, best, reg => (best, reg)
  | p :: ps, i, best, reg =>
    if p > best then maxLoop ps (i + 1) p i else maxLoop ps (i + 1) best reg

/-- `LGen::TryAllocateFreeReg`. -/
def LGen.TryAllocateFreeReg (g : LGen) (cur : Nat) : Option LGen := do
  let fp0 := List.replicate kLIRRegisterCount INT_MAX
  let fp1 ← g.freeActive g.active fp0
  let fp2 ← g.freeInactive cur g.inactive fp1
  let (max, max_reg) := maxLoop fp2 0 (-1) 0
  assert (decide (max ≥ 0))
  let cs ← (g.get cur).start
  if max - 2 ≤ cs then pure g
  else do
    let ce ← (g.get cur).end_
    let g1 ← if max ≤ ce then
        (g.Split cur (if Int.tmod max 2 = 0 then max - 1 else max - 2)).map Prod.fst
      else pure g
    pure (g1.put ((g1.get cur).Allocate max_reg))

/-- First loop of `AllocateBlockedReg`, over `active`; returns `use_pos` and
`block_pos`. -/
def LGen.blockedActive (g : LGen) (cs : Int) :
    List Nat → List Int × List Int → List Int × List Int
  | [], ub => ub
  | id :: rest, (up, bp) =>
    let a := g.get id
    if a.IsFixed then g.blockedActive cs rest (setAt up a.index 0, setAt bp a.index 0)
    else
      match g.UseAfter id cs UseType.kAny with
      | none => g.blockedActive cs rest (up, bp)
      | some u =>
        if getAt up a.index > u.instr then g.blockedActive cs rest (setAt up a.index u.instr, bp)
        else g.blockedActive cs rest (up, bp)

/-- Second loop of `AllocateBlockedReg`, over `inactive`. -/
def LGen.blockedInactive (g : LGen) (cur : Nat) (cs : Int) :
    List Nat → List Int × List Int → List Int × List Int
  | [], ub => ub
  | id :: rest, (up, bp) =>
    let a := g.get id
    let pos := (g.get cur).FindIntersection a
    if pos = -1 then g.blockedInactive cur cs rest (up, bp)
    else if a.IsFixed then
      let bp1 := if getAt bp a.index > pos then setAt bp a.index pos else bp
      let up1 := if getAt up a.index > pos then setAt up a.index pos else up
      g.blockedInactive cur cs rest (up1, bp1)
    else
      match g.UseAfter id cs UseType.kAny with
      | none => g.blockedInactive cur cs rest (up, bp)
      | some u =>
        if getAt up a.index > u.instr then
          g.blockedInactive cur cs rest (setAt up a.index u.instr, bp)
        else g.blockedInactive cur cs rest (up, bp)

/-- The loop "split and spill all intersecting intervals" of
`AllocateBlockedReg` over one of the two lists (`which = true` for
`active_`); `snapshot` is the list as it was when the loop started. -/
def LGen.spillIntersecting (which : Bool) (cur : Nat) :
    List Nat → LGen → Option LGen
  | [], g => some g
  | id :: rest, g => do
    let interval := g.get id
    let current := g.get cur
    if interval.IsFixed || !interval.IsEqual current then
      LGen.spillIntersecting which cur rest g
    else
      let pos0 := current.FindIntersection interval
      if pos0 = -1 then LGen.spillIntersecting which cur rest g
      else do
        let pos := if Int.tmod pos0 2 = 0 then pos0 - 1 else pos0 - 2
        let cs ← current.start
        let reg_use := g.UseAfter id 0 UseType.kRegister
        let early := match reg_use with
          | none => false
          | some u => decide (u.instr ≤ cs)
        if early then do
          let (g1, _) ← g.Split id (if Int.tmod cs 2 = 0 then cs - 1 else cs - 2)
          LGen.spillIntersecting which cur rest g1
        else do
          let is_ ← interval.start
          let g1 ← if pos > is_ then (g.Split id pos).map Prod.fst else pure g
          let g2 ← g1.Spill id
          let g3 : LGen :=
            if which then { g2 with active := g2.active.erase id }
            else { g2 with inactive := g2.inactive.erase id }
          LGen.spillIntersecting which cur rest g3

/-- `LGen::AllocateBlockedReg`. -/
def LGen.AllocateBlockedReg (g : LGen) (cur : Nat) : Option LGen := do
  let init := List.replicate kLIRRegisterCount INT_MAX
  let cs ← (g.get cur).start
  let ub1 := g.blockedActive cs g.active (init, init)
  let (use_pos, block_pos) := g.blockedInactive cur cs g.inactive ub1
  let (use_max, use_reg) := maxLoop use_pos 0 (-1) 0
  assert (decide (use_max ≥ 0))
  let first_use := g.UseAfter cur cs UseType.kAny
  let spill_current := match first_use with
    | none => true
    | some u => decide (use_max < u.instr) || decide (getAt block_pos use_reg - 1 ≤ cs)
  if spill_current then do
    let g1 ← g.Spill cur
    match g1.UseAfter cur cs UseType.kRegister with
    | none => pure g1
    | some u =>
      if u.instr > cs then (g1.Split cur (u.instr - 1)).map Prod.fst else pure g1
  else do
    let g1 := g.put ((g.get cur).Allocate use_reg)
    let ce ← (g1.get cur).end_
    let g2 ← if getAt block_pos use_reg ≤ ce then
        (g1.Split cur (getAt block_pos use_reg - 1)).map Prod.fst
      else pure g1
    let g3 ← LGen.spillIntersecting true cur g2.active g2
    LGen.spillIntersecting false cur g3.inactive g3

/-- The population loop of `WalkIntervals`: fixed intervals with ranges go to
`inactive_`, virtual ones to `unhandled_`. -/
def LGen.populate : List LInterval → LGen → Option LGen
  | [], g => some g
  | i :: rest, g =>
    if i.ranges.length = 0 then LGen.populate rest g
    else if i.IsFixed then LGen.populate rest { g with inactive := g.inactive ++ [i.id] }
    else do
      assert i.is_virtual
      LGen.populate rest { g with unhandled := g.unhandled ++ [i.id] }

/-- One turn of the main loop of `WalkIntervals` for the interval `cur` just
shifted off `unhandled_`. -/
def LGen.walkStep (g : LGen) (cur : Nat) : Option LGen := do
  let pos ← (g.get cur).start
  let (a, ina, _) ← g.ShuffleIntervals g.active g.inactive pos
  let g1 : LGen := { g with active := a, inactive := ina }
  let g2 ← g1.TryAllocateFreeReg cur
  let g3 ← if !(g2.get cur).is_register then g2.AllocateBlockedReg cur else pure g2
  assert ((g3.get cur).is_register || (g3.get cur).is_stackslot)
  if (g3.get cur).is_register then pure { g3 with active := g3.active ++ [cur] }
  else pure g3

/-- The main loop of `WalkIntervals`; `none` when an assertion fails or the
fuel runs out before `unhandled_` is empty. -/
def LGen.walkLoop : Nat → LGen → Option LGen
  | 0, g => if g.unhandled.isEmpty then some g else none
  | fuel + 1, g =>
    match g.unhandled with
    | [] => some g
    | cur :: rest => do
      let g1 ← LGen.walkStep { g with unhandled := rest } cur
      LGen.walkLoop fuel g1

/-- `LGen::WalkIntervals`. -/
def LGen.WalkIntervals (fuel : Nat) (g : LGen) : Option LGen := do
  let g1 ← LGen.populate g.intervals g
  let g2 : LGen := { g1 with unhandled := sortStableBy g1.startKey g1.unhandled,
                             inactive := sortStableBy g1.startKey g1.inactive }
  LGen.walkLoop fuel g2

/-! ## Spill slot assignment (`lir.cc`, lines 637-712) -/

/-- The two checks "this spill is really free" of `AllocateSpills`: no active
spill has the slot of `f`, and no inactive spill with that slot intersects
`cur`. -/
def LGen.spillFree (g : LGen) (cur f : Nat) : Bool :=
  !(g.active_spills.any (fun a => (g.get a).IsEqual (g.get f))) &&
  !(g.inactive_spills.any (fun a =>
      (g.get a).IsEqual (g.get f) && decide ((g.get a).FindIntersection (g.get cur) ≠ -1)))

/-- The do-while loop of `AllocateSpills`: candidates are shifted off
`free_spills_` until one passes the checks or the list is empty. Returns the
candidate found and what is left of the list. -/
def LGen.pickFree (g : LGen) (cur : Nat) : List Nat → Option Nat × List Nat
  | [] => (none, [])
  | f :: rest => if g.spillFree cur f then (some f, rest) else g.pickFree cur rest

/-- The keys of the `blocked` map of `AllocateSpills`: the slots of the active
spills and of the inactive spills that intersect `cur`. -/
def LGen.blockedSpills (g : LGen) (cur : Nat) : List Int :=
  g.active_spills.map (fun a => (g.get a).index) ++
  (g.inactive_spills.filter
    (fun a => decide ((g.get a).FindIntersection (g.get cur) ≠ -1))).map (fun a => (g.get a).index)

/-- The `max_index` of `AllocateSpills`: the greatest blocked slot, at least 0. -/
def maxIndex (l : List Int) : Int := l.foldl (fun m i => if i > m then i else m) 0

/-- The loop "reuse spill if it's unused now": the first slot below
`max_index` that is not blocked. -/
def firstUnblocked (blocked : List Int) (max_index : Int) : Option Int :=
  ((List.range max_index.toNat).map (fun i : Nat => (i : Int))).find?
    (fun i => decide (i ∉ blocked))

/-- Give `cur` the slot `slot` and push it on `active_spills_`. -/
def LGen.assignSpill (g : LGen) (cur : Nat) (slot : Int) : LGen :=
  { g.put ((g.get cur).Spill slot) with active_spills := g.active_spills ++ [cur] }

/-- Store the three lists `active_spills_`, `inactive_spills_` and
`free_spills_`. -/
def LGen.setSpillLists (g : LGen) (active inactive free : List Nat) : LGen :=
  { g with active_spills := active, inactive_spills := inactive, free_spills := free }

/-- One turn of the loop of `AllocateSpills` for the interval `cur` just
shifted off `unhandled_spills_`. -/
def LGen.spillStep (g : LGen) (cur : Nat) : Option LGen := do
  let pos ← (g.get cur).start
  let sh ← g.ShuffleIntervals g.active_spills g.inactive_spills pos
  let g1 := g.setSpillLists sh.1 sh.2.1 (g.free_spills ++ sh.2.2)
  let pf := g1.pickFree cur g1.free_spills
  let g2 := g1.setSpillLists g1.active_spills g1.inactive_spills pf.2
  match pf.1 with
  | some f => pure (g2.assignSpill cur (g2.get f).index)
  | none =>
    match firstUnblocked (g2.blockedSpills cur) (maxIndex (g2.blockedSpills cur)) with
    | some i => pure (g2.assignSpill cur i)
    | none =>
      if (g2.get cur).index ≠ -1 then pure g2
      else pure { g2.assignSpill cur g2.spill_index with spill_index := g2.spill_index + 1 }

/-- The loop of `AllocateSpills` over the sorted `unhandled_spills_`. -/
def LGen.spillLoop : List Nat → LGen → Option LGen
  | [], g => some g
  | cur :: rest, g => do
    let g1 ← LGen.spillStep { g with unhandled_spills := rest } cur
    LGen.spillLoop rest g1

/-- `LGen::AllocateSpills`. -/
def LGen.AllocateSpills (g : LGen) : Option LGen :=
  LGen.spillLoop (sortStableBy g.startKey g.unhandled_spills) g

/-! ## Liveness and interval construction (`lir.cc`, lines 163-311) -/

/-- `LUseMap::Set` on the key set: add the key unless it is present. -/
def setKey (k : Nat) (l : List Nat) : List Nat := if k ∈ l then l else l ++ [k]

/-- The body of `ComputeLocalLiveSets` for one instruction, on
`(live_gen, live_kill)`. -/
def localLiveInstr (gk : List Nat × List Nat) (instr : LInstruction) : List Nat × List Nat :=
  let gen := instr.inputs.foldl
    (fun gen inp => if inp.1 ∈ gk.2 then gen else setKey inp.1 gen) gk.1
  let kill := instr.scratches.foldl (fun kill sc => setKey sc.1 kill) gk.2
  let kill := match instr.result with
    | some r => setKey r.1 kill
    | none => kill
  (gen, kill)

/-- `LGen::ComputeLocalLiveSets` for one block. -/
def LBlock.ComputeLocalLiveSets (b : LBlock) : LBlock :=
  let gk := b.instructions.foldl localLiveInstr (b.live_gen, b.live_kill)
  { b with live_gen := gk.1, live_kill := gk.2 }

/-- `LGen::ComputeLocalLiveSets`. -/
def LGen.ComputeLocalLiveSets (g : LGen) : LGen :=
  { g with blocks := g.blocks.map LBlock.ComputeLocalLiveSets }

/-- The three copy loops of `ComputeGlobalLiveSets`: every key of the source
that is not yet in the destination and passes `keep` is added, and `change`
is raised. -/
def unionInto (keep : Nat → Bool) : List Nat → List Nat × Bool → List Nat × Bool
  | [], acc => acc
  | k :: ks, (dst, ch) =>
    if k ∉ dst ∧ keep k = true then unionInto keep ks (dst ++ [k], true)
    else unionInto keep ks (dst, ch)

/-- The block at a position of the flattened list (an empty block when out of range). -/
def blockAt (bs : List LBlock) (i : Nat) : LBlock :=
  bs.getD i ⟨[], [], [], [], [], [], -1, -1⟩

/-- The body of the block loop of `ComputeGlobalLiveSets` for the block at
position `bi`. -/
def globalLiveBlock (bs : List LBlock) (ch : Bool) (bi : Nat) : List LBlock × Bool :=
  let b := blockAt bs bi
  let o := b.succ.foldl
    (fun acc s => unionInto (fun _ => true) (blockAt bs s).live_in acc) (b.live_out, ch)
  let i1 := unionInto (fun _ => true) b.live_gen (b.live_in, o.2)
  let i2 := unionInto (fun k => decide (k ∉ b.live_kill)) o.1 i1
  (bs.set bi { b with live_out := o.1, live_in := i2.1 }, i2.2)

/-- One pass of the do-while loop of `ComputeGlobalLiveSets`: the blocks at
positions `n-1, ..., 0`, in that order. -/
def globalLivePass : Nat → List LBlock × Bool → List LBlock × Bool
  | 0, acc => acc
  | n + 1, (bs, ch) => globalLivePass n (globalLiveBlock bs ch n)

/-- The do-while loop of `ComputeGlobalLiveSets` with a bound on the number of
passes; `none` when the bound is hit while sets still change. -/
def globalLiveLoop : Nat → List LBlock → Option (List LBlock)
  | 0, _ => none
  | fuel + 1, bs =>
    let r := globalLivePass bs.length (bs, false)
    if r.2 then globalLiveLoop fuel r.1 else some r.1

/-- `LGen::ComputeGlobalLiveSets`. -/
def LGen.ComputeGlobalLiveSets (fuel : Nat) (g : LGen) : Option LGen :=
  (globalLiveLoop fuel g.blocks).map (fun bs => { g with blocks := bs })

/-- Update an interval through `AddRange`. -/
def LGen.addRange (g : LGen) (id : Nat) (s e : Int) : Option LGen := do
  let i ← (g.get id).AddRange s e
  pure (g.put i)

/-- The call case of `BuildIntervals`: every register not yet covering the
call gets the range `[id, id+1)` and a register use. -/
def LGen.killRegisters (id : Int) : List Nat → LGen → Option LGen
  | [], g => some g
  | r :: rs, g =>
    if (g.get r).Covers id then LGen.killRegisters id rs g
    else do
      let g1 ← g.addRange r id (id + 1)
      LGen.killRegisters id rs (g1.put ((g1.get r).Use UseType.kRegister id))

/-- The scratch loop of `BuildIntervals`. -/
def LGen.buildScratches (id : Int) : List (Nat × UseType) → LGen → Option LGen
  | [], g => some g
  | sc :: rest, g => do
    let g1 ← g.addRange sc.1 (id - 1) id
    LGen.buildScratches id rest g1

/-- The input loop of `BuildIntervals`. -/
def LGen.buildInputs (start_id id : Int) : List (Nat × UseType) → LGen → Option LGen
  | [], g => some g
  | inp :: rest, g =>
    if (g.get inp.1).Covers id then LGen.buildInputs start_id id rest g
    else do
      let g1 ← g.addRange inp.1 start_id id
      LGen.buildInputs start_id id rest g1

/-- The body of the instruction loop of `BuildIntervals`. -/
def LGen.buildInstr (live_in : List Nat) (start_id : Int) (g : LGen) (instr : LInstruction) :
    Option LGen := do
  let g1 ← if instr.has_call then LGen.killRegisters instr.id (List.range kLIRRegisterCount) g
    else pure g
  let g2 ← match instr.result with
    | none => pure g1
    | some r =>
      let res := g1.get r.1
      match res.ranges with
      | [] => g1.addRange r.1 instr.id (instr.id + 1)
      | h :: rest =>
        if r.1 ∉ live_in then pure (g1.put { res with ranges := ⟨instr.id, h.end_⟩ :: rest })
        else pure g1
  let g3 ← LGen.buildScratches instr.id instr.scratches g2
  LGen.buildInputs start_id instr.id instr.inputs g3

/-- The instruction loop of `BuildIntervals`, last instruction first. -/
def LGen.buildInstrs (live_in : List Nat) (start_id : Int) : List LInstruction → LGen → Option LGen
  | [], g => some g
  | instr :: rest, g => do
    let g1 ← LGen.buildInstr live_in start_id g instr
    LGen.buildInstrs live_in start_id rest g1

/-- The live-out loop of `BuildIntervals`. -/
def LGen.buildLiveOut (s e : Int) : List Nat → LGen → Option LGen
  | [], g => some g
  | k :: ks, g => do
    let g1 ← g.addRange k s e
    LGen.buildLiveOut s e ks g1

/-- The body of the block loop of `BuildIntervals` for the block at position `bi`. -/
def LGen.buildBlock (g : LGen) (bi : Nat) : Option LGen := do
  let b := blockAt g.blocks bi
  let first ← b.instructions.head?
  let last ← b.instructions.getLast?
  let b1 : LBlock := { b with start_id := first.id, end_id := last.id }
  let g1 : LGen := { g with blocks := g.blocks.set bi b1 }
  let g2 ← LGen.buildLiveOut b1.start_id (b1.end_id + 2) b1.live_out g1
  LGen.buildInstrs b1.live_in b1.start_id b1.instructions.reverse g2

/-- The block loop of `BuildIntervals`: positions `n-1, ..., 0`. -/
def LGen.buildBlocks : Nat → LGen → Option LGen
  | 0, g => some g
  | n + 1, g => do
    let g1 ← g.buildBlock n
    LGen.buildBlocks n g1

/-- `LGen::BuildIntervals`. -/
def LGen.BuildIntervals (g : LGen) : Option LGen := LGen.buildBlocks g.blocks.length g

/-! ## The generator pipeline (`LGen::LGen`, lines 14-35) -/

/-- A LIR program as instruction generation leaves it: the flattened blocks,
each with its instructions and its successors, and the number of virtual
intervals the instructions refer to (interval ids `kLIRRegisterCount`,
`kLIRRegisterCount + 1`, ...; ids below `kLIRRegisterCount` are the fixed
register intervals). -/
structure LProgram where
  blocks : List (List LInstruction × List Nat)
  virtuals : Nat
deriving Repr

/-- The fixed interval of register `r` (`CreateRegister` then `MarkFixed`). -/
def fixedInterval (r : Nat) : LInterval :=
  { id := r, type := IntervalType.kRegister, index := r, fixed := true, ranges := [], uses := [],
    split_parent := none, split_children := [] }

/-- The `k`-th virtual interval of instruction generation. -/
def virtualInterval (k : Nat) : LInterval :=
  { id := kLIRRegisterCount + k, type := IntervalType.kVirtual, index := 40 + k, fixed := false,
    ranges := [], uses := [], split_parent := none, split_children := [] }

/-- The uses one instruction registers on its operands (`AddArg`,
`AddScratch`, `SetResult`, each through `LInterval::Use`). -/
def LGen.instrUses (g : LGen) (instr : LInstruction) : LGen :=
  let g1 := instr.inputs.foldl (fun g u => g.put ((g.get u.1).Use u.2 instr.id)) g
  let g2 := instr.scratches.foldl (fun g u => g.put ((g.get u.1).Use u.2 instr.id)) g1
  match instr.result with
  | some u => g2.put ((g2.get u.1).Use u.2 instr.id)
  | none => g2

/-- The generator state after `FlattenBlocks` and `GenerateInstructions`. -/
def LGen.init (p : LProgram) : LGen :=
  let instrs := (p.blocks.map Prod.fst).flatten
  let g0 : LGen :=
    { blocks := p.blocks.map (fun b => ⟨b.1, b.2, [], [], [], [], -1, -1⟩),
      instructions := instrs,
      intervals := (List.range kLIRRegisterCount).map fixedInterval ++
        (List.range p.virtuals).map virtualInterval,
      unhandled := [], active := [], inactive := [],
      unhandled_spills := [], active_spills := [], inactive_spills := [], free_spills := [],
      spill_index := 0, virtual_index := 40 + p.virtuals }
  instrs.foldl LGen.instrUses g0

/-- The passes of the `LGen` constructor up to and including `WalkIntervals`. -/
def LGen.allocate (fuel : Nat) (p : LProgram) : Option LGen := do
  let g1 := (LGen.init p).ComputeLocalLiveSets
  let g2 ← g1.ComputeGlobalLiveSets fuel
  let g3 ← g2.BuildIntervals
  g3.WalkIntervals fuel

/-! ## Two concrete LIR programs under register pressure -/

/-- A straight-line instruction without a call. -/
def plainInstr (id : Int) (inputs scratches : List (Nat × UseType))
    (result : Option (Nat × UseType)) : LInstruction :=
  LInstruction.mk_plain id 0 inputs scratches result false

/-- One block: a label, ten values `v10 .. v19` defined one after the other
(`v11` into a register), an eleventh value `v20` computed from `v13`, an
instruction that reads `v19` and `v10` and needs a scratch register (`v21`),
and then the remaining values read by later instructions. Every value is
defined before it is read and no instruction reads a value twice. -/
def pressureProgramA : LProgram :=
  { blocks := [([
      plainInstr 0 [] [] none,
      plainInstr 2 [] [] (some (10, UseType.kAny)),
      plainInstr 4 [] [] (some (11, UseType.kRegister)),
      plainInstr 6 [] [] (some (12, UseType.kAny)),
      plainInstr 8 [] [] (some (13, UseType.kAny)),
      plainInstr 10 [] [] (some (14, UseType.kAny)),
      plainInstr 12 [] [] (some (15, UseType.kAny)),
      plainInstr 14 [] [] (some (16, UseType.kAny)),
      plainInstr 16 [] [] (some (17, UseType.kAny)),
      plainInstr 18 [] [] (some (18, UseType.kAny)),
      plainInstr 20 [] [] (some (19, UseType.kAny)),
      plainInstr 22 [(13, UseType.kAny)] [] (some (20, UseType.kAny)),
      plainInstr 24 [(19, UseType.kAny), (10, UseType.kAny)] [(21, UseType.kRegister)] none,
      plainInstr 26 [(16, UseType.kAny)] [] none,
      plainInstr 28 [(20, UseType.kAny)] [] none,
      plainInstr 30 [(17, UseType.kAny), (14, UseType.kAny)] [] none,
      plainInstr 32 [(12, UseType.kAny), (18, UseType.kAny)] [] none,
      plainInstr 34 [(11, UseType.kAny), (15, UseType.kAny)] [] none], [])],
    virtuals := 12 }

/-- One block: a label, ten values `v10 .. v19`, an instruction that reads
`v12` and `v18` and needs a scratch register (`v20`), and then the remaining
values read by later instructions, the last of which needs `v15` in a
register. -/
def pressureProgramB : LProgram :=
  { blocks := [([
      plainInstr 0 [] [] none,
      plainInstr 2 [] [] (some (10, UseType.kAny)),
      plainInstr 4 [] [] (some (11, UseType.kAny)),
      plainInstr 6 [] [] (some (12, UseType.kAny)),
      plainInstr 8 [] [] (some (13, UseType.kAny)),
      plainInstr 10 [] [] (some (14, UseType.kAny)),
      plainInstr 12 [] [] (some (15, UseType.kAny)),
      plainInstr 14 [] [] (some (16, UseType.kAny)),
      plainInstr 16 [] [] (some (17, UseType.kAny)),
      plainInstr 18 [] [] (some (18, UseType.kAny)),
      plainInstr 20 [] [] (some (19, UseType.kAny)),
      plainInstr 22 [(12, UseType.kAny), (18, UseType.kAny)] [(20, UseType.kRegister)] none,
      plainInstr 24 [(19, UseType.kAny)] [] none,
      plainInstr 26 [(11, UseType.kAny), (10, UseType.kAny)] [] none,
      plainInstr 28 [(16, UseType.kAny), (13, UseType.kAny)] [] none,
      plainInstr 30 [(14, UseType.kAny)] [] none,
      plainInstr 32 [(17, UseType.kAny), (15, UseType.kRegister)] [] none], [])],
    virtuals := 11 }

/-! ## Well-formedness predicates used by the statements -/

/-- Ranges sorted and pairwise disjoint: no range ends before it starts and
every range ends at or before the start of every later one. -/
def rangesSorted (rs : List LRange) : Prop :=
  (∀ r ∈ rs, r.start ≤ r.end_) ∧ rs.Pairwise (fun a b => a.end_ ≤ b.start)

/-- Uses sorted by instruction id. -/
def usesSorted (us : List LUse) : Prop := us.Pairwise (fun a b => a.instr ≤ b.instr)

/-- Some range of the list contains the position. -/
def covered (rs : List LRange) (p : Int) : Prop := ∃ r ∈ rs, r.start ≤ p ∧ p < r.end_

/-- The assertions of `GetGap` at `pos` hold: the instruction list reaches
`pos`, and the first instruction at or after `pos` either is the gap at `pos`
or has a predecessor. -/
def LGen.gapReady (g : LGen) (pos : Int) : Prop :=
  match g.instructions.dropWhile (fun x => decide (x.id < pos)) with
  | [] => False
  | h :: _ =>
    if h.id = pos then h.is_gap = true
    else g.instructions.takeWhile (fun x => decide (x.id < pos)) ≠ []

/-- The piece of a range that `Split` gives to the child: the range itself,
cut at `pos` when it starts before it. -/
def cutRight (pos : Int) (r : LRange) : LRange := if r.start < pos then ⟨pos, r.end_⟩ else r

/-- A small allocator state: five instructions with ids 0, 2, 4, 6, 8 and one
virtual interval live on `[2, 8)` with a use at instruction 2 and a
register use at instruction 6. -/
def splitSample : LGen :=
  { blocks := [], instructions :=
      [plainInstr 0 [] [] none, plainInstr 2 [] [] (some (0, UseType.kAny)),
       plainInstr 4 [] [] none, plainInstr 6 [(0, UseType.kRegister)] [] none,
       plainInstr 8 [] [] none],
    intervals := [LInterval.mk 0 IntervalType.kVirtual 40 false [⟨2, 8⟩]
      [⟨UseType.kAny, 2⟩, ⟨UseType.kRegister, 6⟩] none []],
    unhandled := [], active := [], inactive := [],
    unhandled_spills := [], active_spills := [], inactive_spills := [], free_spills := [],
    spill_index := 0, virtual_index := 41 }

/-- What `AllocateSpills` expects of a queued interval: it is in the table
under its own id, in stackslot state with the placeholder slot `-1` (as
`LGen::Spill` leaves it), and its ranges are non-empty, sorted and at
non-negative positions. -/
def spillReady (g : LGen) (id : Nat) : Prop :=
  id < g.intervals.length ∧ (g.get id).id = id ∧
  (g.get id).type = IntervalType.kStackSlot ∧ (g.get id).index = -1 ∧
  (g.get id).ranges ≠ [] ∧ rangesSorted (g.get id).ranges ∧
  ∀ r ∈ (g.get id).ranges, 0 ≤ r.start

/-- Invariant of the loop of `AllocateSpills`, relating the state `g` to the
state `g0` at entry: `done` are the intervals already given a slot and `lo`
is the position of the last shuffle. Only the state and the slot of finished
intervals have changed; every finished interval is still in one of the three
lists or ended before `lo`; finished intervals sharing a slot do not
intersect; every slot handed out is below `spill_index_`. -/
structure SpillInv (g0 g : LGen) (done : List Nat) (lo : Int) : Prop where
  len : g.intervals.length = g0.intervals.length
  ranges : ∀ id, (g.get id).ranges = (g0.get id).ranges
  same : ∀ id, id ∉ done → g.get id = g0.get id
  typed : ∀ id ∈ done, (g.get id).type = IntervalType.kStackSlot ∧ (g.get id).index < g.spill_index
  lists : ∀ id, (id ∈ g.active_spills ∨ id ∈ g.inactive_spills ∨ id ∈ g.free_spills) → id ∈ done
  live : ∀ id ∈ done, id ∈ g.active_spills ∨ id ∈ g.inactive_spills ∨
    ∃ e, (g.get id).end_ = some e ∧ e < lo
  disj : ∀ a ∈ done, ∀ b ∈ done, a ≠ b → (g.get a).index = (g.get b).index →
    (g.get a).FindIntersection (g.get b) = -1
  nonneg : 0 ≤ g.spill_index

/-- A small state at the entry of `AllocateSpills`: three spilled intervals
live on `[0, 4)`, `[2, 6)` and `[5, 8)`, queued in that order. -/
def spillSample : LGen :=
  { blocks := [], instructions := [],
    intervals := [LInterval.mk 0 IntervalType.kStackSlot (-1) false [⟨0, 4⟩] [] none [],
                  LInterval.mk 1 IntervalType.kStackSlot (-1) false [⟨2, 6⟩] [] none [],
                  LInterval.mk 2 IntervalType.kStackSlot (-1) false [⟨5, 8⟩] [] none []],
    unhandled := [], active := [], inactive := [],
    unhandled_spills := [0, 1, 2], active_spills := [], inactive_spills := [], free_spills := [],
    spill_index := 0, virtual_index := 43 }

/-! ## Liveness: closed families, the loop invariant, a sample -/

/-- The families `IN`, `OUT` of sets of interval ids are closed under the two
liveness equations of the blocks `bs`, read from right to left. -/
def liveClosed (bs : List LBlock) (IN OUT : Nat → Nat → Prop) : Prop :=
  ∀ i, i < bs.length → ∀ k,
    ((∃ s ∈ (blockAt bs i).succ, IN s k) → OUT i k) ∧
    ((k ∈ (blockAt bs i).live_gen ∨ (OUT i k ∧ k ∉ (blockAt bs i).live_kill)) → IN i k)

/-- Invariant of `ComputeGlobalLiveSets`, relating the blocks `bs` to the
blocks `bs0` at entry: only `live_in` and `live_out` change, every key in
`live_out` is in the `live_in` of a successor, every key in `live_in` is
generated or live out and not killed, and both sets stay inside every closed
family. -/
structure LiveInv (bs0 bs : List LBlock) : Prop where
  len : bs.length = bs0.length
  frame : ∀ i, (blockAt bs i).succ = (blockAt bs0 i).succ ∧
    (blockAt bs i).live_gen = (blockAt bs0 i).live_gen ∧
    (blockAt bs i).live_kill = (blockAt bs0 i).live_kill
  out_sound : ∀ i k, k ∈ (blockAt bs i).live_out →
    ∃ s ∈ (blockAt bs i).succ, k ∈ (blockAt bs s).live_in
  in_sound : ∀ i k, k ∈ (blockAt bs i).live_in →
    k ∈ (blockAt bs i).live_gen ∨
      (k ∈ (blockAt bs i).live_out ∧ k ∉ (blockAt bs i).live_kill)
  least : ∀ IN OUT : Nat → Nat → Prop, liveClosed bs0 IN OUT →
    ∀ i k, (k ∈ (blockAt bs i).live_in → IN i k) ∧ (k ∈ (blockAt bs i).live_out → OUT i k)

/-- The number of keys in the `live_in` and `live_out` sets of all blocks. -/
def liveSize (bs : List LBlock) : Nat :=
  (bs.map (fun b => b.live_in.length + b.live_out.length)).sum

/-- Three blocks with a loop: the entry block defines `v10`, the loop block
reads `v10`, defines `v11` and reads it, and goes either back to itself or to
the exit block, which reads `v10`. -/
def loopProgram : LProgram :=
  { blocks := [
      ([LInstruction.mk_plain 0 0 [] [] none false,
        LInstruction.mk_plain 2 0 [] [] (some (10, UseType.kAny)) false], [1]),
      ([LInstruction.mk_plain 4 1 [(10, UseType.kAny)] [] (some (11, UseType.kAny)) false,
        LInstruction.mk_plain 6 1 [(11, UseType.kAny)] [] none false], [2, 1]),
      ([LInstruction.mk_plain 8 2 [(10, UseType.kAny)] [] none false], [])],
    virtuals := 2 }

/-- The generator state for `loopProgram` after `ComputeLocalLiveSets`. -/
def liveSample : LGen := (LGen.init loopProgram).ComputeLocalLiveSets

/-! ## Heap values and the copying collector (`heap.h`, `gc.cc`) -/

/-- `Heap::kTagNil`, the first member of `Heap::HeapTag`. -/
def kTagNil : Nat := 0x01

/-- `Heap::kTagContext`. -/
def kTagContext : Nat := 2

/-- `Heap::kTagBoolean`. -/
def kTagBoolean : Nat := 3

/-- `Heap::kTagNumber`. -/
def kTagNumber : Nat := 4

/-- `Heap::kTagString`. -/
def kTagString : Nat := 5

/-- `Heap::kTagObject`. -/
def kTagObject : Nat := 6

/-- `Heap::kTagArray`. -/
def kTagArray : Nat := 7

/-- `Heap::kTagFunction`. -/
def kTagFunction : Nat := 8

/-- `Heap::kTagCData`. -/
def kTagCData : Nat := 9

/-- `Heap::kTagMap`. -/
def kTagMap : Nat := 10

/-- Modelled from the spec: the tag "Code" that is read behind a return address
found on the stack and never appears on a heap object. `gc.cc` names it
`Heap::kTagCode`; the enum of `heap.h` has no such member, so the value is
only required to lie outside the enum. -/
def kTagCode : Nat := 0x90

/-- `Heap::kMinOldSpaceGeneration`. -/
def kMinOldSpaceGeneration : Nat := 5

/-- `Heap::kEnterFrameTag` as declared in `heap.h`. -/
def kEnterFrameTag : Nat := 0xFEEDBEEE

/-- `HString::kCons`. -/
def kCons : Nat := 0x01

/-- `HNil::New()`: the Nil value is the tag `kTagNil` itself, a pointer with no
header behind it. -/
def HNil.New : Nat := kTagNil

/-- A boxed heap value: the bytes of its first word that the collector reads
(tag, representation, generation, GC mark) and the words that follow it.
`fields[j]` is the word at interior offset `j + 1` (`HINTERIOR_OFFSET(j + 1)`);
the forward pointer (`kGCForwardOffset = HINTERIOR_OFFSET(1)`) is `fields[0]`. -/
structure HObj where
  tag : Nat
  representation : Nat
  generation : Nat
  mark : Bool
  fields : List Nat
deriving DecidableEq, Repr

/-- `Heap::ReferenceType`. -/
inductive ReferenceType where
  | kRefWeak
  | kRefPersistent
deriving DecidableEq, Repr

/-- `HValueReference`: the type, the handle that owns the reference (a
`HValue**`, here a number naming the handle) and the referent. -/
structure HValueReference where
  type : ReferenceType
  reference : Nat
  value : Nat
deriving DecidableEq, Repr

/-- `HValueWeakRef`: the referent and the callback (a number naming it). -/
structure HValueWeakRef where
  value : Nat
  callback : Nat
deriving DecidableEq, Repr

/-- The heap and the native stack. Object number `i` of `objs` lives at the odd
address `2 * i + 3` (a freed object is `none`); a `Space` is the list of the
addresses allocated in its pages; `code` holds the return addresses of
generated code; stack addresses count words, address `0` is `NULL` and the
word at index `0` is never read. -/
structure Heap where
  objs : List (Option HObj)
  code : List Nat
  new_space : List Nat
  old_space : List Nat
  stack : List Nat
  needs_gc : Nat
  references : List HValueReference
  weak_references : List HValueWeakRef
deriving DecidableEq, Repr

/-- A `char**`: `NULL`, the address of a stack word, or the address of the
word at interior offset `j + 1` of the heap value at `addr`. -/
inductive Slot where
  | null
  | stack (p : Nat)
  | field (addr : Nat) (j : Nat)
deriving DecidableEq, Repr

/-- `GC::GCValue`: a value and the slot it was read from. -/
structure GCValue where
  value : Nat
  slot : Slot
deriving DecidableEq, Repr

/-- The `Space` arguments a copy can be directed to: the two spaces of the heap
and the temporary space local to `CollectGarbage`. -/
inductive SpaceRef where
  | heapNew
  | heapOld
  | temporary
deriving DecidableEq, Repr

/-- The collector during a cycle: the heap, the grey queue and the temporary
`space` of `CollectGarbage`. -/
structure GC where
  heap : Heap
  grey_items : List GCValue
  space : List Nat
deriving DecidableEq, Repr

/-- The address of object number `i`. -/
def addrOf (i : Nat) : Nat := 2 * i + 3

/-- The object number behind an address. -/
def indexOf (a : Nat) : Nat := (a - 3) / 2

/-- Modelled from the spec: `HValue::IsUnboxed`, the low bit of the pointer is 0. -/
def HValue.IsUnboxed (a : Nat) : Bool := a % 2 == 0

/-- The heap value an address points to; `none` for an address that is not
that of a live object (reading through it is undefined). -/
def Heap.obj (h : Heap) (a : Nat) : Option HObj :=
  if a % 2 = 1 ∧ 3 ≤ a then h.objs.getD (indexOf a) none else none

/-- Overwrite the heap value at an address. -/
def Heap.setObj (h : Heap) (a : Nat) (o : HObj) : Heap :=
  { h with objs := h.objs.set (indexOf a) (some o) }

/-- Modelled from the spec: `HValue::GetTag`, the tag of a value. The tag tests are defined
on every value: the Nil pointer and the unboxed integers have no header and
carry the tags Nil and Number; behind the address of a heap value lies the tag
byte of its header, behind a return address `kTagCode`. Reading the tag
behind any other address is undefined. -/
def Heap.GetTag (h : Heap) (a : Nat) : Option Nat :=
  if a = HNil.New then some kTagNil
  else if HValue.IsUnboxed a then some kTagNumber
  else
    match h.obj a with
    | some o => some o.tag
    | none => if a ∈ h.code then some kTagCode else none

/-- Read through a slot. -/
def Heap.load (h : Heap) : Slot → Option Nat
  | Slot.null => none
  | Slot.stack p => h.stack[p]?
  | Slot.field a j => (h.obj a).bind (fun o => o.fields[j]?)

/-- Write through a slot (`*slot = w`). -/
def Heap.store (h : Heap) (s : Slot) (w : Nat) : Option Heap :=
  match s with
  | Slot.null => none
  | Slot.stack p => if p < h.stack.length then some { h with stack := h.stack.set p w } else none
  | Slot.field a j =>
    (h.obj a).bind (fun o =>
      if j < o.fields.length then some (h.setObj a { o with fields := o.fields.set j w })
      else none)

/-- Modelled from the spec: `HValue::IsGCMarked`, the GC mark of the header is set. -/
def HValue.IsGCMarked (h : Heap) (a : Nat) : Option Bool := (h.obj a).map HObj.mark

/-- Modelled from the spec: `HValue::GetGCMark`, the forward pointer, the word at
`kGCForwardOffset`. -/
def HValue.GetGCMark (h : Heap) (a : Nat) : Option Nat := h.load (Slot.field a 0)

/-- Modelled from the spec: `HValue::SetGCMark`, set the mark and store the new address
as forward pointer. -/
def HValue.SetGCMark (h : Heap) (a : Nat) (new_addr : Nat) : Option Heap :=
  (h.obj a).bind (fun o =>
    if 0 < o.fields.length then
      some (h.setObj a { o with mark := true, fields := o.fields.set 0 new_addr })
    else none)

/-- `GC::GCValue::Relocate`. -/
def GCValue.Relocate (v : GCValue) (address : Nat) (h : Heap) : Option Heap :=
  if v.slot ≠ Slot.null then
    (h.store v.slot address).bind (fun h1 => HValue.SetGCMark h1 v.value address)
  else some h

/-- Modelled from the spec: `Space::Allocate` followed by the copy of the bytes: the new
value gets the next free address, which is added to the pages of the space. -/
def GC.Allocate (g : GC) (space : SpaceRef) (o : HObj) : Nat × GC :=
  let a := addrOf g.heap.objs.length
  let h := { g.heap with objs := g.heap.objs ++ [some o] }
  match space with
  | SpaceRef.heapNew => (a, { g with heap := { h with new_space := h.new_space ++ [a] } })
  | SpaceRef.heapOld => (a, { g with heap := { h with old_space := h.old_space ++ [a] } })
  | SpaceRef.temporary => (a, { g with heap := h, space := g.space ++ [a] })

/-- Modelled from the spec: `HValue::CopyTo(old_space, new_space)`, declared in `heap.h`
with its body in `heap.cc`: the evacuation increments the generation byte, and
the value is copied into the old space when its generation has reached
`kMinOldSpaceGeneration`, into the new space otherwise. -/
def HValue.CopyTo (g : GC) (a : Nat) (old_space new_space : SpaceRef) : Option (Nat × GC) :=
  (g.heap.obj a).map (fun o =>
    let o1 := { o with generation := (o.generation + 1) % 256 }
    let g1 := { g with heap := g.heap.setObj a o1 }
    if kMinOldSpaceGeneration ≤ o1.generation then g1.Allocate old_space o1
    else g1.Allocate new_space o1)

/-- `grey_items()->Push(new GCValue(value, slot))`. -/
def GC.push (g : GC) (value : Nat) (slot : Slot) : GC :=
  { g with grey_items := g.grey_items ++ [⟨value, slot⟩] }

/-- The slot loop of `GC::VisitContext` for the slots `i, ..., i + n - 1`. The
accessors of `heap-inl.h` are read off the layout of `heap.h`: slot `i` is the
word at interior offset `3 + i`, right after `kSlotsOffset`, and `HasSlot` is
taken to test that the slot does not hold Nil. -/
def GC.VisitContextSlots (context : Nat) : Nat → Nat → GC → Option GC
  | _, 0, g => some g
  | i, n + 1, g =>
    (g.heap.load (Slot.field context (2 + i))).bind (fun w =>
      if w = HNil.New then GC.VisitContextSlots context (i + 1) n g
      else GC.VisitContextSlots context (i + 1) n (g.push w (Slot.field context (2 + i))))

/-- `GC::VisitContext`: the parent (`kParentOffset`) when it is not `NULL`,
then every used slot; `slots()` is the word at `kSlotsOffset` read as
`uint32_t`. -/
def GC.VisitContext (g : GC) (context : Nat) : Option GC :=
  (g.heap.load (Slot.field context 0)).bind (fun parent =>
    (g.heap.load (Slot.field context 1)).bind (fun slots =>
      GC.VisitContextSlots context 0 (slots % 2 ^ 32)
        (if parent ≠ 0 then g.push parent (Slot.field context 0) else g)))

/-- `GC::VisitFunction`: the parent slot (`HFunction::kParentOffset`), and
nothing else. -/
def GC.VisitFunction (g : GC) (fn : Nat) : Option GC :=
  (g.heap.load (Slot.field fn 0)).map (fun parent => g.push parent (Slot.field fn 0))

/-- `GC::VisitObject`: the map slot (`HObject::kMapOffset`). -/
def GC.VisitObject (g : GC) (obj : Nat) : Option GC :=
  (g.heap.load (Slot.field obj 1)).map (fun map => g.push map (Slot.field obj 1))

/-- The loop of `GC::VisitMap` for the slots `i, ..., i + n - 1` of a map of
`size` slots. The accessors of `heap-inl.h` are read off the layout of
`heap.h`: slot `i` is word `i` of the space that starts at `kSpaceOffset`, and
a slot is empty (`IsEmptySlot`) when its key is Nil. -/
def GC.VisitMapSlots (map size : Nat) : Nat → Nat → GC → Option GC
  | _, 0, g => some g
  | i, n + 1, g =>
    (g.heap.load (Slot.field map (1 + i))).bind (fun key =>
      if key = HNil.New then GC.VisitMapSlots map size (i + 1) n g
      else
        (g.heap.load (Slot.field map (1 + (i + size)))).bind (fun value =>
          GC.VisitMapSlots map size (i + 1) n
            ((g.push key (Slot.field map (1 + i))).push value
              (Slot.field map (1 + (i + size))))))

/-- `GC::VisitMap`; `size()` is the word at `kSizeOffset` read as `uint32_t`. -/
def GC.VisitMap (g : GC) (map : Nat) : Option GC :=
  (g.heap.load (Slot.field map 0)).bind (fun size =>
    GC.VisitMapSlots map (size % 2 ^ 32) 0 (size % 2 ^ 32) g)

/-- `GC::VisitValue`: the switch on the tag; `UNEXPECTED` (the default case)
aborts. -/
def GC.VisitValue (g : GC) (value : Nat) : Option GC :=
  (g.heap.GetTag value).bind (fun tag =>
    if tag = kTagContext then g.VisitContext value
    else if tag = kTagFunction then g.VisitFunction value
    else if tag = kTagObject then g.VisitObject value
    else if tag = kTagMap then g.VisitMap value
    else if tag = kTagString ∨ tag = kTagNumber ∨ tag = kTagBoolean then some g
    else none)

/-- The body of the grey loop of `GC::CollectGarbage` for the item that
`Shift` has taken from the queue. The call `CopyTo(&space)` names the
temporary space only. -/
def GC.greyStep (g : GC) (value : GCValue) : Option GC :=
  if HValue.IsUnboxed value.value then some g
  else
    (HValue.IsGCMarked g.heap value.value).bind (fun marked =>
      if !marked then
        (HValue.CopyTo g value.value SpaceRef.temporary SpaceRef.temporary).bind (fun r =>
          (value.Relocate r.1 r.2.heap).bind (fun h =>
            GC.VisitValue { r.2 with heap := h } r.1))
      else
        (HValue.GetGCMark g.heap value.value).bind (fun fwd =>
          (value.Relocate fwd g.heap).map (fun h => { g with heap := h })))

/-- The grey loop of `GC::CollectGarbage`, with a bound on the number of
items taken from the queue. -/
def GC.greyLoop : Nat → GC → Option GC
  | 0, _ => none
  | fuel + 1, g =>
    match g.grey_items with
    | [] => some g
    | value :: rest => (GC.greyStep { g with grey_items := rest } value).bind (GC.greyLoop fuel)

/-- The inner `while` of the stack walk: as long as the low 32 bits of the word
at `top` are `0xFEEEDBEE` (the literal of `gc.cc`), go to the address stored
in the next word. -/
def GC.skipFrames (h : Heap) : Nat → Nat → Option Nat
  | 0, _ => none
  | fuel + 1, top =>
    if top = 0 then some 0
    else
      h.stack[top]?.bind (fun w =>
        if w % 2 ^ 32 = 0xFEEEDBEE then h.stack[top + 1]?.bind (GC.skipFrames h fuel)
        else some top)

/-- The stack walk of `GC::CollectGarbage`: the grey items found from `top`
on. -/
def GC.walkStack (h : Heap) : Nat → Nat → List GCValue → Option (List GCValue)
  | 0, _, _ => none
  | fuel + 1, top, grey =>
    if top = 0 then some grey
    else
      (GC.skipFrames h (fuel + 1) top).bind (fun top =>
        if top = 0 then some grey
        else
          h.stack[top + 1]?.bind (fun next =>
            (if (next % 2 ^ 32) / 0x8000000 % 2 = 0 then
                (h.GetTag next).map (fun t => decide (t = kTagCode))
              else some false).bind (fun skip =>
              if skip then GC.walkStack h fuel (top + 1 + 1) grey
              else
                h.stack[top]?.bind (fun value =>
                  if value = 0 ∨ HValue.IsUnboxed value = true then
                    GC.walkStack h fuel (top + 1) grey
                  else
                    (h.GetTag value).bind (fun t =>
                      if t = kTagCode then GC.walkStack h fuel (top + 1) grey
                      else GC.walkStack h fuel (top + 1)
                        (grey ++ [⟨value, Slot.stack top⟩]))))))

/-- Modelled from the spec: `Space::Swap` on the new space: its pages are deallocated and
it takes the pages of the temporary space. -/
def GC.Swap (g : GC) : GC :=
  { heap := { g.heap with
      objs := g.heap.new_space.foldl (fun objs a => objs.set (indexOf a) none) g.heap.objs,
      new_space := g.space },
    grey_items := g.grey_items,
    space := [] }

/-- `GC::CollectGarbage`. -/
def GC.CollectGarbage (fuel : Nat) (g : GC) (stack_top : Nat) : Option GC :=
  (assert (g.grey_items.length == 0)).bind (fun _ =>
    let h := { g.heap with needs_gc := 0 }
    (GC.walkStack h fuel stack_top []).bind (fun grey =>
      (GC.greyLoop fuel { heap := h, grey_items := grey, space := [] }).map GC.Swap))

/-- A heap with two strings, a cons-string made of them, a root context and a
function whose root slot names that context; the stack holds the cons-string
and the function below an enter frame whose link is `NULL`. -/
def rewriteSample : GC :=
  { heap :=
      { objs := [
          some ⟨kTagString, 0, 0, false, [0, 12, 1111]⟩,
          some ⟨kTagString, 0, 0, false, [0, 12, 2222]⟩,
          some ⟨kTagString, kCons, 0, false, [0, 24, addrOf 0, addrOf 1]⟩,
          some ⟨kTagContext, 0, 0, false, [0, 0]⟩,
          some ⟨kTagFunction, 0, 0, false, [0, 4242, addrOf 3, 0]⟩],
        code := [],
        new_space := [addrOf 0, addrOf 1, addrOf 2, addrOf 3, addrOf 4],
        old_space := [],
        stack := [0, addrOf 2, addrOf 4, 0xFEEEDBEE, 0],
        needs_gc := 1,
        references := [],
        weak_references := [] },
    grey_items := [],
    space := [] }

/-- A heap with an empty map, an object that only a persistent handle refers
to, and a boxed number on the stack. -/
def persistentSample : GC :=
  { heap :=
      { objs := [
          some ⟨kTagMap, 0, 0, false, [1, HNil.New, HNil.New]⟩,
          some ⟨kTagObject, 0, 0, false, [0, addrOf 0]⟩,
          some ⟨kTagNumber, 0, 0, false, [77]⟩],
        code := [],
        new_space := [addrOf 0, addrOf 1, addrOf 2],
        old_space := [],
        stack := [0, addrOf 2, 0xFEEEDBEE, 0],
        needs_gc := 1,
        references := [⟨ReferenceType.kRefPersistent, 0, addrOf 1⟩],
        weak_references := [] },
    grey_items := [],
    space := [] }

/-- A heap with an empty map, an object that nothing but a weak reference
refers to, and a boxed number on the stack that a second weak reference
refers to. -/
def weakSample : GC :=
  { heap :=
      { objs := [
          some ⟨kTagMap, 0, 0, false, [1, HNil.New, HNil.New]⟩,
          some ⟨kTagObject, 0, 0, false, [0, addrOf 0]⟩,
          some ⟨kTagNumber, 0, 0, false, [77]⟩],
        code := [],
        new_space := [addrOf 0, addrOf 1, addrOf 2],
        old_space := [],
        stack := [0, addrOf 2, 0xFEEEDBEE, 0],
        needs_gc := 1,
        references := [],
        weak_references := [⟨addrOf 1, 0⟩, ⟨addrOf 2, 1⟩] },
    grey_items := [],
    space := [] }

/-- The pages of a space. -/
def GC.pages (g : GC) : SpaceRef → List Nat
  | SpaceRef.heapNew => g.heap.new_space
  | SpaceRef.heapOld => g.heap.old_space
  | SpaceRef.temporary => g.space

/-- A heap with one number of generation 4 (one evacuation short of the old
space) and one of generation 0. -/
def promotionSample : GC :=
  { heap :=
      { objs := [
          some ⟨kTagNumber, 0, 4, false, [77]⟩,
          some ⟨kTagNumber, 0, 0, false, [78]⟩],
        code := [],
        new_space := [addrOf 0, addrOf 1],
        old_space := [],
        stack := [0, addrOf 0, addrOf 1, 0xFEEEDBEE, 0],
        needs_gc := 1,
        references := [],
        weak_references := [] },
    grey_items := [],
    space := [] }

/-! ## The grey loop: outgoing slots, the loop invariant, a sample -/

/-- The `fields` indices of the slots that the loop of `VisitContext` pushes
for the slots `i, ..., i + n - 1`, in the order of the pushes. -/
def contextSlotKeys (fields : List Nat) : Nat → Nat → List Nat
  | _, 0 => []
  | i, n + 1 =>
    if fields.getD (2 + i) 0 = HNil.New then contextSlotKeys fields (i + 1) n
    else (2 + i) :: contextSlotKeys fields (i + 1) n

/-- The `fields` indices of the slots that the loop of `VisitMap` pushes for
the slots `i, ..., i + n - 1` of a map of `size` slots, in the order of the
pushes. -/
def mapSlotKeys (fields : List Nat) (size : Nat) : Nat → Nat → List Nat
  | _, 0 => []
  | i, n + 1 =>
    if fields.getD (1 + i) 0 = HNil.New then mapSlotKeys fields size (i + 1) n
    else (1 + i) :: (1 + (i + size)) :: mapSlotKeys fields size (i + 1) n

/-- The `fields` indices of the slots that `VisitValue` pushes for a value with
this tag and these words, in the order of the pushes; `none` when the visit
aborts (`UNEXPECTED`) or the value has fewer words than its layout says. -/
def HObj.outgoing (o : HObj) : Option (List Nat) :=
  if o.tag = kTagContext then
    if 2 + o.fields.getD 1 0 % 2 ^ 32 ≤ o.fields.length then
      some ((if o.fields.getD 0 0 ≠ 0 then [0] else []) ++
        contextSlotKeys o.fields 0 (o.fields.getD 1 0 % 2 ^ 32))
    else none
  else if o.tag = kTagFunction then (if 0 < o.fields.length then some [0] else none)
  else if o.tag = kTagObject then (if 1 < o.fields.length then some [1] else none)
  else if o.tag = kTagMap then
    if 1 + 2 * (o.fields.getD 0 0 % 2 ^ 32) ≤ o.fields.length then
      some (mapSlotKeys o.fields (o.fields.getD 0 0 % 2 ^ 32) 0 (o.fields.getD 0 0 % 2 ^ 32))
    else none
  else if o.tag = kTagString ∨ o.tag = kTagNumber ∨ o.tag = kTagBoolean then some []
  else none

/-- The grey items for the slots `ks` of the value at `a` whose words are
`fields`. -/
def slotItems (a : Nat) (fields : List Nat) (ks : List Nat) : List GCValue :=
  ks.map (fun k => ⟨fields.getD k 0, Slot.field a k⟩)

/-- The value at `v` is GC-marked and its forward pointer is `f`. -/
def Forwarded (h : Heap) (v f : Nat) : Prop :=
  (h.obj v).map HObj.mark = some true ∧ h.load (Slot.field v 0) = some f

/-- The slot `s`, which held the value `w` when it was found, is either still
in the grey queue or done: it is no longer queued, and it holds `w` itself when
`w` is unboxed and the forward pointer of `w` when `w` is boxed. -/
def Tracked (g : GC) (w : Nat) (s : Slot) : Prop :=
  ⟨w, s⟩ ∈ g.grey_items ∨
  (s ∉ g.grey_items.map GCValue.slot ∧ (w % 2 = 0 → g.heap.load s = some w) ∧
    (w % 2 = 1 → ∃ f, Forwarded g.heap w f ∧ g.heap.load s = some f))

/-- Invariant of the grey loop, relating the collector `g` to the collector
`g0` at the start of the loop, for a set `R` of addresses of values of `g0`
that is closed under the slots the collector follows. -/
structure GreyInv (R : Nat → Prop) (g0 g : GC) : Prop where
  len : g0.heap.objs.length ≤ g.heap.objs.length
  space : g.space = g0.space ++
    (List.range' g0.heap.objs.length (g.heap.objs.length - g0.heap.objs.length)).map addrOf
  from_same : ∀ v o, R v → g0.heap.obj v = some o →
    ∃ o', g.heap.obj v = some o' ∧ o'.tag = o.tag ∧ o'.fields.length = o.fields.length ∧
      (o'.mark = false → o'.fields = o.fields) ∧
      (o'.mark = true → ∃ j, g0.heap.objs.length ≤ j ∧ j < g.heap.objs.length ∧
        g.heap.load (Slot.field v 0) = some (addrOf j))
  to_copy : ∀ j, g0.heap.objs.length ≤ j → j < g.heap.objs.length →
    ∃ v o ks, R v ∧ g0.heap.obj v = some o ∧ o.outgoing = some ks ∧
      Forwarded g.heap v (addrOf j) ∧
      (g.heap.obj (addrOf j)).map HObj.tag = some o.tag ∧
      (g.heap.obj (addrOf j)).map HObj.mark = some false ∧
      (g.heap.obj (addrOf j)).map (fun c => c.fields.length) = some o.fields.length ∧
      ∀ k ∈ ks, Tracked g (o.fields.getD k 0) (Slot.field (addrOf j) k)
  inj : ∀ v v' f, R v → R v' → Forwarded g.heap v f → Forwarded g.heap v' f → v = v'
  roots : ∀ it ∈ g0.grey_items, Tracked g it.value it.slot
  queue : ∀ it ∈ g.grey_items, g.heap.load it.slot = some it.value ∧
    (it.value % 2 = 0 ∨ R it.value) ∧
    (∀ b k, it.slot = Slot.field b k → g0.heap.objs.length ≤ indexOf b)
  nodup : (g.grey_items.map GCValue.slot).Nodup

/-- What object number `i` of `g0` still adds to the work of the grey loop: one
step for its copy and one for each of its outgoing slots, as long as it is
not marked. -/
def greyPending (g0 g : GC) (i : Nat) : Nat :=
  if (g.heap.obj (addrOf i)).map HObj.mark = some false then
    1 + (((g0.heap.obj (addrOf i)).bind HObj.outgoing).getD []).length
  else 0

/-- A bound on the number of items the grey loop has yet to take from the
queue. -/
def greyMeasure (g0 g : GC) : Nat :=
  g.grey_items.length + ((List.range g0.heap.objs.length).map (greyPending g0 g)).sum

/-- Two objects that share a map, and a stack with three slots, two of which
hold the same object; the grey queue holds the three stack slots, as the
stack walk leaves them. -/
def shareSample : GC :=
  { heap :=
      { objs := [
          some ⟨kTagMap, 0, 0, false, [1, HNil.New, HNil.New]⟩,
          some ⟨kTagObject, 0, 0, false, [0, addrOf 0]⟩,
          some ⟨kTagObject, 0, 0, false, [0, addrOf 0]⟩],
        code := [],
        new_space := [addrOf 0, addrOf 1, addrOf 2],
        old_space := [],
        stack := [0, addrOf 1, addrOf 2, addrOf 1, 0xFEEEDBEE, 0],
        needs_gc := 0,
        references := [],
        weak_references := [] },
    grey_items := [⟨addrOf 1, Slot.stack 1⟩, ⟨addrOf 2, Slot.stack 2⟩, ⟨addrOf 1, Slot.stack 3⟩],
    space := [] }

/-- The addresses of the three values of `shareSample`. -/
def shareSet (v : Nat) : Prop := v ∈ [addrOf 0, addrOf 1, addrOf 2]

/-! ## Tags without a case and the frame marker: two samples -/

/-- A heap with an empty map, an array that uses it, and a CData value; the
stack holds the array below an enter frame whose link is `NULL`. -/
def arraySample : GC :=
  { heap :=
      { objs := [
          some ⟨kTagMap, 0, 0, false, [1, HNil.New, HNil.New]⟩,
          some ⟨kTagArray, 0, 0, false, [0, addrOf 0, 0]⟩,
          some ⟨kTagCData, 0, 0, false, [4, 0]⟩],
        code := [],
        new_space := [addrOf 0, addrOf 1, addrOf 2],
        old_space := [],
        stack := [0, addrOf 1, 0xFEEEDBEE, 0],
        needs_gc := 1,
        references := [],
        weak_references := [] },
    grey_items := [],
    space := [] }

/-- A stack with two frames: the word `0xFEEDBEEE` (`kEnterFrameTag`) with the
link `NULL`, and above it an object and the word `0xFEEEDBEE` with the link
`NULL`. -/
def frameSample : GC :=
  { heap :=
      { objs := [
          some ⟨kTagMap, 0, 0, false, [1, HNil.New, HNil.New]⟩,
          some ⟨kTagObject, 0, 0, false, [0, addrOf 0]⟩],
        code := [],
        new_space := [addrOf 0, addrOf 1],
        old_space := [],
        stack := [0, 0xFEEDBEEE, 0, addrOf 1, 0xFEEEDBEE, 0],
        needs_gc := 1,
        references := [],
        weak_references := [] },
    grey_items := [],
    space := [] }

/-! ## The IA-32 machine of the stubs and of the LIR instructions

The instructions take the width of a register in bits, so that code written
with `kPointerSize` alone can be read for every pointer size; the IA-32 code
uses 32. Macros of the assembler whose source is not at hand
(`macroassembler-ia32.cc`) are parameters of the functions that use them, or
follow the description the specification gives of them, as their comments
say. The registers `scratch` and `fn_reg` the assembler names are parameters
as well. -/

/-- The general-purpose registers of IA-32. -/
inductive Register
  | eax | ecx | edx | ebx | esp | ebp | esi | edi
  deriving DecidableEq, Repr

/-- The condition codes the emitted jumps use. `kLt`, `kGt`, `kLe` and `kGe`
are the signed comparisons, `kBelow`, `kAbove`, `kBe` and `kAe` the unsigned
ones (`Masm::BinOpToCondition` picks the former for integers). -/
inductive Condition
  | kEq | kNe | kLt | kGt | kLe | kGe | kBelow | kAbove | kBe | kAe
  | kCarry | kOverflow | kNoOverflow
  deriving DecidableEq, Repr

/-- A word of `bits` bits read as a two's-complement number. -/
def toSigned (bits : Nat) (x : Nat) : Int :=
  if x < 2 ^ (bits - 1) then (x : Int) else (x : Int) - 2 ^ bits

/-- The word of `bits` bits that holds the integer `n`. -/
def ofInt (bits : Nat) (n : Int) : Nat := (n % 2 ^ bits).toNat

/-- Whether `n` is a two's-complement number of `bits` bits. -/
def fits (bits : Nat) (n : Int) : Bool :=
  decide (-(2 ^ (bits - 1) : Int) ≤ n) && decide (n < 2 ^ (bits - 1))

/-- The state of the machine: registers, memory (the word stored at a byte
address; every access of the modelled code is a whole word at an address of
the same alignment), the flags, and the targets of the calls made so far. -/
structure Cpu where
  reg : Register → Nat
  mem : Nat → Nat
  carry : Bool
  overflow : Bool
  zero : Bool
  sign : Bool
  calls : List Nat

/-- A memory operand: base register and displacement. -/
structure Operand where
  base : Register
  disp : Int

/-- Write a register. -/
def Cpu.set (c : Cpu) (r : Register) (v : Nat) : Cpu :=
  { c with reg := fun x => if x = r then v else c.reg x }

/-- The address an operand names. -/
def Cpu.address (bits : Nat) (c : Cpu) (op : Operand) : Nat :=
  ofInt bits ((c.reg op.base : Int) + op.disp)

/-- Read the word an operand names. -/
def Cpu.load (bits : Nat) (c : Cpu) (op : Operand) : Nat := c.mem (c.address bits op)

/-- Write the word an operand names. -/
def Cpu.store (bits : Nat) (c : Cpu) (op : Operand) (v : Nat) : Cpu :=
  { c with mem := fun a => if a = c.address bits op then v else c.mem a }

/-- The flags an arithmetic instruction leaves for the result word `r`. -/
def Cpu.setFlags (bits : Nat) (c : Cpu) (r : Nat) (carry overflow : Bool) : Cpu :=
  { c with carry := carry, overflow := overflow, zero := r == 0,
           sign := decide (2 ^ (bits - 1) ≤ r) }

/-- Whether a jump on the condition is taken. -/
def Cpu.cond (c : Cpu) : Condition → Bool
  | .kEq => c.zero
  | .kNe => !c.zero
  | .kLt => c.sign != c.overflow
  | .kGe => c.sign == c.overflow
  | .kLe => c.zero || (c.sign != c.overflow)
  | .kGt => !c.zero && (c.sign == c.overflow)
  | .kBelow => c.carry
  | .kAe => !c.carry
  | .kBe => c.carry || c.zero
  | .kAbove => !c.carry && !c.zero
  | .kCarry => c.carry
  | .kOverflow => c.overflow
  | .kNoOverflow => !c.overflow

/-- The instruction `mov` into a register. -/
def Cpu.mov (c : Cpu) (dst : Register) (v : Nat) : Cpu := c.set dst v

/-- The instruction `add` into a register. -/
def Cpu.addl (bits : Nat) (c : Cpu) (dst : Register) (v : Nat) : Cpu :=
  let r := (c.reg dst + v) % 2 ^ bits
  (c.set dst r).setFlags bits r (decide (2 ^ bits ≤ c.reg dst + v))
    (!fits bits (toSigned bits (c.reg dst) + toSigned bits v))

/-- The instruction `sub` into a register. -/
def Cpu.subl (bits : Nat) (c : Cpu) (dst : Register) (v : Nat) : Cpu :=
  let r := (c.reg dst + 2 ^ bits - v) % 2 ^ bits
  (c.set dst r).setFlags bits r (decide (c.reg dst < v))
    (!fits bits (toSigned bits (c.reg dst) - toSigned bits v))

/-- The instruction `cmp`: the flags of the subtraction `a - b`. -/
def Cpu.cmpl (bits : Nat) (c : Cpu) (a b : Nat) : Cpu :=
  c.setFlags bits ((a + 2 ^ bits - b) % 2 ^ bits) (decide (a < b))
    (!fits bits (toSigned bits a - toSigned bits b))

/-- The instruction `test` on bytes: the flags of the bitwise and of the low
bytes of `a` and `b`. -/
def Cpu.testb (bits : Nat) (c : Cpu) (a b : Nat) : Cpu :=
  c.setFlags bits ((a % 256) &&& (b % 256)) false false

/-- The instruction `and` into a register. -/
def Cpu.andl (bits : Nat) (c : Cpu) (dst : Register) (v : Nat) : Cpu :=
  (c.set dst (c.reg dst &&& v)).setFlags bits (c.reg dst &&& v) false false

/-- The instruction `or` on the low byte of a register. -/
def Cpu.orlb (bits : Nat) (c : Cpu) (dst : Register) (v : Nat) : Cpu :=
  (c.set dst (c.reg dst ||| v % 256)).setFlags bits ((c.reg dst ||| v % 256) % 256) false false

/-- The instruction `xor` of a register with itself. -/
def Cpu.xorl (bits : Nat) (c : Cpu) (dst : Register) (v : Nat) : Cpu :=
  (c.set dst (c.reg dst ^^^ v)).setFlags bits (c.reg dst ^^^ v) false false

/-- The shift left by `k` of a word. -/
def sal (bits x k : Nat) : Nat := (x * 2 ^ k) % 2 ^ bits

/-- The arithmetic shift right by `k` of a word: the sign bit is kept. -/
def sar (bits x k : Nat) : Nat := ofInt bits (toSigned bits x / 2 ^ k)

/-- The instructions `shl` and `sal` on a register (the flags a shift leaves
are not read by the modelled code). -/
def Cpu.shl (bits : Nat) (c : Cpu) (dst : Register) (k : Nat) : Cpu :=
  c.set dst (candor.sal bits (c.reg dst) k)

/-- The instruction `sar` on a register. -/
def Cpu.sar (bits : Nat) (c : Cpu) (dst : Register) (k : Nat) : Cpu :=
  c.set dst (candor.sar bits (c.reg dst) k)

/-- The instruction `inc`: the carry flag is kept. -/
def Cpu.inc (bits : Nat) (c : Cpu) (dst : Register) : Cpu :=
  let r := (c.reg dst + 1) % 2 ^ bits
  (c.set dst r).setFlags bits r c.carry (!fits bits (toSigned bits (c.reg dst) + 1))

/-- The instruction `dec`: the carry flag is kept. -/
def Cpu.dec (bits : Nat) (c : Cpu) (dst : Register) : Cpu :=
  let r := (c.reg dst + 2 ^ bits - 1) % 2 ^ bits
  (c.set dst r).setFlags bits r c.carry (!fits bits (toSigned bits (c.reg dst) - 1))

/-- The one-operand `imul`: `edx:eax` is the signed product of `eax` and the
operand; carry and overflow are set when the product does not fit one word. -/
def Cpu.imull (bits : Nat) (c : Cpu) (v : Nat) : Cpu :=
  let p := toSigned bits (c.reg Register.eax) * toSigned bits v
  let c1 := (c.set Register.eax (ofInt bits p)).set Register.edx (ofInt bits (p / 2 ^ bits))
  { c1 with carry := !fits bits p, overflow := !fits bits p }

/-- The instruction `push`: the stack grows down by one word of `bits / 8` bytes. -/
def Cpu.push (bits : Nat) (c : Cpu) (v : Nat) : Cpu :=
  let c1 := c.set Register.esp (ofInt bits ((c.reg Register.esp : Int) - (bits / 8 : Nat)))
  c1.store bits ⟨Register.esp, 0⟩ v

/-- The instruction `pop`. -/
def Cpu.pop (bits : Nat) (c : Cpu) (dst : Register) : Cpu :=
  let v := c.load bits ⟨Register.esp, 0⟩
  (c.set Register.esp ((c.reg Register.esp + bits / 8) % 2 ^ bits)).set dst v

/-- The instruction `ret n`: the return address and `n` more bytes leave the
stack. -/
def Cpu.ret (bits : Nat) (c : Cpu) (n : Nat) : Cpu :=
  c.set Register.esp ((c.reg Register.esp + bits / 8 + n) % 2 ^ bits)

/-- A call: the target is recorded; what the callee does to the machine is
`body`. -/
def Cpu.Call (c : Cpu) (target : Nat) (body : Cpu → Cpu) : Cpu :=
  { body c with calls := target :: c.calls }

/-- `HINTERIOR_OFFSET(X)` of `heap.h` for the pointer size `W`. -/
def HINTERIOR_OFFSET (W X : Nat) : Int := X * W - 1

/-- Modelled from the spec: `HNumber::Tag` (declared in `heap.h`): the value `n` is encoded
as `n << 1`. -/
def HNumber.Tag (value : Int) : Int := value * 2

/-- `Masm::TagNumber`. -/
def Masm.TagNumber (bits : Nat) (c : Cpu) (src : Register) : Cpu := c.shl bits src 1

/-- `Masm::Untag`. -/
def Masm.Untag (bits : Nat) (c : Cpu) (src : Register) : Cpu := c.sar bits src 1

/-- Modelled from the spec: `IsUnboxed(p)`: the low bit of `p` is 0. -/
def Masm.IsUnboxed (c : Cpu) (reg : Register) : Bool := c.reg reg % 2 == 0

/-- Modelled from the spec: `IsNil(p)`: `p == 0x1`. -/
def Masm.IsNil (c : Cpu) (reg : Register) : Bool := c.reg reg == kTagNil

/-- Modelled from the spec: `IsHeapObject(tag, p)`: `p` is boxed, is not Nil, and the tag
byte at `p` (the low byte of the word at `kTagOffset`) equals `tag`. -/
def Masm.IsHeapObject (bits : Nat) (c : Cpu) (tag : Nat) (reg : Register) : Bool :=
  !Masm.IsUnboxed c reg && !Masm.IsNil c reg &&
    (c.load bits ⟨reg, HINTERIOR_OFFSET (bits / 8) 0⟩ % 256 == tag)

/-- Modelled from the spec: `CallFunction` calls the code pointer of the function in `reg`;
`callee` is what the called code does. -/
def Masm.CallFunction (bits : Nat) (callee : Cpu → Cpu) (c : Cpu) (reg : Register) : Cpu :=
  c.Call (c.load bits ⟨reg, HINTERIOR_OFFSET (bits / 8) 2⟩) callee

/-! ## Arguments on the stack (`ia32/lir-ia32.cc`) -/

/-- `HValue::kPointerSize` on IA-32 (`sizeof(char*)`). -/
def HValue.kPointerSize : Nat := 4

/-- `LStoreArg::Generate`: the argument in the register `input` is pushed. -/
def LStoreArg.Generate (input : Register) (c : Cpu) : Cpu := c.push 32 (c.reg input)

/-- `LEntry::Generate`: the frame pointer is saved and set, spills are
allocated, `argc` (in `eax`) is saved in the frame and the context is allocated.
`AllocateSpills` and `AllocateContext` are macros of the assembler. -/
def LEntry.Generate (AllocateSpills AllocateContext : Cpu → Cpu) (c : Cpu) : Cpu :=
  let c := c.push 32 (c.reg Register.ebp)
  let c := c.mov Register.ebp (c.reg Register.esp)
  let c := AllocateSpills c
  let c := c.store 32 ⟨Register.ebp, -((HValue.kPointerSize : Int) * 2)⟩ (c.reg Register.eax)
  AllocateContext c

/-- `LLoadArg::Generate`: `input` is the register of `inputs[0]`, `result` the
register the loaded word is moved to and `scratch` the scratch register of the
assembler. -/
def LLoadArg.Generate (scratch input result : Register) (c : Cpu) : Cpu :=
  let c := c.mov scratch (c.reg input)
  let c := c.cmpl 32 (c.reg scratch)
    (c.load 32 ⟨Register.ebp, -((HValue.kPointerSize : Int) * 2)⟩)
  if c.cond Condition.kGe then
    c.mov result kTagNil
  else
    let c := c.addl 32 scratch 4
    let c := c.shl 32 scratch 2
    let c := c.addl 32 scratch (c.reg Register.ebp)
    c.mov result (c.load 32 ⟨scratch, 0⟩)

/-- A caller that holds two arguments in `edx` (the first, 22) and `ecx` (the
second, 44), with the stack pointer at 1040; every word of the memory holds
its address plus 100000. -/
def callSample : Cpu :=
  { reg := fun r =>
      match r with
      | Register.esp => 1040
      | Register.ebp => 2000
      | Register.edx => 22
      | Register.ecx => 44
      | _ => 0,
    mem := fun a => 100000 + a,
    carry := false, overflow := false, zero := false, sign := false,
    calls := [] }

/-- The frame of a call with the two arguments of `callSample`: they are
stored right to left, `argc` is put in `eax`, the call pushes the return
address 7777 and the callee runs `LEntry::Generate` (with 16 bytes of spills);
then `ebx` is given the index 0. -/
def frameOfCall : Cpu :=
  let c := LStoreArg.Generate Register.ecx callSample
  let c := LStoreArg.Generate Register.edx c
  let c := c.mov Register.eax (HNumber.Tag 2).toNat
  let c := c.push 32 7777
  let c := LEntry.Generate (fun c => c.subl 32 Register.esp 16) (fun c => c) c
  c.mov Register.ebx (HNumber.Tag 0).toNat

/-! ## Calls (`LCall::Generate`) -/

/-- `LCall::Generate`: `eax` holds the tagged `argc` and `ebx` the callee.
`scratch` and `fn_reg` are registers the assembler names, `callee` is what the
called function does to the machine. A `Masm::Spill` keeps the word of a
register in a slot of its own until `Unspill` loads it back. -/
def LCall.Generate (scratch fn_reg : Register) (callee : Cpu → Cpu) (c : Cpu) : Cpu :=
  let c := c.mov scratch (c.reg Register.eax)
  let c := c.testb 32 (c.reg scratch) (ofInt 32 (HNumber.Tag 1))
  let c := if c.cond Condition.kEq then c else c.addl 32 scratch (ofInt 32 (HNumber.Tag 1))
  let c := c.shl 32 scratch 2
  let c := c.addl 32 scratch (c.reg Register.esp)
  let esp_s := c.reg scratch
  let c :=
    if Masm.IsUnboxed c Register.ebx || Masm.IsNil c Register.ebx ||
        !Masm.IsHeapObject 32 c kTagFunction Register.ebx then
      c.mov Register.eax kTagNil
    else
      let fn_reg_s := c.reg fn_reg
      let fn_s := c.reg Register.ebx
      let c := c.mov scratch (c.reg Register.ebx)
      let c := Masm.CallFunction 32 callee c scratch
      let c := c.mov scratch kTagNil
      let c := c.mov Register.ebx (c.reg scratch)
      let c := c.mov Register.ebx (c.reg scratch)
      let c := c.mov Register.edx (c.reg scratch)
      let c := c.mov Register.ebx fn_s
      c.mov fn_reg fn_reg_s
  c.mov Register.esp esp_s

/-- A machine about to call: `argc` is 1 and the callee register holds the
word in `fn`; the word at 4000 is the header of a Function whose code is at
9000, the word at 5000 the header of an Object. -/
def callOf (fn : Nat) : Cpu :=
  { reg := fun r =>
      match r with
      | Register.esp => 1040
      | Register.ebp => 2000
      | Register.eax => 2
      | Register.ebx => fn
      | _ => 0,
    mem := fun a =>
      if a = 4000 then kTagFunction else if a = 4008 then 9000
      else if a = 5000 then kTagObject else 0,
    carry := false, overflow := false, zero := false, sign := false,
    calls := [] }

/-! ## The fast path of the binary operators (`BinOpStub::Generate`) -/

/-- `BinOp::BinOpType`: the operators a `BinOpStub` is generated for. -/
inductive BinOpType
  | kAdd | kSub | kMul | kDiv | kMod | kBAnd | kBOr | kBXor | kShl | kShr | kUShr
  | kEq | kStrictEq | kNe | kStrictNe | kLt | kGt | kLe | kGe | kLOr | kLAnd
  deriving DecidableEq, Repr

/-- Modelled from the spec: `BinOp::is_math`: the arithmetic operators (the
switch of the stub under `is_math` names `kAdd`, `kSub` and `kMul`; `kDiv` never
takes the fast path). -/
def BinOp.is_math : BinOpType → Bool
  | BinOpType.kAdd => true
  | BinOpType.kSub => true
  | BinOpType.kMul => true
  | BinOpType.kDiv => true
  | _ => false

/-- Where the fast path of `BinOpStub::Generate` leaves: at the label `done`,
at the label `not_unboxed` (the boxed-double path), at the breakpoint
`emitb(0xcc)`, or in the branch of an operator that is not arithmetic. -/
inductive BinOpExit
  | done (c : Cpu)
  | not_unboxed (c : Cpu)
  | breakpoint (c : Cpu)
  | other (c : Cpu)

/-- The fast path of `BinOpStub::Generate` for the arithmetic operators: `eax`
holds the left operand and `ecx` the right one. -/
def BinOpStub.fastPath (type : BinOpType) (c : Cpu) : BinOpExit :=
  if type = BinOpType.kDiv then BinOpExit.not_unboxed c
  else if !Masm.IsUnboxed c Register.eax then BinOpExit.not_unboxed c
  else if !Masm.IsUnboxed c Register.ecx then BinOpExit.not_unboxed c
  else if BinOp.is_math type then
    let lvalue := c.reg Register.eax
    let rvalue := c.reg Register.ecx
    let r : Option Cpu :=
      match type with
      | BinOpType.kAdd => some (c.addl 32 Register.eax (c.reg Register.ecx))
      | BinOpType.kSub => some (c.subl 32 Register.eax (c.reg Register.ecx))
      | BinOpType.kMul =>
        let c := Masm.Untag 32 c Register.ecx
        some (c.imull 32 (c.reg Register.ecx))
      | _ => none
    match r with
    | none => BinOpExit.breakpoint c
    | some c =>
      if c.cond Condition.kNoOverflow then BinOpExit.done c
      else BinOpExit.not_unboxed ((c.mov Register.eax lvalue).mov Register.ecx rvalue)
  else BinOpExit.other c

/-- A machine whose `eax` and `ecx` hold the tagged integers `a` and `b`. -/
def operands (a b : Int) : Cpu :=
  { reg := fun r =>
      match r with
      | Register.eax => ofInt 32 (HNumber.Tag a)
      | Register.ecx => ofInt 32 (HNumber.Tag b)
      | _ => 0,
    mem := fun _ => 0,
    carry := false, overflow := false, zero := false, sign := false,
    calls := [] }

/-! ## Property lookup: the two fast paths (`LookupPropertyStub::Generate`) -/

/-- `HValue::kTagOffset` for the pointer size `W`. -/
def HValue.kTagOffset (W : Nat) : Int := HINTERIOR_OFFSET W 0

/-- `HObject::kMaskOffset` for the pointer size `W`. -/
def HObject.kMaskOffset (W : Nat) : Int := HINTERIOR_OFFSET W 1

/-- `HObject::kMapOffset` for the pointer size `W`. -/
def HObject.kMapOffset (W : Nat) : Int := HINTERIOR_OFFSET W 2

/-- `HArray::kLengthOffset` for the pointer size `W`. -/
def HArray.kLengthOffset (W : Nat) : Int := HINTERIOR_OFFSET W 3

/-- `HMap::kSizeOffset` for the pointer size `W`. -/
def HMap.kSizeOffset (W : Nat) : Int := HINTERIOR_OFFSET W 1

/-- `HMap::kSpaceOffset` for the pointer size `W`. -/
def HMap.kSpaceOffset (W : Nat) : Int := HINTERIOR_OFFSET W 2

/-- Where the fast paths of `LookupPropertyStub::Generate` leave: at the
epilogue (`GenerateEpilogue(0)`, the result is in `eax`), or at one of the
labels `cleanup`, `slow_case` and `non_object_error`. -/
inductive LookupExit
  | epilogue (c : Cpu)
  | cleanup (c : Cpu)
  | slow_case (c : Cpu)
  | non_object_error (c : Cpu)

/-- `LookupPropertyStub::Generate` from the declaration of its spills to the
end of its two fast paths, for the pointer size `W` (registers of `8 W` bits):
`eax` holds the receiver, `edx` the property and `ecx` the change flag.
`StringHash` is what the macro of that name does (it leaves the hash of the
string in `edx` in `ebx`) and `IsDenseArray` the test of the macro of that
name. A `Masm::Spill` keeps the word of a register in a slot of its own until
`Unspill` loads it back. -/
def LookupPropertyStub.Generate (W : Nat) (StringHash : Cpu → Cpu) (IsDenseArray : Cpu → Bool)
    (c : Cpu) : LookupExit :=
  let object_s := c.reg Register.eax
  let key_s := c.reg Register.edx
  if Masm.IsUnboxed c Register.eax || Masm.IsNil c Register.eax then
    LookupExit.non_object_error c
  else if Masm.IsHeapObject (8 * W) c kTagObject Register.eax then
    if Masm.IsUnboxed c Register.edx || Masm.IsNil c Register.edx ||
        !Masm.IsHeapObject (8 * W) c kTagString Register.edx then
      LookupExit.slow_case c
    else
      let c := StringHash c
      let c := c.mov Register.eax (c.load (8 * W) ⟨Register.eax, HObject.kMaskOffset W⟩)
      let c := c.andl (8 * W) Register.ebx (c.reg Register.eax)
      let c := c.addl (8 * W) Register.ebx (ofInt (8 * W) (HMap.kSpaceOffset W))
      let c := c.mov Register.eax object_s
      let c := c.mov Register.esi (c.load (8 * W) ⟨Register.eax, HObject.kMapOffset W⟩)
      let c := c.addl (8 * W) Register.esi (c.reg Register.ebx)
      let c := c.mov Register.esi (c.load (8 * W) ⟨Register.esi, 0⟩)
      let c := c.cmpl (8 * W) (c.reg Register.esi) (c.reg Register.edx)
      let is_match := c.cond Condition.kEq
      let c := if is_match then c else c.cmpl (8 * W) (c.reg Register.esi) kTagNil
      if !is_match && c.cond Condition.kNe then LookupExit.cleanup c
      else
        let c := c.cmpl (8 * W) (c.reg Register.ecx) 0
        let c :=
          if c.cond Condition.kEq then c
          else
            let c := c.mov Register.esi (c.load (8 * W) ⟨Register.eax, HObject.kMapOffset W⟩)
            let c := c.addl (8 * W) Register.esi (c.reg Register.ebx)
            c.store (8 * W) ⟨Register.esi, 0⟩ (c.reg Register.edx)
        let c := c.mov Register.eax object_s
        let c := c.mov Register.eax (c.load (8 * W) ⟨Register.eax, HObject.kMaskOffset W⟩)
        let c := c.addl (8 * W) Register.eax (c.reg Register.ebx)
        let c := c.addl (8 * W) Register.eax W
        let c := c.xorl (8 * W) Register.ebx (c.reg Register.ebx)
        LookupExit.epilogue c
  else if !Masm.IsHeapObject (8 * W) c kTagArray Register.eax then
    LookupExit.non_object_error c
  else
    if !Masm.IsUnboxed c Register.edx || Masm.IsNil c Register.edx then LookupExit.slow_case c
    else
      let c := c.cmpl (8 * W) (c.reg Register.edx) (ofInt (8 * W) (-1))
      if c.cond Condition.kLe then LookupExit.slow_case c
      else if !IsDenseArray c then LookupExit.slow_case c
      else
        let c := c.mov Register.ebx (c.load (8 * W) ⟨Register.eax, HObject.kMaskOffset W⟩)
        let c := c.shl (8 * W) Register.edx 2
        let c := c.cmpl (8 * W) (c.reg Register.edx) (c.reg Register.ebx)
        if c.cond Condition.kGt then LookupExit.cleanup c
        else
          let c := c.andl (8 * W) Register.edx (c.reg Register.ebx)
          let mask_s := c.reg Register.edx
          let c := c.mov Register.edx key_s
          let c := c.mov Register.ebx (c.load (8 * W) ⟨Register.eax, HArray.kLengthOffset W⟩)
          let c := Masm.Untag (8 * W) c Register.edx
          let c := c.inc (8 * W) Register.edx
          let c := c.cmpl (8 * W) (c.reg Register.edx) (c.reg Register.ebx)
          let c :=
            if c.cond Condition.kLe then c
            else c.store (8 * W) ⟨Register.eax, HArray.kLengthOffset W⟩ (c.reg Register.edx)
          let c := c.xorl (8 * W) Register.edx (c.reg Register.edx)
          let c := c.mov Register.eax mask_s
          let c := c.addl (8 * W) Register.eax (ofInt (8 * W) (HMap.kSpaceOffset W))
          let c := c.xorl (8 * W) Register.ebx (c.reg Register.ebx)
          LookupExit.epilogue c

/-- The result register at the epilogue of a fast path. -/
def LookupExit.result : LookupExit → Option Nat
  | LookupExit.epilogue c => some (c.reg Register.eax)
  | _ => none

/-- The machine at the epilogue of a fast path. -/
def LookupExit.cpu : LookupExit → Option Cpu
  | LookupExit.epilogue c => some c
  | _ => none

/-- A machine with an Object at 1001 (mask 12, map at 2001), its map of 4 slots
at 2001 whose key slot 2 holds the string at 3001 and whose value slot 2 holds
84, an Array at 5001 (mask 60, map at 6001, length 0) and the string at 3001;
`eax` holds `receiver`, `edx` holds `key`, `ecx` is 0. -/
def lookupOf (receiver key : Nat) : Cpu :=
  { reg := fun r =>
      match r with
      | Register.esp => 9000
      | Register.ebp => 9016
      | Register.eax => receiver
      | Register.edx => key
      | _ => 0,
    mem := fun a =>
      if a = 1000 then kTagObject else if a = 1004 then 12 else if a = 1008 then 2001
      else if a = 2000 then kTagMap else if a = 2004 then 4
      else if a = 2008 then kTagNil else if a = 2012 then kTagNil
      else if a = 2016 then 3001 else if a = 2020 then kTagNil
      else if a = 2032 then 84
      else if a = 3000 then kTagString
      else if a = 5000 then kTagArray else if a = 5004 then 60 else if a = 5008 then 6001
      else if a = 5012 then 0
      else if a = 6000 then kTagMap else if a = 6004 then 16
      else kTagNil,
    carry := false, overflow := false, zero := false, sign := false,
    calls := [] }

/-! ## Allocation (`AllocateStub::Generate`) -/

/-- `BaseStub::GeneratePrologue`. -/
def BaseStub.GeneratePrologue (c : Cpu) : Cpu :=
  let c := c.push 32 (c.reg Register.ebp)
  c.mov Register.ebp (c.reg Register.esp)

/-- `BaseStub::GenerateEpilogue`. -/
def BaseStub.GenerateEpilogue (c : Cpu) (args : Nat) : Cpu :=
  let c := c.mov Register.esp (c.reg Register.ebp)
  let c := c.pop 32 Register.ebp
  c.ret 32 (args * 4)

/-- The block of `AllocateStub::Generate` at the label `runtime_allocate`:
`eax` and `edx` are cleared and the runtime function at `allocate` is called.
`RuntimeAllocate` is what `Pushad`, the pushes of the arguments, the call and
`Popad(eax)` do to the machine together. -/
def AllocateStub.runtime_allocate (allocate : Nat) (RuntimeAllocate : Cpu → Cpu) (c : Cpu) :
    Cpu :=
  let c := c.xorl 32 Register.eax (c.reg Register.eax)
  let c := c.xorl 32 Register.edx (c.reg Register.edx)
  c.Call allocate RuntimeAllocate

/-- `AllocateStub::Generate`: `top` and `limit` are the immediates
`new_space()->top()` and `new_space()->limit()` (the addresses of the words
that point at the top and limit words of the current page), `scratch` is the
scratch register of the assembler. The tagged size is at `[ebp + 12]` and the
tagged tag at `[ebp + 8]`. -/
def AllocateStub.Generate (scratch : Register) (top limit allocate : Nat)
    (RuntimeAllocate : Cpu → Cpu) (c : Cpu) : Cpu :=
  let c := BaseStub.GeneratePrologue c
  let c := c.push 32 0
  let c := c.push 32 (c.reg Register.edx)
  let size : Operand := ⟨Register.ebp, 3 * 4⟩
  let tag : Operand := ⟨Register.ebp, 2 * 4⟩
  let scratch_op : Operand := ⟨scratch, 0⟩
  let c := c.mov scratch top
  let c := c.mov scratch (c.load 32 scratch_op)
  let c := c.mov Register.eax (c.load 32 scratch_op)
  let c := c.mov Register.edx (c.load 32 size)
  let c := Masm.Untag 32 c Register.edx
  let c := c.addl 32 Register.edx (c.reg Register.eax)
  let c :=
    if c.cond Condition.kCarry then AllocateStub.runtime_allocate allocate RuntimeAllocate c
    else
      let c := c.mov scratch limit
      let c := c.mov scratch (c.load 32 scratch_op)
      let c := c.cmpl 32 (c.reg Register.edx) (c.load 32 scratch_op)
      if c.cond Condition.kGt then AllocateStub.runtime_allocate allocate RuntimeAllocate c
      else
        let c := c.orlb 32 Register.edx 0x01
        let c := c.mov scratch top
        let c := c.mov scratch (c.load 32 scratch_op)
        c.store 32 scratch_op (c.reg Register.edx)
  let c := c.mov scratch (c.load 32 tag)
  let c := Masm.Untag 32 c scratch
  let c := c.store 32 ⟨Register.eax, HValue.kTagOffset 4⟩ (c.reg scratch)
  let c := c.pop 32 Register.edx
  BaseStub.GenerateEpilogue c 2

/-- A machine that calls the allocation stub for 16 bytes with the tag Object:
the word at 100 points at the top word of the page (at 200) and the word at
104 at its limit word (at 204); the page has the top `old_top` and the limit
`page_limit`. -/
def allocOf (old_top page_limit : Nat) : Cpu :=
  { reg := fun r =>
      match r with
      | Register.esp => 9000
      | Register.ebp => 9100
      | _ => 0,
    mem := fun a =>
      if a = 100 then 200 else if a = 104 then 204
      else if a = 200 then old_top else if a = 204 then page_limit
      else if a = 9004 then ofInt 32 (HNumber.Tag kTagObject)
      else if a = 9008 then ofInt 32 (HNumber.Tag 16)
      else 0,
    carry := false, overflow := false, zero := false, sign := false,
    calls := [] }

/-! ## Cloning an object (`CloneObjectStub::Generate`) -/

/-- The copy loop of `CloneObjectStub::Generate` (the labels `loop_start` and
`loop_cond`): while `ecx` is not 0, the word at `[eax]` is stored at `[ebx]`,
both pointers move on by 4 and `ecx` is decremented. At most `fuel` tests of
the condition are made. -/
def CloneObjectStub.loop : Nat → Cpu → Option Cpu
  | 0, _ => none
  | fuel + 1, c =>
    let c := c.cmpl 32 (c.reg Register.ecx) 0
    if c.cond Condition.kNe then
      let c := c.mov Register.esi (c.load 32 ⟨Register.eax, 0⟩)
      let c := c.store 32 ⟨Register.ebx, 0⟩ (c.reg Register.esi)
      let c := c.addl 32 Register.eax 4
      let c := c.addl 32 Register.ebx 4
      let c := c.dec 32 Register.ecx
      CloneObjectStub.loop fuel c
    else some c

/-- `CloneObjectStub::Generate` between the saves of the registers and the
label `done`: `eax` holds the receiver. `AllocateObjectLiteral` is what the
macro of that name does when called with the tag Object, the size in `ecx` and
the result register `edx`. -/
def CloneObjectStub.Generate (AllocateObjectLiteral : Cpu → Cpu) (fuel : Nat) (c : Cpu) :
    Option Cpu :=
  if Masm.IsUnboxed c Register.eax || Masm.IsNil c Register.eax ||
      !Masm.IsHeapObject 32 c kTagObject Register.eax then
    some (c.mov Register.eax kTagNil)
  else
    let c := c.mov Register.eax (c.load 32 ⟨Register.eax, HObject.kMapOffset 4⟩)
    let c := c.mov Register.ecx (c.load 32 ⟨Register.eax, HMap.kSizeOffset 4⟩)
    let c := Masm.TagNumber 32 c Register.ecx
    let c := AllocateObjectLiteral c
    let c := c.mov Register.ebx (c.reg Register.edx)
    let c := c.mov Register.ebx (c.load 32 ⟨Register.ebx, HObject.kMapOffset 4⟩)
    let c := c.addl 32 Register.eax (ofInt 32 (HMap.kSpaceOffset 4))
    let c := c.addl 32 Register.ebx (ofInt 32 (HMap.kSpaceOffset 4))
    (CloneObjectStub.loop fuel c).map (fun c => c.mov Register.eax (c.reg Register.edx))

/-- A machine whose `eax` holds the Object at 1001: its map, at 2001, has 2
slots; key slot 0 holds the string at 3001 and value slot 0 holds 84. -/
def cloneSample : Cpu :=
  { reg := fun r =>
      match r with
      | Register.eax => 1001
      | Register.esp => 9000
      | Register.ebp => 9016
      | _ => 0,
    mem := fun a =>
      if a = 1000 then kTagObject else if a = 1004 then 4 else if a = 1008 then 2001
      else if a = 2000 then kTagMap else if a = 2004 then 2
      else if a = 2008 then 3001 else if a = 2012 then kTagNil
      else if a = 2016 then 84 else if a = 2020 then kTagNil
      else 0,
    carry := false, overflow := false, zero := false, sign := false,
    calls := [] }

/-- An allocation of an object literal with 2 slots: the new Object is at 5001
and its map, with every slot Nil, at 6001. -/
def sampleAllocate (c : Cpu) : Cpu :=
  { c with
    reg := fun r => if r = Register.edx then 5001 else c.reg r,
    mem := fun a =>
      if a = 5000 then kTagObject else if a = 5004 then 4 else if a = 5008 then 6001
      else if a = 6000 then kTagMap else if a = 6004 then 2
      else if a = 6008 ∨ a = 6012 ∨ a = 6016 ∨ a = 6020 then kTagNil
      else c.mem a }

/-! ## Spill slots in the frame (`LUse::ToOperand`, `lir-ia32.cc`) -/

/-- `LUse::ToOperand` (`lir-ia32.cc`, lines 20-25) for a use of the interval
`i`: the assertion requires a stack slot; the operand is relative to `ebp`,
three words below it for index 0 ("Argc and return address"). -/
def LUse.ToOperand (i : LInterval) : Option Operand :=
  if i.is_stackslot then
    some ⟨Register.ebp, -((HValue.kPointerSize : Int) * (i.index + 3))⟩
  else none

/-! ## Local live sets: what an instruction defines -/

/-- The interval `k` is the result or a scratch of the instruction. -/
def LInstruction.defines (i : LInstruction) (k : Nat) : Prop :=
  k ∈ i.scratches.map Prod.fst ∨ i.result.map Prod.fst = some k

/-! ## Phi instructions (`hir-instructions-inl.h`, lines 128-152) -/

/-- The two instruction kinds the phi code names (`HIRInstruction::kPhi`,
`HIRInstruction::kNil`). -/
inductive HIRKind
  | kPhi
  | kNil
deriving DecidableEq, Repr

/-- A `HIRPhi`: its kind (`type_`), the array `inputs_[2]`, `input_count_`
and the argument list of the instruction. Instructions are named by their
pointers, `0` is `NULL`. -/
structure HIRPhi where
  type_ : HIRKind
  inputs_ : List Nat
  input_count_ : Nat
  args_ : List Nat
deriving DecidableEq, Repr

/-- Modelled from the spec: the constructor of `HIRPhi` in the missing
`hir-instructions.cc`; a fresh phi has the kind Phi and no inputs. -/
def HIRPhi.New : HIRPhi :=
  { type_ := HIRKind.kPhi, inputs_ := [0, 0], input_count_ := 0, args_ := [] }

/-- `HIRPhi::AddInput`; `AddArg` pushes the instruction on the argument list. -/
def HIRPhi.AddInput (p : HIRPhi) (instr : Nat) : Option HIRPhi := do
  assert (decide (p.input_count_ < 2))
  assert (decide (instr ≠ 0))
  pure { p with inputs_ := p.inputs_.set p.input_count_ instr,
                input_count_ := p.input_count_ + 1,
                args_ := p.args_ ++ [instr] }

/-- `HIRPhi::InputAt`. -/
def HIRPhi.InputAt (p : HIRPhi) (i : Nat) : Option Nat := do
  assert (decide (i < p.input_count_))
  p.inputs_[i]?

/-- `HIRPhi::Nilify`. -/
def HIRPhi.Nilify (p : HIRPhi) : Option HIRPhi := do
  assert (decide (p.input_count_ = 0))
  pure { p with type_ := HIRKind.kNil }

/-- `HIRPhi::input_count`. -/
def HIRPhi.input_count (p : HIRPhi) : Nat := p.input_count_

/-- A call of one of the two methods that change a phi. -/
inductive PhiCall
  | addInput (instr : Nat)
  | nilify
deriving DecidableEq, Repr

/-- Make one call. -/
def HIRPhi.call (p : HIRPhi) : PhiCall → Option HIRPhi
  | PhiCall.addInput instr => p.AddInput instr
  | PhiCall.nilify => p.Nilify

/-- Make a sequence of calls, stopping at the first failed assertion. -/
def HIRPhi.calls : List PhiCall → HIRPhi → Option HIRPhi
  | [], p => some p
  | c :: cs, p => (p.call c).bind (HIRPhi.calls cs)

/-- The instructions a sequence of calls adds, in order. -/
def addedInputs : List PhiCall → List Nat
  | [] => []
  | PhiCall.addInput instr :: cs => instr :: addedInputs cs
  | PhiCall.nilify :: cs => addedInputs cs

/-- What a sequence of calls from a fresh phi maintains. -/
structure PhiInv (cs : List PhiCall) (p : HIRPhi) : Prop where
  count : p.input_count_ = (addedInputs cs).length
  le_two : p.input_count_ ≤ 2
  size : p.inputs_.length = 2
  inputs : ∀ j, j < p.input_count_ → p.inputs_[j]? = (addedInputs cs)[j]?
  kind : p.type_ = if PhiCall.nilify ∈ cs then HIRKind.kNil else HIRKind.kPhi
  nil_first : ∀ pre post, cs = pre ++ PhiCall.nilify :: post → addedInputs pre = []

/-! ## The rule of `TryAllocateFreeReg` in words, and a state to try it on -/

/-- The free position of register `r` for the interval `cur`, in the words of
the rule: 0 when an active interval holds `r`, otherwise the least
intersection of `cur` with an inactive interval holding `r`, and `INT_MAX`
when there is none. -/
def LGen.freePosOf (g : LGen) (cur : Nat) (r : Nat) : Int :=
  ((g.inactive.filter (fun id => decide ((g.get id).index = (r : Int) ∧
      (g.get cur).FindIntersection (g.get id) ≠ -1))).map
    (fun id => (g.get cur).FindIntersection (g.get id))).foldl min
    (if g.active.any (fun id => decide ((g.get id).index = (r : Int))) then 0 else INT_MAX)

/-- The split position of `TryAllocateFreeReg` for the free position `max`. -/
def freeSplitPos (max : Int) : Int := if Int.tmod max 2 = 0 then max - 1 else max - 2

/-- The array `free_pos` in the words of the rule. -/
def LGen.freePositions (g : LGen) (cur : Nat) : List Int :=
  (List.range kLIRRegisterCount).map (g.freePosOf cur)

/-- A state at the entry of `TryAllocateFreeReg`: eleven instructions with the
ids 0, 2, ..., 20, a call at 10 that gives each of the ten fixed registers the
range `[10, 11)`, the virtual interval 10 live on `[2, 18)` and the virtual
interval 11 live on `[8, 18)`; the fixed intervals are inactive. -/
def freeRegSample : LGen :=
  { blocks := [⟨[], [], [], [], [], [], 0, 20⟩],
    instructions := (List.range 11).map (fun k => plainInstr (2 * k) [] [] none),
    intervals := (List.range kLIRRegisterCount).map
        (fun r => { fixedInterval r with ranges := [⟨10, 11⟩],
                                          uses := [⟨UseType.kRegister, 10⟩] }) ++
      [LInterval.mk 10 IntervalType.kVirtual 40 false [⟨2, 18⟩]
         [⟨UseType.kAny, 2⟩, ⟨UseType.kAny, 18⟩] none [],
       LInterval.mk 11 IntervalType.kVirtual 41 false [⟨8, 18⟩]
         [⟨UseType.kAny, 8⟩, ⟨UseType.kAny, 18⟩] none []],
    unhandled := [], active := [], inactive := List.range kLIRRegisterCount,
    unhandled_spills := [], active_spills := [], inactive_spills := [], free_spills := [],
    spill_index := 0, virtual_index := 42 }

/-! ## The allocation routines with `Split` as a parameter -/

/-- `LGen::Split` behind an assertion that the position is odd. -/
def LGen.SplitOdd (g : LGen) (iid : Nat) (pos : Int) : Option (LGen × Nat) :=
  if pos % 2 = 1 then g.Split iid pos else none

/-- `LGen::TryAllocateFreeReg` with the procedure it calls for `Split` as a
parameter. -/
def LGen.TryAllocateFreeRegWith (split : LGen → Nat → Int → Option (LGen × Nat))
    (g : LGen) (cur : Nat) : Option LGen := do
  let fp0 := List.replicate kLIRRegisterCount INT_MAX
  let fp1 ← g.freeActive g.active fp0
  let fp2 ← g.freeInactive cur g.inactive fp1
  let (max, max_reg) := maxLoop fp2 0 (-1) 0
  assert (decide (max ≥ 0))
  let cs ← (g.get cur).start
  if max - 2 ≤ cs then pure g
  else do
    let ce ← (g.get cur).end_
    let g1 ← if max ≤ ce then
        (split g cur (if Int.tmod max 2 = 0 then max - 1 else max - 2)).map Prod.fst
      else pure g
    pure (g1.put ((g1.get cur).Allocate max_reg))

/-- The loop "split and spill all intersecting intervals" with the procedure
it calls for `Split` as a parameter. -/
def LGen.spillIntersectingWith (split : LGen → Nat → Int → Option (LGen × Nat))
    (which : Bool) (cur : Nat) : List Nat → LGen → Option LGen
  | [], g => some g
  | id :: rest, g => do
    let interval := g.get id
    let current := g.get cur
    if interval.IsFixed || !interval.IsEqual current then
      LGen.spillIntersectingWith split which cur rest g
    else
      let pos0 := current.FindIntersection interval
      if pos0 = -1 then LGen.spillIntersectingWith split which cur rest g
      else do
        let pos := if Int.tmod pos0 2 = 0 then pos0 - 1 else pos0 - 2
        let cs ← current.start
        let reg_use := g.UseAfter id 0 UseType.kRegister
        let early := match reg_use with
          | none => false
          | some u => decide (u.instr ≤ cs)
        if early then do
          let (g1, _) ← split g id (if Int.tmod cs 2 = 0 then cs - 1 else cs - 2)
          LGen.spillIntersectingWith split which cur rest g1
        else do
          let is_ ← interval.start
          let g1 ← if pos > is_ then (split g id pos).map Prod.fst else pure g
          let g2 ← g1.Spill id
          let g3 : LGen :=
            if which then { g2 with active := g2.active.erase id }
            else { g2 with inactive := g2.inactive.erase id }
          LGen.spillIntersectingWith split which cur rest g3

/-- `LGen::AllocateBlockedReg` with the procedure it calls for `Split` as a
parameter. -/
def LGen.AllocateBlockedRegWith (split : LGen → Nat → Int → Option (LGen × Nat))
    (g : LGen) (cur : Nat) : Option LGen := do
  let init := List.replicate kLIRRegisterCount INT_MAX
  let cs ← (g.get cur).start
  let ub1 := g.blockedActive cs g.active (init, init)
  let (use_pos, block_pos) := g.blockedInactive cur cs g.inactive ub1
  let (use_max, use_reg) := maxLoop use_pos 0 (-1) 0
  assert (decide (use_max ≥ 0))
  let first_use := g.UseAfter cur cs UseType.kAny
  let spill_current := match first_use with
    | none => true
    | some u => decide (use_max < u.instr) || decide (getAt block_pos use_reg - 1 ≤ cs)
  if spill_current then do
    let g1 ← g.Spill cur
    match g1.UseAfter cur cs UseType.kRegister with
    | none => pure g1
    | some u =>
      if u.instr > cs then (split g1 cur (u.instr - 1)).map Prod.fst else pure g1
  else do
    let g1 := g.put ((g.get cur).Allocate use_reg)
    let ce ← (g1.get cur).end_
    let g2 ← if getAt block_pos use_reg ≤ ce then
        (split g1 cur (getAt block_pos use_reg - 1)).map Prod.fst
      else pure g1
    let g3 ← LGen.spillIntersectingWith split true cur g2.active g2
    LGen.spillIntersectingWith split false cur g3.inactive g3

/-- Two blocks. In the first, ten values `v10 .. v19` are defined at 2 .. 20
and read at 30 .. 46, and the value `v20` is defined at 22; the second block
starts at 48, the instruction at 50 has the fixed register 9 as a scratch and
the instruction at 60 reads `v20`. -/
def scratchProgram : LProgram :=
  { blocks := [
      ([plainInstr 0 [] [] none] ++
        (List.range 10).map
          (fun (k : Nat) => plainInstr (2 + 2 * k) [] [] (some (10 + k, UseType.kAny))) ++
        [plainInstr 22 [] [] (some (20, UseType.kAny)),
         plainInstr 24 [] [] none, plainInstr 26 [] [] none, plainInstr 28 [] [] none] ++
        (List.range 7).map
          (fun (k : Nat) => plainInstr (30 + 2 * k) [(10 + k, UseType.kAny)] [] none) ++
        [plainInstr 44 [(17, UseType.kAny), (18, UseType.kAny)] [] none,
         plainInstr 46 [(19, UseType.kAny)] [] none], [1]),
      ([LInstruction.mk_plain 48 1 [] [] none false,
        LInstruction.mk_plain 50 1 [] [(9, UseType.kRegister)] none false,
        LInstruction.mk_plain 60 1 [(20, UseType.kAny)] [] none false,
        LInstruction.mk_plain 62 1 [] [] none false], [])],
    virtuals := 11 }

/-! ## Building intervals: the invariant of the backward walk, and a program with a call -/

/-- The interval table holds the fixed registers and every interval sits at
the position of its id. -/
def LGen.tableOk (g : LGen) : Prop :=
  kLIRRegisterCount ≤ g.intervals.length ∧ ∀ id, id < g.intervals.length → (g.get id).id = id

/-- Every operand of the instruction names an interval of a table of size `n`. -/
def LInstruction.operandsBelow (i : LInstruction) (n : Nat) : Bool :=
  i.inputs.all (fun u => decide (u.1 < n)) && i.scratches.all (fun u => decide (u.1 < n)) &&
    (match i.result with
     | some u => decide (u.1 < n)
     | none => true)

/-- What `BuildIntervals` maintains while it walks the instructions from the
last to the first: `p` is the id of the instruction at hand and `C` holds the
ids of the calls already visited. No range ends before it starts or before
`p`, and every fixed register covers every call in `C`. -/
structure BuildInv (g : LGen) (p : Int) (C : Int → Prop) : Prop where
  table : g.tableOk
  ranges : ∀ id, ∀ r ∈ (g.get id).ranges, r.start ≤ r.end_ ∧ p ≤ r.end_
  covers : ∀ c, C c → ∀ r, r < kLIRRegisterCount → (g.get r).Covers c = true
  above : ∀ c, C c → p ≤ c

/-- One block: a label, the definition of `v10`, a call that reads `v10`, and
an instruction that reads `v10` after the call. -/
def callProgram : LProgram :=
  { blocks := [
      ([LInstruction.mk_plain 0 0 [] [] none false,
        LInstruction.mk_plain 2 0 [] [] (some (10, UseType.kAny)) false,
        LInstruction.mk_plain 4 0 [(10, UseType.kAny)] [] none true,
        LInstruction.mk_plain 6 0 [(10, UseType.kAny)] [] none false], [])],
    virtuals := 1 }

/-- The generator state for `callProgram` at the entry of `BuildIntervals`. -/
def callState : LGen :=
  (((LGen.init callProgram).ComputeLocalLiveSets).ComputeGlobalLiveSets 8).getD
    (LGen.init callProgram)

/-! ## Resolving data flow (`lir.cc`, lines 573-635 and 1027-1038) -/

/-- Recursion of `LInterval::ChildAt` through `split_parent`, `d` bounding its
depth: the interval itself when it covers `pos`, else its first split child
that does; `none` is `UNEXPECTED`. -/
def LGen.ChildAtD (g : LGen) : Nat → Nat → Int → Option Nat
  | 0, _, _ => none
  | d + 1, id, pos =>
    match (g.get id).split_parent with
    | some p => g.ChildAtD d p pos
    | none =>
      if (g.get id).Covers pos then some id
      else (g.get id).split_children.find? (fun c => (g.get c).Covers pos)

/-- `LInterval::ChildAt`. -/
def LGen.ChildAt (g : LGen) (id : Nat) (pos : Int) : Option Nat :=
  g.ChildAtD (g.intervals.length + 1) id pos

/-- The interval a live-in entry stands for in `ResolveDataFlow`: the
`split_parent` of the interval of the use when it has one, else that interval;
the entry is named by its key. -/
def LGen.familyOf (g : LGen) (k : Nat) : Nat :=
  match (g.get k).split_parent with
  | some p => p
  | none => k

/-- The loop of `ResolveDataFlow` over `succ->live_in` for one edge: `pos` is
where the gap of the edge goes, `gap` tells whether it has been fetched. -/
def LGen.resolveEdge (pos end_id start_id : Int) : List Nat → Bool → LGen → Option (LGen × Bool)
  | [], gap, g => some (g, gap)
  | k :: ks, gap, g =>
    let parent := g.familyOf k
    if (g.get parent).split_children.length = 0 then
      LGen.resolveEdge pos end_id start_id ks gap g
    else do
      let left ← g.ChildAt parent end_id
      let right ← g.ChildAt parent start_id
      if left ≠ right then do
        let g1 ← if gap then pure g else g.GetGap pos
        let g2 : LGen :=
          { g1 with instructions := addPair pos (left, right) g1.instructions,
                    blocks := g1.blocks.map
                      (fun b => { b with instructions := addPair pos (left, right) b.instructions }) }
        LGen.resolveEdge pos end_id start_id ks true g2
      else LGen.resolveEdge pos end_id start_id ks gap g

/-- The body of the successor loop of `ResolveDataFlow` for the block at
position `bi` and its successor at position `si`. `isGoto` and `isBranch` tell
the type of a control instruction. A goto to the next block of the list is
removed from the block and from the instruction list. -/
def LGen.resolveSucc (isGoto isBranch : LInstruction → Bool) (bi si : Nat) (g : LGen) :
    Option LGen := do
  let b := blockAt g.blocks bi
  let succ := blockAt g.blocks si
  let pos := if b.succ.length = 2 then succ.start_id + 1 else b.end_id - 1
  let (g1, _) ← LGen.resolveEdge pos b.end_id succ.start_id succ.live_in false g
  let b1 := blockAt g1.blocks bi
  let control ← b1.instructions.getLast?
  assert (isGoto control || isBranch control)
  if isGoto control then do
    assert (decide (bi + 1 < g1.blocks.length))
    if bi + 1 = si then
      pure { g1 with
        blocks := g1.blocks.set bi { b1 with instructions := b1.instructions.dropLast },
        instructions := g1.instructions.erase control }
    else pure g1
  else pure g1

/-- The successor loop of `ResolveDataFlow`. -/
def LGen.resolveSuccs (isGoto isBranch : LInstruction → Bool) (bi : Nat) :
    List Nat → LGen → Option LGen
  | [], g => some g
  | si :: rest, g => do
    let g1 ← g.resolveSucc isGoto isBranch bi si
    LGen.resolveSuccs isGoto isBranch bi rest g1

/-- The block loop of `ResolveDataFlow`. -/
def LGen.resolveBlocks (isGoto isBranch : LInstruction → Bool) : List Nat → LGen → Option LGen
  | [], g => some g
  | bi :: rest, g => do
    let g1 ← LGen.resolveSuccs isGoto isBranch bi (blockAt g.blocks bi).succ g
    LGen.resolveBlocks isGoto isBranch rest g1

/-- `LGen::ResolveDataFlow`. -/
def LGen.ResolveDataFlow (isGoto isBranch : LInstruction → Bool) (g : LGen) : Option LGen :=
  LGen.resolveBlocks isGoto isBranch (List.range g.blocks.length) g

/-- The move `pr` is in the gap at `id`. -/
def LGen.gapPairs (g : LGen) (id : Int) (pr : Nat × Nat) : Prop :=
  ∃ x ∈ g.instructions, x.is_gap = true ∧ x.id = id ∧ pr ∈ x.pairs

/-- Where `ResolveDataFlow` puts the gap of the edge from the block at `bi` to
the block at `si`. -/
def LGen.edgePos (g : LGen) (bi si : Nat) : Int :=
  if (blockAt g.blocks bi).succ.length = 2 then (blockAt g.blocks si).start_id + 1
  else (blockAt g.blocks bi).end_id - 1

/-- The live-in entry `k` needs the move `pr` on an edge from a block ending
at `end_id` to a block starting at `start_id`: its interval was split, and the
members of the family at the two positions are `pr.1` and `pr.2`, which
differ. -/
def LGen.needsMove (g : LGen) (end_id start_id : Int) (k : Nat) (pr : Nat × Nat) : Prop :=
  (g.get (g.familyOf k)).split_children.length ≠ 0 ∧
  g.ChildAt (g.familyOf k) end_id = some pr.1 ∧
  g.ChildAt (g.familyOf k) start_id = some pr.2 ∧ pr.1 ≠ pr.2

/-- Split families are two levels deep and stay inside the table: a
`split_parent` is an interval of the table without a parent of its own, and
split children are intervals of the table. -/
def LGen.familiesOk (g : LGen) : Prop :=
  ∀ x, x < g.intervals.length →
    (∀ p, (g.get x).split_parent = some p →
      p < g.intervals.length ∧ (g.get p).split_parent = none) ∧
    ∀ c ∈ (g.get x).split_children, c < g.intervals.length

/-- The test of `familiesOk` on the intervals of the table. -/
def LGen.checkFamilies (g : LGen) : Bool :=
  (List.range g.intervals.length).all (fun x =>
    (match (g.get x).split_parent with
     | some p => decide (p < g.intervals.length) && (g.get p).split_parent.isNone
     | none => true) &&
    (g.get x).split_children.all (fun c => decide (c < g.intervals.length)))

/-- The state after the allocation of `scratchProgram`, at the entry of
`ResolveDataFlow`. -/
def scratchState : LGen := (LGen.allocate 64 scratchProgram).getD (LGen.init scratchProgram)

/-- What `ResolveDataFlow` leaves untouched, from the state `g0` at entry to
a later state `g`: the intervals of the table and, in every block, the
successors, `live_in`, `start_id` and `end_id`. -/
structure ResolveFrame (g0 g : LGen) : Prop where
  len : g0.intervals.length ≤ g.intervals.length
  same : ∀ x, x < g0.intervals.length → g.get x = g0.get x
  blen : g.blocks.length = g0.blocks.length
  blocks : ∀ j, (blockAt g.blocks j).succ = (blockAt g0.blocks j).succ ∧
    (blockAt g.blocks j).live_in = (blockAt g0.blocks j).live_in ∧
    (blockAt g.blocks j).start_id = (blockAt g0.blocks j).start_id ∧
    (blockAt g.blocks j).end_id = (blockAt g0.blocks j).end_id

/-- The moves the edge from the block at `bi` to the block at `si` needs: `pr`
at the position `id`. -/
def LGen.edgeMove (g : LGen) (bi si : Nat) (id : Int) (pr : Nat × Nat) : Prop :=
  id = g.edgePos bi si ∧ ∃ k ∈ (blockAt g.blocks si).live_in,
    g.needsMove (blockAt g.blocks bi).end_id (blockAt g.blocks si).start_id k pr

/-! ## Entering Candor code (`EntryStub::Generate`) -/

/-- The instruction `test` on words: the flags of the bitwise and of `a` and
`b`. -/
def Cpu.testl (bits : Nat) (c : Cpu) (a b : Nat) : Cpu :=
  c.setFlags bits (a &&& b) false false

/-- The argument loop of `EntryStub::Generate` (the labels `args` and
`args_loop`): while `ebx` is not `edx`, `ebx` moves down by 4 and the word at
`[ebx]` is pushed. At most `fuel` tests of the condition are made. -/
def EntryStub.args_loop : Nat → Cpu → Option Cpu
  | 0, _ => none
  | fuel + 1, c =>
    let c := c.cmpl 32 (c.reg Register.ebx) (c.reg Register.edx)
    if c.cond Condition.kNe then
      let c := c.subl 32 Register.ebx 4
      let c := c.mov Register.eax (c.load 32 ⟨Register.ebx, 0⟩)
      let c := c.push 32 (c.reg Register.eax)
      EntryStub.args_loop fuel c
    else some c

/-- The part of `EntryStub::Generate` that pushes the arguments: `esi` holds
the tagged `argc` and `edx` the pointer to the arguments. A word 0 is pushed
when the untagged `argc` is odd, then the loop pushes the arguments. -/
def EntryStub.pushArguments (fuel : Nat) (c : Cpu) : Option Cpu :=
  let c := c.mov Register.eax (c.reg Register.esi)
  let c := Masm.Untag 32 c Register.eax
  let c := c.testb 32 (c.reg Register.eax) 1
  let c := if c.cond Condition.kEq then c else c.push 32 0
  let c := c.mov Register.ebx (c.reg Register.eax)
  let c := c.shl 32 Register.ebx 2
  let c := c.addl 32 Register.ebx (c.reg Register.edx)
  EntryStub.args_loop fuel c

/-- The part of `EntryStub::Generate` that calls the code: four registers are
cleared and the function in `edi` is called through `scratch`. -/
def EntryStub.callCode (scratch : Register) (callee : Cpu → Cpu) (c : Cpu) : Cpu :=
  let c := c.xorl 32 Register.eax (c.reg Register.eax)
  let c := c.xorl 32 Register.ebx (c.reg Register.ebx)
  let c := c.xorl 32 Register.ecx (c.reg Register.ecx)
  let c := c.xorl 32 Register.edx (c.reg Register.edx)
  let c := c.mov scratch (c.reg Register.edi)
  Masm.CallFunction 32 callee c scratch

/-- The part of `EntryStub::Generate` that unwinds the arguments: `argc` is
read from `[ebp + 12]`, untagged, made even and scaled by 4, and added to
`esp`. -/
def EntryStub.unwind (c : Cpu) : Cpu :=
  let c := c.mov Register.esi (c.load 32 ⟨Register.ebp, 3 * 4⟩)
  let c := Masm.Untag 32 c Register.esi
  let c := c.testl 32 (c.reg Register.esi) 1
  let c := if c.cond Condition.kEq then c else c.inc 32 Register.esi
  let c := c.shl 32 Register.esi 2
  c.addl 32 Register.esp (c.reg Register.esi)

/-- What `EntryStub::Generate` leaves: the machine at the byte `0xcc`, where it
stops, and what the code after that byte leaves when a debugger resumes the
machine there (`none` when the fuel of the argument loop runs out). -/
structure EntryExit where
  breakpoint : Cpu
  resumed : Option Cpu

/-- The code of `EntryStub::Generate` after the byte `0xcc` (`stubs-ia32.cc`,
lines 47-124). `EnterFramePrologue` and `EnterFrameEpilogue` are macros of the
assembler, `scratch` is the register the assembler names so and `callee` is what
the called function does to the machine. -/
def EntryStub.afterBreakpoint (scratch : Register)
    (EnterFramePrologue EnterFrameEpilogue : Cpu → Cpu)
    (callee : Cpu → Cpu) (fuel : Nat) (c : Cpu) : Option Cpu :=
  let c := c.push 32 (c.reg Register.ebx)
  let c := c.push 32 (c.reg Register.esi)
  let c := c.push 32 (c.reg Register.edi)
  let c := c.mov Register.edi (c.load 32 ⟨Register.ebp, 2 * 4⟩)
  let c := c.mov Register.esi (c.load 32 ⟨Register.ebp, 3 * 4⟩)
  let c := c.mov Register.edx (c.load 32 ⟨Register.ebp, 4 * 4⟩)
  let c := EnterFramePrologue c
  (EntryStub.pushArguments fuel c).map (fun c =>
    let c := EntryStub.callCode scratch callee c
    let c := EntryStub.unwind c
    let c := EnterFrameEpilogue c
    let c := c.pop 32 Register.edi
    let c := c.pop 32 Register.esi
    let c := c.pop 32 Register.ebx
    BaseStub.GenerateEpilogue c 0)

/-- `EntryStub::Generate`: the prologue, the three spill slots and the byte
`0xcc` (`emitb(0xcc)`, line 45), which is the instruction `int3`: the machine
stops there, before the registers are stored and the arguments pushed, as at
the same byte in `BinOpStub.fastPath`. -/
def EntryStub.Generate (scratch : Register) (EnterFramePrologue EnterFrameEpilogue : Cpu → Cpu)
    (callee : Cpu → Cpu) (fuel : Nat) (c : Cpu) : EntryExit :=
  let c := BaseStub.GeneratePrologue c
  let c := c.subl 32 Register.esp (3 * 4)
  { breakpoint := c,
    resumed := EntryStub.afterBreakpoint scratch EnterFramePrologue EnterFrameEpilogue callee
      fuel c }

/-- A host call of the function at 4001 (its code is at 9000) with three
arguments 11, 22 and 33 stored at 3000: the stack pointer is at 1000, where the
return address is, followed by the function, the tagged `argc` and `argv`. -/
def entrySample : Cpu :=
  { reg := fun r =>
      match r with
      | Register.esp => 1000
      | Register.ebp => 2000
      | _ => 0,
    mem := fun a =>
      if a = 1000 then 7777 else if a = 1004 then 4001 else if a = 1008 then 6
      else if a = 1012 then 3000
      else if a = 3000 then 11 else if a = 3004 then 22 else if a = 3008 then 33
      else if a = 4008 then 9000 else 0,
    carry := false, overflow := false, zero := false, sign := false,
    calls := [] }

/-- The machine of `entrySample` in the code of `EntryStub::Generate` after the
byte `0xcc`, as a debugger that resumes there finds it once the registers are
loaded: `EnterFramePrologue` pushes nothing here. -/
def entryState : Cpu :=
  let c := BaseStub.GeneratePrologue entrySample
  let c := c.subl 32 Register.esp (3 * 4)
  let c := c.push 32 (c.reg Register.ebx)
  let c := c.push 32 (c.reg Register.esi)
  let c := c.push 32 (c.reg Register.edi)
  let c := c.mov Register.edi (c.load 32 ⟨Register.ebp, 2 * 4⟩)
  let c := c.mov Register.esi (c.load 32 ⟨Register.ebp, 3 * 4⟩)
  c.mov Register.edx (c.load 32 ⟨Register.ebp, 4 * 4⟩)

/-- A callee that is entered with the return address 7777 on the stack, puts 1
in `eax` and returns. -/
def entryCallee (d : Cpu) : Cpu :=
  let d := d.push 32 7777
  let d := d.mov Register.eax 1
  d.ret 32 0

/-! ## The code the stubs emit (`ia32/stubs-ia32.cc`) -/

/-- One item of the code a `Generate` emits: one statement of the source that
calls the assembler, in the order of emission. A `push` or `pop` of a register, a
`mov` between registers and `ret` are kept as instructions; every other
statement (another instruction, a macro of the assembler, a label that is
bound, a spill that is declared or read) is `other` with the text of the
statement. What a macro expands to is not at hand (`macroassembler-ia32.cc`),
so a macro is one item. -/
inductive Asm
  | push (r : Register)
  | pop (r : Register)
  | mov (dst src : Register)
  | ret (n : Nat)
  | other (text : String)
  deriving DecidableEq

/-- What a `Generate` of `stubs-ia32.cc` gives: the operands it declares on the
frame pointer (its arguments on the stack, above the return address) and the
code it emits. -/
structure StubCode where
  arguments : List Operand
  code : List Asm

/-- The code `BaseStub::GeneratePrologue` emits. -/
def BaseStub.GeneratePrologueCode : List Asm :=
  [Asm.push Register.ebp, Asm.mov Register.ebp Register.esp]

/-- The code `BaseStub::GenerateEpilogue` emits. -/
def BaseStub.GenerateEpilogueCode (args : Nat) : List Asm :=
  [Asm.mov Register.esp Register.ebp, Asm.pop Register.ebp, Asm.ret (args * 4)]

/-- The code `EntryStub::Generate` emits. -/
def EntryStub.GenerateCode : StubCode :=
  { arguments := [⟨Register.ebp, 2 * 4⟩, ⟨Register.ebp, 3 * 4⟩, ⟨Register.ebp, 4 * 4⟩],
    code :=
      BaseStub.GeneratePrologueCode ++
      [Asm.other "subl(esp, Immediate(3 * 4))",
       Asm.other "emitb(0xcc)",
       Asm.push Register.ebx,
       Asm.push Register.esi,
       Asm.push Register.edi,
       Asm.other "mov(edi, fn)",
       Asm.other "mov(esi, argc)",
       Asm.other "mov(edx, argv)",
       Asm.other "EnterFramePrologue()",
       Asm.mov Register.eax Register.esi,
       Asm.other "Untag(eax)",
       Asm.other "testb(eax, Immediate(1))",
       Asm.other "jmp(kEq, &even)",
       Asm.other "push(Immediate(0))",
       Asm.other "bind(&even)",
       Asm.mov Register.ebx Register.eax,
       Asm.other "shl(ebx, Immediate(2))",
       Asm.other "addl(ebx, edx)",
       Asm.other "jmp(&args_loop)",
       Asm.other "bind(&args)",
       Asm.other "subl(ebx, Immediate(4))",
       Asm.other "mov(eax, arg)",
       Asm.push Register.eax,
       Asm.other "bind(&args_loop)",
       Asm.other "cmpl(ebx, edx)",
       Asm.other "jmp(kNe, &args)",
       Asm.other "xorl(eax, eax)",
       Asm.other "xorl(ebx, ebx)",
       Asm.other "xorl(ecx, ecx)",
       Asm.other "xorl(edx, edx)",
       Asm.other "mov(scratch, edi)",
       Asm.other "CallFunction(scratch)",
       Asm.other "mov(esi, argc)",
       Asm.other "Untag(esi)",
       Asm.other "testl(esi, Immediate(1))",
       Asm.other "jmp(kEq, &unwind_even)",
       Asm.other "inc(esi)",
       Asm.other "bind(&unwind_even)",
       Asm.other "shl(esi, Immediate(2))",
       Asm.other "addl(esp, esi)",
       Asm.other "EnterFrameEpilogue()",
       Asm.pop Register.edi,
       Asm.pop Register.esi,
       Asm.pop Register.ebx] ++
      BaseStub.GenerateEpilogueCode 0 }

/-- The code `AllocateStub::Generate` emits. -/
def AllocateStub.GenerateCode : StubCode :=
  { arguments := [⟨Register.ebp, 3 * 4⟩, ⟨Register.ebp, 2 * 4⟩],
    code :=
      BaseStub.GeneratePrologueCode ++
      [Asm.other "push(Immediate(0))",
       Asm.push Register.edx,
       Asm.other "mov(scratch, top)",
       Asm.other "mov(scratch, scratch_op)",
       Asm.other "mov(eax, scratch_op)",
       Asm.other "mov(edx, size)",
       Asm.other "Untag(edx)",
       Asm.other "addl(edx, eax)",
       Asm.other "jmp(kCarry, &runtime_allocate)",
       Asm.other "mov(scratch, limit)",
       Asm.other "mov(scratch, scratch_op)",
       Asm.other "cmpl(edx, scratch_op)",
       Asm.other "jmp(kGt, &runtime_allocate)",
       Asm.other "orlb(edx, Immediate(0x01))",
       Asm.other "mov(scratch, top)",
       Asm.other "mov(scratch, scratch_op)",
       Asm.other "mov(scratch_op, edx)",
       Asm.other "jmp(&done)",
       Asm.other "bind(&runtime_allocate)",
       Asm.other "xorl(eax, eax)",
       Asm.other "xorl(edx, edx)",
       Asm.other "ChangeAlign(2)",
       Asm.other "Masm::Align a(masm())",
       Asm.other "Pushad()",
       Asm.other "mov(scratch, size)",
       Asm.other "push(scratch)",
       Asm.other "push(heapref)",
       Asm.other "mov(scratch, Immediate(*reinterpret_cast<uint32_t*>(&allocate)))",
       Asm.other "Call(scratch)",
       Asm.other "addl(esp, Immediate(2 * 4))",
       Asm.other "Popad(eax)",
       Asm.other "ChangeAlign(-2)",
       Asm.other "bind(&done)",
       Asm.other "mov(scratch, tag)",
       Asm.other "Untag(scratch)",
       Asm.other "mov(qtag, scratch)",
       Asm.pop Register.edx] ++
      BaseStub.GenerateEpilogueCode 2 }

/-- The code `AllocateFunctionStub::Generate` emits. -/
def AllocateFunctionStub.GenerateCode : StubCode :=
  { arguments := [⟨Register.ebp, 3 * 4⟩, ⟨Register.ebp, 2 * 4⟩],
    code :=
      BaseStub.GeneratePrologueCode ++
      [Asm.other "Allocate(Heap::kTagFunction, reg_nil, HValue::kPointerSize * 4, eax)",
       Asm.other "mov(scratch, context_slot)",
       Asm.other "mov(qparent, scratch)",
       Asm.other "mov(scratch, root_slot)",
       Asm.other "mov(qroot, scratch)",
       Asm.other "mov(scratch, addr)",
       Asm.other "mov(qaddr, scratch)",
       Asm.other "mov(scratch, argc)",
       Asm.other "mov(qargc, scratch)",
       Asm.other "CheckGC()"] ++
      BaseStub.GenerateEpilogueCode 2 }

/-- The code `AllocateObjectStub::Generate` emits. -/
def AllocateObjectStub.GenerateCode : StubCode :=
  { arguments := [⟨Register.ebp, 3 * 4⟩, ⟨Register.ebp, 2 * 4⟩],
    code :=
      BaseStub.GeneratePrologueCode ++
      [Asm.other "AllocateSpills()",
       Asm.other "mov(ecx, tag)",
       Asm.other "mov(ebx, size)",
       Asm.other "AllocateObjectLiteral(Heap::kTagNil, ecx, ebx, eax)",
       Asm.other "FinalizeSpills()"] ++
      BaseStub.GenerateEpilogueCode 2 }

/-- The code `CallBindingStub::Generate` emits. -/
def CallBindingStub.GenerateCode : StubCode :=
  { arguments := [⟨Register.ebp, 3 * 4⟩, ⟨Register.ebp, 2 * 4⟩],
    code :=
      BaseStub.GeneratePrologueCode ++
      [Asm.other "Pushad()",
       Asm.other "mov(edi, argc)",
       Asm.other "Untag(edi)",
       Asm.mov Register.esi Register.ebp,
       Asm.other "addl(esi, Immediate(4 * 4))",
       Asm.other "mov(scratch, edi)",
       Asm.other "shl(scratch, Immediate(2))",
       Asm.other "subl(esi, scratch)",
       Asm.other "mov(scratch, edi)",
       Asm.other "shl(scratch, Immediate(2))",
       Asm.other "addl(esi, scratch)",
       Asm.other "ExitFramePrologue()",
       Asm.other "mov(scratch, fn)",
       Asm.other "Call(code)",
       Asm.other "ExitFrameEpilogue()",
       Asm.other "Popad(eax)",
       Asm.other "CheckGC()"] ++
      BaseStub.GenerateEpilogueCode 2 }

/-- The code `CollectGarbageStub::Generate` emits. -/
def CollectGarbageStub.GenerateCode : StubCode :=
  { arguments := [],
    code :=
      BaseStub.GeneratePrologueCode ++
      [Asm.other "Pushad()",
       Asm.other "ChangeAlign(2)",
       Asm.other "Masm::Align a(masm())",
       Asm.push Register.esp,
       Asm.other "push(Immediate(reinterpret_cast<uint32_t>(masm()->heap())))",
       Asm.other "mov(eax, Immediate(*reinterpret_cast<uint32_t*>(&gc)))",
       Asm.other "Call(eax)",
       Asm.other "addl(esp, Immediate(2 * 4))",
       Asm.other "ChangeAlign(-2)",
       Asm.other "Popad(reg_nil)"] ++
      BaseStub.GenerateEpilogueCode 0 }

/-- The code `TypeofStub::Generate` emits. -/
def TypeofStub.GenerateCode : StubCode :=
  { arguments := [],
    code :=
      BaseStub.GeneratePrologueCode ++
      [Asm.other "IsUnboxed(eax, &not_unboxed, NULL)",
       Asm.other "mov(eax, Immediate(HContext::GetIndexDisp(Heap::kRootNumberTypeIndex)))",
       Asm.other "jmp(&done)",
       Asm.other "bind(&not_unboxed)",
       Asm.other "IsNil(eax, &not_nil, NULL)",
       Asm.other "mov(eax, Immediate(HContext::GetIndexDisp(Heap::kRootNilTypeIndex)))",
       Asm.other "jmp(&done)",
       Asm.other "bind(&not_nil)",
       Asm.other "movzxb(eax, btag)",
       Asm.other "shl(eax, Immediate(2))",
       Asm.other "addl(eax, Immediate(HContext::GetIndexDisp( Heap::kRootBooleanTypeIndex - Heap::kTagBoolean)))",
       Asm.other "bind(&done)",
       Asm.other "addl(eax, root_slot)",
       Asm.other "mov(eax, type)"] ++
      BaseStub.GenerateEpilogueCode 0 }

/-- The code `SizeofStub::Generate` emits. -/
def SizeofStub.GenerateCode : StubCode :=
  { arguments := [],
    code :=
      BaseStub.GeneratePrologueCode ++
      [Asm.other "Pushad()",
       Asm.other "ChangeAlign(2)",
       Asm.other "Masm::Align a(masm())",
       Asm.push Register.eax,
       Asm.other "push(Immediate(reinterpret_cast<uint32_t>(masm()->heap())))",
       Asm.other "mov(eax, Immediate(*reinterpret_cast<uint32_t*>(&sizeofc)))",
       Asm.other "call(eax)",
       Asm.other "addl(esp, Immediate(2 * 4))",
       Asm.other "ChangeAlign(-2)",
       Asm.other "Popad(eax)"] ++
      BaseStub.GenerateEpilogueCode 0 }

/-- The code `KeysofStub::Generate` emits. -/
def KeysofStub.GenerateCode : StubCode :=
  { arguments := [],
    code :=
      BaseStub.GeneratePrologueCode ++
      [Asm.other "Pushad()",
       Asm.other "ChangeAlign(2)",
       Asm.other "Masm::Align a(masm())",
       Asm.push Register.eax,
       Asm.other "push(Immediate(reinterpret_cast<uint32_t>(masm()->heap())))",
       Asm.other "mov(eax, Immediate(*reinterpret_cast<uint32_t*>(&keysofc)))",
       Asm.other "call(eax)",
       Asm.other "addl(esp, Immediate(2 * 4))",
       Asm.other "ChangeAlign(-2)",
       Asm.other "Popad(eax)"] ++
      BaseStub.GenerateEpilogueCode 0 }

/-- The code `LookupPropertyStub::Generate` emits. -/
def LookupPropertyStub.GenerateCode : StubCode :=
  { arguments := [],
    code :=
      BaseStub.GeneratePrologueCode ++
      [Asm.other "AllocateSpills()",
       Asm.push Register.esi,
       Asm.push Register.edi,
       Asm.push Register.ebx,
       Asm.push Register.ecx,
       Asm.other "Masm::Spill object_s(masm(), eax)",
       Asm.other "Masm::Spill key_s(masm(), edx)",
       Asm.other "Masm::Spill change_s(masm(), ecx)",
       Asm.other "IsUnboxed(eax, NULL, &non_object_error)",
       Asm.other "IsNil(eax, NULL, &non_object_error)",
       Asm.other "IsHeapObject(Heap::kTagObject, eax, NULL, &is_object)",
       Asm.other "IsHeapObject(Heap::kTagArray, eax, &non_object_error, &is_array)",
       Asm.other "bind(&is_object)",
       Asm.other "IsUnboxed(edx, NULL, &slow_case)",
       Asm.other "IsNil(edx, NULL, &slow_case)",
       Asm.other "IsHeapObject(Heap::kTagString, edx, &slow_case, NULL)",
       Asm.other "StringHash(edx, ebx)",
       Asm.other "mov(eax, qmask)",
       Asm.other "andl(ebx, eax)",
       Asm.other "addl(ebx, Immediate(HMap::kSpaceOffset))",
       Asm.other "object_s.Unspill(eax)",
       Asm.other "mov(esi, qmap)",
       Asm.other "addl(esi, ebx)",
       Asm.other "mov(esi, slot)",
       Asm.other "cmpl(esi, edx)",
       Asm.other "jmp(kEq, &match)",
       Asm.other "cmpl(esi, Immediate(Heap::kTagNil))",
       Asm.other "jmp(kNe, &cleanup)",
       Asm.other "bind(&match)",
       Asm.other "cmpl(ecx, Immediate(0))",
       Asm.other "jmp(kEq, &fast_case_end)",
       Asm.other "mov(esi, qmap)",
       Asm.other "addl(esi, ebx)",
       Asm.other "mov(slot, edx)",
       Asm.other "bind(&fast_case_end)",
       Asm.other "object_s.Unspill(eax)",
       Asm.other "mov(eax, qmask)",
       Asm.other "addl(eax, ebx)",
       Asm.other "addl(eax, Immediate(HValue::kPointerSize))",
       Asm.other "xorl(ebx, ebx)"] ++
      BaseStub.GenerateEpilogueCode 0 ++
      [Asm.other "bind(&is_array)",
       Asm.other "IsUnboxed(edx, &slow_case, NULL)",
       Asm.other "IsNil(edx, NULL, &slow_case)",
       Asm.other "cmpl(edx, Immediate(-1))",
       Asm.other "jmp(kLe, &slow_case)",
       Asm.other "IsDenseArray(eax, &slow_case, NULL)",
       Asm.other "mov(ebx, qmask)",
       Asm.other "shl(edx, Immediate(2))",
       Asm.other "cmpl(edx, ebx)",
       Asm.other "jmp(kGt, &cleanup)",
       Asm.other "andl(edx, ebx)",
       Asm.other "Masm::Spill mask_s(masm(), edx)",
       Asm.other "key_s.Unspill(edx)",
       Asm.other "mov(ebx, qlength)",
       Asm.other "Untag(edx)",
       Asm.other "inc(edx)",
       Asm.other "cmpl(edx, ebx)",
       Asm.other "jmp(kLe, &length_set)",
       Asm.other "mov(qlength, edx)",
       Asm.other "bind(&length_set)",
       Asm.other "xorl(edx, edx)",
       Asm.other "mask_s.Unspill(eax)",
       Asm.other "addl(eax, Immediate(HMap::kSpaceOffset))",
       Asm.other "xorl(ebx, ebx)"] ++
      BaseStub.GenerateEpilogueCode 0 ++
      [Asm.other "bind(&cleanup)",
       Asm.other "xorl(ebx, ebx)",
       Asm.other "object_s.Unspill()",
       Asm.other "key_s.Unspill()",
       Asm.other "bind(&slow_case)",
       Asm.other "Pushad()",
       Asm.other "ChangeAlign(4)",
       Asm.other "Masm::Align a(masm())",
       Asm.push Register.ecx,
       Asm.push Register.edx,
       Asm.push Register.eax,
       Asm.other "push(Immediate(reinterpret_cast<uint32_t>(masm()->heap())))",
       Asm.other "mov(eax, Immediate(*reinterpret_cast<uint32_t*>(&lookup)))",
       Asm.other "call(eax)",
       Asm.other "addl(esp, Immediate(4 * 4))",
       Asm.other "ChangeAlign(-4)",
       Asm.other "Popad(eax)",
       Asm.other "jmp(&done)",
       Asm.other "bind(&non_object_error)",
       Asm.other "mov(eax, Immediate(Heap::kTagNil))",
       Asm.other "bind(&done)",
       Asm.pop Register.ecx,
       Asm.pop Register.edx,
       Asm.pop Register.edi,
       Asm.pop Register.esi,
       Asm.other "FinalizeSpills()"] ++
      BaseStub.GenerateEpilogueCode 0 }

/-- The code `CoerceToBooleanStub::Generate` emits. -/
def CoerceToBooleanStub.GenerateCode : StubCode :=
  { arguments := [],
    code :=
      BaseStub.GeneratePrologueCode ++
      [Asm.other "IsUnboxed(eax, NULL, &unboxed)",
       Asm.other "IsNil(eax, NULL, &not_bool)",
       Asm.other "IsHeapObject(Heap::kTagBoolean, eax, &not_bool, NULL)",
       Asm.other "jmp(&coerced_type)",
       Asm.other "bind(&unboxed)",
       Asm.other "mov(scratch, root_slot)",
       Asm.other "cmpl(eax, Immediate(HNumber::Tag(0)))",
       Asm.other "jmp(kNe, &truel)",
       Asm.other "mov(eax, falsev)",
       Asm.other "jmp(&coerced_type)",
       Asm.other "bind(&truel)",
       Asm.other "mov(eax, truev)",
       Asm.other "jmp(&coerced_type)",
       Asm.other "bind(&not_bool)",
       Asm.other "Pushad()",
       Asm.other "ChangeAlign(2)",
       Asm.other "Masm::Align a(masm())",
       Asm.push Register.eax,
       Asm.other "push(Immediate(reinterpret_cast<uint32_t>(masm()->heap())))",
       Asm.other "mov(eax, Immediate(*reinterpret_cast<uint32_t*>(&to_boolean)))",
       Asm.other "call(eax)",
       Asm.other "ChangeAlign(-2)",
       Asm.other "Popad(eax)",
       Asm.other "bind(&coerced_type)",
       Asm.other "CheckGC()"] ++
      BaseStub.GenerateEpilogueCode 0 }

/-- The code `CloneObjectStub::Generate` emits. -/
def CloneObjectStub.GenerateCode : StubCode :=
  { arguments := [],
    code :=
      BaseStub.GeneratePrologueCode ++
      [Asm.other "AllocateSpills()",
       Asm.push Register.esi,
       Asm.push Register.edi,
       Asm.push Register.ebx,
       Asm.push Register.ecx,
       Asm.other "IsUnboxed(eax, NULL, &non_object)",
       Asm.other "IsNil(eax, NULL, &non_object)",
       Asm.other "IsHeapObject(Heap::kTagObject, eax, &non_object, NULL)",
       Asm.other "mov(eax, qmap)",
       Asm.other "mov(ecx, qsize)",
       Asm.other "TagNumber(ecx)",
       Asm.other "AllocateObjectLiteral(Heap::kTagObject, reg_nil, ecx, edx)",
       Asm.mov Register.ebx Register.edx,
       Asm.other "mov(ebx, qmap)",
       Asm.other "addl(eax, Immediate(HMap::kSpaceOffset))",
       Asm.other "addl(ebx, Immediate(HMap::kSpaceOffset))",
       Asm.other "jmp(&loop_cond)",
       Asm.other "bind(&loop_start)",
       Asm.other "mov(esi, from)",
       Asm.other "mov(to, esi)",
       Asm.other "addl(eax, Immediate(4))",
       Asm.other "addl(ebx, Immediate(4))",
       Asm.other "dec(ecx)",
       Asm.other "bind(&loop_cond)",
       Asm.other "cmpl(ecx, Immediate(0))",
       Asm.other "jmp(kNe, &loop_start)",
       Asm.mov Register.eax Register.edx,
       Asm.other "jmp(&done)",
       Asm.other "bind(&non_object)",
       Asm.other "mov(eax, Immediate(Heap::kTagNil))",
       Asm.other "bind(&done)",
       Asm.other "FinalizeSpills()",
       Asm.pop Register.ecx,
       Asm.pop Register.ebx,
       Asm.pop Register.esi,
       Asm.pop Register.edi] ++
      BaseStub.GenerateEpilogueCode 0 }

/-- The code `DeletePropertyStub::Generate` emits. -/
def DeletePropertyStub.GenerateCode : StubCode :=
  { arguments := [],
    code :=
      BaseStub.GeneratePrologueCode ++
      [Asm.other "Pushad()",
       Asm.other "mov(edi, Immediate(reinterpret_cast<uint32_t>(masm()->heap())))",
       Asm.mov Register.esi Register.eax,
       Asm.mov Register.edx Register.ebx,
       Asm.other "mov(eax, Immediate(*reinterpret_cast<uint32_t*>(&delp)))",
       Asm.other "call(eax)",
       Asm.other "Popad(reg_nil)",
       Asm.other "mov(eax, Immediate(Heap::kTagNil))"] ++
      BaseStub.GenerateEpilogueCode 0 }

/-- The code `HashValueStub::Generate` emits. -/
def HashValueStub.GenerateCode : StubCode :=
  { arguments := [⟨Register.ebp, 2 * 4⟩],
    code :=
      BaseStub.GeneratePrologueCode ++
      [Asm.other "Pushad()",
       Asm.other "mov(edi, Immediate(reinterpret_cast<uint32_t>(masm()->heap())))",
       Asm.other "mov(esi, str)",
       Asm.other "mov(eax, Immediate(*reinterpret_cast<uint32_t*>(&hash)))",
       Asm.other "call(eax)",
       Asm.other "Popad(eax)"] ++
      BaseStub.GenerateEpilogueCode 0 }

/-- The code `StackTraceStub::Generate` emits. -/
def StackTraceStub.GenerateCode : StubCode :=
  { arguments := [],
    code :=
      [Asm.mov Register.ebx Register.ebp] ++
      BaseStub.GeneratePrologueCode ++
      [Asm.other "Pushad()",
       Asm.other "mov(edi, Immediate(reinterpret_cast<uint32_t>(masm()->heap())))",
       Asm.mov Register.esi Register.ebx,
       Asm.mov Register.edx Register.eax,
       Asm.other "mov(eax, Immediate(*reinterpret_cast<uint32_t*>(&strace)))",
       Asm.other "call(eax)",
       Asm.other "Popad(eax)"] ++
      BaseStub.GenerateEpilogueCode 0 }

/-- The code `BinOpStub::Generate` emits for the operator `type`; `is_math`,
`is_binary`, `is_logic` and `is_bool_logic` are the values of the predicates of
`BinOp` of these names at `type` (`ast.h` is not at hand). -/
def BinOpStub.GenerateCode (is_math is_binary is_logic is_bool_logic : Bool)
    (type : BinOpType) : StubCode :=
  { arguments := [],
    code :=
      BaseStub.GeneratePrologueCode ++
      [Asm.other "AllocateSpills()"] ++
      (if type ≠ BinOpType.kDiv then
        [Asm.other "IsUnboxed(eax, &not_unboxed, NULL)",
         Asm.other "IsUnboxed(ecx, &not_unboxed, NULL)"] ++
        (if is_math then
          [Asm.other "Masm::Spill lvalue(masm(), eax)",
           Asm.other "Masm::Spill rvalue(masm(), ecx)"] ++
          (match type with
           | BinOpType.kAdd => [Asm.other "addl(eax, ecx)"]
           | BinOpType.kSub => [Asm.other "subl(eax, ecx)"]
           | BinOpType.kMul => [Asm.other "Untag(ecx)", Asm.other "imull(ecx)"]
           | _ => [Asm.other "emitb(0xcc)"]) ++
          [Asm.other "jmp(kNoOverflow, &done)",
           Asm.other "lvalue.Unspill()",
           Asm.other "rvalue.Unspill()",
           Asm.other "jmp(&not_unboxed)"]
        else if is_binary then
          (match type with
           | BinOpType.kBAnd => [Asm.other "andl(eax, ecx)"]
           | BinOpType.kBOr => [Asm.other "orl(eax, ecx)"]
           | BinOpType.kBXor => [Asm.other "xorl(eax, ecx)"]
           | BinOpType.kMod =>
             [Asm.other "xorl(edx, edx)",
              Asm.other "idivl(ecx)",
              Asm.mov Register.eax Register.edx]
           | BinOpType.kShl =>
             [Asm.mov Register.ebx Register.ecx,
              Asm.other "shr(ebx, Immediate(1))"] ++ [Asm.other "sal(eax)"] ++
             [Asm.other "shr(eax, Immediate(1))",
              Asm.other "shl(eax, Immediate(1))"]
           | BinOpType.kShr =>
             [Asm.mov Register.ebx Register.ecx,
              Asm.other "shr(ebx, Immediate(1))"] ++ [Asm.other "sar(eax)"] ++
             [Asm.other "shr(eax, Immediate(1))",
              Asm.other "shl(eax, Immediate(1))"]
           | BinOpType.kUShr =>
             [Asm.mov Register.ebx Register.ecx,
              Asm.other "shr(ebx, Immediate(1))"] ++ [Asm.other "shr(eax)"] ++
             [Asm.other "shr(eax, Immediate(1))",
              Asm.other "shl(eax, Immediate(1))"]
           | _ => [Asm.other "emitb(0xcc)"])
        else if is_logic then
          [Asm.other "cmpl(eax, ecx)",
           Asm.other "mov(scratch, root_slot)",
           Asm.other "jmp(cond, &true_)",
           Asm.other "mov(eax, falsev)",
           Asm.other "jmp(&cond_end)",
           Asm.other "bind(&true_)",
           Asm.other "mov(eax, truev)",
           Asm.other "bind(&cond_end)"]
        else
          [Asm.other "jmp(&not_unboxed)"]) ++
        [Asm.other "jmp(&done)"]
      else []) ++
      [Asm.other "bind(&not_unboxed)",
       Asm.other "IsNil(eax, NULL, &call_runtime)",
       Asm.other "IsNil(ecx, NULL, &call_runtime)",
       Asm.other "IsUnboxed(eax, &box_rhs, NULL)",
       Asm.other "Untag(eax)",
       Asm.other "xorld(xmm1, xmm1)",
       Asm.other "cvtsi2sd(xmm1, eax)",
       Asm.other "xorl(eax, eax)",
       Asm.other "AllocateNumber(xmm1, eax)",
       Asm.other "bind(&box_rhs)",
       Asm.other "IsUnboxed(ecx, &both_boxed, NULL)",
       Asm.other "Untag(ecx)",
       Asm.other "xorld(xmm1, xmm1)",
       Asm.other "cvtsi2sd(xmm1, ecx)",
       Asm.other "xorl(ecx, ecx)",
       Asm.other "AllocateNumber(xmm1, ecx)",
       Asm.other "bind(&both_boxed)"] ++
      (if is_bool_logic then [Asm.other "jmp(&call_runtime)"] else []) ++
      [Asm.other "IsNil(eax, NULL, &call_runtime)",
       Asm.other "IsNil(ecx, NULL, &call_runtime)",
       Asm.other "IsHeapObject(Heap::kTagNumber, eax, &call_runtime, NULL)",
       Asm.other "IsHeapObject(Heap::kTagNumber, ecx, &call_runtime, NULL)",
       Asm.other "movdqu(lvalue, xmm1)",
       Asm.other "movdqu(rvalue, xmm2)",
       Asm.other "xorl(ecx, ecx)"] ++
      (if is_math then
        (match type with
         | BinOpType.kAdd => [Asm.other "addld(xmm1, xmm2)"]
         | BinOpType.kSub => [Asm.other "subld(xmm1, xmm2)"]
         | BinOpType.kMul => [Asm.other "mulld(xmm1, xmm2)"]
         | BinOpType.kDiv => [Asm.other "divld(xmm1, xmm2)"]
         | _ => [Asm.other "emitb(0xcc)"]) ++
        [Asm.other "AllocateNumber(xmm1, eax)"]
      else if is_binary then
        [Asm.other "cvttsd2si(eax, xmm1)",
         Asm.other "cvttsd2si(ecx, xmm2)"] ++
        (match type with
         | BinOpType.kBAnd => [Asm.other "andl(eax, ecx)"]
         | BinOpType.kBOr => [Asm.other "orl(eax, ecx)"]
         | BinOpType.kBXor => [Asm.other "xorl(eax, ecx)"]
         | BinOpType.kMod =>
           [Asm.other "xorl(edx, edx)",
            Asm.other "idivl(ecx)",
            Asm.mov Register.eax Register.edx]
         | BinOpType.kShl => [Asm.mov Register.ebx Register.ecx] ++ [Asm.other "shl(eax)"]
         | BinOpType.kShr => [Asm.mov Register.ebx Register.ecx] ++ [Asm.other "shr(eax)"]
         | BinOpType.kUShr =>
           [Asm.mov Register.ebx Register.ecx] ++
           [Asm.other "shl(eax, Immediate(1))",
            Asm.other "shr(eax)",
            Asm.other "shr(eax, Immediate(1))"]
         | _ => [Asm.other "emitb(0xcc)"]) ++
        [Asm.other "TagNumber(eax)"]
      else if is_logic then
        [Asm.other "ucomisd(xmm1, xmm2)",
         Asm.other "mov(scratch, root_slot)",
         Asm.other "jmp(cond, &true_)",
         Asm.other "mov(eax, falsev)",
         Asm.other "jmp(&comp_end)",
         Asm.other "bind(&true_)",
         Asm.other "mov(eax, truev)",
         Asm.other "bind(&comp_end)"]
      else []) ++
      [Asm.other "jmp(&done)",
       Asm.other "bind(&call_runtime)"] ++
      [Asm.other "Pushad()",
       Asm.other "ChangeAlign(3)",
       Asm.other "Masm::Align a(masm())",
       Asm.push Register.ecx,
       Asm.push Register.eax,
       Asm.other "push(heapref)",
       Asm.other "mov(scratch, Immediate(*reinterpret_cast<uint32_t*>(&cb)))",
       Asm.other "call(scratch)",
       Asm.other "addl(esp, Immediate(4 * 3))",
       Asm.other "ChangeAlign(-3)",
       Asm.other "Popad(eax)",
       Asm.other "bind(&done)",
       Asm.other "xorl(ebx, ebx)",
       Asm.other "xorl(ecx, ecx)",
       Asm.other "CheckGC()",
       Asm.other "FinalizeSpills()"] ++
      BaseStub.GenerateEpilogueCode 0 }

/-- The classes of `stubs-ia32.cc` that define a `Generate`; a `BinOpStub` is
made for an operator. -/
inductive StubClass
  | EntryStub | AllocateStub | AllocateFunctionStub | AllocateObjectStub | CallBindingStub
  | CollectGarbageStub | TypeofStub | SizeofStub | KeysofStub | LookupPropertyStub
  | CoerceToBooleanStub | CloneObjectStub | DeletePropertyStub | HashValueStub | StackTraceStub
  | BinOpStub (type : BinOpType)
  deriving DecidableEq

/-- The code the `Generate` of a class emits; the predicates of `BinOp` are
parameters. -/
def StubClass.GenerateCode (is_math is_binary is_logic is_bool_logic : BinOpType → Bool) :
    StubClass → StubCode
  | StubClass.EntryStub => candor.EntryStub.GenerateCode
  | StubClass.AllocateStub => candor.AllocateStub.GenerateCode
  | StubClass.AllocateFunctionStub => candor.AllocateFunctionStub.GenerateCode
  | StubClass.AllocateObjectStub => candor.AllocateObjectStub.GenerateCode
  | StubClass.CallBindingStub => candor.CallBindingStub.GenerateCode
  | StubClass.CollectGarbageStub => candor.CollectGarbageStub.GenerateCode
  | StubClass.TypeofStub => candor.TypeofStub.GenerateCode
  | StubClass.SizeofStub => candor.SizeofStub.GenerateCode
  | StubClass.KeysofStub => candor.KeysofStub.GenerateCode
  | StubClass.LookupPropertyStub => candor.LookupPropertyStub.GenerateCode
  | StubClass.CoerceToBooleanStub => candor.CoerceToBooleanStub.GenerateCode
  | StubClass.CloneObjectStub => candor.CloneObjectStub.GenerateCode
  | StubClass.DeletePropertyStub => candor.DeletePropertyStub.GenerateCode
  | StubClass.HashValueStub => candor.HashValueStub.GenerateCode
  | StubClass.StackTraceStub => candor.StackTraceStub.GenerateCode
  | StubClass.BinOpStub type =>
    candor.BinOpStub.GenerateCode (is_math type) (is_binary type) (is_logic type)
      (is_bool_logic type) type

/-- Whether every `ret` of the code `l` is `ret (n * 4)` and comes right after
`mov esp, ebp; pop ebp`; `before` holds the items emitted before `l`, the last
one first. -/
def epiloguesFrom (n : Nat) : List Asm → List Asm → Bool
  | _, [] => true
  | before, Asm.ret k :: rest =>
    (match before with
     | Asm.pop Register.ebp :: Asm.mov Register.esp Register.ebp :: _ => k == n * 4
     | _ => false) && epiloguesFrom n (Asm.ret k :: before) rest
  | before, x :: rest => epiloguesFrom n (x :: before) rest

/-! ## Flattening the blocks (`LGen::FlattenBlocks`) -/

/-- A block of the HIR as `FlattenBlocks` reads it: `pred_count()`, `IsLoop()`
and the successors `SuccAt(0)`, ..., `SuccAt(succ_count() - 1)`. A block is named
by its `id`, its position in `hir_->blocks()`. -/
structure HIRBlock where
  pred_count : Nat
  IsLoop : Bool
  succs_ : List Nat

/-- `HIRBlock::succ_count`. -/
def HIRBlock.succ_count (b : HIRBlock) : Nat := b.succs_.length

/-- The block with the id `b` of `hir_->blocks()`; an id outside the list names
a block without predecessors and successors. -/
def blockOf (hir : List HIRBlock) (b : Nat) : HIRBlock := hir.getD b ⟨0, false, []⟩

/-- The state of the loop of `FlattenBlocks`: the array `visits` (as a function
of the id), the work queue and the list `blocks_`. The field `trace` is not a
variable of the code: it records the blocks in the order in which they are
shifted from the work queue, each with whether it was put into `blocks_`. -/
structure FlattenState where
  visits : Nat → Nat
  work_queue : List Nat
  blocks_ : List Nat
  trace : List (Nat × Bool)

/-- The loop `for (int i = b->succ_count() - 1; i >= 0; i--)` of `FlattenBlocks`:
the successors are put at the front of the work queue, the last one first. -/
def LGen.unshiftSuccs (succs : List Nat) (work_queue : List Nat) : List Nat :=
  succs.reverse.foldl (fun q s => s :: q) work_queue

/-- The test of `FlattenBlocks` that ends an iteration with `continue`: a block
with predecessors that is a loop start is skipped unless this is its first
visit, and another block with predecessors unless the visit is the one of its
last predecessor. -/
def LGen.flattenSkips (blk : HIRBlock) (visits : Nat) : Bool :=
  if blk.pred_count = 0 then false
  else if blk.IsLoop then visits != 1
  else visits != blk.pred_count

/-- One iteration of the loop of `FlattenBlocks` for the block `b` (which is
`blk`) shifted from the work queue, of which `queue` is left: the visit is
counted; unless the test skips the block, it is put at the end of `blocks_` and
its successors at the front of the work queue. The `LBlock` that is made for a
block without one does not change the order and is left out. -/
def LGen.flattenStep (blk : HIRBlock) (b : Nat) (queue : List Nat) (s : FlattenState) :
    FlattenState :=
  let visits := fun i => if i = b then s.visits i + 1 else s.visits i
  if LGen.flattenSkips blk (visits b) then
    { visits := visits, work_queue := queue, blocks_ := s.blocks_,
      trace := s.trace ++ [(b, false)] }
  else
    { visits := visits, work_queue := LGen.unshiftSuccs blk.succs_ queue,
      blocks_ := s.blocks_ ++ [b], trace := s.trace ++ [(b, true)] }

/-- The loop `while (work_queue.length() > 0)` of `FlattenBlocks`, with at most
`fuel` tests of its condition; a block outside `hir_->blocks()` ends the run
without a result. -/
def LGen.flattenLoop (hir : List HIRBlock) : Nat → FlattenState → Option FlattenState
  | 0, _ => none
  | fuel + 1, s =>
    match s.work_queue with
    | [] => some s
    | b :: queue =>
      match hir[b]? with
      | none => none
      | some blk => LGen.flattenLoop hir fuel (LGen.flattenStep blk b queue s)

/-- The state `FlattenBlocks` starts its loop with: no visits, the root in the
work queue. -/
def LGen.flattenStart (root : Nat) : FlattenState :=
  { visits := fun _ => 0, work_queue := [root], blocks_ := [], trace := [] }

/-- `LGen::FlattenBlocks`. -/
def LGen.FlattenBlocks (hir : List HIRBlock) (root : Nat) (fuel : Nat) : Option FlattenState :=
  LGen.flattenLoop hir fuel (LGen.flattenStart root)

/-- The number of edges of the graph that lead into the block `b`. -/
def incoming (hir : List HIRBlock) (b : Nat) : Nat :=
  ((List.range hir.length).map (fun a => (blockOf hir a).succs_.count b)).sum

/-- A path of the graph from `a` to `b` on which no block is `h`. -/
inductive AvoidingPath (hir : List HIRBlock) (h : Nat) : Nat → Nat → Prop
  | refl (a : Nat) (ha : a ≠ h) : AvoidingPath hir h a a
  | step (a b c : Nat) (hab : AvoidingPath hir h a b) (hbc : c ∈ (blockOf hir b).succs_)
      (hc : c ≠ h) : AvoidingPath hir h a c

/-- A graph with a loop: block 0 is the root and goes to the loop start 1,
which branches to the body 2 and to the exit 4; the body branches to 3 and to
the exit, and 3 goes back to the loop start. -/
def loopGraph : List HIRBlock :=
  [⟨0, false, [1]⟩, ⟨2, true, [2, 4]⟩, ⟨1, false, [3, 4]⟩, ⟨1, false, [1]⟩, ⟨2, false, []⟩]

/-- What holds of every state of the loop of `FlattenBlocks` for the graph
`hir` with the root `root`. -/
structure FlattenInv (hir : List HIRBlock) (root : Nat) (s : FlattenState) : Prop where
  visits_eq : ∀ b, s.visits b = (s.trace.map Prod.fst).count b
  blocks_eq : s.blocks_ = (s.trace.filter (fun e => e.2)).map Prod.fst
  nodup : s.blocks_.Nodup
  balance : ∀ b, s.work_queue.count b + s.visits b =
    (s.blocks_.map (fun a => (blockOf hir a).succs_.count b)).sum + (if b = root then 1 else 0)
  blocks_lt : ∀ b ∈ s.blocks_, b < hir.length
  queue_lt : ∀ b ∈ s.work_queue, b < hir.length
  visited : ∀ b ∈ s.blocks_, 1 ≤ s.visits b
  regular : ∀ b ∈ s.blocks_, (blockOf hir b).IsLoop = false →
    (blockOf hir b).pred_count ≠ 0 → (blockOf hir b).pred_count ≤ s.visits b
  preds_before : ∀ l1 b l2, s.blocks_ = l1 ++ b :: l2 → b ≠ root →
    (blockOf hir b).IsLoop = false → ∀ a, b ∈ (blockOf hir a).succs_ → a ∈ l1
  pred_before : ∀ l1 b l2, s.blocks_ = l1 ++ b :: l2 → b ≠ root →
    ∃ a ∈ l1, b ∈ (blockOf hir a).succs_
  head : (s.blocks_ = [] ∧ s.work_queue = [root]) ∨ s.blocks_.head? = some root
  first_visit : ∀ pre h flag post, s.trace = pre ++ (h, flag) :: post →
    (blockOf hir h).IsLoop = true → (flag = true ↔ h ∉ pre.map Prod.fst)
  size : s.trace.length + s.work_queue.length =
    1 + (s.blocks_.map (fun a => (blockOf hir a).succs_.length)).sum

/-! ## Sequences of `AddRange` calls -/

/-- A sequence of calls `AddRange(s, e)` on an interval, in the order of the
calls; a call whose assertion fails ends the run without a result. -/
def LInterval.AddRanges (i : LInterval) : List (Int × Int) → Option LInterval
  | [] => some i
  | c :: rest => (i.AddRange c.1 c.2).bind (fun i1 => i1.AddRanges rest)

/-- Ranges that are not empty, sorted, and apart from each other: every range
ends before every later one starts. -/
def rangesApart (rs : List LRange) : Prop :=
  (∀ r ∈ rs, r.start < r.end_) ∧ rs.Pairwise (fun a b => a.end_ < b.start)

/-! ## A state for `ShuffleIntervals` -/

/-- Four intervals: 0 lives on `[0, 4)`, 1 on `[2, 10)`, 2 on `[0, 3)` and
`[8, 12)`, and 3 on `[4, 9)`. -/
def shuffleSample : LGen :=
  { blocks := [], instructions := [],
    intervals :=
      [LInterval.mk 0 IntervalType.kRegister 0 false [⟨0, 4⟩] [] none [],
       LInterval.mk 1 IntervalType.kRegister 1 false [⟨2, 10⟩] [] none [],
       LInterval.mk 2 IntervalType.kRegister 2 false [⟨0, 3⟩, ⟨8, 12⟩] [] none [],
       LInterval.mk 3 IntervalType.kRegister 3 false [⟨4, 9⟩] [] none []],
    unhandled := [], active := [0, 1, 2], inactive := [3],
    unhandled_spills := [], active_spills := [], inactive_spills := [], free_spills := [],
    spill_index := 0, virtual_index := 40 }

/-! ## A family of split intervals for `UseAfter` -/

/-- A state with eleven instructions (ids 0, 2, ..., 20) in one block, the ten
fixed intervals and the virtual interval 10, which lives on `[2, 19)` and is
used at 2, 8, 12 and 18. -/
def useAfterSample : LGen :=
  { blocks := [⟨[], [], [], [], [], [], 0, 20⟩],
    instructions := (List.range 11).map (fun k => plainInstr (2 * k) [] [] none),
    intervals := (List.range kLIRRegisterCount).map fixedInterval ++
      [LInterval.mk 10 IntervalType.kVirtual 40 false [⟨2, 19⟩]
         [⟨UseType.kAny, 2⟩, ⟨UseType.kAny, 8⟩, ⟨UseType.kAny, 12⟩, ⟨UseType.kAny, 18⟩]
         none []],
    unhandled := [], active := [10], inactive := [],
    unhandled_spills := [], active_spills := [], inactive_spills := [], free_spills := [],
    spill_index := 0, virtual_index := 41 }

/-- Three calls of `Split` on `useAfterSample`: the interval 10 is split at 15
and then at 5, and its second child is split at 11; the result is the state and
the three children, in the order of their creation. -/
def useAfterSplits : Option (LGen × Nat × Nat × Nat) := do
  let (g1, a) ← useAfterSample.Split 10 15
  let (g2, b) ← g1.Split 10 5
  let (g3, c) ← g2.Split b 11
  pure (g3, a, b, c)

/-- The state after the three splits of `useAfterSplits`. -/
def useAfterState : LGen := (useAfterSplits.map (fun r => r.1)).getD useAfterSample

/-! ## The stack slots of the frame (`LGen::Generate`) -/

/-- The number of stack slots `LGen::Generate` asks the assembler for: one more
than `spill_index_`, for `argc`. -/
def LGen.stack_slots (g : LGen) : Int := g.spill_index + 1

/-! ## The registers `LookupPropertyStub` and `CloneObjectStub` save -/

/-- The four pushes of `LookupPropertyStub::Generate` after `AllocateSpills()`
(`stubs-ia32.cc`, lines 431-434). -/
def LookupPropertyStub.saves (c : Cpu) : Cpu :=
  let c := c.push 32 (c.reg Register.esi)
  let c := c.push 32 (c.reg Register.edi)
  let c := c.push 32 (c.reg Register.ebx)
  c.push 32 (c.reg Register.ecx)

/-- The four pops of `LookupPropertyStub::Generate` at the label `done`
(`stubs-ia32.cc`, lines 618-621). -/
def LookupPropertyStub.restores (c : Cpu) : Cpu :=
  let c := c.pop 32 Register.ecx
  let c := c.pop 32 Register.edx
  let c := c.pop 32 Register.edi
  c.pop 32 Register.esi

/-- The whole of `LookupPropertyStub::Generate` on IA-32. `AllocateSpills` is
what the macro of that name does, `RuntimeLookupProperty` what the code between
the label `slow_case` and the jump to `done` does (`Pushad`, the pushes of the
arguments, the call, the unwinding and `Popad(eax)`); `FinalizeSpills` emits no
instruction. The two fast paths leave through their own `GenerateEpilogue(0)`. -/
def LookupPropertyStub.GenerateWhole (StringHash : Cpu → Cpu) (IsDenseArray : Cpu → Bool)
    (AllocateSpills RuntimeLookupProperty : Cpu → Cpu) (c : Cpu) : Cpu :=
  let c := BaseStub.GeneratePrologue c
  let c := AllocateSpills c
  let c := LookupPropertyStub.saves c
  let object_s := c.reg Register.eax
  let key_s := c.reg Register.edx
  match LookupPropertyStub.Generate 4 StringHash IsDenseArray c with
  | LookupExit.epilogue c => BaseStub.GenerateEpilogue c 0
  | LookupExit.cleanup c =>
    let c := c.xorl 32 Register.ebx (c.reg Register.ebx)
    let c := c.mov Register.eax object_s
    let c := c.mov Register.edx key_s
    BaseStub.GenerateEpilogue (LookupPropertyStub.restores (RuntimeLookupProperty c)) 0
  | LookupExit.slow_case c =>
    BaseStub.GenerateEpilogue (LookupPropertyStub.restores (RuntimeLookupProperty c)) 0
  | LookupExit.non_object_error c =>
    BaseStub.GenerateEpilogue (LookupPropertyStub.restores (c.mov Register.eax kTagNil)) 0

/-- The four pushes of `CloneObjectStub::Generate` after `AllocateSpills()`
(`stubs-ia32.cc`, lines 690-693). -/
def CloneObjectStub.saves (c : Cpu) : Cpu :=
  let c := c.push 32 (c.reg Register.esi)
  let c := c.push 32 (c.reg Register.edi)
  let c := c.push 32 (c.reg Register.ebx)
  c.push 32 (c.reg Register.ecx)

/-- The four pops of `CloneObjectStub::Generate` after the label `done`
(`stubs-ia32.cc`, lines 759-762). -/
def CloneObjectStub.restores (c : Cpu) : Cpu :=
  let c := c.pop 32 Register.ecx
  let c := c.pop 32 Register.ebx
  let c := c.pop 32 Register.esi
  c.pop 32 Register.edi

/-- The whole of `CloneObjectStub::Generate`; `AllocateSpills` is what the macro
of that name does and `FinalizeSpills` emits no instruction. -/
def CloneObjectStub.GenerateWhole (AllocateSpills AllocateObjectLiteral : Cpu → Cpu)
    (fuel : Nat) (c : Cpu) : Option Cpu :=
  let c := BaseStub.GeneratePrologue c
  let c := AllocateSpills c
  let c := CloneObjectStub.saves c
  (CloneObjectStub.Generate AllocateObjectLiteral fuel c).map fun c =>
    BaseStub.GenerateEpilogue (CloneObjectStub.restores c) 0

/-- The machine `c` with 0x51, 0xD1, 0xB1 and 0 in `esi`, `edi`, `ebx` and
`ecx`. -/
def withSavedRegisters (c : Cpu) : Cpu :=
  { c with
    reg := fun r =>
      match r with
      | Register.esi => 0x51
      | Register.edi => 0xD1
      | Register.ebx => 0xB1
      | Register.ecx => 0
      | r => c.reg r }

/-- The words of `esi`, `edi`, `ebx`, `ecx`, `edx` of a machine. -/
def Cpu.saved (c : Cpu) : List Nat :=
  [c.reg Register.esi, c.reg Register.edi, c.reg Register.ebx, c.reg Register.ecx,
   c.reg Register.edx]

/-- The registers of the pops in the code a stub emits, in emission order. -/
def popsOf (code : List Asm) : List Register :=
  code.filterMap fun a =>
    match a with
    | Asm.pop r => some r
    | _ => none

/-- The registers of the pushes in the code a stub emits, in emission order. -/
def pushesOf (code : List Asm) : List Register :=
  code.filterMap fun a =>
    match a with
    | Asm.push r => some r
    | _ => none

/-- The machine at the four pushes of a stub entered on `c` with
`withSavedRegisters`: the prologue has run and `AllocateSpills` has taken 16
bytes of the stack. -/
def atSaves (c : Cpu) : Cpu :=
  (BaseStub.GeneratePrologue (withSavedRegisters c)).subl 32 Register.esp 16

/-! ## Aligning the stack before a call (`LAlignStack::Generate`) -/

/-- `LAlignStack::Generate`: `input` is the register of `inputs[0]`, which holds
the tagged `argc`; when `argc` is odd one more word, Nil, is pushed. -/
def LAlignStack.Generate (input : Register) (c : Cpu) : Cpu :=
  let c := c.testb 32 (c.reg input) (ofInt 32 (HNumber.Tag 1))
  if c.cond Condition.kEq then c else c.push 32 kTagNil

/-- A call site with one argument, as the code of one `LAlignStack`, one
`LStoreArg` and the `LCall` runs it on `callOf fn`: `eax` holds the tagged
`argc` for the alignment, the argument 22 is in `edx`. -/
def callSite (fn : Nat) : Cpu :=
  let c := LAlignStack.Generate Register.eax (callOf fn)
  let c := LStoreArg.Generate Register.edx (c.mov Register.edx 22)
  LCall.Generate Register.edi Register.esi (fun c => c) c

/-! ## Lowering HIR instructions (`HIRInstruction::Remove`, `LGen::GenerateInstructions`) -/

/-- The kinds of `HIRInstruction` that `LGen::VisitInstruction` dispatches on:
Goto and Phi have their visitors in `lir.cc`; `kOther k` stands for a kind whose
visitor is defined in a file that is not part of the sources. -/
inductive HIRType
  | kGoto
  | kPhi
  | kOther (k : Nat)
deriving DecidableEq, Repr

/-- The classes of LIR instruction that `lir.cc` creates; `kOther` is one made
by a visitor that is not part of the sources. -/
inductive LIRKind
  | kLabel (block : Nat)
  | kMove
  | kGoto
  | kPhi
  | kOther (k : Nat)
deriving DecidableEq, Repr

/-- An argument of an LIR instruction: an interval, or a HIR instruction (the
overload of `AddArg` that `VisitGoto` uses for the input of a move). -/
inductive LArg
  | interval (id : Nat)
  | hir (instr : Nat)
deriving DecidableEq, Repr

/-- An LIR instruction as lowering creates it: its class, its arguments, the
interval of its result and the HIR instruction `Bind` ties it to. -/
structure LIRInstr where
  kind : LIRKind
  inputs : List LArg
  result : Option Nat
  hir : Option Nat
deriving DecidableEq, Repr

/-- A `HIRInstruction`: its kind, its arguments and users, the removed flag,
its block and its LIR instruction (`NULL` is `none`); `inputs_` are the inputs of
a `HIRPhi`. Instructions and blocks are named by their indices in the tables. -/
structure HIRInstruction where
  type_ : HIRType
  args_ : List Nat
  uses_ : List Nat
  removed_ : Bool
  block_ : Nat
  lir_ : Option LIRInstr
  inputs_ : List Nat
deriving DecidableEq, Repr

/-- `HIRInstruction::Remove` (`hir-instructions-inl.h`, lines 35-37). -/
def HIRInstruction.Remove (i : HIRInstruction) : HIRInstruction := { i with removed_ := true }

/-- `HIRInstruction::IsRemoved` (`hir-instructions-inl.h`, lines 40-42). -/
def HIRInstruction.IsRemoved (i : HIRInstruction) : Bool := i.removed_

/-- `HIRInstruction::Is`. -/
def HIRInstruction.Is (i : HIRInstruction) (t : HIRType) : Bool := i.type_ == t

/-- A `HIRBlock` as lowering reads it: the list of its instructions, the list
of its phis, its successors and its predecessors. -/
structure HIRBlockBody where
  instructions_ : List Nat
  phis_ : List Nat
  succs_ : List Nat
  preds_ : List Nat
deriving DecidableEq, Repr

/-- The state of `LGen` during `GenerateInstructions`: the table of the HIR
instructions, `virtual_index_`, the LIR instructions added so far,
`current_block_` and `current_instruction_`. -/
structure LowerState where
  hir : List HIRInstruction
  virtual_index : Nat
  instructions_ : List LIRInstr
  current_block_ : Nat
  current_instruction_ : Nat

/-- The setter `HIRInstruction::lir(LInstruction*)` on the instruction `i` of
the table. -/
def LowerState.setLir (s : LowerState) (i : Nat) (l : LIRInstr) : LowerState :=
  match s.hir[i]? with
  | some x => { s with hir := s.hir.set i { x with lir_ := some l } }
  | none => s

/-- Modelled from the spec: `LGen::CreateVirtual` of the missing `lir-inl.h`, as
far as lowering needs it: the fresh interval is numbered by `virtual_index_`. -/
def LowerState.CreateVirtual (s : LowerState) : LowerState × Nat :=
  ({ s with virtual_index := s.virtual_index + 1 }, s.virtual_index)

/-- Modelled from the spec: `LGen::Add` of the missing `lir-inl.h`: the
instruction is appended to the list of LIR instructions. -/
def LowerState.Add (s : LowerState) (l : LIRInstr) : LowerState :=
  { s with instructions_ := s.instructions_ ++ [l] }

/-- Modelled from the spec: `LGen::Bind` of the missing `lir-inl.h`: the
instruction is added and tied to `current_instruction_`. -/
def LowerState.Bind (s : LowerState) (l : LIRInstr) : LowerState :=
  (s.Add { l with hir := some s.current_instruction_ }).setLir s.current_instruction_
    { l with hir := some s.current_instruction_ }

/-- The `LPhi` that `VisitGoto` creates: the fresh interval is its argument and
its result. -/
def LPhi.New (iphi : Nat) : LIRInstr :=
  { kind := LIRKind.kPhi, inputs := [LArg.interval iphi], result := some iphi, hir := none }

/-- The LIR instruction of a phi in `LGen::VisitGoto` (`lir.cc`, lines 117-128):
a phi without one gets a fresh `LPhi`. -/
def LowerState.phiLir (s : LowerState) (phi : Nat) (p : HIRInstruction) :
    LowerState × LIRInstr :=
  match p.lir_ with
  | none =>
    let (s1, iphi) := s.CreateVirtual
    (s1.setLir phi (LPhi.New iphi), LPhi.New iphi)
  | some l => (s, l)

/-- The input of a phi in `LGen::VisitGoto` (`lir.cc`, lines 131-141): an input
that is a phi without LIR instruction gets a fresh `LPhi`, and must not be
removed. -/
def LowerState.inputLir (s : LowerState) (input : Nat) (inp : HIRInstruction) :
    Option LowerState :=
  if inp.Is HIRType.kPhi && inp.lir_.isNone then
    (assert (!inp.IsRemoved)).bind fun _ =>
      let (s1, iphi) := s.CreateVirtual
      some (s1.setLir input (LPhi.New iphi))
  else some s

/-- The body of the loop of `LGen::VisitGoto` for one phi of the successor
(`lir.cc`, lines 111-147). -/
def LowerState.phiMove (parent_index : Nat) (s : LowerState) (phi : Nat) :
    Option LowerState :=
  (s.hir[phi]?).bind fun p =>
  (assert (!p.IsRemoved)).bind fun _ =>
  (p.inputs_[parent_index]?).bind fun input =>
  ((s.phiLir phi p).1.hir[input]?).bind fun inp =>
  ((s.phiLir phi p).1.inputLir input inp).bind fun s2 =>
  (s.phiLir phi p).2.result.bind fun r =>
  some (s2.Add { kind := LIRKind.kMove, inputs := [LArg.hir input], result := some r,
                 hir := none })

/-- `LGen::VisitGoto` (`lir.cc`, lines 106-150) for the instruction `instr`. -/
def LowerState.VisitGoto (blocks : List HIRBlockBody) (s : LowerState) (instr : Nat) :
    Option LowerState := do
  let i ← s.hir[instr]?
  let b ← blocks[i.block_]?
  let succ ← b.succs_[0]?
  let sb ← blocks[succ]?
  let p0 ← sb.preds_[0]?
  let parent_index := if p0 ≠ i.block_ then 1 else 0
  let s ← sb.phis_.foldlM (LowerState.phiMove parent_index) s
  pure (s.Bind { kind := LIRKind.kGoto, inputs := [], result := none, hir := none })

/-- `LGen::VisitPhi` (`lir.cc`, lines 153-159). -/
def LowerState.VisitPhi (s : LowerState) (instr : Nat) : Option LowerState := do
  let i ← s.hir[instr]?
  let l ← i.lir_
  assert (l.inputs.length == 1)
  assert l.result.isSome
  pure (s.Bind l)

/-- `LGen::VisitInstruction`: the switch on the kind of the instruction.
`VisitOther k` is the visitor of the kind `kOther k`. -/
def LowerState.VisitInstruction (VisitOther : Nat → LowerState → Nat → Option LowerState)
    (blocks : List HIRBlockBody) (s : LowerState) (instr : Nat) : Option LowerState := do
  let i ← s.hir[instr]?
  match i.type_ with
  | HIRType.kGoto => s.VisitGoto blocks instr
  | HIRType.kPhi => s.VisitPhi instr
  | HIRType.kOther k => VisitOther k s instr

/-- The inner loop of `LGen::GenerateInstructions` over the instructions of a
block. Next to the state it returns the instructions `current_instruction_` was
set to, in order. -/
def LowerState.visitAll (VisitOther : Nat → LowerState → Nat → Option LowerState)
    (blocks : List HIRBlockBody) : List Nat → LowerState → Option (LowerState × List Nat)
  | [], s => some (s, [])
  | instr :: rest, s => do
    let s ← LowerState.VisitInstruction VisitOther blocks
      { s with current_instruction_ := instr } instr
    let (s, visited) ← LowerState.visitAll VisitOther blocks rest s
    pure (s, instr :: visited)

/-- `LGen::GenerateInstructions` (`lir.cc`, lines 76-91) over the list `blocks_`
of block indices: each block gets its label, then its instructions are visited.
Next to the state it returns the instructions visited, in order. -/
def LowerState.GenerateInstructions
    (VisitOther : Nat → LowerState → Nat → Option LowerState)
    (blocks : List HIRBlockBody) : List Nat → LowerState → Option (LowerState × List Nat)
  | [], s => some (s, [])
  | b :: rest, s => do
    let blk ← blocks[b]?
    let s := { s with current_block_ := b }
    let s := s.Add { kind := LIRKind.kLabel b, inputs := [], result := none, hir := none }
    let (s, visited) ← LowerState.visitAll VisitOther blocks blk.instructions_ s
    let (s, more) ← LowerState.GenerateInstructions VisitOther blocks rest s
    pure (s, visited ++ more)

/-- Two blocks: block 0 holds the Goto 0, which is removed, and leads to block 1,
which holds the Phi 1, removed as well and with an `LPhi` on the interval 7. -/
def removedSample : List HIRBlockBody × LowerState :=
  ([{ instructions_ := [0], phis_ := [], succs_ := [1], preds_ := [] },
    { instructions_ := [1], phis_ := [], succs_ := [], preds_ := [0] }],
   { hir := [{ type_ := HIRType.kGoto, args_ := [], uses_ := [], removed_ := true,
               block_ := 0, lir_ := none, inputs_ := [] },
             { type_ := HIRType.kPhi, args_ := [], uses_ := [], removed_ := true,
               block_ := 1, lir_ := some (LPhi.New 7), inputs_ := [] }],
     virtual_index := 8, instructions_ := [], current_block_ := 0,
     current_instruction_ := 0 })

/-- The kinds of the instructions of the table. -/
def LowerState.kinds (s : LowerState) : List HIRType := s.hir.map fun i => i.type_

/-- The `LGoto` that `VisitGoto` binds to the Goto `instr`. -/
def LGoto.of (instr : Nat) : LIRInstr :=
  { kind := LIRKind.kGoto, inputs := [], result := none, hir := some instr }

/-- What the theorems ask of a visitor that is not part of the sources: it adds
LIR instructions at the end of the list and leaves the kinds of the HIR
instructions alone. -/
def VisitorAppends (VisitOther : Nat → LowerState → Nat → Option LowerState) : Prop :=
  ∀ k s instr t, VisitOther k s instr = some t →
    t.kinds = s.kinds ∧ ∃ ext, t.instructions_ = s.instructions_ ++ ext

/-! ## A register use at a call (`LGen::Split` from `AllocateBlockedReg`) -/

/-- The two assertions at the top of `LGen::Split` (`lir.cc`, lines 838-840):
the interval is not fixed and `start < pos < end`. -/
def LGen.SplitPre (g : LGen) (iid : Nat) (pos : Int) : Bool :=
  !(g.get iid).IsFixed &&
    match (g.get iid).start, (g.get iid).end_ with
    | some s, some e => decide (pos > s ∧ pos < e)
    | _, _ => false

/-- One block, all instruction ids even: a label, the definition of `v10` at 2,
an instruction at 4, a call at 6 that reads `v10` in a register, and an
instruction at 8 that reads `v10` after the call. -/
def callRegisterProgram : LProgram :=
  { blocks := [
      ([LInstruction.mk_plain 0 0 [] [] none false,
        LInstruction.mk_plain 2 0 [] [] (some (10, UseType.kAny)) false,
        LInstruction.mk_plain 4 0 [] [] none false,
        LInstruction.mk_plain 6 0 [(10, UseType.kRegister)] [] none true,
        LInstruction.mk_plain 8 0 [(10, UseType.kAny)] [] none false], [])],
    virtuals := 1 }

/-- The generator state for `callRegisterProgram` at the entry of
`WalkIntervals`: liveness is computed and the intervals are built. -/
def callRegisterBuilt : Option LGen := do
  let g1 := (LGen.init callRegisterProgram).ComputeLocalLiveSets
  let g2 ← g1.ComputeGlobalLiveSets 8
  g2.BuildIntervals

/-- The state of `WalkIntervals` on `callRegisterProgram` when its loop starts:
the lists are populated and sorted. -/
def callRegisterPopulated : Option LGen := do
  let g ← callRegisterBuilt
  let g1 ← LGen.populate g.intervals g
  pure { g1 with unhandled := sortStableBy g1.startKey g1.unhandled,
                 inactive := sortStableBy g1.startKey g1.inactive }

/-- The state after the first turn of the loop of `WalkIntervals` on
`callRegisterProgram`, which handles `v10`. -/
def callRegisterTurn : Option LGen := do
  let g ← callRegisterPopulated
  LGen.walkStep { g with unhandled := [] } 10

/-- The state in the second turn of the loop, which handles the interval 11,
at the call of `AllocateBlockedReg`: the lists are shuffled for the position 5
and `TryAllocateFreeReg` has returned. -/
def callRegisterBlocked : Option LGen := do
  let g ← callRegisterTurn
  let (a, ina, _) ← g.ShuffleIntervals g.active g.inactive 5
  LGen.TryAllocateFreeReg { g with unhandled := [], active := a, inactive := ina } 11

/-- The state `callRegisterBlocked` as a state. -/
def callRegisterState : LGen := callRegisterBlocked.getD (LGen.init callRegisterProgram)

/-- The state `callRegisterState` after `Spill(current)` for the interval 11. -/
def callRegisterSpilled : LGen := (callRegisterState.Spill 11).getD callRegisterState

/-! ## Nil on the stack -/

/-- An object with its map, and a stack that holds the object and, above it,
the Nil value (the word `LAlignStack` pushes for an odd `argc`), below an enter
frame whose link is `NULL`. -/
def nilSample : GC :=
  { heap :=
      { objs := [
          some ⟨kTagMap, 0, 0, false, [1, HNil.New, HNil.New]⟩,
          some ⟨kTagObject, 0, 0, false, [0, addrOf 0]⟩],
        code := [],
        new_space := [addrOf 0, addrOf 1],
        old_space := [],
        stack := [0, addrOf 1, HNil.New, 0xFEEEDBEE, 0],
        needs_gc := 1,
        references := [],
        weak_references := [] },
    grey_items := [],
    space := [] }

/-! ## The spill slots of the assembler (`Masm::SpillSlot`, `macroassembler-inl.h`) -/

/-- `Masm::SpillSlot` (`macroassembler-inl.h`, lines 80-87) on IA-32, for the
value `spill_offset` of the field `spill_offset_`: the operand of the spill slot
`index` of the assembler, relative to `ebp`. The displacement
`-spill_offset_ - 8 - HValue::kPointerSize * index` is computed in words of 32
bits (`index` is a `uint32_t`) and read as a signed displacement. -/
def Masm.SpillSlot (spill_offset index : Nat) : Operand :=
  ⟨Register.ebp,
    toSigned 32 (ofInt 32 (-(spill_offset : Int) - 8 - (HValue.kPointerSize : Int) * index))⟩

/-! # Properties -/

/-! ## Register allocation under pressure -/

/-- A decidable property observed on the result of a run that returns a value
holds of that value. -/
theorem exists_of_map_decide {α : Type} (o : Option α) (Q : α → Prop) [DecidablePred Q]
    (h : o.map (fun g => decide (Q g)) = some true) : ∃ g, o = some g ∧ Q g := by
  cases o with
  | none => simp at h
  | some g => exact ⟨g, rfl, by simpa using h⟩

set_option maxRecDepth 100000 in
/-- C1 (register non-overlap), evaluated on `pressureProgramA`: `WalkIntervals`
finishes, and afterwards interval 13 (the value `v13`, live on `[8, 22)`) and
interval 24 (a split child of `v15`, live on `[19, 21)`) are both in register
state with register 3 although their ranges intersect at position 19. -/
theorem WalkIntervals_register_overlap :
    ∃ g a b, LGen.allocate 64 pressureProgramA = some g ∧
      a ∈ g.intervals ∧ b ∈ g.intervals ∧ a.id ≠ b.id ∧
      a.is_register = true ∧ b.is_register = true ∧ a.index = 3 ∧ b.index = 3 ∧
      a.ranges = [⟨8, 22⟩] ∧ b.ranges = [⟨19, 21⟩] ∧ b.split_parent = some 15 ∧
      a.FindIntersection b = 19 := by
  obtain ⟨g, hg, hq⟩ := exists_of_map_decide (LGen.allocate 64 pressureProgramA)
    (fun g => g.get 13 ∈ g.intervals ∧ g.get 24 ∈ g.intervals ∧ (g.get 13).id ≠ (g.get 24).id ∧
      (g.get 13).is_register = true ∧ (g.get 24).is_register = true ∧
      (g.get 13).index = 3 ∧ (g.get 24).index = 3 ∧
      (g.get 13).ranges = [⟨8, 22⟩] ∧ (g.get 24).ranges = [⟨19, 21⟩] ∧
      (g.get 24).split_parent = some 15 ∧
      (g.get 13).FindIntersection (g.get 24) = 19) (by decide)
  exact ⟨g, g.get 13, g.get 24, hg, hq⟩

set_option maxRecDepth 100000 in
/-- C2 (register-typed uses get registers), evaluated on `pressureProgramB`:
`WalkIntervals` finishes, and afterwards interval 21, a split child of `v15`
live on `[19, 32)`, is in stackslot state although it owns the register-typed
use of instruction 32. -/
theorem WalkIntervals_register_use_spilled :
    ∃ g a, LGen.allocate 64 pressureProgramB = some g ∧ a ∈ g.intervals ∧
      a.is_stackslot = true ∧ a.split_parent = some 15 ∧ a.ranges = [⟨19, 32⟩] ∧
      (⟨UseType.kRegister, 32⟩ : LUse) ∈ a.uses := by
  obtain ⟨g, hg, hq⟩ := exists_of_map_decide (LGen.allocate 64 pressureProgramB)
    (fun g => g.get 21 ∈ g.intervals ∧ (g.get 21).is_stackslot = true ∧
      (g.get 21).split_parent = some 15 ∧ (g.get 21).ranges = [⟨19, 32⟩] ∧
      (⟨UseType.kRegister, 32⟩ : LUse) ∈ (g.get 21).uses) (by decide)
  exact ⟨g, g.get 21, hg, hq⟩

/-! ## Splitting an interval -/



theorem splitRanges_spec (pos : Int) (l pushed child : List LRange) :
    splitRanges pos l pushed child =
      (l.dropWhile (fun r => decide (pos < r.end_)),
       pushed ++ ((l.takeWhile (fun r => decide (pos < r.end_))).filter
          (fun r => decide (r.start < pos))).map (fun r => ⟨r.start, pos⟩),
       ((l.takeWhile (fun r => decide (pos < r.end_))).reverse.map (cutRight pos)) ++ child) := by
  induction l generalizing pushed child with
  | nil => simp [splitRanges]
  | cons r rest ih =>
    by_cases h : r.end_ ≤ pos
    · have h' : ¬ pos < r.end_ := by omega
      simp [splitRanges, h, h']
    · have h' : pos < r.end_ := by omega
      by_cases h2 : r.start < pos
      · simp [splitRanges, h, h', h2, ih, cutRight]
      · simp [splitRanges, h, h', h2, ih, cutRight]

/-- In a list of ranges in descending order, everything from the first range
ending at or before `pos` on ends at or before `pos`. -/
theorem dropWhile_ends (pos : Int) (l : List LRange)
    (hle : ∀ r ∈ l, r.start ≤ r.end_) (hd : l.Pairwise (fun a b => b.end_ ≤ a.start)) :
    ∀ r ∈ l.dropWhile (fun r => decide (pos < r.end_)), r.end_ ≤ pos := by
  induction l with
  | nil => simp
  | cons a rest ih =>
    have hd' := List.pairwise_cons.mp hd
    by_cases h : pos < a.end_
    · simp only [List.dropWhile_cons, h, decide_True, if_true]
      exact ih (fun r hr => hle r (List.mem_cons_of_mem _ hr)) hd'.2
    · simp only [List.dropWhile_cons, h, decide_False]
      intro r hr
      rcases List.mem_cons.mp hr with rfl | hr'
      · omega
      · have h1 := hd'.1 r hr'
        have h2 := hle a (List.mem_cons_self _ _)
        omega

theorem takeWhile_ends (pos : Int) (l : List LRange) :
    ∀ r ∈ l.takeWhile (fun r => decide (pos < r.end_)), pos < r.end_ := by
  intro r hr
  have := List.mem_takeWhile_imp hr
  simpa using this

theorem splitUses_spec (pos : Int) (l child : List LUse) :
    splitUses pos l child =
      (l.dropWhile (fun u => decide (pos ≤ u.instr)),
       (l.takeWhile (fun u => decide (pos ≤ u.instr))).reverse ++ child) := by
  induction l generalizing child with
  | nil => simp [splitUses]
  | cons u rest ih =>
    by_cases h : u.instr < pos
    · have h' : ¬ pos ≤ u.instr := by omega
      simp [splitUses, h, h']
    · have h' : pos ≤ u.instr := by omega
      simp [splitUses, h, h', ih]

theorem CoversRanges_iff (p : Int) (rs : List LRange) (h : rangesSorted rs) :
    CoversRanges p rs = true ↔ covered rs p := by
  induction rs with
  | nil => simp [CoversRanges, covered]
  | cons r rest ih =>
    obtain ⟨hle, hpw⟩ := h
    have hpw' := List.pairwise_cons.mp hpw
    have ih' := ih ⟨fun x hx => hle x (List.mem_cons_of_mem _ hx), hpw'.2⟩
    unfold CoversRanges
    by_cases h1 : r.start > p
    · simp only [h1, if_true]
      constructor
      · intro hf; cases hf
      · rintro ⟨x, hx, hx1, hx2⟩
        rcases List.mem_cons.mp hx with rfl | hx'
        · omega
        · have := hpw'.1 x hx'
          have := hle r (List.mem_cons_self _ _)
          omega
    · simp only [h1, if_false]
      by_cases h2 : r.end_ > p
      · simp only [h2, if_true, true_iff]
        exact ⟨r, List.mem_cons_self _ _, by omega, by omega⟩
      · simp only [h2, if_false]
        rw [ih']
        constructor
        · rintro ⟨x, hx, hx1, hx2⟩
          exact ⟨x, List.mem_cons_of_mem _ hx, hx1, hx2⟩
        · rintro ⟨x, hx, hx1, hx2⟩
          rcases List.mem_cons.mp hx with rfl | hx'
          · omega
          · exact ⟨x, hx', hx1, hx2⟩

theorem splitRanges_sorted (pos : Int) (rs : List LRange) (h : rangesSorted rs) :
    rangesSorted ((splitRanges pos rs.reverse [] []).1.reverse ++ (splitRanges pos rs.reverse [] []).2.1) ∧
    rangesSorted (splitRanges pos rs.reverse [] []).2.2 ∧
    (∀ r ∈ (splitRanges pos rs.reverse [] []).1.reverse ++ (splitRanges pos rs.reverse [] []).2.1,
        r.end_ ≤ pos) ∧
    (∀ r ∈ (splitRanges pos rs.reverse [] []).2.2, pos ≤ r.start) ∧
    (∀ p, covered ((splitRanges pos rs.reverse [] []).1.reverse ++
        (splitRanges pos rs.reverse [] []).2.1) p ↔ covered rs p ∧ p < pos) ∧
    (∀ p, covered (splitRanges pos rs.reverse [] []).2.2 p ↔ covered rs p ∧ pos ≤ p) := by
  obtain ⟨hle, hpw⟩ := h
  rw [splitRanges_spec]
  simp only [List.nil_append, List.append_nil]
  generalize hT : rs.reverse.takeWhile (fun r => decide (pos < r.end_)) = T
  generalize hD : rs.reverse.dropWhile (fun r => decide (pos < r.end_)) = D
  have hTD : T ++ D = rs.reverse := by rw [← hT, ← hD]; exact List.takeWhile_append_dropWhile _ _
  have hrs : rs = D.reverse ++ T.reverse := by
    have := congrArg List.reverse hTD
    simpa using this.symm
  have hLle : ∀ r ∈ rs.reverse, r.start ≤ r.end_ := fun r hr => hle r (List.mem_reverse.mp hr)
  have hLpw : rs.reverse.Pairwise (fun a b => b.end_ ≤ a.start) := List.pairwise_reverse.mpr hpw
  have hF1 : ∀ r ∈ D, r.end_ ≤ pos := by rw [← hD]; exact dropWhile_ends pos _ hLle hLpw
  have hF2 : ∀ r ∈ T, pos < r.end_ := by rw [← hT]; exact takeWhile_ends pos _
  have hmem : ∀ r, r ∈ rs ↔ r ∈ D ∨ r ∈ T := by
    intro r; rw [hrs]; simp
  have hpw2 := hpw
  rw [hrs, List.pairwise_append] at hpw2
  obtain ⟨hDpw, hTpw, hDT⟩ := hpw2
  have hDT' : ∀ a ∈ D, ∀ b ∈ T, a.end_ ≤ b.start :=
    fun a ha b hb => hDT a (List.mem_reverse.mpr ha) b (List.mem_reverse.mpr hb)
  have hTd : T.Pairwise (fun a b => b.end_ ≤ a.start) := List.pairwise_reverse.mp hTpw
  refine ⟨⟨?_, ?_⟩, ⟨?_, ?_⟩, ?_, ?_, ?_, ?_⟩
  · -- left: start ≤ end
    intro r hr
    rcases List.mem_append.mp hr with hr | hr
    · exact hle r ((hmem r).mpr (Or.inl (List.mem_reverse.mp hr)))
    · obtain ⟨m, hm, rfl⟩ := List.mem_map.mp hr
      have hm' := List.mem_filter.mp hm
      have : m.start < pos := by simpa using hm'.2
      simp; omega
  · -- left: pairwise
    rw [List.pairwise_append]
    refine ⟨hDpw, ?_, ?_⟩
    · rw [List.pairwise_map]
      have := List.Pairwise.filter (fun r : LRange => decide (r.start < pos)) hTd
      refine List.Pairwise.imp_of_mem ?_ this
      intro a b ha hb hab
      have ha' := List.mem_filter.mp ha
      have hb' := List.mem_filter.mp hb
      have h1 : a.start < pos := by simpa using ha'.2
      have h2 := hF2 b hb'.1
      simp; omega
    · intro a ha b hb
      obtain ⟨m, hm, rfl⟩ := List.mem_map.mp hb
      have hm' := List.mem_filter.mp hm
      exact hDT' a (List.mem_reverse.mp ha) m hm'.1
  · -- right: start ≤ end
    intro r hr
    obtain ⟨m, hm, rfl⟩ := List.mem_map.mp hr
    have hm' := List.mem_reverse.mp hm
    have h1 := hF2 m hm'
    have h2 := hle m ((hmem m).mpr (Or.inr hm'))
    unfold cutRight
    split <;> simp <;> omega
  · -- right: pairwise
    rw [List.pairwise_map]
    refine List.Pairwise.imp_of_mem ?_ hTpw
    intro a b ha hb hab
    have h2 := hle b ((hmem b).mpr (Or.inr (List.mem_reverse.mp hb)))
    unfold cutRight
    split <;> split <;> simp <;> omega
  · -- left ends
    intro r hr
    rcases List.mem_append.mp hr with hr | hr
    · exact hF1 r (List.mem_reverse.mp hr)
    · obtain ⟨m, hm, rfl⟩ := List.mem_map.mp hr
      simp
  · -- right starts
    intro r hr
    obtain ⟨m, hm, rfl⟩ := List.mem_map.mp hr
    by_cases hc : m.start < pos
    · simp [cutRight, hc]
    · simp only [cutRight, hc, if_false]; omega
  · -- left coverage
    intro p
    constructor
    · rintro ⟨r, hr, h1, h2⟩
      rcases List.mem_append.mp hr with hr | hr
      · have := hF1 r (List.mem_reverse.mp hr)
        exact ⟨⟨r, (hmem r).mpr (Or.inl (List.mem_reverse.mp hr)), h1, h2⟩, by omega⟩
      · obtain ⟨m, hm, rfl⟩ := List.mem_map.mp hr
        have hm' := List.mem_filter.mp hm
        have := hF2 m hm'.1
        simp at h1 h2
        exact ⟨⟨m, (hmem m).mpr (Or.inr hm'.1), h1, by omega⟩, h2⟩
    · rintro ⟨⟨r, hr, h1, h2⟩, h3⟩
      rcases (hmem r).mp hr with hr | hr
      · exact ⟨r, List.mem_append.mpr (Or.inl (List.mem_reverse.mpr hr)), h1, h2⟩
      · refine ⟨⟨r.start, pos⟩, List.mem_append.mpr (Or.inr ?_), h1, h3⟩
        exact List.mem_map.mpr ⟨r, List.mem_filter.mpr ⟨hr, by simp; omega⟩, rfl⟩
  · -- right coverage
    intro p
    constructor
    · rintro ⟨r, hr, h1, h2⟩
      obtain ⟨m, hm, rfl⟩ := List.mem_map.mp hr
      have hm' := List.mem_reverse.mp hm
      by_cases hc : m.start < pos
      · simp only [cutRight, hc, if_true] at h1 h2
        exact ⟨⟨m, (hmem m).mpr (Or.inr hm'), by omega, h2⟩, h1⟩
      · simp only [cutRight, hc, if_false] at h1 h2
        exact ⟨⟨m, (hmem m).mpr (Or.inr hm'), h1, h2⟩, by omega⟩
    · rintro ⟨⟨r, hr, h1, h2⟩, h3⟩
      rcases (hmem r).mp hr with hr | hr
      · have := hF1 r hr; omega
      · refine ⟨cutRight pos r, List.mem_map.mpr ⟨r, List.mem_reverse.mpr hr, rfl⟩, ?_, ?_⟩
        · by_cases hc : r.start < pos
          · simp only [cutRight, hc, if_true]; omega
          · simp only [cutRight, hc, if_false]; omega
        · by_cases hc : r.start < pos
          · simp only [cutRight, hc, if_true]; omega
          · simp only [cutRight, hc, if_false]; omega



theorem get_put (g : LGen) (v : LInterval) (id : Nat) :
    (g.put v).get id = if id = v.id ∧ id < g.intervals.length then v else g.get id := by
  unfold LGen.get LGen.put
  simp only [List.getD_eq_getElem?_getD, List.getElem?_set]
  by_cases h : v.id = id
  · subst h
    by_cases h2 : v.id < g.intervals.length
    · simp [h2]
    · simp [h2, List.getElem?_eq_none (Nat.le_of_not_lt h2)]
  · have h' : ¬ id = v.id := fun e => h e.symm
    simp [h, h']

theorem put_length (g : LGen) (v : LInterval) : (g.put v).intervals.length = g.intervals.length := by
  simp [LGen.put]

theorem CreateVirtual_get (g : LGen) (id : Nat) (h : id < g.intervals.length) :
    g.CreateVirtual.1.get id = g.get id := by
  simp [LGen.CreateVirtual, LGen.CreateInterval, LGen.get, List.getD_eq_getElem?_getD,
    List.getElem?_append_left h]

theorem CreateVirtual_snd (g : LGen) : g.CreateVirtual.2 = g.intervals.length := by
  simp [LGen.CreateVirtual, LGen.CreateInterval]

theorem CreateVirtual_length (g : LGen) :
    g.CreateVirtual.1.intervals.length = g.intervals.length + 1 := by
  simp [LGen.CreateVirtual, LGen.CreateInterval]

theorem CreateVirtual_new (g : LGen) :
    g.CreateVirtual.1.get g.intervals.length =
      { id := g.intervals.length, type := IntervalType.kVirtual, index := g.virtual_index,
        fixed := false, ranges := [], uses := [], split_parent := none, split_children := [] } := by
  simp [LGen.CreateVirtual, LGen.CreateInterval, LGen.get, List.getD_eq_getElem?_getD]

theorem splitMove_snd (g : LGen) (iid : Nat) (pos : Int) :
    (g.splitMove iid pos).2 = g.intervals.length := by
  simp [LGen.splitMove, CreateVirtual_snd]

theorem splitMove_length (g : LGen) (iid : Nat) (pos : Int) :
    (g.splitMove iid pos).1.intervals.length = g.intervals.length + 1 := by
  simp [LGen.splitMove, put_length, CreateVirtual_length]


/-- The intervals of the table after `splitMove`: the split interval keeps
the left part, the child gets the right part, and no `split_parent` link of
an existing interval changes. -/
theorem splitMove_table (g : LGen) (iid : Nat) (pos : Int)
    (hid : iid < g.intervals.length) (hself : (g.get iid).id = iid)
    (hpar : ∀ p, (g.get iid).split_parent = some p →
      p < g.intervals.length ∧ (g.get p).id = p ∧ (g.get p).split_parent = none) :
    ((g.splitMove iid pos).1.get iid).ranges = ((g.get iid).splitLeft pos).ranges ∧
    ((g.splitMove iid pos).1.get iid).uses = ((g.get iid).splitLeft pos).uses ∧
    ((g.splitMove iid pos).1.get g.intervals.length).ranges =
      (splitRanges pos (g.get iid).ranges.reverse [] []).2.2 ∧
    ((g.splitMove iid pos).1.get g.intervals.length).uses =
      (splitUses pos (g.get iid).uses.reverse []).2 ∧
    ((g.splitMove iid pos).1.get g.intervals.length).split_parent =
      some ((g.get iid).splitRoot iid) ∧
    ((g.splitMove iid pos).1.get ((g.get iid).splitRoot iid)).split_parent = none := by
  have hne : iid ≠ g.intervals.length := by omega
  have hne' : g.intervals.length ≠ iid := by omega
  cases hsp : (g.get iid).split_parent with
  | none =>
    have hp : (g.get iid).splitRoot iid = iid := by simp [LInterval.splitRoot, hsp]
    simp [LGen.splitMove, get_put, put_length, CreateVirtual_length, CreateVirtual_snd,
      CreateVirtual_new, CreateVirtual_get, hp, hself, hid, hne, hne', LInterval.splitLeft,
      LInterval.splitRight, Nat.lt_succ_of_lt hid, hsp]
  | some p =>
    obtain ⟨hpl, hps, hpn⟩ := hpar p hsp
    have hp : (g.get iid).splitRoot iid = p := by simp [LInterval.splitRoot, hsp]
    have hpi : p ≠ iid := by
      intro e; subst e; rw [hsp] at hpn; cases hpn
    have hpi' : iid ≠ p := fun e => hpi e.symm
    have hpc : p ≠ g.intervals.length := by omega
    have hpc' : g.intervals.length ≠ p := fun e => hpc e.symm
    simp [LGen.splitMove, get_put, put_length, CreateVirtual_length, CreateVirtual_snd,
      CreateVirtual_new, CreateVirtual_get, hp, hself, hid, hne, hne', LInterval.splitLeft,
      LInterval.splitRight, Nat.lt_succ_of_lt hid, hsp, hpi, hpi', hpc, hpc', hps, hpl, hpn,
      Nat.lt_succ_of_lt hpl]



theorem splitRanges_nonempty (pos : Int) (rs : List LRange) (h : rangesSorted rs) :
    ((∃ r ∈ rs, r.start < pos) →
      (splitRanges pos rs.reverse [] []).1.reverse ++ (splitRanges pos rs.reverse [] []).2.1 ≠ []) ∧
    ((∃ r ∈ rs, pos < r.end_) → (splitRanges pos rs.reverse [] []).2.2 ≠ []) := by
  obtain ⟨hle, hpw⟩ := h
  rw [splitRanges_spec]
  simp only [List.nil_append, List.append_nil]
  generalize hT : rs.reverse.takeWhile (fun r => decide (pos < r.end_)) = T
  generalize hD : rs.reverse.dropWhile (fun r => decide (pos < r.end_)) = D
  have hTD : T ++ D = rs.reverse := by rw [← hT, ← hD]; exact List.takeWhile_append_dropWhile _ _
  have hmem : ∀ r, r ∈ rs ↔ r ∈ D ∨ r ∈ T := by
    intro r
    rw [← List.mem_reverse, ← hTD, List.mem_append]
    exact Or.comm
  have hLle : ∀ r ∈ rs.reverse, r.start ≤ r.end_ := fun r hr => hle r (List.mem_reverse.mp hr)
  have hLpw : rs.reverse.Pairwise (fun a b => b.end_ ≤ a.start) := List.pairwise_reverse.mpr hpw
  have hF1 : ∀ r ∈ D, r.end_ ≤ pos := by rw [← hD]; exact dropWhile_ends pos _ hLle hLpw
  constructor
  · rintro ⟨r, hr, h1⟩ hnil
    rcases (hmem r).mp hr with hr | hr
    · have : r ∈ D.reverse ++ List.map (fun r => (⟨r.start, pos⟩ : LRange))
          (List.filter (fun r => decide (r.start < pos)) T) :=
        List.mem_append.mpr (Or.inl (List.mem_reverse.mpr hr))
      rw [hnil] at this; cases this
    · have : (⟨r.start, pos⟩ : LRange) ∈ D.reverse ++ List.map (fun r => (⟨r.start, pos⟩ : LRange))
          (List.filter (fun r => decide (r.start < pos)) T) :=
        List.mem_append.mpr (Or.inr (List.mem_map.mpr
          ⟨r, List.mem_filter.mpr ⟨hr, by simpa using h1⟩, rfl⟩))
      rw [hnil] at this; cases this
  · rintro ⟨r, hr, h1⟩ hnil
    rcases (hmem r).mp hr with hr | hr
    · have := hF1 r hr; omega
    · have : cutRight pos r ∈ List.map (cutRight pos) T.reverse :=
        List.mem_map.mpr ⟨r, List.mem_reverse.mpr hr, rfl⟩
      rw [hnil] at this; cases this

theorem splitUses_sorted (pos : Int) (us : List LUse) (h : usesSorted us) :
    us = (splitUses pos us.reverse []).1.reverse ++ (splitUses pos us.reverse []).2 ∧
    (∀ u ∈ (splitUses pos us.reverse []).1.reverse, u.instr < pos) ∧
    (∀ u ∈ (splitUses pos us.reverse []).2, pos ≤ u.instr) := by
  rw [splitUses_spec]
  simp only [List.append_nil]
  generalize hT : us.reverse.takeWhile (fun u => decide (pos ≤ u.instr)) = T
  generalize hD : us.reverse.dropWhile (fun u => decide (pos ≤ u.instr)) = D
  have hTD : T ++ D = us.reverse := by rw [← hT, ← hD]; exact List.takeWhile_append_dropWhile _ _
  have hus : us = D.reverse ++ T.reverse := by
    have := congrArg List.reverse hTD
    simpa using this.symm
  refine ⟨hus, ?_, ?_⟩
  · -- everything left has an earlier id
    have hd : us.reverse.Pairwise (fun a b => b.instr ≤ a.instr) := List.pairwise_reverse.mpr h
    have key : ∀ (l : List LUse), l.Pairwise (fun a b => b.instr ≤ a.instr) →
        ∀ u ∈ l.dropWhile (fun u => decide (pos ≤ u.instr)), u.instr < pos := by
      intro l
      induction l with
      | nil => simp
      | cons a rest ih =>
        intro hl
        have hl' := List.pairwise_cons.mp hl
        by_cases hq : pos ≤ a.instr
        · simp only [List.dropWhile_cons, hq, decide_True, if_true]
          exact ih hl'.2
        · simp only [List.dropWhile_cons, hq, decide_False]
          intro u hu
          rcases List.mem_cons.mp hu with rfl | hu'
          · omega
          · have := hl'.1 u hu'; omega
    intro u hu
    exact key _ hd u (by rw [hD]; exact List.mem_reverse.mp hu)
  · intro u hu
    have := List.mem_takeWhile_imp (by rw [hT]; exact List.mem_reverse.mp hu)
    simpa using this

theorem splitMove_frame (g : LGen) (iid : Nat) (pos : Int) :
    (g.splitMove iid pos).1.instructions = g.instructions ∧
    (g.splitMove iid pos).1.blocks = g.blocks := by
  simp [LGen.splitMove, LGen.put, LGen.CreateVirtual, LGen.CreateInterval]

theorem Spill_get (g g' : LGen) (id x : Nat) (h : g.Spill id = some g') (hx : x ≠ (g.get id).id) :
    g'.get x = g.get x := by
  unfold LGen.Spill at h
  by_cases hs : (g.get id).is_stackslot
  · simp [assert, hs] at h
  · simp [assert, hs] at h
    subst h
    show ((g.put _).get x) = _
    rw [get_put]
    simp [LInterval.Spill, hx]


theorem GetGap_get (g : LGen) (pos : Int) (h : g.gapReady pos) :
    ∃ g5, g.GetGap pos = some g5 ∧ ∀ x, x < g.intervals.length → g5.get x = g.get x := by
  unfold LGen.gapReady at h
  unfold LGen.GetGap
  cases hd : g.instructions.dropWhile (fun x => decide (x.id < pos)) with
  | nil => rw [hd] at h; exact h.elim
  | cons hd0 tl =>
    rw [hd] at h
    simp only at h ⊢
    by_cases he : hd0.id = pos
    · simp only [he, if_true] at h ⊢
      exact ⟨g, by simp [h], fun _ _ => rfl⟩
    · simp only [he, if_false] at h ⊢
      cases hl : (g.instructions.takeWhile (fun x => decide (x.id < pos))).getLast? with
      | none =>
        rw [List.getLast?_eq_none_iff] at hl
        exact (h hl).elim
      | some prev =>
        have hnew := CreateVirtual_new g
        have hsnd := CreateVirtual_snd g
        have hlen := CreateVirtual_length g
        simp only [Option.bind_eq_bind, Option.pure_def]
        rw [hsnd, hnew]
        simp only [LInterval.AddRange, Option.some_bind, LGen.Spill, assert]
        have hg : ((g.CreateVirtual.1.put
            { id := g.intervals.length, type := IntervalType.kVirtual, index := g.virtual_index,
              fixed := false, ranges := [⟨pos - 1, pos + 1⟩], uses := [], split_parent := none,
              split_children := [] }).get g.intervals.length) =
            { id := g.intervals.length, type := IntervalType.kVirtual, index := g.virtual_index,
              fixed := false, ranges := [⟨pos - 1, pos + 1⟩], uses := [], split_parent := none,
              split_children := [] } := by
          rw [get_put]; simp [hlen]
        rw [hg]
        simp only [LInterval.is_stackslot, Bool.not_eq_true', Option.some_bind]
        refine ⟨_, by simp; rfl, ?_⟩
        intro x hx
        have hx' : x ≠ g.intervals.length := by omega
        show (LGen.get ((g.CreateVirtual.1.put _).put _) x) = _
        rw [get_put, get_put]
        simp [LInterval.Spill, hx', CreateVirtual_get g x hx]


theorem head_start_of_forall (C : List LRange) (pos : Int) (hne : C ≠ [])
    (h : ∀ r ∈ C, pos ≤ r.start) : ∃ s', C.head?.map LRange.start = some s' ∧ pos ≤ s' := by
  cases C with
  | nil => exact (hne rfl).elim
  | cons a rest => exact ⟨a.start, rfl, h a (List.mem_cons_self _ _)⟩

theorem last_end_of_forall (N : List LRange) (pos : Int) (hne : N ≠ [])
    (h : ∀ r ∈ N, r.end_ ≤ pos) : ∃ e', N.getLast?.map LRange.end_ = some e' ∧ e' ≤ pos := by
  have hl := List.getLast?_eq_getLast N hne
  exact ⟨(N.getLast hne).end_, by rw [hl]; rfl, h _ (List.getLast_mem hne)⟩

/-- C10 (Split partitions an interval): for a non-fixed interval with sorted,
pairwise disjoint ranges and sorted uses and a position strictly between its
start and its end, `Split` returns a child; afterwards the interval ends at or
before `pos` and the child starts at or after it, every position covered
before is covered by exactly one of the two (and no other position is), the
uses before `pos` stay and the others move to the child in order, and the
child's `split_parent` is the root of the split family, which has no
`split_parent` itself. The hypothesis `gapReady` is what the assertions of
`GetGap` ask of the instruction list. -/
theorem Split_partitions_interval (g : LGen) (iid : Nat) (pos s e : Int)
    (hid : iid < g.intervals.length) (hself : (g.get iid).id = iid)
    (hfix : (g.get iid).IsFixed = false)
    (hr : rangesSorted (g.get iid).ranges) (hu : usesSorted (g.get iid).uses)
    (hs : (g.get iid).start = some s) (he : (g.get iid).end_ = some e)
    (hpos : s < pos ∧ pos < e)
    (hpar : ∀ p, (g.get iid).split_parent = some p →
      p < g.intervals.length ∧ (g.get p).id = p ∧ (g.get p).split_parent = none)
    (hgap : g.gapReady pos) :
    ∃ g' cid, g.Split iid pos = some (g', cid) ∧
      (∃ e' s', (g'.get iid).end_ = some e' ∧ (g'.get cid).start = some s' ∧
        e' ≤ pos ∧ pos ≤ s') ∧
      (∀ p, (g.get iid).Covers p = true ↔
        ((g'.get iid).Covers p = true ∧ (g'.get cid).Covers p = false) ∨
        ((g'.get iid).Covers p = false ∧ (g'.get cid).Covers p = true)) ∧
      (g.get iid).uses = (g'.get iid).uses ++ (g'.get cid).uses ∧
      (∀ u ∈ (g'.get iid).uses, u.instr < pos) ∧
      (∀ u ∈ (g'.get cid).uses, pos ≤ u.instr) ∧
      (∃ r, (g'.get cid).split_parent = some r ∧ (g'.get r).split_parent = none ∧
        (g.get iid).splitRoot iid = r) := by
  -- the table after the move
  obtain ⟨tL, tLu, tC, tCu, tCp, tR⟩ := splitMove_table g iid pos hid hself hpar
  obtain ⟨fI, fB⟩ := splitMove_frame g iid pos
  have hlen := splitMove_length g iid pos
  have hcid := splitMove_snd g iid pos
  -- the ranges and uses after the move
  obtain ⟨sN, sC, eN, eC, cN, cC⟩ := splitRanges_sorted pos (g.get iid).ranges hr
  obtain ⟨nN, nC⟩ := splitRanges_nonempty pos (g.get iid).ranges hr
  obtain ⟨uA, uL, uR⟩ := splitUses_sorted pos (g.get iid).uses hu
  -- the first range starts before `pos`, the last one ends after it
  have hfirst : ∃ r ∈ (g.get iid).ranges, r.start < pos := by
    unfold LInterval.start at hs
    cases hrs : (g.get iid).ranges with
    | nil => rw [hrs] at hs; cases hs
    | cons a rest =>
      rw [hrs] at hs
      simp at hs
      exact ⟨a, List.mem_cons_self _ _, by omega⟩
  have hlast : ∃ r ∈ (g.get iid).ranges, pos < r.end_ := by
    unfold LInterval.end_ at he
    cases hrs : (g.get iid).ranges.getLast? with
    | none => rw [hrs] at he; cases he
    | some a =>
      rw [hrs] at he
      simp at he
      exact ⟨a, List.mem_of_getLast?_eq_some hrs, by omega⟩
  obtain ⟨e', he', hle'⟩ := last_end_of_forall _ pos (nN hfirst) eN
  obtain ⟨s', hs', hle''⟩ := head_start_of_forall _ pos (nC hlast) eC
  have hrootlt : (g.get iid).splitRoot iid < g.intervals.length := by
    unfold LInterval.splitRoot
    cases hsp : (g.get iid).split_parent with
    | none => simpa using hid
    | some p => simpa using (hpar p hsp).1
  -- the gap
  have hgap' : LGen.gapReady ((g.splitMove iid pos).1.queueUnhandled (g.splitMove iid pos).2) pos := by
    unfold LGen.gapReady at hgap ⊢
    have : ((g.splitMove iid pos).1.queueUnhandled (g.splitMove iid pos).2).instructions =
        g.instructions := fI
    rw [this]
    exact hgap
  have hqget : ∀ x, ((g.splitMove iid pos).1.queueUnhandled (g.splitMove iid pos).2).get x =
      (g.splitMove iid pos).1.get x := fun _ => rfl
  obtain ⟨g5, hg5, hg5get⟩ := GetGap_get _ pos hgap'
  have hg5get' : ∀ x, x < g.intervals.length + 1 → g5.get x = (g.splitMove iid pos).1.get x := by
    intro x hx
    have hx' : x < ((g.splitMove iid pos).1.queueUnhandled (g.splitMove iid pos).2).intervals.length := by
      show x < (g.splitMove iid pos).1.intervals.length
      rw [hlen]; exact hx
    rw [hg5get x hx', hqget]
  -- evaluate `SplitCore`
  have h1 : ((g.splitMove iid pos).1.get g.intervals.length).start = some s' := by
    unfold LInterval.start; rw [tC]; exact hs'
  have h2 : (((g.splitMove iid pos).1.queueUnhandled g.intervals.length).get iid).end_ =
      some e' := by
    show ((g.splitMove iid pos).1.get iid).end_ = some e'
    unfold LInterval.end_; rw [tL]; exact he'
  have hcore : g.SplitCore iid pos = some
      ((g.splitMove iid pos).1.queueUnhandled (g.splitMove iid pos).2, g.intervals.length) := by
    unfold LGen.SplitCore
    simp only [hfix, hs, he, assert, Bool.not_false, if_true, Option.bind_eq_bind,
      Option.some_bind, gt_iff_lt, hpos, and_self, decide_True, Option.pure_def, hcid, h1, h2,
      hle', ge_iff_le, hle'']
  -- the two intervals in the final state
  have hfin : ∀ g' : LGen, (∀ x, x < g.intervals.length + 1 → g'.get x = (g.splitMove iid pos).1.get x) →
      (∃ e' s', (g'.get iid).end_ = some e' ∧ (g'.get g.intervals.length).start = some s' ∧
        e' ≤ pos ∧ pos ≤ s') ∧
      (∀ p, (g.get iid).Covers p = true ↔
        ((g'.get iid).Covers p = true ∧ (g'.get g.intervals.length).Covers p = false) ∨
        ((g'.get iid).Covers p = false ∧ (g'.get g.intervals.length).Covers p = true)) ∧
      (g.get iid).uses = (g'.get iid).uses ++ (g'.get g.intervals.length).uses ∧
      (∀ u ∈ (g'.get iid).uses, u.instr < pos) ∧
      (∀ u ∈ (g'.get g.intervals.length).uses, pos ≤ u.instr) ∧
      (∃ r, (g'.get g.intervals.length).split_parent = some r ∧ (g'.get r).split_parent = none ∧
        (g.get iid).splitRoot iid = r) := by
    intro g' hg'
    have gi := hg' iid (by omega)
    have gc := hg' g.intervals.length (by omega)
    have gr := hg' ((g.get iid).splitRoot iid) (by omega)
    refine ⟨⟨e', s', ?_, ?_, hle', hle''⟩, ?_, ?_, ?_, ?_, ?_⟩
    · rw [gi]; unfold LInterval.end_; rw [tL]; exact he'
    · rw [gc]; unfold LInterval.start; rw [tC]; exact hs'
    · intro p
      have c0 := CoversRanges_iff p _ hr
      have c1 := CoversRanges_iff p _ sN
      have c2 := CoversRanges_iff p _ sC
      have e1 : (g'.get iid).Covers p = CoversRanges p
          ((splitRanges pos (g.get iid).ranges.reverse [] []).1.reverse ++
            (splitRanges pos (g.get iid).ranges.reverse [] []).2.1) := by
        rw [gi]; unfold LInterval.Covers; rw [tL]; rfl
      have e2 : (g'.get g.intervals.length).Covers p = CoversRanges p
          (splitRanges pos (g.get iid).ranges.reverse [] []).2.2 := by
        rw [gc]; unfold LInterval.Covers; rw [tC]
      rw [e1, e2]
      unfold LInterval.Covers
      rw [c0]
      have d1 := cN p
      have d2 := cC p
      constructor
      · intro hc
        by_cases hp : p < pos
        · left
          refine ⟨c1.mpr (d1.mpr ⟨hc, hp⟩), ?_⟩
          cases hb : CoversRanges p (splitRanges pos (g.get iid).ranges.reverse [] []).2.2 with
          | false => rfl
          | true => have := (d2.mp (c2.mp hb)).2; omega
        · right
          refine ⟨?_, c2.mpr (d2.mpr ⟨hc, by omega⟩)⟩
          cases hb : CoversRanges p ((splitRanges pos (g.get iid).ranges.reverse [] []).1.reverse ++
              (splitRanges pos (g.get iid).ranges.reverse [] []).2.1) with
          | false => rfl
          | true => have := (d1.mp (c1.mp hb)).2; omega
      · rintro (⟨h, _⟩ | ⟨_, h⟩)
        · exact (d1.mp (c1.mp h)).1
        · exact (d2.mp (c2.mp h)).1
    · rw [gi, gc, tLu, tCu]; exact uA
    · rw [gi, tLu]; exact uL
    · rw [gc, tCu]; exact uR
    · exact ⟨_, by rw [gc]; exact tCp, by rw [gr]; exact tR, rfl⟩
  have hsplit : g.Split iid pos =
      if ((g.splitMove iid pos).1.queueUnhandled (g.splitMove iid pos).2).IsBlockStart e' then
        some ((g.splitMove iid pos).1.queueUnhandled (g.splitMove iid pos).2, g.intervals.length)
      else some ({ g5 with
          instructions := addPair pos (iid, g.intervals.length) g5.instructions,
          blocks := g5.blocks.map (fun b =>
            { b with instructions := addPair pos (iid, g.intervals.length) b.instructions }) },
        g.intervals.length) := by
    have hg5' := hg5
    rw [hcid] at hg5'
    unfold LGen.Split
    rw [hcore]
    simp only [Option.bind_eq_bind, Option.some_bind, Option.pure_def, hcid] at h2 ⊢
    rw [h2]
    simp only [Option.some_bind, hg5']
  by_cases hb : ((g.splitMove iid pos).1.queueUnhandled (g.splitMove iid pos).2).IsBlockStart e'
  · rw [if_pos hb] at hsplit
    exact ⟨_, _, hsplit, hfin _ (fun x _ => hqget x)⟩
  · rw [if_neg hb] at hsplit
    exact ⟨_, _, hsplit, hfin _ (fun x hx => hg5get' x hx)⟩


set_option maxRecDepth 10000 in
/-- The split theorem applied to `splitSample`, interval 0, position 5. -/
theorem Split_partitions_interval_witness :
    ∃ g' cid, splitSample.Split 0 5 = some (g', cid) ∧
      (∃ e' s', (g'.get 0).end_ = some e' ∧ (g'.get cid).start = some s' ∧
        e' ≤ 5 ∧ 5 ≤ s') ∧
      (∀ p, (splitSample.get 0).Covers p = true ↔
        ((g'.get 0).Covers p = true ∧ (g'.get cid).Covers p = false) ∨
        ((g'.get 0).Covers p = false ∧ (g'.get cid).Covers p = true)) ∧
      (splitSample.get 0).uses = (g'.get 0).uses ++ (g'.get cid).uses ∧
      (∀ u ∈ (g'.get 0).uses, u.instr < 5) ∧
      (∀ u ∈ (g'.get cid).uses, 5 ≤ u.instr) ∧
      (∃ r, (g'.get cid).split_parent = some r ∧ (g'.get r).split_parent = none ∧
        (splitSample.get 0).splitRoot 0 = r) :=
  Split_partitions_interval splitSample 0 5 2 8 (by decide) (by decide) (by decide)
    (by unfold rangesSorted; decide) (by unfold usesSorted; decide) (by decide) (by decide)
    (by decide)
    (by intro p h; have hn : (splitSample.get 0).split_parent = none := by decide
        rw [hn] at h; cases h)
    (by simp [LGen.gapReady, splitSample, plainInstr, LInstruction.mk_plain])


/-! ## Spill slot assignment -/

theorem FindIntersectionRow_eq (a : LRange) (bs : List LRange) :
    FindIntersectionRow a bs = -1 ↔ ∀ b ∈ bs, a.FindIntersection b = -1 := by
  induction bs with
  | nil => simp [FindIntersectionRow]
  | cons b rest ih =>
    unfold FindIntersectionRow
    by_cases h : a.FindIntersection b = -1
    · simp [h, ih]
    · simp [h]

theorem FindIntersectionRanges_eq (as bs : List LRange) :
    FindIntersectionRanges as bs = -1 ↔ ∀ a ∈ as, ∀ b ∈ bs, a.FindIntersection b = -1 := by
  induction as with
  | nil => simp [FindIntersectionRanges]
  | cons a rest ih =>
    unfold FindIntersectionRanges
    by_cases h : FindIntersectionRow a bs = -1
    · simp only [h, ne_eq, not_true_eq_false, if_false, ih, List.mem_cons, forall_eq_or_imp]
      rw [FindIntersectionRow_eq] at h
      exact ⟨fun h2 => ⟨h, h2⟩, fun h2 => h2.2⟩
    · simp only [ne_eq, h, not_false_eq_true, if_true, List.mem_cons, forall_eq_or_imp, false_iff]
      rw [FindIntersectionRow_eq] at h
      exact fun h2 => h h2.1

theorem LRange.FindIntersection_eq (a b : LRange) (ha : 0 ≤ a.start) (hb : 0 ≤ b.start) :
    a.FindIntersection b = -1 ↔
      ¬ (b.start ≤ a.start ∧ a.start < b.end_) ∧ ¬ (a.start ≤ b.start ∧ b.start < a.end_) := by
  unfold LRange.FindIntersection
  by_cases h1 : a.start ≥ b.start ∧ a.start < b.end_
  · rw [if_pos h1]
    constructor
    · intro h; omega
    · intro h; exact absurd ⟨h1.1, h1.2⟩ h.1
  · rw [if_neg h1]
    by_cases h2 : b.start ≥ a.start ∧ b.start < a.end_
    · rw [if_pos h2]
      constructor
      · intro h; omega
      · intro h; exact absurd ⟨h2.1, h2.2⟩ h.2
    · rw [if_neg h2]
      constructor
      · intro _; exact ⟨fun h => h1 ⟨h.1, h.2⟩, fun h => h2 ⟨h.1, h.2⟩⟩
      · intro _; rfl

theorem FindIntersection_symm (i w : LInterval)
    (hi : ∀ r ∈ i.ranges, 0 ≤ r.start) (hw : ∀ r ∈ w.ranges, 0 ≤ r.start) :
    i.FindIntersection w = -1 → w.FindIntersection i = -1 := by
  unfold LInterval.FindIntersection
  rw [FindIntersectionRanges_eq, FindIntersectionRanges_eq]
  intro h b hb a ha
  have := h a ha b hb
  rw [LRange.FindIntersection_eq _ _ (hi a ha) (hw b hb)] at this
  rw [LRange.FindIntersection_eq _ _ (hw b hb) (hi a ha)]
  exact ⟨this.2, this.1⟩

/-- In a sorted range list every range ends at or before the end of the last one. -/
theorem end_le_last (rs : List LRange) (h : rangesSorted rs) (e : Int)
    (he : rs.getLast?.map LRange.end_ = some e) : ∀ r ∈ rs, r.end_ ≤ e := by
  intro r hr
  cases hl : rs.getLast? with
  | none => rw [hl] at he; cases he
  | some l =>
    rw [hl] at he
    simp at he
    subst he
    obtain ⟨ys, hys⟩ := List.getLast?_eq_some_iff.mp hl
    rw [hys] at hr h
    rcases List.mem_append.mp hr with hr | hr
    · have := (List.pairwise_append.mp h.2).2.2 r hr l (List.mem_singleton.mpr rfl)
      have := h.1 l (List.mem_append.mpr (Or.inr (List.mem_singleton.mpr rfl)))
      omega
    · rw [List.mem_singleton.mp hr]

/-- In a sorted range list every range starts at or after the start of the first one. -/
theorem first_le_start (rs : List LRange) (h : rangesSorted rs) (s : Int)
    (hs : rs.head?.map LRange.start = some s) : ∀ r ∈ rs, s ≤ r.start := by
  intro r hr
  cases rs with
  | nil => cases hs
  | cons a rest =>
    simp at hs
    subst hs
    rcases List.mem_cons.mp hr with rfl | hr'
    · exact le_refl _
    · have := (List.pairwise_cons.mp h.2).1 r hr'
      have := h.1 a (List.mem_cons_self _ _)
      omega

/-- An interval that ended before another one starts does not intersect it. -/
theorem FindIntersection_expired (a c : LInterval) (e pos : Int)
    (ha : rangesSorted a.ranges) (hc : rangesSorted c.ranges)
    (ha0 : ∀ r ∈ a.ranges, 0 ≤ r.start) (hc0 : ∀ r ∈ c.ranges, 0 ≤ r.start)
    (he : a.end_ = some e) (hs : c.start = some pos) (hlt : e < pos) :
    a.FindIntersection c = -1 := by
  unfold LInterval.FindIntersection
  rw [FindIntersectionRanges_eq]
  intro r hr r' hr'
  rw [LRange.FindIntersection_eq _ _ (ha0 r hr) (hc0 r' hr')]
  have h1 := end_le_last _ ha e he r hr
  have h2 := first_le_start _ hc pos hs r' hr'
  have h3 := ha.1 r hr
  constructor <;> intro h <;> omega



theorem shuffleActive_spec (g : LGen) (pos : Int) (l : List Nat)
    (h : ∀ id ∈ l, ∃ e, (g.get id).end_ = some e) :
    ∃ a ina hd, g.shuffleActive pos l = some (a, ina, hd) ∧
      (∀ id, id ∈ l ↔ id ∈ a ∨ id ∈ ina ∨ id ∈ hd) ∧
      (∀ id ∈ hd, ∃ e, (g.get id).end_ = some e ∧ e < pos) := by
  induction l with
  | nil => exact ⟨[], [], [], rfl, by simp, by simp⟩
  | cons x rest ih =>
    obtain ⟨a, ina, hd, hr, hm, he⟩ := ih (fun id hid => h id (List.mem_cons_of_mem _ hid))
    obtain ⟨e, hx⟩ := h x (List.mem_cons_self _ _)
    unfold LGen.shuffleActive
    simp only [hr, hx, Option.bind_eq_bind, Option.some_bind, Option.pure_def]
    by_cases h1 : e < pos
    · refine ⟨a, ina, x :: hd, by simp [h1], ?_, ?_⟩
      · intro id; simp only [List.mem_cons, hm]; tauto
      · intro id hid
        rcases List.mem_cons.mp hid with rfl | hid'
        · exact ⟨e, hx, h1⟩
        · exact he id hid'
    · by_cases h2 : (g.get x).Covers pos = true
      · refine ⟨x :: a, ina, hd, by simp [h1, h2], ?_, he⟩
        intro id; simp only [List.mem_cons, hm]; tauto
      · refine ⟨a, x :: ina, hd, by simp [h1, h2], ?_, he⟩
        intro id; simp only [List.mem_cons, hm]; tauto

theorem shuffleInactive_spec (g : LGen) (pos : Int) (l : List Nat)
    (h : ∀ id ∈ l, ∃ e, (g.get id).end_ = some e) :
    ∃ ina a hd, g.shuffleInactive pos l = some (ina, a, hd) ∧
      (∀ id, id ∈ l ↔ id ∈ ina ∨ id ∈ a ∨ id ∈ hd) ∧
      (∀ id ∈ hd, ∃ e, (g.get id).end_ = some e ∧ e < pos) := by
  induction l with
  | nil => exact ⟨[], [], [], rfl, by simp, by simp⟩
  | cons x rest ih =>
    obtain ⟨ina, a, hd, hr, hm, he⟩ := ih (fun id hid => h id (List.mem_cons_of_mem _ hid))
    obtain ⟨e, hx⟩ := h x (List.mem_cons_self _ _)
    unfold LGen.shuffleInactive
    simp only [hr, hx, Option.bind_eq_bind, Option.some_bind, Option.pure_def]
    by_cases h1 : e < pos
    · refine ⟨ina, a, x :: hd, by simp [h1], ?_, ?_⟩
      · intro id; simp only [List.mem_cons, hm]; tauto
      · intro id hid
        rcases List.mem_cons.mp hid with rfl | hid'
        · exact ⟨e, hx, h1⟩
        · exact he id hid'
    · by_cases h2 : (g.get x).Covers pos = true
      · refine ⟨ina, x :: a, hd, by simp [h1, h2], ?_, he⟩
        intro id; simp only [List.mem_cons, hm]; tauto
      · refine ⟨x :: ina, a, hd, by simp [h1, h2], ?_, he⟩
        intro id; simp only [List.mem_cons, hm]; tauto

/-- `ShuffleIntervals` returns, keeps every interval in one of the three lists
and only expires intervals that ended before `pos`. -/
theorem ShuffleIntervals_spec (g : LGen) (pos : Int) (active inactive : List Nat)
    (ha : ∀ id ∈ active, ∃ e, (g.get id).end_ = some e)
    (hi : ∀ id ∈ inactive, ∃ e, (g.get id).end_ = some e) :
    ∃ sh, g.ShuffleIntervals active inactive pos = some sh ∧
      (∀ id, id ∈ active ∨ id ∈ inactive ↔ id ∈ sh.1 ∨ id ∈ sh.2.1 ∨ id ∈ sh.2.2) ∧
      (∀ id ∈ sh.2.2, ∃ e, (g.get id).end_ = some e ∧ e < pos) := by
  obtain ⟨a1, toIna, h1, hr1, hm1, he1⟩ := shuffleActive_spec g pos active ha
  have hi' : ∀ id ∈ inactive ++ toIna, ∃ e, (g.get id).end_ = some e := by
    intro id hid
    rcases List.mem_append.mp hid with h | h
    · exact hi id h
    · exact ha id ((hm1 id).mpr (Or.inr (Or.inl h)))
  obtain ⟨ina2, toA, h2, hr2, hm2, he2⟩ := shuffleInactive_spec g pos (inactive ++ toIna) hi'
  refine ⟨(a1 ++ toA, ina2, h1 ++ h2), ?_, ?_, ?_⟩
  · unfold LGen.ShuffleIntervals
    simp [hr1, hr2]
  · intro id
    have m1 := hm1 id
    have m2 := hm2 id
    simp only [List.mem_append] at m2 ⊢
    tauto
  · intro id hid
    rcases List.mem_append.mp hid with h | h
    · exact he1 id h
    · exact he2 id h

theorem pickFree_spec (g : LGen) (cur : Nat) (l : List Nat) :
    (∀ f, (g.pickFree cur l).1 = some f → f ∈ l ∧ g.spillFree cur f = true) ∧
    (∀ x ∈ (g.pickFree cur l).2, x ∈ l) := by
  induction l with
  | nil => simp [LGen.pickFree]
  | cons x rest ih =>
    unfold LGen.pickFree
    by_cases h : g.spillFree cur x = true
    · simp only [h, if_true]
      refine ⟨?_, fun y hy => List.mem_cons_of_mem _ hy⟩
      intro f hf
      simp at hf
      subst hf
      exact ⟨List.mem_cons_self _ _, h⟩
    · simp only [h, if_false]
      refine ⟨fun f hf => ?_, fun y hy => List.mem_cons_of_mem _ (ih.2 y hy)⟩
      have := ih.1 f hf
      exact ⟨List.mem_cons_of_mem _ this.1, this.2⟩

theorem foldl_max_spec (l : List Int) (m : Int) :
    l.foldl (fun m i => if i > m then i else m) m = m ∨
    l.foldl (fun m i => if i > m then i else m) m ∈ l := by
  induction l generalizing m with
  | nil => left; rfl
  | cons x rest ih =>
    simp only [List.foldl_cons]
    by_cases h : x > m
    · simp only [h, if_true]
      rcases ih x with h1 | h1
      · right; rw [h1]; exact List.mem_cons_self _ _
      · right; exact List.mem_cons_of_mem _ h1
    · simp only [h, if_false]
      rcases ih m with h1 | h1
      · left; exact h1
      · right; exact List.mem_cons_of_mem _ h1

theorem maxIndex_spec (l : List Int) : maxIndex l = 0 ∨ maxIndex l ∈ l :=
  foldl_max_spec l 0

theorem firstUnblocked_spec (blocked : List Int) (m i : Int)
    (h : firstUnblocked blocked m = some i) : i ∉ blocked ∧ 0 ≤ i ∧ i < m := by
  unfold firstUnblocked at h
  have h1 := List.find?_some h
  have h2 := List.mem_of_find?_eq_some h
  obtain ⟨n, hn, rfl⟩ := List.mem_map.mp h2
  have hn' := List.mem_range.mp hn
  refine ⟨by simpa using h1, by omega, by omega⟩

theorem start_some_of_ne_nil (i : LInterval) (h : i.ranges ≠ []) : ∃ s, i.start = some s := by
  unfold LInterval.start
  cases hr : i.ranges with
  | nil => exact (h hr).elim
  | cons a rest => exact ⟨a.start, rfl⟩

theorem end_some_of_ne_nil (i : LInterval) (h : i.ranges ≠ []) : ∃ e, i.end_ = some e := by
  unfold LInterval.end_
  rw [List.getLast?_eq_getLast _ h]
  exact ⟨_, rfl⟩

/-- Giving the next interval a slot that no finished interval with an
intersecting range holds keeps the invariant. -/
theorem SpillInv.assign (g0 g : LGen) (done L : List Nat) (lo pos : Int) (cur : Nat) (k : Int)
    (nsi : Int)
    (hL : ∀ id ∈ L, spillReady g0 id) (hdone : ∀ id ∈ done, id ∈ L) (hcur : cur ∈ L)
    (hnd : cur ∉ done)
    (inv : SpillInv g0 g done lo)
    (hlive : ∀ id ∈ done, id ∈ g.active_spills ∨ id ∈ g.inactive_spills ∨
      ∃ e, (g.get id).end_ = some e ∧ e < pos)
    (hk : ∀ a ∈ done, (g.get a).index = k → (g.get a).FindIntersection (g.get cur) = -1)
    (hkn : k < nsi) (hns : g.spill_index ≤ nsi) :
    SpillInv g0 { g.assignSpill cur k with spill_index := nsi } (cur :: done) pos := by
  obtain ⟨c1, c2, c3, c4, c5, c6, c7⟩ := hL cur hcur
  have hsame := inv.same cur hnd
  have hcid : (g.get cur).id = cur := by rw [hsame]; exact c2
  have hclt : cur < g.intervals.length := by rw [inv.len]; exact c1
  have hget : ∀ id, LGen.get { g.assignSpill cur k with spill_index := nsi } id =
      if id = cur then (g.get cur).Spill k else g.get id := by
    intro id
    show (g.put ((g.get cur).Spill k)).get id = _
    rw [get_put]
    simp only [LInterval.Spill, hcid]
    by_cases h : id = cur
    · subst h; simp [hclt]
    · simp [h]
  have hgo : ∀ id ∈ done, LGen.get { g.assignSpill cur k with spill_index := nsi } id = g.get id := by
    intro id hid
    rw [hget]
    have : id ≠ cur := fun e => hnd (e ▸ hid)
    simp [this]
  have hgc : LGen.get { g.assignSpill cur k with spill_index := nsi } cur = (g.get cur).Spill k := by
    rw [hget]; simp
  have h0 : ∀ id ∈ cur :: done, ∀ r ∈ (g.get id).ranges, 0 ≤ r.start := by
    intro id hid r hr
    have hidL : id ∈ L := by
      rcases List.mem_cons.mp hid with rfl | h
      · exact hcur
      · exact hdone id h
    rw [inv.ranges] at hr
    exact (hL id hidL).2.2.2.2.2.2 r hr
  constructor
  · show (g.put _).intervals.length = _
    simp [LGen.put, inv.len]
  · intro id
    rw [hget]
    by_cases h : id = cur
    · subst h; simp [LInterval.Spill, inv.ranges]
    · simp [h, inv.ranges]
  · intro id hid
    rw [hget]
    have h1 : id ≠ cur := fun e => hid (e ▸ List.mem_cons_self _ _)
    have h2 : id ∉ done := fun e => hid (List.mem_cons_of_mem _ e)
    simp [h1, inv.same id h2]
  · intro id hid
    rcases List.mem_cons.mp hid with rfl | h
    · rw [hgc]; exact ⟨rfl, hkn⟩
    · rw [hgo id h]
      have := inv.typed id h
      exact ⟨this.1, by show (g.get id).index < nsi; omega⟩
  · intro id hid
    have hid' : id ∈ g.active_spills ++ [cur] ∨ id ∈ g.inactive_spills ∨ id ∈ g.free_spills := hid
    rcases hid' with h | h | h
    · rcases List.mem_append.mp h with h | h
      · exact List.mem_cons_of_mem _ (inv.lists id (Or.inl h))
      · rw [List.mem_singleton.mp h]; exact List.mem_cons_self _ _
    · exact List.mem_cons_of_mem _ (inv.lists id (Or.inr (Or.inl h)))
    · exact List.mem_cons_of_mem _ (inv.lists id (Or.inr (Or.inr h)))
  · intro id hid
    rcases List.mem_cons.mp hid with rfl | h
    · left
      show id ∈ g.active_spills ++ [id]
      simp
    · rcases hlive id h with h1 | h1 | h1
      · left; show id ∈ g.active_spills ++ [cur]; exact List.mem_append.mpr (Or.inl h1)
      · right; left; exact h1
      · right; right; rw [hgo id h]; exact h1
  · intro a ha b hb hab hidx
    rcases List.mem_cons.mp ha with rfl | ha'
    · rcases List.mem_cons.mp hb with rfl | hb'
      · exact (hab rfl).elim
      · rw [hgc, hgo b hb'] at hidx ⊢
        have hk' := hk b hb' (by simpa [LInterval.Spill] using hidx.symm)
        have := FindIntersection_symm (g.get b) (g.get a) (h0 b hb) (h0 a ha) hk'
        simpa [LInterval.FindIntersection, LInterval.Spill] using this
    · rcases List.mem_cons.mp hb with rfl | hb'
      · rw [hgc, hgo a ha'] at hidx ⊢
        have hk' := hk a ha' (by simpa [LInterval.Spill] using hidx)
        simpa [LInterval.FindIntersection, LInterval.Spill] using hk'
      · rw [hgo a ha', hgo b hb'] at hidx ⊢
        exact inv.disj a ha' b hb' hab hidx
  · show 0 ≤ nsi
    have := inv.nonneg
    omega



/-- One turn of the loop of `AllocateSpills` returns and keeps the invariant. -/
theorem spillStep_inv (g0 g : LGen) (done L : List Nat) (lo pos : Int) (cur : Nat)
    (hL : ∀ id ∈ L, spillReady g0 id) (hdone : ∀ id ∈ done, id ∈ L) (hcur : cur ∈ L)
    (hnd : cur ∉ done) (inv : SpillInv g0 g done lo)
    (hpos : (g0.get cur).start = some pos) (hlo : lo ≤ pos) :
    ∃ g', g.spillStep cur = some g' ∧ SpillInv g0 g' (cur :: done) pos := by
  have hsame := inv.same cur hnd
  have hend : ∀ id ∈ done, ∃ e, (g.get id).end_ = some e := by
    intro id hid
    apply end_some_of_ne_nil
    rw [inv.ranges]
    exact (hL id (hdone id hid)).2.2.2.2.1
  obtain ⟨sh, hsh, hmem, hexp⟩ := ShuffleIntervals_spec g pos g.active_spills g.inactive_spills
    (fun id hid => hend id (inv.lists id (Or.inl hid)))
    (fun id hid => hend id (inv.lists id (Or.inr (Or.inl hid))))
  -- facts about intervals that are done
  have hsorted : ∀ id ∈ L, rangesSorted (g.get id).ranges ∧ ∀ r ∈ (g.get id).ranges, 0 ≤ r.start := by
    intro id hid
    rw [inv.ranges]
    exact ⟨(hL id hid).2.2.2.2.2.1, (hL id hid).2.2.2.2.2.2⟩
  have hcs : (g.get cur).start = some pos := by rw [hsame]; exact hpos
  have hlive : ∀ id ∈ done, id ∈ sh.1 ∨ id ∈ sh.2.1 ∨ ∃ e, (g.get id).end_ = some e ∧ e < pos := by
    intro id hid
    rcases inv.live id hid with h | h | ⟨e, he, hlt⟩
    · rcases (hmem id).mp (Or.inl h) with h1 | h1 | h1
      · exact Or.inl h1
      · exact Or.inr (Or.inl h1)
      · exact Or.inr (Or.inr (hexp id h1))
    · rcases (hmem id).mp (Or.inr h) with h1 | h1 | h1
      · exact Or.inl h1
      · exact Or.inr (Or.inl h1)
      · exact Or.inr (Or.inr (hexp id h1))
    · exact Or.inr (Or.inr ⟨e, he, by omega⟩)
  have hshdone : ∀ id, (id ∈ sh.1 ∨ id ∈ sh.2.1 ∨ id ∈ sh.2.2) → id ∈ done := by
    intro id hid
    rcases (hmem id).mpr hid with h | h
    · exact inv.lists id (Or.inl h)
    · exact inv.lists id (Or.inr (Or.inl h))
  have hexpired : ∀ a ∈ done, (∃ e, (g.get a).end_ = some e ∧ e < pos) →
      (g.get a).FindIntersection (g.get cur) = -1 := by
    rintro a ha ⟨e, he, hlt⟩
    exact FindIntersection_expired _ _ e pos (hsorted a (hdone a ha)).1 (hsorted cur hcur).1
      (hsorted a (hdone a ha)).2 (hsorted cur hcur).2 he hcs hlt
  -- the state after the shuffle and after the search through `free_spills_`
  obtain ⟨g1, hg1⟩ : ∃ g1, g1 = g.setSpillLists sh.1 sh.2.1 (g.free_spills ++ sh.2.2) := ⟨_, rfl⟩
  have g1a : g1.active_spills = sh.1 := by rw [hg1]; rfl
  have g1i : g1.inactive_spills = sh.2.1 := by rw [hg1]; rfl
  have g1f : g1.free_spills = g.free_spills ++ sh.2.2 := by rw [hg1]; rfl
  have g1g : ∀ id, g1.get id = g.get id := by intro id; rw [hg1]; rfl
  have g1s : g1.spill_index = g.spill_index := by rw [hg1]; rfl
  have g1l : g1.intervals.length = g.intervals.length := by rw [hg1]; rfl
  obtain ⟨pf, hpf⟩ : ∃ pf, pf = g1.pickFree cur g1.free_spills := ⟨_, rfl⟩
  have hpfs := pickFree_spec g1 cur g1.free_spills
  rw [← hpf] at hpfs
  obtain ⟨g2, hg2⟩ : ∃ g2, g2 = g1.setSpillLists g1.active_spills g1.inactive_spills pf.2 :=
    ⟨_, rfl⟩
  have g2a : g2.active_spills = sh.1 := by rw [hg2]; exact g1a
  have g2i : g2.inactive_spills = sh.2.1 := by rw [hg2]; exact g1i
  have g2f : g2.free_spills = pf.2 := by rw [hg2]; rfl
  have g2g : ∀ id, g2.get id = g.get id := by intro id; rw [hg2]; exact g1g id
  have g2s : g2.spill_index = g.spill_index := by rw [hg2]; exact g1s
  have g2l : g2.intervals.length = g.intervals.length := by rw [hg2]; exact g1l
  have hfree : ∀ id ∈ g1.free_spills, id ∈ done := by
    intro id hid
    rw [g1f] at hid
    rcases List.mem_append.mp hid with h | h
    · exact inv.lists id (Or.inr (Or.inr h))
    · exact hshdone id (Or.inr (Or.inr h))
  have inv2 : SpillInv g0 g2 done pos := by
    constructor
    · rw [g2l]; exact inv.len
    · intro id; rw [g2g]; exact inv.ranges id
    · intro id hid; rw [g2g]; exact inv.same id hid
    · intro id hid; rw [g2g, g2s]; exact inv.typed id hid
    · intro id hid
      rw [g2a, g2i, g2f] at hid
      rcases hid with h | h | h
      · exact hshdone id (Or.inl h)
      · exact hshdone id (Or.inr (Or.inl h))
      · exact hfree id (hpfs.2 id h)
    · intro id hid; rw [g2a, g2i, g2g]; exact hlive id hid
    · intro a ha b hb hab; rw [g2g, g2g]; exact inv.disj a ha b hb hab
    · rw [g2s]; exact inv.nonneg
  have hlive2 : ∀ id ∈ done, id ∈ g2.active_spills ∨ id ∈ g2.inactive_spills ∨
      ∃ e, (g2.get id).end_ = some e ∧ e < pos := inv2.live
  unfold LGen.spillStep
  simp only [hcs, hsh, Option.bind_eq_bind, Option.some_bind, Option.pure_def, ← hg1, ← hpf,
    ← hg2]
  cases hp1 : pf.1 with
  | some f =>
    simp only
    have hf := hpfs.1 f hp1
    have hfd : f ∈ done := hfree f hf.1
    have hft := inv.typed f hfd
    have hsf := hf.2
    unfold LGen.spillFree at hsf
    simp only [Bool.and_eq_true, Bool.not_eq_true', List.any_eq_false, g1a, g1i, g1g] at hsf
    refine ⟨_, rfl, ?_⟩
    have := SpillInv.assign g0 g2 done L pos pos cur (g2.get f).index g2.spill_index hL hdone hcur
      hnd inv2 hlive2 ?_ (by rw [g2g, g2s]; exact hft.2) (le_refl _)
    · exact this
    · intro a ha hidx
      rw [g2g, g2g] at hidx
      rw [g2g, g2g]
      have hat := inv.typed a ha
      rcases hlive a ha with h | h | h
      · have := hsf.1 a h
        simp [LInterval.IsEqual, hat.1, hft.1, hidx] at this
      · have := hsf.2 a h
        simp [LInterval.IsEqual, hat.1, hft.1, hidx] at this
        exact this
      · exact hexpired a ha h
  | none =>
    simp only
    cases hfu : firstUnblocked (g2.blockedSpills cur) (maxIndex (g2.blockedSpills cur)) with
    | some i =>
      simp only
      obtain ⟨hnb, hi0, hilt⟩ := firstUnblocked_spec _ _ _ hfu
      have hblocked : ∀ x ∈ g2.blockedSpills cur, x < g.spill_index := by
        intro x hx
        unfold LGen.blockedSpills at hx
        rcases List.mem_append.mp hx with h | h
        · obtain ⟨a, ha, rfl⟩ := List.mem_map.mp h
          rw [g2a] at ha
          rw [g2g]
          exact (inv.typed a (hshdone a (Or.inl ha))).2
        · obtain ⟨a, ha, rfl⟩ := List.mem_map.mp h
          have ha' := (List.mem_filter.mp ha).1
          rw [g2i] at ha'
          rw [g2g]
          exact (inv.typed a (hshdone a (Or.inr (Or.inl ha')))).2
      have hilt' : i < g2.spill_index := by
        rw [g2s]
        rcases maxIndex_spec (g2.blockedSpills cur) with h | h
        · omega
        · have := hblocked _ h; omega
      refine ⟨_, rfl, ?_⟩
      have := SpillInv.assign g0 g2 done L pos pos cur i g2.spill_index hL hdone hcur
        hnd inv2 hlive2 ?_ hilt' (le_refl _)
      · exact this
      · intro a ha hidx
        rw [g2g] at hidx
        rw [g2g, g2g]
        rcases hlive a ha with h | h | h
        · exfalso
          apply hnb
          unfold LGen.blockedSpills
          refine List.mem_append.mpr (Or.inl (List.mem_map.mpr ⟨a, by rw [g2a]; exact h, ?_⟩))
          rw [g2g]; exact hidx
        · by_contra hne
          apply hnb
          unfold LGen.blockedSpills
          refine List.mem_append.mpr (Or.inr (List.mem_map.mpr ⟨a, ?_, ?_⟩))
          · refine List.mem_filter.mpr ⟨by rw [g2i]; exact h, ?_⟩
            rw [g2g, g2g]
            simpa using hne
          · rw [g2g]; exact hidx
        · exact hexpired a ha h
    | none =>
      simp only
      have hci : (g2.get cur).index = -1 := by
        rw [g2g, hsame]; exact (hL cur hcur).2.2.2.1
      rw [if_neg (by simp [hci])]
      refine ⟨_, rfl, ?_⟩
      refine SpillInv.assign g0 g2 done L pos pos cur g2.spill_index (g2.spill_index + 1) hL hdone
        hcur hnd inv2 hlive2 ?_ (by omega) (by omega)
      intro a ha hidx
      have := (inv2.typed a ha).2
      omega


theorem mem_insertSortedBy {α : Type} (key : α → Int) (x y : α) (l : List α) :
    y ∈ insertSortedBy key x l ↔ y = x ∨ y ∈ l := by
  induction l with
  | nil => simp [insertSortedBy]
  | cons a rest ih =>
    unfold insertSortedBy
    by_cases h : key x < key a
    · simp [h]
    · simp only [h, if_false, List.mem_cons, ih]
      tauto

theorem mem_sortBy {α : Type} (key : α → Int) (y : α) (l : List α) :
    y ∈ sortBy key l ↔ y ∈ l := by
  induction l with
  | nil => simp [sortBy]
  | cons a rest ih => simp [sortBy, mem_insertSortedBy, ih]

theorem pairwise_insertSortedBy {α : Type} (key : α → Int) (x : α) (l : List α)
    (h : l.Pairwise (fun a b => key a ≤ key b)) :
    (insertSortedBy key x l).Pairwise (fun a b => key a ≤ key b) := by
  induction l with
  | nil => simp [insertSortedBy]
  | cons a rest ih =>
    have h' := List.pairwise_cons.mp h
    unfold insertSortedBy
    by_cases hx : key x < key a
    · simp only [hx, if_true]
      refine List.pairwise_cons.mpr ⟨?_, h⟩
      intro b hb
      rcases List.mem_cons.mp hb with rfl | hb'
      · omega
      · have := h'.1 b hb'; omega
    · simp only [hx, if_false]
      refine List.pairwise_cons.mpr ⟨?_, ih h'.2⟩
      intro b hb
      rcases (mem_insertSortedBy key x b rest).mp hb with rfl | hb'
      · omega
      · exact h'.1 b hb'

theorem pairwise_sortBy {α : Type} (key : α → Int) (l : List α) :
    (sortBy key l).Pairwise (fun a b => key a ≤ key b) := by
  induction l with
  | nil => simp [sortBy]
  | cons a rest ih => exact pairwise_insertSortedBy key a _ ih

theorem nodup_insertSortedBy {α : Type} (key : α → Int) (x : α) (l : List α)
    (h : l.Nodup) (hx : x ∉ l) : (insertSortedBy key x l).Nodup := by
  induction l with
  | nil => simp [insertSortedBy]
  | cons a rest ih =>
    have h' := List.nodup_cons.mp h
    unfold insertSortedBy
    by_cases hk : key x < key a
    · simp only [hk, if_true]
      exact List.nodup_cons.mpr ⟨hx, h⟩
    · simp only [hk, if_false]
      refine List.nodup_cons.mpr ⟨?_, ih h'.2 (fun e => hx (List.mem_cons_of_mem _ e))⟩
      intro hmem
      rcases (mem_insertSortedBy key x a rest).mp hmem with e | e
      · exact hx (e ▸ List.mem_cons_self _ _)
      · exact h'.1 e

theorem nodup_sortBy {α : Type} (key : α → Int) (l : List α) (h : l.Nodup) :
    (sortBy key l).Nodup := by
  induction l with
  | nil => simp [sortBy]
  | cons a rest ih =>
    have h' := List.nodup_cons.mp h
    exact nodup_insertSortedBy key a _ (ih h'.2) (fun e => h'.1 ((mem_sortBy key a rest).mp e))

/-- The invariant does not look at `unhandled_spills_`. -/
theorem SpillInv.unhandled (g0 g : LGen) (done : List Nat) (lo : Int) (l : List Nat)
    (inv : SpillInv g0 g done lo) : SpillInv g0 { g with unhandled_spills := l } done lo :=
  ⟨inv.len, inv.ranges, inv.same, inv.typed, inv.lists, inv.live, inv.disj, inv.nonneg⟩

/-- The loop of `AllocateSpills` over a queue sorted by start returns and keeps
the invariant. -/
theorem spillLoop_inv (g0 : LGen) (L : List Nat) (hL : ∀ id ∈ L, spillReady g0 id)
    (rest : List Nat) :
    ∀ (g : LGen) (done : List Nat) (lo : Int),
      (∀ id ∈ done, id ∈ L) → (∀ id ∈ rest, id ∈ L) → (∀ id ∈ rest, id ∉ done) → rest.Nodup →
      rest.Pairwise (fun a b => g0.startKey a ≤ g0.startKey b) →
      (∀ id ∈ rest, lo ≤ g0.startKey id) → SpillInv g0 g done lo →
      ∃ g' lo', LGen.spillLoop rest g = some g' ∧ SpillInv g0 g' (rest.reverse ++ done) lo' := by
  induction rest with
  | nil =>
    intro g done lo _ _ _ _ _ _ inv
    exact ⟨g, lo, rfl, by simpa using inv⟩
  | cons cur rest ih =>
    intro g done lo hdone hrest hnd hnodup hsorted hlo inv
    have hcur : cur ∈ L := hrest cur (List.mem_cons_self _ _)
    obtain ⟨pos, hpos⟩ := start_some_of_ne_nil (g0.get cur) (hL cur hcur).2.2.2.2.1
    have hkey : g0.startKey cur = pos := by simp [LGen.startKey, hpos]
    have hnodup' := List.nodup_cons.mp hnodup
    have hsorted' := List.pairwise_cons.mp hsorted
    obtain ⟨g1, hg1, inv1⟩ := spillStep_inv g0 { g with unhandled_spills := rest } done L lo pos cur
      hL hdone hcur (hnd cur (List.mem_cons_self _ _)) (SpillInv.unhandled g0 g done lo rest inv)
      hpos (by rw [← hkey]; exact hlo cur (List.mem_cons_self _ _))
    obtain ⟨g', lo', hg', inv'⟩ := ih g1 (cur :: done) pos
      (by
        intro id hid
        rcases List.mem_cons.mp hid with rfl | h
        · exact hcur
        · exact hdone id h)
      (fun id hid => hrest id (List.mem_cons_of_mem _ hid))
      (by
        intro id hid hmem
        rcases List.mem_cons.mp hmem with rfl | h
        · exact hnodup'.1 hid
        · exact hnd id (List.mem_cons_of_mem _ hid) h)
      hnodup'.2 hsorted'.2
      (by intro id hid; rw [← hkey]; exact hsorted'.1 id hid)
      inv1
    refine ⟨g', lo', ?_, ?_⟩
    · unfold LGen.spillLoop
      simp only [hg1, Option.bind_eq_bind, Option.some_bind, hg']
    · simpa using inv'

/-- C3 (spill-slot soundness): started with empty spill lists on a queue of
distinct spilled intervals with sorted ranges, `AllocateSpills` returns, every
queued interval is in stackslot state with its ranges unchanged, and two
distinct queued intervals that were given the same spill index have no
intersecting ranges (`FindIntersection` is `-1`). -/
theorem AllocateSpills_slots_disjoint (g : LGen)
    (hempty : g.active_spills = [] ∧ g.inactive_spills = [] ∧ g.free_spills = [])
    (hnd : g.unhandled_spills.Nodup)
    (hready : ∀ id ∈ g.unhandled_spills, spillReady g id)
    (hsi : 0 ≤ g.spill_index) :
    ∃ g', g.AllocateSpills = some g' ∧
      ∀ a ∈ g.unhandled_spills, ∀ b ∈ g.unhandled_spills, a ≠ b →
        (g'.get a).is_stackslot = true ∧ (g'.get b).is_stackslot = true ∧
        (g'.get a).ranges = (g.get a).ranges ∧ (g'.get b).ranges = (g.get b).ranges ∧
        ((g'.get a).index = (g'.get b).index → (g'.get a).FindIntersection (g'.get b) = -1) := by
  have hmemS : ∀ id, id ∈ sortStableBy g.startKey g.unhandled_spills ↔ id ∈ g.unhandled_spills := by
    intro id
    unfold sortStableBy
    rw [mem_sortBy, List.mem_reverse]
  have inv0 : ∀ lo, SpillInv g g [] lo := by
    intro lo
    refine ⟨rfl, fun _ => rfl, fun _ _ => rfl, ?_, ?_, ?_, ?_, hsi⟩
    · intro id hid; cases hid
    · intro id hid
      rw [hempty.1, hempty.2.1, hempty.2.2] at hid
      simp at hid
    · intro id hid; cases hid
    · intro a ha; cases ha
  -- any lower bound will do before the first interval: take the least start key
  obtain ⟨g', lo', hg', inv'⟩ := spillLoop_inv g g.unhandled_spills hready
    (sortStableBy g.startKey g.unhandled_spills) g [] 
    (match sortStableBy g.startKey g.unhandled_spills with
      | [] => 0
      | x :: _ => g.startKey x)
    (by intro id hid; cases hid)
    (fun id hid => (hmemS id).mp hid)
    (by intro id _ h; cases h)
    (by unfold sortStableBy; exact nodup_sortBy _ _ (List.nodup_reverse.mpr hnd))
    (by unfold sortStableBy; exact pairwise_sortBy _ _)
    (by
      have hp : (sortStableBy g.startKey g.unhandled_spills).Pairwise
          (fun a b => g.startKey a ≤ g.startKey b) := by
        unfold sortStableBy; exact pairwise_sortBy _ _
      cases hs : sortStableBy g.startKey g.unhandled_spills with
      | nil => intro id hid; cases hid
      | cons x xs =>
        rw [hs] at hp
        intro id hid
        rcases List.mem_cons.mp hid with rfl | h
        · exact le_refl _
        · exact (List.pairwise_cons.mp hp).1 id h)
    (inv0 _)
  refine ⟨g', hg', ?_⟩
  intro a ha b hb hab
  have ha' : a ∈ (sortStableBy g.startKey g.unhandled_spills).reverse ++ [] := by
    simpa using (hmemS a).mpr ha
  have hb' : b ∈ (sortStableBy g.startKey g.unhandled_spills).reverse ++ [] := by
    simpa using (hmemS b).mpr hb
  refine ⟨?_, ?_, inv'.ranges a, inv'.ranges b, inv'.disj a ha' b hb' hab⟩
  · simp [LInterval.is_stackslot, (inv'.typed a ha').1]
  · simp [LInterval.is_stackslot, (inv'.typed b hb').1]

set_option maxRecDepth 10000 in
/-- The spill-slot theorem applied to `spillSample`. -/
theorem AllocateSpills_slots_disjoint_witness :
    ∃ g', spillSample.AllocateSpills = some g' ∧
      ∀ a ∈ spillSample.unhandled_spills, ∀ b ∈ spillSample.unhandled_spills, a ≠ b →
        (g'.get a).is_stackslot = true ∧ (g'.get b).is_stackslot = true ∧
        (g'.get a).ranges = (spillSample.get a).ranges ∧
        (g'.get b).ranges = (spillSample.get b).ranges ∧
        ((g'.get a).index = (g'.get b).index → (g'.get a).FindIntersection (g'.get b) = -1) :=
  AllocateSpills_slots_disjoint spillSample (by decide) (by decide)
    (by unfold spillReady rangesSorted; decide) (by decide)

/-! ## Global liveness -/

theorem unionInto_mem (keep : Nat → Bool) (src : List Nat) (acc : List Nat × Bool) (k : Nat) :
    k ∈ (unionInto keep src acc).1 ↔ k ∈ acc.1 ∨ (k ∈ src ∧ keep k = true) := by
  induction src generalizing acc with
  | nil => simp [unionInto]
  | cons x rest ih =>
    obtain ⟨dst, ch⟩ := acc
    unfold unionInto
    by_cases h : x ∉ dst ∧ keep x = true
    · rw [if_pos h, ih]
      simp only [List.mem_append, List.mem_cons, List.not_mem_nil, or_false]
      constructor
      · rintro ((h1 | h1) | h1)
        · exact Or.inl h1
        · exact Or.inr ⟨Or.inl h1, h1 ▸ h.2⟩
        · exact Or.inr ⟨Or.inr h1.1, h1.2⟩
      · rintro (h1 | ⟨h1 | h1, h2⟩)
        · exact Or.inl (Or.inl h1)
        · exact Or.inl (Or.inr h1)
        · exact Or.inr ⟨h1, h2⟩
    · rw [if_neg h, ih]
      simp only [List.mem_cons]
      constructor
      · rintro (h1 | h1)
        · exact Or.inl h1
        · exact Or.inr ⟨Or.inr h1.1, h1.2⟩
      · rintro (h1 | ⟨h1 | h1, h2⟩)
        · exact Or.inl h1
        · subst h1
          left
          by_contra hn
          exact h ⟨hn, h2⟩
        · exact Or.inr ⟨h1, h2⟩

theorem unionInto_flag_mono (keep : Nat → Bool) (src : List Nat) (dst : List Nat) :
    (unionInto keep src (dst, true)).2 = true := by
  induction src generalizing dst with
  | nil => simp [unionInto]
  | cons x rest ih =>
    unfold unionInto
    split <;> exact ih _

/-- A copy loop that leaves `change` low has added nothing: every key of the
source that passes the filter was already there. -/
theorem unionInto_false (keep : Nat → Bool) (src : List Nat) (dst : List Nat) (ch : Bool)
    (h : (unionInto keep src (dst, ch)).2 = false) :
    ch = false ∧ (unionInto keep src (dst, ch)).1 = dst ∧
      ∀ k ∈ src, keep k = true → k ∈ dst := by
  induction src generalizing dst ch with
  | nil => simpa [unionInto] using h
  | cons x rest ih =>
    unfold unionInto at h ⊢
    by_cases hx : x ∉ dst ∧ keep x = true
    · rw [if_pos hx] at h
      rw [unionInto_flag_mono] at h
      cases h
    · rw [if_neg hx] at h ⊢
      obtain ⟨h1, h2, h3⟩ := ih dst ch h
      refine ⟨h1, h2, ?_⟩
      intro k hk hkeep
      rcases List.mem_cons.mp hk with rfl | hk'
      · by_contra hn
        exact hx ⟨hn, hkeep⟩
      · exact h3 k hk' hkeep

theorem succFold_mem (bs : List LBlock) (succ : List Nat) (acc : List Nat × Bool) (k : Nat) :
    k ∈ (succ.foldl (fun acc s => unionInto (fun _ => true) (blockAt bs s).live_in acc) acc).1 ↔
      k ∈ acc.1 ∨ ∃ s ∈ succ, k ∈ (blockAt bs s).live_in := by
  induction succ generalizing acc with
  | nil => simp
  | cons x rest ih =>
    simp only [List.foldl_cons, ih, unionInto_mem, List.mem_cons, exists_eq_or_imp, and_true]
    tauto

theorem succFold_flag_mono (bs : List LBlock) (succ : List Nat) (dst : List Nat) :
    (succ.foldl (fun acc s => unionInto (fun _ => true) (blockAt bs s).live_in acc)
      (dst, true)).2 = true := by
  induction succ generalizing dst with
  | nil => rfl
  | cons x rest ih =>
    simp only [List.foldl_cons]
    have h := unionInto_flag_mono (fun _ => true) (blockAt bs x).live_in dst
    rcases hu : unionInto (fun _ => true) (blockAt bs x).live_in (dst, true) with ⟨d', c'⟩
    rw [hu] at h
    simp only at h
    subst h
    exact ih d'

theorem succFold_false (bs : List LBlock) (succ : List Nat) (dst : List Nat) (ch : Bool)
    (h : (succ.foldl (fun acc s => unionInto (fun _ => true) (blockAt bs s).live_in acc)
      (dst, ch)).2 = false) :
    ch = false ∧
    (succ.foldl (fun acc s => unionInto (fun _ => true) (blockAt bs s).live_in acc)
      (dst, ch)).1 = dst ∧
    ∀ s ∈ succ, ∀ k ∈ (blockAt bs s).live_in, k ∈ dst := by
  induction succ generalizing dst ch with
  | nil => simpa using h
  | cons x rest ih =>
    simp only [List.foldl_cons] at h ⊢
    rcases hu : unionInto (fun _ => true) (blockAt bs x).live_in (dst, ch) with ⟨d', c'⟩
    rw [hu] at h
    obtain ⟨h1, h2, h3⟩ := ih d' c' h
    subst h1
    have hf := unionInto_false (fun _ => true) (blockAt bs x).live_in dst ch (by rw [hu])
    rw [hu] at hf
    simp only at hf
    obtain ⟨f1, f2, f3⟩ := hf
    subst f2
    refine ⟨f1, h2, ?_⟩
    intro s hs k hk
    rcases List.mem_cons.mp hs with rfl | hs'
    · exact f3 k hk trivial
    · exact h3 s hs' k hk

theorem blockAt_set (bs : List LBlock) (bi i : Nat) (b : LBlock) :
    blockAt (bs.set bi b) i = if i = bi ∧ bi < bs.length then b else blockAt bs i := by
  unfold blockAt
  simp only [List.getD_eq_getElem?_getD, List.getElem?_set]
  by_cases h : bi = i
  · subst h
    by_cases h2 : bi < bs.length
    · simp [h2]
    · simp [h2, List.getElem?_eq_none (Nat.le_of_not_lt h2)]
  · have h' : ¬ i = bi := fun e => h e.symm
    simp [h, h']

theorem set_blockAt_self (bs : List LBlock) (bi : Nat) : bs.set bi (blockAt bs bi) = bs := by
  apply List.ext_getElem?
  intro n
  rw [List.getElem?_set]
  by_cases h : bi = n
  · subst h
    by_cases h2 : bi < bs.length
    · simp [h2, blockAt, List.getD_eq_getElem?_getD, List.getElem?_eq_getElem h2]
    · simp [h2, List.getElem?_eq_none (Nat.le_of_not_lt h2)]
  · simp [h]

theorem globalLiveBlock_spec (bs : List LBlock) (ch : Bool) (bi : Nat) (hbi : bi < bs.length) :
    (globalLiveBlock bs ch bi).1.length = bs.length ∧
    (∀ i, (blockAt (globalLiveBlock bs ch bi).1 i).succ = (blockAt bs i).succ ∧
      (blockAt (globalLiveBlock bs ch bi).1 i).live_gen = (blockAt bs i).live_gen ∧
      (blockAt (globalLiveBlock bs ch bi).1 i).live_kill = (blockAt bs i).live_kill) ∧
    (∀ i, i ≠ bi → blockAt (globalLiveBlock bs ch bi).1 i = blockAt bs i) ∧
    (∀ k, k ∈ (blockAt (globalLiveBlock bs ch bi).1 bi).live_out ↔
      k ∈ (blockAt bs bi).live_out ∨ ∃ s ∈ (blockAt bs bi).succ, k ∈ (blockAt bs s).live_in) ∧
    (∀ k, k ∈ (blockAt (globalLiveBlock bs ch bi).1 bi).live_in ↔
      k ∈ (blockAt bs bi).live_in ∨ k ∈ (blockAt bs bi).live_gen ∨
        (k ∈ (blockAt (globalLiveBlock bs ch bi).1 bi).live_out ∧
          k ∉ (blockAt bs bi).live_kill)) := by
  unfold globalLiveBlock
  simp only [List.length_set, true_and]
  refine ⟨?_, ?_, ?_, ?_⟩
  · intro i
    rw [blockAt_set]
    by_cases h : i = bi ∧ bi < bs.length
    · rw [if_pos h, h.1]; exact ⟨rfl, rfl, rfl⟩
    · rw [if_neg h]; exact ⟨rfl, rfl, rfl⟩
  · intro i hi
    rw [blockAt_set, if_neg (fun h => hi h.1)]
  · intro k
    rw [blockAt_set, if_pos ⟨rfl, hbi⟩]
    simp only
    rw [succFold_mem]
  · intro k
    rw [blockAt_set, if_pos ⟨rfl, hbi⟩]
    simp only
    rw [unionInto_mem, unionInto_mem]
    simp only [decide_eq_true_eq, and_true]
    tauto

theorem globalLiveBlock_false (bs : List LBlock) (ch : Bool) (bi : Nat)
    (h : (globalLiveBlock bs ch bi).2 = false) :
    ch = false ∧ (globalLiveBlock bs ch bi).1 = bs ∧
    (∀ s ∈ (blockAt bs bi).succ, ∀ k ∈ (blockAt bs s).live_in, k ∈ (blockAt bs bi).live_out) ∧
    (∀ k ∈ (blockAt bs bi).live_gen, k ∈ (blockAt bs bi).live_in) ∧
    (∀ k ∈ (blockAt bs bi).live_out, k ∉ (blockAt bs bi).live_kill →
      k ∈ (blockAt bs bi).live_in) := by
  unfold globalLiveBlock at h ⊢
  simp only at h ⊢
  obtain ⟨a1, a2, a3⟩ := unionInto_false _ _ _ _ h
  obtain ⟨b1, b2, b3⟩ := unionInto_false _ _ _ _ a1
  obtain ⟨c1, c2, c3⟩ := succFold_false _ _ _ _ b1
  refine ⟨c1, ?_, c3, fun k hk => b3 k hk rfl, ?_⟩
  · rw [a2, b2, c2]
    exact set_blockAt_self bs bi
  · intro k hk hkill
    have := a3 k (by rw [c2]; exact hk) (by simpa using hkill)
    rw [b2] at this
    exact this

theorem globalLiveBlock_inv (bs0 bs : List LBlock) (ch : Bool) (bi : Nat)
    (hbi : bi < bs.length) (inv : LiveInv bs0 bs) :
    LiveInv bs0 (globalLiveBlock bs ch bi).1 := by
  obtain ⟨hlen, hframe, hother, hout, hin⟩ := globalLiveBlock_spec bs ch bi hbi
  have in_mono : ∀ i k, k ∈ (blockAt bs i).live_in →
      k ∈ (blockAt (globalLiveBlock bs ch bi).1 i).live_in := by
    intro i k hk
    by_cases h : i = bi
    · subst h; exact (hin k).mpr (Or.inl hk)
    · rw [hother i h]; exact hk
  have out_least : ∀ IN OUT : Nat → Nat → Prop, liveClosed bs0 IN OUT →
      ∀ k, k ∈ (blockAt (globalLiveBlock bs ch bi).1 bi).live_out → OUT bi k := by
    intro IN OUT hc k hk
    rcases (hout k).mp hk with h1 | ⟨s, hs, h1⟩
    · exact (inv.least IN OUT hc bi k).2 h1
    · refine (hc bi (inv.len ▸ hbi) k).1 ⟨s, ?_, (inv.least IN OUT hc s k).1 h1⟩
      rw [← (inv.frame bi).1]; exact hs
  refine ⟨hlen.trans inv.len, ?_, ?_, ?_, ?_⟩
  · intro i
    obtain ⟨a1, a2, a3⟩ := hframe i
    obtain ⟨b1, b2, b3⟩ := inv.frame i
    exact ⟨a1.trans b1, a2.trans b2, a3.trans b3⟩
  · intro i k hk
    rw [(hframe i).1]
    by_cases h : i = bi
    · subst h
      rcases (hout k).mp hk with h1 | ⟨s, hs, h1⟩
      · obtain ⟨s, hs, h2⟩ := inv.out_sound i k h1
        exact ⟨s, hs, in_mono s k h2⟩
      · exact ⟨s, hs, in_mono s k h1⟩
    · rw [hother i h] at hk
      obtain ⟨s, hs, h2⟩ := inv.out_sound i k hk
      exact ⟨s, hs, in_mono s k h2⟩
  · intro i k hk
    rw [(hframe i).2.1, (hframe i).2.2]
    by_cases h : i = bi
    · subst h
      rcases (hin k).mp hk with h1 | h1 | h1
      · rcases inv.in_sound i k h1 with h2 | ⟨h2, h3⟩
        · exact Or.inl h2
        · exact Or.inr ⟨(hout k).mpr (Or.inl h2), h3⟩
      · exact Or.inl h1
      · exact Or.inr h1
    · rw [hother i h] at hk ⊢
      exact inv.in_sound i k hk
  · intro IN OUT hc i k
    by_cases h : i = bi
    · subst h
      refine ⟨?_, out_least IN OUT hc k⟩
      intro hk
      rcases (hin k).mp hk with h1 | h1 | ⟨h1, h2⟩
      · exact (inv.least IN OUT hc i k).1 h1
      · refine (hc i (inv.len ▸ hbi) k).2 (Or.inl ?_)
        rw [← (inv.frame i).2.1]; exact h1
      · refine (hc i (inv.len ▸ hbi) k).2 (Or.inr ⟨out_least IN OUT hc k h1, ?_⟩)
        rw [← (inv.frame i).2.2]; exact h2
    · rw [hother i h]
      exact inv.least IN OUT hc i k

theorem globalLivePass_inv (bs0 : List LBlock) (n : Nat) (bs : List LBlock) (ch : Bool)
    (hn : n ≤ bs.length) (inv : LiveInv bs0 bs) :
    LiveInv bs0 (globalLivePass n (bs, ch)).1 := by
  induction n generalizing bs ch with
  | zero => exact inv
  | succ n ih =>
    unfold globalLivePass
    have h1 := globalLiveBlock_inv bs0 bs ch n hn inv
    exact ih (globalLiveBlock bs ch n).1 (globalLiveBlock bs ch n).2
      (by rw [h1.len, ← inv.len]; omega) h1

/-- A pass that leaves `change` low has changed no block, and every block it
went through is closed under both equations. -/
theorem globalLivePass_false (n : Nat) (bs : List LBlock) (ch : Bool)
    (h : (globalLivePass n (bs, ch)).2 = false) :
    ch = false ∧ (globalLivePass n (bs, ch)).1 = bs ∧
    ∀ i, i < n →
      (∀ s ∈ (blockAt bs i).succ, ∀ k ∈ (blockAt bs s).live_in, k ∈ (blockAt bs i).live_out) ∧
      (∀ k ∈ (blockAt bs i).live_gen, k ∈ (blockAt bs i).live_in) ∧
      (∀ k ∈ (blockAt bs i).live_out, k ∉ (blockAt bs i).live_kill →
        k ∈ (blockAt bs i).live_in) := by
  induction n generalizing bs ch with
  | zero => exact ⟨h, rfl, fun i hi => absurd hi (Nat.not_lt_zero i)⟩
  | succ n ih =>
    unfold globalLivePass at h ⊢
    obtain ⟨a1, a2, a3⟩ := ih (globalLiveBlock bs ch n).1 (globalLiveBlock bs ch n).2 h
    obtain ⟨b1, b2, b3⟩ := globalLiveBlock_false bs ch n a1
    rw [b2] at a3
    refine ⟨b1, a2.trans b2, ?_⟩
    intro i hi
    by_cases hin : i = n
    · subst hin; exact b3
    · exact a3 i (by omega)

theorem globalLiveLoop_inv (bs0 : List LBlock) (fuel : Nat) (bs r : List LBlock)
    (inv : LiveInv bs0 bs) (h : globalLiveLoop fuel bs = some r) :
    LiveInv bs0 r ∧ ∀ i, i < r.length →
      (∀ s ∈ (blockAt r i).succ, ∀ k ∈ (blockAt r s).live_in, k ∈ (blockAt r i).live_out) ∧
      (∀ k ∈ (blockAt r i).live_gen, k ∈ (blockAt r i).live_in) ∧
      (∀ k ∈ (blockAt r i).live_out, k ∉ (blockAt r i).live_kill →
        k ∈ (blockAt r i).live_in) := by
  induction fuel generalizing bs with
  | zero => cases h
  | succ fuel ih =>
    unfold globalLiveLoop at h
    simp only at h
    have inv1 := globalLivePass_inv bs0 bs.length bs false (Nat.le_refl _) inv
    by_cases hc : (globalLivePass bs.length (bs, false)).2 = true
    · rw [if_pos hc] at h
      exact ih _ inv1 h
    · rw [if_neg hc] at h
      have hr : (globalLivePass bs.length (bs, false)).1 = r := Option.some.inj h
      obtain ⟨_, a2, a3⟩ := globalLivePass_false bs.length bs false (by simpa using hc)
      have hbr : bs = r := a2.symm.trans hr
      subst hbr
      exact ⟨inv, a3⟩

theorem unionInto_grow (keep : Nat → Bool) (src : List Nat) (dst : List Nat) (ch : Bool)
    (hd : dst.Nodup) :
    (unionInto keep src (dst, ch)).1.Nodup ∧
    dst.length ≤ (unionInto keep src (dst, ch)).1.length ∧
    ((unionInto keep src (dst, ch)).2 = true →
      ch = true ∨ dst.length < (unionInto keep src (dst, ch)).1.length) := by
  induction src generalizing dst ch with
  | nil => exact ⟨hd, Nat.le_refl _, fun h => Or.inl h⟩
  | cons x rest ih =>
    unfold unionInto
    by_cases hx : x ∉ dst ∧ keep x = true
    · rw [if_pos hx]
      have hd' : (dst ++ [x]).Nodup := by
        rw [List.nodup_append]
        refine ⟨hd, List.nodup_singleton x, ?_⟩
        intro a ha hb
        rw [List.mem_singleton] at hb
        subst hb
        exact hx.1 ha
      obtain ⟨h1, h2, _⟩ := ih (dst ++ [x]) true hd'
      rw [List.length_append, List.length_singleton] at h2
      exact ⟨h1, by omega, fun _ => Or.inr (by omega)⟩
    · rw [if_neg hx]
      exact ih dst ch hd

theorem succFold_grow (bs : List LBlock) (succ : List Nat) (dst : List Nat) (ch : Bool)
    (hd : dst.Nodup) :
    (succ.foldl (fun acc s => unionInto (fun _ => true) (blockAt bs s).live_in acc)
      (dst, ch)).1.Nodup ∧
    dst.length ≤ (succ.foldl (fun acc s => unionInto (fun _ => true) (blockAt bs s).live_in acc)
      (dst, ch)).1.length ∧
    ((succ.foldl (fun acc s => unionInto (fun _ => true) (blockAt bs s).live_in acc)
      (dst, ch)).2 = true →
      ch = true ∨ dst.length < (succ.foldl
        (fun acc s => unionInto (fun _ => true) (blockAt bs s).live_in acc) (dst, ch)).1.length) := by
  induction succ generalizing dst ch with
  | nil => exact ⟨hd, Nat.le_refl _, fun h => Or.inl h⟩
  | cons x rest ih =>
    simp only [List.foldl_cons]
    have hg := unionInto_grow (fun _ => true) (blockAt bs x).live_in dst ch hd
    rcases hu : unionInto (fun _ => true) (blockAt bs x).live_in (dst, ch) with ⟨d', c'⟩
    rw [hu] at hg
    simp only at hg
    obtain ⟨g1, g2, g3⟩ := hg
    obtain ⟨h1, h2, h3⟩ := ih d' c' g1
    refine ⟨h1, by omega, ?_⟩
    intro h
    rcases h3 h with h4 | h4
    · rcases g3 h4 with h5 | h5
      · exact Or.inl h5
      · exact Or.inr (by omega)
    · exact Or.inr (by omega)

theorem sum_map_set (f : LBlock → Nat) (l : List LBlock) (i : Nat) (x : LBlock)
    (h : i < l.length) :
    ((l.set i x).map f).sum + f (blockAt l i) = (l.map f).sum + f x := by
  induction l generalizing i with
  | nil => cases h
  | cons a rest ih =>
    cases i with
    | zero => simp [blockAt]; omega
    | succ i =>
      have h' : i < rest.length := by simpa using h
      have := ih i h'
      simp only [blockAt, List.getD_eq_getElem?_getD, List.set_cons_succ, List.map_cons,
        List.sum_cons, List.getElem?_cons_succ] at this ⊢
      omega

theorem globalLiveBlock_grow (bs : List LBlock) (ch : Bool) (bi : Nat) (hbi : bi < bs.length)
    (hn : ∀ i, (blockAt bs i).live_in.Nodup ∧ (blockAt bs i).live_out.Nodup) :
    (∀ i, (blockAt (globalLiveBlock bs ch bi).1 i).live_in.Nodup ∧
      (blockAt (globalLiveBlock bs ch bi).1 i).live_out.Nodup) ∧
    liveSize bs ≤ liveSize (globalLiveBlock bs ch bi).1 ∧
    ((globalLiveBlock bs ch bi).2 = true →
      ch = true ∨ liveSize bs < liveSize (globalLiveBlock bs ch bi).1) := by
  have go := succFold_grow bs (blockAt bs bi).succ (blockAt bs bi).live_out ch (hn bi).2
  unfold globalLiveBlock
  simp only
  rcases ho : (blockAt bs bi).succ.foldl
    (fun acc s => unionInto (fun _ => true) (blockAt bs s).live_in acc)
    ((blockAt bs bi).live_out, ch) with ⟨o1, o2⟩
  rw [ho] at go
  simp only at go
  have g1 := unionInto_grow (fun _ => true) (blockAt bs bi).live_gen (blockAt bs bi).live_in o2
    (hn bi).1
  rcases hi1 : unionInto (fun _ => true) (blockAt bs bi).live_gen ((blockAt bs bi).live_in, o2)
    with ⟨a1, a2⟩
  rw [hi1] at g1
  simp only at g1
  have g2 := unionInto_grow (fun k => decide (k ∉ (blockAt bs bi).live_kill)) o1 a1 a2 g1.1
  rcases hi2 : unionInto (fun k => decide (k ∉ (blockAt bs bi).live_kill)) o1 (a1, a2)
    with ⟨c1, c2⟩
  rw [hi2] at g2
  simp only at g2
  have hsum := sum_map_set (fun b => b.live_in.length + b.live_out.length) bs bi
    { blockAt bs bi with live_out := o1, live_in := c1 } hbi
  simp only at hsum ⊢
  refine ⟨?_, ?_, ?_⟩
  · intro i
    rw [blockAt_set]
    by_cases h : i = bi ∧ bi < bs.length
    · rw [if_pos h]; exact ⟨g2.1, go.1⟩
    · rw [if_neg h]; exact hn i
  · unfold liveSize
    omega
  · intro h
    unfold liveSize
    rcases g2.2.2 h with h1 | h1
    · rcases g1.2.2 h1 with h2 | h2
      · rcases go.2.2 h2 with h3 | h3
        · exact Or.inl h3
        · exact Or.inr (by omega)
      · exact Or.inr (by omega)
    · exact Or.inr (by omega)

theorem globalLivePass_grow (n : Nat) (bs : List LBlock) (ch : Bool) (hlen : n ≤ bs.length)
    (hn : ∀ i, (blockAt bs i).live_in.Nodup ∧ (blockAt bs i).live_out.Nodup) :
    (∀ i, (blockAt (globalLivePass n (bs, ch)).1 i).live_in.Nodup ∧
      (blockAt (globalLivePass n (bs, ch)).1 i).live_out.Nodup) ∧
    liveSize bs ≤ liveSize (globalLivePass n (bs, ch)).1 ∧
    ((globalLivePass n (bs, ch)).2 = true →
      ch = true ∨ liveSize bs < liveSize (globalLivePass n (bs, ch)).1) := by
  induction n generalizing bs ch with
  | zero => exact ⟨hn, Nat.le_refl _, fun h => Or.inl h⟩
  | succ n ih =>
    unfold globalLivePass
    obtain ⟨b1, b2, b3⟩ := globalLiveBlock_grow bs ch n hlen hn
    have hl := (globalLiveBlock_spec bs ch n hlen).1
    obtain ⟨a1, a2, a3⟩ := ih (globalLiveBlock bs ch n).1 (globalLiveBlock bs ch n).2
      (by omega) b1
    refine ⟨a1, Nat.le_trans b2 a2, ?_⟩
    intro h
    rcases a3 h with h1 | h1
    · rcases b3 h1 with h2 | h2
      · exact Or.inl h2
      · exact Or.inr (Nat.lt_of_lt_of_le h2 a2)
    · exact Or.inr (Nat.lt_of_le_of_lt b2 h1)

theorem blockAt_mem (bs : List LBlock) (i : Nat) (h : i < bs.length) : blockAt bs i ∈ bs := by
  unfold blockAt
  rw [List.getD_eq_getElem?_getD, List.getElem?_eq_getElem h]
  exact List.getElem_mem h

theorem liveSize_le (bs0 bs : List LBlock) (inv : LiveInv bs0 bs)
    (hn : ∀ i, (blockAt bs i).live_in.Nodup ∧ (blockAt bs i).live_out.Nodup) :
    liveSize bs ≤ bs0.length * (2 * (bs0.map LBlock.live_gen).flatten.length) := by
  have hc : liveClosed bs0 (fun _ k => k ∈ (bs0.map LBlock.live_gen).flatten)
      (fun _ k => k ∈ (bs0.map LBlock.live_gen).flatten) := by
    intro i hi k
    refine ⟨fun ⟨s, _, h⟩ => h, ?_⟩
    rintro (h | ⟨h, _⟩)
    · exact List.mem_flatten.mpr ⟨_, List.mem_map.mpr ⟨_, blockAt_mem bs0 i hi, rfl⟩, h⟩
    · exact h
  have hb : ∀ x ∈ bs.map (fun b => b.live_in.length + b.live_out.length),
      x ≤ 2 * (bs0.map LBlock.live_gen).flatten.length := by
    intro x hx
    obtain ⟨b, hb, rfl⟩ := List.mem_map.mp hx
    obtain ⟨i, hi, rfl⟩ := List.mem_iff_getElem.mp hb
    have e : blockAt bs i = bs[i] := by
      unfold blockAt
      rw [List.getD_eq_getElem?_getD, List.getElem?_eq_getElem hi]
      rfl
    rw [← e]
    have h1 := ((hn i).1.subperm (fun k hk => (inv.least _ _ hc i k).1 hk)).length_le
    have h2 := ((hn i).2.subperm (fun k hk => (inv.least _ _ hc i k).2 hk)).length_le
    omega
  have := List.sum_le_card_nsmul _ _ hb
  unfold liveSize
  rw [List.length_map, inv.len, smul_eq_mul] at this
  exact this

theorem globalLiveLoop_returns (bs0 : List LBlock) (fuel : Nat) (bs : List LBlock)
    (inv : LiveInv bs0 bs)
    (hn : ∀ i, (blockAt bs i).live_in.Nodup ∧ (blockAt bs i).live_out.Nodup)
    (hf : bs0.length * (2 * (bs0.map LBlock.live_gen).flatten.length) < liveSize bs + fuel) :
    ∃ r, globalLiveLoop fuel bs = some r := by
  induction fuel generalizing bs with
  | zero =>
    have := liveSize_le bs0 bs inv hn
    omega
  | succ fuel ih =>
    unfold globalLiveLoop
    simp only
    by_cases hc : (globalLivePass bs.length (bs, false)).2 = true
    · rw [if_pos hc]
      obtain ⟨a1, _, a3⟩ := globalLivePass_grow bs.length bs false (Nat.le_refl _) hn
      have hlt : liveSize bs < liveSize (globalLivePass bs.length (bs, false)).1 := by
        rcases a3 hc with h | h
        · cases h
        · exact h
      exact ih _ (globalLivePass_inv bs0 bs.length bs false (Nat.le_refl _) inv) a1 (by omega)
    · rw [if_neg hc]
      exact ⟨_, rfl⟩

theorem LiveInv.init (bs0 : List LBlock)
    (hinit : ∀ b ∈ bs0, b.live_in = [] ∧ b.live_out = []) :
    LiveInv bs0 bs0 ∧ ∀ i, (blockAt bs0 i).live_in = [] ∧ (blockAt bs0 i).live_out = [] := by
  have h0 : ∀ i, (blockAt bs0 i).live_in = [] ∧ (blockAt bs0 i).live_out = [] := by
    intro i
    by_cases h : i < bs0.length
    · exact hinit _ (blockAt_mem bs0 i h)
    · unfold blockAt
      rw [List.getD_eq_getElem?_getD, List.getElem?_eq_none (Nat.le_of_not_lt h)]
      exact ⟨rfl, rfl⟩
  refine ⟨⟨rfl, fun _ => ⟨rfl, rfl, rfl⟩, ?_, ?_, ?_⟩, h0⟩
  · intro i k hk; rw [(h0 i).2] at hk; cases hk
  · intro i k hk; rw [(h0 i).1] at hk; cases hk
  · intro IN OUT _ i k
    constructor
    · intro hk; rw [(h0 i).1] at hk; cases hk
    · intro hk; rw [(h0 i).2] at hk; cases hk

/-- C9 (global liveness is the least fixed point): started with empty
`live_in` and `live_out` sets, `ComputeGlobalLiveSets` returns (some number
of passes is enough), and whenever it returns it has changed only `live_in`
and `live_out`, for every block of the flattened list `live_out` is the union
of the `live_in` of the successors and `live_in` is `live_gen` together with
the keys of `live_out` that are not in `live_kill`, as sets of interval ids,
and the sets lie inside every family of sets closed under the two equations,
in particular inside every solution. -/
theorem ComputeGlobalLiveSets_least_fixed_point (g : LGen)
    (hinit : ∀ b ∈ g.blocks, b.live_in = [] ∧ b.live_out = []) :
    (∃ fuel g', g.ComputeGlobalLiveSets fuel = some g') ∧
    ∀ fuel g', g.ComputeGlobalLiveSets fuel = some g' →
      g'.blocks.length = g.blocks.length ∧
      (∀ i, (blockAt g'.blocks i).succ = (blockAt g.blocks i).succ ∧
        (blockAt g'.blocks i).live_gen = (blockAt g.blocks i).live_gen ∧
        (blockAt g'.blocks i).live_kill = (blockAt g.blocks i).live_kill) ∧
      (∀ i, i < g'.blocks.length → ∀ k,
        (k ∈ (blockAt g'.blocks i).live_out ↔
          ∃ s ∈ (blockAt g'.blocks i).succ, k ∈ (blockAt g'.blocks s).live_in) ∧
        (k ∈ (blockAt g'.blocks i).live_in ↔
          k ∈ (blockAt g'.blocks i).live_gen ∨
            (k ∈ (blockAt g'.blocks i).live_out ∧ k ∉ (blockAt g'.blocks i).live_kill))) ∧
      (∀ IN OUT : Nat → Nat → Prop, liveClosed g'.blocks IN OUT → ∀ i k,
        (k ∈ (blockAt g'.blocks i).live_in → IN i k) ∧
        (k ∈ (blockAt g'.blocks i).live_out → OUT i k)) := by
  obtain ⟨inv0, h0⟩ := LiveInv.init g.blocks hinit
  constructor
  · obtain ⟨r, hr⟩ := globalLiveLoop_returns g.blocks
      (g.blocks.length * (2 * (g.blocks.map LBlock.live_gen).flatten.length) + 1) g.blocks inv0
      (by intro i; rw [(h0 i).1, (h0 i).2]; exact ⟨List.nodup_nil, List.nodup_nil⟩)
      (by omega)
    exact ⟨_, { g with blocks := r }, by unfold LGen.ComputeGlobalLiveSets; rw [hr]; rfl⟩
  · intro fuel g' hg'
    unfold LGen.ComputeGlobalLiveSets at hg'
    obtain ⟨r, hr, rfl⟩ := Option.map_eq_some'.mp hg'
    obtain ⟨inv, hcl⟩ := globalLiveLoop_inv g.blocks fuel g.blocks r inv0 hr
    refine ⟨inv.len, inv.frame, ?_, ?_⟩
    · intro i hi k
      obtain ⟨c1, c2, c3⟩ := hcl i hi
      constructor
      · exact ⟨inv.out_sound i k, fun ⟨s, hs, hk⟩ => c1 s hs k hk⟩
      · constructor
        · exact inv.in_sound i k
        · rintro (h | ⟨h1, h2⟩)
          · exact c2 k h
          · exact c3 k h1 h2
    · intro IN OUT hc
      apply inv.least IN OUT
      intro i hi k
      have := hc i (inv.len ▸ hi) k
      simp only at this
      rw [(inv.frame i).1, (inv.frame i).2.1, (inv.frame i).2.2] at this
      exact this

set_option maxRecDepth 10000 in
/-- The liveness theorem applied to `liveSample`. -/
theorem ComputeGlobalLiveSets_least_fixed_point_witness :
    (∀ b ∈ liveSample.blocks, b.live_in = [] ∧ b.live_out = []) ∧
    (∃ fuel g', liveSample.ComputeGlobalLiveSets fuel = some g') ∧
    ∀ fuel g', liveSample.ComputeGlobalLiveSets fuel = some g' →
      g'.blocks.length = liveSample.blocks.length ∧
      (∀ i, (blockAt g'.blocks i).succ = (blockAt liveSample.blocks i).succ ∧
        (blockAt g'.blocks i).live_gen = (blockAt liveSample.blocks i).live_gen ∧
        (blockAt g'.blocks i).live_kill = (blockAt liveSample.blocks i).live_kill) ∧
      (∀ i, i < g'.blocks.length → ∀ k,
        (k ∈ (blockAt g'.blocks i).live_out ↔
          ∃ s ∈ (blockAt g'.blocks i).succ, k ∈ (blockAt g'.blocks s).live_in) ∧
        (k ∈ (blockAt g'.blocks i).live_in ↔
          k ∈ (blockAt g'.blocks i).live_gen ∨
            (k ∈ (blockAt g'.blocks i).live_out ∧ k ∉ (blockAt g'.blocks i).live_kill))) ∧
      (∀ IN OUT : Nat → Nat → Prop, liveClosed g'.blocks IN OUT → ∀ i k,
        (k ∈ (blockAt g'.blocks i).live_in → IN i k) ∧
        (k ∈ (blockAt g'.blocks i).live_out → OUT i k)) :=
  ⟨by decide, ComputeGlobalLiveSets_least_fixed_point liveSample (by decide)⟩

/-! ## The copying collector -/

/-- C5 (pointer rewrite completeness), evaluated on `rewriteSample`:
`CollectGarbage` returns, the two stack slots are rewritten to the copies of
the cons-string and of the function, and yet the left and right slots of the
copied cons-string and the root slot of the copied function still hold the
addresses of values of the from-space, whose pages are gone. -/
theorem CollectGarbage_leaves_from_space_pointers :
    ∃ g, GC.CollectGarbage 10 rewriteSample 1 = some g ∧
      g.heap.load (Slot.stack 1) = some (addrOf 5) ∧
      g.heap.load (Slot.stack 2) = some (addrOf 6) ∧
      g.heap.new_space = [addrOf 5, addrOf 6] ∧
      (g.heap.obj (addrOf 5)).map HObj.tag = some kTagString ∧
      (g.heap.obj (addrOf 5)).map HObj.representation = some kCons ∧
      g.heap.load (Slot.field (addrOf 5) 2) = some (addrOf 0) ∧
      g.heap.load (Slot.field (addrOf 5) 3) = some (addrOf 1) ∧
      (g.heap.obj (addrOf 6)).map HObj.tag = some kTagFunction ∧
      g.heap.load (Slot.field (addrOf 6) 2) = some (addrOf 3) ∧
      addrOf 0 ∈ rewriteSample.heap.new_space ∧ g.heap.obj (addrOf 0) = none ∧
      addrOf 1 ∈ rewriteSample.heap.new_space ∧ g.heap.obj (addrOf 1) = none ∧
      addrOf 3 ∈ rewriteSample.heap.new_space ∧ g.heap.obj (addrOf 3) = none := by
  obtain ⟨g, hg, hq⟩ := exists_of_map_decide (GC.CollectGarbage 10 rewriteSample 1)
    (fun g => g.heap.load (Slot.stack 1) = some (addrOf 5) ∧
      g.heap.load (Slot.stack 2) = some (addrOf 6) ∧
      g.heap.new_space = [addrOf 5, addrOf 6] ∧
      (g.heap.obj (addrOf 5)).map HObj.tag = some kTagString ∧
      (g.heap.obj (addrOf 5)).map HObj.representation = some kCons ∧
      g.heap.load (Slot.field (addrOf 5) 2) = some (addrOf 0) ∧
      g.heap.load (Slot.field (addrOf 5) 3) = some (addrOf 1) ∧
      (g.heap.obj (addrOf 6)).map HObj.tag = some kTagFunction ∧
      g.heap.load (Slot.field (addrOf 6) 2) = some (addrOf 3) ∧
      addrOf 0 ∈ rewriteSample.heap.new_space ∧ g.heap.obj (addrOf 0) = none ∧
      addrOf 1 ∈ rewriteSample.heap.new_space ∧ g.heap.obj (addrOf 1) = none ∧
      addrOf 3 ∈ rewriteSample.heap.new_space ∧ g.heap.obj (addrOf 3) = none) (by decide)
  exact ⟨g, hg, hq⟩

/-- C6 (persistent handles are roots), evaluated on `persistentSample`: the
stack walk of `CollectGarbage` finds the stack slot only, the collection
copies one value, and afterwards the persistent reference still names the old
address of its referent, which was not copied and whose page is gone. -/
theorem CollectGarbage_misses_persistent_references :
    ∃ g, GC.CollectGarbage 10 persistentSample 1 = some g ∧
      GC.walkStack { persistentSample.heap with needs_gc := 0 } 10 1 [] =
        some [⟨addrOf 2, Slot.stack 1⟩] ∧
      g.heap.references = [⟨ReferenceType.kRefPersistent, 0, addrOf 1⟩] ∧
      g.heap.new_space = [addrOf 3] ∧
      g.heap.load (Slot.stack 1) = some (addrOf 3) ∧
      addrOf 1 ∈ persistentSample.heap.new_space ∧
      g.heap.obj (addrOf 1) = none := by
  obtain ⟨g, hg, hq⟩ := exists_of_map_decide (GC.CollectGarbage 10 persistentSample 1)
    (fun g => GC.walkStack { persistentSample.heap with needs_gc := 0 } 10 1 [] =
        some [⟨addrOf 2, Slot.stack 1⟩] ∧
      g.heap.references = [⟨ReferenceType.kRefPersistent, 0, addrOf 1⟩] ∧
      g.heap.new_space = [addrOf 3] ∧
      g.heap.load (Slot.stack 1) = some (addrOf 3) ∧
      addrOf 1 ∈ persistentSample.heap.new_space ∧
      g.heap.obj (addrOf 1) = none) (by decide)
  exact ⟨g, hg, hq⟩

/-- C7 (weak callback exactly once), evaluated on `weakSample`: after
`CollectGarbage` the list of weak references is what it was: the reference to
the unreachable object is still in the list (its referent is gone), and the
reference to the evacuated number still names its old address, not the
address of the copy that the stack slot now holds. A second collection
leaves the list as it is again. -/
theorem CollectGarbage_keeps_weak_references :
    ∃ g g2, GC.CollectGarbage 10 weakSample 1 = some g ∧
      g.heap.weak_references = [⟨addrOf 1, 0⟩, ⟨addrOf 2, 1⟩] ∧
      g.heap.obj (addrOf 1) = none ∧
      g.heap.load (Slot.stack 1) = some (addrOf 3) ∧
      g.heap.obj (addrOf 2) = none ∧
      GC.CollectGarbage 10 g 1 = some g2 ∧
      g2.heap.weak_references = [⟨addrOf 1, 0⟩, ⟨addrOf 2, 1⟩] := by
  obtain ⟨g, hg, hq⟩ := exists_of_map_decide (GC.CollectGarbage 10 weakSample 1)
    (fun g => g.heap.weak_references = [⟨addrOf 1, 0⟩, ⟨addrOf 2, 1⟩] ∧
      g.heap.obj (addrOf 1) = none ∧
      g.heap.load (Slot.stack 1) = some (addrOf 3) ∧
      g.heap.obj (addrOf 2) = none ∧
      (GC.CollectGarbage 10 g 1).map (fun g2 => g2.heap.weak_references) =
        some [⟨addrOf 1, 0⟩, ⟨addrOf 2, 1⟩]) (by decide)
  obtain ⟨h1, h2, h3, h4, h5⟩ := hq
  obtain ⟨g2, hg2, hw⟩ := Option.map_eq_some'.mp h5
  exact ⟨g, g2, hg, h1, h2, h3, h4, hg2, hw⟩

theorem indexOf_addrOf (i : Nat) : indexOf (addrOf i) = i := by
  unfold indexOf addrOf
  omega

theorem addrOf_inj {i j : Nat} (h : addrOf i = addrOf j) : i = j := by
  unfold addrOf at h
  omega

theorem obj_addrOf (h : Heap) (i : Nat) : h.obj (addrOf i) = h.objs.getD i none := by
  unfold Heap.obj
  rw [indexOf_addrOf, if_pos (by unfold addrOf; omega)]

/-- An address behind which a value lives is the address of an object number
in range. -/
theorem obj_some (h : Heap) (a : Nat) (o : HObj) (ho : h.obj a = some o) :
    a = addrOf (indexOf a) ∧ indexOf a < h.objs.length ∧ h.objs[indexOf a]? = some (some o) := by
  unfold Heap.obj at ho
  by_cases hc : a % 2 = 1 ∧ 3 ≤ a
  · rw [if_pos hc] at ho
    have hlt : indexOf a < h.objs.length := by
      by_contra hn
      rw [List.getD_eq_getElem?_getD, List.getElem?_eq_none (Nat.le_of_not_lt hn)] at ho
      cases ho
    refine ⟨by unfold addrOf indexOf; omega, hlt, ?_⟩
    rw [List.getD_eq_getElem?_getD, List.getElem?_eq_getElem hlt] at ho
    rw [List.getElem?_eq_getElem hlt]
    simpa using ho
  · rw [if_neg hc] at ho
    cases ho

theorem obj_setObj (h : Heap) (a b : Nat) (o o' : HObj) (ho : h.obj a = some o) :
    (h.setObj a o').obj b = if b = a then some o' else h.obj b := by
  obtain ⟨ha, hlt, _⟩ := obj_some h a o ho
  by_cases hb : b = a
  · subst hb
    rw [if_pos rfl, ha, obj_addrOf]
    unfold Heap.setObj
    simp only [indexOf_addrOf, List.getD_eq_getElem?_getD, List.getElem?_set]
    simp [hlt]
  · rw [if_neg hb]
    unfold Heap.obj Heap.setObj
    simp only
    by_cases hc : b % 2 = 1 ∧ 3 ≤ b
    · rw [if_pos hc, if_pos hc]
      have hne : indexOf a ≠ indexOf b := by
        intro he
        apply hb
        have : a % 2 = 1 ∧ 3 ≤ a := by rw [ha]; unfold addrOf; omega
        unfold indexOf at he
        omega
      simp only [List.getD_eq_getElem?_getD, List.getElem?_set, if_neg hne]
    · rw [if_neg hc, if_neg hc]

theorem obj_append (h : Heap) (b : Nat) (o : HObj) :
    ({ h with objs := h.objs ++ [some o] } : Heap).obj b =
      if b = addrOf h.objs.length then some o else h.obj b := by
  by_cases hb : b = addrOf h.objs.length
  · subst hb
    rw [if_pos rfl, obj_addrOf]
    simp [List.getD_eq_getElem?_getD]
  · rw [if_neg hb]
    unfold Heap.obj
    simp only
    by_cases hc : b % 2 = 1 ∧ 3 ≤ b
    · rw [if_pos hc, if_pos hc]
      have hne : indexOf b ≠ h.objs.length := by
        intro he
        apply hb
        rw [← he]
        unfold addrOf indexOf
        omega
      simp only [List.getD_eq_getElem?_getD]
      by_cases hlt : indexOf b < h.objs.length
      · rw [List.getElem?_append_left hlt]
      · have hge : h.objs.length + 1 ≤ indexOf b := by omega
        rw [List.getElem?_eq_none (by simpa using hge), List.getElem?_eq_none (by omega)]
    · rw [if_neg hc, if_neg hc]

theorem obj_fresh (h : Heap) (n : Nat) (hn : h.objs.length ≤ n) : h.obj (addrOf n) = none := by
  rw [obj_addrOf, List.getD_eq_getElem?_getD, List.getElem?_eq_none hn]
  rfl

/-- The function `CopyTo` with the two spaces `heap.h` declares for it, on a live
value: it returns; it increments the
generation byte of the value, the copy carries the incremented generation and
is otherwise the value itself, and the copy gets a fresh address that is
added to the pages of the old space when the incremented generation is at
least `kMinOldSpaceGeneration`, to those of the new space otherwise, the
pages of every other space staying as they are. -/
theorem CopyTo_promotes_by_generation (g : GC) (a : Nat) (o : HObj)
    (old_space new_space : SpaceRef) (h : g.heap.obj a = some o) :
    ∃ a' g', HValue.CopyTo g a old_space new_space = some (a', g') ∧
      a' = addrOf g.heap.objs.length ∧ g.heap.obj a' = none ∧
      g'.heap.obj a' = some { o with generation := (o.generation + 1) % 256 } ∧
      g'.heap.obj a = some { o with generation := (o.generation + 1) % 256 } ∧
      (o.generation < 255 → (g'.heap.obj a').map HObj.generation = some (o.generation + 1)) ∧
      (kMinOldSpaceGeneration ≤ (o.generation + 1) % 256 →
        g'.pages old_space = g.pages old_space ++ [a'] ∧
        ∀ s, s ≠ old_space → g'.pages s = g.pages s) ∧
      ((o.generation + 1) % 256 < kMinOldSpaceGeneration →
        g'.pages new_space = g.pages new_space ++ [a'] ∧
        ∀ s, s ≠ new_space → g'.pages s = g.pages s) := by
  have hlen : (g.heap.setObj a { o with generation := (o.generation + 1) % 256 }).objs.length =
      g.heap.objs.length := by
    unfold Heap.setObj
    simp
  have hfresh : g.heap.obj (addrOf g.heap.objs.length) = none := obj_fresh _ _ (Nat.le_refl _)
  have hne : a ≠ addrOf g.heap.objs.length := by
    intro e
    rw [e, hfresh] at h
    cases h
  have key : ∀ sp : SpaceRef,
      (({ g with heap := g.heap.setObj a { o with generation := (o.generation + 1) % 256 } } :
          GC).Allocate sp { o with generation := (o.generation + 1) % 256 }).1 =
        addrOf g.heap.objs.length ∧
      (({ g with heap := g.heap.setObj a { o with generation := (o.generation + 1) % 256 } } :
          GC).Allocate sp { o with generation := (o.generation + 1) % 256 }).2.heap.obj
          (addrOf g.heap.objs.length) =
        some { o with generation := (o.generation + 1) % 256 } ∧
      (({ g with heap := g.heap.setObj a { o with generation := (o.generation + 1) % 256 } } :
          GC).Allocate sp { o with generation := (o.generation + 1) % 256 }).2.heap.obj a =
        some { o with generation := (o.generation + 1) % 256 } ∧
      (({ g with heap := g.heap.setObj a { o with generation := (o.generation + 1) % 256 } } :
          GC).Allocate sp { o with generation := (o.generation + 1) % 256 }).2.pages sp =
        g.pages sp ++ [addrOf g.heap.objs.length] ∧
      ∀ s, s ≠ sp →
        (({ g with heap := g.heap.setObj a { o with generation := (o.generation + 1) % 256 } } :
          GC).Allocate sp { o with generation := (o.generation + 1) % 256 }).2.pages s =
        g.pages s := by
    intro sp
    have h1 := obj_append (g.heap.setObj a { o with generation := (o.generation + 1) % 256 })
      (addrOf g.heap.objs.length) { o with generation := (o.generation + 1) % 256 }
    have h2 := obj_append (g.heap.setObj a { o with generation := (o.generation + 1) % 256 })
      a { o with generation := (o.generation + 1) % 256 }
    rw [hlen] at h1 h2
    rw [if_pos rfl] at h1
    rw [if_neg hne, obj_setObj g.heap a a o _ h, if_pos rfl] at h2
    cases sp
    · refine ⟨by simp [GC.Allocate, hlen], ?_, ?_, by simp [GC.Allocate, GC.pages, hlen, Heap.setObj], ?_⟩
      · simpa [GC.Allocate, Heap.obj, hlen] using h1
      · simpa [GC.Allocate, Heap.obj] using h2
      · intro s hs
        cases s <;> first | exact absurd rfl hs | simp [GC.Allocate, GC.pages, Heap.setObj]
    · refine ⟨by simp [GC.Allocate, hlen], ?_, ?_, by simp [GC.Allocate, GC.pages, hlen, Heap.setObj], ?_⟩
      · simpa [GC.Allocate, Heap.obj, hlen] using h1
      · simpa [GC.Allocate, Heap.obj] using h2
      · intro s hs
        cases s <;> first | exact absurd rfl hs | simp [GC.Allocate, GC.pages, Heap.setObj]
    · refine ⟨by simp [GC.Allocate, hlen], ?_, ?_, by simp [GC.Allocate, GC.pages, hlen, Heap.setObj], ?_⟩
      · simpa [GC.Allocate, Heap.obj, hlen] using h1
      · simpa [GC.Allocate, Heap.obj] using h2
      · intro s hs
        cases s <;> first | exact absurd rfl hs | simp [GC.Allocate, GC.pages, Heap.setObj]
  unfold HValue.CopyTo
  rw [h]
  simp only [Option.map_some']
  by_cases hc : kMinOldSpaceGeneration ≤ (o.generation + 1) % 256
  · rw [if_pos hc]
    obtain ⟨k1, k2, k3, k4, k5⟩ := key old_space
    generalize (GC.Allocate _ old_space _) = r at k1 k2 k3 k4 k5 ⊢
    refine ⟨r.1, r.2, rfl, k1, ?_, ?_, k3, ?_, fun _ => ⟨?_, k5⟩, fun hlt => absurd hc (by omega)⟩
    · rw [k1]; exact hfresh
    · rw [k1]; exact k2
    · intro hlt
      rw [k1, k2]
      simp only [Option.map_some']
      rw [Nat.mod_eq_of_lt (by omega)]
    · rw [k1]; exact k4
  · rw [if_neg hc]
    obtain ⟨k1, k2, k3, k4, k5⟩ := key new_space
    generalize (GC.Allocate _ new_space _) = r at k1 k2 k3 k4 k5 ⊢
    refine ⟨r.1, r.2, rfl, k1, ?_, ?_, k3, ?_, fun hge => absurd hge hc, fun _ => ⟨?_, k5⟩⟩
    · rw [k1]; exact hfresh
    · rw [k1]; exact k2
    · intro hlt
      rw [k1, k2]
      simp only [Option.map_some']
      rw [Nat.mod_eq_of_lt (by omega)]
    · rw [k1]; exact k4

/-- The promotion theorem applied to the number of generation 4 of
`promotionSample`, with the old space of the heap and the temporary space as
destinations. -/
theorem CopyTo_promotes_by_generation_witness :
    promotionSample.heap.obj (addrOf 0) = some ⟨kTagNumber, 0, 4, false, [77]⟩ ∧
    ∃ a' g', HValue.CopyTo promotionSample (addrOf 0) SpaceRef.heapOld SpaceRef.temporary =
        some (a', g') ∧
      a' = addrOf promotionSample.heap.objs.length ∧ promotionSample.heap.obj a' = none ∧
      g'.heap.obj a' = some { (⟨kTagNumber, 0, 4, false, [77]⟩ : HObj) with
        generation := ((⟨kTagNumber, 0, 4, false, [77]⟩ : HObj).generation + 1) % 256 } ∧
      g'.heap.obj (addrOf 0) = some { (⟨kTagNumber, 0, 4, false, [77]⟩ : HObj) with
        generation := ((⟨kTagNumber, 0, 4, false, [77]⟩ : HObj).generation + 1) % 256 } ∧
      ((⟨kTagNumber, 0, 4, false, [77]⟩ : HObj).generation < 255 →
        (g'.heap.obj a').map HObj.generation =
          some ((⟨kTagNumber, 0, 4, false, [77]⟩ : HObj).generation + 1)) ∧
      (kMinOldSpaceGeneration ≤ ((⟨kTagNumber, 0, 4, false, [77]⟩ : HObj).generation + 1) % 256 →
        g'.pages SpaceRef.heapOld = promotionSample.pages SpaceRef.heapOld ++ [a'] ∧
        ∀ s, s ≠ SpaceRef.heapOld → g'.pages s = promotionSample.pages s) ∧
      (((⟨kTagNumber, 0, 4, false, [77]⟩ : HObj).generation + 1) % 256 < kMinOldSpaceGeneration →
        g'.pages SpaceRef.temporary = promotionSample.pages SpaceRef.temporary ++ [a'] ∧
        ∀ s, s ≠ SpaceRef.temporary → g'.pages s = promotionSample.pages s) :=
  ⟨by decide, CopyTo_promotes_by_generation promotionSample (addrOf 0)
    ⟨kTagNumber, 0, 4, false, [77]⟩ SpaceRef.heapOld SpaceRef.temporary (by decide)⟩

/-! ## The grey loop copies every value once -/

theorem load_field (h : Heap) (a j : Nat) (o : HObj) (ho : h.obj a = some o)
    (hj : j < o.fields.length) : h.load (Slot.field a j) = some (o.fields.getD j 0) := by
  simp only [Heap.load, ho, Option.some_bind]
  simp [List.getD_eq_getElem?_getD, List.getElem?_eq_getElem hj]

theorem VisitContextSlots_eq (a : Nat) (c : HObj) (n : Nat) :
    ∀ (i : Nat) (g : GC), g.heap.obj a = some c → 2 + i + n ≤ c.fields.length →
      GC.VisitContextSlots a i n g =
        some { g with grey_items := g.grey_items ++ slotItems a c.fields (contextSlotKeys c.fields i n) } := by
  induction n with
  | zero =>
    intro i g _ _
    simp [GC.VisitContextSlots, contextSlotKeys, slotItems]
  | succ n ih =>
    intro i g hc hlen
    unfold GC.VisitContextSlots contextSlotKeys
    rw [load_field g.heap a (2 + i) c hc (by omega)]
    simp only [Option.some_bind]
    by_cases hn : c.fields.getD (2 + i) 0 = HNil.New
    · rw [if_pos hn, if_pos hn]
      exact ih (i + 1) g hc (by omega)
    · rw [if_neg hn, if_neg hn]
      rw [ih (i + 1) _ (by simpa [GC.push] using hc) (by omega)]
      simp [GC.push, slotItems]

theorem VisitMapSlots_eq (a : Nat) (c : HObj) (size n : Nat) :
    ∀ (i : Nat) (g : GC), g.heap.obj a = some c → i + n ≤ size →
      1 + 2 * size ≤ c.fields.length →
      GC.VisitMapSlots a size i n g =
        some { g with grey_items := g.grey_items ++ slotItems a c.fields (mapSlotKeys c.fields size i n) } := by
  induction n with
  | zero =>
    intro i g _ _ _
    simp [GC.VisitMapSlots, mapSlotKeys, slotItems]
  | succ n ih =>
    intro i g hc hin hlen
    unfold GC.VisitMapSlots mapSlotKeys
    rw [load_field g.heap a (1 + i) c hc (by omega)]
    simp only [Option.some_bind]
    by_cases hn : c.fields.getD (1 + i) 0 = HNil.New
    · rw [if_pos hn, if_pos hn]
      exact ih (i + 1) g hc (by omega) hlen
    · rw [if_neg hn, if_neg hn]
      rw [load_field g.heap a (1 + (i + size)) c hc (by omega)]
      simp only [Option.some_bind]
      rw [ih (i + 1) _ (by simpa [GC.push] using hc) (by omega) hlen]
      simp [GC.push, slotItems]

theorem GetTag_obj (h : Heap) (a : Nat) (c : HObj) (hc : h.obj a = some c) :
    h.GetTag a = some c.tag := by
  obtain ⟨ha, _, _⟩ := obj_some h a c hc
  unfold Heap.GetTag
  rw [if_neg (by rw [ha]; unfold addrOf HNil.New kTagNil; omega),
    if_neg (by rw [ha]; unfold addrOf HValue.IsUnboxed; simp; omega), hc]

/-- `VisitValue` on a value whose outgoing slots are defined pushes exactly
these slots, with the words they hold, and touches nothing else. -/
theorem VisitValue_eq (g : GC) (a : Nat) (c : HObj) (ks : List Nat)
    (hc : g.heap.obj a = some c) (hk : c.outgoing = some ks) :
    g.VisitValue a = some { g with grey_items := g.grey_items ++ slotItems a c.fields ks } := by
  unfold GC.VisitValue
  rw [GetTag_obj g.heap a c hc]
  simp only [Option.some_bind]
  unfold HObj.outgoing at hk
  by_cases h1 : c.tag = kTagContext
  · rw [if_pos h1] at hk ⊢
    by_cases h2 : 2 + c.fields.getD 1 0 % 2 ^ 32 ≤ c.fields.length
    · rw [if_pos h2] at hk
      have hks := Option.some.inj hk
      unfold GC.VisitContext
      rw [load_field g.heap a 0 c hc (by omega), load_field g.heap a 1 c hc (by omega)]
      simp only [Option.some_bind]
      subst hks
      by_cases hp : c.fields.getD 0 0 ≠ 0
      · rw [if_pos hp, if_pos hp,
          VisitContextSlots_eq a c _ 0 _ (by simpa [GC.push] using hc) (by omega)]
        simp [GC.push, slotItems]
      · rw [if_neg hp, if_neg hp, VisitContextSlots_eq a c _ 0 _ hc (by omega)]
        simp [slotItems]
    · rw [if_neg h2] at hk; cases hk
  · rw [if_neg h1] at hk ⊢
    by_cases h2 : c.tag = kTagFunction
    · rw [if_pos h2] at hk ⊢
      by_cases h3 : 0 < c.fields.length
      · rw [if_pos h3] at hk
        have hks := Option.some.inj hk
        subst hks
        unfold GC.VisitFunction
        rw [load_field g.heap a 0 c hc h3]
        simp [GC.push, slotItems]
      · rw [if_neg h3] at hk; cases hk
    · rw [if_neg h2] at hk ⊢
      by_cases h3 : c.tag = kTagObject
      · rw [if_pos h3] at hk ⊢
        by_cases h4 : 1 < c.fields.length
        · rw [if_pos h4] at hk
          have hks := Option.some.inj hk
          subst hks
          unfold GC.VisitObject
          rw [load_field g.heap a 1 c hc h4]
          simp [GC.push, slotItems]
        · rw [if_neg h4] at hk; cases hk
      · rw [if_neg h3] at hk ⊢
        by_cases h4 : c.tag = kTagMap
        · rw [if_pos h4] at hk ⊢
          by_cases h5 : 1 + 2 * (c.fields.getD 0 0 % 2 ^ 32) ≤ c.fields.length
          · rw [if_pos h5] at hk
            have hks := Option.some.inj hk
            subst hks
            unfold GC.VisitMap
            rw [load_field g.heap a 0 c hc (by omega)]
            simp only [Option.some_bind]
            exact VisitMapSlots_eq a c _ _ 0 g hc (by omega) h5
          · rw [if_neg h5] at hk; cases hk
        · rw [if_neg h4] at hk ⊢
          by_cases h5 : c.tag = kTagString ∨ c.tag = kTagNumber ∨ c.tag = kTagBoolean
          · rw [if_pos h5] at hk ⊢
            have hks := Option.some.inj hk
            subst hks
            simp [slotItems]
          · rw [if_neg h5] at hk; cases hk

theorem contextSlotKeys_mem (fields : List Nat) (n : Nat) :
    ∀ i k, k ∈ contextSlotKeys fields i n → 2 + i ≤ k ∧ k < 2 + i + n := by
  induction n with
  | zero => intro i k hk; simp [contextSlotKeys] at hk
  | succ n ih =>
    intro i k hk
    unfold contextSlotKeys at hk
    by_cases hn : fields.getD (2 + i) 0 = HNil.New
    · rw [if_pos hn] at hk
      have := ih (i + 1) k hk
      omega
    · rw [if_neg hn] at hk
      rcases List.mem_cons.mp hk with rfl | hk'
      · omega
      · have := ih (i + 1) k hk'
        omega

theorem contextSlotKeys_nodup (fields : List Nat) (n : Nat) :
    ∀ i, (contextSlotKeys fields i n).Nodup := by
  induction n with
  | zero => intro i; simp [contextSlotKeys]
  | succ n ih =>
    intro i
    unfold contextSlotKeys
    by_cases hn : fields.getD (2 + i) 0 = HNil.New
    · rw [if_pos hn]; exact ih (i + 1)
    · rw [if_neg hn]
      refine List.nodup_cons.mpr ⟨?_, ih (i + 1)⟩
      intro hk
      have := contextSlotKeys_mem fields n (i + 1) _ hk
      omega

theorem mapSlotKeys_mem (fields : List Nat) (size n : Nat) :
    ∀ i k, k ∈ mapSlotKeys fields size i n →
      (1 + i ≤ k ∧ k < 1 + i + n) ∨ (1 + i + size ≤ k ∧ k < 1 + i + n + size) := by
  induction n with
  | zero => intro i k hk; simp [mapSlotKeys] at hk
  | succ n ih =>
    intro i k hk
    unfold mapSlotKeys at hk
    by_cases hn : fields.getD (1 + i) 0 = HNil.New
    · rw [if_pos hn] at hk
      have := ih (i + 1) k hk
      omega
    · rw [if_neg hn] at hk
      rcases List.mem_cons.mp hk with rfl | hk'
      · omega
      · rcases List.mem_cons.mp hk' with rfl | hk''
        · omega
        · have := ih (i + 1) k hk''
          omega

theorem mapSlotKeys_nodup (fields : List Nat) (size n : Nat) :
    ∀ i, i + n ≤ size → (mapSlotKeys fields size i n).Nodup := by
  induction n with
  | zero => intro i _; simp [mapSlotKeys]
  | succ n ih =>
    intro i hin
    unfold mapSlotKeys
    by_cases hn : fields.getD (1 + i) 0 = HNil.New
    · rw [if_pos hn]; exact ih (i + 1) (by omega)
    · rw [if_neg hn]
      refine List.nodup_cons.mpr ⟨?_, List.nodup_cons.mpr ⟨?_, ih (i + 1) (by omega)⟩⟩
      · intro hk
        rcases List.mem_cons.mp hk with h | h
        · omega
        · have := mapSlotKeys_mem fields size n (i + 1) _ h
          omega
      · intro hk
        have := mapSlotKeys_mem fields size n (i + 1) _ hk
        omega

/-- The outgoing slots of a value are distinct words of the value. -/
theorem outgoing_spec (o : HObj) (ks : List Nat) (hk : o.outgoing = some ks) :
    ks.Nodup ∧ ∀ k ∈ ks, k < o.fields.length := by
  unfold HObj.outgoing at hk
  by_cases h1 : o.tag = kTagContext
  · rw [if_pos h1] at hk
    by_cases h2 : 2 + o.fields.getD 1 0 % 2 ^ 32 ≤ o.fields.length
    · rw [if_pos h2] at hk
      have hks := Option.some.inj hk
      subst hks
      constructor
      · rw [List.nodup_append]
        refine ⟨by split <;> simp, contextSlotKeys_nodup _ _ _, ?_⟩
        intro a ha hb
        have := contextSlotKeys_mem _ _ _ _ hb
        split at ha
        · simp at ha; omega
        · simp at ha
      · intro k hk'
        rcases List.mem_append.mp hk' with h | h
        · split at h
          · simp at h; omega
          · simp at h
        · have := contextSlotKeys_mem _ _ _ _ h
          omega
    · rw [if_neg h2] at hk; cases hk
  · rw [if_neg h1] at hk
    by_cases h2 : o.tag = kTagFunction
    · rw [if_pos h2] at hk
      by_cases h3 : 0 < o.fields.length
      · rw [if_pos h3] at hk
        have hks := Option.some.inj hk
        subst hks
        simpa using h3
      · rw [if_neg h3] at hk; cases hk
    · rw [if_neg h2] at hk
      by_cases h3 : o.tag = kTagObject
      · rw [if_pos h3] at hk
        by_cases h4 : 1 < o.fields.length
        · rw [if_pos h4] at hk
          have hks := Option.some.inj hk
          subst hks
          simpa using h4
        · rw [if_neg h4] at hk; cases hk
      · rw [if_neg h3] at hk
        by_cases h4 : o.tag = kTagMap
        · rw [if_pos h4] at hk
          by_cases h5 : 1 + 2 * (o.fields.getD 0 0 % 2 ^ 32) ≤ o.fields.length
          · rw [if_pos h5] at hk
            have hks := Option.some.inj hk
            subst hks
            refine ⟨mapSlotKeys_nodup _ _ _ 0 (by omega), ?_⟩
            intro k hk'
            have := mapSlotKeys_mem _ _ _ _ _ hk'
            omega
          · rw [if_neg h5] at hk; cases hk
        · rw [if_neg h4] at hk
          by_cases h5 : o.tag = kTagString ∨ o.tag = kTagNumber ∨ o.tag = kTagBoolean
          · rw [if_pos h5] at hk
            have hks := Option.some.inj hk
            subst hks
            simp
          · rw [if_neg h5] at hk; cases hk

theorem outgoing_congr (o o' : HObj) (ht : o'.tag = o.tag) (hf : o'.fields = o.fields) :
    o'.outgoing = o.outgoing := by
  unfold HObj.outgoing
  rw [ht, hf]

/-- A store through a readable slot succeeds; it changes what this slot holds
and nothing else that can be read, and no tag, mark or size. -/
theorem store_spec (h : Heap) (s : Slot) (w w0 : Nat) (hs : h.load s = some w0) :
    ∃ h', h.store s w = some h' ∧ h'.objs.length = h.objs.length ∧
      h'.stack.length = h.stack.length ∧
      (∀ t, h'.load t = if t = s then some w else h.load t) ∧
      (∀ b, (∀ j, s ≠ Slot.field b j) → h'.obj b = h.obj b) ∧
      (∀ b, (h'.obj b).map HObj.tag = (h.obj b).map HObj.tag ∧
        (h'.obj b).map HObj.mark = (h.obj b).map HObj.mark ∧
        (h'.obj b).map (fun o => o.fields.length) = (h.obj b).map (fun o => o.fields.length)) := by
  cases s with
  | null => simp [Heap.load] at hs
  | stack p =>
    have hp : p < h.stack.length := by
      by_contra hn
      simp only [Heap.load] at hs
      rw [List.getElem?_eq_none (Nat.le_of_not_lt hn)] at hs
      cases hs
    refine ⟨{ h with stack := h.stack.set p w }, by simp [Heap.store, hp], rfl, by simp, ?_,
      fun b _ => rfl, fun b => ⟨rfl, rfl, rfl⟩⟩
    intro t
    cases t with
    | null => simp [Heap.load]
    | stack q =>
      simp only [Heap.load, List.getElem?_set, Slot.stack.injEq]
      by_cases hq : p = q
      · subst hq; simp [hp]
      · have hq' : ¬ q = p := fun e => hq e.symm
        simp [hq, hq']
    | field b k => simp [Heap.load, Heap.obj]
  | field c j =>
    simp only [Heap.load] at hs
    cases hoc : h.obj c with
    | none => rw [hoc] at hs; cases hs
    | some oc =>
      rw [hoc] at hs
      simp only [Option.some_bind] at hs
      have hj : j < oc.fields.length := by
        by_contra hn
        rw [List.getElem?_eq_none (Nat.le_of_not_lt hn)] at hs
        cases hs
      have hobj : ∀ b, (h.setObj c { oc with fields := oc.fields.set j w }).obj b =
          if b = c then some { oc with fields := oc.fields.set j w } else h.obj b :=
        fun b => obj_setObj h c b oc _ hoc
      refine ⟨h.setObj c { oc with fields := oc.fields.set j w }, by simp [Heap.store, hoc, hj],
        by simp [Heap.setObj], rfl, ?_, ?_, ?_⟩
      · intro t
        cases t with
        | null => simp [Heap.load]
        | stack q => simp [Heap.load, Heap.setObj]
        | field b k =>
          simp only [Heap.load, hobj, Slot.field.injEq]
          by_cases hb : b = c
          · subst hb
            simp only [if_true, Option.some_bind, true_and, hoc, List.getElem?_set]
            by_cases hk : j = k
            · subst hk; simp [hj]
            · have hk' : ¬ k = j := fun e => hk e.symm
              simp [hk, hk']
          · simp [hb]
      · intro b hb
        rw [hobj, if_neg (fun e => hb j (by rw [e]))]
      · intro b
        rw [hobj]
        by_cases hb : b = c
        · subst hb; rw [if_pos rfl, hoc]; simp
        · rw [if_neg hb]; exact ⟨rfl, rfl, rfl⟩

theorem SetGCMark_spec (h : Heap) (v f : Nat) (o : HObj) (ho : h.obj v = some o)
    (hf : 0 < o.fields.length) :
    ∃ h', HValue.SetGCMark h v f = some h' ∧ h'.objs.length = h.objs.length ∧
      h'.stack = h.stack ∧
      (∀ b, h'.obj b =
        if b = v then some { o with mark := true, fields := o.fields.set 0 f } else h.obj b) := by
  refine ⟨h.setObj v { o with mark := true, fields := o.fields.set 0 f },
    by simp [HValue.SetGCMark, ho, hf], by simp [Heap.setObj], rfl, ?_⟩
  intro b
  exact obj_setObj h v b o _ ho

theorem CopyTo_temporary_spec (g : GC) (v : Nat) (o : HObj) (ho : g.heap.obj v = some o) :
    ∃ g1, HValue.CopyTo g v SpaceRef.temporary SpaceRef.temporary =
        some (addrOf g.heap.objs.length, g1) ∧
      g1.grey_items = g.grey_items ∧ g1.space = g.space ++ [addrOf g.heap.objs.length] ∧
      g1.heap.objs.length = g.heap.objs.length + 1 ∧ g1.heap.stack = g.heap.stack ∧
      (∀ b, g1.heap.obj b =
        if b = addrOf g.heap.objs.length ∨ b = v then
          some { o with generation := (o.generation + 1) % 256 }
        else g.heap.obj b) := by
  have hlen : (g.heap.setObj v { o with generation := (o.generation + 1) % 256 }).objs.length =
      g.heap.objs.length := by
    simp [Heap.setObj]
  unfold HValue.CopyTo
  rw [ho]
  simp only [Option.map_some', ite_self, GC.Allocate, hlen]
  refine ⟨_, rfl, rfl, rfl, ?_, rfl, ?_⟩
  · simp [Heap.setObj]
  · intro b
    have h1 := obj_append (g.heap.setObj v { o with generation := (o.generation + 1) % 256 }) b
      { o with generation := (o.generation + 1) % 256 }
    rw [hlen] at h1
    simp only at h1 ⊢
    rw [h1, obj_setObj g.heap v b o _ ho]
    by_cases hb : b = addrOf g.heap.objs.length
    · simp [hb]
    · simp [hb]

theorem load_congr (h h' : Heap) (ho : ∀ b, h'.obj b = h.obj b) (hs : h'.stack = h.stack)
    (t : Slot) : h'.load t = h.load t := by
  cases t with
  | null => rfl
  | stack p => simp [Heap.load, hs]
  | field b k => simp [Heap.load, ho]

theorem load_some_ne_null (h : Heap) (s : Slot) (w : Nat) (hs : h.load s = some w) :
    s ≠ Slot.null := by
  intro e
  rw [e] at hs
  cases hs

theorem load_field_some (h : Heap) (b k w : Nat) (hs : h.load (Slot.field b k) = some w) :
    ∃ o, h.obj b = some o ∧ k < o.fields.length := by
  simp only [Heap.load] at hs
  cases ho : h.obj b with
  | none => rw [ho] at hs; cases hs
  | some o =>
    rw [ho] at hs
    refine ⟨o, rfl, ?_⟩
    by_contra hn
    simp only [Option.some_bind] at hs
    rw [List.getElem?_eq_none (Nat.le_of_not_lt hn)] at hs
    cases hs

theorem greyStep_unboxed (g : GC) (v : Nat) (s : Slot) (hv : v % 2 = 0) :
    g.greyStep ⟨v, s⟩ = some g := by
  unfold GC.greyStep
  simp [HValue.IsUnboxed, hv]

/-- The grey step on a marked value: the slot gets the recorded forward
pointer, and nothing else that can be read changes. -/
theorem greyStep_forward (g : GC) (v w0 : Nat) (s : Slot) (o : HObj) (hv : v % 2 = 1)
    (ho : g.heap.obj v = some o) (hm : o.mark = true) (hf : 0 < o.fields.length)
    (hs : g.heap.load s = some w0) (hsv : ∀ j, s ≠ Slot.field v j) :
    ∃ g', g.greyStep ⟨v, s⟩ = some g' ∧ g'.grey_items = g.grey_items ∧ g'.space = g.space ∧
      g'.heap.objs.length = g.heap.objs.length ∧
      g'.heap.stack.length = g.heap.stack.length ∧
      (∀ t, g'.heap.load t = if t = s then some (o.fields.getD 0 0) else g.heap.load t) ∧
      (∀ b, (∀ j, s ≠ Slot.field b j) → g'.heap.obj b = g.heap.obj b) ∧
      (∀ b, (g'.heap.obj b).map HObj.tag = (g.heap.obj b).map HObj.tag ∧
        (g'.heap.obj b).map HObj.mark = (g.heap.obj b).map HObj.mark ∧
        (g'.heap.obj b).map (fun o => o.fields.length) =
          (g.heap.obj b).map (fun o => o.fields.length)) := by
  obtain ⟨h1, e1, l1, sl1, ld1, ob1, mp1⟩ := store_spec g.heap s (o.fields.getD 0 0) w0 hs
  have ho1 : h1.obj v = some o := by rw [ob1 v hsv]; exact ho
  obtain ⟨h2, e2, l2, st2, ob2⟩ := SetGCMark_spec h1 v (o.fields.getD 0 0) o ho1 hf
  have hself : ({ o with mark := true, fields := o.fields.set 0 (o.fields.getD 0 0) } : HObj) = o := by
    have : o.fields.set 0 (o.fields.getD 0 0) = o.fields := by
      cases hfl : o.fields with
      | nil => rw [hfl] at hf; cases hf
      | cons x xs => simp
    rw [this]
    cases o
    simp only at hm
    simp [hm]
  have ob2' : ∀ b, h2.obj b = h1.obj b := by
    intro b
    rw [ob2]
    by_cases hb : b = v
    · rw [if_pos hb, hself, hb, ho1]
    · rw [if_neg hb]
  refine ⟨{ g with heap := h2 }, ?_, rfl, rfl, by simpa [l2] using l1, by simpa [st2] using sl1,
    ?_, ?_, ?_⟩
  · unfold GC.greyStep
    have hub : HValue.IsUnboxed v = false := by simp [HValue.IsUnboxed, hv]
    simp only [hub, Bool.false_eq_true, if_false, HValue.IsGCMarked, ho, Option.map_some',
      Option.some_bind, hm, Bool.not_true, HValue.GetGCMark,
      load_field g.heap v 0 o ho hf, GCValue.Relocate, ne_eq, load_some_ne_null g.heap s w0 hs,
      not_false_eq_true, if_true, e1, e2]
  · intro t
    rw [load_congr h1 h2 ob2' st2 t, ld1]
  · intro b hb
    rw [ob2', ob1 b hb]
  · intro b
    rw [ob2']
    exact mp1 b

/-- The grey step on an unmarked value: the value is copied to the next free
address, in the temporary space; the slot gets the new address; the value is
marked, with the new address as forward pointer; the outgoing slots of the
copy are queued; nothing else that can be read changes. -/
theorem greyStep_copy (g : GC) (v w0 : Nat) (s : Slot) (o : HObj) (ks : List Nat)
    (hv : v % 2 = 1) (ho : g.heap.obj v = some o) (hm : o.mark = false)
    (hf : 0 < o.fields.length) (hk : o.outgoing = some ks)
    (hs : g.heap.load s = some w0) (hsv : ∀ j, s ≠ Slot.field v j) :
    ∃ g', g.greyStep ⟨v, s⟩ = some g' ∧
      g'.grey_items = g.grey_items ++ slotItems (addrOf g.heap.objs.length) o.fields ks ∧
      g'.space = g.space ++ [addrOf g.heap.objs.length] ∧
      g'.heap.objs.length = g.heap.objs.length + 1 ∧
      g'.heap.stack.length = g.heap.stack.length ∧
      g'.heap.obj (addrOf g.heap.objs.length) =
        some { o with generation := (o.generation + 1) % 256 } ∧
      g'.heap.obj v = some { o with
        generation := (o.generation + 1) % 256, mark := true,
        fields := o.fields.set 0 (addrOf g.heap.objs.length) } ∧
      (∀ b, b ≠ v → b ≠ addrOf g.heap.objs.length → (∀ j, s ≠ Slot.field b j) →
        g'.heap.obj b = g.heap.obj b) ∧
      (∀ b, b ≠ v → b ≠ addrOf g.heap.objs.length →
        (g'.heap.obj b).map HObj.tag = (g.heap.obj b).map HObj.tag ∧
        (g'.heap.obj b).map HObj.mark = (g.heap.obj b).map HObj.mark ∧
        (g'.heap.obj b).map (fun o => o.fields.length) =
          (g.heap.obj b).map (fun o => o.fields.length)) ∧
      (∀ t, (∀ k, t ≠ Slot.field v k) → (∀ k, t ≠ Slot.field (addrOf g.heap.objs.length) k) →
        g'.heap.load t = if t = s then some (addrOf g.heap.objs.length) else g.heap.load t) := by
  have hfresh : g.heap.obj (addrOf g.heap.objs.length) = none := obj_fresh _ _ (Nat.le_refl _)
  have hva : v ≠ addrOf g.heap.objs.length := by
    intro e; rw [e, hfresh] at ho; cases ho
  have hsa : ∀ j, s ≠ Slot.field (addrOf g.heap.objs.length) j := by
    intro j e
    rw [e] at hs
    obtain ⟨o', ho', _⟩ := load_field_some _ _ _ _ hs
    rw [hfresh] at ho'
    cases ho'
  obtain ⟨g1, c1, q1, sp1, len1, st1, ob1⟩ := CopyTo_temporary_spec g v o ho
  have ld1 : ∀ t, (∀ k, t ≠ Slot.field v k) → (∀ k, t ≠ Slot.field (addrOf g.heap.objs.length) k) →
      g1.heap.load t = g.heap.load t := by
    intro t h1 h2
    cases t with
    | null => rfl
    | stack p => simp [Heap.load, st1]
    | field b k =>
      have hb1 : b ≠ v := fun e => h1 k (by rw [e])
      have hb2 : b ≠ addrOf g.heap.objs.length := fun e => h2 k (by rw [e])
      simp [Heap.load, ob1, hb1, hb2]
  have hs1 : g1.heap.load s = some w0 := by rw [ld1 s hsv hsa]; exact hs
  obtain ⟨h2, e2, len2, sl2, ld2, ob2, mp2⟩ :=
    store_spec g1.heap s (addrOf g.heap.objs.length) w0 hs1
  have ho2 : h2.obj v = some { o with generation := (o.generation + 1) % 256 } := by
    rw [ob2 v hsv, ob1]; simp
  obtain ⟨h3, e3, len3, st3, ob3⟩ := SetGCMark_spec h2 v (addrOf g.heap.objs.length) _ ho2 hf
  have hoa : h3.obj (addrOf g.heap.objs.length) =
      some { o with generation := (o.generation + 1) % 256 } := by
    rw [ob3, if_neg (fun e => hva e.symm), ob2 _ hsa, ob1]; simp
  have hk1 : ({ o with generation := (o.generation + 1) % 256 } : HObj).outgoing = some ks := by
    exact (outgoing_congr o { o with generation := (o.generation + 1) % 256 } rfl rfl).trans hk
  have hvis := VisitValue_eq { g1 with heap := h3 } (addrOf g.heap.objs.length) _ ks hoa hk1
  refine ⟨{ heap := h3, grey_items := g1.grey_items ++
      slotItems (addrOf g.heap.objs.length) o.fields ks, space := g1.space },
    ?_, ?_, sp1, ?_, ?_, hoa, ?_, ?_, ?_, ?_⟩
  · unfold GC.greyStep
    have hub : HValue.IsUnboxed v = false := by simp [HValue.IsUnboxed, hv]
    simp only [hub, Bool.false_eq_true, if_false, HValue.IsGCMarked, ho, Option.map_some',
      Option.some_bind, hm, Bool.not_false, if_true, c1, GCValue.Relocate, ne_eq,
      load_some_ne_null g.heap s w0 hs, not_false_eq_true, e2, e3]
    exact hvis
  · simp [q1]
  · simp only; rw [len3, len2, len1]
  · simp only; rw [st3, sl2, st1]
  · simp only; rw [ob3, if_pos rfl]
  · intro b hb1 hb2 hb3
    simp only
    rw [ob3, if_neg hb1, ob2 b hb3, ob1]
    simp [hb1, hb2]
  · intro b hb1 hb2
    simp only
    rw [ob3, if_neg hb1]
    have := mp2 b
    rw [ob1] at this
    simpa [hb1, hb2] using this
  · intro t ht1 ht2
    simp only
    have : h3.load t = h2.load t := by
      cases t with
      | null => rfl
      | stack p => simp [Heap.load, st3]
      | field b k =>
        have hb1 : b ≠ v := fun e => ht1 k (by rw [e])
        simp [Heap.load, ob3, hb1]
    rw [this, ld2]
    by_cases hts : t = s
    · simp [hts]
    · rw [if_neg hts, if_neg hts, ld1 t ht1 ht2]

/-- A value of `g0` has an object number below the length of `g0`. -/
theorem obj_index_lt (h : Heap) (v : Nat) (o : HObj) (ho : h.obj v = some o) :
    indexOf v < h.objs.length := (obj_some h v o ho).2.1

/-- Case of the grey step that leaves the heap as it is but for the slot of
the item taken from the queue, which is then done. -/
theorem GreyInv.settle (R : Nat → Prop) (g0 g g' : GC) (v : Nat) (s : Slot)
    (rest : List GCValue)
    (hR : ∀ v, R v → ∃ o ks, g0.heap.obj v = some o ∧ o.mark = false ∧ 0 < o.fields.length ∧
      o.outgoing = some ks ∧ ∀ k ∈ ks, o.fields.getD k 0 % 2 = 0 ∨ R (o.fields.getD k 0))
    (hroots : ∀ it ∈ g0.grey_items, (∃ p, it.slot = Slot.stack p) ∧
      g0.heap.load it.slot = some it.value ∧ (it.value % 2 = 0 ∨ R it.value))
    (inv : GreyInv R g0 g) (hq : g.grey_items = ⟨v, s⟩ :: rest)
    (hq' : g'.grey_items = rest) (hsp : g'.space = g.space)
    (hlen : g'.heap.objs.length = g.heap.objs.length)
    (hld : ∀ t, t ≠ s → g'.heap.load t = g.heap.load t)
    (hob : ∀ b, (∀ j, s ≠ Slot.field b j) → g'.heap.obj b = g.heap.obj b)
    (hmp : ∀ b, (g'.heap.obj b).map HObj.tag = (g.heap.obj b).map HObj.tag ∧
      (g'.heap.obj b).map HObj.mark = (g.heap.obj b).map HObj.mark ∧
      (g'.heap.obj b).map (fun o => o.fields.length) =
        (g.heap.obj b).map (fun o => o.fields.length))
    (hdone : (v % 2 = 0 → g'.heap.load s = some v) ∧
      (v % 2 = 1 → ∃ f, Forwarded g.heap v f ∧ g'.heap.load s = some f)) :
    GreyInv R g0 g' := by
  have hhead := inv.queue ⟨v, s⟩ (by rw [hq]; exact List.mem_cons_self _ _)
  have hnd := inv.nodup
  rw [hq, List.map_cons, List.nodup_cons] at hnd
  have hsR : ∀ b, R b → ∀ j, s ≠ Slot.field b j := by
    intro b hb j e
    obtain ⟨o, ks, ho, _⟩ := hR b hb
    have h1 := hhead.2.2 b j e
    have h2 := obj_index_lt _ _ _ ho
    omega
  have hfw : ∀ b f, R b → (Forwarded g'.heap b f ↔ Forwarded g.heap b f) := by
    intro b f hb
    unfold Forwarded
    rw [(hmp b).2.1, hld (Slot.field b 0) (fun e => hsR b hb 0 e.symm)]
  have htr : ∀ w t, (w % 2 = 0 ∨ R w) → Tracked g w t → Tracked g' w t := by
    intro w t hw ht
    rcases ht with ht | ⟨h1, h2, h3⟩
    · rw [hq] at ht
      rcases List.mem_cons.mp ht with e | ht'
      · have ew : w = v := congrArg GCValue.value e
        have es : t = s := congrArg GCValue.slot e
        subst ew es
        refine Or.inr ⟨by rw [hq']; exact hnd.1, hdone.1, ?_⟩
        intro hodd
        obtain ⟨f, hf1, hf2⟩ := hdone.2 hodd
        have hRw : R w := by
          rcases hw with hw | hw
          · omega
          · exact hw
        exact ⟨f, (hfw w f hRw).mpr hf1, hf2⟩
      · exact Or.inl (by rw [hq']; exact ht')
    · rw [hq, List.map_cons, List.mem_cons, not_or] at h1
      have hts : t ≠ s := h1.1
      refine Or.inr ⟨by rw [hq']; exact h1.2, ?_, ?_⟩
      · intro hev; rw [hld t hts]; exact h2 hev
      · intro hodd
        obtain ⟨f, hf1, hf2⟩ := h3 hodd
        have hRw : R w := by
          rcases hw with hw | hw
          · omega
          · exact hw
        exact ⟨f, (hfw w f hRw).mpr hf1, by rw [hld t hts]; exact hf2⟩
  refine ⟨by rw [hlen]; exact inv.len, by rw [hsp, hlen]; exact inv.space, ?_, ?_, ?_, ?_, ?_, ?_⟩
  · intro b o hb ho
    obtain ⟨o', h1, h2, h3, h4, h5⟩ := inv.from_same b o hb ho
    refine ⟨o', by rw [hob b (hsR b hb)]; exact h1, h2, h3, h4, ?_⟩
    intro hm
    obtain ⟨j, j1, j2, j3⟩ := h5 hm
    exact ⟨j, j1, by rw [hlen]; exact j2,
      by rw [hld _ (fun e => hsR b hb 0 e.symm)]; exact j3⟩
  · intro j hj1 hj2
    rw [hlen] at hj2
    obtain ⟨b, o, ks, hb, ho, hk, f1, f2, f3, f4, f5⟩ := inv.to_copy j hj1 hj2
    refine ⟨b, o, ks, hb, ho, hk, (hfw b _ hb).mpr f1, by rw [(hmp _).1]; exact f2,
      by rw [(hmp _).2.1]; exact f3, by rw [(hmp _).2.2]; exact f4, ?_⟩
    intro k hkk
    obtain ⟨o2, ks2, ho2, _, _, hk2, hcl⟩ := hR b hb
    rw [ho] at ho2
    cases ho2
    rw [hk] at hk2
    cases hk2
    exact htr _ _ (hcl k hkk) (f5 k hkk)
  · intro b b' f hb hb' h1 h2
    exact inv.inj b b' f hb hb' ((hfw b f hb).mp h1) ((hfw b' f hb').mp h2)
  · intro it hit
    exact htr _ _ (hroots it hit).2.2 (inv.roots it hit)
  · intro it hit
    rw [hq'] at hit
    obtain ⟨h1, h2, h3⟩ := inv.queue it (by rw [hq]; exact List.mem_cons_of_mem _ hit)
    refine ⟨?_, h2, h3⟩
    rw [hld it.slot ?_]
    · exact h1
    · intro e
      have hmem := List.mem_map_of_mem GCValue.slot hit
      rw [e] at hmem
      exact hnd.1 hmem
  · rw [hq']; exact hnd.2

theorem slotItems_mem (a : Nat) (fields ks : List Nat) (it : GCValue) :
    it ∈ slotItems a fields ks ↔ ∃ k ∈ ks, it = ⟨fields.getD k 0, Slot.field a k⟩ := by
  unfold slotItems
  rw [List.mem_map]
  constructor
  · rintro ⟨k, hk, e⟩; exact ⟨k, hk, e.symm⟩
  · rintro ⟨k, hk, e⟩; exact ⟨k, hk, e.symm⟩

theorem slotItems_slots (a : Nat) (fields ks : List Nat) :
    (slotItems a fields ks).map GCValue.slot = ks.map (fun k => Slot.field a k) := by
  unfold slotItems
  rw [List.map_map]
  rfl

/-- Case of the grey step that copies an unmarked value. -/
theorem GreyInv.copy (R : Nat → Prop) (g0 g g' : GC) (v : Nat) (s : Slot)
    (rest : List GCValue) (o c m : HObj) (ks : List Nat)
    (hR : ∀ v, R v → ∃ o ks, g0.heap.obj v = some o ∧ o.mark = false ∧ 0 < o.fields.length ∧
      o.outgoing = some ks ∧ ∀ k ∈ ks, o.fields.getD k 0 % 2 = 0 ∨ R (o.fields.getD k 0))
    (hroots : ∀ it ∈ g0.grey_items, (∃ p, it.slot = Slot.stack p) ∧
      g0.heap.load it.slot = some it.value ∧ (it.value % 2 = 0 ∨ R it.value))
    (inv : GreyInv R g0 g) (hq : g.grey_items = ⟨v, s⟩ :: rest)
    (hRv : R v) (hodd : v % 2 = 1) (ho : g0.heap.obj v = some o) (hk : o.outgoing = some ks)
    (hf : 0 < o.fields.length)
    (hcl : ∀ k ∈ ks, o.fields.getD k 0 % 2 = 0 ∨ R (o.fields.getD k 0))
    (hunm : (g.heap.obj v).map HObj.mark = some false)
    (hq' : g'.grey_items = rest ++ slotItems (addrOf g.heap.objs.length) o.fields ks)
    (hsp : g'.space = g.space ++ [addrOf g.heap.objs.length])
    (hlen : g'.heap.objs.length = g.heap.objs.length + 1)
    (hoa : g'.heap.obj (addrOf g.heap.objs.length) = some c)
    (hc : c.tag = o.tag ∧ c.mark = false ∧ c.fields = o.fields)
    (hov : g'.heap.obj v = some m)
    (hm : m.tag = o.tag ∧ m.mark = true ∧ m.fields = o.fields.set 0 (addrOf g.heap.objs.length))
    (hob : ∀ b, b ≠ v → b ≠ addrOf g.heap.objs.length → (∀ j, s ≠ Slot.field b j) →
      g'.heap.obj b = g.heap.obj b)
    (hmp : ∀ b, b ≠ v → b ≠ addrOf g.heap.objs.length →
      (g'.heap.obj b).map HObj.tag = (g.heap.obj b).map HObj.tag ∧
      (g'.heap.obj b).map HObj.mark = (g.heap.obj b).map HObj.mark ∧
      (g'.heap.obj b).map (fun o => o.fields.length) =
        (g.heap.obj b).map (fun o => o.fields.length))
    (hld : ∀ t, (∀ k, t ≠ Slot.field v k) → (∀ k, t ≠ Slot.field (addrOf g.heap.objs.length) k) →
      g'.heap.load t = if t = s then some (addrOf g.heap.objs.length) else g.heap.load t) :
    GreyInv R g0 g' := by
  have hhead := inv.queue ⟨v, s⟩ (by rw [hq]; exact List.mem_cons_self _ _)
  have hnd := inv.nodup
  rw [hq, List.map_cons, List.nodup_cons] at hnd
  have hfresh : g.heap.obj (addrOf g.heap.objs.length) = none := obj_fresh _ _ (Nat.le_refl _)
  have hn0 := inv.len
  -- addresses of `R` are below the new address and are not the objects of queued slots
  have hRlt : ∀ b, R b → indexOf b < g0.heap.objs.length := by
    intro b hb
    obtain ⟨o, ks, ho, _⟩ := hR b hb
    exact obj_index_lt _ _ _ ho
  have hRa : ∀ b, R b → b ≠ addrOf g.heap.objs.length := by
    intro b hb e
    have := hRlt b hb
    rw [e, indexOf_addrOf] at this
    omega
  have hsR : ∀ b, R b → ∀ j, s ≠ Slot.field b j := by
    intro b hb j e
    have h1 := hhead.2.2 b j e
    have h2 := hRlt b hb
    omega
  have hsa : ∀ j, s ≠ Slot.field (addrOf g.heap.objs.length) j := by
    intro j e
    have h1 := hhead.1
    simp only at h1
    rw [e] at h1
    obtain ⟨o', ho', _⟩ := load_field_some _ _ _ _ h1
    rw [hfresh] at ho'
    cases ho'
  have hlds : g'.heap.load s = some (addrOf g.heap.objs.length) := by
    rw [hld s (hsR v hRv) hsa, if_pos rfl]
  have hfv : Forwarded g'.heap v (addrOf g.heap.objs.length) := by
    refine ⟨by rw [hov]; simp [hm.2.1], ?_⟩
    rw [load_field g'.heap v 0 m hov (by rw [hm.2.2]; simpa using hf), hm.2.2]
    cases hfl : o.fields with
    | nil => rw [hfl] at hf; cases hf
    | cons x xs => simp
  have hfw : ∀ b f, R b → b ≠ v → (Forwarded g'.heap b f ↔ Forwarded g.heap b f) := by
    intro b f hb hbv
    unfold Forwarded
    have hne : Slot.field b 0 ≠ s := fun e => hsR b hb 0 e.symm
    rw [(hmp b hbv (hRa b hb)).2.1,
      hld (Slot.field b 0) (fun k e => hbv (by injection e))
        (fun k e => hRa b hb (by injection e)), if_neg hne]
  have hnv : ∀ f, ¬ Forwarded g.heap v f := by
    intro f hfw'
    have := hfw'.1
    rw [hunm] at this
    cases this
  have hfv' : ∀ f, Forwarded g'.heap v f → f = addrOf g.heap.objs.length := by
    intro f h1
    have := h1.2
    rw [hfv.2] at this
    exact (Option.some.inj this).symm
  have htr : ∀ w t, (w % 2 = 0 ∨ R w) → (∀ k, t ≠ Slot.field v k) →
      (∀ k, t ≠ Slot.field (addrOf g.heap.objs.length) k) → Tracked g w t → Tracked g' w t := by
    intro w t hw htv hta ht
    have hnew : t ∉ (slotItems (addrOf g.heap.objs.length) o.fields ks).map GCValue.slot := by
      rw [slotItems_slots]
      intro hmem
      obtain ⟨k, _, e⟩ := List.mem_map.mp hmem
      exact hta k e.symm
    rcases ht with ht | ⟨h1, h2, h3⟩
    · rw [hq] at ht
      rcases List.mem_cons.mp ht with e | ht'
      · have ew : w = v := congrArg GCValue.value e
        have es : t = s := congrArg GCValue.slot e
        subst ew es
        refine Or.inr ⟨?_, fun hev => by omega, fun _ => ⟨_, hfv, hlds⟩⟩
        rw [hq', List.map_append, List.mem_append, not_or]
        exact ⟨hnd.1, hnew⟩
      · exact Or.inl (by rw [hq']; exact List.mem_append_left _ ht')
    · rw [hq, List.map_cons, List.mem_cons, not_or] at h1
      have hts : t ≠ s := h1.1
      have hl : g'.heap.load t = g.heap.load t := by rw [hld t htv hta, if_neg hts]
      refine Or.inr ⟨?_, ?_, ?_⟩
      · rw [hq', List.map_append, List.mem_append, not_or]
        exact ⟨h1.2, hnew⟩
      · intro hev; rw [hl]; exact h2 hev
      · intro hodd'
        obtain ⟨f, hf1, hf2⟩ := h3 hodd'
        have hRw : R w := by
          rcases hw with hw | hw
          · omega
          · exact hw
        have hwv : w ≠ v := fun e => hnv f (e ▸ hf1)
        exact ⟨f, (hfw w f hRw hwv).mpr hf1, by rw [hl]; exact hf2⟩
  refine ⟨by rw [hlen]; omega, ?_, ?_, ?_, ?_, ?_, ?_, ?_⟩
  · rw [hsp, inv.space, hlen, List.append_assoc]
    congr 1
    have e1 : g.heap.objs.length + 1 - g0.heap.objs.length =
        (g.heap.objs.length - g0.heap.objs.length) + 1 := by omega
    rw [e1, List.range'_concat, List.map_append]
    simp only [List.map_cons, List.map_nil, Nat.one_mul]
    congr 3
    omega
  · intro b o2 hb ho2
    by_cases hbv : b = v
    · subst hbv
      rw [ho] at ho2
      cases ho2
      refine ⟨m, hov, hm.1, (by rw [hm.2.2]; simp), (fun h => by rw [hm.2.1] at h; cases h), ?_⟩
      intro _
      exact ⟨g.heap.objs.length, hn0, by rw [hlen]; omega, hfv.2⟩
    · obtain ⟨o', h1, h2, h3, h4, h5⟩ := inv.from_same b o2 hb ho2
      refine ⟨o', by rw [hob b hbv (hRa b hb) (hsR b hb)]; exact h1, h2, h3, h4, ?_⟩
      intro hmk
      obtain ⟨j, j1, j2, j3⟩ := h5 hmk
      refine ⟨j, j1, by rw [hlen]; omega, ?_⟩
      rw [hld (Slot.field b 0) (fun k e => hbv (by injection e))
        (fun k e => hRa b hb (by injection e)), if_neg (fun e => hsR b hb 0 e.symm)]
      exact j3
  · intro j hj1 hj2
    rw [hlen] at hj2
    by_cases hj : j = g.heap.objs.length
    · subst hj
      refine ⟨v, o, ks, hRv, ho, hk, hfv, by rw [hoa]; simp [hc.1], by rw [hoa]; simp [hc.2.1],
        by rw [hoa]; simp [hc.2.2], ?_⟩
      intro k hkk
      refine Or.inl ?_
      rw [hq']
      exact List.mem_append_right _ ((slotItems_mem _ _ _ _).mpr ⟨k, hkk, rfl⟩)
    · have hj2' : j < g.heap.objs.length := by omega
      obtain ⟨b, o2, ks2, hb, ho2, hk2, f1, f2, f3, f4, f5⟩ := inv.to_copy j hj1 hj2'
      have hbv : b ≠ v := fun e => hnv _ (e ▸ f1)
      have hjv : addrOf j ≠ v := by
        intro e
        have := hRlt v hRv
        rw [← e, indexOf_addrOf] at this
        omega
      have hja : addrOf j ≠ addrOf g.heap.objs.length := fun e => hj (addrOf_inj e)
      refine ⟨b, o2, ks2, hb, ho2, hk2, (hfw b _ hb hbv).mpr f1,
        by rw [(hmp _ hjv hja).1]; exact f2, by rw [(hmp _ hjv hja).2.1]; exact f3,
        by rw [(hmp _ hjv hja).2.2]; exact f4, ?_⟩
      intro k hkk
      obtain ⟨o3, ks3, ho3, _, _, hk3, hcl3⟩ := hR b hb
      rw [ho2] at ho3
      cases ho3
      rw [hk2] at hk3
      cases hk3
      exact htr _ _ (hcl3 k hkk) (fun k' e => hjv (by injection e))
        (fun k' e => hja (by injection e)) (f5 k hkk)
  · intro b b' f hb hb' h1 h2
    by_cases hbv : b = v
    · by_cases hbv' : b' = v
      · rw [hbv, hbv']
      · exfalso
        subst hbv
        have e := hfv' f h1
        subst e
        have h3 := (hfw b' _ hb' hbv').mp h2
        obtain ⟨o2, ks2, ho2, _⟩ := hR b' hb'
        obtain ⟨o', g1, _, _, _, g5⟩ := inv.from_same b' o2 hb' ho2
        have hmk : o'.mark = true := by
          have := h3.1
          rw [g1] at this
          simpa using this
        obtain ⟨j, _, j2, j3⟩ := g5 hmk
        rw [h3.2] at j3
        have := addrOf_inj (Option.some.inj j3)
        omega
    · by_cases hbv' : b' = v
      · exfalso
        subst hbv'
        have e := hfv' f h2
        subst e
        have h3 := (hfw b _ hb hbv).mp h1
        obtain ⟨o2, ks2, ho2, _⟩ := hR b hb
        obtain ⟨o', g1, _, _, _, g5⟩ := inv.from_same b o2 hb ho2
        have hmk : o'.mark = true := by
          have := h3.1
          rw [g1] at this
          simpa using this
        obtain ⟨j, _, j2, j3⟩ := g5 hmk
        rw [h3.2] at j3
        have := addrOf_inj (Option.some.inj j3)
        omega
      · exact inv.inj b b' f hb hb' ((hfw b f hb hbv).mp h1) ((hfw b' f hb' hbv').mp h2)
  · intro it hit
    obtain ⟨⟨p, hp⟩, _, hval⟩ := hroots it hit
    exact htr _ _ hval (fun k e => by rw [hp] at e; cases e)
      (fun k e => by rw [hp] at e; cases e) (inv.roots it hit)
  · intro it hit
    rw [hq'] at hit
    rcases List.mem_append.mp hit with hit | hit
    · obtain ⟨h1, h2, h3⟩ := inv.queue it (by rw [hq]; exact List.mem_cons_of_mem _ hit)
      refine ⟨?_, h2, h3⟩
      have hne : it.slot ≠ s := by
        intro e
        have hmem := List.mem_map_of_mem GCValue.slot hit
        rw [e] at hmem
        exact hnd.1 hmem
      have htv : ∀ k, it.slot ≠ Slot.field v k := by
        intro k e
        have := h3 v k e
        have := hRlt v hRv
        omega
      have hta : ∀ k, it.slot ≠ Slot.field (addrOf g.heap.objs.length) k := by
        intro k e
        rw [e] at h1
        obtain ⟨o', ho', _⟩ := load_field_some _ _ _ _ h1
        rw [hfresh] at ho'
        cases ho'
      rw [hld it.slot htv hta, if_neg hne]
      exact h1
    · obtain ⟨k, hkk, e⟩ := (slotItems_mem _ _ _ _).mp hit
      subst e
      have hkl := (outgoing_spec o ks hk).2 k hkk
      refine ⟨?_, hcl k hkk, ?_⟩
      · simp only
        rw [load_field g'.heap _ k c hoa (by rw [hc.2.2]; exact hkl), hc.2.2]
      · intro b k' e
        simp only at e
        injection e with e1 e2
        rw [← e1, indexOf_addrOf]
        exact hn0
  · rw [hq', List.map_append, List.nodup_append]
    refine ⟨hnd.2, ?_, ?_⟩
    · rw [slotItems_slots]
      exact (outgoing_spec o ks hk).1.map (fun a b e => by injection e)
    · intro t ht1 ht2
      rw [slotItems_slots] at ht2
      obtain ⟨k, _, e⟩ := List.mem_map.mp ht2
      obtain ⟨it, hit, e2⟩ := List.mem_map.mp ht1
      have h1 := (inv.queue it (by rw [hq]; exact List.mem_cons_of_mem _ hit)).1
      rw [e2, ← e] at h1
      obtain ⟨o', ho', _⟩ := load_field_some _ _ _ _ h1
      rw [hfresh] at ho'
      cases ho'

theorem sum_range_change (f f' : Nat → Nat) (n i0 : Nat) (hi : i0 < n)
    (h : ∀ i, i < n → i ≠ i0 → f' i = f i) :
    ((List.range n).map f').sum + f i0 = ((List.range n).map f).sum + f' i0 := by
  induction n with
  | zero => cases hi
  | succ n ih =>
    rw [List.range_succ, List.map_append, List.map_append, List.sum_append, List.sum_append]
    simp only [List.map_cons, List.map_nil, List.sum_cons, List.sum_nil, Nat.add_zero]
    by_cases hn : i0 = n
    · subst hn
      have : (List.range i0).map f' = (List.range i0).map f := by
        apply List.map_congr_left
        intro i hi'
        have := List.mem_range.mp hi'
        exact h i (by omega) (by omega)
      rw [this]
      omega
    · have := ih (by omega) (fun i hi' hne => h i (by omega) hne)
      have := h n (by omega) (fun e => hn e.symm)
      omega

theorem sum_range_same (f f' : Nat → Nat) (n : Nat) (h : ∀ i, i < n → f' i = f i) :
    ((List.range n).map f').sum = ((List.range n).map f).sum := by
  congr 1
  apply List.map_congr_left
  intro i hi
  exact h i (List.mem_range.mp hi)

theorem greyMeasure_settle (g0 g g' : GC) (it : GCValue) (rest : List GCValue)
    (hq : g.grey_items = it :: rest) (hq' : g'.grey_items = rest)
    (hmp : ∀ b, (g'.heap.obj b).map HObj.mark = (g.heap.obj b).map HObj.mark) :
    greyMeasure g0 g' < greyMeasure g0 g := by
  unfold greyMeasure
  rw [hq, hq', sum_range_same (greyPending g0 g) (greyPending g0 g') _
    (fun i _ => by unfold greyPending; rw [hmp])]
  simp

theorem greyMeasure_copy (g0 g g' : GC) (v : Nat) (s : Slot) (rest : List GCValue)
    (o m : HObj) (ks : List Nat) (fields : List Nat)
    (hn0 : g0.heap.objs.length ≤ g.heap.objs.length)
    (hq : g.grey_items = ⟨v, s⟩ :: rest) (ho : g0.heap.obj v = some o)
    (hk : o.outgoing = some ks)
    (hunm : (g.heap.obj v).map HObj.mark = some false)
    (hq' : g'.grey_items = rest ++ slotItems (addrOf g.heap.objs.length) fields ks)
    (hov : g'.heap.obj v = some m) (hm : m.mark = true)
    (hmp : ∀ b, b ≠ v → b ≠ addrOf g.heap.objs.length →
      (g'.heap.obj b).map HObj.mark = (g.heap.obj b).map HObj.mark) :
    greyMeasure g0 g' < greyMeasure g0 g := by
  obtain ⟨hva, hlt, _⟩ := obj_some _ _ _ ho
  have h1 := sum_range_change (greyPending g0 g) (greyPending g0 g') g0.heap.objs.length
    (indexOf v) hlt (by
      intro i hi hne
      unfold greyPending
      rw [hmp (addrOf i) (fun e => hne (by rw [← e, indexOf_addrOf]))
        (fun e => by have := addrOf_inj e; omega)])
  have h2 : greyPending g0 g (indexOf v) = 1 + ks.length := by
    unfold greyPending
    rw [← hva, hunm, if_pos rfl, ho]
    simp [hk]
  have h3 : greyPending g0 g' (indexOf v) = 0 := by
    unfold greyPending
    rw [← hva, hov]
    simp [hm]
  unfold greyMeasure
  rw [hq, hq']
  simp only [List.length_append, List.length_cons, slotItems, List.length_map]
  omega

/-- One turn of the grey loop keeps the invariant and lowers the measure. -/
theorem GreyInv.step (R : Nat → Prop) (g0 g : GC) (v : Nat) (s : Slot) (rest : List GCValue)
    (hR : ∀ v, R v → ∃ o ks, g0.heap.obj v = some o ∧ o.mark = false ∧ 0 < o.fields.length ∧
      o.outgoing = some ks ∧ ∀ k ∈ ks, o.fields.getD k 0 % 2 = 0 ∨ R (o.fields.getD k 0))
    (hroots : ∀ it ∈ g0.grey_items, (∃ p, it.slot = Slot.stack p) ∧
      g0.heap.load it.slot = some it.value ∧ (it.value % 2 = 0 ∨ R it.value))
    (inv : GreyInv R g0 g) (hq : g.grey_items = ⟨v, s⟩ :: rest) :
    ∃ g', GC.greyStep { g with grey_items := rest } ⟨v, s⟩ = some g' ∧ GreyInv R g0 g' ∧
      greyMeasure g0 g' < greyMeasure g0 g := by
  have hhead := inv.queue ⟨v, s⟩ (by rw [hq]; exact List.mem_cons_self _ _)
  simp only at hhead
  by_cases hev : v % 2 = 0
  · refine ⟨{ g with grey_items := rest }, greyStep_unboxed _ v s hev, ?_, ?_⟩
    · exact GreyInv.settle R g0 g _ v s rest hR hroots inv hq rfl rfl rfl (fun _ _ => rfl)
        (fun _ _ => rfl) (fun _ => ⟨rfl, rfl, rfl⟩) ⟨fun _ => hhead.1, fun h => by omega⟩
    · exact greyMeasure_settle g0 g _ _ rest hq rfl (fun _ => rfl)
  · have hodd : v % 2 = 1 := by omega
    have hRv : R v := by
      rcases hhead.2.1 with h | h
      · exact absurd h hev
      · exact h
    obtain ⟨o, ks, ho, _, hf, hk, hcl⟩ := hR v hRv
    obtain ⟨o', ho', ht, hl, hunm, hmk⟩ := inv.from_same v o hRv ho
    have hsv : ∀ j, s ≠ Slot.field v j := by
      intro j e
      have h1 := hhead.2.2 v j e
      have h2 := obj_index_lt _ _ _ ho
      omega
    by_cases hmark : o'.mark = true
    · obtain ⟨g', e, q, sp, len, _, ld, ob, mp⟩ :=
        greyStep_forward { g with grey_items := rest } v v s o' hodd ho' hmark
          (by rw [hl]; exact hf) hhead.1 hsv
      refine ⟨g', e, ?_, ?_⟩
      · refine GreyInv.settle R g0 g g' v s rest hR hroots inv hq q sp len
          (fun t ht' => by rw [ld t, if_neg ht']) ob mp ⟨fun h => by omega, fun _ => ?_⟩
        refine ⟨o'.fields.getD 0 0, ⟨by rw [ho']; simp [hmark], ?_⟩, by rw [ld s, if_pos rfl]⟩
        exact load_field g.heap v 0 o' ho' (by rw [hl]; exact hf)
      · exact greyMeasure_settle g0 g g' _ rest hq q (fun b => (mp b).2.1)
    · have hm0 : o'.mark = false := by simpa using hmark
      have hfe := hunm hm0
      have hk' : o'.outgoing = some ks := (outgoing_congr o o' ht hfe).trans hk
      obtain ⟨g', e, q, sp, len, _, oa, ov, ob, mp, ld⟩ :=
        greyStep_copy { g with grey_items := rest } v v s o' ks hodd ho' hm0
          (by rw [hl]; exact hf) hk' hhead.1 hsv
      simp only at q sp len oa ov ob mp ld
      rw [hfe] at q ov
      refine ⟨g', e, ?_, ?_⟩
      · exact GreyInv.copy R g0 g g' v s rest o _ _ ks hR hroots inv hq hRv hodd ho hk hf hcl
          (by rw [ho']; simp [hm0]) q sp len oa ⟨ht, hm0, hfe⟩ ov ⟨ht, rfl, rfl⟩ ob mp ld
      · exact greyMeasure_copy g0 g g' v s rest o _ ks o.fields inv.len hq ho hk
          (by rw [ho']; simp [hm0]) q ov rfl (fun b h1 h2 => (mp b h1 h2).2.1)

/-- The grey loop, given enough fuel, returns with an empty queue and keeps
the invariant. -/
theorem greyLoop_inv (R : Nat → Prop) (g0 : GC)
    (hR : ∀ v, R v → ∃ o ks, g0.heap.obj v = some o ∧ o.mark = false ∧ 0 < o.fields.length ∧
      o.outgoing = some ks ∧ ∀ k ∈ ks, o.fields.getD k 0 % 2 = 0 ∨ R (o.fields.getD k 0))
    (hroots : ∀ it ∈ g0.grey_items, (∃ p, it.slot = Slot.stack p) ∧
      g0.heap.load it.slot = some it.value ∧ (it.value % 2 = 0 ∨ R it.value)) :
    ∀ fuel g, GreyInv R g0 g → greyMeasure g0 g < fuel →
      ∃ g', GC.greyLoop fuel g = some g' ∧ GreyInv R g0 g' ∧ g'.grey_items = [] := by
  intro fuel
  induction fuel with
  | zero => intro g _ h; cases h
  | succ fuel ih =>
    intro g inv hlt
    unfold GC.greyLoop
    cases hq : g.grey_items with
    | nil => exact ⟨g, rfl, inv, hq⟩
    | cons it rest =>
      obtain ⟨g1, e1, inv1, hm1⟩ := GreyInv.step R g0 g it.value it.slot rest hR hroots inv hq
      obtain ⟨g', e', inv', hq'⟩ := ih g1 inv1 (by omega)
      refine ⟨g', ?_, inv', hq'⟩
      simp only
      rw [e1]
      exact e'

theorem GreyInv.at_start (R : Nat → Prop) (g0 : GC)
    (hR : ∀ v, R v → ∃ o ks, g0.heap.obj v = some o ∧ o.mark = false ∧ 0 < o.fields.length ∧
      o.outgoing = some ks ∧ ∀ k ∈ ks, o.fields.getD k 0 % 2 = 0 ∨ R (o.fields.getD k 0))
    (hroots : ∀ it ∈ g0.grey_items, (∃ p, it.slot = Slot.stack p) ∧
      g0.heap.load it.slot = some it.value ∧ (it.value % 2 = 0 ∨ R it.value))
    (hnodup : (g0.grey_items.map GCValue.slot).Nodup) : GreyInv R g0 g0 := by
  have hunm : ∀ v f, R v → ¬ Forwarded g0.heap v f := by
    intro v f hv h
    obtain ⟨o, ks, ho, hm, _⟩ := hR v hv
    have := h.1
    rw [ho] at this
    simp [hm] at this
  refine ⟨Nat.le_refl _, by simp, ?_, ?_, ?_, ?_, ?_, hnodup⟩
  · intro v o hv ho
    obtain ⟨o2, ks, ho2, hm, _⟩ := hR v hv
    rw [ho] at ho2
    cases ho2
    exact ⟨o, ho, rfl, rfl, fun _ => rfl, fun h => by rw [hm] at h; cases h⟩
  · intro j h1 h2
    omega
  · intro v v' f hv _ h _
    exact absurd h (hunm v f hv)
  · intro it hit
    exact Or.inl hit
  · intro it hit
    obtain ⟨⟨p, hp⟩, h1, h2⟩ := hroots it hit
    exact ⟨h1, h2, fun b k e => by rw [hp] at e; cases e⟩

/-- Copy-once and forwarding for values that are heap objects. First, one grey
step on an item whose
value is a live boxed value and whose slot is readable and is not a word of
that value: if the value is marked, the slot gets the recorded forward
pointer and nothing is allocated or queued; if it is not marked, it is copied
to a fresh address of the temporary space, it is marked with that address as
forward pointer, the slot gets that address, and the outgoing slots of the
copy are queued. Second, the whole loop, started on a queue of distinct stack
slots that hold the queued values, over a set `R` of unmarked values closed
under the slots the collector follows: the loop returns with an empty queue;
the values it allocated are exactly the contents it added to the temporary
space; every one of them is the copy of exactly one value of `R`, which is
marked and forwards to it, and each outgoing slot of the copy holds the
forward pointer of the value it held (or the unboxed word it held); every
marked value of `R` forwards to one of them; every queued stack slot holds the
forward pointer of its value; so two queued slots with the same value hold the
same new address. -/
theorem greyLoop_copies_once (R : Nat → Prop) (g0 : GC)
    (hR : ∀ v, R v → ∃ o ks, g0.heap.obj v = some o ∧ o.mark = false ∧ 0 < o.fields.length ∧
      o.outgoing = some ks ∧ ∀ k ∈ ks, o.fields.getD k 0 % 2 = 0 ∨ R (o.fields.getD k 0))
    (hroots : ∀ it ∈ g0.grey_items, (∃ p, it.slot = Slot.stack p) ∧
      g0.heap.load it.slot = some it.value ∧ (it.value % 2 = 0 ∨ R it.value))
    (hnodup : (g0.grey_items.map GCValue.slot).Nodup) :
    (∀ (g : GC) (v w0 : Nat) (s : Slot) (o : HObj), v % 2 = 1 → g.heap.obj v = some o →
      0 < o.fields.length → g.heap.load s = some w0 → (∀ j, s ≠ Slot.field v j) →
      (o.mark = true → ∃ g', g.greyStep ⟨v, s⟩ = some g' ∧
        g'.heap.load s = some (o.fields.getD 0 0) ∧ g'.grey_items = g.grey_items ∧
        g'.space = g.space ∧ g'.heap.objs.length = g.heap.objs.length) ∧
      (o.mark = false → ∀ ks, o.outgoing = some ks → ∃ g', g.greyStep ⟨v, s⟩ = some g' ∧
        g.heap.obj (addrOf g.heap.objs.length) = none ∧
        g'.heap.obj (addrOf g.heap.objs.length) =
          some { o with generation := (o.generation + 1) % 256 } ∧
        g'.space = g.space ++ [addrOf g.heap.objs.length] ∧
        Forwarded g'.heap v (addrOf g.heap.objs.length) ∧
        g'.heap.load s = some (addrOf g.heap.objs.length) ∧
        g'.grey_items = g.grey_items ++ slotItems (addrOf g.heap.objs.length) o.fields ks)) ∧
    ∃ fuel g, GC.greyLoop fuel g0 = some g ∧ g.grey_items = [] ∧
      g.space = g0.space ++
        (List.range' g0.heap.objs.length (g.heap.objs.length - g0.heap.objs.length)).map addrOf ∧
      (∀ j, g0.heap.objs.length ≤ j → j < g.heap.objs.length →
        ∃ v o ks, R v ∧ g0.heap.obj v = some o ∧ o.outgoing = some ks ∧
          Forwarded g.heap v (addrOf j) ∧
          (∀ v', R v' → Forwarded g.heap v' (addrOf j) → v' = v) ∧
          (g.heap.obj (addrOf j)).map HObj.tag = some o.tag ∧
          ∀ k ∈ ks,
            (o.fields.getD k 0 % 2 = 0 →
              g.heap.load (Slot.field (addrOf j) k) = some (o.fields.getD k 0)) ∧
            (o.fields.getD k 0 % 2 = 1 → ∃ f, Forwarded g.heap (o.fields.getD k 0) f ∧
              g.heap.load (Slot.field (addrOf j) k) = some f)) ∧
      (∀ v, R v → (g.heap.obj v).map HObj.mark = some true →
        ∃ j, g0.heap.objs.length ≤ j ∧ j < g.heap.objs.length ∧ Forwarded g.heap v (addrOf j)) ∧
      (∀ it ∈ g0.grey_items,
        (it.value % 2 = 0 → g.heap.load it.slot = some it.value) ∧
        (it.value % 2 = 1 → ∃ f, Forwarded g.heap it.value f ∧ g.heap.load it.slot = some f)) ∧
      (∀ it ∈ g0.grey_items, ∀ it' ∈ g0.grey_items, it.value = it'.value →
        g.heap.load it.slot = g.heap.load it'.slot) := by
  constructor
  · intro g v w0 s o hodd ho hf hs hsv
    constructor
    · intro hm
      obtain ⟨g', e, q, sp, len, _, ld, _, _⟩ := greyStep_forward g v w0 s o hodd ho hm hf hs hsv
      exact ⟨g', e, by rw [ld s, if_pos rfl], q, sp, len⟩
    · intro hm ks hk
      obtain ⟨g', e, q, sp, _, _, oa, ov, _, _, ld⟩ := greyStep_copy g v w0 s o ks hodd ho hm hf hk hs hsv
      have hfresh : g.heap.obj (addrOf g.heap.objs.length) = none := obj_fresh _ _ (Nat.le_refl _)
      have hsa : ∀ j, s ≠ Slot.field (addrOf g.heap.objs.length) j := by
        intro j e'
        rw [e'] at hs
        obtain ⟨o', ho', _⟩ := load_field_some _ _ _ _ hs
        rw [hfresh] at ho'
        cases ho'
      refine ⟨g', e, hfresh, oa, sp, ⟨by rw [ov]; rfl, ?_⟩, by rw [ld s hsv hsa, if_pos rfl], q⟩
      rw [load_field g'.heap v 0 _ ov (by simpa using hf)]
      cases hfl : o.fields with
      | nil => rw [hfl] at hf; cases hf
      | cons x xs => simp
  · obtain ⟨g, e, inv, hq⟩ := greyLoop_inv R g0 hR hroots (greyMeasure g0 g0 + 1) g0
      (GreyInv.at_start R g0 hR hroots hnodup) (Nat.lt_succ_self _)
    have hdone : ∀ w s, Tracked g w s →
        (w % 2 = 0 → g.heap.load s = some w) ∧
        (w % 2 = 1 → ∃ f, Forwarded g.heap w f ∧ g.heap.load s = some f) := by
      intro w s h
      rcases h with h | h
      · rw [hq] at h; cases h
      · exact h.2
    refine ⟨_, g, e, hq, inv.space, ?_, ?_, fun it hit => hdone _ _ (inv.roots it hit), ?_⟩
    · intro j h1 h2
      obtain ⟨v, o, ks, hv, ho, hk, f1, f2, _, _, f5⟩ := inv.to_copy j h1 h2
      exact ⟨v, o, ks, hv, ho, hk, f1, fun v' hv' h' => inv.inj v' v _ hv' hv h' f1, f2,
        fun k hkk => hdone _ _ (f5 k hkk)⟩
    · intro v hv hm
      obtain ⟨o, ks, ho, _⟩ := hR v hv
      obtain ⟨o', ho', _, _, _, h5⟩ := inv.from_same v o hv ho
      have hmk : o'.mark = true := by
        rw [ho'] at hm
        simpa using hm
      obtain ⟨j, j1, j2, j3⟩ := h5 hmk
      exact ⟨j, j1, j2, hm, j3⟩
    · intro it hit it' hit' hval
      have h1 := hdone _ _ (inv.roots it hit)
      have h2 := hdone _ _ (inv.roots it' hit')
      rw [← hval] at h2
      by_cases hev : it.value % 2 = 0
      · rw [h1.1 hev, h2.1 hev]
      · have hodd : it.value % 2 = 1 := by omega
        obtain ⟨f, f1, f2⟩ := h1.2 hodd
        obtain ⟨f', f1', f2'⟩ := h2.2 hodd
        have : f = f' := by
          have := f1.2
          rw [f1'.2] at this
          exact (Option.some.inj this).symm
        rw [f2, f2', this]

theorem shareSet_closed : ∀ v, shareSet v → ∃ o ks, shareSample.heap.obj v = some o ∧
    o.mark = false ∧ 0 < o.fields.length ∧ o.outgoing = some ks ∧
    ∀ k ∈ ks, o.fields.getD k 0 % 2 = 0 ∨ shareSet (o.fields.getD k 0) := by
  intro v hv
  unfold shareSet at hv
  simp only [List.mem_cons, List.mem_singleton, List.not_mem_nil, or_false] at hv
  rcases hv with rfl | rfl | rfl
  · exact ⟨⟨kTagMap, 0, 0, false, [1, HNil.New, HNil.New]⟩, [], by decide, rfl, by decide,
      by decide, fun k hk => by cases hk⟩
  · refine ⟨⟨kTagObject, 0, 0, false, [0, addrOf 0]⟩, [1], by decide, rfl, by decide,
      by decide, fun k hk => ?_⟩
    rw [List.mem_singleton] at hk
    subst hk
    exact Or.inr (by unfold shareSet; decide)
  · refine ⟨⟨kTagObject, 0, 0, false, [0, addrOf 0]⟩, [1], by decide, rfl, by decide,
      by decide, fun k hk => ?_⟩
    rw [List.mem_singleton] at hk
    subst hk
    exact Or.inr (by unfold shareSet; decide)

theorem shareSample_roots : ∀ it ∈ shareSample.grey_items, (∃ p, it.slot = Slot.stack p) ∧
    shareSample.heap.load it.slot = some it.value ∧ (it.value % 2 = 0 ∨ shareSet it.value) := by
  intro it hit
  simp only [shareSample, List.mem_cons, List.mem_singleton, List.not_mem_nil, or_false] at hit
  rcases hit with rfl | rfl | rfl
  · exact ⟨⟨_, rfl⟩, by decide, Or.inr (by unfold shareSet; decide)⟩
  · exact ⟨⟨_, rfl⟩, by decide, Or.inr (by unfold shareSet; decide)⟩
  · exact ⟨⟨_, rfl⟩, by decide, Or.inr (by unfold shareSet; decide)⟩

/-- The copy-once theorem applied to `shareSample`. -/
theorem greyLoop_copies_once_witness :
    (∀ v, shareSet v → ∃ o ks, shareSample.heap.obj v = some o ∧ o.mark = false ∧
      0 < o.fields.length ∧ o.outgoing = some ks ∧
      ∀ k ∈ ks, o.fields.getD k 0 % 2 = 0 ∨ shareSet (o.fields.getD k 0)) ∧
    (∀ it ∈ shareSample.grey_items, (∃ p, it.slot = Slot.stack p) ∧
      shareSample.heap.load it.slot = some it.value ∧ (it.value % 2 = 0 ∨ shareSet it.value)) ∧
    (shareSample.grey_items.map GCValue.slot).Nodup ∧
    ((∀ (g : GC) (v w0 : Nat) (s : Slot) (o : HObj), v % 2 = 1 → g.heap.obj v = some o →
      0 < o.fields.length → g.heap.load s = some w0 → (∀ j, s ≠ Slot.field v j) →
      (o.mark = true → ∃ g', g.greyStep ⟨v, s⟩ = some g' ∧
        g'.heap.load s = some (o.fields.getD 0 0) ∧ g'.grey_items = g.grey_items ∧
        g'.space = g.space ∧ g'.heap.objs.length = g.heap.objs.length) ∧
      (o.mark = false → ∀ ks, o.outgoing = some ks → ∃ g', g.greyStep ⟨v, s⟩ = some g' ∧
        g.heap.obj (addrOf g.heap.objs.length) = none ∧
        g'.heap.obj (addrOf g.heap.objs.length) =
          some { o with generation := (o.generation + 1) % 256 } ∧
        g'.space = g.space ++ [addrOf g.heap.objs.length] ∧
        Forwarded g'.heap v (addrOf g.heap.objs.length) ∧
        g'.heap.load s = some (addrOf g.heap.objs.length) ∧
        g'.grey_items = g.grey_items ++ slotItems (addrOf g.heap.objs.length) o.fields ks)) ∧
    ∃ fuel g, GC.greyLoop fuel shareSample = some g ∧ g.grey_items = [] ∧
      g.space = shareSample.space ++
        (List.range' shareSample.heap.objs.length (g.heap.objs.length - shareSample.heap.objs.length)).map addrOf ∧
      (∀ j, shareSample.heap.objs.length ≤ j → j < g.heap.objs.length →
        ∃ v o ks, shareSet v ∧ shareSample.heap.obj v = some o ∧ o.outgoing = some ks ∧
          Forwarded g.heap v (addrOf j) ∧
          (∀ v', shareSet v' → Forwarded g.heap v' (addrOf j) → v' = v) ∧
          (g.heap.obj (addrOf j)).map HObj.tag = some o.tag ∧
          ∀ k ∈ ks,
            (o.fields.getD k 0 % 2 = 0 →
              g.heap.load (Slot.field (addrOf j) k) = some (o.fields.getD k 0)) ∧
            (o.fields.getD k 0 % 2 = 1 → ∃ f, Forwarded g.heap (o.fields.getD k 0) f ∧
              g.heap.load (Slot.field (addrOf j) k) = some f)) ∧
      (∀ v, shareSet v → (g.heap.obj v).map HObj.mark = some true →
        ∃ j, shareSample.heap.objs.length ≤ j ∧ j < g.heap.objs.length ∧ Forwarded g.heap v (addrOf j)) ∧
      (∀ it ∈ shareSample.grey_items,
        (it.value % 2 = 0 → g.heap.load it.slot = some it.value) ∧
        (it.value % 2 = 1 → ∃ f, Forwarded g.heap it.value f ∧ g.heap.load it.slot = some f)) ∧
      (∀ it ∈ shareSample.grey_items, ∀ it' ∈ shareSample.grey_items, it.value = it'.value →
        g.heap.load it.slot = g.heap.load it'.slot)) :=
  ⟨shareSet_closed, shareSample_roots, by decide,
    greyLoop_copies_once shareSet shareSample shareSet_closed shareSample_roots (by decide)⟩

/-! ## The tags `GC::VisitValue` handles and the frame marker -/

/-- `GC::VisitValue` has no case for a tag outside Context, Function, Object,
Map, String, Number and Boolean: the `default` branch is reached. -/
theorem VisitValue_default (g : GC) (value tag : Nat)
    (ht : g.heap.GetTag value = some tag)
    (h1 : tag ≠ kTagContext) (h2 : tag ≠ kTagFunction) (h3 : tag ≠ kTagObject)
    (h4 : tag ≠ kTagMap) (h5 : tag ≠ kTagString) (h6 : tag ≠ kTagNumber)
    (h7 : tag ≠ kTagBoolean) : GC.VisitValue g value = none := by
  unfold GC.VisitValue
  rw [ht]
  simp [h1, h2, h3, h4, h5, h6, h7]

/-- A collection that finds the array of `arraySample` on the stack never
completes, whatever the bound on the loops. -/
theorem CollectGarbage_array_aborts (fuel : Nat) :
    GC.CollectGarbage fuel arraySample 1 = none := by
  match fuel with
  | 0 => rfl
  | 1 => rfl
  | 2 => rfl
  | n + 3 => rfl

/-- C11 (refuted by the code): `GC::VisitValue` does not complete for a value
whose tag is Array or CData: it reaches the `default` branch of the switch and
pushes nothing. -/
theorem VisitValue_aborts_on_array_and_cdata (g : GC) (value : Nat)
    (h : g.heap.GetTag value = some kTagArray ∨ g.heap.GetTag value = some kTagCData) :
    GC.VisitValue g value = none := by
  rcases h with h | h
  · exact VisitValue_default g value _ h (by decide) (by decide) (by decide) (by decide)
      (by decide) (by decide) (by decide)
  · exact VisitValue_default g value _ h (by decide) (by decide) (by decide) (by decide)
      (by decide) (by decide) (by decide)

theorem VisitValue_aborts_on_array_and_cdata_witness :
    arraySample.heap.GetTag (addrOf 1) = some kTagArray ∧
    GC.VisitValue arraySample (addrOf 1) = none :=
  ⟨by decide, VisitValue_aborts_on_array_and_cdata arraySample (addrOf 1) (Or.inl (by decide))⟩

/-- C12 (refuted by the code): the stack walk compares with the literal
`0xFEEEDBEE`, not with `Heap::kEnterFrameTag`: in `frameSample` the word
`0xFEEDBEEE` at address 1 is scanned as a value and the walk goes on to the
object at address 3, and the word `0xFEEEDBEE` at address 4 ends the walk. -/
theorem walkStack_sentinel_is_not_kEnterFrameTag :
    kEnterFrameTag = 0xFEEDBEEE ∧
    frameSample.heap.stack[1]? = some kEnterFrameTag ∧
    frameSample.heap.stack[2]? = some 0 ∧
    GC.skipFrames frameSample.heap 10 1 = some 1 ∧
    GC.walkStack frameSample.heap 10 1 [] = some [⟨addrOf 1, Slot.stack 3⟩] ∧
    frameSample.heap.stack[4]? = some 0xFEEEDBEE ∧
    GC.skipFrames frameSample.heap 10 4 = some 0 := by
  refine ⟨rfl, rfl, rfl, ?_, ?_, rfl, ?_⟩ <;> decide

/-! ## Words, signed readings and the tagging of small integers -/

theorem two_pow_pred_int (bits : Nat) (hb : 1 ≤ bits) :
    (2 : Int) ^ bits = 2 * 2 ^ (bits - 1) := by
  obtain ⟨k, rfl⟩ : ∃ k, bits = k + 1 := ⟨bits - 1, by omega⟩
  simp [pow_succ]
  ring

theorem two_pow_pred_nat (bits : Nat) (hb : 1 ≤ bits) :
    (2 : Nat) ^ bits = 2 * 2 ^ (bits - 1) := by
  obtain ⟨k, rfl⟩ : ∃ k, bits = k + 1 := ⟨bits - 1, by omega⟩
  simp [pow_succ]
  ring

/-- The range of `fits`. -/
theorem fits_iff (bits : Nat) (n : Int) :
    fits bits n = true ↔ -(2 ^ (bits - 1) : Int) ≤ n ∧ n < 2 ^ (bits - 1) := by
  simp [fits]

/-- The word that holds `n`, by the sign of `n`. -/
theorem ofInt_cast (bits : Nat) (hb : 1 ≤ bits) (n : Int) (h : fits bits n = true) :
    ((ofInt bits n : Nat) : Int) = if 0 ≤ n then n else n + 2 ^ bits := by
  rw [fits_iff] at h
  have hp := two_pow_pred_int bits hb
  have hq : (0 : Int) < 2 ^ (bits - 1) := by positivity
  unfold ofInt
  rw [Int.toNat_of_nonneg (Int.emod_nonneg _ (by positivity))]
  split_ifs with h0
  · exact Int.emod_eq_of_lt h0 (by omega)
  · rw [← Int.add_mul_emod_self_left n (2 ^ bits) 1, mul_one]
    exact Int.emod_eq_of_lt (by omega) (by omega)

/-- Reading back the word that holds `n`. -/
theorem toSigned_ofInt (bits : Nat) (hb : 1 ≤ bits) (n : Int) (h : fits bits n = true) :
    toSigned bits (ofInt bits n) = n := by
  have hc := ofInt_cast bits hb n h
  rw [fits_iff] at h
  have hp := two_pow_pred_int bits hb
  have hq : (0 : Int) < 2 ^ (bits - 1) := by positivity
  unfold toSigned
  have hcast : ((2 ^ (bits - 1) : Nat) : Int) = 2 ^ (bits - 1) := by push_cast; rfl
  split_ifs with h1
  · have h1' : ((ofInt bits n : Nat) : Int) < 2 ^ (bits - 1) := by
      rw [← hcast]; exact_mod_cast h1
    split_ifs at hc with h0 <;> omega
  · have h1' : (2 ^ (bits - 1) : Int) ≤ ((ofInt bits n : Nat) : Int) := by
      rw [← hcast]; exact_mod_cast (Nat.le_of_not_lt h1)
    split_ifs at hc with h0 <;> omega

/-- A word is below the modulus. -/
theorem ofInt_lt (bits : Nat) (n : Int) : ofInt bits n < 2 ^ bits := by
  unfold ofInt
  have h := Int.emod_lt_of_pos n (show (0 : Int) < 2 ^ bits by positivity)
  have h0 := Int.emod_nonneg n (show (2 : Int) ^ bits ≠ 0 by positivity)
  zify
  rw [Int.toNat_of_nonneg h0]
  exact_mod_cast h

/-- Two integers that differ by a multiple of the modulus have the same word. -/
theorem ofInt_add_mul (bits : Nat) (n k : Int) : ofInt bits (n + 2 ^ bits * k) = ofInt bits n := by
  unfold ofInt
  rw [Int.add_mul_emod_self_left]

/-- The word of a natural number. -/
theorem ofInt_natCast (bits : Nat) (x : Nat) : ofInt bits (x : Int) = x % 2 ^ bits := by
  unfold ofInt
  zify
  rw [Int.toNat_of_nonneg (Int.emod_nonneg _ (by positivity))]

/-- The word of the signed reading of a word is the word. -/
theorem ofInt_toSigned (bits : Nat) (x : Nat) (hx : x < 2 ^ bits) :
    ofInt bits (toSigned bits x) = x := by
  unfold toSigned
  split_ifs with h
  · rw [ofInt_natCast, Nat.mod_eq_of_lt hx]
  · have := ofInt_add_mul bits (x : Int) (-1)
    rw [show (x : Int) + 2 ^ bits * -1 = (x : Int) - 2 ^ bits by ring] at this
    rw [this, ofInt_natCast, Nat.mod_eq_of_lt hx]

/-- The signed reading of a word fits the width. -/
theorem fits_toSigned (bits : Nat) (hb : 1 ≤ bits) (x : Nat) (hx : x < 2 ^ bits) :
    fits bits (toSigned bits x) = true := by
  rw [fits_iff]
  have hp := two_pow_pred_int bits hb
  have hcast : ((2 ^ (bits - 1) : Nat) : Int) = 2 ^ (bits - 1) := by push_cast; rfl
  have hx' : (x : Int) < 2 ^ bits := by exact_mod_cast hx
  unfold toSigned
  split_ifs with h
  · have : (x : Int) < 2 ^ (bits - 1) := by rw [← hcast]; exact_mod_cast h
    omega
  · have : (2 ^ (bits - 1) : Int) ≤ (x : Int) := by
      rw [← hcast]; exact_mod_cast (Nat.le_of_not_lt h)
    omega

/-- Shifting the word of `n` left by one gives the word of `2 n`. -/
theorem sal_one_ofInt (bits : Nat) (n : Int) : sal bits (ofInt bits n) 1 = ofInt bits (n * 2) := by
  unfold sal ofInt
  zify
  rw [Int.toNat_of_nonneg (Int.emod_nonneg _ (by positivity)),
    Int.toNat_of_nonneg (Int.emod_nonneg _ (by positivity))]
  simp [Int.mul_emod, Int.emod_emod_of_dvd]

/-- The arithmetic shift right by one of the word of `2 n`. -/
theorem sar_one_ofInt (bits : Nat) (hb : 1 ≤ bits) (n : Int) (h : fits bits (n * 2) = true) :
    sar bits (ofInt bits (n * 2)) 1 = ofInt bits n := by
  unfold sar
  rw [toSigned_ofInt bits hb _ h]
  congr 1
  omega

/-- The double of a number of one bit less fits the width. -/
theorem fits_double (bits : Nat) (hb : 2 ≤ bits) (n : Int) (hn : fits (bits - 1) n = true) :
    fits bits (n * 2) = true := by
  rw [fits_iff] at hn ⊢
  have hp := two_pow_pred_int (bits - 1) (by omega)
  rw [show bits - 1 - 1 = bits - 2 by omega] at hp hn
  omega

/-- The word of an even number is even. -/
theorem ofInt_double_even (bits : Nat) (hb : 1 ≤ bits) (n : Int) : ofInt bits (n * 2) % 2 = 0 := by
  have hp := two_pow_pred_int bits hb
  unfold ofInt
  zify
  rw [Int.toNat_of_nonneg (Int.emod_nonneg _ (by positivity)), hp,
    Int.emod_emod_of_dvd _ (Dvd.intro _ rfl)]
  omega

/-- C14: with `bits` the register width, for every integer `n` of `bits - 1`
signed bits held in a register, `Masm::TagNumber` leaves the word of `2 n`
(`HNumber::Tag n`), which reads back as `2 n`, has low bit 0 and is classified
unboxed, and `Masm::Untag` of it leaves the word of `n` again, which reads back
as `n`, whatever the sign of `n`. -/
theorem TagNumber_Untag_round_trip (bits : Nat) (hb : 2 ≤ bits) (n : Int)
    (hn : fits (bits - 1) n = true) (c : Cpu) (src : Register)
    (hc : c.reg src = ofInt bits n) :
    (Masm.TagNumber bits c src).reg src = ofInt bits (HNumber.Tag n) ∧
    toSigned bits ((Masm.TagNumber bits c src).reg src) = n * 2 ∧
    (Masm.TagNumber bits c src).reg src % 2 = 0 ∧
    Masm.IsUnboxed (Masm.TagNumber bits c src) src = true ∧
    (Masm.Untag bits (Masm.TagNumber bits c src) src).reg src = c.reg src ∧
    toSigned bits ((Masm.Untag bits (Masm.TagNumber bits c src) src).reg src) = n := by
  have h2 := fits_double bits hb n hn
  have hfn : fits bits n = true := by
    rw [fits_iff] at hn ⊢
    have hp := two_pow_pred_int (bits - 1) (by omega)
    rw [show bits - 1 - 1 = bits - 2 by omega] at hp hn
    omega
  have e1 : (Masm.TagNumber bits c src).reg src = ofInt bits (n * 2) := by
    simp [Masm.TagNumber, Cpu.shl, Cpu.set, hc, sal_one_ofInt]
  have e2 : (Masm.Untag bits (Masm.TagNumber bits c src) src).reg src = ofInt bits n := by
    simp only [Masm.Untag, Cpu.sar, Cpu.set, if_true]
    rw [e1, sar_one_ofInt bits (by omega) n h2]
  refine ⟨e1, ?_, ?_, ?_, ?_, ?_⟩
  · rw [e1, toSigned_ofInt bits (by omega) _ h2]
  · rw [e1]; exact ofInt_double_even bits (by omega) n
  · simp only [Masm.IsUnboxed, e1, ofInt_double_even bits (by omega) n]; rfl
  · rw [e2, hc]
  · rw [e2, toSigned_ofInt bits (by omega) _ hfn]

theorem TagNumber_Untag_round_trip_witness :
    fits (32 - 1) (-5) = true ∧
    (Masm.TagNumber 32 ⟨fun _ => ofInt 32 (-5), fun _ => 0, false, false, false, false, []⟩
      Register.eax).reg Register.eax = 4294967286 ∧
    (Masm.Untag 32 (Masm.TagNumber 32
      ⟨fun _ => ofInt 32 (-5), fun _ => 0, false, false, false, false, []⟩ Register.eax)
      Register.eax).reg Register.eax = 4294967291 :=
  have h := TagNumber_Untag_round_trip 32 (by decide) (-5) (by decide)
    ⟨fun _ => ofInt 32 (-5), fun _ => 0, false, false, false, false, []⟩ Register.eax rfl
  ⟨by decide, h.1.trans (by decide), h.2.2.2.2.1.trans (by decide)⟩

/-! ## Loading an argument -/

/-- After `cmp a, b` the condition `kGe` holds when `a ≥ b` as signed words. -/
theorem cmpl_kGe (c : Cpu) (a b : Nat) (ha : a < 2 ^ 32) (hb : b < 2 ^ 32) :
    (c.cmpl 32 a b).cond Condition.kGe = true ↔ toSigned 32 b ≤ toSigned 32 a := by
  simp only [Cpu.cmpl, Cpu.setFlags, Cpu.cond, fits, toSigned]
  norm_num at ha hb ⊢
  rw [Bool.eq_iff_iff]
  simp only [decide_eq_true_eq, Bool.or_eq_true, Bool.not_eq_true', decide_eq_false_iff_not]
  split_ifs <;> omega

/-- After `cmp a, b` the condition `kGt` holds when `a > b` as signed words. -/
theorem cmpl_kGt (c : Cpu) (a b : Nat) (ha : a < 2 ^ 32) (hb : b < 2 ^ 32) :
    (c.cmpl 32 a b).cond Condition.kGt = true ↔ toSigned 32 b < toSigned 32 a := by
  simp only [Cpu.cmpl, Cpu.setFlags, Cpu.cond, fits, toSigned]
  norm_num at ha hb ⊢
  rw [Bool.eq_iff_iff]
  simp only [decide_eq_true_eq, Bool.or_eq_true, Bool.not_eq_true', decide_eq_false_iff_not]
  split_ifs <;> omega

/-- After `cmp a, b` the condition `kLe` holds when `a ≤ b` as signed words. -/
theorem cmpl_kLe (c : Cpu) (a b : Nat) (ha : a < 2 ^ 32) (hb : b < 2 ^ 32) :
    (c.cmpl 32 a b).cond Condition.kLe = true ↔ toSigned 32 a ≤ toSigned 32 b := by
  simp only [Cpu.cmpl, Cpu.setFlags, Cpu.cond, fits, toSigned]
  norm_num at ha hb ⊢
  rw [Bool.eq_iff_iff]
  simp only [decide_eq_true_eq, Bool.or_eq_true, Bool.not_eq_true', decide_eq_false_iff_not]
  split_ifs <;> omega

/-- The word `LLoadArg::Generate` leaves in `result` for the index `i` and a
frame that holds `argc` arguments: Nil when `i ≥ argc`, else the word at
`ebp + 8 i + 16`. -/
theorem LLoadArg_Generate_spec (scratch input result : Register) (c : Cpu)
    (hs : scratch ≠ Register.ebp) (i argc : Nat) (hi : i < 2 ^ 30) (ha : argc < 2 ^ 30)
    (hin : c.reg input = 2 * i)
    (hargc : c.load 32 ⟨Register.ebp, -((HValue.kPointerSize : Int) * 2)⟩ = 2 * argc) :
    (LLoadArg.Generate scratch input result c).reg result =
      if argc ≤ i then kTagNil else c.mem ((8 * i + 16 + c.reg Register.ebp) % 2 ^ 32) := by
  have hload : (c.mov scratch (c.reg input)).load 32
      ⟨Register.ebp, -((HValue.kPointerSize : Int) * 2)⟩ = 2 * argc := by
    rw [← hargc]
    simp [Cpu.load, Cpu.address, Cpu.mov, Cpu.set, hs.symm]
  have hk := cmpl_kGe (c.mov scratch (c.reg input)) (2 * i) (2 * argc) (by omega) (by omega)
  have hsi : toSigned 32 (2 * i) = 2 * i := by
    unfold toSigned; norm_num at hi ⊢; omega
  have hsa : toSigned 32 (2 * argc) = 2 * argc := by
    unfold toSigned; norm_num at ha ⊢; omega
  rw [hsi, hsa] at hk
  unfold LLoadArg.Generate
  simp only [hload]
  have hsc : (c.mov scratch (c.reg input)).reg scratch = 2 * i := by
    simp [Cpu.mov, Cpu.set, hin]
  rw [hsc]
  by_cases hle : argc ≤ i
  · rw [if_pos (hk.2 (by omega)), if_pos hle]
    simp [Cpu.mov, Cpu.set]
  · have hk' : ¬ ((c.mov scratch (c.reg input)).cmpl 32 (2 * i) (2 * argc)).cond
        Condition.kGe = true := fun h => hle (by have := hk.1 h; omega)
    rw [if_neg hk', if_neg hle]
    simp only [Cpu.mov, Cpu.set, Cpu.addl, Cpu.shl, Cpu.cmpl, Cpu.setFlags, Cpu.load,
      Cpu.address, if_true, if_neg hs.symm, sal, hin, add_zero, ofInt_natCast]
    norm_num at hi ⊢
    congr 1
    omega

/-- C20 (refuted by the code): in the frame `frameOfCall`, built by
`LStoreArg::Generate` and `LEntry::Generate` for a call with the arguments 22
and 44, `argc` is saved at `[fp - 2 W]` and the arguments are the words at
`[fp + W (0 + 2)]` and `[fp + W (1 + 2)]` (`W = 4`), yet for the index 0
`LLoadArg::Generate` loads the word at `[fp + 16]`, which is not the first
argument. -/
theorem LLoadArg_reads_two_words_per_index :
    frameOfCall.reg Register.ebp = 1024 ∧
    frameOfCall.reg Register.ebx = 0 ∧
    frameOfCall.mem (1024 - HValue.kPointerSize * 2) = (HNumber.Tag 2).toNat ∧
    frameOfCall.mem (1024 + HValue.kPointerSize * (0 + 2)) = 22 ∧
    frameOfCall.mem (1024 + HValue.kPointerSize * (1 + 2)) = 44 ∧
    (LLoadArg.Generate Register.edi Register.ebx Register.eax frameOfCall).reg Register.eax
      = frameOfCall.mem (1024 + 16) ∧
    frameOfCall.mem (1024 + 16) = 101040 ∧
    (LLoadArg.Generate Register.edi Register.ebx Register.eax frameOfCall).reg Register.eax
      ≠ frameOfCall.mem (1024 + HValue.kPointerSize * (0 + 2)) := by
  refine ⟨?_, ?_, ?_, ?_, ?_, ?_, ?_, ?_⟩ <;> decide

/-! ## Calling a value that is not a function -/

/-- C19: when the callee in `ebx` is unboxed, is Nil, or is not a heap object
with the tag Function, the code of `LCall::Generate` makes no call (the list of
call targets is unchanged) and leaves Nil (`Heap::kTagNil`) in `eax`. -/
theorem LCall_non_callable_yields_nil (scratch fn_reg : Register) (callee : Cpu → Cpu)
    (c : Cpu) (hs : scratch ≠ Register.ebx)
    (h : Masm.IsUnboxed c Register.ebx = true ∨ Masm.IsNil c Register.ebx = true ∨
      Masm.IsHeapObject 32 c kTagFunction Register.ebx = false) :
    (LCall.Generate scratch fn_reg callee c).calls = c.calls ∧
    (LCall.Generate scratch fn_reg callee c).reg Register.eax = kTagNil := by
  have hx : (c.reg Register.ebx % 2 == 0 || c.reg Register.ebx == kTagNil ||
      !Masm.IsHeapObject 32 c kTagFunction Register.ebx) = true := by
    rcases h with h | h | h
    · simp only [Masm.IsUnboxed] at h; simp [h]
    · simp only [Masm.IsNil] at h; simp [h]
    · simp [h]
  simp only [Masm.IsHeapObject, Masm.IsUnboxed, Masm.IsNil, Cpu.load, Cpu.address] at hx
  unfold LCall.Generate
  simp only []
  split_ifs with h1 h2 h4
  · simp [Cpu.mov, Cpu.set, Cpu.testb, Cpu.setFlags, Cpu.addl, Cpu.shl]
  · exfalso
    apply h2
    simpa [Masm.IsHeapObject, Masm.IsUnboxed, Masm.IsNil, Cpu.load, Cpu.address, Cpu.mov,
      Cpu.set, Cpu.testb, Cpu.setFlags, Cpu.addl, Cpu.shl, hs.symm] using hx
  · simp [Cpu.mov, Cpu.set, Cpu.testb, Cpu.setFlags, Cpu.addl, Cpu.shl]
  · exfalso
    apply h4
    simpa [Masm.IsHeapObject, Masm.IsUnboxed, Masm.IsNil, Cpu.load, Cpu.address, Cpu.mov,
      Cpu.set, Cpu.testb, Cpu.setFlags, Cpu.addl, Cpu.shl, hs.symm] using hx

theorem LCall_non_callable_yields_nil_witness :
    Masm.IsUnboxed (callOf 10) Register.ebx = true ∧
    (LCall.Generate Register.edi Register.esi (fun c => c) (callOf 10)).calls = (callOf 10).calls ∧
    (LCall.Generate Register.edi Register.esi (fun c => c) (callOf 10)).reg Register.eax
      = kTagNil :=
  ⟨by decide, LCall_non_callable_yields_nil Register.edi Register.esi (fun c => c) (callOf 10)
    (by decide) (Or.inl (by decide))⟩

/-- A callee that is a Function is called: the code pointer of the function at
4001 is the one call target; an Object in the callee register is not called. -/
theorem LCall_calls_a_function :
    Masm.IsHeapObject 32 (callOf 4001) kTagFunction Register.ebx = true ∧
    (LCall.Generate Register.edi Register.esi (fun c => c) (callOf 4001)).calls = [9000] ∧
    Masm.IsHeapObject 32 (callOf 5001) kTagObject Register.ebx = true ∧
    (LCall.Generate Register.edi Register.esi (fun c => c) (callOf 5001)).calls = [] ∧
    (LCall.Generate Register.edi Register.esi (fun c => c) (callOf 5001)).reg Register.eax
      = kTagNil := by
  refine ⟨?_, ?_, ?_, ?_, ?_⟩ <;> decide

/-! ## Tagged addition and subtraction -/

/-- Tagged addition of two small integers: the overflow flag and the sum. -/
theorem addl_tagged (c : Cpu) (a b : Int) (ha : fits 31 a = true) (hb : fits 31 b = true)
    (hx : c.reg Register.eax = ofInt 32 (HNumber.Tag a)) :
    (c.addl 32 Register.eax (ofInt 32 (HNumber.Tag b))).overflow = !fits 31 (a + b) ∧
    (c.addl 32 Register.eax (ofInt 32 (HNumber.Tag b))).reg Register.eax
      = (ofInt 32 (HNumber.Tag a) + ofInt 32 (HNumber.Tag b)) % 2 ^ 32 ∧
    (fits 31 (a + b) = true →
      (c.addl 32 Register.eax (ofInt 32 (HNumber.Tag b))).reg Register.eax
        = ofInt 32 (HNumber.Tag (a + b))) := by
  have h1 := toSigned_ofInt 32 (by decide) _ (fits_double 32 (by decide) a ha)
  have h2 := toSigned_ofInt 32 (by decide) _ (fits_double 32 (by decide) b hb)
  simp only [Cpu.addl, Cpu.setFlags, Cpu.set, hx, HNumber.Tag, h1, h2, if_true]
  refine ⟨?_, trivial, ?_⟩
  · rw [fits_iff] at ha hb
    simp only [fits]
    norm_num at ha hb ⊢
    rw [Bool.eq_iff_iff]
    simp only [decide_eq_true_eq, Bool.or_eq_true, Bool.and_eq_true, Bool.not_eq_true',
      decide_eq_false_iff_not]
    omega
  · intro hf
    rw [fits_iff] at ha hb hf
    simp only [ofInt]
    norm_num at ha hb hf ⊢
    omega

/-- Tagged subtraction of two small integers: the overflow flag and the
difference. -/
theorem subl_tagged (c : Cpu) (a b : Int) (ha : fits 31 a = true) (hb : fits 31 b = true)
    (hx : c.reg Register.eax = ofInt 32 (HNumber.Tag a)) :
    (c.subl 32 Register.eax (ofInt 32 (HNumber.Tag b))).overflow = !fits 31 (a - b) ∧
    (c.subl 32 Register.eax (ofInt 32 (HNumber.Tag b))).reg Register.eax
      = (ofInt 32 (HNumber.Tag a) + 2 ^ 32 - ofInt 32 (HNumber.Tag b)) % 2 ^ 32 ∧
    (fits 31 (a - b) = true →
      (c.subl 32 Register.eax (ofInt 32 (HNumber.Tag b))).reg Register.eax
        = ofInt 32 (HNumber.Tag (a - b))) := by
  have h1 := toSigned_ofInt 32 (by decide) _ (fits_double 32 (by decide) a ha)
  have h2 := toSigned_ofInt 32 (by decide) _ (fits_double 32 (by decide) b hb)
  simp only [Cpu.subl, Cpu.setFlags, Cpu.set, hx, HNumber.Tag, h1, h2, if_true]
  refine ⟨?_, trivial, ?_⟩
  · rw [fits_iff] at ha hb
    simp only [fits]
    norm_num at ha hb ⊢
    rw [Bool.eq_iff_iff]
    simp only [decide_eq_true_eq, Bool.or_eq_true, Bool.and_eq_true, Bool.not_eq_true',
      decide_eq_false_iff_not]
    omega
  · intro hf
    rw [fits_iff] at ha hb hf
    simp only [ofInt]
    norm_num at ha hb hf ⊢
    omega

/-- A register that holds a tagged integer is unboxed. -/
theorem IsUnboxed_tagged (c : Cpu) (r : Register) (a : Int)
    (hx : c.reg r = ofInt 32 (HNumber.Tag a)) : Masm.IsUnboxed c r = true := by
  simp only [Masm.IsUnboxed, hx, HNumber.Tag, ofInt_double_even 32 (by decide) a]
  rfl

/-- The fast path for `kAdd` on two tagged small integers. -/
theorem fastPath_kAdd (c : Cpu) (a b : Int) (ha : fits 31 a = true) (hb : fits 31 b = true)
    (hx : c.reg Register.eax = ofInt 32 (HNumber.Tag a))
    (hy : c.reg Register.ecx = ofInt 32 (HNumber.Tag b)) :
    ∃ c' : Cpu,
      BinOpStub.fastPath BinOpType.kAdd c =
        (if fits 31 (a + b) = true then BinOpExit.done c' else BinOpExit.not_unboxed c') ∧
      c'.overflow = !fits 31 (a + b) ∧
      (fits 31 (a + b) = true →
        c'.reg Register.eax = (c.reg Register.eax + c.reg Register.ecx) % 2 ^ 32 ∧
        c'.reg Register.eax = ofInt 32 (HNumber.Tag (a + b)) ∧
        Masm.IsUnboxed c' Register.eax = true) ∧
      (fits 31 (a + b) = false →
        c'.reg Register.eax = c.reg Register.eax ∧ c'.reg Register.ecx = c.reg Register.ecx) := by
  obtain ⟨ho, hs, hr⟩ := addl_tagged c a b ha hb hx
  have ux := IsUnboxed_tagged c Register.eax a hx
  have uy := IsUnboxed_tagged c Register.ecx b hy
  rw [← hy] at ho hs hr
  by_cases hf : fits 31 (a + b) = true
  · refine ⟨c.addl 32 Register.eax (c.reg Register.ecx), ?_, ho, ?_, ?_⟩
    · simp [BinOpStub.fastPath, ux, uy, BinOp.is_math, Cpu.cond, ho, hf]
    · intro _
      exact ⟨by rw [hs, hx, hy], hr hf, IsUnboxed_tagged _ _ _ (hr hf)⟩
    · intro h; rw [hf] at h; cases h
  · have hf' : fits 31 (a + b) = false := by simpa using hf
    refine ⟨((c.addl 32 Register.eax (c.reg Register.ecx)).mov Register.eax
        (c.reg Register.eax)).mov Register.ecx (c.reg Register.ecx), ?_, ?_, ?_, ?_⟩
    · simp [BinOpStub.fastPath, ux, uy, BinOp.is_math, Cpu.cond, ho, hf']
    · rw [← ho]; rfl
    · intro h; rw [hf'] at h; cases h
    · intro _
      simp [Cpu.mov, Cpu.set]

/-- The fast path for `kSub` on two tagged small integers. -/
theorem fastPath_kSub (c : Cpu) (a b : Int) (ha : fits 31 a = true) (hb : fits 31 b = true)
    (hx : c.reg Register.eax = ofInt 32 (HNumber.Tag a))
    (hy : c.reg Register.ecx = ofInt 32 (HNumber.Tag b)) :
    ∃ c' : Cpu,
      BinOpStub.fastPath BinOpType.kSub c =
        (if fits 31 (a - b) = true then BinOpExit.done c' else BinOpExit.not_unboxed c') ∧
      c'.overflow = !fits 31 (a - b) ∧
      (fits 31 (a - b) = true →
        c'.reg Register.eax = (c.reg Register.eax + 2 ^ 32 - c.reg Register.ecx) % 2 ^ 32 ∧
        c'.reg Register.eax = ofInt 32 (HNumber.Tag (a - b)) ∧
        Masm.IsUnboxed c' Register.eax = true) ∧
      (fits 31 (a - b) = false →
        c'.reg Register.eax = c.reg Register.eax ∧ c'.reg Register.ecx = c.reg Register.ecx) := by
  obtain ⟨ho, hs, hr⟩ := subl_tagged c a b ha hb hx
  have ux := IsUnboxed_tagged c Register.eax a hx
  have uy := IsUnboxed_tagged c Register.ecx b hy
  rw [← hy] at ho hs hr
  by_cases hf : fits 31 (a - b) = true
  · refine ⟨c.subl 32 Register.eax (c.reg Register.ecx), ?_, ho, ?_, ?_⟩
    · simp [BinOpStub.fastPath, ux, uy, BinOp.is_math, Cpu.cond, ho, hf]
    · intro _
      exact ⟨by rw [hs, hx, hy], hr hf, IsUnboxed_tagged _ _ _ (hr hf)⟩
    · intro h; rw [hf] at h; cases h
  · have hf' : fits 31 (a - b) = false := by simpa using hf
    refine ⟨((c.subl 32 Register.eax (c.reg Register.ecx)).mov Register.eax
        (c.reg Register.eax)).mov Register.ecx (c.reg Register.ecx), ?_, ?_, ?_, ?_⟩
    · simp [BinOpStub.fastPath, ux, uy, BinOp.is_math, Cpu.cond, ho, hf']
    · rw [← ho]; rfl
    · intro h; rw [hf'] at h; cases h
    · intro _
      simp [Cpu.mov, Cpu.set]

/-- C15: for operands that encode the integers `a` and `b` of 31 signed bits
(`eax` and `ecx` hold `2 a` and `2 b`), the fast path of the Add (Sub)
`BinOpStub` ends with the overflow flag clear exactly when `a + b` (`a - b`)
fits 31 signed bits; then it leaves at `done` with the 32-bit sum (difference)
of the tagged words in `eax`, which is the encoding of `a + b` (`a - b`) and is
unboxed; otherwise it leaves at `not_unboxed`, the boxed-double path, with both
operands restored. -/
theorem BinOpStub_tagged_add_sub (c : Cpu) (a b : Int)
    (ha : fits 31 a = true) (hb : fits 31 b = true)
    (hx : c.reg Register.eax = ofInt 32 (HNumber.Tag a))
    (hy : c.reg Register.ecx = ofInt 32 (HNumber.Tag b)) :
    (∃ c' : Cpu,
      BinOpStub.fastPath BinOpType.kAdd c =
        (if fits 31 (a + b) = true then BinOpExit.done c' else BinOpExit.not_unboxed c') ∧
      c'.overflow = !fits 31 (a + b) ∧
      (fits 31 (a + b) = true →
        c'.reg Register.eax = (c.reg Register.eax + c.reg Register.ecx) % 2 ^ 32 ∧
        c'.reg Register.eax = ofInt 32 (HNumber.Tag (a + b)) ∧
        Masm.IsUnboxed c' Register.eax = true) ∧
      (fits 31 (a + b) = false →
        c'.reg Register.eax = c.reg Register.eax ∧
        c'.reg Register.ecx = c.reg Register.ecx)) ∧
    (∃ c' : Cpu,
      BinOpStub.fastPath BinOpType.kSub c =
        (if fits 31 (a - b) = true then BinOpExit.done c' else BinOpExit.not_unboxed c') ∧
      c'.overflow = !fits 31 (a - b) ∧
      (fits 31 (a - b) = true →
        c'.reg Register.eax = (c.reg Register.eax + 2 ^ 32 - c.reg Register.ecx) % 2 ^ 32 ∧
        c'.reg Register.eax = ofInt 32 (HNumber.Tag (a - b)) ∧
        Masm.IsUnboxed c' Register.eax = true) ∧
      (fits 31 (a - b) = false →
        c'.reg Register.eax = c.reg Register.eax ∧
        c'.reg Register.ecx = c.reg Register.ecx)) :=
  ⟨fastPath_kAdd c a b ha hb hx hy, fastPath_kSub c a b ha hb hx hy⟩

theorem BinOpStub_tagged_add_sub_witness :
    fits 31 1 = true ∧ fits 31 2 = true ∧
    ∃ c' : Cpu, BinOpStub.fastPath BinOpType.kAdd (operands 1 2) = BinOpExit.done c' ∧
      c'.reg Register.eax = 6 :=
  ⟨by decide, by decide,
    match (BinOpStub_tagged_add_sub (operands 1 2) 1 2 (by decide) (by decide) rfl rfl).1 with
    | ⟨c', h1, _, h3, _⟩ =>
      ⟨c', h1.trans (if_pos (by decide)), (h3 (by decide)).2.1.trans (by decide)⟩⟩

/-- An addition that leaves 31 bits: `1073741823 + 1` sets the overflow flag,
and the fast path leaves at `not_unboxed` with the operands as they were. -/
theorem BinOpStub_add_overflows :
    fits 31 (1073741823 + 1) = false ∧
    ∃ c' : Cpu,
      BinOpStub.fastPath BinOpType.kAdd (operands 1073741823 1) = BinOpExit.not_unboxed c' ∧
      c'.overflow = true ∧ c'.reg Register.eax = 2147483646 ∧ c'.reg Register.ecx = 2 :=
  ⟨by decide,
    match fastPath_kAdd (operands 1073741823 1) 1073741823 1 (by decide) (by decide) rfl rfl with
    | ⟨c', h1, h2, _, h4⟩ =>
      ⟨c', h1.trans (if_neg (by decide)), h2.trans (by decide),
        (h4 (by decide)).1.trans (by decide), (h4 (by decide)).2.trans (by decide)⟩⟩

/-! ## The slot arithmetic of the object fast path -/

/-- Masking with `(2 ^ n - 1) * 2 ^ w` keeps the bits `w, ..., w + n - 1`. -/
theorem land_shifted_mask (w n h : Nat) :
    h &&& ((2 ^ n - 1) * 2 ^ w) = ((h / 2 ^ w) % 2 ^ n) * 2 ^ w := by
  rw [← Nat.shiftLeft_eq, ← Nat.shiftLeft_eq, ← Nat.shiftRight_eq_div_pow]
  apply Nat.eq_of_testBit_eq
  intro i
  simp only [Nat.testBit_and, Nat.testBit_shiftLeft, Nat.testBit_two_pow_sub_one,
    Nat.testBit_mod_two_pow, Nat.testBit_shiftRight]
  by_cases hi : w ≤ i
  · simp [hi, Nat.add_sub_cancel' hi, Bool.and_comm]
  · simp [hi]

/-- A heap object is neither unboxed nor Nil. -/
theorem IsHeapObject_boxed (bits : Nat) (c : Cpu) (tag : Nat) (r : Register)
    (h : Masm.IsHeapObject bits c tag r = true) :
    Masm.IsUnboxed c r = false ∧ Masm.IsNil c r = false := by
  simp only [Masm.IsHeapObject, Bool.and_eq_true, Bool.not_eq_true'] at h
  exact ⟨h.1.1, h.1.2⟩

/-- The word of a natural number below the modulus. -/
theorem ofInt_of_lt (bits x : Nat) (hx : x < 2 ^ bits) : ofInt bits (x : Int) = x := by
  rw [ofInt_natCast, Nat.mod_eq_of_lt hx]

/-- `HMap::kSpaceOffset` is the natural number `2 W - 1`. -/
theorem kSpaceOffset_cast (W : Nat) (hW : 1 ≤ W) :
    HMap.kSpaceOffset W = ((2 * W - 1 : Nat) : Int) := by
  unfold HMap.kSpaceOffset HINTERIOR_OFFSET
  omega

/-- The object fast path of `LookupPropertyStub::Generate`, in numbers: with
the mask word `(N - 1) W`, the hash `h` and `k` the slot `h & mask` selects, the
key slot probed is the word at `map + kSpaceOffset + k W`; when it holds the key
or Nil, the result is `kSpaceOffset + (k + N) W`. -/
theorem LookupPropertyStub_object_path (W NW kW M : Nat) (StringHash : Cpu → Cpu)
    (IsDenseArray : Cpu → Bool) (c c1 : Cpu) (h mask map A : Nat)
    (hM : M = 2 ^ (8 * W)) (hW : 1 ≤ W)
    (hfit : 2 * NW + 2 * W ≤ M) (hkN : kW < NW) (hWN : W ≤ NW)
    (hobj : Masm.IsHeapObject (8 * W) c kTagObject Register.eax = true)
    (hkey : Masm.IsHeapObject (8 * W) c kTagString Register.edx = true)
    (h1 : StringHash c = c1) (heax : c1.reg Register.eax = c.reg Register.eax)
    (hh : c1.reg Register.ebx = h)
    (hmask : c1.load (8 * W) ⟨Register.eax, HObject.kMaskOffset W⟩ = mask)
    (hm : mask = NW - W) (hand : h &&& mask = kW)
    (hmap : c1.load (8 * W) ⟨Register.eax, HObject.kMapOffset W⟩ = map)
    (hA : A = (map + (kW + (2 * W - 1))) % M)
    (hsep : c1.address (8 * W) ⟨Register.eax, HObject.kMaskOffset W⟩ ≠ A)
    (hslot : c1.mem A = c1.reg Register.edx ∨ c1.mem A = kTagNil) :
    (LookupPropertyStub.Generate W StringHash IsDenseArray c).result
      = some (2 * W - 1 + (kW + NW)) := by
  obtain ⟨u1, u2⟩ := IsHeapObject_boxed _ _ _ _ hobj
  obtain ⟨u3, u4⟩ := IsHeapObject_boxed _ _ _ _ hkey
  have hMpos : 0 < M := by omega
  have f2 : ofInt (8 * W) (HMap.kSpaceOffset W) = 2 * W - 1 := by
    rw [kSpaceOffset_cast W hW, ofInt_of_lt]; rw [← hM]; omega
  have f3 : (kW + (2 * W - 1)) % M = kW + (2 * W - 1) := Nat.mod_eq_of_lt (by omega)
  have f4 : ofInt (8 * W) ((((map + (kW + (2 * W - 1))) % M : Nat) : Int)) = A := by
    rw [ofInt_natCast, ← hM, Nat.mod_mod, hA]
  simp only [Cpu.load, Cpu.address, heax] at hmask hmap hsep
  have hz2 : ((kTagNil + M - kTagNil) % M == 0) = true := by
    rw [Nat.add_sub_cancel_left, Nat.mod_self]; rfl
  have hz3 : ((c1.reg Register.edx + M - c1.reg Register.edx) % M == 0) = true := by
    rw [Nat.add_sub_cancel_left, Nat.mod_self]; rfl
  have e1 : (mask + (kW + (2 * W - 1))) % M = mask + (kW + (2 * W - 1)) :=
    Nat.mod_eq_of_lt (by omega)
  have fin : ((mask + (kW + (2 * W - 1))) % M + W) % M = 2 * W - 1 + (kW + NW) := by
    rw [e1, Nat.mod_eq_of_lt (by omega)]; omega
  generalize he : ((c1.reg Register.ecx + M - 0) % M == 0) = e
  generalize hz : ((kTagNil + M - c1.reg Register.edx) % M == 0) = z
  rcases hslot with hs | hs
  · cases e <;>
    simp only [LookupPropertyStub.Generate, u1, u2, u3, u4, hobj, hkey, h1, Bool.or_self,
      Bool.false_eq_true, if_false, if_true, Bool.not_true,
      Cpu.mov, Cpu.set, Cpu.andl, Cpu.addl, Cpu.cmpl, Cpu.setFlags, Cpu.xorl, Cpu.load,
      Cpu.store, Cpu.address, Cpu.cond, reduceCtorEq, heax, add_zero,
      hmask, hmap, hh, hand, f2, ← hM, f3, f4, hs, hz3, he, Bool.false_and, Bool.not_false,
      LookupExit.result, hsep, fin]
  · cases e <;> cases z <;>
    simp only [LookupPropertyStub.Generate, u1, u2, u3, u4, hobj, hkey, h1, Bool.or_self,
      Bool.false_eq_true, if_false, if_true, Bool.not_true,
      Cpu.mov, Cpu.set, Cpu.andl, Cpu.addl, Cpu.cmpl, Cpu.setFlags, Cpu.xorl, Cpu.load,
      Cpu.store, Cpu.address, Cpu.cond, reduceCtorEq, heax, add_zero,
      hmask, hmap, hh, hand, f2, ← hM, f3, f4, hs, hz, hz2, he, Bool.false_and, Bool.not_false,
      Bool.true_and, LookupExit.result, hsep, fin]

/-- C16: for the pointer size `W = 2 ^ w`, a map of `N = 2 ^ n` slots and the
mask `(N - 1) W`, the hash `h` selects the key slot `k = (h & mask) / W`, with
`k < N` and `h & mask = k W`; the object fast path of
`LookupPropertyStub::Generate` probes the word at
`map + kSpaceOffset + k W` and, when that slot holds the key or Nil, returns
`kSpaceOffset + (k + N) W`, the offset of the value slot `k + N`, which is the
slot the loop of `GC::VisitMap` pushes together with the key slot `k`. -/
theorem LookupPropertyStub_value_slot (w n : Nat) (StringHash : Cpu → Cpu)
    (IsDenseArray : Cpu → Bool) (c c1 : Cpu) (h k map A : Nat)
    (hfit : (2 * 2 ^ n + 2) * 2 ^ w ≤ 2 ^ (8 * 2 ^ w))
    (hobj : Masm.IsHeapObject (8 * 2 ^ w) c kTagObject Register.eax = true)
    (hkey : Masm.IsHeapObject (8 * 2 ^ w) c kTagString Register.edx = true)
    (h1 : StringHash c = c1) (heax : c1.reg Register.eax = c.reg Register.eax)
    (hh : c1.reg Register.ebx = h)
    (hmask : c1.load (8 * 2 ^ w) ⟨Register.eax, HObject.kMaskOffset (2 ^ w)⟩
      = (2 ^ n - 1) * 2 ^ w)
    (hk : k = (h &&& ((2 ^ n - 1) * 2 ^ w)) / 2 ^ w)
    (hmap : c1.load (8 * 2 ^ w) ⟨Register.eax, HObject.kMapOffset (2 ^ w)⟩ = map)
    (hA : A = ofInt (8 * 2 ^ w) ((map : Int) + HMap.kSpaceOffset (2 ^ w) + ((k * 2 ^ w : Nat) : Int)))
    (hsep : c1.address (8 * 2 ^ w) ⟨Register.eax, HObject.kMaskOffset (2 ^ w)⟩ ≠ A)
    (hslot : c1.mem A = c1.reg Register.edx ∨ c1.mem A = kTagNil) :
    k < 2 ^ n ∧ h &&& ((2 ^ n - 1) * 2 ^ w) = k * 2 ^ w ∧
    (∃ r : Nat,
      (LookupPropertyStub.Generate (2 ^ w) StringHash IsDenseArray c).result = some r ∧
      (r : Int) = HMap.kSpaceOffset (2 ^ w) + (((k + 2 ^ n) * 2 ^ w : Nat) : Int)) ∧
    (∀ fields : List Nat, fields.getD (1 + k) 0 ≠ HNil.New →
      mapSlotKeys fields (2 ^ n) k 1 = [1 + k, 1 + (k + 2 ^ n)]) := by
  have hWpos : 0 < 2 ^ w := by positivity
  have hNpos : 0 < 2 ^ n := by positivity
  have hl := land_shifted_mask w n h
  have hk' : k = (h / 2 ^ w) % 2 ^ n := by rw [hk, hl, Nat.mul_div_cancel _ hWpos]
  have hkN : k < 2 ^ n := by rw [hk']; exact Nat.mod_lt _ hNpos
  have hand : h &&& ((2 ^ n - 1) * 2 ^ w) = k * 2 ^ w := by rw [hl, hk']
  have hsub : (2 ^ n - 1) * 2 ^ w = 2 ^ n * 2 ^ w - 2 ^ w := by rw [Nat.sub_mul, one_mul]
  have hWN : 2 ^ w ≤ 2 ^ n * 2 ^ w := Nat.le_mul_of_pos_left _ hNpos
  have hA' : A = (map + (k * 2 ^ w + (2 * 2 ^ w - 1))) % 2 ^ (8 * 2 ^ w) := by
    rw [hA, kSpaceOffset_cast _ hWpos, ← ofInt_natCast]
    congr 1
    push_cast
    ring
  have hres := LookupPropertyStub_object_path (2 ^ w) (2 ^ n * 2 ^ w) (k * 2 ^ w)
    (2 ^ (8 * 2 ^ w)) StringHash IsDenseArray c c1 h ((2 ^ n - 1) * 2 ^ w) map A rfl hWpos
    (by have : (2 * 2 ^ n + 2) * 2 ^ w = 2 * (2 ^ n * 2 ^ w) + 2 * 2 ^ w := by ring
        omega)
    (Nat.mul_lt_mul_of_pos_right hkN hWpos) hWN hobj hkey h1 heax hh hmask hsub hand hmap hA'
    hsep hslot
  refine ⟨hkN, hand, ⟨_, hres, ?_⟩, ?_⟩
  · rw [kSpaceOffset_cast _ hWpos]
    push_cast
    ring
  · intro fields hne
    unfold mapSlotKeys
    rw [if_neg hne]
    rfl

theorem LookupPropertyStub_value_slot_witness :
    (lookupOf 1001 3001).mem 2016 = 3001 ∧
    ∃ r : Nat,
      (LookupPropertyStub.Generate (2 ^ 2) (fun c => c.mov Register.ebx 0xABCDE9)
        (fun _ => true) (lookupOf 1001 3001)).result = some r ∧
      (r : Int) = HMap.kSpaceOffset (2 ^ 2) + (((2 + 2 ^ 2) * 2 ^ 2 : Nat) : Int) :=
  ⟨by decide,
    (LookupPropertyStub_value_slot 2 2 (fun c => c.mov Register.ebx 0xABCDE9) (fun _ => true)
      (lookupOf 1001 3001) ((lookupOf 1001 3001).mov Register.ebx 0xABCDE9) 0xABCDE9 2 2001 2016
      (by decide) (by decide) (by decide) rfl (by decide) (by decide) (by decide) (by decide)
      (by decide) (by decide) (by decide) (Or.inl (by decide))).2.2.1⟩

/-! ## The length of an array after the array fast path -/

/-- An Array is not an Object. -/
theorem IsHeapObject_tag_unique (bits : Nat) (c : Cpu) (t1 t2 : Nat) (r : Register)
    (h : Masm.IsHeapObject bits c t1 r = true) (hne : t1 ≠ t2) :
    Masm.IsHeapObject bits c t2 r = false := by
  simp only [Masm.IsHeapObject, Bool.and_eq_true, Bool.not_eq_true', beq_iff_eq] at h
  simp only [Masm.IsHeapObject, h.1.1, h.1.2, h.2, Bool.not_false, Bool.true_and]
  simpa using hne

/-- C18: when the array fast path of `LookupPropertyStub::Generate` is taken
(the receiver is an Array that `IsDenseArray` accepts, the key is the tagged
integer `i ≥ 0` and its offset is within the mask), the stub reaches its
epilogue and the length word of the array is then the maximum of the old length
and `i + 1` (as signed words; as natural numbers when the old length is below
`2 ^ 31`); it is not decreased and no other word of the memory changes. -/
theorem LookupPropertyStub_array_length (StringHash : Cpu → Cpu) (IsDenseArray : Cpu → Bool)
    (c : Cpu) (i : Int) (mask L old : Nat)
    (harr : Masm.IsHeapObject 32 c kTagArray Register.eax = true)
    (hi0 : 0 ≤ i) (hi : fits 31 i = true)
    (hkey : c.reg Register.edx = ofInt 32 (HNumber.Tag i))
    (hdense : ∀ c' : Cpu, c'.reg = c.reg → c'.mem = c.mem → IsDenseArray c' = true)
    (hmask : c.load 32 ⟨Register.eax, HObject.kMaskOffset 4⟩ = mask) (hmask_lt : mask < 2 ^ 32)
    (hm : toSigned 32 (sal 32 (c.reg Register.edx) 2) ≤ toSigned 32 mask)
    (hL : c.address 32 ⟨Register.eax, HArray.kLengthOffset 4⟩ = L)
    (hold : c.mem L = old) (hold_lt : old < 2 ^ 32) :
    ∃ c' : Cpu,
      LookupPropertyStub.Generate 4 StringHash IsDenseArray c = LookupExit.epilogue c' ∧
      toSigned 32 (c'.mem L) = max (toSigned 32 old) (i + 1) ∧
      toSigned 32 old ≤ toSigned 32 (c'.mem L) ∧
      (old < 2 ^ 31 → c'.mem L = max old (i + 1).toNat) ∧
      (∀ a : Nat, a ≠ L → c'.mem a = c.mem a) := by
  obtain ⟨u1, u2⟩ := IsHeapObject_boxed _ _ _ _ harr
  have u3 := IsHeapObject_tag_unique 32 c kTagArray kTagObject Register.eax harr (by decide)
  have h84 : 8 * 4 = 32 := rfl
  have hku : Masm.IsUnboxed c Register.edx = true := IsUnboxed_tagged c _ i hkey
  have hkn : Masm.IsNil c Register.edx = false := by
    simp only [Masm.IsUnboxed, beq_iff_eq] at hku
    simp only [Masm.IsNil, kTagNil, beq_eq_false_iff_ne]
    omega
  have hf2 := fits_double 32 (by decide) i hi
  have hs : toSigned 32 (c.reg Register.edx) = i * 2 := by
    rw [hkey]; exact toSigned_ofInt 32 (by decide) _ hf2
  have hklt : c.reg Register.edx < 2 ^ 32 := by rw [hkey]; exact ofInt_lt _ _
  -- key > -1
  have c1 : ∀ c0 : Cpu, (c0.cmpl 32 (c.reg Register.edx) (ofInt 32 (-1))).cond Condition.kLe
      = false := by
    intro c0
    rw [Bool.eq_false_iff, Ne, cmpl_kLe c0 _ _ hklt (ofInt_lt _ _), hs,
      toSigned_ofInt 32 (by decide) (-1) (by decide)]
    omega
  -- offset within the mask
  have c3 : ∀ c0 : Cpu, (c0.cmpl 32 (sal 32 (c.reg Register.edx) 2) mask).cond Condition.kGt
      = false := by
    intro c0
    have hlt : sal 32 (c.reg Register.edx) 2 < 2 ^ 32 := Nat.mod_lt _ (by positivity)
    rw [Bool.eq_false_iff, Ne, cmpl_kGt c0 _ _ hlt hmask_lt]
    omega
  -- the untagged key plus one
  have hx : sar 32 (c.reg Register.edx) 1 = ofInt 32 i := by
    rw [hkey]; exact sar_one_ofInt 32 (by decide) i hf2
  have hy : (sar 32 (c.reg Register.edx) 1 + 1) % 2 ^ 32 = (i + 1).toNat := by
    rw [hx]
    rw [fits_iff] at hi
    simp only [ofInt]
    norm_num at hi ⊢
    omega
  have hys : toSigned 32 ((i + 1).toNat) = i + 1 := by
    rw [fits_iff] at hi
    simp only [toSigned]
    norm_num at hi ⊢
    omega
  have hylt : (i + 1).toNat < 2 ^ 32 := by
    rw [fits_iff] at hi
    norm_num at hi ⊢
    omega
  have c4 : ∀ c0 : Cpu, (c0.cmpl 32 ((i + 1).toNat) old).cond Condition.kLe
      = decide (i + 1 ≤ toSigned 32 old) := by
    intro c0
    rw [Bool.eq_iff_iff, cmpl_kLe c0 _ _ hylt hold_lt, hys]
    simp
  have d1 := c1 c
  have d3 := c3 c
  have d4 := c4 c
  simp only [Cpu.cmpl, Cpu.cond, Cpu.setFlags] at d1 d3 d4
  simp only [Cpu.load, Cpu.address] at hmask hL
  have hd := hdense (c.cmpl 32 (c.reg Register.edx) (ofInt 32 (-1))) rfl rfl
  simp only [LookupPropertyStub.Generate, Nat.reduceMul, u1, u2, u3, harr, hku, hkn,
    Bool.or_self, Bool.false_eq_true, if_false, if_true, Bool.not_true, Bool.not_false]
  simp only [c1, hd, Bool.false_eq_true, if_false, Bool.not_true]
  by_cases hle : i + 1 ≤ toSigned 32 old
  · simp only [hle, decide_True] at d4
    simp only [Cpu.mov, Cpu.set, Cpu.andl, Cpu.addl, Cpu.cmpl, Cpu.setFlags, Cpu.xorl, Cpu.load,
      Cpu.store, Cpu.address, Cpu.cond, Cpu.shl, Cpu.inc, Cpu.sar, Masm.Untag, reduceCtorEq,
      add_zero, if_false, if_true, hmask, hL, hold, d3, hy, d4]
    refine ⟨_, rfl, ?_, ?_, ?_, fun a _ => rfl⟩
    · simp only [hold]
      rw [max_eq_left hle]
    · simp only [hold]; exact le_refl _
    · intro ho
      simp only [hold]
      have : toSigned 32 old = old := by
        unfold toSigned; norm_num at ho ⊢; omega
      rw [max_eq_left (by omega)]
  · simp only [hle, decide_False] at d4
    simp only [Cpu.mov, Cpu.set, Cpu.andl, Cpu.addl, Cpu.cmpl, Cpu.setFlags, Cpu.xorl, Cpu.load,
      Cpu.store, Cpu.address, Cpu.cond, Cpu.shl, Cpu.inc, Cpu.sar, Masm.Untag, reduceCtorEq,
      add_zero, if_false, if_true, hmask, hL, hold, d3, hy, d4, Bool.false_eq_true]
    refine ⟨_, rfl, ?_, ?_, ?_, fun a ha => ?_⟩
    · simp only [if_true, hys]
      rw [max_eq_right (by omega)]
    · simp only [if_true, hys]
      omega
    · intro ho
      simp only [if_true]
      have : toSigned 32 old = old := by
        unfold toSigned; norm_num at ho ⊢; omega
      rw [max_eq_right (by omega)]
    · simp only [if_neg ha]

theorem LookupPropertyStub_array_length_witness :
    (lookupOf 5001 6).mem 5012 = 0 ∧
    ∃ c' : Cpu,
      LookupPropertyStub.Generate 4 (fun c => c) (fun _ => true) (lookupOf 5001 6)
        = LookupExit.epilogue c' ∧
      c'.mem 5012 = 4 :=
  ⟨by decide,
    match LookupPropertyStub_array_length (fun c => c) (fun _ => true) (lookupOf 5001 6) 3 60
      5012 0 (by decide) (by decide) (by decide) (by decide) (fun _ _ _ => rfl) (by decide)
      (by decide) (by decide) (by decide) (by decide) (by decide) with
    | ⟨c', h1, _, _, h4, _⟩ => ⟨c', h1, (h4 (by decide)).trans (by decide)⟩⟩

/-! ## The fast path of the allocation stub -/

/-- C13 (refuted by the code): the stub compares the new top with the limit
as signed words (`jmp(kGt, ...)`). For a page with the top `0x7FFFFFE1` and
the limit `0x80000011`, 16 bytes fit without a carry, yet the runtime is called
and the top is not moved; for a page with the top `0x7FFFFFF1` and the limit
`0x7FFFFFF9`, 16 bytes do not fit, yet the fast path is taken and the top is
moved beyond the limit. -/
theorem AllocateStub_compares_addresses_signed :
    (0x7FFFFFE1 + 16 < 2 ^ 32 ∧ 0x7FFFFFE1 + 16 ≤ 0x80000011) ∧
    (∀ RuntimeAllocate : Cpu → Cpu,
      (AllocateStub.Generate Register.edi 100 104 7000 RuntimeAllocate
        (allocOf 0x7FFFFFE1 0x80000011)).calls = [7000]) ∧
    (AllocateStub.Generate Register.edi 100 104 7000 (fun c => c)
      (allocOf 0x7FFFFFE1 0x80000011)).mem 200 = 0x7FFFFFE1 ∧
    0x7FFFFFF9 < 0x7FFFFFF1 + 16 ∧
    (AllocateStub.Generate Register.edi 100 104 7000 (fun c => c)
      (allocOf 0x7FFFFFF1 0x7FFFFFF9)).calls = [] ∧
    (AllocateStub.Generate Register.edi 100 104 7000 (fun c => c)
      (allocOf 0x7FFFFFF1 0x7FFFFFF9)).reg Register.eax = 0x7FFFFFF1 ∧
    (AllocateStub.Generate Register.edi 100 104 7000 (fun c => c)
      (allocOf 0x7FFFFFF1 0x7FFFFFF9)).mem 200 = 0x80000001 := by
  refine ⟨by decide, fun _ => rfl, ?_, ?_, ?_, ?_, ?_⟩ <;> decide

/-- The word of `x + k` when the sum is the natural number `r` below the
modulus. -/
theorem ofInt_eq_of_cast (bits x : Nat) (k : Int) (r : Nat) (h : (x : Int) + k = (r : Int))
    (hr : r < 2 ^ bits) : ofInt bits ((x : Int) + k) = r := by
  rw [h]; exact ofInt_of_lt bits r hr

/-- The word of `x - k` when the difference is the natural number `r` below
the modulus. -/
theorem ofInt_eq_of_cast_sub (bits x k r : Nat) (h : (x : Int) - (k : Int) = (r : Int))
    (hr : r < 2 ^ bits) : ofInt bits ((x : Int) - (k : Int)) = r := by
  rw [h]; exact ofInt_of_lt bits r hr

/-- The fast path of `AllocateStub::Generate`, instruction by instruction:
`c1`, ..., `d11` are the machines after its instructions. -/
theorem AllocateStub_steps (scratch : Register) (top limit allocate : Nat)
    (RuntimeAllocate : Cpu → Cpu) (c : Cpu) (sp pt pl old_top lim n : Nat)
    (hs1 : scratch ≠ Register.eax) (hs2 : scratch ≠ Register.edx)
    (hs3 : scratch ≠ Register.esp) (hs4 : scratch ≠ Register.ebp)
    (hsp : c.reg Register.esp = sp) (hsp1 : 12 ≤ sp) (hsp2 : sp + 12 < 2 ^ 32)
    (htop : top < 2 ^ 32) (hlimit : limit < 2 ^ 32)
    (hpt : c.mem top = pt) (hpt_lt : pt < 2 ^ 32)
    (hpl : c.mem limit = pl) (hpl_lt : pl < 2 ^ 32)
    (hold : c.mem pt = old_top) (hold_lt : old_top < 2 ^ 32)
    (hlim : c.mem pl = lim) (hlim_lt : lim < 2 ^ 32)
    (hsize : c.mem (sp + 8) = 2 * n) (hn : n < 2 ^ 30)
    (hstack : ∀ a : Nat, a = top ∨ a = pt ∨ a = limit ∨ a = pl →
      a ≠ sp - 4 ∧ a ≠ sp - 8 ∧ a ≠ sp - 12)
    (htag : pt ≠ (old_top + 2 ^ 32 - 1) % 2 ^ 32)
    (hfit : old_top + n < 2 ^ 32)
    (hle : toSigned 32 (old_top + n) ≤ toSigned 32 lim)
    (c1 c2 c3 c4 c5 c6 c7 c8 c9 d1 d2 d3 d4 d5 d6 d7 d8 d9 d10 d11 : Cpu)
    (h1 : c1 = BaseStub.GeneratePrologue c)
    (h2 : c2 = c1.push 32 0)
    (h3 : c3 = c2.push 32 (c2.reg Register.edx))
    (h4 : c4 = c3.mov scratch top)
    (h5 : c5 = c4.mov scratch (c4.load 32 ⟨scratch, 0⟩))
    (h6 : c6 = c5.mov Register.eax (c5.load 32 ⟨scratch, 0⟩))
    (h7 : c7 = c6.mov Register.edx (c6.load 32 ⟨Register.ebp, 3 * 4⟩))
    (h8 : c8 = Masm.Untag 32 c7 Register.edx)
    (h9 : c9 = c8.addl 32 Register.edx (c8.reg Register.eax))
    (g1 : d1 = c9.mov scratch limit)
    (g2 : d2 = d1.mov scratch (d1.load 32 ⟨scratch, 0⟩))
    (g3 : d3 = d2.cmpl 32 (d2.reg Register.edx) (d2.load 32 ⟨scratch, 0⟩))
    (g4 : d4 = d3.orlb 32 Register.edx 0x01)
    (g5 : d5 = d4.mov scratch top)
    (g6 : d6 = d5.mov scratch (d5.load 32 ⟨scratch, 0⟩))
    (g7 : d7 = if c9.cond Condition.kCarry = true then
        AllocateStub.runtime_allocate allocate RuntimeAllocate c9
      else if d3.cond Condition.kGt = true then
        AllocateStub.runtime_allocate allocate RuntimeAllocate d3
      else d6.store 32 ⟨scratch, 0⟩ (d6.reg Register.edx))
    (g8 : d8 = d7.mov scratch (d7.load 32 ⟨Register.ebp, 2 * 4⟩))
    (g9 : d9 = Masm.Untag 32 d8 scratch)
    (g10 : d10 = d9.store 32 ⟨Register.eax, HValue.kTagOffset 4⟩ (d9.reg scratch))
    (g11 : d11 = d10.pop 32 Register.edx) :
    (BaseStub.GenerateEpilogue d11 2).reg Register.eax = old_top ∧
    (BaseStub.GenerateEpilogue d11 2).calls = c.calls ∧
    (BaseStub.GenerateEpilogue d11 2).mem pt = (old_top + n) ||| 1 := by
  have q1 : sp - 4 < 2 ^ 32 := by omega
  have q2 : sp - 8 < 2 ^ 32 := by omega
  have q3 : sp - 12 < 2 ^ 32 := by omega
  have q4 : sp + 8 < 2 ^ 32 := by omega
  have q5 : 2 * n < 2 ^ 32 := by omega
  have q6 : n + old_top < 2 ^ 32 := by omega
  have z1 : sp + 8 ≠ sp - 4 := by omega
  have z2 : sp + 8 ≠ sp - 8 := by omega
  have z3 : sp + 8 ≠ sp - 12 := by omega
  have a1 : ofInt 32 ((sp : Int) - ((32 / 8 : Nat) : Int)) = sp - 4 :=
    ofInt_eq_of_cast_sub 32 sp (32 / 8) (sp - 4) (by omega) q1
  have a2 : ofInt 32 (((sp - 4 : Nat) : Int) - ((32 / 8 : Nat) : Int)) = sp - 8 :=
    ofInt_eq_of_cast_sub 32 (sp - 4) (32 / 8) (sp - 8) (by omega) q2
  have a3 : ofInt 32 (((sp - 8 : Nat) : Int) - ((32 / 8 : Nat) : Int)) = sp - 12 :=
    ofInt_eq_of_cast_sub 32 (sp - 8) (32 / 8) (sp - 12) (by omega) q3
  have sz : ofInt 32 (((sp - 4 : Nat) : Int) + 3 * 4) = sp + 8 :=
    ofInt_eq_of_cast 32 (sp - 4) (3 * 4) (sp + 8) (by omega) q4
  have hfn : fits 32 ((n : Int) * 2) = true := by
    rw [fits_iff]; norm_num; omega
  have hcast : ((n : Int) * 2) = ((2 * n : Nat) : Int) := by push_cast; ring
  have hnlt : n < 2 ^ 32 := by omega
  have hsgn : toSigned 32 (n + old_top) ≤ toSigned 32 lim := by rw [Nat.add_comm]; exact hle
  obtain ⟨n1, n2, n3⟩ := hstack top (Or.inl rfl)
  obtain ⟨n4, n5, n6⟩ := hstack pt (Or.inr (Or.inl rfl))
  obtain ⟨n7, n8, n9⟩ := hstack limit (Or.inr (Or.inr (Or.inl rfl)))
  obtain ⟨m1, m2, m3⟩ := hstack pl (Or.inr (Or.inr (Or.inr rfl)))
  clear hstack hsp1 hsp2 hfit hle hn
  have b0 : ∀ x : Nat, x < 2 ^ 32 → ofInt 32 ((x : Int) + 0) = x := by
    intro x hx; rw [add_zero]; exact ofInt_of_lt 32 x hx
  have b1 := b0 _ q1
  have b2 := b0 _ q2
  have b3 := b0 _ q3
  have t1 := b0 _ htop
  have t2 := b0 _ hpt_lt
  have t3 := b0 _ hlimit
  have t4 := b0 _ hpl_lt
  have ta : ofInt 32 ((old_top : Int) + HValue.kTagOffset 4) = (old_top + 2 ^ 32 - 1) % 2 ^ 32 := by
    simp only [ofInt, HValue.kTagOffset, HINTERIOR_OFFSET]; norm_num at hold_lt ⊢; omega
  have us : sar 32 (2 * n) 1 = n := by
    have := sar_one_ofInt 32 (by decide) (n : Int) hfn
    rw [hcast, ofInt_of_lt _ _ q5, ofInt_of_lt _ _ hnlt] at this
    exact this
  -- the prologue and the two pushes
  have e1 : c1.reg Register.esp = sp - 4 ∧ c1.reg Register.ebp = sp - 4 ∧ c1.calls = c.calls ∧
      ∀ a, a ≠ sp - 4 → c1.mem a = c.mem a := by
    simp only [h1, BaseStub.GeneratePrologue, Cpu.push, Cpu.mov, Cpu.set, Cpu.store, Cpu.address,
      hsp, a1, b1, reduceCtorEq, if_false, if_true, true_and]
    intro a ha; rw [if_neg ha]
  have e2 : c2.reg Register.esp = sp - 8 ∧ c2.reg Register.ebp = sp - 4 ∧ c2.calls = c.calls ∧
      ∀ a, a ≠ sp - 4 → a ≠ sp - 8 → c2.mem a = c.mem a := by
    simp only [h2, Cpu.push, Cpu.set, Cpu.store, Cpu.address, e1.1, e1.2.1, e1.2.2.1, a2,
      b2, reduceCtorEq, if_false, if_true, true_and]
    intro a ha hb; rw [if_neg hb, e1.2.2.2 a ha]
  have e3 : c3.reg Register.ebp = sp - 4 ∧ c3.calls = c.calls ∧
      ∀ a, a ≠ sp - 4 → a ≠ sp - 8 → a ≠ sp - 12 → c3.mem a = c.mem a := by
    simp only [h3, Cpu.push, Cpu.set, Cpu.store, Cpu.address, e2.1, e2.2.1, e2.2.2.1, a3,
      b3, reduceCtorEq, if_false, if_true, true_and]
    intro a ha hb hc; rw [if_neg hc, e2.2.2.2 a ha hb]
  have k3 : c3.mem top = pt ∧ c3.mem pt = old_top ∧ c3.mem limit = pl ∧ c3.mem pl = lim ∧
      c3.mem (sp + 8) = 2 * n := by
    rw [e3.2.2 top n1 n2 n3, e3.2.2 pt n4 n5 n6, e3.2.2 limit n7 n8 n9, e3.2.2 pl m1 m2 m3,
      e3.2.2 (sp + 8) z1 z2 z3]
    exact ⟨hpt, hold, hpl, hlim, hsize⟩
  -- the loads of the top and of the size
  have e4 : c4.reg scratch = top ∧ c4.reg Register.ebp = sp - 4 ∧ c4.mem = c3.mem ∧
      c4.calls = c.calls := by
    simp only [h4, Cpu.mov, Cpu.set, if_true, if_neg hs4.symm, e3.1, e3.2.1, and_self]
  have e5 : c5.reg scratch = pt ∧ c5.reg Register.ebp = sp - 4 ∧ c5.mem = c3.mem ∧
      c5.calls = c.calls := by
    simp only [h5, Cpu.mov, Cpu.set, Cpu.load, Cpu.address, if_true, if_neg hs4.symm, e4.1, t1,
      e4.2.1, e4.2.2.1, e4.2.2.2, k3.1, and_self]
  have e6 : c6.reg Register.eax = old_top ∧ c6.reg Register.ebp = sp - 4 ∧ c6.mem = c3.mem ∧
      c6.calls = c.calls := by
    simp only [h6, Cpu.mov, Cpu.set, Cpu.load, Cpu.address, if_true, reduceCtorEq, if_false,
      e5.1, t2, e5.2.1, e5.2.2.1, e5.2.2.2, k3.2.1, and_self]
  have e7 : c7.reg Register.eax = old_top ∧ c7.reg Register.edx = 2 * n ∧ c7.mem = c3.mem ∧
      c7.calls = c.calls := by
    simp only [h7, Cpu.mov, Cpu.set, Cpu.load, Cpu.address, if_true, reduceCtorEq, if_false,
      e6.1, e6.2.1, sz, e6.2.2.1, e6.2.2.2, k3.2.2.2.2, and_self]
  have e8 : c8.reg Register.eax = old_top ∧ c8.reg Register.edx = n ∧ c8.mem = c3.mem ∧
      c8.calls = c.calls := by
    simp only [h8, Masm.Untag, Cpu.sar, Cpu.set, if_true, reduceCtorEq, if_false,
      e7.1, e7.2.1, us, e7.2.2.1, e7.2.2.2, and_self]
  have e9 : c9.reg Register.eax = old_top ∧ c9.reg Register.edx = n + old_top ∧
      c9.mem = c3.mem ∧ c9.calls = c.calls ∧ c9.cond Condition.kCarry = false := by
    simp only [h9, Cpu.addl, Cpu.setFlags, Cpu.set, Cpu.cond, if_true, reduceCtorEq, if_false,
      e8.1, e8.2.1, e8.2.2.1, e8.2.2.2, Nat.mod_eq_of_lt q6, true_and, decide_eq_false_iff_not,
      not_le]
    exact q6
  -- the comparison with the limit
  have f1 : d1.reg scratch = limit ∧ d1.reg Register.eax = old_top ∧
      d1.reg Register.edx = n + old_top ∧ d1.mem = c3.mem ∧ d1.calls = c.calls := by
    simp only [g1, Cpu.mov, Cpu.set, if_true, if_neg hs1.symm, if_neg hs2.symm, e9.1, e9.2.1,
      e9.2.2.1, e9.2.2.2.1, and_self]
  have f2 : d2.reg scratch = pl ∧ d2.reg Register.eax = old_top ∧
      d2.reg Register.edx = n + old_top ∧ d2.mem = c3.mem ∧ d2.calls = c.calls := by
    simp only [g2, Cpu.mov, Cpu.set, Cpu.load, Cpu.address, if_true, if_neg hs1.symm,
      if_neg hs2.symm, f1.1, t3, f1.2.1, f1.2.2.1, f1.2.2.2.1, f1.2.2.2.2, k3.2.2.1, and_self]
  have f3c : d3.cond Condition.kGt = false := by
    rw [g3]
    simp only [Cpu.load, Cpu.address, f2.1, t4, f2.2.2.1, f2.2.2.2.1, k3.2.2.2.1]
    rw [Bool.eq_false_iff, Ne, cmpl_kGt d2 _ _ q6 hlim_lt]
    exact not_lt.mpr hsgn
  have f3 : d3.reg scratch = pl ∧ d3.reg Register.eax = old_top ∧
      d3.reg Register.edx = n + old_top ∧ d3.mem = c3.mem ∧ d3.calls = c.calls := by
    simp only [g3, Cpu.cmpl, Cpu.setFlags, f2.1, f2.2.1, f2.2.2.1, f2.2.2.2.1, f2.2.2.2.2,
      and_self]
  have f4 : d4.reg Register.eax = old_top ∧ d4.reg Register.edx = (old_top + n) ||| 1 ∧
      d4.mem = c3.mem ∧ d4.calls = c.calls := by
    simp only [g4, Cpu.orlb, Cpu.setFlags, Cpu.set, if_true, reduceCtorEq, if_false, f3.2.1,
      f3.2.2.1, f3.2.2.2.1, f3.2.2.2.2, Nat.reduceMod, Nat.add_comm n old_top, and_self]
  have f5 : d5.reg scratch = top ∧ d5.reg Register.eax = old_top ∧
      d5.reg Register.edx = (old_top + n) ||| 1 ∧ d5.mem = c3.mem ∧ d5.calls = c.calls := by
    simp only [g5, Cpu.mov, Cpu.set, if_true, if_neg hs1.symm, if_neg hs2.symm, f4.1, f4.2.1,
      f4.2.2.1, f4.2.2.2, and_self]
  have f6 : d6.reg scratch = pt ∧ d6.reg Register.eax = old_top ∧
      d6.reg Register.edx = (old_top + n) ||| 1 ∧ d6.mem = c3.mem ∧ d6.calls = c.calls := by
    simp only [g6, Cpu.mov, Cpu.set, Cpu.load, Cpu.address, if_true, if_neg hs1.symm,
      if_neg hs2.symm, f5.1, t1, f5.2.1, f5.2.2.1, f5.2.2.2.1, f5.2.2.2.2, k3.1, and_self]
  -- the new top is stored
  have f7 : d7.reg Register.eax = old_top ∧ d7.calls = c.calls ∧
      d7.mem pt = (old_top + n) ||| 1 := by
    simp only [g7, e9.2.2.2.2, f3c, Bool.false_eq_true, if_false, Cpu.store, Cpu.address, f6.1,
      t2, f6.2.1, f6.2.2.1, f6.2.2.2.2, if_true, and_self]
  have f8 : d8.reg Register.eax = old_top ∧ d8.calls = c.calls ∧
      d8.mem pt = (old_top + n) ||| 1 := by
    simp only [g8, Cpu.mov, Cpu.set, if_neg hs1.symm, f7.1, f7.2.1, f7.2.2, and_self]
  have f9 : d9.reg Register.eax = old_top ∧ d9.calls = c.calls ∧
      d9.mem pt = (old_top + n) ||| 1 := by
    simp only [g9, Masm.Untag, Cpu.sar, Cpu.set, if_neg hs1.symm, f8.1, f8.2.1, f8.2.2, and_self]
  have f10 : d10.reg Register.eax = old_top ∧ d10.calls = c.calls ∧
      d10.mem pt = (old_top + n) ||| 1 := by
    simp only [g10, Cpu.store, Cpu.address, f9.1, ta, if_neg htag, f9.2.1, f9.2.2, and_self]
  have f11 : d11.reg Register.eax = old_top ∧ d11.calls = c.calls ∧
      d11.mem pt = (old_top + n) ||| 1 := by
    simp only [g11, Cpu.pop, Cpu.set, reduceCtorEq, if_false, f10.1, f10.2.1, f10.2.2, and_self]
  simp only [BaseStub.GenerateEpilogue, Cpu.mov, Cpu.pop, Cpu.ret, Cpu.set, reduceCtorEq,
    if_false, f11.1, f11.2.1, f11.2.2, and_self]

/-- The fast path of `AllocateStub::Generate`: when the stack words of the stub
are not the words of the space and of the page, the tag word is not the top
word, `old_top + n` does not carry and is not greater than the limit as a
signed word, the stub returns `old_top` in `eax`, makes no call and stores
`(old_top + n) | 1` as the new top. -/
theorem AllocateStub_fast_path (scratch : Register) (top limit allocate : Nat)
    (RuntimeAllocate : Cpu → Cpu) (c : Cpu) (sp pt pl old_top lim n : Nat)
    (hs1 : scratch ≠ Register.eax) (hs2 : scratch ≠ Register.edx)
    (hs3 : scratch ≠ Register.esp) (hs4 : scratch ≠ Register.ebp)
    (hsp : c.reg Register.esp = sp) (hsp1 : 12 ≤ sp) (hsp2 : sp + 12 < 2 ^ 32)
    (htop : top < 2 ^ 32) (hlimit : limit < 2 ^ 32)
    (hpt : c.mem top = pt) (hpt_lt : pt < 2 ^ 32)
    (hpl : c.mem limit = pl) (hpl_lt : pl < 2 ^ 32)
    (hold : c.mem pt = old_top) (hold_lt : old_top < 2 ^ 32)
    (hlim : c.mem pl = lim) (hlim_lt : lim < 2 ^ 32)
    (hsize : c.mem (sp + 8) = 2 * n) (hn : n < 2 ^ 30)
    (hstack : ∀ a : Nat, a = top ∨ a = pt ∨ a = limit ∨ a = pl →
      a ≠ sp - 4 ∧ a ≠ sp - 8 ∧ a ≠ sp - 12)
    (htag : pt ≠ (old_top + 2 ^ 32 - 1) % 2 ^ 32)
    (hfit : old_top + n < 2 ^ 32)
    (hle : toSigned 32 (old_top + n) ≤ toSigned 32 lim) :
    (AllocateStub.Generate scratch top limit allocate RuntimeAllocate c).reg Register.eax
      = old_top ∧
    (AllocateStub.Generate scratch top limit allocate RuntimeAllocate c).calls = c.calls ∧
    (AllocateStub.Generate scratch top limit allocate RuntimeAllocate c).mem pt
      = (old_top + n) ||| 1 :=
  AllocateStub_steps scratch top limit allocate RuntimeAllocate c sp pt pl old_top lim n
    hs1 hs2 hs3 hs4 hsp hsp1 hsp2 htop hlimit hpt hpt_lt hpl hpl_lt hold hold_lt hlim hlim_lt
    hsize hn hstack htag hfit hle _ _ _ _ _ _ _ _ _ _ _ _ _ _ _ _ _ _ _ _
    rfl rfl rfl rfl rfl rfl rfl rfl rfl rfl rfl rfl rfl rfl rfl rfl rfl rfl rfl rfl

/-- After a fast-path allocation the top is odd, and the pointer returned is
odd when the old top is. -/
theorem AllocateStub_keeps_top_odd (scratch : Register) (top limit allocate : Nat)
    (RuntimeAllocate : Cpu → Cpu) (c : Cpu) (sp pt pl old_top lim n : Nat)
    (hs1 : scratch ≠ Register.eax) (hs2 : scratch ≠ Register.edx)
    (hs3 : scratch ≠ Register.esp) (hs4 : scratch ≠ Register.ebp)
    (hsp : c.reg Register.esp = sp) (hsp1 : 12 ≤ sp) (hsp2 : sp + 12 < 2 ^ 32)
    (htop : top < 2 ^ 32) (hlimit : limit < 2 ^ 32)
    (hpt : c.mem top = pt) (hpt_lt : pt < 2 ^ 32)
    (hpl : c.mem limit = pl) (hpl_lt : pl < 2 ^ 32)
    (hold : c.mem pt = old_top) (hold_lt : old_top < 2 ^ 32)
    (hlim : c.mem pl = lim) (hlim_lt : lim < 2 ^ 32)
    (hsize : c.mem (sp + 8) = 2 * n) (hn : n < 2 ^ 30)
    (hstack : ∀ a : Nat, a = top ∨ a = pt ∨ a = limit ∨ a = pl →
      a ≠ sp - 4 ∧ a ≠ sp - 8 ∧ a ≠ sp - 12)
    (htag : pt ≠ (old_top + 2 ^ 32 - 1) % 2 ^ 32)
    (hfit : old_top + n < 2 ^ 32)
    (hle : toSigned 32 (old_top + n) ≤ toSigned 32 lim) :
    (AllocateStub.Generate scratch top limit allocate RuntimeAllocate c).mem pt % 2 = 1 ∧
    (old_top % 2 = 1 →
      (AllocateStub.Generate scratch top limit allocate RuntimeAllocate c).reg Register.eax % 2
        = 1) := by
  obtain ⟨h1, _, h3⟩ := AllocateStub_fast_path scratch top limit allocate RuntimeAllocate c sp pt
    pl old_top lim n hs1 hs2 hs3 hs4 hsp hsp1 hsp2 htop hlimit hpt hpt_lt hpl hpl_lt hold hold_lt
    hlim hlim_lt hsize hn hstack htag hfit hle
  rw [h1, h3]
  exact ⟨Nat.or_mod_two_eq_one.mpr (Or.inr rfl), fun h => h⟩

/-- A fast-path allocation of 16 bytes from a page with the top 1001 and the
limit 5000: the stub returns 1001, makes no call and the new top is 1017. -/
theorem AllocateStub_fast_path_sample :
    (AllocateStub.Generate Register.edi 100 104 7000 (fun c => c) (allocOf 1001 5000)).reg
      Register.eax = 1001 ∧
    (AllocateStub.Generate Register.edi 100 104 7000 (fun c => c) (allocOf 1001 5000)).calls
      = [] ∧
    (AllocateStub.Generate Register.edi 100 104 7000 (fun c => c) (allocOf 1001 5000)).mem 200
      = 1017 :=
  have h := AllocateStub_fast_path Register.edi 100 104 7000 (fun c => c) (allocOf 1001 5000)
    9000 200 204 1001 5000 16 (by decide) (by decide) (by decide) (by decide) (by decide)
    (by decide) (by decide) (by decide) (by decide) (by decide) (by decide) (by decide)
    (by decide) (by decide) (by decide) (by decide) (by decide) (by decide) (by decide)
    (by intro a h; rcases h with rfl | rfl | rfl | rfl <;> decide)
    (by decide) (by decide) (by decide)
  ⟨h.1, h.2.1, h.2.2.trans (by decide)⟩

/-! ## The copy loop of the clone stub -/

/-- The copy loop copies `k` words from `s` to `d` when the two ranges are
apart, and writes no other word. -/
theorem CloneObjectStub_loop_spec (k : Nat) :
    ∀ (c : Cpu) (s d fuel : Nat) (_ : c.reg Register.eax = s) (_ : c.reg Register.ebx = d)
      (_ : c.reg Register.ecx = k) (_ : s + 4 * k < 2 ^ 32) (_ : d + 4 * k < 2 ^ 32)
      (_ : ∀ i j : Nat, i < k → j < k → d + 4 * i ≠ s + 4 * j) (_ : k < fuel),
      ∃ c' : Cpu, CloneObjectStub.loop fuel c = some c' ∧
        (∀ j : Nat, j < k → c'.mem (d + 4 * j) = c.mem (s + 4 * j)) ∧
        (∀ a : Nat, (∀ j : Nat, j < k → a ≠ d + 4 * j) → c'.mem a = c.mem a) ∧
        c'.reg Register.edx = c.reg Register.edx ∧ c'.calls = c.calls := by
  induction k with
  | zero =>
    intro c s d fuel hs hd hk _ _ _ hf
    obtain ⟨f, rfl⟩ : ∃ f, fuel = f + 1 := ⟨fuel - 1, by omega⟩
    refine ⟨c.cmpl 32 (c.reg Register.ecx) 0, ?_, ?_, ?_, rfl, rfl⟩
    · simp only [CloneObjectStub.loop, hk, Cpu.cmpl, Cpu.setFlags, Cpu.cond]
      rfl
    · intro j hj; omega
    · intro a _; rfl
  | succ k ih =>
    intro c s d fuel hs hd hk hsl hdl hdis hf
    obtain ⟨f, rfl⟩ : ∃ f, fuel = f + 1 := ⟨fuel - 1, by omega⟩
    have hne : ((c.cmpl 32 (k + 1) 0).cond Condition.kNe) = true := by
      simp only [Cpu.cmpl, Cpu.setFlags, Cpu.cond, Nat.sub_zero, Nat.add_mod_right,
        Bool.not_eq_true', beq_eq_false_iff_ne]
      rw [Nat.mod_eq_of_lt (by omega)]
      omega
    have hs0 : ofInt 32 ((s : Int) + 0) = s := by
      rw [add_zero]; exact ofInt_of_lt 32 s (by omega)
    have hd0 : ofInt 32 ((d : Int) + 0) = d := by
      rw [add_zero]; exact ofInt_of_lt 32 d (by omega)
    have hs4 : (s + 4) % 2 ^ 32 = s + 4 := Nat.mod_eq_of_lt (by omega)
    have hd4 : (d + 4) % 2 ^ 32 = d + 4 := Nat.mod_eq_of_lt (by omega)
    have hk1 : (k + 1 + 2 ^ 32 - 1) % 2 ^ 32 = k := by omega
    simp only [CloneObjectStub.loop, hk, hne, if_true]
    generalize hT : Cpu.dec 32 _ Register.ecx = T
    have t1 : T.reg Register.eax = s + 4 ∧ T.reg Register.ebx = d + 4 ∧ T.reg Register.ecx = k ∧
        T.reg Register.edx = c.reg Register.edx ∧ T.calls = c.calls ∧
        ∀ a, T.mem a = if a = d then c.mem s else c.mem a := by
      rw [← hT]
      simp only [Cpu.dec, Cpu.addl, Cpu.store, Cpu.mov, Cpu.load, Cpu.address, Cpu.cmpl,
        Cpu.setFlags, Cpu.set, reduceCtorEq, if_true, if_false, hs, hd, hk, hs0, hd0, hs4, hd4,
        hk1, true_and]
      intro a; trivial
    obtain ⟨c', h1, h2, h3, h4, h5⟩ := ih T (s + 4) (d + 4) f t1.1 t1.2.1 t1.2.2.1 (by omega)
      (by omega) (fun i j hi hj => by have := hdis (i + 1) (j + 1) (by omega) (by omega); omega)
      (by omega)
    refine ⟨c', h1, ?_, ?_, h4.trans t1.2.2.2.1, h5.trans t1.2.2.2.2.1⟩
    · intro j hj
      cases j with
      | zero =>
        rw [Nat.mul_zero, Nat.add_zero, Nat.add_zero, h3 d (fun j hj => by omega),
          t1.2.2.2.2.2 d, if_pos rfl]
      | succ j =>
        have e1 : d + 4 * (j + 1) = d + 4 + 4 * j := by omega
        have e2 : s + 4 * (j + 1) = s + 4 + 4 * j := by omega
        have e3 : s + 4 + 4 * j ≠ d := by
          have := hdis 0 (j + 1) (by omega) (by omega); omega
        rw [e1, e2, h2 j (by omega), t1.2.2.2.2.2, if_neg e3]
    · intro a ha
      rw [h3 a (fun j hj => by have := ha (j + 1) (by omega); omega), t1.2.2.2.2.2,
        if_neg (by have := ha 0 (by omega); omega)]

/-- `CloneObjectStub::Generate` for an Object, instruction by instruction:
`c1`, ..., `c8` are the machines before the copy loop. -/
theorem CloneObjectStub_steps (AllocateObjectLiteral : Cpu → Cpu) (fuel : Nat) (c : Cpu)
    (m N o' m' : Nat)
    (hm : c.load 32 ⟨Register.eax, HObject.kMapOffset 4⟩ = m)
    (hN : c.mem (ofInt 32 ((m : Int) + HMap.kSizeOffset 4)) = N) (hNlt : N < 2 ^ 30)
    (hA : ∀ c3 : Cpu, c3.reg Register.eax = m → c3.reg Register.ecx = 2 * N → c3.mem = c.mem →
      (AllocateObjectLiteral c3).reg Register.eax = m ∧
      (AllocateObjectLiteral c3).reg Register.ecx = 2 * N ∧
      (AllocateObjectLiteral c3).reg Register.edx = o' ∧
      (AllocateObjectLiteral c3).load 32 ⟨Register.edx, HObject.kMapOffset 4⟩ = m' ∧
      ∀ j : Nat, j < 2 * N →
        (AllocateObjectLiteral c3).mem (m + 7 + 4 * j) = c.mem (m + 7 + 4 * j))
    (hfit : m + 7 + 4 * (2 * N) < 2 ^ 32) (hfit' : m' + 7 + 4 * (2 * N) < 2 ^ 32)
    (hdis : ∀ i j : Nat, i < 2 * N → j < 2 * N → m' + 7 + 4 * i ≠ m + 7 + 4 * j)
    (hfuel : 2 * N < fuel)
    (c1 c2 c3 c4 c5 c6 c7 c8 : Cpu)
    (g1 : c1 = c.mov Register.eax (c.load 32 ⟨Register.eax, HObject.kMapOffset 4⟩))
    (g2 : c2 = c1.mov Register.ecx (c1.load 32 ⟨Register.eax, HMap.kSizeOffset 4⟩))
    (g3 : c3 = Masm.TagNumber 32 c2 Register.ecx)
    (g4 : c4 = AllocateObjectLiteral c3)
    (g5 : c5 = c4.mov Register.ebx (c4.reg Register.edx))
    (g6 : c6 = c5.mov Register.ebx (c5.load 32 ⟨Register.ebx, HObject.kMapOffset 4⟩))
    (g7 : c7 = c6.addl 32 Register.eax (ofInt 32 (HMap.kSpaceOffset 4)))
    (g8 : c8 = c7.addl 32 Register.ebx (ofInt 32 (HMap.kSpaceOffset 4))) :
    ∃ c' : Cpu,
      (CloneObjectStub.loop fuel c8).map (fun c => c.mov Register.eax (c.reg Register.edx))
        = some c' ∧
      c'.reg Register.eax = o' ∧
      (∀ j : Nat, j < 2 * N → c'.mem (m' + 7 + 4 * j) = c.mem (m + 7 + 4 * j)) ∧
      (∀ a : Nat, (∀ j : Nat, j < 2 * N → a ≠ m' + 7 + 4 * j) → c'.mem a = c4.mem a) ∧
      c'.calls = c4.calls := by
  have q1 : (m + 7) % 2 ^ 32 = m + 7 := Nat.mod_eq_of_lt (by omega)
  have q2 : (m' + 7) % 2 ^ 32 = m' + 7 := Nat.mod_eq_of_lt (by omega)
  have q3 : (N * 2 ^ 1) % 2 ^ 32 = 2 * N := by omega
  have q4 : ofInt 32 (HMap.kSpaceOffset 4) = 7 := by decide
  have e1 : c1.reg Register.eax = m ∧ c1.mem = c.mem := by
    simp only [g1, Cpu.mov, Cpu.set, if_true, hm, and_self]
  have e2 : c2.reg Register.eax = m ∧ c2.reg Register.ecx = N ∧ c2.mem = c.mem := by
    simp only [g2, Cpu.mov, Cpu.set, Cpu.load, Cpu.address, if_true, reduceCtorEq, if_false,
      e1.1, e1.2, hN, and_self]
  have e3 : c3.reg Register.eax = m ∧ c3.reg Register.ecx = 2 * N ∧ c3.mem = c.mem := by
    simp only [g3, Masm.TagNumber, Cpu.shl, Cpu.set, sal, if_true, reduceCtorEq, if_false,
      e2.1, e2.2.1, e2.2.2, q3, and_self]
  obtain ⟨a1, a2, a3, a4, a5⟩ := hA c3 e3.1 e3.2.1 e3.2.2
  rw [← g4] at a1 a2 a3 a4 a5
  simp only [Cpu.load, Cpu.address, a3] at a4
  have e5 : c5.reg Register.eax = m ∧ c5.reg Register.ecx = 2 * N ∧ c5.reg Register.edx = o' ∧
      c5.reg Register.ebx = o' ∧ c5.mem = c4.mem ∧ c5.calls = c4.calls := by
    simp only [g5, Cpu.mov, Cpu.set, if_true, reduceCtorEq, if_false, a1, a2, a3, and_self]
  have e6 : c6.reg Register.eax = m ∧ c6.reg Register.ecx = 2 * N ∧ c6.reg Register.edx = o' ∧
      c6.reg Register.ebx = m' ∧ c6.mem = c4.mem ∧ c6.calls = c4.calls := by
    simp only [g6, Cpu.mov, Cpu.set, Cpu.load, Cpu.address, if_true, reduceCtorEq, if_false,
      e5.1, e5.2.1, e5.2.2.1, e5.2.2.2.1, e5.2.2.2.2.1, e5.2.2.2.2.2, a4, and_self]
  have e7 : c7.reg Register.eax = m + 7 ∧ c7.reg Register.ecx = 2 * N ∧
      c7.reg Register.edx = o' ∧ c7.reg Register.ebx = m' ∧ c7.mem = c4.mem ∧
      c7.calls = c4.calls := by
    simp only [g7, Cpu.addl, Cpu.setFlags, Cpu.set, if_true, reduceCtorEq, if_false,
      e6.1, e6.2.1, e6.2.2.1, e6.2.2.2.1, e6.2.2.2.2.1, e6.2.2.2.2.2, q4, q1, and_self]
  have e8 : c8.reg Register.eax = m + 7 ∧ c8.reg Register.ecx = 2 * N ∧
      c8.reg Register.edx = o' ∧ c8.reg Register.ebx = m' + 7 ∧ c8.mem = c4.mem ∧
      c8.calls = c4.calls := by
    simp only [g8, Cpu.addl, Cpu.setFlags, Cpu.set, if_true, reduceCtorEq, if_false,
      e7.1, e7.2.1, e7.2.2.1, e7.2.2.2.1, e7.2.2.2.2.1, e7.2.2.2.2.2, q4, q2, and_self]
  obtain ⟨c', h1, h2, h3, h4, h5⟩ := CloneObjectStub_loop_spec (2 * N) c8 (m + 7) (m' + 7) fuel
    e8.1 e8.2.2.2.1 e8.2.1 hfit hfit' hdis hfuel
  refine ⟨c'.mov Register.eax (c'.reg Register.edx), by rw [h1]; rfl, ?_, ?_, ?_, ?_⟩
  · simp only [Cpu.mov, Cpu.set, if_true]
    exact h4.trans e8.2.2.1
  · intro j hj
    show c'.mem (m' + 7 + 4 * j) = _
    rw [h2 j hj, e8.2.2.2.2.1, a5 j hj]
  · intro a ha
    show c'.mem a = _
    rw [h3 a ha, e8.2.2.2.2.1]
  · show c'.calls = _
    rw [h5, e8.2.2.2.2.2]

/-- C17: for an Object receiver whose map `m` has `N` slots, when the macro
`AllocateObjectLiteral` keeps `eax` and `ecx`, returns in `edx` a new object
`o'` whose map `m'` has `N` slots and leaves the slots of `m` as they were,
with the slots of `m'` apart from those of `m` and from the header of `o'`,
`CloneObjectStub::Generate` returns `o'`, whose map is `m'` of size `N`; the
`2 N` words of the space of `m'` (the `N` keys, then the `N` values) are the
words of the space of `m`, no other word is written after the allocation, and
the space of `m` is unchanged. -/
theorem CloneObjectStub_copies_map (AllocateObjectLiteral : Cpu → Cpu) (fuel : Nat) (c : Cpu)
    (m N o' m' : Nat)
    (hobj : Masm.IsHeapObject 32 c kTagObject Register.eax = true)
    (hm : c.load 32 ⟨Register.eax, HObject.kMapOffset 4⟩ = m)
    (hN : c.mem (ofInt 32 ((m : Int) + HMap.kSizeOffset 4)) = N) (hNlt : N < 2 ^ 30)
    (hA : ∀ c3 : Cpu, c3.reg Register.eax = m → c3.reg Register.ecx = 2 * N → c3.mem = c.mem →
      (AllocateObjectLiteral c3).reg Register.eax = m ∧
      (AllocateObjectLiteral c3).reg Register.ecx = 2 * N ∧
      (AllocateObjectLiteral c3).reg Register.edx = o' ∧
      (AllocateObjectLiteral c3).load 32 ⟨Register.edx, HObject.kMapOffset 4⟩ = m' ∧
      (AllocateObjectLiteral c3).mem (ofInt 32 ((m' : Int) + HMap.kSizeOffset 4)) = N ∧
      ∀ j : Nat, j < 2 * N →
        (AllocateObjectLiteral c3).mem (m + 7 + 4 * j) = c.mem (m + 7 + 4 * j))
    (hfit : m + 7 + 4 * (2 * N) < 2 ^ 32) (hfit' : m' + 7 + 4 * (2 * N) < 2 ^ 32)
    (hdis : ∀ i j : Nat, i < 2 * N → j < 2 * N → m' + 7 + 4 * i ≠ m + 7 + 4 * j)
    (hsep : ∀ j : Nat, j < 2 * N →
      ofInt 32 ((o' : Int) + HObject.kMapOffset 4) ≠ m' + 7 + 4 * j)
    (hfuel : 2 * N < fuel) :
    HMap.kSpaceOffset 4 = 7 ∧
    ∃ c3 c' : Cpu,
      c3.reg Register.eax = m ∧ c3.reg Register.ecx = 2 * N ∧ c3.mem = c.mem ∧
      CloneObjectStub.Generate AllocateObjectLiteral fuel c = some c' ∧
      c'.reg Register.eax = o' ∧
      c'.load 32 ⟨Register.eax, HObject.kMapOffset 4⟩ = m' ∧
      c'.mem (ofInt 32 ((m' : Int) + HMap.kSizeOffset 4)) = N ∧
      (∀ j : Nat, j < 2 * N → c'.mem (m' + 7 + 4 * j) = c.mem (m + 7 + 4 * j)) ∧
      (∀ a : Nat, (∀ j : Nat, j < 2 * N → a ≠ m' + 7 + 4 * j) →
        c'.mem a = (AllocateObjectLiteral c3).mem a) ∧
      (∀ j : Nat, j < 2 * N → c'.mem (m + 7 + 4 * j) = c.mem (m + 7 + 4 * j)) := by
  refine ⟨by decide, ?_⟩
  obtain ⟨u1, u2⟩ := IsHeapObject_boxed _ _ _ _ hobj
  have hcond : ¬ ((Masm.IsUnboxed c Register.eax || Masm.IsNil c Register.eax ||
      !Masm.IsHeapObject 32 c kTagObject Register.eax) = true) := by
    rw [u1, u2, hobj]; decide
  have hsz : ofInt 32 ((m' : Int) + HMap.kSizeOffset 4) = m' + 3 :=
    ofInt_eq_of_cast 32 m' _ (m' + 3) (by simp only [HMap.kSizeOffset, HINTERIOR_OFFSET]; omega)
      (by omega)
  have hA' : ∀ c3 : Cpu, c3.reg Register.eax = m → c3.reg Register.ecx = 2 * N →
      c3.mem = c.mem →
      (AllocateObjectLiteral c3).reg Register.eax = m ∧
      (AllocateObjectLiteral c3).reg Register.ecx = 2 * N ∧
      (AllocateObjectLiteral c3).reg Register.edx = o' ∧
      (AllocateObjectLiteral c3).load 32 ⟨Register.edx, HObject.kMapOffset 4⟩ = m' ∧
      ∀ j : Nat, j < 2 * N →
        (AllocateObjectLiteral c3).mem (m + 7 + 4 * j) = c.mem (m + 7 + 4 * j) :=
    fun c3 h1 h2 h3 => ⟨(hA c3 h1 h2 h3).1, (hA c3 h1 h2 h3).2.1, (hA c3 h1 h2 h3).2.2.1,
      (hA c3 h1 h2 h3).2.2.2.1, (hA c3 h1 h2 h3).2.2.2.2.2⟩
  obtain ⟨c', h1, h2, h3, h4, _⟩ := CloneObjectStub_steps AllocateObjectLiteral fuel c m N o' m'
    hm hN hNlt hA' hfit hfit' hdis hfuel _ _ _ _ _ _ _ _ rfl rfl rfl rfl rfl rfl rfl rfl
  have e3 : (Masm.TagNumber 32 ((c.mov Register.eax (c.load 32
        ⟨Register.eax, HObject.kMapOffset 4⟩)).mov Register.ecx
        ((c.mov Register.eax (c.load 32 ⟨Register.eax, HObject.kMapOffset 4⟩)).load 32
          ⟨Register.eax, HMap.kSizeOffset 4⟩)) Register.ecx).reg Register.eax = m ∧
      (Masm.TagNumber 32 ((c.mov Register.eax (c.load 32
        ⟨Register.eax, HObject.kMapOffset 4⟩)).mov Register.ecx
        ((c.mov Register.eax (c.load 32 ⟨Register.eax, HObject.kMapOffset 4⟩)).load 32
          ⟨Register.eax, HMap.kSizeOffset 4⟩)) Register.ecx).reg Register.ecx = 2 * N ∧
      (Masm.TagNumber 32 ((c.mov Register.eax (c.load 32
        ⟨Register.eax, HObject.kMapOffset 4⟩)).mov Register.ecx
        ((c.mov Register.eax (c.load 32 ⟨Register.eax, HObject.kMapOffset 4⟩)).load 32
          ⟨Register.eax, HMap.kSizeOffset 4⟩)) Register.ecx).mem = c.mem := by
    have q3 : (N * 2 ^ 1) % 2 ^ 32 = 2 * N := by omega
    have hm2 := hm
    simp only [Cpu.load, Cpu.address] at hm2
    simp only [Masm.TagNumber, Cpu.shl, Cpu.mov, Cpu.set, Cpu.load, Cpu.address, sal, if_true,
      reduceCtorEq, if_false, hm2, hN, q3, and_self]
  obtain ⟨b1, b2, b3, b4, b5, b6⟩ := hA _ e3.1 e3.2.1 e3.2.2
  refine ⟨_, c', e3.1, e3.2.1, e3.2.2, ?_, h2, ?_, ?_, h3, h4, ?_⟩
  · rw [CloneObjectStub.Generate, if_neg hcond]
    exact h1
  · simp only [Cpu.load, Cpu.address, h2]
    rw [h4 _ hsep, ← b3]
    exact b4
  · rw [hsz, h4 _ (fun j hj => by omega), ← hsz]
    exact b5
  · intro j hj
    rw [h4 _ (fun i hi => (hdis i j hi hj).symm)]
    exact b6 j hj

/-- The allocation `sampleAllocate` meets what `CloneObjectStub_copies_map`
asks of the macro, for the map at 2001 of `cloneSample`. -/
theorem sampleAllocate_spec (c3 : Cpu) (h1 : c3.reg Register.eax = 2001)
    (h2 : c3.reg Register.ecx = 2 * 2) (h3 : c3.mem = cloneSample.mem) :
    (sampleAllocate c3).reg Register.eax = 2001 ∧
    (sampleAllocate c3).reg Register.ecx = 2 * 2 ∧
    (sampleAllocate c3).reg Register.edx = 5001 ∧
    (sampleAllocate c3).load 32 ⟨Register.edx, HObject.kMapOffset 4⟩ = 6001 ∧
    (sampleAllocate c3).mem (ofInt 32 (((6001 : Nat) : Int) + HMap.kSizeOffset 4)) = 2 ∧
    ∀ j : Nat, j < 2 * 2 →
      (sampleAllocate c3).mem (2001 + 7 + 4 * j) = cloneSample.mem (2001 + 7 + 4 * j) := by
  have hx : ofInt 32 (((5001 : Nat) : Int) + HObject.kMapOffset 4) = 5008 := by decide
  have hy : ofInt 32 (((6001 : Nat) : Int) + HMap.kSizeOffset 4) = 6004 := by decide
  refine ⟨h1, h2, rfl, ?_, ?_, ?_⟩
  · simp only [Cpu.load, Cpu.address, sampleAllocate, if_true, hx]
    rfl
  · rw [hy]; rfl
  · intro j hj
    simp only [sampleAllocate, h3]
    interval_cases j <;> rfl

theorem CloneObjectStub_copies_map_witness :
    cloneSample.mem 2008 = 3001 ∧ cloneSample.mem 2016 = 84 ∧
    ∃ c' : Cpu, CloneObjectStub.Generate sampleAllocate 10 cloneSample = some c' ∧
      c'.reg Register.eax = 5001 ∧ c'.mem 6008 = 3001 ∧ c'.mem 6016 = 84 ∧
      c'.mem 2008 = 3001 :=
  ⟨by decide, by decide,
    match (CloneObjectStub_copies_map sampleAllocate 10 cloneSample 2001 2 5001 6001 (by decide)
      (by decide) (by decide) (by decide) sampleAllocate_spec
      (by decide) (by decide) (fun i j _ _ => by omega)
      (fun j _ => by
        have h : ofInt 32 (((5001 : Nat) : Int) + HObject.kMapOffset 4) = 5008 := by decide
        rw [h]; omega)
      (by decide)).2 with
    | ⟨_, c', _, _, _, h1, h2, _, _, h3, _, h4⟩ =>
      ⟨c', h1, h2, (h3 0 (by decide)).trans (by decide), (h3 2 (by decide)).trans (by decide),
        (h4 0 (by decide)).trans (by decide)⟩⟩

/-! ## Spill slots, the saved argc and the frame -/

theorem frame_address (c : Cpu) (d : Int) (hlo : 0 ≤ (c.reg Register.ebp : Int) + d)
    (hhi : (c.reg Register.ebp : Int) + d < 2 ^ 32) :
    ((c.address 32 ⟨Register.ebp, d⟩ : Nat) : Int) = (c.reg Register.ebp : Int) + d := by
  unfold Cpu.address ofInt
  simp only
  rw [Int.emod_eq_of_lt hlo hhi, Int.toNat_of_nonneg hlo]

/-- C22: for stack-slot intervals `s` and `t` with distinct non-negative
indices whose slots lie inside the address space below the frame pointer,
`LUse::ToOperand` addresses the word at `fp - 4 * (index + 3)`; the two
four-byte slots are disjoint; the slot of `s` ends at or below the saved argc
at `fp - 8`, which ends below the saved frame pointer at `fp` and the return
address at `fp + 4`; and after the prologue of `LEntry::Generate` (with
macros that keep `ebp`, `eax` and, for the context, memory) a store into the
slot leaves the saved argc as the prologue wrote it. -/
theorem LUse_ToOperand_slots_disjoint (c : Cpu) (s t : LInterval)
    (hs : s.is_stackslot = true) (ht : t.is_stackslot = true)
    (hi : 0 ≤ s.index) (hj : 0 ≤ t.index) (hne : s.index ≠ t.index)
    (hfs : 4 * (s.index + 3) ≤ (c.reg Register.ebp : Int))
    (hft : 4 * (t.index + 3) ≤ (c.reg Register.ebp : Int))
    (htop : c.reg Register.ebp + 8 ≤ 2 ^ 32) :
    ∃ a b, LUse.ToOperand s = some a ∧ LUse.ToOperand t = some b ∧
      ((c.address 32 a : Nat) : Int) = (c.reg Register.ebp : Int) - 4 * (s.index + 3) ∧
      (c.address 32 a + 4 ≤ c.address 32 b ∨ c.address 32 b + 4 ≤ c.address 32 a) ∧
      c.address 32 a + 4 ≤ c.address 32 ⟨Register.ebp, -((HValue.kPointerSize : Int) * 2)⟩ ∧
      c.address 32 ⟨Register.ebp, -((HValue.kPointerSize : Int) * 2)⟩ + 4
        ≤ c.address 32 ⟨Register.ebp, 0⟩ ∧
      c.address 32 ⟨Register.ebp, 0⟩ + 4 = c.address 32 ⟨Register.ebp, 4⟩ ∧
      ∀ (AllocateSpills AllocateContext : Cpu → Cpu) (c0 : Cpu) (v : Nat),
        (∀ x, (AllocateSpills x).reg Register.ebp = x.reg Register.ebp ∧
          (AllocateSpills x).reg Register.eax = x.reg Register.eax) →
        (∀ x, (AllocateContext x).reg Register.ebp = x.reg Register.ebp ∧
          (AllocateContext x).mem = x.mem) →
        LEntry.Generate AllocateSpills AllocateContext c0 = c →
        ((c.store 32 a v).load 32 ⟨Register.ebp, -((HValue.kPointerSize : Int) * 2)⟩
          = c0.reg Register.eax) := by
  have ha := frame_address c (-((HValue.kPointerSize : Int) * (s.index + 3)))
    (by unfold HValue.kPointerSize; push_cast; omega)
    (by unfold HValue.kPointerSize; push_cast; omega)
  have hb := frame_address c (-((HValue.kPointerSize : Int) * (t.index + 3)))
    (by unfold HValue.kPointerSize; push_cast; omega)
    (by unfold HValue.kPointerSize; push_cast; omega)
  have hc := frame_address c (-((HValue.kPointerSize : Int) * 2))
    (by unfold HValue.kPointerSize; push_cast; omega)
    (by unfold HValue.kPointerSize; push_cast; omega)
  have h0 := frame_address c 0 (by omega) (by omega)
  have h4 := frame_address c 4 (by omega) (by omega)
  simp only [HValue.kPointerSize, Nat.cast_ofNat] at ha hb hc
  refine ⟨_, _, if_pos hs, if_pos ht, ?_, ?_, ?_, ?_, ?_, ?_⟩
  · simp only [HValue.kPointerSize, Nat.cast_ofNat]; omega
  · simp only [HValue.kPointerSize, Nat.cast_ofNat]; omega
  · simp only [HValue.kPointerSize, Nat.cast_ofNat]; omega
  · simp only [HValue.kPointerSize, Nat.cast_ofNat]; omega
  · omega
  · intro AS AC c0 v hAS hAC hgen
    have hne2 : c.address 32 ⟨Register.ebp, -(4 * 2)⟩
        ≠ c.address 32 ⟨Register.ebp, -(4 * (s.index + 3))⟩ := by omega
    have hload : (c.store 32 ⟨Register.ebp, -(4 * (s.index + 3))⟩ v).load 32
        ⟨Register.ebp, -(4 * 2)⟩ = c.mem (c.address 32 ⟨Register.ebp, -(4 * 2)⟩) := by
      simp only [Cpu.load, Cpu.store, Cpu.address] at hne2 ⊢
      rw [if_neg hne2]
    simp only [HValue.kPointerSize, Nat.cast_ofNat]
    rw [hload, ← hgen]
    simp only [LEntry.Generate, HValue.kPointerSize, Nat.cast_ofNat, Cpu.address, Cpu.store,
      (hAC _).1, (hAC _).2, (hAS _).1, (hAS _).2, Cpu.mov, Cpu.set, Cpu.push, if_true]
    simp

/-- The frame of `frameOfCall` (frame pointer 1024) with the spill slots 0 and 1. -/
theorem LUse_ToOperand_slots_disjoint_witness :
    frameOfCall.reg Register.ebp = 1024 ∧
    ∃ a b, LUse.ToOperand (LInterval.blank.Spill 0) = some a ∧
      LUse.ToOperand (LInterval.blank.Spill 1) = some b ∧
      ((frameOfCall.address 32 a : Nat) : Int)
        = (frameOfCall.reg Register.ebp : Int) - 4 * ((LInterval.blank.Spill 0).index + 3) ∧
      (frameOfCall.address 32 a + 4 ≤ frameOfCall.address 32 b ∨
        frameOfCall.address 32 b + 4 ≤ frameOfCall.address 32 a) ∧
      frameOfCall.address 32 a + 4
        ≤ frameOfCall.address 32 ⟨Register.ebp, -((HValue.kPointerSize : Int) * 2)⟩ ∧
      frameOfCall.address 32 ⟨Register.ebp, -((HValue.kPointerSize : Int) * 2)⟩ + 4
        ≤ frameOfCall.address 32 ⟨Register.ebp, 0⟩ ∧
      frameOfCall.address 32 ⟨Register.ebp, 0⟩ + 4 = frameOfCall.address 32 ⟨Register.ebp, 4⟩ ∧
      ∀ (AllocateSpills AllocateContext : Cpu → Cpu) (c0 : Cpu) (v : Nat),
        (∀ x, (AllocateSpills x).reg Register.ebp = x.reg Register.ebp ∧
          (AllocateSpills x).reg Register.eax = x.reg Register.eax) →
        (∀ x, (AllocateContext x).reg Register.ebp = x.reg Register.ebp ∧
          (AllocateContext x).mem = x.mem) →
        LEntry.Generate AllocateSpills AllocateContext c0 = frameOfCall →
        ((frameOfCall.store 32 a v).load 32
          ⟨Register.ebp, -((HValue.kPointerSize : Int) * 2)⟩ = c0.reg Register.eax) :=
  ⟨by decide, LUse_ToOperand_slots_disjoint frameOfCall (LInterval.blank.Spill 0)
    (LInterval.blank.Spill 1) (by decide) (by decide) (by decide) (by decide) (by decide)
    (by decide) (by decide) (by decide)⟩

/-! ## Local live sets (`ComputeLocalLiveSets`) -/

theorem mem_setKey (k x : Nat) (l : List Nat) : k ∈ setKey x l ↔ k = x ∨ k ∈ l := by
  unfold setKey
  split_ifs with h
  · constructor
    · intro hk; exact Or.inr hk
    · rintro (rfl | hk)
      · exact h
      · exact hk
  · simp only [List.mem_append, List.mem_singleton]
    tauto

theorem mem_genLoop (kill : List Nat) (k : Nat) :
    ∀ (inputs : List (Nat × UseType)) (gen : List Nat),
      k ∈ inputs.foldl (fun gen inp => if inp.1 ∈ kill then gen else setKey inp.1 gen) gen ↔
        k ∈ gen ∨ (k ∈ inputs.map Prod.fst ∧ k ∉ kill)
  | [], gen => by simp
  | inp :: rest, gen => by
    rw [List.foldl_cons, mem_genLoop kill k rest]
    by_cases hin : inp.1 ∈ kill
    · rw [if_pos hin]
      simp only [List.map_cons, List.mem_cons]
      constructor
      · rintro (h | ⟨h1, h2⟩)
        · exact Or.inl h
        · exact Or.inr ⟨Or.inr h1, h2⟩
      · rintro (h | ⟨h1 | h1, h2⟩)
        · exact Or.inl h
        · exact absurd (h1 ▸ hin) h2
        · exact Or.inr ⟨h1, h2⟩
    · rw [if_neg hin, mem_setKey]
      simp only [List.map_cons, List.mem_cons]
      constructor
      · rintro ((h | h) | ⟨h1, h2⟩)
        · exact Or.inr ⟨Or.inl h, h ▸ hin⟩
        · exact Or.inl h
        · exact Or.inr ⟨Or.inr h1, h2⟩
      · rintro (h | ⟨h1 | h1, h2⟩)
        · exact Or.inl (Or.inr h)
        · exact Or.inl (Or.inl h1)
        · exact Or.inr ⟨h1, h2⟩

theorem mem_killLoop (k : Nat) :
    ∀ (scratches : List (Nat × UseType)) (kill : List Nat),
      k ∈ scratches.foldl (fun kill sc => setKey sc.1 kill) kill ↔
        k ∈ kill ∨ k ∈ scratches.map Prod.fst
  | [], kill => by simp
  | sc :: rest, kill => by
    rw [List.foldl_cons, mem_killLoop k rest, mem_setKey]
    simp only [List.map_cons, List.mem_cons]
    tauto

theorem mem_localLiveInstr (gk : List Nat × List Nat) (instr : LInstruction) (k : Nat) :
    (k ∈ (localLiveInstr gk instr).1 ↔
      k ∈ gk.1 ∨ (k ∈ instr.inputs.map Prod.fst ∧ k ∉ gk.2)) ∧
    (k ∈ (localLiveInstr gk instr).2 ↔ k ∈ gk.2 ∨ instr.defines k) := by
  unfold localLiveInstr LInstruction.defines
  refine ⟨mem_genLoop gk.2 k instr.inputs gk.1, ?_⟩
  cases hr : instr.result with
  | none => simp [mem_killLoop]
  | some r =>
    simp only [mem_setKey, mem_killLoop, Option.map_some', Option.some.injEq]
    constructor
    · rintro (h | h | h)
      · exact Or.inr (Or.inr h.symm)
      · exact Or.inl h
      · exact Or.inr (Or.inl h)
    · rintro (h | h | h)
      · exact Or.inr (Or.inl h)
      · exact Or.inr (Or.inr h)
      · exact Or.inl h.symm

theorem mem_localLive_kill (k : Nat) :
    ∀ (instrs : List LInstruction) (gk : List Nat × List Nat),
      k ∈ (instrs.foldl localLiveInstr gk).2 ↔ k ∈ gk.2 ∨ ∃ i ∈ instrs, i.defines k
  | [], gk => by simp
  | i :: rest, gk => by
    rw [List.foldl_cons, mem_localLive_kill k rest, (mem_localLiveInstr gk i k).2]
    simp only [List.mem_cons, exists_eq_or_imp]
    tauto

theorem mem_localLive_gen (k : Nat) :
    ∀ (instrs : List LInstruction) (gk : List Nat × List Nat),
      k ∈ (instrs.foldl localLiveInstr gk).1 ↔
        k ∈ gk.1 ∨ (k ∉ gk.2 ∧ ∃ pre i post, instrs = pre ++ i :: post ∧
          k ∈ i.inputs.map Prod.fst ∧ ∀ j ∈ pre, ¬ j.defines k)
  | [], gk => by simp
  | i :: rest, gk => by
    rw [List.foldl_cons, mem_localLive_gen k rest, (mem_localLiveInstr gk i k).1,
      (mem_localLiveInstr gk i k).2]
    constructor
    · rintro ((h | ⟨h1, h2⟩) | ⟨h1, pre, x, post, hsplit, hx, hpre⟩)
      · exact Or.inl h
      · exact Or.inr ⟨h2, [], i, rest, rfl, h1, by simp⟩
      · refine Or.inr ⟨fun h => h1 (Or.inl h), i :: pre, x, post, by rw [hsplit]; rfl, hx, ?_⟩
        intro j hj
        rcases List.mem_cons.1 hj with rfl | hj
        · exact fun h => h1 (Or.inr h)
        · exact hpre j hj
    · rintro (h | ⟨h1, pre, x, post, hsplit, hx, hpre⟩)
      · exact Or.inl (Or.inl h)
      · cases pre with
        | nil =>
          simp only [List.nil_append, List.cons.injEq] at hsplit
          obtain ⟨rfl, rfl⟩ := hsplit
          exact Or.inl (Or.inr ⟨hx, h1⟩)
        | cons p pre =>
          simp only [List.cons_append, List.cons.injEq] at hsplit
          obtain ⟨rfl, rfl⟩ := hsplit
          refine Or.inr ⟨?_, pre, x, post, rfl, hx, fun j hj => hpre j (List.mem_cons_of_mem _ hj)⟩
          rintro (h | h)
          · exact h1 h
          · exact hpre i (List.mem_cons_self _ _) h

theorem instrUses_blocks (g : LGen) (instr : LInstruction) :
    (g.instrUses instr).blocks = g.blocks := by
  have hfold : ∀ (l : List (Nat × UseType)) (g : LGen),
      (l.foldl (fun g u => g.put ((g.get u.1).Use u.2 instr.id)) g).blocks = g.blocks := by
    intro l
    induction l with
    | nil => intro g; rfl
    | cons u rest ih => intro g; rw [List.foldl_cons, ih]; rfl
  unfold LGen.instrUses
  cases instr.result with
  | none => simp only [hfold]
  | some u =>
    show LGen.blocks (LGen.put _ _) = g.blocks
    show LGen.blocks (List.foldl _ _ instr.scratches) = g.blocks
    rw [hfold, hfold]

theorem init_blocks (p : LProgram) :
    (LGen.init p).blocks = p.blocks.map (fun b => ⟨b.1, b.2, [], [], [], [], -1, -1⟩) := by
  have hfold : ∀ (l : List LInstruction) (g : LGen),
      (l.foldl LGen.instrUses g).blocks = g.blocks := by
    intro l
    induction l with
    | nil => intro g; rfl
    | cons u rest ih => intro g; rw [List.foldl_cons, ih, instrUses_blocks]
  unfold LGen.init
  simp only [hfold]

/-- C30: after `ComputeLocalLiveSets` on the generator state that instruction
generation leaves, every block keeps its instructions, its `live_kill` holds
exactly the intervals that are the result or a scratch of one of its
instructions, and its `live_gen` holds exactly the intervals that are an input
of an instruction of the block and neither the result nor a scratch of a
strictly earlier instruction of the block. An interval that is an input and
the result of the same instruction, and of no earlier one, is in `live_gen`. -/
theorem ComputeLocalLiveSets_gen_kill (p : LProgram) (b : LBlock)
    (hb : b ∈ ((LGen.init p).ComputeLocalLiveSets).blocks) (k : Nat) :
    (∃ x ∈ p.blocks, b.instructions = x.1) ∧
    (k ∈ b.live_kill ↔ ∃ i ∈ b.instructions, i.defines k) ∧
    (k ∈ b.live_gen ↔ ∃ pre i post, b.instructions = pre ++ i :: post ∧
      k ∈ i.inputs.map Prod.fst ∧ ∀ j ∈ pre, ¬ j.defines k) := by
  unfold LGen.ComputeLocalLiveSets at hb
  simp only [init_blocks, List.map_map, List.mem_map, Function.comp] at hb
  obtain ⟨x, hx, rfl⟩ := hb
  refine ⟨⟨x, hx, rfl⟩, ?_, ?_⟩
  · simp only [LBlock.ComputeLocalLiveSets, mem_localLive_kill, List.not_mem_nil, false_or]
  · simp only [LBlock.ComputeLocalLiveSets, mem_localLive_gen, List.not_mem_nil, false_or,
      not_false_eq_true, true_and]

/-- The loop header of `loopProgram` and the interval 10. -/
theorem ComputeLocalLiveSets_gen_kill_witness :
    blockAt liveSample.blocks 1 ∈ ((LGen.init loopProgram).ComputeLocalLiveSets).blocks ∧
    (∃ x ∈ loopProgram.blocks, (blockAt liveSample.blocks 1).instructions = x.1) ∧
    (10 ∈ (blockAt liveSample.blocks 1).live_kill ↔
      ∃ i ∈ (blockAt liveSample.blocks 1).instructions, i.defines 10) ∧
    (10 ∈ (blockAt liveSample.blocks 1).live_gen ↔ ∃ pre i post,
      (blockAt liveSample.blocks 1).instructions = pre ++ i :: post ∧
      10 ∈ i.inputs.map Prod.fst ∧ ∀ j ∈ pre, ¬ j.defines 10) :=
  ⟨by decide, ComputeLocalLiveSets_gen_kill loopProgram (blockAt liveSample.blocks 1)
    (by decide) 10⟩

/-! ## Phi arity -/

theorem addedInputs_append (a b : List PhiCall) :
    addedInputs (a ++ b) = addedInputs a ++ addedInputs b := by
  induction a with
  | nil => rfl
  | cons c cs ih =>
    cases c with
    | addInput i => simp [addedInputs, ih]
    | nilify => simp [addedInputs, ih]

theorem PhiInv_fresh : PhiInv [] HIRPhi.New where
  count := rfl
  le_two := by decide
  size := rfl
  inputs := fun j hj => absurd hj (by simp [HIRPhi.New])
  kind := rfl
  nil_first := fun pre post h => by simp at h

theorem PhiInv_step {cs : List PhiCall} {p q : HIRPhi} (c : PhiCall) (h : PhiInv cs p)
    (hc : p.call c = some q) : PhiInv (cs ++ [c]) q := by
  cases c with
  | addInput instr =>
    simp only [HIRPhi.call, HIRPhi.AddInput, assert, Option.bind_eq_bind, Option.pure_def] at hc
    by_cases h1 : p.input_count_ < 2
    · by_cases h2 : instr ≠ 0
      · simp only [h1, decide_True, if_true, Option.some_bind] at hc
        rw [if_pos (by simpa using h2)] at hc
        simp only [Option.some_bind, Option.some.injEq] at hc
        subst hc
        have hadd : addedInputs (cs ++ [PhiCall.addInput instr]) = addedInputs cs ++ [instr] := by
          rw [addedInputs_append]; rfl
        refine ⟨?_, ?_, ?_, ?_, ?_, ?_⟩
        · simp only [hadd, List.length_append, List.length_singleton, h.count]
        · simp only; omega
        · simp only [List.length_set, h.size]
        · intro j hj
          simp only at hj
          rw [hadd]
          by_cases hj2 : j = p.input_count_
          · subst hj2
            rw [List.getElem?_set_self (by rw [h.size]; exact h1)]
            rw [h.count, List.getElem?_append_right (le_refl _)]
            simp
          · have hlt : j < p.input_count_ := by omega
            rw [List.getElem?_set_ne (fun e => hj2 e.symm), h.inputs j hlt,
              List.getElem?_append_left (by rw [← h.count]; exact hlt)]
        · simp only [h.kind, List.mem_append, List.mem_singleton, reduceCtorEq, or_false]
        · intro pre post hpp
          rcases List.eq_nil_or_concat post with rfl | ⟨post1, x, rfl⟩
          · have := congrArg List.getLast? hpp
            simp at this
          · have hpp2 : cs ++ [PhiCall.addInput instr]
                = (pre ++ PhiCall.nilify :: post1) ++ [x] := by
              rw [hpp]; simp
            exact h.nil_first pre post1 (List.append_inj_left' hpp2 rfl)
      · simp [h1, h2] at hc
    · simp [h1] at hc
  | nilify =>
    simp only [HIRPhi.call, HIRPhi.Nilify, assert, Option.bind_eq_bind, Option.pure_def] at hc
    by_cases h1 : p.input_count_ = 0
    · simp only [h1, decide_True, if_true, Option.some_bind, Option.some.injEq] at hc
      subst hc
      have hnone : addedInputs cs = [] := List.length_eq_zero.1 (by rw [← h.count, h1])
      have hadd : addedInputs (cs ++ [PhiCall.nilify]) = [] := by
        rw [addedInputs_append, hnone]; rfl
      refine ⟨?_, ?_, ?_, ?_, ?_, ?_⟩
      · simp only [hadd, h1, List.length_nil]
      · simp only [h1]; omega
      · exact h.size
      · intro j hj
        simp only [h1] at hj
        omega
      · simp
      · intro pre post hpp
        have := congrArg addedInputs hpp
        rw [hadd, addedInputs_append] at this
        exact (List.append_eq_nil.1 this.symm).1
    · simp [h1] at hc

theorem PhiInv_calls : ∀ (cs2 cs1 : List PhiCall) (p q : HIRPhi), PhiInv cs1 p →
    HIRPhi.calls cs2 p = some q → PhiInv (cs1 ++ cs2) q
  | [], cs1, p, q, h, hc => by
    simp only [HIRPhi.calls, Option.some.injEq] at hc
    subst hc
    simpa using h
  | c :: cs2, cs1, p, q, h, hc => by
    simp only [HIRPhi.calls] at hc
    cases hp : p.call c with
    | none => simp [hp] at hc
    | some p1 =>
      rw [hp, Option.some_bind] at hc
      have := PhiInv_calls cs2 (cs1 ++ [c]) p1 q (PhiInv_step c h hp) hc
      simpa using this

/-- C24, the sentence as written fails on the fresh phi: no call has been made,
`input_count` is 0 and the kind is Phi, not Nil. After `Nilify` and one
`AddInput` the kind is Nil although `input_count` is 1. -/
theorem HIRPhi_fresh_is_not_nil :
    HIRPhi.calls [] HIRPhi.New = some HIRPhi.New ∧
    HIRPhi.New.input_count = 0 ∧ HIRPhi.New.type_ ≠ HIRKind.kNil ∧
    (HIRPhi.calls [PhiCall.nilify, PhiCall.addInput 6] HIRPhi.New).map
      (fun p => (p.type_, p.input_count)) = some (HIRKind.kNil, 1) := by
  decide

/-- C24, amended: for every phi reached from a fresh phi by a sequence of
`AddInput` and `Nilify` calls whose assertions hold, `input_count` is at most
2 and is the number of `AddInput` calls, `InputAt(j)` for `j < input_count`
returns the `j`-th added input, the kind is Nil exactly when `Nilify` was
called and Phi otherwise, and every `Nilify` call precedes every `AddInput`
call (it was made while `input_count` was 0). -/
theorem HIRPhi_arity (cs : List PhiCall) (p : HIRPhi)
    (h : HIRPhi.calls cs HIRPhi.New = some p) :
    p.input_count ≤ 2 ∧ p.input_count = (addedInputs cs).length ∧
    (∀ j, j < p.input_count →
      ∃ x, p.InputAt j = some x ∧ (addedInputs cs)[j]? = some x) ∧
    (p.type_ = HIRKind.kNil ↔ PhiCall.nilify ∈ cs) ∧
    (p.type_ = HIRKind.kPhi ↔ PhiCall.nilify ∉ cs) ∧
    (∀ pre post, cs = pre ++ PhiCall.nilify :: post → addedInputs pre = []) := by
  have inv := PhiInv_calls cs [] HIRPhi.New p PhiInv_fresh h
  rw [List.nil_append] at inv
  refine ⟨inv.le_two, inv.count, ?_, ?_, ?_, inv.nil_first⟩
  · intro j hj
    have hj2 : j < p.input_count_ := hj
    have hlen : j < (addedInputs cs).length := by rw [← inv.count]; exact hj2
    refine ⟨(addedInputs cs)[j], ?_, List.getElem?_eq_getElem hlen⟩
    simp only [HIRPhi.InputAt, assert, hj2, decide_True, if_true, Option.bind_eq_bind,
      Option.some_bind, inv.inputs j hj2, List.getElem?_eq_getElem hlen]
  · rw [inv.kind]; split_ifs with hn <;> simp [hn]
  · rw [inv.kind]; split_ifs with hn <;> simp [hn]

/-- The phi `Phi(i6, i2)` of the second HIR test. -/
theorem HIRPhi_arity_witness :
    HIRPhi.calls [PhiCall.addInput 6, PhiCall.addInput 2] HIRPhi.New
      = some ⟨HIRKind.kPhi, [6, 2], 2, [6, 2]⟩ ∧
    ((⟨HIRKind.kPhi, [6, 2], 2, [6, 2]⟩ : HIRPhi).input_count ≤ 2 ∧
    (⟨HIRKind.kPhi, [6, 2], 2, [6, 2]⟩ : HIRPhi).input_count
      = (addedInputs [PhiCall.addInput 6, PhiCall.addInput 2]).length ∧
    (∀ j, j < (⟨HIRKind.kPhi, [6, 2], 2, [6, 2]⟩ : HIRPhi).input_count →
      ∃ x, (⟨HIRKind.kPhi, [6, 2], 2, [6, 2]⟩ : HIRPhi).InputAt j = some x ∧
        (addedInputs [PhiCall.addInput 6, PhiCall.addInput 2])[j]? = some x) ∧
    ((⟨HIRKind.kPhi, [6, 2], 2, [6, 2]⟩ : HIRPhi).type_ = HIRKind.kNil ↔
      PhiCall.nilify ∈ [PhiCall.addInput 6, PhiCall.addInput 2]) ∧
    ((⟨HIRKind.kPhi, [6, 2], 2, [6, 2]⟩ : HIRPhi).type_ = HIRKind.kPhi ↔
      PhiCall.nilify ∉ [PhiCall.addInput 6, PhiCall.addInput 2]) ∧
    (∀ pre post, [PhiCall.addInput 6, PhiCall.addInput 2] = pre ++ PhiCall.nilify :: post →
      addedInputs pre = [])) :=
  ⟨by decide, HIRPhi_arity [PhiCall.addInput 6, PhiCall.addInput 2]
    ⟨HIRKind.kPhi, [6, 2], 2, [6, 2]⟩ (by decide)⟩

/-! ## The rule of `TryAllocateFreeReg` -/

theorem getD_setAt (l : List Int) (i v : Int) (r : Nat) (hr : r < l.length) :
    (setAt l i v).getD r 0 = if i = (r : Int) then v else l.getD r 0 := by
  unfold setAt
  by_cases h0 : 0 ≤ i
  · rw [if_pos h0]
    by_cases hir : i = (r : Int)
    · subst hir
      simp [hr]
    · rw [if_neg hir]
      have : i.toNat ≠ r := by omega
      simp [List.getD_eq_getElem?_getD, List.getElem?_set_ne this]
  · rw [if_neg h0, if_neg (by omega)]

theorem length_setAt (l : List Int) (i v : Int) : (setAt l i v).length = l.length := by
  unfold setAt; split_ifs <;> simp

theorem getAt_natCast (l : List Int) (r : Nat) : getAt l (r : Int) = l.getD r 0 := by
  unfold getAt; simp

theorem freeActive_spec (g : LGen) : ∀ (act : List Nat) (fp : List Int),
    (∀ a ∈ act, (g.get a).is_register = true) →
    ∃ fp1, g.freeActive act fp = some fp1 ∧ fp1.length = fp.length ∧
      ∀ r, r < fp.length → fp1.getD r 0 =
        if act.any (fun id => decide ((g.get id).index = (r : Int))) then 0 else fp.getD r 0
  | [], fp, _ => ⟨fp, rfl, rfl, fun r _ => by simp⟩
  | a :: rest, fp, h => by
    obtain ⟨fp1, h1, h2, h3⟩ := freeActive_spec g rest (setAt fp (g.get a).index 0)
      (fun x hx => h x (List.mem_cons_of_mem _ hx))
    refine ⟨fp1, ?_, ?_, ?_⟩
    · simp only [LGen.freeActive, assert, h a (List.mem_cons_self _ _), if_true,
        Option.bind_eq_bind, Option.some_bind, h1]
    · rw [h2, length_setAt]
    · intro r hr
      rw [h3 r (by rw [length_setAt]; exact hr), getD_setAt _ _ _ _ hr]
      simp only [List.any_cons, Bool.or_eq_true, decide_eq_true_eq]
      by_cases hx : (g.get a).index = (r : Int)
      · simp [hx]
      · simp [hx]

theorem freeInactive_spec (g : LGen) (cur : Nat) : ∀ (ina : List Nat) (fp : List Int),
    (∀ a ∈ ina, (g.get a).is_register = true) →
    ∃ fp2, g.freeInactive cur ina fp = some fp2 ∧ fp2.length = fp.length ∧
      ∀ r, r < fp.length → fp2.getD r 0 =
        ((ina.filter (fun id => decide ((g.get id).index = (r : Int) ∧
            (g.get cur).FindIntersection (g.get id) ≠ -1))).map
          (fun id => (g.get cur).FindIntersection (g.get id))).foldl min (fp.getD r 0)
  | [], fp, _ => ⟨fp, rfl, rfl, fun r _ => by simp⟩
  | a :: rest, fp, h => by
    have hreg := h a (List.mem_cons_self _ _)
    have hrest : ∀ x ∈ rest, (g.get x).is_register = true :=
      fun x hx => h x (List.mem_cons_of_mem _ hx)
    by_cases hp : (g.get cur).FindIntersection (g.get a) = -1
    · obtain ⟨fp2, h1, h2, h3⟩ := freeInactive_spec g cur rest fp hrest
      refine ⟨fp2, ?_, h2, ?_⟩
      · simp only [LGen.freeInactive, assert, hreg, if_true, Option.bind_eq_bind,
          Option.some_bind, hp, h1]
      · intro r hr
        rw [h3 r hr, List.filter_cons, if_neg (by simp [hp])]
    · by_cases hle : getAt fp (g.get a).index ≤ (g.get cur).FindIntersection (g.get a)
      · obtain ⟨fp2, h1, h2, h3⟩ := freeInactive_spec g cur rest fp hrest
        refine ⟨fp2, ?_, h2, ?_⟩
        · simp only [LGen.freeInactive, assert, hreg, if_true, Option.bind_eq_bind,
            Option.some_bind, hp, if_false, hle, h1]
        · intro r hr
          rw [h3 r hr, List.filter_cons]
          by_cases hx : (g.get a).index = (r : Int)
          · rw [if_pos (by simp [hx, hp]), List.map_cons, List.foldl_cons]
            rw [hx, getAt_natCast] at hle
            rw [min_eq_left hle]
          · rw [if_neg (by simp [hx])]
      · obtain ⟨fp2, h1, h2, h3⟩ := freeInactive_spec g cur rest
          (setAt fp (g.get a).index ((g.get cur).FindIntersection (g.get a))) hrest
        refine ⟨fp2, ?_, ?_, ?_⟩
        · simp only [LGen.freeInactive, assert, hreg, if_true, Option.bind_eq_bind,
            Option.some_bind, hp, if_false, hle, h1]
        · rw [h2, length_setAt]
        · intro r hr
          rw [h3 r (by rw [length_setAt]; exact hr), getD_setAt _ _ _ _ hr, List.filter_cons]
          by_cases hx : (g.get a).index = (r : Int)
          · rw [if_pos hx, if_pos (by simp [hx, hp]), List.map_cons, List.foldl_cons]
            rw [hx, getAt_natCast] at hle
            rw [min_eq_right (le_of_lt (not_le.1 hle))]
          · rw [if_neg hx, if_neg (by simp [hx])]

theorem maxLoop_spec : ∀ (l : List Int) (i best reg : Int),
    (∀ x ∈ l, x ≤ (maxLoop l i best reg).1) ∧ best ≤ (maxLoop l i best reg).1 ∧
    ((maxLoop l i best reg = (best, reg) ∧ ∀ x ∈ l, x ≤ best) ∨
      ∃ k : Nat, k < l.length ∧ (maxLoop l i best reg).2 = i + k ∧
        l.getD k 0 = (maxLoop l i best reg).1 ∧ best < (maxLoop l i best reg).1 ∧
        ∀ j, j < k → l.getD j 0 < (maxLoop l i best reg).1)
  | [], i, best, reg => ⟨by simp, le_refl _, Or.inl ⟨rfl, by simp⟩⟩
  | p :: ps, i, best, reg => by
    by_cases hp : p > best
    · have ih := maxLoop_spec ps (i + 1) p i
      simp only [maxLoop, if_pos hp]
      refine ⟨?_, by omega, Or.inr ?_⟩
      · intro x hx
        rcases List.mem_cons.1 hx with rfl | hx
        · exact ih.2.1
        · exact ih.1 x hx
      · rcases ih.2.2 with ⟨heq, hall⟩ | ⟨k, hk, hreg, hval, hlt, hfirst⟩
        · refine ⟨0, by simp, ?_, ?_, ?_, ?_⟩
          · rw [heq]; simp
          · rw [heq]; simp
          · rw [heq]; exact hp
          · intro j hj; omega
        · refine ⟨k + 1, by simp [hk], ?_, ?_, by omega, ?_⟩
          · rw [hreg]; push_cast; ring
          · simpa using hval
          · intro j hj
            cases j with
            | zero => simpa using hlt
            | succ j => simpa using hfirst j (by omega)
    · have ih := maxLoop_spec ps (i + 1) best reg
      simp only [maxLoop, if_neg hp]
      refine ⟨?_, ih.2.1, ?_⟩
      · intro x hx
        rcases List.mem_cons.1 hx with rfl | hx
        · have := ih.2.1; omega
        · exact ih.1 x hx
      · rcases ih.2.2 with ⟨heq, hall⟩ | ⟨k, hk, hreg, hval, hlt, hfirst⟩
        · refine Or.inl ⟨heq, ?_⟩
          intro x hx
          rcases List.mem_cons.1 hx with rfl | hx
          · omega
          · exact hall x hx
        · refine Or.inr ⟨k + 1, by simp [hk], ?_, ?_, hlt, ?_⟩
          · rw [hreg]; push_cast; ring
          · simpa using hval
          · intro j hj
            cases j with
            | zero =>
              have : p ≤ best := not_lt.1 hp
              simp only [List.getD_cons_zero]
              omega
            | succ j => simpa using hfirst j (by omega)

theorem freePositions_spec (g : LGen) (cur : Nat)
    (hA : ∀ a ∈ g.active, (g.get a).is_register = true)
    (hI : ∀ a ∈ g.inactive, (g.get a).is_register = true) :
    ∃ fp1, g.freeActive g.active (List.replicate kLIRRegisterCount INT_MAX) = some fp1 ∧
      g.freeInactive cur g.inactive fp1 = some (g.freePositions cur) := by
  obtain ⟨fp1, h1, h2, h3⟩ := freeActive_spec g g.active
    (List.replicate kLIRRegisterCount INT_MAX) hA
  obtain ⟨fp2, h4, h5, h6⟩ := freeInactive_spec g cur g.inactive fp1 hI
  refine ⟨fp1, h1, ?_⟩
  rw [h4]
  congr 1
  apply List.ext_getElem
  · rw [h5, h2]; simp [LGen.freePositions]
  · intro r hr1 hr2
    have hr : r < kLIRRegisterCount := by simpa [LGen.freePositions] using hr2
    have e1 := h6 r (by rw [h2]; simpa using hr)
    have e2 := h3 r (by simpa using hr)
    rw [List.getD_eq_getElem _ _ hr1] at e1
    rw [e1, e2]
    simp only [LGen.freePositions, List.getElem_map, List.getElem_range, LGen.freePosOf]
    congr 1
    simp [List.getD_eq_getElem?_getD, List.getElem?_replicate, hr]

theorem freePositions_getD (g : LGen) (cur k : Nat) (hk : k < kLIRRegisterCount) :
    (g.freePositions cur).getD k 0 = g.freePosOf cur k := by
  simp [LGen.freePositions, List.getD_eq_getElem?_getD, hk]

theorem freeSplitPos_odd (m : Int) :
    freeSplitPos m % 2 = 1 ∧ m - 2 ≤ freeSplitPos m ∧ freeSplitPos m < m := by
  unfold freeSplitPos
  split_ifs with h
  · have := Int.dvd_of_tmod_eq_zero h
    omega
  · have : ¬ m % 2 = 0 := fun h2 => h (Int.tmod_eq_zero_of_dvd (Int.dvd_of_emod_eq_zero h2))
    omega

/-- C26, amended: let `m` be the greatest free position over the registers
(0 for a register of an active interval, else the least intersection of
`current` with an inactive interval of the register, else `INT_MAX`) and `reg`
the first register that has it. When `m - 2 <= current.start` nothing is
allocated and nothing is split. Otherwise, when `m > current.end`, `current`
gets `reg` without a split; when `m <= current.end`, `current` is split at the
greatest odd position below `m` and the part before it gets `reg`. -/
theorem TryAllocateFreeReg_rule (g : LGen) (cur : Nat) (s e : Int)
    (hA : ∀ a ∈ g.active, (g.get a).is_register = true)
    (hI : ∀ a ∈ g.inactive, (g.get a).is_register = true)
    (hs : (g.get cur).start = some s) (he : (g.get cur).end_ = some e) :
    ∃ m reg : Int,
      (∀ r, r < kLIRRegisterCount → g.freePosOf cur r ≤ m) ∧
      (0 ≤ m → ∃ k : Nat, k < kLIRRegisterCount ∧ reg = k ∧ g.freePosOf cur k = m ∧
        ∀ j, j < k → g.freePosOf cur j < m) ∧
      (m < 0 → g.TryAllocateFreeReg cur = none) ∧
      (0 ≤ m → m - 2 ≤ s → g.TryAllocateFreeReg cur = some g) ∧
      (0 ≤ m → s < m - 2 → e < m →
        g.TryAllocateFreeReg cur = some (g.put ((g.get cur).Allocate reg))) ∧
      (0 ≤ m → s < m - 2 → m ≤ e →
        ∃ pos, pos % 2 = 1 ∧ m - 2 ≤ pos ∧ pos < m ∧
          g.TryAllocateFreeReg cur =
            (g.Split cur pos).map (fun x => x.1.put ((x.1.get cur).Allocate reg))) := by
  obtain ⟨fp1, h1, h2⟩ := freePositions_spec g cur hA hI
  have hmax := maxLoop_spec (g.freePositions cur) 0 (-1) 0
  have hrun : ∀ b : Bool, b = decide ((maxLoop (g.freePositions cur) 0 (-1) 0).1 ≥ 0) →
      g.TryAllocateFreeReg cur =
      (assert b).bind (fun _ =>
        if (maxLoop (g.freePositions cur) 0 (-1) 0).1 - 2 ≤ s then some g
        else
          (if (maxLoop (g.freePositions cur) 0 (-1) 0).1 ≤ e then
              (g.Split cur (freeSplitPos (maxLoop (g.freePositions cur) 0 (-1) 0).1)).map Prod.fst
            else some g).bind
            (fun g1 => some (g1.put ((g1.get cur).Allocate
              (maxLoop (g.freePositions cur) 0 (-1) 0).2)))) := by
    intro b hb
    subst hb
    simp only [LGen.TryAllocateFreeReg, h1, h2, Option.bind_eq_bind, Option.some_bind, hs, he,
      Option.pure_def, freeSplitPos]
    congr 1
    funext _
    split_ifs <;> rfl
  refine ⟨(maxLoop (g.freePositions cur) 0 (-1) 0).1, (maxLoop (g.freePositions cur) 0 (-1) 0).2,
    ?_, ?_, ?_, ?_, ?_, ?_⟩
  · intro r hr
    rw [← freePositions_getD g cur r hr]
    apply hmax.1
    simp only [LGen.freePositions, List.getD_eq_getElem?_getD, List.getElem?_map,
      List.getElem?_range hr, Option.map_some', Option.getD_some, List.mem_map, List.mem_range]
    exact ⟨r, hr, rfl⟩
  · intro hm
    rcases hmax.2.2 with ⟨heq, _⟩ | ⟨k, hk, hreg, hval, _, hfirst⟩
    · rw [heq] at hm; simp at hm
    · have hk2 : k < kLIRRegisterCount := by simpa [LGen.freePositions] using hk
      refine ⟨k, hk2, by rw [hreg]; simp, by rw [← hval, freePositions_getD g cur k hk2], ?_⟩
      intro j hj
      rw [← freePositions_getD g cur j (by omega)]
      exact hfirst j hj
  · intro hm
    rw [hrun false (by simp; omega)]
    rfl
  · intro hm hle
    rw [hrun true (by simp; omega)]
    simp only [assert, if_true, Option.some_bind, if_pos hle]
  · intro hm hlt hgt
    rw [hrun true (by simp; omega)]
    simp only [assert, if_true, Option.some_bind, if_neg (not_le.2 hlt), if_neg (not_le.2 hgt)]
  · intro hm hlt hle
    refine ⟨freeSplitPos _, (freeSplitPos_odd _).1, (freeSplitPos_odd _).2.1,
      (freeSplitPos_odd _).2.2, ?_⟩
    rw [hrun true (by simp; omega)]
    simp only [assert, if_true, Option.some_bind, if_neg (not_le.2 hlt), if_pos hle]
    cases g.Split cur (freeSplitPos (maxLoop (g.freePositions cur) 0 (-1) 0).1) <;> rfl

set_option maxRecDepth 100000 in
/-- The state `freeRegSample` with `current` the interval 10, live on `[2, 18)`. -/
theorem TryAllocateFreeReg_rule_witness :
    ∃ m reg : Int,
      (∀ r, r < kLIRRegisterCount → freeRegSample.freePosOf 10 r ≤ m) ∧
      (0 ≤ m → ∃ k : Nat, k < kLIRRegisterCount ∧ reg = k ∧ freeRegSample.freePosOf 10 k = m ∧
        ∀ j, j < k → freeRegSample.freePosOf 10 j < m) ∧
      (m < 0 → freeRegSample.TryAllocateFreeReg 10 = none) ∧
      (0 ≤ m → m - 2 ≤ 2 → freeRegSample.TryAllocateFreeReg 10 = some freeRegSample) ∧
      (0 ≤ m → 2 < m - 2 → 18 < m →
        freeRegSample.TryAllocateFreeReg 10
          = some (freeRegSample.put ((freeRegSample.get 10).Allocate reg))) ∧
      (0 ≤ m → 2 < m - 2 → m ≤ 18 →
        ∃ pos, pos % 2 = 1 ∧ m - 2 ≤ pos ∧ pos < m ∧
          freeRegSample.TryAllocateFreeReg 10 =
            (freeRegSample.Split 10 pos).map
              (fun x => x.1.put ((x.1.get 10).Allocate reg))) :=
  TryAllocateFreeReg_rule freeRegSample 10 2 18 (by decide) (by decide) (by decide) (by decide)

set_option maxRecDepth 100000 in
/-- C26, the sentence as written fails on `freeRegSample`. Every register has
the free position 10 (the call at 10). For the interval 10, live on `[2, 18)`,
`m = 10 < 18`: the split is made at the odd position 9 (the part `[2, 9)` gets
register 0, the child is `[9, 18)`, the gap has the id 9), not at an even
position. For the interval 11, live on `[8, 18)`, `m = 10 < 18` as well, but
`m - 2 <= 8`: nothing is split and nothing is allocated. -/
theorem TryAllocateFreeReg_splits_at_odd_or_fails :
    freeRegSample.freePositions 10 = List.replicate 10 10 ∧
    (freeRegSample.get 10).start = some 2 ∧ (freeRegSample.get 10).end_ = some 18 ∧
    (freeRegSample.TryAllocateFreeReg 10).map
      (fun g => ((g.get 10).type, (g.get 10).index, (g.get 10).ranges, (g.get 12).ranges,
        (g.instructions.filter (fun x => x.is_gap)).map (fun x => x.id)))
      = some (IntervalType.kRegister, 0, [⟨2, 9⟩], [⟨9, 18⟩], [9]) ∧
    freeRegSample.freePositions 11 = List.replicate 10 10 ∧
    (freeRegSample.get 11).start = some 8 ∧ (freeRegSample.get 11).end_ = some 18 ∧
    (freeRegSample.TryAllocateFreeReg 11).map
      (fun g => ((g.get 11).type, (g.get 11).ranges, g.intervals.length,
        (g.instructions.filter (fun x => x.is_gap)).map (fun x => x.id)))
      = some (IntervalType.kVirtual, [⟨8, 18⟩], 12, []) := by
  refine ⟨?_, ?_, ?_, ?_, ?_, ?_, ?_, ?_⟩ <;> decide

/-! ## Split positions -/

theorem TryAllocateFreeRegWith_Split (g : LGen) (cur : Nat) :
    LGen.TryAllocateFreeRegWith LGen.Split g cur = g.TryAllocateFreeReg cur := rfl

theorem spillIntersectingWith_Split (which : Bool) (cur : Nat) :
    ∀ (l : List Nat) (g : LGen),
      LGen.spillIntersectingWith LGen.Split which cur l g = LGen.spillIntersecting which cur l g
  | [], g => rfl
  | id :: rest, g => by
    simp only [LGen.spillIntersectingWith, LGen.spillIntersecting,
      spillIntersectingWith_Split which cur rest] <;> rfl

theorem AllocateBlockedRegWith_Split (g : LGen) (cur : Nat) :
    LGen.AllocateBlockedRegWith LGen.Split g cur = g.AllocateBlockedReg cur := by
  simp only [LGen.AllocateBlockedRegWith, LGen.AllocateBlockedReg, spillIntersectingWith_Split] <;> rfl

theorem SplitOdd_freeSplitPos (g : LGen) (i : Nat) (x : Int) :
    g.SplitOdd i (if Int.tmod x 2 = 0 then x - 1 else x - 2)
      = g.Split i (if Int.tmod x 2 = 0 then x - 1 else x - 2) := by
  have h := (freeSplitPos_odd x).1
  unfold freeSplitPos at h
  unfold LGen.SplitOdd
  rw [if_pos h]

theorem SplitOdd_pred_even (g : LGen) (i : Nat) (x : Int) (hx : x % 2 = 0) :
    g.SplitOdd i (x - 1) = g.Split i (x - 1) := by
  unfold LGen.SplitOdd
  rw [if_pos (by omega)]

theorem TryAllocateFreeRegWith_SplitOdd (g : LGen) (cur : Nat) :
    LGen.TryAllocateFreeRegWith LGen.SplitOdd g cur = g.TryAllocateFreeReg cur := by
  simp only [LGen.TryAllocateFreeRegWith, LGen.TryAllocateFreeReg, SplitOdd_freeSplitPos]

theorem spillIntersectingWith_SplitOdd (which : Bool) (cur : Nat) :
    ∀ (l : List Nat) (g : LGen),
      LGen.spillIntersectingWith LGen.SplitOdd which cur l g
        = LGen.spillIntersecting which cur l g
  | [], g => rfl
  | id :: rest, g => by
    simp only [LGen.spillIntersectingWith, LGen.spillIntersecting,
      spillIntersectingWith_SplitOdd which cur rest, SplitOdd_freeSplitPos] <;> rfl

theorem FindIntersectionRow_mem (a : LRange) : ∀ (bs : List LRange),
    FindIntersectionRow a bs ≠ -1 →
      FindIntersectionRow a bs = a.start ∨ ∃ b ∈ bs, FindIntersectionRow a bs = b.start
  | [], h => absurd rfl h
  | b :: rest, h => by
    unfold FindIntersectionRow at h ⊢
    by_cases hb : a.FindIntersection b = -1
    · simp only [hb, ne_eq, not_true_eq_false, if_false] at h ⊢
      rcases FindIntersectionRow_mem a rest h with h1 | ⟨x, hx, h1⟩
      · exact Or.inl h1
      · exact Or.inr ⟨x, List.mem_cons_of_mem _ hx, h1⟩
    · simp only [hb, ne_eq, not_false_eq_true, if_true]
      unfold LRange.FindIntersection at hb ⊢
      split_ifs at hb ⊢ with h1 h2
      · exact Or.inl rfl
      · exact Or.inr ⟨b, List.mem_cons_self _ _, rfl⟩
      · exact absurd rfl hb

theorem FindIntersectionRanges_mem : ∀ (as bs : List LRange),
    FindIntersectionRanges as bs ≠ -1 →
      (∃ a ∈ as, FindIntersectionRanges as bs = a.start) ∨
      ∃ b ∈ bs, FindIntersectionRanges as bs = b.start
  | [], _, h => absurd rfl h
  | a :: rest, bs, h => by
    unfold FindIntersectionRanges at h ⊢
    by_cases hb : FindIntersectionRow a bs = -1
    · simp only [hb, ne_eq, not_true_eq_false, if_false] at h ⊢
      rcases FindIntersectionRanges_mem rest bs h with ⟨x, hx, h1⟩ | ⟨x, hx, h1⟩
      · exact Or.inl ⟨x, List.mem_cons_of_mem _ hx, h1⟩
      · exact Or.inr ⟨x, hx, h1⟩
    · simp only [hb, ne_eq, not_false_eq_true, if_true]
      rcases FindIntersectionRow_mem a bs hb with h1 | ⟨x, hx, h1⟩
      · exact Or.inl ⟨a, List.mem_cons_self _ _, h1⟩
      · exact Or.inr ⟨x, hx, h1⟩

theorem UseAfterD_mem (g : LGen) : ∀ (d id : Nat) (pos : Int) (t : UseType) (u : LUse),
    g.UseAfterD d id pos t = some u → ∃ x, u ∈ (g.get x).uses
  | 0, _, _, _, _, h => by simp [LGen.UseAfterD] at h
  | d + 1, id, pos, t, u, h => by
    unfold LGen.UseAfterD at h
    cases hf : (g.get id).uses.find? (useMatches pos t) with
    | some v =>
      rw [hf] at h
      simp only [Option.some.injEq] at h
      subst h
      exact ⟨id, List.mem_of_find?_eq_some hf⟩
    | none =>
      rw [hf] at h
      simp only at h
      obtain ⟨c, _, hc⟩ := List.exists_of_findSome?_eq_some h
      exact UseAfterD_mem g d c pos t u hc

theorem mem_setAt (l : List Int) (i v x : Int) (h : x ∈ setAt l i v) : x = v ∨ x ∈ l := by
  unfold setAt at h
  split_ifs at h
  · rcases List.mem_or_eq_of_mem_set h with h1 | h1
    · exact Or.inr h1
    · exact Or.inl h1
  · exact Or.inr h

theorem getAt_mem (l : List Int) (i : Int) : getAt l i = 0 ∨ getAt l i ∈ l := by
  unfold getAt
  split_ifs
  · by_cases h : i.toNat < l.length
    · right
      rw [List.getD_eq_getElem _ _ h]
      exact List.getElem_mem _
    · left
      simp [List.getD_eq_getElem?_getD, List.getElem?_eq_none (not_lt.1 h)]
  · exact Or.inl rfl

theorem blockedActive_block (g : LGen) (cs : Int) (Q : Int → Prop) (h0 : Q 0) :
    ∀ (l : List Nat) (ub : List Int × List Int), (∀ x ∈ ub.2, Q x) →
      ∀ x ∈ (g.blockedActive cs l ub).2, Q x
  | [], ub, h => h
  | id :: rest, (up, bp), h => by
    unfold LGen.blockedActive
    simp only
    split_ifs with hf
    · apply blockedActive_block g cs Q h0 rest
      intro x hx
      rcases mem_setAt _ _ _ _ hx with rfl | hx
      · exact h0
      · exact h x hx
    · split
      · exact blockedActive_block g cs Q h0 rest _ h
      · split_ifs
        · exact blockedActive_block g cs Q h0 rest _ h
        · exact blockedActive_block g cs Q h0 rest _ h

theorem blockedInactive_block (g : LGen) (cur : Nat) (cs : Int) (Q : Int → Prop)
    (hpos : ∀ id, (g.get id).IsFixed = true →
      (g.get cur).FindIntersection (g.get id) ≠ -1 →
      Q ((g.get cur).FindIntersection (g.get id))) :
    ∀ (l : List Nat) (ub : List Int × List Int), (∀ x ∈ ub.2, Q x) →
      ∀ x ∈ (g.blockedInactive cur cs l ub).2, Q x
  | [], ub, h => h
  | id :: rest, (up, bp), h => by
    unfold LGen.blockedInactive
    simp only
    split_ifs with hp hf h1 h2 h3
    · exact blockedInactive_block g cur cs Q hpos rest _ h
    all_goals first
      | (apply blockedInactive_block g cur cs Q hpos rest
         intro x hx
         first
           | exact h x hx
           | (rcases mem_setAt _ _ _ _ hx with rfl | hx
              · exact hpos id hf hp
              · exact h x hx))
      | (split
         · exact blockedInactive_block g cur cs Q hpos rest _ h
         · split_ifs
           · exact blockedInactive_block g cur cs Q hpos rest _ h
           · exact blockedInactive_block g cur cs Q hpos rest _ h)

theorem Spill_uses (g g1 : LGen) (cur : Nat) (h : g.Spill cur = some g1) (x : Nat) :
    ∃ y, (g1.get x).uses = (g.get y).uses := by
  unfold LGen.Spill at h
  by_cases hs : (g.get cur).is_stackslot
  · simp [assert, hs] at h
  · simp [assert, hs] at h
    subst h
    show ∃ y, ((g.put _).get x).uses = _
    rw [get_put]
    split_ifs
    · exact ⟨cur, rfl⟩
    · exact ⟨x, rfl⟩

theorem put_Allocate_end (g : LGen) (cur : Nat) (reg : Int) :
    ((g.put ((g.get cur).Allocate reg)).get cur).end_ = (g.get cur).end_ := by
  rw [get_put]
  split_ifs
  · rfl
  · rfl

theorem start_eq_head (i : LInterval) (cs : Int) (h : i.start = some cs) :
    ∃ r t, i.ranges = r :: t ∧ r.start = cs := by
  unfold LInterval.start at h
  cases hr : i.ranges with
  | nil => simp [hr] at h
  | cons r t => exact ⟨r, t, rfl, by simpa [hr] using h⟩

theorem AllocateBlockedRegWith_SplitOdd (g : LGen) (cur : Nat)
    (hU : ∀ id, ∀ u ∈ (g.get id).uses, u.instr % 2 = 0)
    (hF : ∀ id, (g.get id).IsFixed = true → ∀ r ∈ (g.get id).ranges, r.start % 2 = 0)
    (hV : ∀ r ∈ (g.get cur).ranges.tail, r.start % 2 = 0)
    (hE : ∀ e, (g.get cur).end_ = some e → e < INT_MAX) :
    LGen.AllocateBlockedRegWith LGen.SplitOdd g cur = g.AllocateBlockedReg cur := by
  simp only [LGen.AllocateBlockedRegWith, LGen.AllocateBlockedReg,
    spillIntersectingWith_SplitOdd]
  cases hs : (g.get cur).start with
  | none => rfl
  | some cs =>
    simp only [Option.bind_eq_bind, Option.some_bind]
    have hQ : ∀ x ∈ (g.blockedInactive cur cs g.inactive (g.blockedActive cs g.active
        (List.replicate kLIRRegisterCount INT_MAX,
          List.replicate kLIRRegisterCount INT_MAX))).2,
        x = INT_MAX ∨ x % 2 = 0 ∨ x = cs := by
      refine blockedInactive_block g cur cs (fun x => x = INT_MAX ∨ x % 2 = 0 ∨ x = cs) ?_
        g.inactive _ ?_
      rotate_left
      · refine blockedActive_block g cs (fun x => x = INT_MAX ∨ x % 2 = 0 ∨ x = cs)
          (Or.inr (Or.inl rfl)) g.active _ ?_
        intro x hx
        exact Or.inl (List.eq_of_mem_replicate hx)
      · intro id hf hp
        obtain ⟨r, t, hr, hrs⟩ := start_eq_head _ _ hs
        rcases FindIntersectionRanges_mem _ _ hp with ⟨a, ha, h1⟩ | ⟨b, hb, h1⟩
        · rw [hr] at ha
          rcases List.mem_cons.1 ha with rfl | ha
          · exact Or.inr (Or.inr (h1.trans hrs))
          · refine Or.inr (Or.inl ?_)
            unfold LInterval.FindIntersection
            rw [h1]
            exact hV a (by rw [hr]; exact ha)
        · refine Or.inr (Or.inl ?_)
          unfold LInterval.FindIntersection
          rw [h1]
          exact hF id hf b hb
    generalize g.blockedInactive cur cs g.inactive (g.blockedActive cs g.active
        (List.replicate kLIRRegisterCount INT_MAX,
          List.replicate kLIRRegisterCount INT_MAX)) = ub at hQ ⊢
    obtain ⟨up, bp⟩ := ub
    generalize maxLoop up 0 (-1) 0 = mr
    obtain ⟨use_max, use_reg⟩ := mr
    simp only at hQ ⊢
    congr 1
    funext _
    have hspill : ((g.Spill cur).bind fun g1 =>
          match g1.UseAfter cur cs UseType.kRegister with
          | none => pure g1
          | some u =>
            if u.instr > cs then Option.map Prod.fst (g1.SplitOdd cur (u.instr - 1))
            else pure g1) =
        ((g.Spill cur).bind fun g1 =>
          match g1.UseAfter cur cs UseType.kRegister with
          | none => pure g1
          | some u =>
            if u.instr > cs then Option.map Prod.fst (g1.Split cur (u.instr - 1))
            else pure g1) := by
      cases hsp : g.Spill cur with
      | none => rfl
      | some g1 =>
        simp only [Option.some_bind]
        cases hu : g1.UseAfter cur cs UseType.kRegister with
        | none => rfl
        | some u =>
          simp only
          obtain ⟨x, hx⟩ := UseAfterD_mem g1 _ _ _ _ _ hu
          obtain ⟨y, hy⟩ := Spill_uses g g1 cur hsp x
          rw [hy] at hx
          rw [SplitOdd_pred_even _ _ _ (hU y u hx)]
    cases hfu : g.UseAfter cur cs UseType.kAny with
    | none =>
      simp only [if_true]
      exact hspill
    | some u0 =>
      simp only
      by_cases hsc : (decide (use_max < u0.instr) || decide (getAt bp use_reg - 1 ≤ cs)) = true
      · rw [if_pos hsc, if_pos hsc]
        exact hspill
      · rw [if_neg hsc, if_neg hsc, put_Allocate_end]
        cases he : (g.get cur).end_ with
        | none => rfl
        | some ce =>
          simp only [Option.some_bind]
          by_cases hle : getAt bp use_reg ≤ ce
          · rw [if_pos hle, if_pos hle]
            have hce := hE ce he
            have hgt : ¬ (getAt bp use_reg - 1 ≤ cs) := by
              intro hcon
              apply hsc
              simp [hcon]
            have heven : getAt bp use_reg % 2 = 0 := by
              rcases getAt_mem bp use_reg with h0 | hm
              · rw [h0]; rfl
              · rcases hQ _ hm with h1 | h1 | h1
                · omega
                · exact h1
                · omega
            rw [SplitOdd_pred_even _ _ _ heven]
          · rw [if_neg hle, if_neg hle]

theorem get_mem_or_default (g : LGen) (id : Nat) :
    g.get id ∈ g.intervals ∨ g.get id = default := by
  unfold LGen.get
  by_cases h : id < g.intervals.length
  · left
    rw [List.getD_eq_getElem _ _ h]
    exact List.getElem_mem _
  · right
    simp [List.getD_eq_getElem?_getD, List.getElem?_eq_none (not_lt.1 h)]

/-- C25, amended: in a state where every use is at an even instruction id,
every range of a fixed interval starts at an even position, every range of
`current` but its first starts at an even position and `current` ends below
`INT_MAX`, every `Split` call made by `TryAllocateFreeReg` and by
`AllocateBlockedReg` is at an odd position: the two procedures give the same
result when `Split` is put behind an assertion that the position is odd. -/
theorem Split_positions_odd (g : LGen) (cur : Nat)
    (hU : ∀ i ∈ g.intervals, ∀ u ∈ i.uses, u.instr % 2 = 0)
    (hF : ∀ i ∈ g.intervals, i.IsFixed = true → ∀ r ∈ i.ranges, r.start % 2 = 0)
    (hV : ∀ r ∈ (g.get cur).ranges.tail, r.start % 2 = 0)
    (hE : ∀ e, (g.get cur).end_ = some e → e < INT_MAX) :
    LGen.TryAllocateFreeRegWith LGen.SplitOdd g cur = g.TryAllocateFreeReg cur ∧
    LGen.AllocateBlockedRegWith LGen.SplitOdd g cur = g.AllocateBlockedReg cur ∧
    LGen.TryAllocateFreeRegWith LGen.Split g cur = g.TryAllocateFreeReg cur ∧
    LGen.AllocateBlockedRegWith LGen.Split g cur = g.AllocateBlockedReg cur := by
  refine ⟨TryAllocateFreeRegWith_SplitOdd g cur, ?_, rfl, AllocateBlockedRegWith_Split g cur⟩
  apply AllocateBlockedRegWith_SplitOdd g cur _ _ hV hE
  · intro id u hu
    rcases get_mem_or_default g id with h | h
    · exact hU _ h u hu
    · rw [h] at hu; exact absurd hu (List.not_mem_nil _)
  · intro id hf r hr
    rcases get_mem_or_default g id with h | h
    · exact hF _ h hf r hr
    · rw [h] at hr; exact absurd hr (List.not_mem_nil _)

set_option maxRecDepth 100000 in
/-- The state `freeRegSample` with `current` the interval 10. -/
theorem Split_positions_odd_witness :
    LGen.TryAllocateFreeRegWith LGen.SplitOdd freeRegSample 10
      = freeRegSample.TryAllocateFreeReg 10 ∧
    LGen.AllocateBlockedRegWith LGen.SplitOdd freeRegSample 10
      = freeRegSample.AllocateBlockedReg 10 ∧
    LGen.TryAllocateFreeRegWith LGen.Split freeRegSample 10
      = freeRegSample.TryAllocateFreeReg 10 ∧
    LGen.AllocateBlockedRegWith LGen.Split freeRegSample 10
      = freeRegSample.AllocateBlockedReg 10 :=
  Split_positions_odd freeRegSample 10 (by decide) (by decide) (by decide) (by decide)

set_option maxRecDepth 100000 in
/-- C25, the sentence as written fails on `scratchProgram`, whose instruction
ids are all even: the scratch at 50 gives the fixed register 9 the range
`[49, 50)`; when `v20` (interval 20, live on `[22, 60)`) is allocated, all
registers are taken, register 9 has the farthest use and is blocked at 49, and
`AllocateBlockedReg` splits the interval at `49 - 1 = 48`, the id of the first
instruction of the second block: the interval keeps `[22, 48)` and its child,
the interval 21, gets `[48, 60)`. -/
theorem AllocateBlockedReg_splits_at_even :
    (∀ b ∈ scratchProgram.blocks, ∀ i ∈ b.1, i.id % 2 = 0) ∧
    (LGen.allocate 64 scratchProgram).map
      (fun g => ((g.get 9).ranges, (g.get 20).ranges, (g.get 20).type, (g.get 20).index))
      = some ([⟨49, 50⟩], [⟨22, 48⟩], IntervalType.kRegister, 9) ∧
    (LGen.allocate 64 scratchProgram).map
      (fun g => ((g.get 21).ranges, (g.get 21).split_parent, g.IsBlockStart 48))
      = some ([⟨48, 60⟩], some 20, true) := by
  refine ⟨?_, ?_, ?_⟩ <;> decide

/-! ## Calls kill all registers (`BuildIntervals`) -/

theorem CoversRanges_restart (c s : Int) (h : LRange) (rest : List LRange) (hs : s ≤ c)
    (hc : CoversRanges c (h :: rest) = true) : CoversRanges c (⟨s, h.end_⟩ :: rest) = true := by
  rw [CoversRanges] at hc ⊢
  simp only at hc ⊢
  rw [if_neg (by omega)]
  by_cases h1 : h.start > c
  · rw [if_pos h1] at hc
    exact absurd hc (by simp)
  · rw [if_neg h1] at hc
    exact hc

theorem CoversRanges_prepend (c s e : Int) (l : List LRange) (hs : s ≤ c)
    (hc : CoversRanges c l = true) : CoversRanges c (⟨s, e⟩ :: l) = true := by
  rw [CoversRanges]
  simp only
  rw [if_neg (by omega)]
  split_ifs
  · rfl
  · exact hc

theorem AddRange_cases (i i1 : LInterval) (s e : Int) (h : i.AddRange s e = some i1) :
    i1.id = i.id ∧
    ((i.ranges = [] ∧ i1.ranges = [⟨s, e⟩]) ∨
     (∃ hd rest, i.ranges = hd :: rest ∧ hd.start = e ∧ i1.ranges = ⟨s, hd.end_⟩ :: rest) ∨
     (∃ hd rest, i.ranges = hd :: rest ∧ e < hd.start ∧ i1.ranges = ⟨s, e⟩ :: hd :: rest)) := by
  unfold LInterval.AddRange at h
  cases hr : i.ranges with
  | nil =>
    rw [hr] at h
    simp only [Option.some.injEq] at h
    subst h
    exact ⟨rfl, Or.inl ⟨rfl, rfl⟩⟩
  | cons hd rest =>
    rw [hr] at h
    simp only at h
    split_ifs at h with h1 h2
    · simp only [Option.some.injEq] at h
      subst h
      exact ⟨rfl, Or.inr (Or.inl ⟨hd, rest, rfl, h1, rfl⟩)⟩
    · simp only [Option.some.injEq] at h
      subst h
      exact ⟨rfl, Or.inr (Or.inr ⟨hd, rest, rfl, h2, rfl⟩)⟩

theorem AddRange_ranges (i i1 : LInterval) (s e q : Int) (h : i.AddRange s e = some i1)
    (hse : s ≤ e) (hq : q ≤ e) (hw : ∀ r ∈ i.ranges, r.start ≤ r.end_ ∧ q ≤ r.end_) :
    ∀ r ∈ i1.ranges, r.start ≤ r.end_ ∧ q ≤ r.end_ := by
  rcases (AddRange_cases i i1 s e h).2 with ⟨h0, h1⟩ | ⟨hd, rest, h0, he, h1⟩ | ⟨hd, rest, h0, he, h1⟩
  · rw [h1]
    intro r hr
    rw [List.mem_singleton] at hr
    subst hr
    exact ⟨hse, hq⟩
  · rw [h1]
    rw [h0] at hw
    intro r hr
    rcases List.mem_cons.1 hr with rfl | hr
    · have := hw hd (List.mem_cons_self _ _)
      exact ⟨by simp only; omega, this.2⟩
    · exact hw r (List.mem_cons_of_mem _ hr)
  · rw [h1]
    rw [h0] at hw
    intro r hr
    rcases List.mem_cons.1 hr with rfl | hr
    · exact ⟨hse, hq⟩
    · exact hw r hr

theorem AddRange_covers (i i1 : LInterval) (s e c : Int) (h : i.AddRange s e = some i1)
    (hs : s ≤ c) (hc : i.Covers c = true) : i1.Covers c = true := by
  unfold LInterval.Covers at hc ⊢
  rcases (AddRange_cases i i1 s e h).2 with ⟨h0, h1⟩ | ⟨hd, rest, h0, he, h1⟩ | ⟨hd, rest, h0, he, h1⟩
  · rw [h0] at hc
    simp [CoversRanges] at hc
  · rw [h1]
    rw [h0] at hc
    exact CoversRanges_restart c s hd rest hs hc
  · rw [h1]
    rw [h0] at hc
    exact CoversRanges_prepend c s e _ hs hc

theorem AddRange_covers_start (i i1 : LInterval) (c : Int) (h : i.AddRange c (c + 1) = some i1)
    (hw : ∀ r ∈ i.ranges, r.start ≤ r.end_) : i1.Covers c = true := by
  unfold LInterval.Covers
  rcases (AddRange_cases i i1 c (c + 1) h).2 with
    ⟨h0, h1⟩ | ⟨hd, rest, h0, he, h1⟩ | ⟨hd, rest, h0, he, h1⟩
  · rw [h1]
    simp [CoversRanges]
  · rw [h1]
    have := hw hd (by rw [h0]; exact List.mem_cons_self _ _)
    rw [CoversRanges]
    simp only
    rw [if_neg (by omega), if_pos (by omega)]
  · rw [h1]
    rw [CoversRanges]
    simp only
    rw [if_neg (by omega), if_pos (by omega)]

theorem BuildInv_mono {g : LGen} {p q : Int} {C : Int → Prop} (h : BuildInv g p C)
    (hq : q ≤ p) : BuildInv g q C :=
  ⟨h.table, fun id r hr => ⟨(h.ranges id r hr).1, le_trans hq (h.ranges id r hr).2⟩, h.covers,
    fun c hc => le_trans hq (h.above c hc)⟩

theorem tableOk_put (g : LGen) (v : LInterval) (h : g.tableOk) :
    (g.put v).tableOk := by
  refine ⟨by rw [put_length]; exact h.1, ?_⟩
  intro id hid
  rw [put_length] at hid
  rw [get_put]
  split_ifs with h1
  · exact h1.1.symm
  · exact h.2 id hid

theorem BuildInv_put {g : LGen} {p q : Int} {C : Int → Prop} (h : BuildInv g p C) (hq : q ≤ p)
    (x : Nat) (hx : x < g.intervals.length) (v : LInterval) (hv : v.id = x)
    (hr : ∀ r ∈ v.ranges, r.start ≤ r.end_ ∧ q ≤ r.end_)
    (hc : ∀ c, C c → (g.get x).Covers c = true → v.Covers c = true) :
    BuildInv (g.put v) q C := by
  refine ⟨tableOk_put g v h.table, ?_, ?_, ?_⟩
  · intro id r hrr
    rw [get_put] at hrr
    split_ifs at hrr with h1
    · exact hr r hrr
    · exact ⟨(h.ranges id r hrr).1, le_trans hq (h.ranges id r hrr).2⟩
  · intro c hcc r hr10
    rw [get_put]
    split_ifs with h1
    · apply hc c hcc
      rw [← hv, ← h1.1]
      exact h.covers c hcc r hr10
    · exact h.covers c hcc r hr10
  · exact fun c hcc => le_trans hq (h.above c hcc)

theorem addRange_spec (g g1 : LGen) (x : Nat) (s e : Int) (h : g.addRange x s e = some g1) :
    ∃ i1, (g.get x).AddRange s e = some i1 ∧ g1 = g.put i1 := by
  unfold LGen.addRange at h
  cases hi : (g.get x).AddRange s e with
  | none => simp [hi] at h
  | some i1 =>
    simp only [hi, Option.bind_eq_bind, Option.some_bind, Option.pure_def, Option.some.injEq] at h
    exact ⟨i1, rfl, h.symm⟩

theorem addRange_inv {g g1 : LGen} {p q : Int} {C : Int → Prop} (h : BuildInv g p C)
    (x : Nat) (hx : x < g.intervals.length) (s e : Int) (hse : s ≤ e) (hqe : q ≤ e)
    (hq : q ≤ p) (hs : ∀ c, C c → s ≤ c) (hrun : g.addRange x s e = some g1) :
    BuildInv g1 q C ∧ g1.blocks = g.blocks ∧ g1.intervals.length = g.intervals.length := by
  obtain ⟨i1, hi, rfl⟩ := addRange_spec g g1 x s e hrun
  have hid : i1.id = x := by
    rw [(AddRange_cases _ _ _ _ hi).1]
    exact h.table.2 x hx
  refine ⟨BuildInv_put h hq x hx i1 hid ?_ ?_, rfl, put_length g i1⟩
  · apply AddRange_ranges _ _ _ _ _ hi hse hqe
    intro r hr
    exact ⟨(h.ranges x r hr).1, le_trans hq (h.ranges x r hr).2⟩
  · intro c hc hcov
    exact AddRange_covers _ _ _ _ _ hi (hs c hc) hcov

theorem addRange_covers_mono {g g1 : LGen} (ht : g.tableOk) (x : Nat)
    (hx : x < g.intervals.length) (s e c : Int) (hs : s ≤ c)
    (hrun : g.addRange x s e = some g1) (r : Nat) (hc : (g.get r).Covers c = true) :
    (g1.get r).Covers c = true := by
  obtain ⟨i1, hi, rfl⟩ := addRange_spec g g1 x s e hrun
  rw [get_put]
  split_ifs with h1
  · have hid : i1.id = x := by
      rw [(AddRange_cases _ _ _ _ hi).1]
      exact ht.2 x hx
    rw [h1.1, hid] at hc
    exact AddRange_covers _ _ _ _ _ hi hs hc
  · exact hc

theorem Use_inv {g : LGen} {p : Int} {C : Int → Prop} (h : BuildInv g p C) (r : Nat)
    (hr : r < g.intervals.length) (t : UseType) (id : Int) :
    BuildInv (g.put ((g.get r).Use t id)) p C :=
  BuildInv_put h (le_refl _) r hr _ (h.table.2 r hr) (fun x hx => h.ranges r x hx)
    (fun _ _ hc => hc)

theorem Use_covers (g : LGen) (ht : g.tableOk) (r : Nat) (hr : r < g.intervals.length)
    (t : UseType) (id : Int) (x : Nat) (c : Int) :
    ((g.put ((g.get r).Use t id)).get x).Covers c = (g.get x).Covers c := by
  rw [get_put]
  split_ifs with h1
  · have h2 : x = r := by rw [h1.1]; exact ht.2 r hr
    rw [h2]
    rfl
  · rfl

theorem killRegisters_inv (c : Int) (C : Int → Prop) : ∀ (l : List Nat) (g g1 : LGen),
    BuildInv g c C → (∀ r ∈ l, r < kLIRRegisterCount) → LGen.killRegisters c l g = some g1 →
    BuildInv g1 c C ∧ g1.blocks = g.blocks ∧ g1.intervals.length = g.intervals.length ∧
      (∀ r, (g.get r).Covers c = true → (g1.get r).Covers c = true) ∧
      ∀ r ∈ l, (g1.get r).Covers c = true
  | [], g, g1, h, _, hrun => by
    simp only [LGen.killRegisters, Option.some.injEq] at hrun
    subst hrun
    exact ⟨h, rfl, rfl, fun _ hc => hc, fun _ hr => absurd hr (List.not_mem_nil _)⟩
  | r :: rs, g, g1, h, hl, hrun => by
    have hr10 : r < kLIRRegisterCount := hl r (List.mem_cons_self _ _)
    have hrlen : r < g.intervals.length := lt_of_lt_of_le hr10 h.table.1
    have hrs : ∀ x ∈ rs, x < kLIRRegisterCount := fun x hx => hl x (List.mem_cons_of_mem _ hx)
    unfold LGen.killRegisters at hrun
    by_cases hcov : (g.get r).Covers c = true
    · rw [if_pos hcov] at hrun
      obtain ⟨h1, h2, h3, h4, h5⟩ := killRegisters_inv c C rs g g1 h hrs hrun
      refine ⟨h1, h2, h3, h4, ?_⟩
      intro x hx
      rcases List.mem_cons.1 hx with rfl | hx
      · exact h4 _ hcov
      · exact h5 x hx
    · rw [if_neg hcov] at hrun
      cases ha : g.addRange r c (c + 1) with
      | none => simp [ha] at hrun
      | some g2 =>
        simp only [ha, Option.bind_eq_bind, Option.some_bind] at hrun
        obtain ⟨hinv2, hb2, hl2⟩ := addRange_inv h r hrlen c (c + 1) (by omega) (by omega)
          (le_refl _) (fun c1 hc1 => h.above c1 hc1) ha
        have hrlen2 : r < g2.intervals.length := by rw [hl2]; exact hrlen
        have hinv3 := Use_inv hinv2 r hrlen2 UseType.kRegister c
        obtain ⟨h1, h2, h3, h4, h5⟩ := killRegisters_inv c C rs _ g1 hinv3 hrs hrun
        have hmono : ∀ x, (g.get x).Covers c = true →
            ((g2.put ((g2.get r).Use UseType.kRegister c)).get x).Covers c = true := by
          intro x hx
          rw [Use_covers g2 hinv2.table r hrlen2]
          exact addRange_covers_mono h.table r hrlen c (c + 1) c (le_refl _) ha x hx
        refine ⟨h1, ?_, ?_, fun x hx => h4 x (hmono x hx), ?_⟩
        · exact h2.trans hb2
        · rw [h3, put_length, hl2]
        · intro x hx
          rcases List.mem_cons.1 hx with rfl | hx
          · apply h4
            rw [Use_covers g2 hinv2.table _ hrlen2]
            obtain ⟨i1, hi, rfl⟩ := addRange_spec g g2 _ c (c + 1) ha
            have hid := ((AddRange_cases _ _ _ _ hi).1.trans (h.table.2 _ hrlen)).symm
            rw [get_put, if_pos ⟨hid, hrlen⟩]
            exact AddRange_covers_start _ _ _ hi (fun r hr => (h.ranges _ r hr).1)
          · exact h5 x hx

theorem BuildInv_of {g : LGen} {p : Int} {C D : Int → Prop} (h : BuildInv g p C)
    (hD : ∀ c, D c → C c ∨ (p ≤ c ∧ ∀ r, r < kLIRRegisterCount → (g.get r).Covers c = true)) :
    BuildInv g p D := by
  refine ⟨h.table, h.ranges, ?_, ?_⟩
  · intro c hc r hr
    rcases hD c hc with h1 | h1
    · exact h.covers c h1 r hr
    · exact h1.2 r hr
  · intro c hc
    rcases hD c hc with h1 | h1
    · exact h.above c h1
    · exact h1.1

theorem buildScratches_inv (i : Int) (C : Int → Prop) :
    ∀ (l : List (Nat × UseType)) (g g1 : LGen), BuildInv g i C →
      (∀ u ∈ l, u.1 < g.intervals.length) → LGen.buildScratches i l g = some g1 →
      BuildInv g1 i C ∧ g1.blocks = g.blocks ∧ g1.intervals.length = g.intervals.length
  | [], g, g1, h, _, hrun => by
    simp only [LGen.buildScratches, Option.some.injEq] at hrun
    subst hrun
    exact ⟨h, rfl, rfl⟩
  | u :: rest, g, g1, h, hl, hrun => by
    unfold LGen.buildScratches at hrun
    cases ha : g.addRange u.1 (i - 1) i with
    | none => simp [ha] at hrun
    | some g2 =>
      simp only [ha, Option.bind_eq_bind, Option.some_bind] at hrun
      obtain ⟨hinv2, hb2, hl2⟩ := addRange_inv h u.1 (hl u (List.mem_cons_self _ _)) (i - 1) i
        (by omega) (le_refl _) (le_refl _)
        (fun c hc => by have := h.above c hc; omega) ha
      obtain ⟨h1, h2, h3⟩ := buildScratches_inv i C rest g2 g1 hinv2
        (fun x hx => by rw [hl2]; exact hl x (List.mem_cons_of_mem _ hx)) hrun
      exact ⟨h1, h2.trans hb2, h3.trans hl2⟩

theorem buildInputs_inv (start_id i : Int) (hsi : start_id ≤ i) (C : Int → Prop) :
    ∀ (l : List (Nat × UseType)) (g g1 : LGen), BuildInv g i C →
      (∀ u ∈ l, u.1 < g.intervals.length) → LGen.buildInputs start_id i l g = some g1 →
      BuildInv g1 i C ∧ g1.blocks = g.blocks ∧ g1.intervals.length = g.intervals.length
  | [], g, g1, h, _, hrun => by
    simp only [LGen.buildInputs, Option.some.injEq] at hrun
    subst hrun
    exact ⟨h, rfl, rfl⟩
  | u :: rest, g, g1, h, hl, hrun => by
    have hrest : ∀ x ∈ rest, x.1 < g.intervals.length :=
      fun x hx => hl x (List.mem_cons_of_mem _ hx)
    unfold LGen.buildInputs at hrun
    by_cases hcov : (g.get u.1).Covers i = true
    · rw [if_pos hcov] at hrun
      exact buildInputs_inv start_id i hsi C rest g g1 h hrest hrun
    · rw [if_neg hcov] at hrun
      cases ha : g.addRange u.1 start_id i with
      | none => simp [ha] at hrun
      | some g2 =>
        simp only [ha, Option.bind_eq_bind, Option.some_bind] at hrun
        obtain ⟨hinv2, hb2, hl2⟩ := addRange_inv h u.1 (hl u (List.mem_cons_self _ _)) start_id i
          hsi (le_refl _) (le_refl _)
          (fun c hc => by have := h.above c hc; omega) ha
        obtain ⟨h1, h2, h3⟩ := buildInputs_inv start_id i hsi C rest g2 g1 hinv2
          (fun x hx => by rw [hl2]; exact hrest x hx) hrun
        exact ⟨h1, h2.trans hb2, h3.trans hl2⟩

theorem operandsBelow_spec (i : LInstruction) (n : Nat) (h : i.operandsBelow n = true) :
    (∀ u ∈ i.inputs, u.1 < n) ∧ (∀ u ∈ i.scratches, u.1 < n) ∧
      ∀ u, i.result = some u → u.1 < n := by
  unfold LInstruction.operandsBelow at h
  simp only [Bool.and_eq_true, List.all_eq_true, decide_eq_true_eq] at h
  refine ⟨h.1.1, h.1.2, ?_⟩
  intro u hu
  have := h.2
  rw [hu] at this
  simpa using this

theorem buildResult_inv {g g1 : LGen} {i : Int} {C : Int → Prop} (h : BuildInv g i C)
    (live_in : List Nat) (result : Option (Nat × UseType))
    (hrun : (match result with
      | none => some g
      | some r =>
        match (g.get r.1).ranges with
        | [] => g.addRange r.1 i (i + 1)
        | hd :: rest =>
          if r.1 ∉ live_in then
            some (g.put { g.get r.1 with ranges := ⟨i, hd.end_⟩ :: rest })
          else some g) = some g1)
    (hres : ∀ u, result = some u → u.1 < g.intervals.length) :
    BuildInv g1 i C ∧ g1.blocks = g.blocks ∧ g1.intervals.length = g.intervals.length := by
  cases result with
  | none =>
    simp only [Option.some.injEq] at hrun
    subst hrun
    exact ⟨h, rfl, rfl⟩
  | some r =>
    have hr := hres r rfl
    simp only at hrun
    cases hrg : (g.get r.1).ranges with
    | nil =>
      rw [hrg] at hrun
      simp only at hrun
      exact addRange_inv h r.1 hr i (i + 1) (by omega) (by omega) (le_refl _)
        (fun c hc => h.above c hc) hrun
    | cons hd rest =>
      rw [hrg] at hrun
      simp only at hrun
      split_ifs at hrun with hin
      · simp only [Option.some.injEq] at hrun
        subst hrun
        exact ⟨h, rfl, rfl⟩
      · simp only [Option.some.injEq] at hrun
        subst hrun
        have hhd := h.ranges r.1 hd (by rw [hrg]; exact List.mem_cons_self _ _)
        refine ⟨BuildInv_put h (le_refl _) r.1 hr _ (h.table.2 r.1 hr) ?_ ?_, rfl,
          put_length _ _⟩
        · intro x hx
          rcases List.mem_cons.1 hx with rfl | hx
          · exact ⟨hhd.2, hhd.2⟩
          · exact h.ranges r.1 x (by rw [hrg]; exact List.mem_cons_of_mem _ hx)
        · intro c hc hcov
          unfold LInterval.Covers at hcov ⊢
          rw [hrg] at hcov
          exact CoversRanges_restart c i hd rest (h.above c hc) hcov

theorem buildInstr_eq (live_in : List Nat) (start_id : Int) (g : LGen) (instr : LInstruction) :
    LGen.buildInstr live_in start_id g instr =
      (if instr.has_call = true then
          LGen.killRegisters instr.id (List.range kLIRRegisterCount) g
        else some g).bind fun g1 =>
        (match instr.result with
          | none => some g1
          | some r =>
            match (g1.get r.1).ranges with
            | [] => g1.addRange r.1 instr.id (instr.id + 1)
            | hd :: rest =>
              if r.1 ∉ live_in then
                some (g1.put { g1.get r.1 with ranges := ⟨instr.id, hd.end_⟩ :: rest })
              else some g1).bind fun g2 =>
          (LGen.buildScratches instr.id instr.scratches g2).bind fun g3 =>
            LGen.buildInputs start_id instr.id instr.inputs g3 := by
  have hstep : ∀ y : LGen,
      (match instr.result with
        | none =>
          (some y).bind fun y =>
            (LGen.buildScratches instr.id instr.scratches y).bind fun g3 =>
              LGen.buildInputs start_id instr.id instr.inputs g3
        | some r =>
          match (y.get r.1).ranges with
          | [] =>
            (y.addRange r.1 instr.id (instr.id + 1)).bind fun y =>
              (LGen.buildScratches instr.id instr.scratches y).bind fun g3 =>
                LGen.buildInputs start_id instr.id instr.inputs g3
          | h :: rest =>
            if r.1 ∉ live_in then
              (some (y.put { y.get r.1 with ranges := ⟨instr.id, h.end_⟩ :: rest })).bind
                fun y =>
                (LGen.buildScratches instr.id instr.scratches y).bind fun g3 =>
                  LGen.buildInputs start_id instr.id instr.inputs g3
            else
              (some y).bind fun y =>
                (LGen.buildScratches instr.id instr.scratches y).bind fun g3 =>
                  LGen.buildInputs start_id instr.id instr.inputs g3) =
      (match instr.result with
          | none => some y
          | some r =>
            match (y.get r.1).ranges with
            | [] => y.addRange r.1 instr.id (instr.id + 1)
            | hd :: rest =>
              if r.1 ∉ live_in then
                some (y.put { y.get r.1 with ranges := ⟨instr.id, hd.end_⟩ :: rest })
              else some y).bind fun g2 =>
          (LGen.buildScratches instr.id instr.scratches g2).bind fun g3 =>
            LGen.buildInputs start_id instr.id instr.inputs g3 := by
    intro y
    cases instr.result with
    | none => rfl
    | some r =>
      simp only
      cases (y.get r.1).ranges with
      | nil => rfl
      | cons hd rest =>
        simp only
        split_ifs <;> rfl
  unfold LGen.buildInstr
  simp only [Option.bind_eq_bind, Option.pure_def]
  by_cases hc : instr.has_call = true
  · rw [if_pos hc, if_pos hc]
    congr 1
    funext y
    exact hstep y
  · rw [if_neg hc, if_neg hc]
    exact hstep g

theorem buildInstr_inv {g g1 : LGen} {p : Int} {C : Int → Prop} (h : BuildInv g p C)
    (live_in : List Nat) (start_id : Int) (instr : LInstruction) (hip : instr.id ≤ p)
    (hsi : start_id ≤ instr.id) (hops : instr.operandsBelow g.intervals.length = true)
    (hrun : LGen.buildInstr live_in start_id g instr = some g1) :
    BuildInv g1 instr.id (fun c => C c ∨ (instr.has_call = true ∧ c = instr.id)) ∧
      g1.blocks = g.blocks ∧ g1.intervals.length = g.intervals.length := by
  obtain ⟨hin, hsc, hres⟩ := operandsBelow_spec instr _ hops
  rw [buildInstr_eq] at hrun
  obtain ⟨ga, ha, hrun⟩ := Option.bind_eq_some.1 hrun
  obtain ⟨gb, hb, hrun⟩ := Option.bind_eq_some.1 hrun
  obtain ⟨gc, hc, hrun⟩ := Option.bind_eq_some.1 hrun
  have h0 := BuildInv_mono h hip
  have hA : BuildInv ga instr.id (fun c => C c ∨ (instr.has_call = true ∧ c = instr.id)) ∧
      ga.blocks = g.blocks ∧ ga.intervals.length = g.intervals.length := by
    by_cases hcall : instr.has_call = true
    · rw [if_pos hcall] at ha
      obtain ⟨h1, h2, h3, _, h5⟩ := killRegisters_inv instr.id C (List.range kLIRRegisterCount)
        g ga h0 (fun r hr => List.mem_range.1 hr) ha
      refine ⟨BuildInv_of h1 ?_, h2, h3⟩
      rintro c (hc | ⟨_, rfl⟩)
      · exact Or.inl hc
      · exact Or.inr ⟨le_refl _, fun r hr => h5 r (List.mem_range.2 hr)⟩
    · rw [if_neg hcall] at ha
      simp only [Option.some.injEq] at ha
      subst ha
      refine ⟨BuildInv_of h0 ?_, rfl, rfl⟩
      rintro c (hc | ⟨h1, _⟩)
      · exact Or.inl hc
      · exact absurd h1 hcall
  obtain ⟨hA1, hA2, hA3⟩ := hA
  obtain ⟨hB1, hB2, hB3⟩ := buildResult_inv hA1 live_in instr.result hb
    (fun u hu => by rw [hA3]; exact hres u hu)
  obtain ⟨hC1, hC2, hC3⟩ := buildScratches_inv instr.id _ instr.scratches gb gc hB1
    (fun u hu => by rw [hB3, hA3]; exact hsc u hu) hc
  obtain ⟨hD1, hD2, hD3⟩ := buildInputs_inv start_id instr.id hsi _ instr.inputs gc g1 hC1
    (fun u hu => by rw [hC3, hB3, hA3]; exact hin u hu) hrun
  exact ⟨hD1, hD2.trans (hC2.trans (hB2.trans hA2)), hD3.trans (hC3.trans (hB3.trans hA3))⟩

theorem buildInstrs_inv (live_in : List Nat) (start_id : Int) :
    ∀ (l : List LInstruction) (g g1 : LGen) (p : Int) (C : Int → Prop), BuildInv g p C →
      start_id ≤ p → l.Pairwise (fun a b => b.id ≤ a.id) →
      (∀ i ∈ l, i.id ≤ p ∧ start_id ≤ i.id ∧ i.operandsBelow g.intervals.length = true) →
      LGen.buildInstrs live_in start_id l g = some g1 →
      BuildInv g1 start_id (fun c => C c ∨ ∃ i ∈ l, i.has_call = true ∧ c = i.id) ∧
        g1.blocks = g.blocks ∧ g1.intervals.length = g.intervals.length
  | [], g, g1, p, C, h, hsp, _, _, hrun => by
    simp only [LGen.buildInstrs, Option.some.injEq] at hrun
    subst hrun
    refine ⟨BuildInv_of (BuildInv_mono h hsp) ?_, rfl, rfl⟩
    rintro c (hc | ⟨i, hi, _⟩)
    · exact Or.inl hc
    · exact absurd hi (List.not_mem_nil _)
  | instr :: rest, g, g1, p, C, h, hsp, hpw, hl, hrun => by
    unfold LGen.buildInstrs at hrun
    simp only [Option.bind_eq_bind] at hrun
    obtain ⟨g2, h2, hrun⟩ := Option.bind_eq_some.1 hrun
    have hi := hl instr (List.mem_cons_self _ _)
    obtain ⟨hA1, hA2, hA3⟩ := buildInstr_inv h live_in start_id instr hi.1 hi.2.1 hi.2.2 h2
    rw [List.pairwise_cons] at hpw
    obtain ⟨hB1, hB2, hB3⟩ := buildInstrs_inv live_in start_id rest g2 g1 instr.id _ hA1 hi.2.1
      hpw.2 (fun j hj => ⟨hpw.1 j hj, (hl j (List.mem_cons_of_mem _ hj)).2.1,
        by rw [hA3]; exact (hl j (List.mem_cons_of_mem _ hj)).2.2⟩) hrun
    refine ⟨BuildInv_of hB1 ?_, hB2.trans hA2, hB3.trans hA3⟩
    rintro c (hc | ⟨i, hi2, hcall, rfl⟩)
    · exact Or.inl (Or.inl (Or.inl hc))
    · rcases List.mem_cons.1 hi2 with rfl | hi2
      · exact Or.inl (Or.inl (Or.inr ⟨hcall, rfl⟩))
      · exact Or.inl (Or.inr ⟨i, hi2, hcall, rfl⟩)

theorem buildLiveOut_inv (s e q : Int) (hse : s ≤ e) (hqe : q ≤ e) (C : Int → Prop)
    (hs : ∀ c, C c → s ≤ c) :
    ∀ (l : List Nat) (g g1 : LGen) (p : Int), LGen.buildLiveOut s e l g = some g1 →
      BuildInv g p C → q ≤ p → (∀ k ∈ l, k < g.intervals.length) →
      BuildInv g1 q C ∧ g1.blocks = g.blocks ∧ g1.intervals.length = g.intervals.length
  | [], g, g1, p, hrun, h, hq, _ => by
    simp only [LGen.buildLiveOut, Option.some.injEq] at hrun
    subst hrun
    exact ⟨BuildInv_mono h hq, rfl, rfl⟩
  | k :: ks, g, g1, p, hrun, h, hq, hl => by
    unfold LGen.buildLiveOut at hrun
    simp only [Option.bind_eq_bind] at hrun
    obtain ⟨g2, h2, hrun⟩ := Option.bind_eq_some.1 hrun
    obtain ⟨hA1, hA2, hA3⟩ := addRange_inv h k (hl k (List.mem_cons_self _ _)) s e hse hqe hq
      hs h2
    obtain ⟨hB1, hB2, hB3⟩ := buildLiveOut_inv s e q hse hqe C hs ks g2 g1 q hrun hA1 (le_refl _)
      (fun x hx => by rw [hA3]; exact hl x (List.mem_cons_of_mem _ hx))
    exact ⟨hB1, hB2.trans hA2, hB3.trans hA3⟩

theorem BuildInv_blocks {g : LGen} {p : Int} {C : Int → Prop} (h : BuildInv g p C)
    (bs : List LBlock) : BuildInv { g with blocks := bs } p C :=
  ⟨h.table, h.ranges, h.covers, h.above⟩

theorem le_getLast_of_sorted : ∀ (l : List LInstruction) (last : LInstruction),
    l.Pairwise (fun a b => a.id ≤ b.id) → l.getLast? = some last → ∀ i ∈ l, i.id ≤ last.id
  | [], _, _, h => by simp at h
  | [x], last, _, h => by
    simp only [List.getLast?_singleton, Option.some.injEq] at h
    subst h
    intro i hi
    rw [List.mem_singleton.1 hi]
  | x :: y :: rest, last, hp, h => by
    rw [List.getLast?_cons_cons] at h
    rw [List.pairwise_cons] at hp
    have ih := le_getLast_of_sorted (y :: rest) last hp.2 h
    intro i hi
    rcases List.mem_cons.1 hi with rfl | hi
    · exact le_trans (hp.1 y (List.mem_cons_self _ _)) (ih y (List.mem_cons_self _ _))
    · exact ih i hi

theorem blockAt_set_ne (bs : List LBlock) (bi j : Nat) (b : LBlock) (h : j ≠ bi) :
    blockAt (bs.set bi b) j = blockAt bs j := by
  unfold blockAt
  simp [List.getD_eq_getElem?_getD, List.getElem?_set_ne (Ne.symm h)]

theorem buildBlock_inv {g g1 : LGen} {p : Int} {C : Int → Prop} (h : BuildInv g p C) (bi : Nat)
    (hsorted : (blockAt g.blocks bi).instructions.Pairwise (fun a b => a.id ≤ b.id))
    (hl : ∀ i ∈ (blockAt g.blocks bi).instructions,
      i.id ≤ p ∧ i.operandsBelow g.intervals.length = true)
    (hlo : ∀ k ∈ (blockAt g.blocks bi).live_out, k < g.intervals.length)
    (hrun : g.buildBlock bi = some g1) :
    ∃ first, (blockAt g.blocks bi).instructions.head? = some first ∧
      BuildInv g1 first.id (fun c => C c ∨
        ∃ i ∈ (blockAt g.blocks bi).instructions, i.has_call = true ∧ c = i.id) ∧
      (∀ j, j ≠ bi → blockAt g1.blocks j = blockAt g.blocks j) ∧
      g1.intervals.length = g.intervals.length := by
  unfold LGen.buildBlock at hrun
  simp only [Option.bind_eq_bind] at hrun
  obtain ⟨first, hfirst, hrun⟩ := Option.bind_eq_some.1 hrun
  obtain ⟨last, hlast, hrun⟩ := Option.bind_eq_some.1 hrun
  obtain ⟨g2, h2, hrun⟩ := Option.bind_eq_some.1 hrun
  have hfm : first ∈ (blockAt g.blocks bi).instructions := List.mem_of_mem_head? hfirst
  have hlm : last ∈ (blockAt g.blocks bi).instructions := List.mem_of_mem_getLast? hlast
  have hle_last := le_getLast_of_sorted _ last hsorted hlast
  have hfirst_le : ∀ i ∈ (blockAt g.blocks bi).instructions, first.id ≤ i.id := by
    intro i hi
    cases hins : (blockAt g.blocks bi).instructions with
    | nil => rw [hins] at hi; exact absurd hi (List.not_mem_nil _)
    | cons x t =>
      rw [hins] at hfirst hi hsorted
      simp only [List.head?_cons, Option.some.injEq] at hfirst
      subst hfirst
      rcases List.mem_cons.1 hi with rfl | hi
      · exact le_refl _
      · exact (List.pairwise_cons.1 hsorted).1 i hi
  obtain ⟨hA1, hA2, hA3⟩ := buildLiveOut_inv first.id (last.id + 2) last.id
    (by have := hfirst_le last hlm; omega) (by omega) C
    (fun c hc => by have := h.above c hc; have := (hl first hfm).1; omega)
    _ _ g2 p h2 (BuildInv_blocks h _) (hl last hlm).1 hlo
  obtain ⟨hB1, hB2, hB3⟩ := buildInstrs_inv _ first.id _ g2 g1 last.id C hA1
    (hfirst_le last hlm) (List.pairwise_reverse.2 hsorted)
    (fun i hi => ⟨hle_last i (List.mem_reverse.1 hi), hfirst_le i (List.mem_reverse.1 hi),
      by rw [hA3]; exact (hl i (List.mem_reverse.1 hi)).2⟩) hrun
  refine ⟨first, hfirst, BuildInv_of hB1 ?_, ?_, hB3.trans hA3⟩
  · rintro c (hc | ⟨i, hi, hcall, rfl⟩)
    · exact Or.inl (Or.inl hc)
    · exact Or.inl (Or.inr ⟨i, List.mem_reverse.2 hi, hcall, rfl⟩)
  · intro j hj
    rw [hB2, hA2]
    exact blockAt_set_ne _ _ _ _ hj

theorem buildBlocks_inv : ∀ (n : Nat) (g g1 : LGen) (p : Int) (C : Int → Prop),
    BuildInv g p C →
    (∀ j, j < n → (blockAt g.blocks j).instructions.Pairwise (fun a b => a.id ≤ b.id) ∧
      (∀ i ∈ (blockAt g.blocks j).instructions,
        i.id ≤ p ∧ i.operandsBelow g.intervals.length = true) ∧
      ∀ k ∈ (blockAt g.blocks j).live_out, k < g.intervals.length) →
    (∀ j k, j < k → k < n → ∀ x ∈ (blockAt g.blocks j).instructions,
      ∀ y ∈ (blockAt g.blocks k).instructions, x.id ≤ y.id) →
    LGen.buildBlocks n g = some g1 →
    ∃ q, BuildInv g1 q (fun c => C c ∨ ∃ j, j < n ∧
      ∃ i ∈ (blockAt g.blocks j).instructions, i.has_call = true ∧ c = i.id)
  | 0, g, g1, p, C, h, _, _, hrun => by
    simp only [LGen.buildBlocks, Option.some.injEq] at hrun
    subst hrun
    refine ⟨p, BuildInv_of h ?_⟩
    rintro c (hc | ⟨j, hj, _⟩)
    · exact Or.inl hc
    · omega
  | n + 1, g, g1, p, C, h, hblk, hcross, hrun => by
    unfold LGen.buildBlocks at hrun
    simp only [Option.bind_eq_bind] at hrun
    obtain ⟨g2, h2, hrun⟩ := Option.bind_eq_some.1 hrun
    obtain ⟨hs, hl, hlo⟩ := hblk n (Nat.lt_succ_self n)
    obtain ⟨first, hfirst, hA1, hA2, hA3⟩ := buildBlock_inv h n hs hl hlo h2
    have hfm : first ∈ (blockAt g.blocks n).instructions := List.mem_of_mem_head? hfirst
    obtain ⟨q, hq⟩ := buildBlocks_inv n g2 g1 first.id _ hA1
      (fun j hj => by
        rw [hA2 j (by omega), hA3]
        obtain ⟨hs1, hl1, hlo1⟩ := hblk j (by omega)
        exact ⟨hs1, fun i hi => ⟨hcross j n hj (Nat.lt_succ_self n) i hi first hfm,
          (hl1 i hi).2⟩, hlo1⟩)
      (fun j k hjk hk x hx y hy => by
        rw [hA2 j (by omega)] at hx
        rw [hA2 k (by omega)] at hy
        exact hcross j k hjk (by omega) x hx y hy) hrun
    refine ⟨q, BuildInv_of hq ?_⟩
    rintro c (hc | ⟨j, hj, i, hi, hcall, rfl⟩)
    · exact Or.inl (Or.inl (Or.inl hc))
    · by_cases hjn : j = n
      · subst hjn
        exact Or.inl (Or.inl (Or.inr ⟨i, hi, hcall, rfl⟩))
      · refine Or.inl (Or.inr ⟨j, by omega, i, ?_, hcall, rfl⟩)
        rw [hA2 j hjn]
        exact hi

theorem exists_upper_bound : ∀ (l : List LInstruction), ∃ u : Int, ∀ i ∈ l, i.id ≤ u
  | [] => ⟨0, fun _ hi => absurd hi (List.not_mem_nil _)⟩
  | x :: rest => by
    obtain ⟨u, hu⟩ := exists_upper_bound rest
    refine ⟨max x.id u, ?_⟩
    intro i hi
    rcases List.mem_cons.1 hi with rfl | hi
    · exact le_max_left _ _
    · exact le_trans (hu i hi) (le_max_right _ _)

theorem blockAt_cases (bs : List LBlock) (j : Nat) :
    (∃ hj : j < bs.length, blockAt bs j = bs[j]) ∨
    (bs.length ≤ j ∧ blockAt bs j = ⟨[], [], [], [], [], [], -1, -1⟩) := by
  unfold blockAt
  by_cases hj : j < bs.length
  · exact Or.inl ⟨hj, List.getD_eq_getElem _ _ hj⟩
  · right
    refine ⟨not_lt.1 hj, ?_⟩
    simp [List.getD_eq_getElem?_getD, List.getElem?_eq_none (not_lt.1 hj)]

/-- C27: let `BuildIntervals` run on a state whose interval table holds the
fixed registers at their ids, whose intervals have no ranges yet, whose
instructions and live sets name intervals of the table and whose instruction
ids do not decrease along the flattened blocks. If it returns, then for every
instruction with a call and every register index `r < kLIRRegisterCount` the
fixed interval of `r` covers the id of the instruction. -/
theorem BuildIntervals_kills_registers (g g1 : LGen) (htab : g.tableOk)
    (hempty : ∀ i ∈ g.intervals, i.ranges = [])
    (hops : ∀ b ∈ g.blocks, (∀ k ∈ b.live_out, k < g.intervals.length) ∧
      ∀ i ∈ b.instructions, i.operandsBelow g.intervals.length = true)
    (hsorted : (g.blocks.flatMap (fun b => b.instructions)).Pairwise
      (fun a b => a.id ≤ b.id))
    (hrun : g.BuildIntervals = some g1) :
    ∀ b ∈ g.blocks, ∀ i ∈ b.instructions, i.has_call = true →
      ∀ r, r < kLIRRegisterCount → (g1.get r).Covers i.id = true := by
  obtain ⟨u, hu⟩ := exists_upper_bound (g.blocks.flatMap (fun b => b.instructions))
  rw [List.pairwise_flatMap] at hsorted
  have h0 : BuildInv g u (fun _ => False) := by
    refine ⟨htab, ?_, fun c hc => hc.elim, fun c hc => hc.elim⟩
    intro id r hr
    rcases get_mem_or_default g id with h | h
    · rw [hempty _ h] at hr; exact absurd hr (List.not_mem_nil _)
    · rw [h] at hr; exact absurd hr (List.not_mem_nil _)
  unfold LGen.BuildIntervals at hrun
  obtain ⟨q, hq⟩ := buildBlocks_inv g.blocks.length g g1 u _ h0
    (fun j hj => by
      rcases blockAt_cases g.blocks j with ⟨hj2, he⟩ | ⟨hj2, _⟩
      · have hm : g.blocks[j] ∈ g.blocks := List.getElem_mem _
        rw [he]
        refine ⟨hsorted.1 _ hm, fun i hi => ⟨hu i ?_, (hops _ hm).2 i hi⟩, (hops _ hm).1⟩
        exact List.mem_flatMap.2 ⟨_, hm, hi⟩
      · omega)
    (fun j k hjk hk x hx y hy => by
      rcases blockAt_cases g.blocks j with ⟨hj2, hej⟩ | ⟨hj2, _⟩
      · rcases blockAt_cases g.blocks k with ⟨hk2, hek⟩ | ⟨hk2, _⟩
        · rw [hej] at hx
          rw [hek] at hy
          exact List.pairwise_iff_getElem.1 hsorted.2 j k hj2 hk2 hjk x hx y hy
        · omega
      · omega) hrun
  intro b hb i hi hcall r hr
  obtain ⟨j, hj, hbj⟩ := List.getElem_of_mem hb
  refine hq.covers i.id (Or.inr ⟨j, hj, i, ?_, hcall, rfl⟩) r hr
  rcases blockAt_cases g.blocks j with ⟨_, he⟩ | ⟨hj2, _⟩
  · rw [he, hbj]; exact hi
  · omega

theorem some_getD_of_isSome {α : Type} (o : Option α) (d : α) (h : o.isSome = true) :
    o = some (o.getD d) := by
  cases o with
  | none => simp at h
  | some x => rfl

set_option maxRecDepth 100000 in
/-- The program `callProgram`: `BuildIntervals` returns and every register
covers the call at 4. -/
theorem BuildIntervals_kills_registers_witness :
    callState.BuildIntervals.isSome = true ∧
    ∀ b ∈ callState.blocks, ∀ i ∈ b.instructions, i.has_call = true →
      ∀ r, r < kLIRRegisterCount →
        ((callState.BuildIntervals.getD callState).get r).Covers i.id = true :=
  ⟨by decide, BuildIntervals_kills_registers callState (callState.BuildIntervals.getD callState)
    ⟨by decide, by decide⟩ (by decide) (by decide) (by decide)
    (some_getD_of_isSome _ _ (by decide))⟩

/-! ## Data-flow resolution inserts the needed moves -/

theorem ResolveFrame_refl (g : LGen) : ResolveFrame g g :=
  ⟨le_refl _, fun _ _ => rfl, rfl, fun _ => ⟨rfl, rfl, rfl, rfl⟩⟩

theorem ResolveFrame_trans {g0 g1 g2 : LGen} (h1 : ResolveFrame g0 g1)
    (h2 : ResolveFrame g1 g2) : ResolveFrame g0 g2 := by
  refine ⟨le_trans h1.len h2.len, ?_, h2.blen.trans h1.blen, ?_⟩
  · intro x hx
    rw [h2.same x (lt_of_lt_of_le hx h1.len), h1.same x hx]
  · intro j
    obtain ⟨a1, a2, a3, a4⟩ := h1.blocks j
    obtain ⟨b1, b2, b3, b4⟩ := h2.blocks j
    exact ⟨b1.trans a1, b2.trans a2, b3.trans a3, b4.trans a4⟩

theorem ChildAtD_two (g : LGen) (d x : Nat) (pos : Int)
    (hx : ∀ p, (g.get x).split_parent = some p → (g.get p).split_parent = none) :
    g.ChildAtD (d + 2) x pos =
      if (g.get (g.familyOf x)).Covers pos then some (g.familyOf x)
      else (g.get (g.familyOf x)).split_children.find? (fun c => (g.get c).Covers pos) := by
  unfold LGen.familyOf
  cases hp : (g.get x).split_parent with
  | none =>
    simp only
    rw [LGen.ChildAtD, hp]
  | some p =>
    simp only
    rw [LGen.ChildAtD, hp]
    simp only
    rw [LGen.ChildAtD, hx p hp]

theorem find?_congr_mem {α : Type} (f h : α → Bool) : ∀ (l : List α),
    (∀ c ∈ l, f c = h c) → l.find? f = l.find? h
  | [], _ => rfl
  | c :: rest, hl => by
    rw [List.find?_cons, List.find?_cons, hl c (List.mem_cons_self _ _),
      find?_congr_mem f h rest (fun x hx => hl x (List.mem_cons_of_mem _ hx))]

theorem familyOf_frame {g0 g : LGen} (hf : ResolveFrame g0 g) (k : Nat)
    (hk : k < g0.intervals.length) : g.familyOf k = g0.familyOf k := by
  unfold LGen.familyOf
  rw [hf.same k hk]

theorem familyOf_lt {g0 : LGen} (hfam : g0.familiesOk) (k : Nat)
    (hk : k < g0.intervals.length) : g0.familyOf k < g0.intervals.length := by
  unfold LGen.familyOf
  cases hp : (g0.get k).split_parent with
  | none => exact hk
  | some p => exact ((hfam k hk).1 p hp).1

theorem ChildAt_frame {g0 g : LGen} (hf : ResolveFrame g0 g) (hfam : g0.familiesOk) (x : Nat)
    (hx : x < g0.intervals.length) (pos : Int) : g.ChildAt x pos = g0.ChildAt x pos := by
  have hn0 : g0.intervals.length + 1 = (g0.intervals.length - 1) + 2 := by omega
  have hn : g.intervals.length + 1 = (g.intervals.length - 1) + 2 := by
    have := hf.len; omega
  unfold LGen.ChildAt
  rw [hn0, hn, ChildAtD_two g0 _ x pos (fun p hp => ((hfam x hx).1 p hp).2),
    ChildAtD_two g _ x pos (fun p hp => by
      rw [hf.same x hx] at hp
      rw [hf.same p ((hfam x hx).1 p hp).1]
      exact ((hfam x hx).1 p hp).2)]
  have hr := familyOf_lt hfam x hx
  rw [familyOf_frame hf x hx, hf.same _ hr]
  rw [find?_congr_mem _ (fun c => (g0.get c).Covers pos) _
    (fun c hc => by rw [hf.same c ((hfam _ hr).2 c hc)])]

theorem blockAt_modify (f : LBlock → LBlock) (bs : List LBlock) (i j : Nat) :
    blockAt (List.modify f i bs) j = blockAt bs j ∨
      blockAt (List.modify f i bs) j = f (blockAt bs j) := by
  unfold blockAt
  simp only [List.getD_eq_getElem?_getD, List.getElem?_modify]
  cases bs[j]? with
  | none => left; rfl
  | some b =>
    by_cases h : i = j
    · right; simp [h]
    · left; simp [h]

theorem blockAt_modify_fields (f : LBlock → LBlock)
    (hf : ∀ b, (f b).succ = b.succ ∧ (f b).live_in = b.live_in ∧
      (f b).start_id = b.start_id ∧ (f b).end_id = b.end_id) (bs : List LBlock) (i j : Nat) :
    (blockAt (List.modify f i bs) j).succ = (blockAt bs j).succ ∧
    (blockAt (List.modify f i bs) j).live_in = (blockAt bs j).live_in ∧
    (blockAt (List.modify f i bs) j).start_id = (blockAt bs j).start_id ∧
    (blockAt (List.modify f i bs) j).end_id = (blockAt bs j).end_id := by
  rcases blockAt_modify f bs i j with h | h
  · rw [h]; exact ⟨rfl, rfl, rfl, rfl⟩
  · rw [h]; exact hf _

theorem blockAt_map (f : LBlock → LBlock) (bs : List LBlock) (j : Nat) :
    blockAt (bs.map f) j = blockAt bs j ∨ blockAt (bs.map f) j = f (blockAt bs j) := by
  unfold blockAt
  simp only [List.getD_eq_getElem?_getD, List.getElem?_map]
  cases bs[j]? with
  | none => left; rfl
  | some b => right; rfl

theorem Spill_blocks (g g1 : LGen) (id : Nat) (h : g.Spill id = some g1) :
    g1.blocks = g.blocks ∧ g1.intervals.length = g.intervals.length := by
  unfold LGen.Spill at h
  by_cases hs : (g.get id).is_stackslot
  · simp [assert, hs] at h
  · simp [assert, hs] at h
    subst h
    exact ⟨rfl, put_length _ _⟩

theorem CreateVirtual_blocks (g : LGen) : g.CreateVirtual.1.blocks = g.blocks := rfl

theorem GetGap_frame (g g5 : LGen) (pos : Int) (h : g.GetGap pos = some g5) :
    ResolveFrame g g5 ∧ (∃ x ∈ g5.instructions, x.is_gap = true ∧ x.id = pos) ∧
      ∀ id pr, g5.gapPairs id pr ↔ g.gapPairs id pr := by
  unfold LGen.GetGap at h
  have hsplit : g.instructions.takeWhile (fun x => decide (x.id < pos)) ++
      g.instructions.dropWhile (fun x => decide (x.id < pos)) = g.instructions :=
    List.takeWhile_append_dropWhile _ _
  cases hd : g.instructions.dropWhile (fun x => decide (x.id < pos)) with
  | nil => simp [hd] at h
  | cons hd0 tl =>
    rw [hd] at h hsplit
    simp only at h
    by_cases he : hd0.id = pos
    · simp only [he, if_true] at h
      by_cases hg : hd0.is_gap = true
      · simp only [hg, if_true, Option.some.injEq] at h
        subst h
        refine ⟨ResolveFrame_refl g, ⟨hd0, ?_, hg, he⟩, fun _ _ => Iff.rfl⟩
        rw [← hsplit]
        exact List.mem_append_right _ (List.mem_cons_self _ _)
      · simp [hg] at h
    · simp only [he, if_false] at h
      cases hl : (g.instructions.takeWhile (fun x => decide (x.id < pos))).getLast? with
      | none => simp [hl] at h
      | some prev =>
        rw [hl] at h
        simp only [Option.bind_eq_bind, Option.pure_def] at h
        obtain ⟨t, ht, h⟩ := Option.bind_eq_some.1 h
        obtain ⟨g2, hg2, h⟩ := Option.bind_eq_some.1 h
        simp only [Option.some.injEq] at h
        subst h
        have hnew := CreateVirtual_new g
        have hsnd := CreateVirtual_snd g
        have hlen := CreateVirtual_length g
        rw [hsnd] at ht hg2
        have htid : t.id = g.intervals.length := by
          rw [(AddRange_cases _ _ _ _ ht).1, hnew]
        have hput : (g.CreateVirtual.1.put t).get g.intervals.length = t := by
          rw [get_put, if_pos ⟨htid.symm, by rw [hlen]; omega⟩]
        obtain ⟨hb2, hl2⟩ := Spill_blocks _ _ _ hg2
        refine ⟨⟨?_, ?_, ?_, ?_⟩, ?_, ?_⟩
        · show g.intervals.length ≤ g2.intervals.length
          rw [hl2, put_length, hlen]
          omega
        · intro x hx
          show g2.get x = g.get x
          rw [Spill_get _ _ _ x hg2 (by rw [hput, htid]; omega), get_put,
            if_neg (by rw [htid]; omega), CreateVirtual_get g x hx]
        · show (List.modify _ _ g2.blocks).length = g.blocks.length
          rw [List.length_modify, hb2]
          rfl
        · intro j
          rw [show g.blocks = g2.blocks from hb2.symm]
          exact blockAt_modify_fields _ (by intro b; exact ⟨rfl, rfl, rfl, rfl⟩) _ _ j
        · refine ⟨_, List.mem_append_right _ (List.mem_cons_self _ _), rfl, rfl⟩
        · intro id pr
          unfold LGen.gapPairs
          show (∃ x ∈ _ ++ _ :: (hd0 :: tl), _) ↔ _
          conv_rhs => rw [← hsplit]
          simp only [List.mem_append, List.mem_cons]
          constructor
          · rintro ⟨x, (hx | rfl | hx), h1, h2, h3⟩
            · exact ⟨x, Or.inl hx, h1, h2, h3⟩
            · exact absurd h3 (List.not_mem_nil _)
            · exact ⟨x, Or.inr hx, h1, h2, h3⟩
          · rintro ⟨x, (hx | hx), h1, h2, h3⟩
            · exact ⟨x, Or.inl hx, h1, h2, h3⟩
            · exact ⟨x, Or.inr (Or.inr hx), h1, h2, h3⟩

theorem addPair_gapPairs (l : List LInstruction) (pos : Int) (pr : Nat × Nat) (id : Int)
    (q : Nat × Nat) :
    (∃ x ∈ addPair pos pr l, x.is_gap = true ∧ x.id = id ∧ q ∈ x.pairs) ↔
      (∃ x ∈ l, x.is_gap = true ∧ x.id = id ∧ q ∈ x.pairs) ∨
      (id = pos ∧ q = pr ∧ ∃ x ∈ l, x.is_gap = true ∧ x.id = pos) := by
  unfold addPair
  simp only [List.mem_map]
  constructor
  · rintro ⟨x, ⟨y, hy, rfl⟩, h1, h2, h3⟩
    by_cases hc : (y.is_gap && y.id == pos) = true
    · rw [if_pos hc] at h1 h2 h3
      simp only [Bool.and_eq_true, beq_iff_eq] at hc
      simp only [List.mem_append, List.mem_singleton] at h3
      rcases h3 with h3 | h3
      · exact Or.inl ⟨y, hy, hc.1, h2, h3⟩
      · exact Or.inr ⟨by rw [← h2]; exact hc.2, h3, y, hy, hc.1, hc.2⟩
    · rw [if_neg hc] at h1 h2 h3
      exact Or.inl ⟨y, hy, h1, h2, h3⟩
  · rintro (⟨y, hy, h1, h2, h3⟩ | ⟨rfl, rfl, y, hy, h1, h2⟩)
    · refine ⟨_, ⟨y, hy, rfl⟩, ?_⟩
      by_cases hc : (y.is_gap && y.id == pos) = true
      · rw [if_pos hc]
        exact ⟨h1, h2, List.mem_append_left _ h3⟩
      · rw [if_neg hc]
        exact ⟨h1, h2, h3⟩
    · refine ⟨_, ⟨y, hy, rfl⟩, ?_⟩
      rw [if_pos (by simp [h1, h2])]
      exact ⟨h1, h2, List.mem_append_right _ (List.mem_singleton.2 rfl)⟩

theorem addPair_frame (g : LGen) (pos : Int) (pr : Nat × Nat) :
    ResolveFrame g { g with instructions := addPair pos pr g.instructions,
                            blocks := g.blocks.map
                              (fun b => { b with instructions := addPair pos pr b.instructions }) } := by
  refine ⟨le_refl _, fun _ _ => rfl, List.length_map _ _, ?_⟩
  intro j
  rcases blockAt_map (fun b => { b with instructions := addPair pos pr b.instructions })
    g.blocks j with h | h
  · rw [h]; exact ⟨rfl, rfl, rfl, rfl⟩
  · rw [h]; exact ⟨rfl, rfl, rfl, rfl⟩

theorem addPair_gap_keeps (l : List LInstruction) (pos : Int) (pr : Nat × Nat)
    (h : ∃ x ∈ l, x.is_gap = true ∧ x.id = pos) :
    ∃ x ∈ addPair pos pr l, x.is_gap = true ∧ x.id = pos := by
  obtain ⟨x, hx, h1, h2⟩ := h
  unfold addPair
  refine ⟨_, List.mem_map.2 ⟨x, hx, rfl⟩, ?_⟩
  rw [if_pos (by simp [h1, h2])]
  exact ⟨h1, h2⟩

theorem resolveEdge_spec (g0 : LGen) (hfam : g0.familiesOk) (pos e s : Int) :
    ∀ (ks : List Nat) (gap : Bool) (g out : LGen) (flag : Bool),
      LGen.resolveEdge pos e s ks gap g = some (out, flag) → ResolveFrame g0 g →
      (gap = true → ∃ x ∈ g.instructions, x.is_gap = true ∧ x.id = pos) →
      (∀ k ∈ ks, k < g0.intervals.length) →
      ResolveFrame g0 out ∧ ∀ id pr, out.gapPairs id pr ↔
        g.gapPairs id pr ∨ (id = pos ∧ ∃ k ∈ ks, g0.needsMove e s k pr)
  | [], gap, g, out, flag, hrun, hf, _, _ => by
    simp only [LGen.resolveEdge, Option.some.injEq, Prod.mk.injEq] at hrun
    obtain ⟨rfl, _⟩ := hrun
    refine ⟨hf, fun id pr => ?_⟩
    simp
  | k :: ks, gap, g, out, flag, hrun, hf, hgap, hks => by
    have hk := hks k (List.mem_cons_self _ _)
    have hrest : ∀ x ∈ ks, x < g0.intervals.length :=
      fun x hx => hks x (List.mem_cons_of_mem _ hx)
    have hr := familyOf_lt hfam k hk
    have hfamk := familyOf_frame hf k hk
    unfold LGen.resolveEdge at hrun
    simp only [hfamk, hf.same _ hr, ChildAt_frame hf hfam _ hr] at hrun
    by_cases hlen : (g0.get (g0.familyOf k)).split_children.length = 0
    · rw [if_pos hlen] at hrun
      obtain ⟨h1, h2⟩ := resolveEdge_spec g0 hfam pos e s ks gap g out flag hrun hf hgap hrest
      refine ⟨h1, fun id pr => ?_⟩
      rw [h2]
      simp only [List.mem_cons, exists_eq_or_imp]
      constructor
      · rintro (h | ⟨h3, h4⟩)
        · exact Or.inl h
        · exact Or.inr ⟨h3, Or.inr h4⟩
      · rintro (h | ⟨h3, h4 | h4⟩)
        · exact Or.inl h
        · exact absurd hlen h4.1
        · exact Or.inr ⟨h3, h4⟩
    · rw [if_neg hlen] at hrun
      simp only [Option.bind_eq_bind] at hrun
      obtain ⟨l, hl, hrun⟩ := Option.bind_eq_some.1 hrun
      obtain ⟨r, hr2, hrun⟩ := Option.bind_eq_some.1 hrun
      by_cases hne : l ≠ r
      · rw [if_pos hne] at hrun
        have key : ∀ g1 : LGen, ResolveFrame g g1 →
            (∃ x ∈ g1.instructions, x.is_gap = true ∧ x.id = pos) →
            (∀ id pr, g1.gapPairs id pr ↔ g.gapPairs id pr) →
            LGen.resolveEdge pos e s ks true
              { g1 with instructions := addPair pos (l, r) g1.instructions,
                        blocks := g1.blocks.map
                          (fun b => { b with instructions := addPair pos (l, r) b.instructions }) }
              = some (out, flag) →
            ResolveFrame g0 out ∧ ∀ id pr, out.gapPairs id pr ↔
              g.gapPairs id pr ∨ (id = pos ∧ ∃ k1 ∈ k :: ks, g0.needsMove e s k1 pr) := by
          intro g1 hs1 hs2 hs3 hrun1
          obtain ⟨h1, h2⟩ := resolveEdge_spec g0 hfam pos e s ks true _ out flag hrun1
            (ResolveFrame_trans (ResolveFrame_trans hf hs1) (addPair_frame g1 pos (l, r)))
            (fun _ => addPair_gap_keeps _ pos (l, r) hs2) hrest
          refine ⟨h1, fun id pr => ?_⟩
          rw [h2]
          unfold LGen.gapPairs
          rw [addPair_gapPairs]
          have hs3' := hs3 id pr
          unfold LGen.gapPairs at hs3'
          rw [hs3']
          simp only [List.mem_cons, exists_eq_or_imp]
          constructor
          · rintro ((h | ⟨h3, h4, _⟩) | ⟨h3, h4⟩)
            · exact Or.inl h
            · refine Or.inr ⟨h3, Or.inl ⟨hlen, ?_, ?_, ?_⟩⟩
              · rw [h4]; exact hl
              · rw [h4]; exact hr2
              · rw [h4]; exact hne
            · exact Or.inr ⟨h3, Or.inr h4⟩
          · rintro (h | ⟨h3, h4 | h4⟩)
            · exact Or.inl (Or.inl h)
            · refine Or.inl (Or.inr ⟨h3, ?_, hs2⟩)
              obtain ⟨_, a, b, _⟩ := h4
              rw [hl] at a
              rw [hr2] at b
              simp only [Option.some.injEq] at a b
              exact Prod.ext a.symm b.symm
            · exact Or.inr ⟨h3, h4⟩
        by_cases hg : gap = true
        · rw [if_pos hg] at hrun
          simp only [Option.pure_def, Option.some_bind] at hrun
          exact key g (ResolveFrame_refl g) (hgap hg) (fun _ _ => Iff.rfl) hrun
        · rw [if_neg hg] at hrun
          obtain ⟨g1, hg1, hrun⟩ := Option.bind_eq_some.1 hrun
          obtain ⟨hs1, hs2, hs3⟩ := GetGap_frame g g1 pos hg1
          exact key g1 hs1 hs2 hs3 hrun
      · rw [if_neg hne] at hrun
        obtain ⟨h1, h2⟩ := resolveEdge_spec g0 hfam pos e s ks gap g out flag hrun hf hgap hrest
        refine ⟨h1, fun id pr => ?_⟩
        rw [h2]
        simp only [List.mem_cons, exists_eq_or_imp]
        constructor
        · rintro (h | ⟨h3, h4⟩)
          · exact Or.inl h
          · exact Or.inr ⟨h3, Or.inr h4⟩
        · rintro (h | ⟨h3, h4 | h4⟩)
          · exact Or.inl h
          · obtain ⟨_, a, b, c⟩ := h4
            rw [hl] at a
            rw [hr2] at b
            simp only [Option.some.injEq] at a b
            exact absurd (by rw [← a, ← b] at c; exact c) hne
          · exact Or.inr ⟨h3, h4⟩

theorem erase_gapPairs (g : LGen) (control : LInstruction) (bs : List LBlock)
    (hc : control.is_gap = false) (id : Int) (pr : Nat × Nat) :
    LGen.gapPairs { g with blocks := bs, instructions := g.instructions.erase control } id pr ↔
      g.gapPairs id pr := by
  unfold LGen.gapPairs
  constructor
  · rintro ⟨x, hx, h1, h2, h3⟩
    exact ⟨x, List.mem_of_mem_erase hx, h1, h2, h3⟩
  · rintro ⟨x, hx, h1, h2, h3⟩
    refine ⟨x, (List.mem_erase_of_ne ?_).2 hx, h1, h2, h3⟩
    intro he
    rw [he, hc] at h1
    exact absurd h1 (by simp)

theorem resolveSucc_spec (isGoto isBranch : LInstruction → Bool)
    (hgoto : ∀ x, isGoto x = true → x.is_gap = false) (g0 : LGen) (hfam : g0.familiesOk)
    (hlive : ∀ j, ∀ k ∈ (blockAt g0.blocks j).live_in, k < g0.intervals.length)
    (bi si : Nat) (g out : LGen) (hrun : g.resolveSucc isGoto isBranch bi si = some out)
    (hf : ResolveFrame g0 g) :
    ResolveFrame g0 out ∧ ∀ id pr, out.gapPairs id pr ↔
      g.gapPairs id pr ∨ (id = g0.edgePos bi si ∧
        ∃ k ∈ (blockAt g0.blocks si).live_in,
          g0.needsMove (blockAt g0.blocks bi).end_id (blockAt g0.blocks si).start_id k pr) := by
  unfold LGen.resolveSucc at hrun
  simp only [Option.bind_eq_bind, (hf.blocks bi).1, (hf.blocks bi).2.2.2, (hf.blocks si).2.1,
    (hf.blocks si).2.2.1] at hrun
  obtain ⟨⟨g1, flag⟩, he, hrun⟩ := Option.bind_eq_some.1 hrun
  obtain ⟨h1, h2⟩ := resolveEdge_spec g0 hfam _ _ _ _ false g g1 flag he hf
    (fun h => absurd h (by simp)) (hlive si)
  have hpos : (if (blockAt g0.blocks bi).succ.length = 2 then (blockAt g0.blocks si).start_id + 1
      else (blockAt g0.blocks bi).end_id - 1) = g0.edgePos bi si := rfl
  rw [hpos] at h2
  simp only at hrun
  obtain ⟨control, hctl, hrun⟩ := Option.bind_eq_some.1 hrun
  obtain ⟨_, _, hrun⟩ := Option.bind_eq_some.1 hrun
  by_cases hg : isGoto control = true
  · rw [if_pos hg] at hrun
    obtain ⟨_, _, hrun⟩ := Option.bind_eq_some.1 hrun
    by_cases hn : bi + 1 = si
    · rw [if_pos hn] at hrun
      simp only [Option.pure_def, Option.some.injEq] at hrun
      subst hrun
      refine ⟨ResolveFrame_trans h1 ⟨le_refl _, fun _ _ => rfl, List.length_set _ _ _, ?_⟩, ?_⟩
      · intro j
        show (blockAt (g1.blocks.set bi _) j).succ = _ ∧ _
        rw [blockAt_set]
        split_ifs with h
        · rw [h.1]; exact ⟨rfl, rfl, rfl, rfl⟩
        · exact ⟨rfl, rfl, rfl, rfl⟩
      · intro id pr
        rw [← h2]
        exact erase_gapPairs g1 control _ (hgoto control hg) id pr
    · rw [if_neg hn] at hrun
      simp only [Option.pure_def, Option.some.injEq] at hrun
      subst hrun
      exact ⟨h1, h2⟩
  · rw [if_neg hg] at hrun
    simp only [Option.pure_def, Option.some.injEq] at hrun
    subst hrun
    exact ⟨h1, h2⟩

theorem resolveSuccs_spec (isGoto isBranch : LInstruction → Bool)
    (hgoto : ∀ x, isGoto x = true → x.is_gap = false) (g0 : LGen) (hfam : g0.familiesOk)
    (hlive : ∀ j, ∀ k ∈ (blockAt g0.blocks j).live_in, k < g0.intervals.length) (bi : Nat) :
    ∀ (sis : List Nat) (g out : LGen), LGen.resolveSuccs isGoto isBranch bi sis g = some out →
      ResolveFrame g0 g →
      ResolveFrame g0 out ∧ ∀ id pr, out.gapPairs id pr ↔
        g.gapPairs id pr ∨ ∃ si ∈ sis, g0.edgeMove bi si id pr
  | [], g, out, hrun, hf => by
    simp only [LGen.resolveSuccs, Option.some.injEq] at hrun
    subst hrun
    exact ⟨hf, fun id pr => by simp⟩
  | si :: rest, g, out, hrun, hf => by
    unfold LGen.resolveSuccs at hrun
    simp only [Option.bind_eq_bind] at hrun
    obtain ⟨g1, h1, hrun⟩ := Option.bind_eq_some.1 hrun
    obtain ⟨hA1, hA2⟩ := resolveSucc_spec isGoto isBranch hgoto g0 hfam hlive bi si g g1 h1 hf
    obtain ⟨hB1, hB2⟩ := resolveSuccs_spec isGoto isBranch hgoto g0 hfam hlive bi rest g1 out
      hrun hA1
    refine ⟨hB1, fun id pr => ?_⟩
    have hA2' : g1.gapPairs id pr ↔ g.gapPairs id pr ∨ g0.edgeMove bi si id pr := hA2 id pr
    rw [hB2, hA2']
    simp only [List.mem_cons, exists_eq_or_imp]
    exact or_assoc

theorem resolveBlocks_spec (isGoto isBranch : LInstruction → Bool)
    (hgoto : ∀ x, isGoto x = true → x.is_gap = false) (g0 : LGen) (hfam : g0.familiesOk)
    (hlive : ∀ j, ∀ k ∈ (blockAt g0.blocks j).live_in, k < g0.intervals.length) :
    ∀ (bis : List Nat) (g out : LGen), LGen.resolveBlocks isGoto isBranch bis g = some out →
      ResolveFrame g0 g →
      ResolveFrame g0 out ∧ ∀ id pr, out.gapPairs id pr ↔
        g.gapPairs id pr ∨ ∃ bi ∈ bis, ∃ si ∈ (blockAt g0.blocks bi).succ,
          g0.edgeMove bi si id pr
  | [], g, out, hrun, hf => by
    simp only [LGen.resolveBlocks, Option.some.injEq] at hrun
    subst hrun
    exact ⟨hf, fun id pr => by simp⟩
  | bi :: rest, g, out, hrun, hf => by
    unfold LGen.resolveBlocks at hrun
    simp only [Option.bind_eq_bind, (hf.blocks bi).1] at hrun
    obtain ⟨g1, h1, hrun⟩ := Option.bind_eq_some.1 hrun
    obtain ⟨hA1, hA2⟩ := resolveSuccs_spec isGoto isBranch hgoto g0 hfam hlive bi _ g g1 h1 hf
    obtain ⟨hB1, hB2⟩ := resolveBlocks_spec isGoto isBranch hgoto g0 hfam hlive rest g1 out
      hrun hA1
    refine ⟨hB1, fun id pr => ?_⟩
    rw [hB2, hA2]
    simp only [List.mem_cons, exists_eq_or_imp]
    exact or_assoc

theorem checkFamilies_spec (g : LGen) (h : g.checkFamilies = true) : g.familiesOk := by
  unfold LGen.checkFamilies at h
  rw [List.all_eq_true] at h
  intro x hx
  have hx2 := h x (List.mem_range.2 hx)
  rw [Bool.and_eq_true, List.all_eq_true] at hx2
  refine ⟨?_, fun c hc => by simpa using hx2.2 c hc⟩
  intro p hp
  have h1 := hx2.1
  rw [hp] at h1
  simp only [Bool.and_eq_true, decide_eq_true_eq, Option.isNone_iff_eq_none] at h1
  exact h1

/-- C29: let `ResolveDataFlow` run on a state whose split families are two
levels deep and inside the interval table and whose live-in sets name
intervals of the table, with gotos that are not gaps. If it returns, the moves
in the gaps afterwards are the moves that were there before together with, for
every edge from a block `B` to a successor `S` and every interval of
`live_in(S)` that was split and whose family member covering `B.end_id`
differs from the member covering `S.start_id`, the pair of the two members in
the gap at `S.start_id + 1` when `B` has two successors and at `B.end_id - 1`
otherwise; no other move is added. -/
theorem ResolveDataFlow_moves (isGoto isBranch : LInstruction → Bool) (g g1 : LGen)
    (hgoto : ∀ x, isGoto x = true → x.is_gap = false) (hfam : g.checkFamilies = true)
    (hlive : ∀ b ∈ g.blocks, ∀ k ∈ b.live_in, k < g.intervals.length)
    (hrun : g.ResolveDataFlow isGoto isBranch = some g1) :
    ∀ id pr, g1.gapPairs id pr ↔
      g.gapPairs id pr ∨ ∃ bi, bi < g.blocks.length ∧ ∃ si ∈ (blockAt g.blocks bi).succ,
        id = (if (blockAt g.blocks bi).succ.length = 2 then (blockAt g.blocks si).start_id + 1
              else (blockAt g.blocks bi).end_id - 1) ∧
        ∃ k ∈ (blockAt g.blocks si).live_in,
          g.needsMove (blockAt g.blocks bi).end_id (blockAt g.blocks si).start_id k pr := by
  have hlive2 : ∀ j, ∀ k ∈ (blockAt g.blocks j).live_in, k < g.intervals.length := by
    intro j k hk
    rcases blockAt_cases g.blocks j with ⟨hj, he⟩ | ⟨_, he⟩
    · rw [he] at hk
      exact hlive _ (List.getElem_mem _) k hk
    · rw [he] at hk
      exact absurd hk (List.not_mem_nil _)
  unfold LGen.ResolveDataFlow at hrun
  obtain ⟨_, h2⟩ := resolveBlocks_spec isGoto isBranch hgoto g (checkFamilies_spec g hfam)
    hlive2 _ g g1 hrun
    (ResolveFrame_refl g)
  intro id pr
  rw [h2]
  simp only [List.mem_range, LGen.edgeMove, LGen.edgePos]

set_option maxRecDepth 100000 in
/-- The state after the allocation of `scratchProgram`: the interval 20 was
split at the start of the second block, the goto of the first block is the
instruction 46, and `ResolveDataFlow` puts the move from the interval 20 to its
child 21 in the gap at `46 - 1 = 45`. -/
theorem ResolveDataFlow_moves_witness :
    ((scratchState.ResolveDataFlow (fun x => !x.is_gap && x.id == 46) (fun _ => false)).getD
      scratchState).gapPairs 45 (20, 21) ∧
    ∀ id pr, ((scratchState.ResolveDataFlow (fun x => !x.is_gap && x.id == 46)
        (fun _ => false)).getD scratchState).gapPairs id pr ↔
      scratchState.gapPairs id pr ∨ ∃ bi, bi < scratchState.blocks.length ∧
        ∃ si ∈ (blockAt scratchState.blocks bi).succ,
        id = (if (blockAt scratchState.blocks bi).succ.length = 2
              then (blockAt scratchState.blocks si).start_id + 1
              else (blockAt scratchState.blocks bi).end_id - 1) ∧
        ∃ k ∈ (blockAt scratchState.blocks si).live_in,
          scratchState.needsMove (blockAt scratchState.blocks bi).end_id
            (blockAt scratchState.blocks si).start_id k pr :=
  ⟨⟨LInstruction.mk 45 [] [] none false true [(20, 21)] (some 24) 0, by decide, rfl, rfl,
      by decide⟩,
    ResolveDataFlow_moves (fun x => !x.is_gap && x.id == 46) (fun _ => false) scratchState _
      (fun x hx => by
        cases hg : x.is_gap with
        | false => rfl
        | true => simp [hg] at hx)
      (by decide) (by decide) (some_getD_of_isSome _ _ (by decide))⟩

/-! ## The arguments of the entry stub -/

/-- What `push` does when the stack pointer is `s`, at least 4. -/
theorem push_spec (c : Cpu) (v s : Nat) (hs : c.reg Register.esp = s) (h4 : 4 ≤ s)
    (hlt : s < 2 ^ 32) :
    (c.push 32 v).reg Register.esp = s - 4 ∧
    (∀ r, r ≠ Register.esp → (c.push 32 v).reg r = c.reg r) ∧
    (c.push 32 v).mem (s - 4) = v ∧
    (∀ a, a ≠ s - 4 → (c.push 32 v).mem a = c.mem a) := by
  have h1 : ofInt 32 ((s : Int) - ((32 / 8 : Nat) : Int)) = s - 4 :=
    ofInt_eq_of_cast_sub 32 s (32 / 8) (s - 4) (by norm_num; omega) (by omega)
  have h2 : ofInt 32 (((s - 4 : Nat) : Int) + 0) = s - 4 := by
    rw [add_zero]; exact ofInt_of_lt 32 _ (by omega)
  refine ⟨?_, ?_, ?_, ?_⟩
  · simp only [Cpu.push, Cpu.store, Cpu.set, hs, h1, if_true]
  · intro r hr
    simp only [Cpu.push, Cpu.store, Cpu.set, if_neg hr]
  · simp only [Cpu.push, Cpu.store, Cpu.set, Cpu.address, hs, h1, h2, if_true]
  · intro a ha
    simp only [Cpu.push, Cpu.store, Cpu.set, Cpu.address, hs, h1, h2, if_true, if_neg ha]

/-- The argument loop with `k` arguments left: it returns, the stack pointer
has moved down by `4 * k`, the words of the array are on the stack (the word
`i` at `4 * i` above the stack pointer) and no other word of the memory has
changed. -/
theorem args_loop_spec (argv : Nat) : ∀ (k fuel : Nat) (c : Cpu) (s : Nat),
    k < fuel → c.reg Register.ebx = argv + 4 * k → c.reg Register.edx = argv →
    c.reg Register.esp = s → argv + 4 * k < 2 ^ 32 → 4 * k ≤ s → s < 2 ^ 32 →
    (argv + 4 * k ≤ s - 4 * k ∨ s ≤ argv) →
    ∃ c1, EntryStub.args_loop fuel c = some c1 ∧ c1.reg Register.esp = s - 4 * k ∧
      c1.reg Register.ebp = c.reg Register.ebp ∧ c1.reg Register.edi = c.reg Register.edi ∧
      c1.calls = c.calls ∧
      (∀ i, i < k → c1.mem (s - 4 * k + 4 * i) = c.mem (argv + 4 * i)) ∧
      (∀ a, (a < s - 4 * k ∨ s ≤ a) → c1.mem a = c.mem a) := by
  intro k
  induction k with
  | zero =>
    intro fuel c s hf hb hd hs _ _ _ _
    obtain ⟨f, rfl⟩ : ∃ f, fuel = f + 1 := ⟨fuel - 1, by omega⟩
    refine ⟨c.cmpl 32 (c.reg Register.ebx) (c.reg Register.edx), ?_, ?_, rfl, rfl, rfl, ?_, ?_⟩
    · have hz : (c.cmpl 32 (c.reg Register.ebx) (c.reg Register.edx)).cond Condition.kNe
          = false := by
        simp only [Cpu.cond, Cpu.cmpl, Cpu.setFlags, hb, hd]
        simp
      simp only [EntryStub.args_loop, hz]
      simp
    · simpa [Cpu.cmpl, Cpu.setFlags] using hs
    · intro i hi; omega
    · intro a _; rfl
  | succ k ih =>
    intro fuel c s hf hb hd hs hav hks hlt hdis
    obtain ⟨f, rfl⟩ : ∃ f, fuel = f + 1 := ⟨fuel - 1, by omega⟩
    have hnz : (c.cmpl 32 (c.reg Register.ebx) (c.reg Register.edx)).cond Condition.kNe
        = true := by
      simp only [Cpu.cond, Cpu.cmpl, Cpu.setFlags, hb, hd]
      have : (argv + 4 * (k + 1) + 2 ^ 32 - argv) % 2 ^ 32 = 4 * (k + 1) := by
        rw [show argv + 4 * (k + 1) + 2 ^ 32 - argv = 4 * (k + 1) + 2 ^ 32 by omega,
          Nat.add_mod_right]
        exact Nat.mod_eq_of_lt (by omega)
      rw [this]
      simp
    -- the machine after `subl` and `mov`
    generalize hc0 : c.cmpl 32 (c.reg Register.ebx) (c.reg Register.edx) = c0 at hnz
    have hc0r : ∀ r, c0.reg r = c.reg r := by intro r; rw [← hc0]; rfl
    have hc0m : c0.mem = c.mem := by rw [← hc0]; rfl
    have hc0c : c0.calls = c.calls := by rw [← hc0]; rfl
    generalize hc1 : c0.subl 32 Register.ebx 4 = c1
    have hsub : (argv + 4 * (k + 1) + 2 ^ 32 - 4) % 2 ^ 32 = argv + 4 * k := by
      rw [show argv + 4 * (k + 1) + 2 ^ 32 - 4 = argv + 4 * k + 2 ^ 32 by omega,
        Nat.add_mod_right]
      exact Nat.mod_eq_of_lt (by omega)
    have hc1b : c1.reg Register.ebx = argv + 4 * k := by
      rw [← hc1]
      simp only [Cpu.subl, Cpu.setFlags, Cpu.set, if_true, hc0r, hb, hsub]
    have hc1r : ∀ r, r ≠ Register.ebx → c1.reg r = c.reg r := by
      intro r hr
      rw [← hc1]
      simp only [Cpu.subl, Cpu.setFlags, Cpu.set, if_neg hr, hc0r]
    have hc1m : c1.mem = c.mem := by rw [← hc1, ← hc0m]; rfl
    have hc1c : c1.calls = c.calls := by rw [← hc1, ← hc0c]; rfl
    have hload : c1.load 32 ⟨Register.ebx, 0⟩ = c.mem (argv + 4 * k) := by
      simp only [Cpu.load, Cpu.address, hc1b, hc1m, add_zero]
      rw [ofInt_of_lt 32 _ (by omega)]
    generalize hc2 : c1.mov Register.eax (c1.load 32 ⟨Register.ebx, 0⟩) = c2
    have hc2a : c2.reg Register.eax = c.mem (argv + 4 * k) := by
      rw [← hc2]; simp only [Cpu.mov, Cpu.set, if_true, hload]
    have hc2r : ∀ r, r ≠ Register.eax → c2.reg r = c1.reg r := by
      intro r hr
      rw [← hc2]; simp only [Cpu.mov, Cpu.set, if_neg hr]
    have hc2m : c2.mem = c.mem := by rw [← hc2, ← hc1m]; rfl
    have hc2c : c2.calls = c.calls := by rw [← hc2, ← hc1c]; rfl
    have hc2s : c2.reg Register.esp = s := by
      rw [hc2r _ (by decide), hc1r _ (by decide), hs]
    obtain ⟨hp1, hp2, hp3, hp4⟩ := push_spec c2 (c2.reg Register.eax) s hc2s (by omega) hlt
    have hpc : (c2.push 32 (c2.reg Register.eax)).calls = c.calls := by rw [← hc2c]; rfl
    generalize hc3 : c2.push 32 (c2.reg Register.eax) = c3 at hp1 hp2 hp3 hp4 hpc
    obtain ⟨c4, hrun, hesp, hebp, hedi, hcalls, hargs, hframe⟩ := ih f c3 (s - 4) (by omega)
      (by rw [hp2 _ (by decide), hc2r _ (by decide), hc1b])
      (by rw [hp2 _ (by decide), hc2r _ (by decide), hc1r _ (by decide), hd])
      hp1 (by omega) (by omega) (by omega) (by omega)
    refine ⟨c4, ?_, ?_, ?_, ?_, ?_, ?_, ?_⟩
    · simp only [EntryStub.args_loop, hc0, hnz, if_true, hc1, hc2, hc3, hrun]
    · rw [hesp]; omega
    · rw [hebp, hp2 _ (by decide), hc2r _ (by decide), hc1r _ (by decide)]
    · rw [hedi, hp2 _ (by decide), hc2r _ (by decide), hc1r _ (by decide)]
    · rw [hcalls, hpc]
    · intro i hi
      by_cases hik : i = k
      · subst hik
        rw [show s - 4 * (i + 1) + 4 * i = s - 4 by omega, hframe _ (Or.inr (le_refl _)), hp3,
          hc2a]
      · rw [show s - 4 * (k + 1) + 4 * i = s - 4 - 4 * k + 4 * i by omega,
          hargs i (by omega), hp4 _ (by omega), hc2m]
    · intro a ha
      rw [hframe a (by omega), hp4 _ (by omega), hc2m]

/-- Untagging the tagged word of a count below `2 ^ 30`. -/
theorem sar_tagged (argc : Nat) (h : argc < 2 ^ 30) : sar 32 (2 * argc) 1 = argc := by
  have hf : fits 32 ((argc : Int) * 2) = true := by
    rw [fits_iff]
    norm_num
    omega
  have h1 := sar_one_ofInt 32 (by decide) (argc : Int) hf
  rw [show ((argc : Int) * 2) = ((2 * argc : Nat) : Int) by push_cast; ring,
    ofInt_of_lt 32 _ (by omega), ofInt_of_lt 32 _ (by omega)] at h1
  exact h1

/-- The pushes of `EntryStub::Generate`: with enough fuel the code returns; the
stack pointer has moved down by `4 * (argc + argc % 2)`, the padding word 0 is
at the top of the old stack when `argc` is odd, the arguments follow below it
down to the first one at the new stack pointer, and no other word of the memory
has changed. -/
theorem pushArguments_spec (c : Cpu) (argc argv s fuel : Nat)
    (hargc : argc < 2 ^ 30) (hfuel : argc < fuel)
    (hesi : c.reg Register.esi = 2 * argc) (hedx : c.reg Register.edx = argv)
    (hesp : c.reg Register.esp = s)
    (hav : argv + 4 * argc < 2 ^ 32) (hs : 4 * (argc + argc % 2) ≤ s) (hlt : s < 2 ^ 32)
    (hdis : argv + 4 * argc ≤ s - 4 * (argc + argc % 2) ∨ s ≤ argv) :
    ∃ c1, EntryStub.pushArguments fuel c = some c1 ∧
      c1.reg Register.esp = s - 4 * (argc + argc % 2) ∧
      c1.reg Register.ebp = c.reg Register.ebp ∧ c1.reg Register.edi = c.reg Register.edi ∧
      c1.calls = c.calls ∧
      (argc % 2 = 1 → c1.mem (s - 4) = 0) ∧
      (∀ i, i < argc → c1.mem (s - 4 * (argc + argc % 2) + 4 * i) = c.mem (argv + 4 * i)) ∧
      (∀ a, (a < s - 4 * (argc + argc % 2) ∨ s ≤ a) → c1.mem a = c.mem a) := by
  generalize hc1 : (c.mov Register.eax (c.reg Register.esi)) = c1
  generalize hc2 : Masm.Untag 32 c1 Register.eax = c2
  have hc2a : c2.reg Register.eax = argc := by
    rw [← hc2, ← hc1]
    simp only [Masm.Untag, Cpu.sar, Cpu.mov, Cpu.set, if_true, hesi, sar_tagged argc hargc]
  have hc2r : ∀ r, r ≠ Register.eax → c2.reg r = c.reg r := by
    intro r hr
    rw [← hc2, ← hc1]
    simp only [Masm.Untag, Cpu.sar, Cpu.mov, Cpu.set, if_neg hr]
  have hc2m : c2.mem = c.mem := by rw [← hc2, ← hc1]; rfl
  have hc2c : c2.calls = c.calls := by rw [← hc2, ← hc1]; rfl
  generalize hc3 : c2.testb 32 (c2.reg Register.eax) 1 = c3
  have hc3r : ∀ r, c3.reg r = c2.reg r := by intro r; rw [← hc3]; rfl
  have hc3m : c3.mem = c.mem := by rw [← hc3, ← hc2m]; rfl
  have hc3c : c3.calls = c.calls := by rw [← hc3, ← hc2c]; rfl
  have hc3z : c3.cond Condition.kEq = decide (argc % 2 = 0) := by
    rw [← hc3]
    simp only [Cpu.cond, Cpu.testb, Cpu.setFlags, hc2a]
    rw [show (1 : Nat) % 256 = 1 by norm_num, Nat.and_one_is_mod]
    rw [show argc % 256 % 2 = argc % 2 by omega]
    by_cases h : argc % 2 = 0 <;> simp [h]
  -- the padding
  have hpad : ∃ c4, (if c3.cond Condition.kEq then c3 else c3.push 32 0) = c4 ∧
      c4.reg Register.esp = s - 4 * (argc % 2) ∧
      (∀ r, r ≠ Register.esp → c4.reg r = c3.reg r) ∧ c4.calls = c.calls ∧
      (argc % 2 = 1 → c4.mem (s - 4) = 0) ∧
      (∀ a, (a < s - 4 * (argc % 2) ∨ s ≤ a) → c4.mem a = c.mem a) := by
    refine ⟨_, rfl, ?_⟩
    rw [hc3z]
    by_cases h : argc % 2 = 0
    · rw [if_pos (by simpa using h)]
      refine ⟨by rw [hc3r, hc2r _ (by decide), hesp, h]; rfl, fun _ _ => rfl, hc3c,
        fun h1 => by omega, fun a _ => by rw [hc3m]⟩
    · rw [if_neg (by simpa using h)]
      have h1 : argc % 2 = 1 := by omega
      obtain ⟨hp1, hp2, hp3, hp4⟩ := push_spec c3 0 s
        (by rw [hc3r, hc2r _ (by decide), hesp]) (by omega) hlt
      refine ⟨by rw [hp1, h1], hp2, by rw [← hc3c]; rfl, fun _ => hp3, fun a ha => ?_⟩
      rw [hp4 a (by omega), hc3m]
  obtain ⟨c4, hc4, h4s, h4r, h4c, h4p, h4m⟩ := hpad
  generalize hc5 : c4.mov Register.ebx (c4.reg Register.eax) = c5
  generalize hc6 : c5.shl 32 Register.ebx 2 = c6
  generalize hc7 : c6.addl 32 Register.ebx (c6.reg Register.edx) = c7
  have hc6r : ∀ r, r ≠ Register.ebx → c6.reg r = c4.reg r := by
    intro r hr
    rw [← hc6, ← hc5]
    simp only [Cpu.shl, Cpu.mov, Cpu.set, if_neg hr]
  have hc6b : c6.reg Register.ebx = 4 * argc := by
    rw [← hc6, ← hc5]
    simp only [Cpu.shl, Cpu.mov, Cpu.set, if_true, h4r _ (show Register.eax ≠ Register.esp by
      decide), hc3r, hc2a, sal]
    rw [Nat.mod_eq_of_lt (by omega)]
    omega
  have hc7r : ∀ r, r ≠ Register.ebx → c7.reg r = c4.reg r := by
    intro r hr
    rw [← hc7]
    simp only [Cpu.addl, Cpu.setFlags, Cpu.set, if_neg hr, hc6r r hr]
  have hc7b : c7.reg Register.ebx = argv + 4 * argc := by
    rw [← hc7]
    simp only [Cpu.addl, Cpu.setFlags, Cpu.set, if_true, hc6b,
      hc6r _ (show Register.edx ≠ Register.ebx by decide),
      h4r _ (show Register.edx ≠ Register.esp by decide), hc3r,
      hc2r _ (show Register.edx ≠ Register.eax by decide), hedx]
    rw [Nat.mod_eq_of_lt (by omega)]
    omega
  have hc7m : c7.mem = c4.mem := by rw [← hc7, ← hc6, ← hc5]; rfl
  have hc7c : c7.calls = c4.calls := by rw [← hc7, ← hc6, ← hc5]; rfl
  obtain ⟨c8, hrun, h8s, h8b, h8d, h8c, h8a, h8m⟩ := args_loop_spec argv argc fuel c7
    (s - 4 * (argc % 2)) hfuel hc7b
    (by rw [hc7r _ (by decide), h4r _ (by decide), hc3r, hc2r _ (by decide), hedx])
    (by rw [hc7r _ (by decide), h4s]) hav (by omega) (by omega) (by omega)
  refine ⟨c8, ?_, ?_, ?_, ?_, ?_, ?_, ?_, ?_⟩
  · simp only [EntryStub.pushArguments, hc1, hc2, hc3, hc4, hc5, hc6, hc7, hrun]
  · rw [h8s]; omega
  · rw [h8b, hc7r _ (by decide), h4r _ (by decide), hc3r, hc2r _ (by decide)]
  · rw [h8d, hc7r _ (by decide), h4r _ (by decide), hc3r, hc2r _ (by decide)]
  · rw [h8c, hc7c, h4c]
  · intro h1
    rw [h8m _ (Or.inr (by omega)), hc7m]
    exact h4p h1
  · intro i hi
    rw [show s - 4 * (argc + argc % 2) + 4 * i = s - 4 * (argc % 2) - 4 * argc + 4 * i by omega,
      h8a i hi, hc7m, h4m _ (by omega)]
  · intro a ha
    rw [h8m a (by omega), hc7m, h4m a (by omega)]

/-- The call of `EntryStub::Generate` leaves a register other than the cleared
ones and `scratch` as the callee leaves it, and the memory as well. -/
theorem callCode_spec (scratch : Register) (callee : Cpu → Cpu) (c : Cpu) :
    ∃ d, d.reg Register.esp = (if scratch = Register.esp then c.reg Register.edi
        else c.reg Register.esp) ∧
      d.reg Register.ebp = (if scratch = Register.ebp then c.reg Register.edi
        else c.reg Register.ebp) ∧
      d.mem = c.mem ∧
      (EntryStub.callCode scratch callee c).reg = (callee d).reg ∧
      (EntryStub.callCode scratch callee c).mem = (callee d).mem := by
  refine ⟨_, ?_, ?_, ?_, rfl, rfl⟩
  · simp only [Cpu.mov, Cpu.xorl, Cpu.setFlags, Cpu.set]
    by_cases h : scratch = Register.esp
    · simp [h]
    · simp only [h, if_false]
      simp
      intro h1
      exact absurd h1.symm h
  · simp only [Cpu.mov, Cpu.xorl, Cpu.setFlags, Cpu.set]
    by_cases h : scratch = Register.ebp
    · simp [h]
    · simp only [h, if_false]
      simp
      intro h1
      exact absurd h1.symm h
  · rfl

/-- The unwinding of `EntryStub::Generate`: when the word at `[ebp + 12]` is
the tagged `argc`, `4 * (argc + argc % 2)` is added to the stack pointer. -/
theorem unwind_spec (c : Cpu) (argc fp : Nat) (hargc : argc < 2 ^ 30)
    (hebp : c.reg Register.ebp = fp) (hfp : fp + 12 < 2 ^ 32)
    (hcell : c.mem (fp + 12) = 2 * argc) (hodd : 4 * (argc + argc % 2) < 2 ^ 32) :
    (EntryStub.unwind c).reg Register.esp =
      (c.reg Register.esp + 4 * (argc + argc % 2)) % 2 ^ 32 := by
  have hload : c.load 32 ⟨Register.ebp, 3 * 4⟩ = 2 * argc := by
    simp only [Cpu.load, Cpu.address, hebp]
    rw [ofInt_eq_of_cast 32 fp (3 * 4) (fp + 12) (by push_cast; ring) hfp, hcell]
  generalize hc1 : c.mov Register.esi (c.load 32 ⟨Register.ebp, 3 * 4⟩) = c1
  generalize hc2 : Masm.Untag 32 c1 Register.esi = c2
  have hc2a : c2.reg Register.esi = argc := by
    rw [← hc2, ← hc1]
    simp only [Masm.Untag, Cpu.sar, Cpu.mov, Cpu.set, if_true, hload, sar_tagged argc hargc]
  have hc2r : ∀ r, r ≠ Register.esi → c2.reg r = c.reg r := by
    intro r hr
    rw [← hc2, ← hc1]
    simp only [Masm.Untag, Cpu.sar, Cpu.mov, Cpu.set, if_neg hr]
  generalize hc3 : c2.testl 32 (c2.reg Register.esi) 1 = c3
  have hc3r : ∀ r, c3.reg r = c2.reg r := by intro r; rw [← hc3]; rfl
  have hc3z : c3.cond Condition.kEq = decide (argc % 2 = 0) := by
    rw [← hc3]
    simp only [Cpu.cond, Cpu.testl, Cpu.setFlags, hc2a]
    rw [Nat.and_one_is_mod]
    by_cases h : argc % 2 = 0 <;> simp [h]
  have hc4 : ∃ c4, (if c3.cond Condition.kEq then c3 else c3.inc 32 Register.esi) = c4 ∧
      c4.reg Register.esi = argc + argc % 2 ∧
      (∀ r, r ≠ Register.esi → c4.reg r = c.reg r) := by
    refine ⟨_, rfl, ?_⟩
    rw [hc3z]
    by_cases h : argc % 2 = 0
    · rw [if_pos (by simpa using h)]
      exact ⟨by rw [hc3r, hc2a, h]; rfl, fun r hr => by rw [hc3r, hc2r r hr]⟩
    · rw [if_neg (by simpa using h)]
      have h1 : argc % 2 = 1 := by omega
      refine ⟨?_, fun r hr => ?_⟩
      · simp only [Cpu.inc, Cpu.setFlags, Cpu.set, if_true, hc3r, hc2a, h1]
        exact Nat.mod_eq_of_lt (by omega)
      · simp only [Cpu.inc, Cpu.setFlags, Cpu.set, if_neg hr, hc3r, hc2r r hr]
  obtain ⟨c4, hc4, h4a, h4r⟩ := hc4
  simp only [EntryStub.unwind, hc1, hc2, hc3, hc4]
  simp only [Cpu.addl, Cpu.shl, Cpu.setFlags, Cpu.set, if_true, h4a, sal,
    if_neg (show Register.esp ≠ Register.esi by decide),
    h4r _ (show Register.esp ≠ Register.esi by decide)]
  rw [show (argc + argc % 2) * 2 ^ 2 = 4 * (argc + argc % 2) by ring, Nat.mod_eq_of_lt hodd]

/-- The code of `EntryStub::Generate` after the byte `0xcc`, at its pushes. Let
the machine have the tagged `argc`
(`2 * argc`, for `argc` below `2 ^ 30`) in `esi` and at `[ebp + 12]`, the array
of the arguments in `edx` and the stack pointer `s`; the array and the room for
the pushes lie inside the address space and do not overlap, and the callee
leaves the stack pointer, the frame pointer and the word at `[ebp + 12]` as it
found them. Then, with fuel for `argc + 1` tests, the pushes return a machine
whose stack pointer is `s - 4 * (argc + argc % 2)`; when `argc` is odd the word
pushed first, at `s - 4`, is the padding 0; the argument `i` is at `4 * i` above
the new stack pointer, so the last argument lies highest (it is pushed first)
and the first argument is on top (it is pushed last); no other word of the
memory has changed. After the call the unwinding adds
`4 * (argc + argc % 2)` to the stack pointer, which is `s` again. -/
theorem EntryStub_stack_balance (scratch : Register) (callee : Cpu → Cpu) (c : Cpu)
    (argc argv s fp fuel : Nat)
    (hargc : argc < 2 ^ 30) (hfuel : argc < fuel)
    (hesi : c.reg Register.esi = 2 * argc) (hedx : c.reg Register.edx = argv)
    (hesp : c.reg Register.esp = s) (hebp : c.reg Register.ebp = fp)
    (hcell : c.load 32 ⟨Register.ebp, 3 * 4⟩ = 2 * argc)
    (hav : argv + 4 * argc < 2 ^ 32) (hs : 4 * (argc + argc % 2) ≤ s) (hsfp : s ≤ fp)
    (hfp : fp + 12 < 2 ^ 32)
    (hdis : argv + 4 * argc ≤ s - 4 * (argc + argc % 2) ∨ s ≤ argv)
    (hscratch : scratch ≠ Register.esp ∧ scratch ≠ Register.ebp)
    (hcallee : ∀ d, d.reg Register.esp = s - 4 * (argc + argc % 2) → d.reg Register.ebp = fp →
      (callee d).reg Register.esp = d.reg Register.esp ∧
      (callee d).reg Register.ebp = d.reg Register.ebp ∧
      (callee d).mem (fp + 12) = d.mem (fp + 12)) :
    ∃ c1, EntryStub.pushArguments fuel c = some c1 ∧
      c1.reg Register.esp = s - 4 * (argc + argc % 2) ∧
      (argc + argc % 2) % 2 = 0 ∧
      (argc % 2 = 1 → c1.mem (s - 4) = 0) ∧
      (∀ i, i < argc → c1.mem (c1.reg Register.esp + 4 * i) = c.mem (argv + 4 * i)) ∧
      (∀ a, (a < s - 4 * (argc + argc % 2) ∨ s ≤ a) → c1.mem a = c.mem a) ∧
      (EntryStub.unwind (EntryStub.callCode scratch callee c1)).reg Register.esp =
        (EntryStub.callCode scratch callee c1).reg Register.esp + 4 * (argc + argc % 2) ∧
      (EntryStub.unwind (EntryStub.callCode scratch callee c1)).reg Register.esp = s := by
  have hcm : c.mem (fp + 12) = 2 * argc := by
    rw [← hcell]
    simp only [Cpu.load, Cpu.address, hebp]
    rw [ofInt_eq_of_cast 32 fp (3 * 4) (fp + 12) (by push_cast; ring) hfp]
  obtain ⟨c1, hrun, h1s, h1b, _, _, h1p, h1a, h1m⟩ := pushArguments_spec c argc argv s fuel
    hargc hfuel hesi hedx hesp hav hs (by omega) hdis
  obtain ⟨d, hd1, hd2, hd3, hdr, hdm⟩ := callCode_spec scratch callee c1
  rw [if_neg hscratch.1] at hd1
  rw [if_neg hscratch.2] at hd2
  obtain ⟨hk1, hk2, hk3⟩ := hcallee d (by rw [hd1, h1s]) (by rw [hd2, h1b, hebp])
  have he : (EntryStub.callCode scratch callee c1).reg Register.esp
      = s - 4 * (argc + argc % 2) := by rw [hdr, hk1, hd1, h1s]
  have hu := unwind_spec (EntryStub.callCode scratch callee c1) argc fp hargc
    (by rw [hdr, hk2, hd2, h1b, hebp]) hfp
    (by rw [hdm, hk3, hd3, h1m _ (Or.inr (by omega)), hcm]) (by omega)
  rw [he] at hu
  rw [Nat.mod_eq_of_lt (by omega)] at hu
  refine ⟨c1, hrun, h1s, by omega, h1p, ?_, h1m, ?_, ?_⟩
  · intro i hi
    rw [h1s]
    exact h1a i hi
  · rw [hu, he]
  · rw [hu]; omega

/-- The theorem `EntryStub_stack_balance` at `entryState` (three arguments at
3000, the stack pointer at 972, the frame pointer at 996): the machine after
the pushes has the padding at 968 and the arguments 33, 22 and 11 at 964, 960
and 956, and the unwinding after the call of `entryCallee` puts the stack
pointer back at 972. -/
theorem EntryStub_stack_balance_witness :
    ∃ c1, EntryStub.pushArguments 4 entryState = some c1 ∧
      c1.reg Register.esp = 972 - 4 * (3 + 3 % 2) ∧
      (3 + 3 % 2) % 2 = 0 ∧
      (3 % 2 = 1 → c1.mem (972 - 4) = 0) ∧
      (∀ i, i < 3 → c1.mem (c1.reg Register.esp + 4 * i) = entryState.mem (3000 + 4 * i)) ∧
      (∀ a, (a < 972 - 4 * (3 + 3 % 2) ∨ 972 ≤ a) → c1.mem a = entryState.mem a) ∧
      (EntryStub.unwind (EntryStub.callCode Register.ecx entryCallee c1)).reg Register.esp =
        (EntryStub.callCode Register.ecx entryCallee c1).reg Register.esp + 4 * (3 + 3 % 2) ∧
      (EntryStub.unwind (EntryStub.callCode Register.ecx entryCallee c1)).reg Register.esp
        = 972 :=
  EntryStub_stack_balance Register.ecx entryCallee entryState 3 3000 972 996 4
    (by norm_num) (by norm_num) rfl rfl rfl rfl rfl (by norm_num) (by norm_num) (by norm_num)
    (by norm_num) (by norm_num) ⟨by decide, by decide⟩
    (fun d hd _ => by
      obtain ⟨hp1, hp2, _, hp4⟩ := push_spec d 7777 956 hd (by norm_num) (by norm_num)
      refine ⟨?_, ?_, ?_⟩
      · simp only [entryCallee, Cpu.ret, Cpu.mov, Cpu.set, if_true,
          if_neg (show Register.esp ≠ Register.eax by decide), hp1, hd]
        norm_num
      · simp only [entryCallee, Cpu.ret, Cpu.mov, Cpu.set,
          if_neg (show Register.ebp ≠ Register.esp by decide),
          if_neg (show Register.ebp ≠ Register.eax by decide)]
        exact hp2 _ (by decide)
      · exact hp4 _ (by norm_num))

/-! ## The frame of the stubs -/

/-- What `epiloguesFrom` checks: every `ret` of the code is `ret (n * 4)` and
the two items before it, in the code or in what was emitted before, are
`mov esp, ebp` and `pop ebp`. -/
theorem epiloguesFrom_spec (n : Nat) : ∀ (l before : List Asm),
    epiloguesFrom n before l = true → ∀ pre k post, l = pre ++ Asm.ret k :: post →
    k = n * 4 ∧ ∃ t, pre.reverse ++ before
      = Asm.pop Register.ebp :: Asm.mov Register.esp Register.ebp :: t := by
  intro l
  induction l with
  | nil =>
    intro before _ pre k post h
    cases pre <;> cases h
  | cons x rest ih =>
    intro before h pre k post hl
    have hrest : epiloguesFrom n (x :: before) rest = true := by
      cases x <;> simp only [epiloguesFrom, Bool.and_eq_true] at h
      · exact h
      · exact h
      · exact h
      · exact h.2
      · exact h
    cases pre with
    | nil =>
      simp only [List.nil_append, List.cons.injEq] at hl
      obtain ⟨rfl, -⟩ := hl
      simp only [epiloguesFrom, Bool.and_eq_true] at h
      have h1 := h.1
      split at h1
      · exact ⟨by simpa using h1, _, rfl⟩
      · cases h1
    | cons y pre1 =>
      simp only [List.cons_append, List.cons.injEq] at hl
      obtain ⟨rfl, hl⟩ := hl
      obtain ⟨hk, t, ht⟩ := ih _ hrest pre1 k post hl
      exact ⟨hk, t, by simpa using ht⟩

/-- The check `epiloguesFrom` of a whole code: what is emitted before a `ret`
ends with `mov esp, ebp; pop ebp`. -/
theorem epilogues_of_check (n : Nat) (l : List Asm) (h : epiloguesFrom n [] l = true)
    (pre : List Asm) (k : Nat) (post : List Asm) (hl : l = pre ++ Asm.ret k :: post) :
    k = n * 4 ∧
      ∃ t, pre = t ++ [Asm.mov Register.esp Register.ebp, Asm.pop Register.ebp] := by
  obtain ⟨hk, t, ht⟩ := epiloguesFrom_spec n l [] h pre k post hl
  refine ⟨hk, t.reverse, ?_⟩
  rw [List.append_nil] at ht
  have := congrArg List.reverse ht
  simpa using this

/-- The code of a `BinOpStub`, for every operator and all values of the
predicates: it starts with the prologue, ends with `ret 0`, and every `ret` is
`ret 0` after `mov esp, ebp; pop ebp`. -/
theorem BinOpStub_frame (a b c d : Bool) (type : BinOpType) :
    (BinOpStub.GenerateCode a b c d type).code.take 2 = BaseStub.GeneratePrologueCode ∧
    (BinOpStub.GenerateCode a b c d type).code.getLast? = some (Asm.ret (0 * 4)) ∧
    (BinOpStub.GenerateCode a b c d type).arguments.length = 0 ∧
    epiloguesFrom 0 [] (BinOpStub.GenerateCode a b c d type).code = true := by
  cases a <;> cases b <;> cases c <;> cases d <;> cases type <;> exact ⟨rfl, rfl, rfl, rfl⟩

/-- The stubs that break the rule of C23 as the specification states it: the
code of `StackTraceStub::Generate` begins with `mov ebx, ebp; push ebp`, not
with the prologue; `HashValueStub::Generate` reads one argument from the stack
(`[ebp + 8]`) and `EntryStub::Generate` three, and both return with `ret 0`. -/
theorem stubs_outside_standard_frame :
    StackTraceStub.GenerateCode.code.take 2
      = [Asm.mov Register.ebx Register.ebp, Asm.push Register.ebp] ∧
    StackTraceStub.GenerateCode.code.take 2 ≠ BaseStub.GeneratePrologueCode ∧
    HashValueStub.GenerateCode.arguments.length = 1 ∧
    HashValueStub.GenerateCode.code.getLast? = some (Asm.ret 0) ∧
    EntryStub.GenerateCode.arguments.length = 3 ∧
    EntryStub.GenerateCode.code.getLast? = some (Asm.ret 0) :=
  ⟨rfl, (by decide), rfl, rfl, rfl, rfl⟩

/-- C23, amended: for every class of `stubs-ia32.cc` and every operator of a
`BinOpStub`, the code `Generate` emits begins with the prologue
`push ebp; mov ebp, esp`, except that of `StackTraceStub`, where
`mov ebx, ebp` comes first and the prologue follows; the code ends with a `ret`,
and every `ret` in it is `ret (n * 4)` emitted right after
`mov esp, ebp; pop ebp`, where `n` is the number of arguments the stub declares
on the stack, except for `EntryStub` (three arguments) and `HashValueStub`
(one argument), where `n` is 0 and the caller unwinds. -/
theorem stubs_standard_frame (is_math is_binary is_logic is_bool_logic : BinOpType → Bool)
    (s : StubClass) :
    (s ≠ StubClass.StackTraceStub →
      (s.GenerateCode is_math is_binary is_logic is_bool_logic).code.take 2
        = BaseStub.GeneratePrologueCode) ∧
    (s = StubClass.StackTraceStub →
      (s.GenerateCode is_math is_binary is_logic is_bool_logic).code.take 3
        = Asm.mov Register.ebx Register.ebp :: BaseStub.GeneratePrologueCode) ∧
    ∃ n, (s.GenerateCode is_math is_binary is_logic is_bool_logic).code.getLast?
        = some (Asm.ret (n * 4)) ∧
      (∀ pre k post,
        (s.GenerateCode is_math is_binary is_logic is_bool_logic).code
          = pre ++ Asm.ret k :: post →
        k = n * 4 ∧
          ∃ t, pre = t ++ [Asm.mov Register.esp Register.ebp, Asm.pop Register.ebp]) ∧
      (s ≠ StubClass.EntryStub → s ≠ StubClass.HashValueStub →
        n = (s.GenerateCode is_math is_binary is_logic is_bool_logic).arguments.length) ∧
      (s = StubClass.EntryStub →
        n = 0 ∧ (s.GenerateCode is_math is_binary is_logic is_bool_logic).arguments.length = 3) ∧
      (s = StubClass.HashValueStub →
        n = 0 ∧ (s.GenerateCode is_math is_binary is_logic is_bool_logic).arguments.length = 1)
    := by
  cases s
  case BinOpStub type =>
    obtain ⟨h1, h2, h3, h4⟩ := BinOpStub_frame (is_math type) (is_binary type) (is_logic type)
      (is_bool_logic type) type
    exact ⟨fun _ => h1, (fun h => by cases h), 0, h2, epilogues_of_check 0 _ h4,
      fun _ _ => h3.symm, (fun h => by cases h), (fun h => by cases h)⟩
  case StackTraceStub =>
    exact ⟨fun h => absurd rfl h, fun _ => rfl, 0, rfl, epilogues_of_check 0 _ rfl,
      fun _ _ => rfl, (fun h => by cases h), (fun h => by cases h)⟩
  case EntryStub =>
    exact ⟨fun _ => rfl, (fun h => by cases h), 0, rfl, epilogues_of_check 0 _ rfl,
      fun h _ => absurd rfl h, fun _ => ⟨rfl, rfl⟩, (fun h => by cases h)⟩
  case HashValueStub =>
    exact ⟨fun _ => rfl, (fun h => by cases h), 0, rfl, epilogues_of_check 0 _ rfl,
      fun _ h => absurd rfl h, (fun h => by cases h), fun _ => ⟨rfl, rfl⟩⟩
  all_goals
    first
    | exact ⟨fun _ => rfl, (fun h => by cases h), 0, rfl, epilogues_of_check 0 _ rfl,
        fun _ _ => rfl, (fun h => by cases h), (fun h => by cases h)⟩
    | exact ⟨fun _ => rfl, (fun h => by cases h), 2, rfl, epilogues_of_check 2 _ rfl,
        fun _ _ => rfl, (fun h => by cases h), (fun h => by cases h)⟩

/-! ## The order of the flattened blocks -/

/-- The successors are put in front of the work queue in their order. -/
theorem unshiftSuccs_eq (succs queue : List Nat) :
    LGen.unshiftSuccs succs queue = succs ++ queue := by
  unfold LGen.unshiftSuccs
  rw [List.foldl_reverse]
  induction succs with
  | nil => rfl
  | cons x l ih => simp [List.foldr, ih]

/-- A list with one more item at its end that is cut at an item: the item is
the new one, or the cut is inside the old list. -/
theorem snoc_eq_append_cons {α : Type} (l : List α) (b : α) (l1 : List α) (x : α)
    (l2 : List α) (h : l ++ [b] = l1 ++ x :: l2) :
    (l2 = [] ∧ x = b ∧ l1 = l) ∨ ∃ m, l2 = m ++ [b] ∧ l = l1 ++ x :: m := by
  rcases List.eq_nil_or_concat l2 with rfl | ⟨m, c, rfl⟩
  · left
    have := List.append_inj' h (by simp)
    simp only [List.cons.injEq, and_true] at this
    exact ⟨rfl, this.2.symm, this.1.symm⟩
  · right
    rw [List.concat_eq_append] at h ⊢
    have h1 : l ++ [b] = (l1 ++ x :: m) ++ [c] := by simpa using h
    have := List.append_inj' h1 (by simp)
    simp only [List.cons.injEq, and_true] at this
    exact ⟨m, by rw [this.2], this.1⟩

/-- The sum of a function over a list without duplicates of numbers below `n`
is at most its sum over all numbers below `n`. -/
theorem sum_le_sum_range (f : Nat → Nat) (l : List Nat) (n : Nat) (hl : l.Nodup)
    (hn : ∀ a ∈ l, a < n) : (l.map f).sum ≤ ((List.range n).map f).sum := by
  rw [← List.sum_toFinset f hl, ← List.sum_toFinset f (List.nodup_range n)]
  apply Finset.sum_le_sum_of_subset
  intro a ha
  simp only [List.mem_toFinset, List.mem_range] at ha ⊢
  exact hn a ha

/-- When the sum over a list without duplicates of numbers below `n` reaches
the sum over all numbers below `n`, the function is 0 outside the list. -/
theorem zero_of_sum_range_le (f : Nat → Nat) (l : List Nat) (n : Nat) (hl : l.Nodup)
    (hn : ∀ a ∈ l, a < n) (h : ((List.range n).map f).sum ≤ (l.map f).sum)
    (a : Nat) (ha : a < n) (hal : a ∉ l) : f a = 0 := by
  rw [← List.sum_toFinset f hl, ← List.sum_toFinset f (List.nodup_range n)] at h
  have hsub : l.toFinset ⊆ (List.range n).toFinset := by
    intro a ha
    simp only [List.mem_toFinset, List.mem_range] at ha ⊢
    exact hn a ha
  have h1 := Finset.sum_sdiff (f := f) hsub
  have h3 : ∑ x ∈ (List.range n).toFinset, f x ≤ ∑ x ∈ l.toFinset, f x := h
  have h2 : ∑ x ∈ (List.range n).toFinset \ l.toFinset, f x = 0 := by omega
  rw [Finset.sum_eq_zero_iff] at h2
  apply h2
  simp only [Finset.mem_sdiff, List.mem_toFinset, List.mem_range]
  exact ⟨ha, hal⟩

/-- A positive sum has a positive term. -/
theorem exists_pos_of_sum_pos (f : Nat → Nat) (l : List Nat) (h : 0 < (l.map f).sum) :
    ∃ a ∈ l, 0 < f a := by
  by_contra hc
  push_neg at hc
  have : (l.map f).sum = 0 := by
    rw [List.sum_eq_zero_iff]
    intro x hx
    obtain ⟨a, ha, rfl⟩ := List.mem_map.1 hx
    have := hc a ha
    omega
  omega

/-- The state after an iteration that skips the block. -/
theorem flattenStep_skip (blk : HIRBlock) (b : Nat) (queue : List Nat) (s : FlattenState)
    (h : LGen.flattenSkips blk (s.visits b + 1) = true) :
    LGen.flattenStep blk b queue s =
      { visits := fun i => if i = b then s.visits i + 1 else s.visits i, work_queue := queue,
        blocks_ := s.blocks_, trace := s.trace ++ [(b, false)] } := by
  simp only [LGen.flattenStep, if_true, h]

/-- The state after an iteration that puts the block. -/
theorem flattenStep_put (blk : HIRBlock) (b : Nat) (queue : List Nat) (s : FlattenState)
    (h : LGen.flattenSkips blk (s.visits b + 1) = false) :
    LGen.flattenStep blk b queue s =
      { visits := fun i => if i = b then s.visits i + 1 else s.visits i,
        work_queue := blk.succs_ ++ queue,
        blocks_ := s.blocks_ ++ [b], trace := s.trace ++ [(b, true)] } := by
  simp [LGen.flattenStep, h, unshiftSuccs_eq]

/-- The start state of `FlattenBlocks` satisfies the invariant. -/
theorem FlattenInv_start (hir : List HIRBlock) (root : Nat) (hroot : root < hir.length) :
    FlattenInv hir root (LGen.flattenStart root) := by
  refine ⟨fun b => rfl, rfl, List.nodup_nil, ?_, ?_, ?_, ?_, ?_, ?_, ?_, Or.inl ⟨rfl, rfl⟩, ?_,
    rfl⟩
  · intro b
    simp only [LGen.flattenStart, List.map_nil, List.sum_nil, zero_add, add_zero,
      List.count_singleton]
    by_cases h : b = root
    · simp [h]
    · have : ¬ root = b := fun h1 => h h1.symm
      simp [h, this]
  · intro b hb; cases hb
  · intro b hb
    simp only [LGen.flattenStart, List.mem_singleton] at hb
    omega
  · intro b hb; cases hb
  · intro b hb; cases hb
  · intro l1 b l2 h
    cases l1 <;> cases h
  · intro l1 b l2 h
    cases l1 <;> cases h
  · intro pre h flag post ht
    cases pre <;> cases ht

/-- An id outside the list names a block without successors. -/
theorem blockOf_of_ge (hir : List HIRBlock) (a : Nat) (h : hir.length ≤ a) :
    blockOf hir a = ⟨0, false, []⟩ := by
  unfold blockOf
  rw [List.getD_eq_getElem?_getD, List.getElem?_eq_none h]
  rfl

/-- The block an id inside the list names. -/
theorem getElem?_blockOf (hir : List HIRBlock) (b : Nat) (h : b < hir.length) :
    hir[b]? = some (blockOf hir b) := by
  unfold blockOf
  rw [List.getD_eq_getElem?_getD, List.getElem?_eq_getElem h]
  rfl

/-- A block with successors is a block of the list. -/
theorem lt_of_mem_succs (hir : List HIRBlock) (a b : Nat) (h : b ∈ (blockOf hir a).succs_) :
    a < hir.length := by
  by_contra hc
  rw [blockOf_of_ge hir a (by omega)] at h
  cases h

/-- When the test does not skip a block. -/
theorem flattenSkips_false (blk : HIRBlock) (v : Nat) (h : LGen.flattenSkips blk v = false) :
    blk.pred_count = 0 ∨ (blk.IsLoop = true ∧ v = 1) ∨
      (blk.IsLoop = false ∧ v = blk.pred_count) := by
  unfold LGen.flattenSkips at h
  by_cases h0 : blk.pred_count = 0
  · exact Or.inl h0
  · rw [if_neg h0] at h
    cases hl : blk.IsLoop
    · rw [hl] at h
      simp at h
      exact Or.inr (Or.inr ⟨rfl, h⟩)
    · rw [hl] at h
      simp at h
      exact Or.inr (Or.inl ⟨rfl, h⟩)

/-- When the test skips a block. -/
theorem flattenSkips_true (blk : HIRBlock) (v : Nat) (h : LGen.flattenSkips blk v = true) :
    blk.pred_count ≠ 0 ∧ ((blk.IsLoop = true ∧ v ≠ 1) ∨
      (blk.IsLoop = false ∧ v ≠ blk.pred_count)) := by
  unfold LGen.flattenSkips at h
  by_cases h0 : blk.pred_count = 0
  · rw [if_pos h0] at h
    cases h
  · rw [if_neg h0] at h
    refine ⟨h0, ?_⟩
    cases hl : blk.IsLoop
    · rw [hl] at h
      simp at h
      exact Or.inr ⟨rfl, h⟩
    · rw [hl] at h
      simp at h
      exact Or.inl ⟨rfl, h⟩

/-- The count of visits after one more visit of `b`. -/
theorem visits_step (s : FlattenState) (b : Nat) (flag : Bool)
    (h : ∀ x, s.visits x = (s.trace.map Prod.fst).count x) (x : Nat) :
    (if x = b then s.visits x + 1 else s.visits x)
      = ((s.trace ++ [(b, flag)]).map Prod.fst).count x := by
  rw [List.map_append, List.count_append, ← h x]
  by_cases hx : x = b
  · subst hx
    simp
  · have : ¬ b = x := fun h1 => hx h1.symm
    simp [hx, this]

/-- An iteration that skips its block keeps the invariant. -/
theorem flattenStep_inv_skip (hir : List HIRBlock) (root : Nat)
    (hroot0 : (blockOf hir root).pred_count = 0)
    (s : FlattenState) (b : Nat) (queue : List Nat) (hq : s.work_queue = b :: queue)
    (hskip : LGen.flattenSkips (blockOf hir b) (s.visits b + 1) = true)
    (hinv : FlattenInv hir root s) :
    FlattenInv hir root (LGen.flattenStep (blockOf hir b) b queue s) := by
  rw [flattenStep_skip _ _ _ _ hskip]
  obtain ⟨hp0, hcase⟩ := flattenSkips_true _ _ hskip
  have hmono : ∀ x, s.visits x ≤ (if x = b then s.visits x + 1 else s.visits x) := by
    intro x; split_ifs <;> omega
  refine ⟨visits_step s b false hinv.visits_eq, ?_, hinv.nodup, ?_, hinv.blocks_lt, ?_, ?_, ?_,
    hinv.preds_before, hinv.pred_before, ?_, ?_, ?_⟩
  · show s.blocks_ = _
    rw [List.filter_append, List.map_append, ← hinv.blocks_eq]
    simp
  · intro x
    have h := hinv.balance x
    rw [hq, List.count_cons] at h
    show queue.count x + (if x = b then s.visits x + 1 else s.visits x) = _
    by_cases hx : x = b
    · subst hx
      simp only [beq_self_eq_true, if_true] at h ⊢
      omega
    · have : (b == x) = false := by simpa using fun h1 : b = x => hx h1.symm
      rw [this] at h
      simp only [if_neg hx]
      simpa using h
  · intro x hx
    exact hinv.queue_lt x (by rw [hq]; exact List.mem_cons_of_mem _ hx)
  · intro x hx
    exact le_trans (hinv.visited x hx) (hmono x)
  · intro x hx h1 h2
    exact le_trans (hinv.regular x hx h1 h2) (hmono x)
  · rcases hinv.head with ⟨_, h2⟩ | h
    · rw [hq] at h2
      simp only [List.cons.injEq] at h2
      rw [h2.1] at hp0
      exact absurd hroot0 hp0
    · exact Or.inr h
  · intro pre h flag post ht hloop
    rcases snoc_eq_append_cons _ _ _ _ _ ht with ⟨-, h2, h3⟩ | ⟨m, -, h2⟩
    · simp only [Prod.mk.injEq] at h2
      obtain ⟨rfl, rfl⟩ := h2
      subst h3
      have hv : 1 ≤ s.visits h := by
        rcases hcase with ⟨_, h5⟩ | ⟨h5, _⟩
        · omega
        · rw [hloop] at h5; cases h5
      rw [hinv.visits_eq h] at hv
      have : h ∈ s.trace.map Prod.fst := List.count_pos_iff.1 hv
      simp only [Bool.false_eq_true, false_iff, not_not]
      exact this
    · exact hinv.first_visit pre h flag m h2 hloop
  · have h := hinv.size
    rw [hq] at h
    simp only [List.length_append, List.length_cons, List.length_nil] at h ⊢
    omega

/-- The edges into `b` from the blocks of a list of blocks of the graph are
among the edges `incoming` counts; when there are none, there is none from the
list. -/
theorem incoming_zero (hir : List HIRBlock) (b : Nat) (h : incoming hir b = 0) (a : Nat) :
    (blockOf hir a).succs_.count b = 0 := by
  by_cases ha : a < hir.length
  · unfold incoming at h
    rw [List.sum_eq_zero_iff] at h
    exact h _ (List.mem_map.2 ⟨a, List.mem_range.2 ha, rfl⟩)
  · rw [blockOf_of_ge hir a (by omega)]
    rfl

/-- An iteration that puts its block keeps the invariant. -/
theorem flattenStep_inv_put (hir : List HIRBlock) (root : Nat)
    (hsucc : ∀ a, a < hir.length → ∀ x ∈ (blockOf hir a).succs_, x < hir.length)
    (hpred : ∀ b, b < hir.length → (blockOf hir b).pred_count = incoming hir b)
    (s : FlattenState) (b : Nat) (queue : List Nat) (hq : s.work_queue = b :: queue)
    (hskip : LGen.flattenSkips (blockOf hir b) (s.visits b + 1) = false)
    (hinv : FlattenInv hir root s) :
    FlattenInv hir root (LGen.flattenStep (blockOf hir b) b queue s) := by
  rw [flattenStep_put _ _ _ _ hskip]
  have hb : b < hir.length := hinv.queue_lt b (by rw [hq]; simp)
  have hbal := hinv.balance b
  rw [hq, List.count_cons_self] at hbal
  have hcase := flattenSkips_false _ _ hskip
  have hmono : ∀ x, s.visits x ≤ (if x = b then s.visits x + 1 else s.visits x) := by
    intro x; split_ifs <;> omega
  -- a block without predecessors is the root at its first visit
  have hzero : (blockOf hir b).pred_count = 0 → s.visits b = 0 ∧ b = root := by
    intro h0
    rw [hpred b hb] at h0
    have hsum : (s.blocks_.map (fun a => (blockOf hir a).succs_.count b)).sum = 0 := by
      rw [List.sum_eq_zero_iff]
      intro x hx
      obtain ⟨a, _, rfl⟩ := List.mem_map.1 hx
      exact incoming_zero hir b h0 a
    rw [hsum] at hbal
    by_cases hr : b = root
    · rw [if_pos hr] at hbal
      exact ⟨by omega, hr⟩
    · rw [if_neg hr] at hbal
      omega
  have K1 : b ∉ s.blocks_ := by
    intro hmem
    have hv := hinv.visited b hmem
    rcases hcase with h0 | ⟨_, h1⟩ | ⟨h1, h2⟩
    · have := (hzero h0).1
      omega
    · omega
    · have := hinv.regular b hmem h1 (by omega)
      omega
  have K2 : (blockOf hir b).IsLoop = true → s.visits b = 0 := by
    intro hl
    rcases hcase with h0 | ⟨_, h1⟩ | ⟨h1, _⟩
    · exact (hzero h0).1
    · omega
    · rw [hl] at h1; cases h1
  have K4 : b ≠ root → ∃ a ∈ s.blocks_, b ∈ (blockOf hir a).succs_ := by
    intro hr
    rw [if_neg hr] at hbal
    obtain ⟨a, ha, hpos⟩ := exists_pos_of_sum_pos
      (fun a => (blockOf hir a).succs_.count b) s.blocks_ (by omega)
    exact ⟨a, ha, List.count_pos_iff.1 hpos⟩
  have K3 : b ≠ root → (blockOf hir b).IsLoop = false →
      ∀ a, b ∈ (blockOf hir a).succs_ → a ∈ s.blocks_ := by
    intro hr hl a ha
    rcases hcase with h0 | ⟨h1, _⟩ | ⟨_, h2⟩
    · exact absurd (hzero h0).2 hr
    · rw [hl] at h1; cases h1
    · by_contra hna
      rw [if_neg hr] at hbal
      have hle : ((List.range hir.length).map (fun a => (blockOf hir a).succs_.count b)).sum
          ≤ (s.blocks_.map (fun a => (blockOf hir a).succs_.count b)).sum := by
        have := hpred b hb
        unfold incoming at this
        omega
      have hz := zero_of_sum_range_le _ s.blocks_ hir.length hinv.nodup hinv.blocks_lt hle a
        (lt_of_mem_succs hir a b ha) hna
      have := List.count_pos_iff.2 ha
      omega
  refine ⟨visits_step s b true hinv.visits_eq, ?_, ?_, ?_, ?_, ?_, ?_, ?_, ?_, ?_, ?_, ?_, ?_⟩
  · show s.blocks_ ++ [b] = _
    rw [List.filter_append, List.map_append, ← hinv.blocks_eq]
    simp
  · show (s.blocks_ ++ [b]).Nodup
    rw [List.nodup_append]
    refine ⟨hinv.nodup, List.nodup_singleton b, ?_⟩
    intro x hx hx2
    rw [List.mem_singleton] at hx2
    subst hx2
    exact K1 hx
  · intro x
    have h := hinv.balance x
    rw [hq, List.count_cons] at h
    show (_ ++ queue).count x + (if x = b then s.visits x + 1 else s.visits x) = _
    rw [List.count_append, List.map_append, List.sum_append]
    simp only [List.map_cons, List.map_nil, List.sum_cons, List.sum_nil, add_zero]
    by_cases hx : x = b
    · subst hx
      simp only [beq_self_eq_true, if_true] at h ⊢
      omega
    · have : (b == x) = false := by simpa using fun h1 : b = x => hx h1.symm
      rw [this] at h
      simp only [if_neg hx]
      simp only [Bool.false_eq_true, if_false, add_zero] at h
      omega
  · intro x hx
    rcases List.mem_append.1 hx with h | h
    · exact hinv.blocks_lt x h
    · rw [List.mem_singleton] at h
      omega
  · intro x hx
    rcases List.mem_append.1 hx with h | h
    · exact hsucc b hb x h
    · exact hinv.queue_lt x (by rw [hq]; exact List.mem_cons_of_mem _ h)
  · intro x hx
    rcases List.mem_append.1 hx with h | h
    · exact le_trans (hinv.visited x h) (hmono x)
    · rw [List.mem_singleton] at h
      subst h
      simp
  · intro x hx h1 h2
    rcases List.mem_append.1 hx with h | h
    · exact le_trans (hinv.regular x h h1 h2) (hmono x)
    · rw [List.mem_singleton] at h
      subst h
      simp only [if_true]
      rcases hcase with h0 | ⟨h3, _⟩ | ⟨_, h3⟩
      · exact absurd h0 h2
      · rw [h1] at h3; cases h3
      · omega
  · intro l1 x l2 hl hr hloop a ha
    rcases snoc_eq_append_cons _ _ _ _ _ hl with ⟨-, h2, h3⟩ | ⟨m, -, h2⟩
    · subst h2 h3
      exact K3 hr hloop a ha
    · exact hinv.preds_before l1 x m h2 hr hloop a ha
  · intro l1 x l2 hl hr
    rcases snoc_eq_append_cons _ _ _ _ _ hl with ⟨-, h2, h3⟩ | ⟨m, -, h2⟩
    · subst h2 h3
      exact K4 hr
    · exact hinv.pred_before l1 x m h2 hr
  · right
    rcases hinv.head with ⟨h1, h2⟩ | h
    · rw [hq] at h2
      simp only [List.cons.injEq] at h2
      show (s.blocks_ ++ [b]).head? = some root
      rw [h1, h2.1]
      rfl
    · show (s.blocks_ ++ [b]).head? = some root
      rw [List.head?_append_of_ne_nil _ (by intro h0; rw [h0] at h; cases h)]
      exact h
  · intro pre h flag post ht hloop
    rcases snoc_eq_append_cons _ _ _ _ _ ht with ⟨-, h2, h3⟩ | ⟨m, -, h2⟩
    · simp only [Prod.mk.injEq] at h2
      obtain ⟨rfl, rfl⟩ := h2
      subst h3
      have hv := K2 hloop
      rw [hinv.visits_eq h] at hv
      simp only [true_iff]
      exact List.count_eq_zero.1 hv
    · exact hinv.first_visit pre h flag m h2 hloop
  · have h := hinv.size
    rw [hq] at h
    show (s.trace ++ [(b, true)]).length + (_ ++ queue).length
      = 1 + ((s.blocks_ ++ [b]).map _).sum
    rw [List.map_append, List.sum_append]
    simp only [List.length_append, List.length_cons, List.length_nil, List.map_cons,
      List.map_nil, List.sum_cons, List.sum_nil] at h ⊢
    omega

/-- The trace after an iteration. -/
theorem flattenStep_trace (blk : HIRBlock) (b : Nat) (queue : List Nat) (s : FlattenState) :
    (LGen.flattenStep blk b queue s).trace
      = s.trace ++ [(b, !LGen.flattenSkips blk (s.visits b + 1))] := by
  cases h : LGen.flattenSkips blk (s.visits b + 1)
  · rw [flattenStep_put _ _ _ _ h]; rfl
  · rw [flattenStep_skip _ _ _ _ h]; rfl

/-- The work queue after an iteration holds what was left of it. -/
theorem flattenStep_queue (blk : HIRBlock) (b : Nat) (queue : List Nat) (s : FlattenState) :
    (LGen.flattenSkips blk (s.visits b + 1) = false →
      (LGen.flattenStep blk b queue s).work_queue = blk.succs_ ++ queue) ∧
    ∀ y ∈ queue, y ∈ (LGen.flattenStep blk b queue s).work_queue := by
  cases h : LGen.flattenSkips blk (s.visits b + 1)
  · rw [flattenStep_put _ _ _ _ h]
    exact ⟨fun _ => rfl, fun y hy => List.mem_append_right _ hy⟩
  · rw [flattenStep_skip _ _ _ _ h]
    exact ⟨(fun h1 => by cases h1), fun y hy => hy⟩

/-- The loop of `FlattenBlocks` returns when it has fuel for one more test than
there are edges and the root, and it keeps the invariant; the work queue is
empty at its end. -/
theorem flattenLoop_inv (hir : List HIRBlock) (root : Nat)
    (hroot0 : (blockOf hir root).pred_count = 0)
    (hsucc : ∀ a, a < hir.length → ∀ x ∈ (blockOf hir a).succs_, x < hir.length)
    (hpred : ∀ b, b < hir.length → (blockOf hir b).pred_count = incoming hir b) :
    ∀ (fuel : Nat) (s : FlattenState), FlattenInv hir root s →
    1 + ((List.range hir.length).map (fun a => (blockOf hir a).succs_.length)).sum
      < fuel + s.trace.length →
    ∃ s1, LGen.flattenLoop hir fuel s = some s1 ∧ FlattenInv hir root s1 ∧
      s1.work_queue = [] := by
  intro fuel
  induction fuel with
  | zero =>
    intro s hinv hf
    have h1 := hinv.size
    have h2 := sum_le_sum_range (fun a => (blockOf hir a).succs_.length) s.blocks_ hir.length
      hinv.nodup hinv.blocks_lt
    omega
  | succ fuel ih =>
    intro s hinv hf
    cases hq : s.work_queue with
    | nil =>
      refine ⟨s, ?_, hinv, hq⟩
      simp only [LGen.flattenLoop, hq]
    | cons b queue =>
      have hb : b < hir.length := hinv.queue_lt b (by rw [hq]; simp)
      have hstep : FlattenInv hir root (LGen.flattenStep (blockOf hir b) b queue s) := by
        cases hskip : LGen.flattenSkips (blockOf hir b) (s.visits b + 1)
        · exact flattenStep_inv_put hir root hsucc hpred s b queue hq hskip hinv
        · exact flattenStep_inv_skip hir root hroot0 s b queue hq hskip hinv
      obtain ⟨s1, h1, h2, h3⟩ := ih _ hstep (by
        rw [flattenStep_trace]
        simp only [List.length_append, List.length_cons, List.length_nil]
        omega)
      refine ⟨s1, ?_, h2, h3⟩
      simp only [LGen.flattenLoop, hq, getElem?_blockOf hir b hb]
      exact h1

/-- A run of the loop of `FlattenBlocks` adds to the trace; the block at the
head of the work queue is the first one it adds, and every block further down
in the queue is added later. -/
theorem flattenLoop_trace (hir : List HIRBlock) : ∀ (fuel : Nat) (s s1 : FlattenState),
    LGen.flattenLoop hir fuel s = some s1 →
    ∃ ext, s1.trace = s.trace ++ ext ∧
      ∀ x q, s.work_queue = x :: q →
        ∃ flag rest, ext = (x, flag) :: rest ∧ ∀ y ∈ q, y ∈ rest.map Prod.fst := by
  intro fuel
  induction fuel with
  | zero => intro s s1 h; cases h
  | succ fuel ih =>
    intro s s1 h
    cases hq : s.work_queue with
    | nil =>
      simp only [LGen.flattenLoop, hq, Option.some.injEq] at h
      subst h
      exact ⟨[], (by simp), fun x q hx => by cases hx⟩
    | cons b queue =>
      simp only [LGen.flattenLoop, hq] at h
      cases hb : hir[b]? with
      | none => rw [hb] at h; cases h
      | some blk =>
        rw [hb] at h
        obtain ⟨ext, he, hfirst⟩ := ih _ s1 h
        rw [flattenStep_trace, List.append_assoc] at he
        refine ⟨_, he, ?_⟩
        intro x q hx
        simp only [List.cons.injEq] at hx
        obtain ⟨rfl, rfl⟩ := hx
        refine ⟨_, ext, rfl, ?_⟩
        intro y hy
        have hy1 := (flattenStep_queue blk b queue s).2 y hy
        cases hw : (LGen.flattenStep blk b queue s).work_queue with
        | nil => rw [hw] at hy1; cases hy1
        | cons x1 q1 =>
          obtain ⟨flag, rest, hr, hall⟩ := hfirst x1 q1 hw
          rw [hw] at hy1
          rw [hr]
          rcases List.mem_cons.1 hy1 with h1 | h1
          · rw [h1]; simp
          · simp only [List.map_cons, List.mem_cons]
            exact Or.inr (hall y h1)

/-- After a block with two successors is put, the next block the loop of
`FlattenBlocks` shifts from the work queue is its first successor; the second
successor is shifted later. -/
theorem flattenLoop_succ_order (hir : List HIRBlock) : ∀ (fuel : Nat) (s s1 : FlattenState),
    LGen.flattenLoop hir fuel s = some s1 →
    ∀ pre b post, s1.trace = s.trace ++ pre ++ (b, true) :: post →
    ∀ x0 x1 rest, (blockOf hir b).succs_ = x0 :: x1 :: rest →
    ∃ flag post1, post = (x0, flag) :: post1 ∧ x1 ∈ post1.map Prod.fst := by
  intro fuel
  induction fuel with
  | zero => intro s s1 h; cases h
  | succ fuel ih =>
    intro s s1 h pre b post ht x0 x1 rest hs
    cases hq : s.work_queue with
    | nil =>
      simp only [LGen.flattenLoop, hq, Option.some.injEq] at h
      subst h
      have := congrArg List.length ht
      simp only [List.length_append, List.length_cons] at this
      omega
    | cons c queue =>
      simp only [LGen.flattenLoop, hq] at h
      cases hc : hir[c]? with
      | none => rw [hc] at h; cases h
      | some blk =>
        rw [hc] at h
        have hblk : blk = blockOf hir c := by
          obtain ⟨hlt, _⟩ := List.getElem?_eq_some_iff.1 hc
          have := getElem?_blockOf hir c hlt
          rw [hc] at this
          exact Option.some.inj this
        subst hblk
        obtain ⟨ext, he, hfirst⟩ := flattenLoop_trace hir fuel _ s1 h
        have he1 := he
        rw [flattenStep_trace, ht, List.append_assoc, List.append_assoc] at he1
        have he2 := List.append_cancel_left he1
        cases pre with
        | nil =>
          simp only [List.nil_append, List.singleton_append, List.cons.injEq,
            Prod.mk.injEq] at he2
          obtain ⟨⟨rfl, hflag⟩, rfl⟩ := he2
          have hput : LGen.flattenSkips (blockOf hir b) (s.visits b + 1) = false := by
            cases hk : LGen.flattenSkips (blockOf hir b) (s.visits b + 1)
            · rfl
            · rw [hk] at hflag; cases hflag
          have hw := (flattenStep_queue (blockOf hir b) b queue s).1 hput
          rw [hs] at hw
          obtain ⟨flag, post1, hr, hall⟩ := hfirst x0 (x1 :: rest ++ queue) hw
          exact ⟨flag, post1, hr, hall x1 (by simp)⟩
        | cons e pre1 =>
          simp only [List.cons_append, List.singleton_append, List.cons.injEq] at he2
          obtain ⟨he3, he4⟩ := he2
          refine ih _ s1 h pre1 b post ?_ x0 x1 rest hs
          simp only [List.nil_append] at he4
          rw [he, flattenStep_trace, ← he4]
          simp only [List.append_assoc]

/-- A block that lies on every path from the root to a block of the flattened
list comes before it in the list, when the list starts with the root and every
other block in it comes after one of its predecessors. -/
theorem dominator_before (hir : List HIRBlock) (root : Nat) (blocks : List Nat)
    (hhead : blocks.head? = some root)
    (hpred : ∀ l1 b l2, blocks = l1 ++ b :: l2 → b ≠ root →
      ∃ a ∈ l1, b ∈ (blockOf hir a).succs_) :
    ∀ (n : Nat) (l1 : List Nat) (p : Nat) (l2 : List Nat), l1.length ≤ n →
      blocks = l1 ++ p :: l2 → ∀ h, h ≠ p → ¬ AvoidingPath hir h root p → h ∈ l1 := by
  intro n
  induction n with
  | zero =>
    intro l1 p l2 hn hb h hne hno
    have hl1 : l1 = [] := List.length_eq_zero.1 (by omega)
    subst hl1
    rw [hb] at hhead
    simp only [List.nil_append, List.head?_cons, Option.some.injEq] at hhead
    subst hhead
    exact absurd (AvoidingPath.refl p (fun h1 => hne h1.symm)) hno
  | succ n ih =>
    intro l1 p l2 hn hb h hne hno
    by_cases hr : p = root
    · subst hr
      exact absurd (AvoidingPath.refl p (fun h1 => hne h1.symm)) hno
    · obtain ⟨a, ha, hedge⟩ := hpred l1 p l2 hb hr
      by_cases hah : a = h
      · rw [← hah]; exact ha
      · obtain ⟨m1, m2, hm⟩ := List.append_of_mem ha
        have hlen : m1.length ≤ n := by
          have := congrArg List.length hm
          simp only [List.length_append, List.length_cons] at this
          omega
        have hin := ih m1 a (m2 ++ p :: l2) hlen (by rw [hb, hm]; simp) h
          (fun h1 => hah h1.symm)
          (fun hpath => hno (AvoidingPath.step root a p hpath hedge (fun h1 => hne h1.symm)))
        rw [hm]
        exact List.mem_append_left _ hin

/-- The number of edges of a graph whose blocks have at most two successors. -/
theorem edges_le (hir : List HIRBlock) (htwo : ∀ a, (blockOf hir a).succs_.length ≤ 2)
    (n : Nat) : ((List.range n).map (fun a => (blockOf hir a).succs_.length)).sum ≤ 2 * n := by
  induction n with
  | zero => simp
  | succ n ih =>
    rw [List.range_succ, List.map_append, List.sum_append]
    have := htwo n
    simp only [List.map_cons, List.map_nil, List.sum_cons, List.sum_nil]
    omega

/-- C28: for a graph `hir` whose blocks have at most two successors, whose
successors are blocks of the graph, whose `pred_count` is the number of edges
that lead into the block, and whose root has no predecessor, `FlattenBlocks`
returns when it has fuel for `2 * hir.length + 2` tests of its loop. The list
`blocks_` starts with the root and holds no block twice. A block in it that is
neither the root nor a loop start comes after all of its predecessors. `blocks_`
holds the visited blocks that were put, in the order of the visits; a visit of a
loop start puts it exactly when it is the first visit of that block, and a block
that lies on every path from the root to a block of the list (as a loop start
does for the source of its back edge) comes before that block. After a block
with two successors is put, the next visit is that of `SuccAt(0)`, and
`SuccAt(1)` is visited later. -/
theorem FlattenBlocks_order (hir : List HIRBlock) (root fuel : Nat)
    (hroot : root < hir.length) (hroot0 : (blockOf hir root).pred_count = 0)
    (hsucc : ∀ a, a < hir.length → ∀ x ∈ (blockOf hir a).succs_, x < hir.length)
    (hpred : ∀ b, b < hir.length → (blockOf hir b).pred_count = incoming hir b)
    (htwo : ∀ a, a < hir.length → (blockOf hir a).succ_count ≤ 2)
    (hfuel : 2 * hir.length + 2 ≤ fuel) :
    ∃ s, LGen.FlattenBlocks hir root fuel = some s ∧
      s.blocks_.head? = some root ∧
      s.blocks_.Nodup ∧
      (∀ l1 b l2, s.blocks_ = l1 ++ b :: l2 → b ≠ root → (blockOf hir b).IsLoop = false →
        ∀ a, b ∈ (blockOf hir a).succs_ → a ∈ l1) ∧
      s.blocks_ = (s.trace.filter (fun e => e.2)).map Prod.fst ∧
      (∀ pre h flag post, s.trace = pre ++ (h, flag) :: post →
        (blockOf hir h).IsLoop = true → (flag = true ↔ h ∉ pre.map Prod.fst)) ∧
      (∀ l1 p l2, s.blocks_ = l1 ++ p :: l2 → ∀ h, h ≠ p →
        ¬ AvoidingPath hir h root p → h ∈ l1) ∧
      (∀ pre b post, s.trace = pre ++ (b, true) :: post →
        ∀ x0 x1 rest, (blockOf hir b).succs_ = x0 :: x1 :: rest →
        ∃ flag post1, post = (x0, flag) :: post1 ∧ x1 ∈ post1.map Prod.fst) := by
  have htwo1 : ∀ a, (blockOf hir a).succs_.length ≤ 2 := by
    intro a
    by_cases ha : a < hir.length
    · exact htwo a ha
    · rw [blockOf_of_ge hir a (by omega)]
      simp
  have hedges := edges_le hir htwo1 hir.length
  obtain ⟨s, hrun, hinv, hqueue⟩ := flattenLoop_inv hir root hroot0 hsucc hpred fuel
    (LGen.flattenStart root) (FlattenInv_start hir root hroot) (by
      show _ < fuel + 0
      omega)
  have hhead : s.blocks_.head? = some root := by
    rcases hinv.head with ⟨_, h2⟩ | h
    · rw [hqueue] at h2; cases h2
    · exact h
  refine ⟨s, hrun, hhead, hinv.nodup, hinv.preds_before, hinv.blocks_eq, hinv.first_visit,
    ?_, ?_⟩
  · intro l1 p l2 hl h hne hno
    exact dominator_before hir root s.blocks_ hhead hinv.pred_before l1.length l1 p l2
      (le_refl _) hl h hne hno
  · intro pre b post ht
    exact flattenLoop_succ_order hir fuel (LGen.flattenStart root) s hrun pre b post
      (by rw [ht]; rfl)

/-- The theorem `FlattenBlocks_order` at `loopGraph` with the root 0 and fuel
for 12 tests. -/
theorem FlattenBlocks_order_witness :
    ∃ s, LGen.FlattenBlocks loopGraph 0 12 = some s ∧
      s.blocks_.head? = some 0 ∧
      s.blocks_.Nodup ∧
      (∀ l1 b l2, s.blocks_ = l1 ++ b :: l2 → b ≠ 0 →
        (blockOf loopGraph b).IsLoop = false →
        ∀ a, b ∈ (blockOf loopGraph a).succs_ → a ∈ l1) ∧
      s.blocks_ = (s.trace.filter (fun e => e.2)).map Prod.fst ∧
      (∀ pre h flag post, s.trace = pre ++ (h, flag) :: post →
        (blockOf loopGraph h).IsLoop = true → (flag = true ↔ h ∉ pre.map Prod.fst)) ∧
      (∀ l1 p l2, s.blocks_ = l1 ++ p :: l2 → ∀ h, h ≠ p →
        ¬ AvoidingPath loopGraph h 0 p → h ∈ l1) ∧
      (∀ pre b post, s.trace = pre ++ (b, true) :: post →
        ∀ x0 x1 rest, (blockOf loopGraph b).succs_ = x0 :: x1 :: rest →
        ∃ flag post1, post = (x0, flag) :: post1 ∧ x1 ∈ post1.map Prod.fst) :=
  FlattenBlocks_order loopGraph 0 12 (by decide) (by decide) (by decide) (by decide)
    (by decide) (by decide)

/-- The flattened list and the order of the visits of `loopGraph`: the loop
start 1 is put at its first visit and skipped at the second, the exit 4 is put
at its second visit. -/
theorem FlattenBlocks_loopGraph :
    (LGen.FlattenBlocks loopGraph 0 12).map (fun s => (s.blocks_, s.trace))
      = some ([0, 1, 2, 3, 4],
          [(0, true), (1, true), (2, true), (3, true), (1, false), (4, false), (4, true)]) := by
  decide

/-! ## The first position two ranges share (`LRange::FindIntersection`) -/

/-- C40, amended: for two non-empty ranges `a` and `b` of which the later start
is not `-1` (as for ranges of non-negative positions),
`LRange::FindIntersection` returns `-1` exactly when no position lies in both;
when one does, it returns the greater of the two starts, which lies in both
ranges and is the least position that does; and the result is the same with
the arguments swapped. -/
theorem LRange_FindIntersection_spec (a b : LRange) (ha : a.start < a.end_)
    (hb : b.start < b.end_) (hs : max a.start b.start ≠ -1) :
    (a.FindIntersection b = -1 ↔
      ¬ ∃ p, (a.start ≤ p ∧ p < a.end_) ∧ (b.start ≤ p ∧ p < b.end_)) ∧
    ((∃ p, (a.start ≤ p ∧ p < a.end_) ∧ (b.start ≤ p ∧ p < b.end_)) →
      a.FindIntersection b = max a.start b.start ∧
      (a.start ≤ a.FindIntersection b ∧ a.FindIntersection b < a.end_) ∧
      (b.start ≤ a.FindIntersection b ∧ a.FindIntersection b < b.end_) ∧
      ∀ p, (a.start ≤ p ∧ p < a.end_) ∧ (b.start ≤ p ∧ p < b.end_) →
        a.FindIntersection b ≤ p) ∧
    a.FindIntersection b = b.FindIntersection a := by
  unfold LRange.FindIntersection
  by_cases h1 : a.start ≥ b.start ∧ a.start < b.end_
  · have hm : max a.start b.start = a.start := max_eq_left h1.1
    rw [hm] at hs
    rw [if_pos h1]
    refine ⟨⟨fun h => absurd h hs, fun h => absurd ⟨a.start, ⟨le_refl _, ha⟩, h1⟩ h⟩,
      fun _ => ⟨hm.symm, ⟨le_refl _, ha⟩, h1, fun p hp => hp.1.1⟩, ?_⟩
    by_cases h2 : b.start ≥ a.start ∧ b.start < a.end_
    · rw [if_pos h2]; omega
    · rw [if_neg h2, if_pos h1]
  · rw [if_neg h1]
    by_cases h2 : b.start ≥ a.start ∧ b.start < a.end_
    · have hm : max a.start b.start = b.start := max_eq_right h2.1
      rw [hm] at hs
      rw [if_pos h2]
      exact ⟨⟨fun h => absurd h hs, fun h => absurd ⟨b.start, h2, le_refl _, hb⟩ h⟩,
        fun _ => ⟨hm.symm, h2, ⟨le_refl _, hb⟩, fun p hp => hp.2.1⟩, (if_pos h2).symm⟩
    · rw [if_neg h2]
      have hno : ¬ ∃ p, (a.start ≤ p ∧ p < a.end_) ∧ (b.start ≤ p ∧ p < b.end_) := by
        rintro ⟨p, ⟨hp1, hp2⟩, hp3, hp4⟩
        by_cases h3 : a.start ≥ b.start
        · exact h1 ⟨h3, by omega⟩
        · exact h2 ⟨by omega, by omega⟩
      exact ⟨⟨fun _ => hno, fun _ => rfl⟩, fun h => absurd h hno,
        by rw [if_neg h2, if_neg h1]⟩

/-- The theorem `LRange_FindIntersection_spec` at the ranges `[2, 6)` and
`[4, 10)`, which meet first at 4. -/
theorem LRange_FindIntersection_spec_witness :
    ((⟨2, 6⟩ : LRange).FindIntersection ⟨4, 10⟩ = -1 ↔
      ¬ ∃ p, ((2 : Int) ≤ p ∧ p < 6) ∧ ((4 : Int) ≤ p ∧ p < 10)) ∧
    ((∃ p, ((2 : Int) ≤ p ∧ p < 6) ∧ ((4 : Int) ≤ p ∧ p < 10)) →
      (⟨2, 6⟩ : LRange).FindIntersection ⟨4, 10⟩ = max 2 4 ∧
      (2 ≤ (⟨2, 6⟩ : LRange).FindIntersection ⟨4, 10⟩ ∧
        (⟨2, 6⟩ : LRange).FindIntersection ⟨4, 10⟩ < 6) ∧
      (4 ≤ (⟨2, 6⟩ : LRange).FindIntersection ⟨4, 10⟩ ∧
        (⟨2, 6⟩ : LRange).FindIntersection ⟨4, 10⟩ < 10) ∧
      ∀ p, ((2 : Int) ≤ p ∧ p < 6) ∧ ((4 : Int) ≤ p ∧ p < 10) →
        (⟨2, 6⟩ : LRange).FindIntersection ⟨4, 10⟩ ≤ p) ∧
    (⟨2, 6⟩ : LRange).FindIntersection ⟨4, 10⟩ = (⟨4, 10⟩ : LRange).FindIntersection ⟨2, 6⟩ :=
  LRange_FindIntersection_spec ⟨2, 6⟩ ⟨4, 10⟩ (by decide) (by decide) (by decide)

/-- The ranges `[-1, 1)` and `[-1, 1)` are not empty and share the positions
`-1` and 0, and `LRange::FindIntersection` returns `-1` for them, the value that
stands for no intersection: the first shared position is `-1` itself. -/
theorem LRange_FindIntersection_at_minus_one :
    (⟨-1, 1⟩ : LRange).start < (⟨-1, 1⟩ : LRange).end_ ∧
    (⟨-1, 1⟩ : LRange).FindIntersection ⟨-1, 1⟩ = -1 ∧
    ∃ p, ((⟨-1, 1⟩ : LRange).start ≤ p ∧ p < (⟨-1, 1⟩ : LRange).end_) ∧
      ((⟨-1, 1⟩ : LRange).start ≤ p ∧ p < (⟨-1, 1⟩ : LRange).end_) :=
  ⟨by decide, by decide, 0, by decide⟩

/-! ## Range bookkeeping -/

/-- One call of `AddRange(s, e)` with `s < e` on ranges that are apart, when
`e` is at most the start of the first range: the call returns, the ranges stay
apart, the first range starts at `s`, and a position is in a range afterwards
exactly when it was before or lies in `[s, e)`. -/
theorem AddRange_apart (i : LInterval) (s e : Int) (hi : rangesApart i.ranges) (hse : s < e)
    (hfirst : ∀ hd, i.ranges.head? = some hd → e ≤ hd.start) :
    ∃ i1, i.AddRange s e = some i1 ∧ rangesApart i1.ranges ∧
      i1.ranges.head?.map LRange.start = some s ∧
      ∀ p, covered i1.ranges p ↔ (covered i.ranges p ∨ (s ≤ p ∧ p < e)) := by
  unfold LInterval.AddRange
  cases hr : i.ranges with
  | nil =>
    refine ⟨_, rfl, ?_, rfl, ?_⟩
    · exact ⟨fun r hr => by rw [List.mem_singleton] at hr; subst hr; exact hse,
        List.pairwise_singleton _ _⟩
    · intro p
      simp [covered]
  | cons hd rest =>
    rw [hr] at hi hfirst
    have hle := hfirst hd rfl
    have hhd := hi.1 hd (List.mem_cons_self _ _)
    have hpw := List.pairwise_cons.1 hi.2
    by_cases h1 : hd.start = e
    · simp only [h1, if_true]
      refine ⟨_, rfl, ⟨?_, ?_⟩, rfl, ?_⟩
      · intro r hr
        rcases List.mem_cons.1 hr with rfl | hr
        · show s < hd.end_
          omega
        · exact hi.1 r (List.mem_cons_of_mem _ hr)
      · exact List.pairwise_cons.2 ⟨fun b hb => hpw.1 b hb, hpw.2⟩
      · intro p
        simp only [covered, List.mem_cons, exists_eq_or_imp]
        constructor
        · rintro (⟨h2, h3⟩ | h2)
          · by_cases h4 : p < e
            · exact Or.inr ⟨h2, h4⟩
            · exact Or.inl (Or.inl ⟨by omega, h3⟩)
          · exact Or.inl (Or.inr h2)
        · rintro ((⟨h2, h3⟩ | h2) | ⟨h2, h3⟩)
          · exact Or.inl ⟨by show s ≤ p; omega, h3⟩
          · exact Or.inr h2
          · exact Or.inl ⟨h2, by show p < hd.end_; omega⟩
    · simp only [h1, if_false]
      have h2 : e < hd.start := lt_of_le_of_ne hle (fun h => h1 h.symm)
      rw [if_pos h2]
      refine ⟨_, rfl, ⟨?_, ?_⟩, rfl, ?_⟩
      · intro r hr
        rcases List.mem_cons.1 hr with rfl | hr
        · exact hse
        · exact hi.1 r hr
      · refine List.pairwise_cons.2 ⟨?_, hi.2⟩
        intro b hb
        rcases List.mem_cons.1 hb with rfl | hb
        · exact h2
        · have := hpw.1 b hb
          show e < b.start
          omega
      · intro p
        simp only [covered, List.mem_cons, exists_eq_or_imp]
        constructor
        · rintro (h3 | h3 | h3)
          · exact Or.inr h3
          · exact Or.inl (Or.inl h3)
          · exact Or.inl (Or.inr h3)
        · rintro ((h3 | h3) | h3)
          · exact Or.inr (Or.inl h3)
          · exact Or.inr (Or.inr h3)
          · exact Or.inl h3

/-- Ranges that are apart are sorted and disjoint in the sense of
`rangesSorted`. -/
theorem rangesSorted_of_apart (rs : List LRange) (h : rangesApart rs) : rangesSorted rs :=
  ⟨fun r hr => le_of_lt (h.1 r hr), h.2.imp (fun h1 => le_of_lt h1)⟩

/-- A sequence of `AddRange` calls on ranges that are apart, each call with
`s < e` and `e` at most the `s` of the call before it, the first with `e` at most
the start of the first range. -/
theorem AddRanges_apart : ∀ (calls : List (Int × Int)) (i : LInterval),
    rangesApart i.ranges → (∀ c ∈ calls, c.1 < c.2) →
    calls.Chain' (fun c d => d.2 ≤ c.1) →
    (∀ hd c, i.ranges.head? = some hd → calls.head? = some c → c.2 ≤ hd.start) →
    ∃ i1, i.AddRanges calls = some i1 ∧ rangesApart i1.ranges ∧
      (∀ c, calls.getLast? = some c → i1.ranges.head?.map LRange.start = some c.1) ∧
      ∀ p, covered i1.ranges p ↔ (covered i.ranges p ∨ ∃ c ∈ calls, c.1 ≤ p ∧ p < c.2) := by
  intro calls
  induction calls with
  | nil =>
    intro i hi _ _ _
    exact ⟨i, rfl, hi, (fun c hc => by cases hc), fun p => by simp⟩
  | cons c rest ih =>
    intro i hi hlt hchain hfirst
    obtain ⟨i1, h1, hap, hhead, hcov⟩ := AddRange_apart i c.1 c.2 hi
      (hlt c (List.mem_cons_self _ _)) (fun hd hhd => hfirst hd c hhd rfl)
    obtain ⟨i2, h2, hap2, hlast, hcov2⟩ := ih i1 hap
      (fun d hd => hlt d (List.mem_cons_of_mem _ hd)) (List.Chain'.tail hchain)
      (by
        intro hd d hhd hd0
        rw [hhd] at hhead
        simp only [Option.map_some', Option.some.injEq] at hhead
        rw [hhead]
        cases rest with
        | nil => cases hd0
        | cons d1 rest1 =>
          simp only [List.head?_cons, Option.some.injEq] at hd0
          subst hd0
          exact (List.chain'_cons.1 hchain).1)
    refine ⟨i2, ?_, hap2, ?_, ?_⟩
    · simp only [LInterval.AddRanges, h1, Option.bind_some]
      exact h2
    · intro d hd
      cases rest with
      | nil =>
        simp only [List.getLast?_singleton, Option.some.injEq] at hd
        subst hd
        simp only [LInterval.AddRanges, Option.some.injEq] at h2
        subst h2
        exact hhead
      | cons d1 rest1 =>
        rw [List.getLast?_cons_cons] at hd
        exact hlast d hd
    · intro p
      rw [hcov2 p, hcov p]
      simp only [List.mem_cons, exists_eq_or_imp]
      constructor
      · rintro ((h3 | h3) | h3)
        · exact Or.inl h3
        · exact Or.inr (Or.inl h3)
        · exact Or.inr (Or.inr h3)
      · rintro (h3 | h3 | h3)
        · exact Or.inl (Or.inl h3)
        · exact Or.inl (Or.inr h3)
        · exact Or.inr h3

/-- C39: an interval without ranges on which `AddRange(s, e)` is called for the
pairs of `calls` in their order, each with `s < e` and with `e` at most the `s` of
the call before it (which is the start of the first range at the time of the
call): every call returns; the ranges at the end are not empty and sorted, and
every range ends before the next one starts, so they are pairwise disjoint; the
first range starts at the `s` of the last call; `Covers(p)` holds exactly when
`s ≤ p < e` for one of the pairs. A call `AddRange(s, e)` with `e` the start of
the first range gives that range the start `s` and adds no range. -/
theorem AddRange_bookkeeping (i : LInterval) (calls : List (Int × Int))
    (hempty : i.ranges = []) (hlt : ∀ c ∈ calls, c.1 < c.2)
    (hchain : calls.Chain' (fun c d => d.2 ≤ c.1)) :
    (∃ i1, i.AddRanges calls = some i1 ∧
      (∀ r ∈ i1.ranges, r.start < r.end_) ∧
      i1.ranges.Pairwise (fun a b => a.start < b.start) ∧
      i1.ranges.Pairwise (fun a b => a.end_ < b.start) ∧
      (∀ c, calls.getLast? = some c → i1.ranges.head?.map LRange.start = some c.1) ∧
      ∀ p, i1.Covers p = true ↔ ∃ c ∈ calls, c.1 ≤ p ∧ p < c.2) ∧
    ∀ (j : LInterval) (hd : LRange) (rest : List LRange) (s : Int), j.ranges = hd :: rest →
      (j.AddRange s hd.start).map (fun j1 => j1.ranges) = some (⟨s, hd.end_⟩ :: rest) := by
  constructor
  · obtain ⟨i1, h1, hap, hlast, hcov⟩ := AddRanges_apart calls i
      (by rw [hempty]; exact ⟨(fun r hr => by cases hr), List.Pairwise.nil⟩) hlt hchain
      (by intro hd c h; rw [hempty] at h; cases h)
    refine ⟨i1, h1, hap.1, ?_, hap.2, hlast, ?_⟩
    · have h2 : ∀ r ∈ i1.ranges, r.start < r.end_ := hap.1
      have h3 := hap.2
      clear h1 hlast hcov hap
      generalize i1.ranges = l at h2 h3
      induction l with
      | nil => exact List.Pairwise.nil
      | cons a l ih =>
        have h4 := List.pairwise_cons.1 h3
        refine List.pairwise_cons.2 ⟨?_, ih (fun r hr => h2 r (List.mem_cons_of_mem _ hr)) h4.2⟩
        intro b hb
        have := h4.1 b hb
        have := h2 a (List.mem_cons_self _ _)
        omega
    · intro p
      unfold LInterval.Covers
      rw [CoversRanges_iff p _ (rangesSorted_of_apart _ hap), hcov p]
      simp [covered, hempty]
  · intro j hd rest s hj
    simp [LInterval.AddRange, hj]

/-- The theorem `AddRange_bookkeeping` for the calls `AddRange(10, 12)`,
`AddRange(8, 10)` and `AddRange(2, 5)`: the second call extends the range of the
first. -/
theorem AddRange_bookkeeping_witness :
    (∃ i1, LInterval.blank.AddRanges [(10, 12), (8, 10), (2, 5)] = some i1 ∧
      (∀ r ∈ i1.ranges, r.start < r.end_) ∧
      i1.ranges.Pairwise (fun a b => a.start < b.start) ∧
      i1.ranges.Pairwise (fun a b => a.end_ < b.start) ∧
      (∀ c, [((10 : Int), (12 : Int)), (8, 10), (2, 5)].getLast? = some c →
        i1.ranges.head?.map LRange.start = some c.1) ∧
      ∀ p, i1.Covers p = true ↔
        ∃ c ∈ [((10 : Int), (12 : Int)), (8, 10), (2, 5)], c.1 ≤ p ∧ p < c.2) ∧
    ∀ (j : LInterval) (hd : LRange) (rest : List LRange) (s : Int), j.ranges = hd :: rest →
      (j.AddRange s hd.start).map (fun j1 => j1.ranges) = some (⟨s, hd.end_⟩ :: rest) :=
  AddRange_bookkeeping LInterval.blank [(10, 12), (8, 10), (2, 5)] rfl (by decide) (by simp)

/-- The ranges after the calls `AddRange(10, 12)`, `AddRange(8, 10)` and
`AddRange(2, 5)`. -/
theorem AddRanges_sample :
    (LInterval.blank.AddRanges [(10, 12), (8, 10), (2, 5)]).map (fun i => i.ranges)
      = some [⟨2, 5⟩, ⟨8, 12⟩] := by
  decide

/-! ## The lists after `ShuffleIntervals` -/

/-- The first loop of `ShuffleIntervals` sorts the intervals of `active`: what
stays covers `pos` and has not ended, what moves to `inactive` does not cover
`pos` and has not ended, and what expires has ended before `pos`. -/
theorem shuffleActive_sorts (g : LGen) (pos : Int) (l : List Nat)
    (h : ∀ id ∈ l, ∃ e, (g.get id).end_ = some e) :
    ∃ a ina hd, g.shuffleActive pos l = some (a, ina, hd) ∧
      (∀ id, id ∈ a ↔ id ∈ l ∧ (∃ e, (g.get id).end_ = some e ∧ ¬ e < pos) ∧
        (g.get id).Covers pos = true) ∧
      (∀ id, id ∈ ina ↔ id ∈ l ∧ (∃ e, (g.get id).end_ = some e ∧ ¬ e < pos) ∧
        (g.get id).Covers pos = false) ∧
      (∀ id, id ∈ hd ↔ id ∈ l ∧ ∃ e, (g.get id).end_ = some e ∧ e < pos) := by
  induction l with
  | nil => exact ⟨[], [], [], rfl, by simp, by simp, by simp⟩
  | cons x rest ih =>
    obtain ⟨a, ina, hd, hr, h1, h2, h3⟩ := ih (fun id hid => h id (List.mem_cons_of_mem _ hid))
    obtain ⟨e, hx⟩ := h x (List.mem_cons_self _ _)
    unfold LGen.shuffleActive
    simp only [hr, hx, Option.bind_eq_bind, Option.some_bind, Option.pure_def]
    by_cases hexp : e < pos
    · refine ⟨a, ina, x :: hd, by simp [hexp], ?_, ?_, ?_⟩
      · intro id
        rw [h1 id, List.mem_cons]
        constructor
        · rintro ⟨h4, h5, h6⟩; exact ⟨Or.inr h4, h5, h6⟩
        · rintro ⟨rfl | h4, ⟨e1, h5, h7⟩, h6⟩
          · rw [hx] at h5; cases h5; exact absurd hexp h7
          · exact ⟨h4, ⟨e1, h5, h7⟩, h6⟩
      · intro id
        rw [h2 id, List.mem_cons]
        constructor
        · rintro ⟨h4, h5, h6⟩; exact ⟨Or.inr h4, h5, h6⟩
        · rintro ⟨rfl | h4, ⟨e1, h5, h7⟩, h6⟩
          · rw [hx] at h5; cases h5; exact absurd hexp h7
          · exact ⟨h4, ⟨e1, h5, h7⟩, h6⟩
      · intro id
        rw [List.mem_cons, h3 id, List.mem_cons]
        constructor
        · rintro (rfl | ⟨h4, h5⟩)
          · exact ⟨Or.inl rfl, e, hx, hexp⟩
          · exact ⟨Or.inr h4, h5⟩
        · rintro ⟨rfl | h4, h5⟩
          · exact Or.inl rfl
          · exact Or.inr ⟨h4, h5⟩
    · have hnot : ∀ id, id = x → ¬ ∃ e1, (g.get id).end_ = some e1 ∧ e1 < pos := by
        rintro id rfl ⟨e1, h5, h6⟩
        rw [hx] at h5; cases h5; exact hexp h6
      by_cases hcov : (g.get x).Covers pos = true
      · refine ⟨x :: a, ina, hd, by simp [hexp, hcov], ?_, ?_, ?_⟩
        · intro id
          rw [List.mem_cons, h1 id, List.mem_cons]
          constructor
          · rintro (rfl | ⟨h4, h5, h6⟩)
            · exact ⟨Or.inl rfl, ⟨e, hx, hexp⟩, hcov⟩
            · exact ⟨Or.inr h4, h5, h6⟩
          · rintro ⟨rfl | h4, h5, h6⟩
            · exact Or.inl rfl
            · exact Or.inr ⟨h4, h5, h6⟩
        · intro id
          rw [h2 id, List.mem_cons]
          constructor
          · rintro ⟨h4, h5, h6⟩; exact ⟨Or.inr h4, h5, h6⟩
          · rintro ⟨rfl | h4, h5, h6⟩
            · rw [hcov] at h6; cases h6
            · exact ⟨h4, h5, h6⟩
        · intro id
          rw [h3 id, List.mem_cons]
          constructor
          · rintro ⟨h4, h5⟩; exact ⟨Or.inr h4, h5⟩
          · rintro ⟨h4 | h4, h5⟩
            · exact absurd h5 (hnot id h4)
            · exact ⟨h4, h5⟩
      · have hcov1 : (g.get x).Covers pos = false := by simpa using hcov
        refine ⟨a, x :: ina, hd, by simp [hexp, hcov1], ?_, ?_, ?_⟩
        · intro id
          rw [h1 id, List.mem_cons]
          constructor
          · rintro ⟨h4, h5, h6⟩; exact ⟨Or.inr h4, h5, h6⟩
          · rintro ⟨rfl | h4, h5, h6⟩
            · rw [hcov1] at h6; cases h6
            · exact ⟨h4, h5, h6⟩
        · intro id
          rw [List.mem_cons, h2 id, List.mem_cons]
          constructor
          · rintro (rfl | ⟨h4, h5, h6⟩)
            · exact ⟨Or.inl rfl, ⟨e, hx, hexp⟩, hcov1⟩
            · exact ⟨Or.inr h4, h5, h6⟩
          · rintro ⟨rfl | h4, h5, h6⟩
            · exact Or.inl rfl
            · exact Or.inr ⟨h4, h5, h6⟩
        · intro id
          rw [h3 id, List.mem_cons]
          constructor
          · rintro ⟨h4, h5⟩; exact ⟨Or.inr h4, h5⟩
          · rintro ⟨h4 | h4, h5⟩
            · exact absurd h5 (hnot id h4)
            · exact ⟨h4, h5⟩

/-- The second loop of `ShuffleIntervals` sorts the intervals of `inactive`:
what stays does not cover `pos` and has not ended, what moves to `active` covers
`pos` and has not ended, and what expires has ended before `pos`. -/
theorem shuffleInactive_sorts (g : LGen) (pos : Int) (l : List Nat)
    (h : ∀ id ∈ l, ∃ e, (g.get id).end_ = some e) :
    ∃ ina a hd, g.shuffleInactive pos l = some (ina, a, hd) ∧
      (∀ id, id ∈ ina ↔ id ∈ l ∧ (∃ e, (g.get id).end_ = some e ∧ ¬ e < pos) ∧
        (g.get id).Covers pos = false) ∧
      (∀ id, id ∈ a ↔ id ∈ l ∧ (∃ e, (g.get id).end_ = some e ∧ ¬ e < pos) ∧
        (g.get id).Covers pos = true) ∧
      (∀ id, id ∈ hd ↔ id ∈ l ∧ ∃ e, (g.get id).end_ = some e ∧ e < pos) := by
  induction l with
  | nil => exact ⟨[], [], [], rfl, by simp, by simp, by simp⟩
  | cons x rest ih =>
    obtain ⟨ina, a, hd, hr, h2, h1, h3⟩ := ih (fun id hid => h id (List.mem_cons_of_mem _ hid))
    obtain ⟨e, hx⟩ := h x (List.mem_cons_self _ _)
    unfold LGen.shuffleInactive
    simp only [hr, hx, Option.bind_eq_bind, Option.some_bind, Option.pure_def]
    by_cases hexp : e < pos
    · have hnot : ∀ id, id = x → ¬ ∃ e1, (g.get id).end_ = some e1 ∧ ¬ e1 < pos := by
        rintro id rfl ⟨e1, h5, h6⟩
        rw [hx] at h5; cases h5; exact h6 hexp
      refine ⟨ina, a, x :: hd, by simp [hexp], ?_, ?_, ?_⟩
      · intro id
        rw [h2 id, List.mem_cons]
        constructor
        · rintro ⟨h4, h5, h6⟩; exact ⟨Or.inr h4, h5, h6⟩
        · rintro ⟨h4 | h4, h5, h6⟩
          · exact absurd h5 (hnot id h4)
          · exact ⟨h4, h5, h6⟩
      · intro id
        rw [h1 id, List.mem_cons]
        constructor
        · rintro ⟨h4, h5, h6⟩; exact ⟨Or.inr h4, h5, h6⟩
        · rintro ⟨h4 | h4, h5, h6⟩
          · exact absurd h5 (hnot id h4)
          · exact ⟨h4, h5, h6⟩
      · intro id
        rw [List.mem_cons, h3 id, List.mem_cons]
        constructor
        · rintro (rfl | ⟨h4, h5⟩)
          · exact ⟨Or.inl rfl, e, hx, hexp⟩
          · exact ⟨Or.inr h4, h5⟩
        · rintro ⟨rfl | h4, h5⟩
          · exact Or.inl rfl
          · exact Or.inr ⟨h4, h5⟩
    · have hnot : ∀ id, id = x → ¬ ∃ e1, (g.get id).end_ = some e1 ∧ e1 < pos := by
        rintro id rfl ⟨e1, h5, h6⟩
        rw [hx] at h5; cases h5; exact hexp h6
      have hold : ∀ id, (id ∈ hd ↔ id ∈ x :: rest ∧ ∃ e, (g.get id).end_ = some e ∧ e < pos) := by
        intro id
        rw [h3 id, List.mem_cons]
        constructor
        · rintro ⟨h4, h5⟩; exact ⟨Or.inr h4, h5⟩
        · rintro ⟨h4 | h4, h5⟩
          · exact absurd h5 (hnot id h4)
          · exact ⟨h4, h5⟩
      by_cases hcov : (g.get x).Covers pos = true
      · refine ⟨ina, x :: a, hd, by simp [hexp, hcov], ?_, ?_, hold⟩
        · intro id
          rw [h2 id, List.mem_cons]
          constructor
          · rintro ⟨h4, h5, h6⟩; exact ⟨Or.inr h4, h5, h6⟩
          · rintro ⟨rfl | h4, h5, h6⟩
            · rw [hcov] at h6; cases h6
            · exact ⟨h4, h5, h6⟩
        · intro id
          rw [List.mem_cons, h1 id, List.mem_cons]
          constructor
          · rintro (rfl | ⟨h4, h5, h6⟩)
            · exact ⟨Or.inl rfl, ⟨e, hx, hexp⟩, hcov⟩
            · exact ⟨Or.inr h4, h5, h6⟩
          · rintro ⟨rfl | h4, h5, h6⟩
            · exact Or.inl rfl
            · exact Or.inr ⟨h4, h5, h6⟩
      · have hcov1 : (g.get x).Covers pos = false := by simpa using hcov
        refine ⟨x :: ina, a, hd, by simp [hexp, hcov1], ?_, ?_, hold⟩
        · intro id
          rw [List.mem_cons, h2 id, List.mem_cons]
          constructor
          · rintro (rfl | ⟨h4, h5, h6⟩)
            · exact ⟨Or.inl rfl, ⟨e, hx, hexp⟩, hcov1⟩
            · exact ⟨Or.inr h4, h5, h6⟩
          · rintro ⟨rfl | h4, h5, h6⟩
            · exact Or.inl rfl
            · exact Or.inr ⟨h4, h5, h6⟩
        · intro id
          rw [h1 id, List.mem_cons]
          constructor
          · rintro ⟨h4, h5, h6⟩; exact ⟨Or.inr h4, h5, h6⟩
          · rintro ⟨rfl | h4, h5, h6⟩
            · rw [hcov1] at h6; cases h6
            · exact ⟨h4, h5, h6⟩

/-- C33: when every interval of `active` and `inactive` has an end,
`ShuffleIntervals(active, inactive, handled, pos)` returns; afterwards every
interval of `active` covers `pos` and no interval of `inactive` does; no interval
of either list has ended before `pos`; the intervals pushed to `handled` are
exactly those of the two lists that ended before `pos`; every interval that was
in `active` or `inactive` is afterwards in `active`, in `inactive` or among the
expired ones, and no interval is in two of these three lists. -/
theorem ShuffleIntervals_postcondition (g : LGen) (pos : Int) (active inactive : List Nat)
    (ha : ∀ id ∈ active, ∃ e, (g.get id).end_ = some e)
    (hi : ∀ id ∈ inactive, ∃ e, (g.get id).end_ = some e) :
    ∃ sh, g.ShuffleIntervals active inactive pos = some sh ∧
      (∀ id ∈ sh.1, (g.get id).Covers pos = true) ∧
      (∀ id ∈ sh.2.1, (g.get id).Covers pos = false) ∧
      (∀ id, id ∈ sh.1 ∨ id ∈ sh.2.1 → ∃ e, (g.get id).end_ = some e ∧ ¬ e < pos) ∧
      (∀ id, id ∈ sh.2.2 ↔
        (id ∈ active ∨ id ∈ inactive) ∧ ∃ e, (g.get id).end_ = some e ∧ e < pos) ∧
      (∀ id, id ∈ active ∨ id ∈ inactive ↔ id ∈ sh.1 ∨ id ∈ sh.2.1 ∨ id ∈ sh.2.2) ∧
      (∀ id, ¬ (id ∈ sh.1 ∧ id ∈ sh.2.1) ∧ ¬ (id ∈ sh.1 ∧ id ∈ sh.2.2) ∧
        ¬ (id ∈ sh.2.1 ∧ id ∈ sh.2.2)) := by
  obtain ⟨a1, toIna, h1, hr1, ma, mi, mh⟩ := shuffleActive_sorts g pos active ha
  have hi1 : ∀ id ∈ inactive ++ toIna, ∃ e, (g.get id).end_ = some e := by
    intro id hid
    rcases List.mem_append.mp hid with h | h
    · exact hi id h
    · exact ha id ((mi id).1 h).1
  obtain ⟨ina2, toA, h2, hr2, ni, na, nh⟩ := shuffleInactive_sorts g pos (inactive ++ toIna) hi1
  have hrun : g.ShuffleIntervals active inactive pos = some (a1 ++ toA, ina2, h1 ++ h2) := by
    unfold LGen.ShuffleIntervals
    simp [hr1, hr2]
  have hexcl : ∀ id e1 e2, (g.get id).end_ = some e1 → ¬ e1 < pos →
      (g.get id).end_ = some e2 → e2 < pos → False := by
    intro id e1 e2 h3 h4 h5 h6
    rw [h3] at h5; cases h5; exact h4 h6
  have hA : ∀ id, id ∈ a1 ++ toA → (id ∈ active ∨ id ∈ inactive) ∧
      (∃ e, (g.get id).end_ = some e ∧ ¬ e < pos) ∧ (g.get id).Covers pos = true := by
    intro id hid
    rcases List.mem_append.1 hid with h | h
    · have := (ma id).1 h
      exact ⟨Or.inl this.1, this.2⟩
    · have := (na id).1 h
      refine ⟨?_, this.2⟩
      rcases List.mem_append.1 this.1 with h3 | h3
      · exact Or.inr h3
      · exact Or.inl ((mi id).1 h3).1
  have hI : ∀ id, id ∈ ina2 → (id ∈ active ∨ id ∈ inactive) ∧
      (∃ e, (g.get id).end_ = some e ∧ ¬ e < pos) ∧ (g.get id).Covers pos = false := by
    intro id h
    have := (ni id).1 h
    refine ⟨?_, this.2⟩
    rcases List.mem_append.1 this.1 with h3 | h3
    · exact Or.inr h3
    · exact Or.inl ((mi id).1 h3).1
  have hH : ∀ id, id ∈ h1 ++ h2 ↔
      (id ∈ active ∨ id ∈ inactive) ∧ ∃ e, (g.get id).end_ = some e ∧ e < pos := by
    intro id
    rw [List.mem_append, mh id, nh id, List.mem_append]
    constructor
    · rintro (⟨h3, h4⟩ | ⟨h3 | h3, h4⟩)
      · exact ⟨Or.inl h3, h4⟩
      · exact ⟨Or.inr h3, h4⟩
      · exact ⟨Or.inl ((mi id).1 h3).1, h4⟩
    · rintro ⟨h3 | h3, h4⟩
      · exact Or.inl ⟨h3, h4⟩
      · exact Or.inr ⟨Or.inl h3, h4⟩
  refine ⟨_, hrun, fun id hid => (hA id hid).2.2, fun id hid => (hI id hid).2.2, ?_, hH, ?_, ?_⟩
  · rintro id (h | h)
    · exact (hA id h).2.1
    · exact (hI id h).2.1
  · intro id
    constructor
    · intro hmem
      have hend : ∃ e, (g.get id).end_ = some e := by
        rcases hmem with h | h
        · exact ha id h
        · exact hi id h
      obtain ⟨e, he⟩ := hend
      by_cases hexp : e < pos
      · exact Or.inr (Or.inr ((hH id).2 ⟨hmem, e, he, hexp⟩))
      · by_cases hcov : (g.get id).Covers pos = true
        · left
          rcases hmem with h | h
          · exact List.mem_append_left _ ((ma id).2 ⟨h, ⟨e, he, hexp⟩, hcov⟩)
          · exact List.mem_append_right _
              ((na id).2 ⟨List.mem_append_left _ h, ⟨e, he, hexp⟩, hcov⟩)
        · have hcov1 : (g.get id).Covers pos = false := by simpa using hcov
          right; left
          rcases hmem with h | h
          · exact (ni id).2 ⟨List.mem_append_right _ ((mi id).2 ⟨h, ⟨e, he, hexp⟩, hcov1⟩),
              ⟨e, he, hexp⟩, hcov1⟩
          · exact (ni id).2 ⟨List.mem_append_left _ h, ⟨e, he, hexp⟩, hcov1⟩
    · rintro (h | h | h)
      · exact (hA id h).1
      · exact (hI id h).1
      · exact ((hH id).1 h).1
  · intro id
    refine ⟨?_, ?_, ?_⟩
    · rintro ⟨h3, h4⟩
      have := (hA id h3).2.2
      rw [(hI id h4).2.2] at this
      cases this
    · rintro ⟨h3, h4⟩
      obtain ⟨e1, h5, h6⟩ := (hA id h3).2.1
      obtain ⟨e2, h7, h8⟩ := ((hH id).1 h4).2
      exact hexcl id e1 e2 h5 h6 h7 h8
    · rintro ⟨h3, h4⟩
      obtain ⟨e1, h5, h6⟩ := (hI id h3).2.1
      obtain ⟨e2, h7, h8⟩ := ((hH id).1 h4).2
      exact hexcl id e1 e2 h5 h6 h7 h8

/-- The theorem `ShuffleIntervals_postcondition` at `shuffleSample` and the
position 6, with 0, 1 and 2 active and 3 inactive. -/
theorem ShuffleIntervals_postcondition_witness :
    ∃ sh, shuffleSample.ShuffleIntervals [0, 1, 2] [3] 6 = some sh ∧
      (∀ id ∈ sh.1, (shuffleSample.get id).Covers 6 = true) ∧
      (∀ id ∈ sh.2.1, (shuffleSample.get id).Covers 6 = false) ∧
      (∀ id, id ∈ sh.1 ∨ id ∈ sh.2.1 →
        ∃ e, (shuffleSample.get id).end_ = some e ∧ ¬ e < 6) ∧
      (∀ id, id ∈ sh.2.2 ↔
        (id ∈ [0, 1, 2] ∨ id ∈ [3]) ∧ ∃ e, (shuffleSample.get id).end_ = some e ∧ e < 6) ∧
      (∀ id, id ∈ [0, 1, 2] ∨ id ∈ [3] ↔ id ∈ sh.1 ∨ id ∈ sh.2.1 ∨ id ∈ sh.2.2) ∧
      (∀ id, ¬ (id ∈ sh.1 ∧ id ∈ sh.2.1) ∧ ¬ (id ∈ sh.1 ∧ id ∈ sh.2.2) ∧
        ¬ (id ∈ sh.2.1 ∧ id ∈ sh.2.2)) :=
  ShuffleIntervals_postcondition shuffleSample 6 [0, 1, 2] [3]
    (fun id hid => by
      simp only [List.mem_cons, List.mem_singleton, List.not_mem_nil, or_false] at hid
      rcases hid with rfl | rfl | rfl <;> exact ⟨_, rfl⟩)
    (fun id hid => by
      simp only [List.mem_singleton] at hid
      subst hid
      exact ⟨_, rfl⟩)

/-- The lists `ShuffleIntervals` leaves at `shuffleSample` and the position 6:
1 stays active and 3 becomes active, 2 becomes inactive, 0 has expired. -/
theorem ShuffleIntervals_sample :
    shuffleSample.ShuffleIntervals [0, 1, 2] [3] 6 = some ([1, 3], [2], [0]) := by
  decide

/-! ## The number of passes of `ComputeGlobalLiveSets` -/

/-- A pass of `ComputeGlobalLiveSets` removes no key from a set. -/
theorem globalLivePass_mono (n : Nat) : ∀ (bs : List LBlock) (ch : Bool), n ≤ bs.length →
    ∀ i k, (k ∈ (blockAt bs i).live_in → k ∈ (blockAt (globalLivePass n (bs, ch)).1 i).live_in) ∧
      (k ∈ (blockAt bs i).live_out →
        k ∈ (blockAt (globalLivePass n (bs, ch)).1 i).live_out) := by
  induction n with
  | zero => intro bs ch _ i k; exact ⟨id, id⟩
  | succ n ih =>
    intro bs ch hn i k
    unfold globalLivePass
    obtain ⟨hlen, _, hother, hout, hin⟩ := globalLiveBlock_spec bs ch n hn
    have h1 := ih (globalLiveBlock bs ch n).1 (globalLiveBlock bs ch n).2 (by omega) i k
    constructor
    · intro hk
      apply h1.1
      by_cases h : i = n
      · subst h; exact (hin k).2 (Or.inl hk)
      · rw [hother i h]; exact hk
    · intro hk
      apply h1.2
      by_cases h : i = n
      · subst h; exact (hout k).2 (Or.inl hk)
      · rw [hother i h]; exact hk

/-- A pass of `ComputeGlobalLiveSets` keeps the number of blocks. -/
theorem globalLivePass_length (n : Nat) : ∀ (bs : List LBlock) (ch : Bool), n ≤ bs.length →
    (globalLivePass n (bs, ch)).1.length = bs.length := by
  induction n with
  | zero => intro bs ch _; rfl
  | succ n ih =>
    intro bs ch hn
    unfold globalLivePass
    have hlen := (globalLiveBlock_spec bs ch n hn).1
    rw [ih _ _ (by omega), hlen]

/-- When no block of `r` holds more keys than the block of `bs` at its place,
`r` holds no more keys than `bs`. -/
theorem liveSize_le_of_blocks : ∀ (r bs : List LBlock), r.length = bs.length →
    (∀ i, (blockAt r i).live_in.length + (blockAt r i).live_out.length
      ≤ (blockAt bs i).live_in.length + (blockAt bs i).live_out.length) →
    liveSize r ≤ liveSize bs := by
  intro r
  induction r with
  | nil =>
    intro bs _ _
    exact Nat.zero_le _
  | cons a l ih =>
    intro bs hlen h
    cases bs with
    | nil => cases hlen
    | cons b m =>
      have h0 := h 0
      have hrec := ih m (by simpa using hlen) (fun i => by
        have := h (i + 1)
        simpa [blockAt] using this)
      simp only [blockAt, List.getD_cons_zero] at h0
      unfold liveSize at hrec ⊢
      simp only [List.map_cons, List.sum_cons]
      omega

/-- The sets of a state of the loop hold at most `n` keys each when the keys
of the `live_gen` sets are below `n`. -/
theorem liveSize_le_keys (bs0 bs : List LBlock) (n : Nat) (inv : LiveInv bs0 bs)
    (hn : ∀ i, (blockAt bs i).live_in.Nodup ∧ (blockAt bs i).live_out.Nodup)
    (hkeys : ∀ b ∈ bs0, ∀ k ∈ b.live_gen, k < n) :
    liveSize bs ≤ 2 * bs0.length * n := by
  have hc : liveClosed bs0 (fun _ k => k < n) (fun _ k => k < n) := by
    intro i hi k
    refine ⟨fun ⟨s, _, h⟩ => h, ?_⟩
    rintro (h | ⟨h, _⟩)
    · exact hkeys _ (blockAt_mem bs0 i hi) k h
    · exact h
  have hb : ∀ x ∈ bs.map (fun b => b.live_in.length + b.live_out.length), x ≤ 2 * n := by
    intro x hx
    obtain ⟨b, hb, rfl⟩ := List.mem_map.mp hx
    obtain ⟨i, hi, rfl⟩ := List.mem_iff_getElem.mp hb
    have e : blockAt bs i = bs[i] := by
      unfold blockAt
      rw [List.getD_eq_getElem?_getD, List.getElem?_eq_getElem hi]
      rfl
    rw [← e]
    have s1 : (blockAt bs i).live_in.Subperm (List.range n) :=
      (hn i).1.subperm (fun k hk => List.mem_range.2 ((inv.least _ _ hc i k).1 hk))
    have s2 : (blockAt bs i).live_out.Subperm (List.range n) :=
      (hn i).2.subperm (fun k hk => List.mem_range.2 ((inv.least _ _ hc i k).2 hk))
    have h1 := s1.length_le
    have h2 := s2.length_le
    rw [List.length_range] at h1 h2
    omega
  have := List.sum_le_card_nsmul _ _ hb
  unfold liveSize
  rw [List.length_map, inv.len, smul_eq_mul] at this
  calc (bs.map (fun b => b.live_in.length + b.live_out.length)).sum
      ≤ bs0.length * (2 * n) := this
    _ = 2 * bs0.length * n := by ring

/-- The loop of `ComputeGlobalLiveSets` returns within as many passes as the
sets can still grow, and one more. -/
theorem globalLiveLoop_returns_within (bs0 : List LBlock) (n : Nat)
    (hkeys : ∀ b ∈ bs0, ∀ k ∈ b.live_gen, k < n) :
    ∀ (fuel : Nat) (bs : List LBlock), LiveInv bs0 bs →
    (∀ i, (blockAt bs i).live_in.Nodup ∧ (blockAt bs i).live_out.Nodup) →
    2 * bs0.length * n < liveSize bs + fuel →
    ∃ r, globalLiveLoop fuel bs = some r := by
  intro fuel
  induction fuel with
  | zero =>
    intro bs inv hn hf
    have := liveSize_le_keys bs0 bs n inv hn hkeys
    omega
  | succ fuel ih =>
    intro bs inv hn hf
    unfold globalLiveLoop
    simp only
    by_cases hc : (globalLivePass bs.length (bs, false)).2 = true
    · rw [if_pos hc]
      obtain ⟨a1, _, a3⟩ := globalLivePass_grow bs.length bs false (Nat.le_refl _) hn
      have hlt : liveSize bs < liveSize (globalLivePass bs.length (bs, false)).1 := by
        rcases a3 hc with h | h
        · cases h
        · exact h
      exact ih _ (globalLivePass_inv bs0 bs.length bs false (Nat.le_refl _) inv) a1 (by omega)
    · rw [if_neg hc]
      exact ⟨_, rfl⟩

/-- C31: for a flattened block list with empty `live_in` and `live_out` sets
whose `live_gen` keys are ids of intervals of the table, the do-while loop of
`ComputeGlobalLiveSets` returns within `2 * |blocks| * |intervals| + 1` passes.
For every state of the blocks whose sets hold no key twice, a pass removes no
key from a `live_in` or `live_out` set, and a pass that sets `change` leaves
some block with a longer `live_in` or a longer `live_out`. -/
theorem ComputeGlobalLiveSets_terminates (g : LGen)
    (hinit : ∀ b ∈ g.blocks, b.live_in = [] ∧ b.live_out = [])
    (hkeys : ∀ b ∈ g.blocks, ∀ k ∈ b.live_gen, k < g.intervals.length) :
    (∃ g1, g.ComputeGlobalLiveSets (2 * g.blocks.length * g.intervals.length + 1) = some g1) ∧
    ∀ bs : List LBlock,
      (∀ i, (blockAt bs i).live_in.Nodup ∧ (blockAt bs i).live_out.Nodup) →
      (∀ i k,
        (k ∈ (blockAt bs i).live_in →
          k ∈ (blockAt (globalLivePass bs.length (bs, false)).1 i).live_in) ∧
        (k ∈ (blockAt bs i).live_out →
          k ∈ (blockAt (globalLivePass bs.length (bs, false)).1 i).live_out)) ∧
      ((globalLivePass bs.length (bs, false)).2 = true →
        ∃ i, (blockAt bs i).live_in.length
              < (blockAt (globalLivePass bs.length (bs, false)).1 i).live_in.length ∨
            (blockAt bs i).live_out.length
              < (blockAt (globalLivePass bs.length (bs, false)).1 i).live_out.length) := by
  constructor
  · obtain ⟨inv0, h0⟩ := LiveInv.init g.blocks hinit
    have hsize : liveSize g.blocks = 0 := by
      unfold liveSize
      rw [List.sum_eq_zero_iff]
      intro x hx
      obtain ⟨b, hb, rfl⟩ := List.mem_map.1 hx
      rw [(hinit b hb).1, (hinit b hb).2]
      rfl
    obtain ⟨r, hr⟩ := globalLiveLoop_returns_within g.blocks g.intervals.length hkeys
      (2 * g.blocks.length * g.intervals.length + 1) g.blocks inv0
      (by intro i; rw [(h0 i).1, (h0 i).2]; exact ⟨List.nodup_nil, List.nodup_nil⟩)
      (by omega)
    exact ⟨{ g with blocks := r }, by unfold LGen.ComputeGlobalLiveSets; rw [hr]; rfl⟩
  · intro bs hn
    refine ⟨globalLivePass_mono bs.length bs false (Nat.le_refl _), ?_⟩
    intro hc
    obtain ⟨_, _, a3⟩ := globalLivePass_grow bs.length bs false (Nat.le_refl _) hn
    have hlt : liveSize bs < liveSize (globalLivePass bs.length (bs, false)).1 := by
      rcases a3 hc with h | h
      · cases h
      · exact h
    by_contra hno
    push_neg at hno
    have := liveSize_le_of_blocks (globalLivePass bs.length (bs, false)).1 bs
      (globalLivePass_length bs.length bs false (Nat.le_refl _)) (fun i => by
        have := hno i
        omega)
    omega

set_option maxRecDepth 10000 in
/-- The theorem `ComputeGlobalLiveSets_terminates` at `liveSample`. -/
theorem ComputeGlobalLiveSets_terminates_witness :
    (∃ g1, liveSample.ComputeGlobalLiveSets
        (2 * liveSample.blocks.length * liveSample.intervals.length + 1) = some g1) ∧
    ∀ bs : List LBlock,
      (∀ i, (blockAt bs i).live_in.Nodup ∧ (blockAt bs i).live_out.Nodup) →
      (∀ i k,
        (k ∈ (blockAt bs i).live_in →
          k ∈ (blockAt (globalLivePass bs.length (bs, false)).1 i).live_in) ∧
        (k ∈ (blockAt bs i).live_out →
          k ∈ (blockAt (globalLivePass bs.length (bs, false)).1 i).live_out)) ∧
      ((globalLivePass bs.length (bs, false)).2 = true →
        ∃ i, (blockAt bs i).live_in.length
              < (blockAt (globalLivePass bs.length (bs, false)).1 i).live_in.length ∨
            (blockAt bs i).live_out.length
              < (blockAt (globalLivePass bs.length (bs, false)).1 i).live_out.length) :=
  ComputeGlobalLiveSets_terminates liveSample (by decide) (by decide)

/-! ## The use `UseAfter` returns -/

/-- The first element of a list of uses sorted by instruction id that passes a
test passes it, is in the list, and has the least instruction id among the
elements that pass. -/
theorem find?_sorted_min (p : LUse → Bool) : ∀ (l : List LUse), usesSorted l →
    ∀ u, l.find? p = some u →
    p u = true ∧ u ∈ l ∧ ∀ v ∈ l, p v = true → u.instr ≤ v.instr := by
  intro l
  induction l with
  | nil => intro _ u h; cases h
  | cons x rest ih =>
    intro hs u h
    have hpw := List.pairwise_cons.1 hs
    rw [List.find?_cons] at h
    cases hx : p x with
    | true =>
      rw [hx] at h
      simp only [Option.some.injEq] at h
      subst h
      refine ⟨hx, List.mem_cons_self _ _, ?_⟩
      intro v hv _
      rcases List.mem_cons.1 hv with rfl | hv
      · exact le_refl _
      · exact hpw.1 v hv
    | false =>
      rw [hx] at h
      obtain ⟨h1, h2, h3⟩ := ih hpw.2 u h
      refine ⟨h1, List.mem_cons_of_mem _ h2, ?_⟩
      intro v hv hpv
      rcases List.mem_cons.1 hv with rfl | hv
      · rw [hx] at hpv; cases hpv
      · exact h3 v hv hpv

/-- `UseAfter` on an interval without split children looks at its uses only. -/
theorem UseAfterD_flat (g : LGen) (d c : Nat) (pos : Int) (t : UseType) (hd : 1 ≤ d)
    (hflat : (g.get c).split_children = []) :
    g.UseAfterD d c pos t = (g.get c).uses.find? (useMatches pos t) := by
  obtain ⟨d1, rfl⟩ : ∃ d1, d = d1 + 1 := ⟨d - 1, by omega⟩
  unfold LGen.UseAfterD
  rw [hflat]
  cases (g.get c).uses.find? (useMatches pos t) <;> rfl

/-- The search through a list gives the same result for two functions that
agree on the list. -/
theorem findSome?_congr_mem {α β : Type} (f h : α → Option β) : ∀ (l : List α),
    (∀ x ∈ l, f x = h x) → l.findSome? f = l.findSome? h := by
  intro l
  induction l with
  | nil => intro _; rfl
  | cons x rest ih =>
    intro hl
    rw [List.findSome?_cons, List.findSome?_cons, hl x (List.mem_cons_self _ _),
      ih (fun y hy => hl y (List.mem_cons_of_mem _ hy))]

/-- `UseAfter` on an interval whose split children have no split children: the
first use of the interval that passes the test, or else that of the first child
that has one. -/
theorem UseAfter_eq (g : LGen) (id : Nat) (pos : Int) (t : UseType)
    (hflat : ∀ c ∈ (g.get id).split_children, (g.get c).split_children = []) :
    g.UseAfter id pos t =
      ((g.get id).uses.find? (useMatches pos t)).orElse (fun _ =>
        (g.get id).split_children.findSome?
          (fun c => (g.get c).uses.find? (useMatches pos t))) := by
  unfold LGen.UseAfter
  rw [LGen.UseAfterD]
  have hch : (g.get id).split_children.findSome?
      (fun c => g.UseAfterD g.intervals.length c pos t)
      = (g.get id).split_children.findSome?
        (fun c => (g.get c).uses.find? (useMatches pos t)) := by
    by_cases hlen : g.intervals.length = 0
    · have : g.get id = default := by
        unfold LGen.get
        rw [List.getD_eq_getElem?_getD, List.getElem?_eq_none (by omega)]
        rfl
      rw [this]
      rfl
    · exact findSome?_congr_mem _ _ _ (fun c hc =>
        UseAfterD_flat g _ c pos t (by omega) (hflat c hc))
  rw [hch]
  cases (g.get id).uses.find? (useMatches pos t) <;> rfl

/-- C36, amended: for an interval whose uses are sorted by instruction id and
whose split children have sorted uses and no split children of their own, and
for every `pos` and use type `t` (a use passes the test `useMatches pos t` when
its instruction id is at least `pos` and `t` is `kAny` or its type):
`UseAfter(pos, t)` returns `NULL` exactly when no use of the interval or of a
split child passes the test. A use it returns passes the test; it is the use of
the interval itself with the least instruction id among those that pass, or,
when no use of the interval passes, the use with the least instruction id among
those that pass in the first split child, in the order of the list
`split_children`, that has such a use. When every use of the interval is at or
before every use of its children and the children are listed in the order of
their uses, the returned use has the least instruction id among all uses of the
interval and its split children that pass. -/
theorem UseAfter_first_match (g : LGen) (id : Nat) (pos : Int) (t : UseType)
    (hsorted : usesSorted (g.get id).uses)
    (hchild : ∀ c ∈ (g.get id).split_children,
      (g.get c).split_children = [] ∧ usesSorted (g.get c).uses) :
    (g.UseAfter id pos t = none ↔
      (∀ v ∈ (g.get id).uses, useMatches pos t v = false) ∧
      ∀ c ∈ (g.get id).split_children, ∀ v ∈ (g.get c).uses, useMatches pos t v = false) ∧
    (∀ u, g.UseAfter id pos t = some u → useMatches pos t u = true ∧
      ((u ∈ (g.get id).uses ∧
          ∀ v ∈ (g.get id).uses, useMatches pos t v = true → u.instr ≤ v.instr) ∨
        ((∀ v ∈ (g.get id).uses, useMatches pos t v = false) ∧
          ∃ pre c post, (g.get id).split_children = pre ++ c :: post ∧
            (∀ d ∈ pre, ∀ v ∈ (g.get d).uses, useMatches pos t v = false) ∧
            u ∈ (g.get c).uses ∧
            ∀ v ∈ (g.get c).uses, useMatches pos t v = true → u.instr ≤ v.instr))) ∧
    ((∀ u ∈ (g.get id).uses, ∀ c ∈ (g.get id).split_children, ∀ v ∈ (g.get c).uses,
        u.instr ≤ v.instr) →
      (g.get id).split_children.Pairwise
        (fun c d => ∀ u ∈ (g.get c).uses, ∀ v ∈ (g.get d).uses, u.instr ≤ v.instr) →
      ∀ u, g.UseAfter id pos t = some u →
        (∀ v ∈ (g.get id).uses, useMatches pos t v = true → u.instr ≤ v.instr) ∧
        ∀ c ∈ (g.get id).split_children, ∀ v ∈ (g.get c).uses,
          useMatches pos t v = true → u.instr ≤ v.instr) := by
  have heq := UseAfter_eq g id pos t (fun c hc => (hchild c hc).1)
  have hnone : ∀ (l : List LUse), l.find? (useMatches pos t) = none ↔
      ∀ v ∈ l, useMatches pos t v = false := by
    intro l
    rw [List.find?_eq_none]
    exact ⟨fun h v hv => by simpa using h v hv, fun h v hv => by simp [h v hv]⟩
  have hsome : ∀ u, g.UseAfter id pos t = some u → useMatches pos t u = true ∧
      ((u ∈ (g.get id).uses ∧
          ∀ v ∈ (g.get id).uses, useMatches pos t v = true → u.instr ≤ v.instr) ∨
        ((∀ v ∈ (g.get id).uses, useMatches pos t v = false) ∧
          ∃ pre c post, (g.get id).split_children = pre ++ c :: post ∧
            (∀ d ∈ pre, ∀ v ∈ (g.get d).uses, useMatches pos t v = false) ∧
            u ∈ (g.get c).uses ∧
            ∀ v ∈ (g.get c).uses, useMatches pos t v = true → u.instr ≤ v.instr)) := by
    intro u hu
    rw [heq] at hu
    cases hown : (g.get id).uses.find? (useMatches pos t) with
    | some w =>
      rw [hown] at hu
      simp only [Option.orElse, Option.some.injEq] at hu
      subst hu
      obtain ⟨h1, h2, h3⟩ := find?_sorted_min _ _ hsorted w hown
      exact ⟨h1, Or.inl ⟨h2, h3⟩⟩
    | none =>
      rw [hown] at hu
      simp only [Option.orElse] at hu
      obtain ⟨pre, c, post, hl, hc, hpre⟩ := List.findSome?_eq_some_iff.1 hu
      have hcm : c ∈ (g.get id).split_children := by rw [hl]; simp
      obtain ⟨h1, h2, h3⟩ := find?_sorted_min _ _ (hchild c hcm).2 u hc
      exact ⟨h1, Or.inr ⟨(hnone _).1 hown, pre, c, post, hl,
        fun d hd => (hnone _).1 (hpre d hd), h2, h3⟩⟩
  refine ⟨?_, hsome, ?_⟩
  · rw [heq]
    cases hown : (g.get id).uses.find? (useMatches pos t) with
    | some w =>
      simp only [Option.orElse]
      constructor
      · intro h; cases h
      · intro h
        have := (hnone _).2 h.1
        rw [hown] at this
        cases this
    | none =>
      simp only [Option.orElse]
      rw [List.findSome?_eq_none_iff]
      constructor
      · intro h
        exact ⟨(hnone _).1 hown, fun c hc => (hnone _).1 (h c hc)⟩
      · intro h c hc
        exact (hnone _).2 (h.2 c hc)
  · intro hord hpw u hu
    obtain ⟨hm, h | ⟨hno, pre, c, post, hl, hpre, huc, hmin⟩⟩ := hsome u hu
    · refine ⟨h.2, ?_⟩
      intro c hc v hv _
      exact hord u h.1 c hc v hv
    · refine ⟨(fun v hv hmv => by rw [hno v hv] at hmv; cases hmv), ?_⟩
      intro d hd v hv hmv
      rw [hl] at hd hpw
      rcases List.mem_append.1 hd with h1 | h1
      · rw [hpre d h1 v hv] at hmv; cases hmv
      · rcases List.mem_cons.1 h1 with rfl | h2
        · exact hmin v hv hmv
        · have := (List.pairwise_cons.1 (List.pairwise_append.1 hpw).2.1).1 d h2
          exact this u huc v hv

set_option maxRecDepth 100000 in
/-- The theorem `UseAfter_first_match` at `useAfterState` for the interval 10,
the position 3 and the type `kAny`. -/
theorem UseAfter_first_match_witness :
    (useAfterState.UseAfter 10 3 UseType.kAny = none ↔
      (∀ v ∈ (useAfterState.get 10).uses, useMatches 3 UseType.kAny v = false) ∧
      ∀ c ∈ (useAfterState.get 10).split_children, ∀ v ∈ (useAfterState.get c).uses,
        useMatches 3 UseType.kAny v = false) ∧
    (∀ u, useAfterState.UseAfter 10 3 UseType.kAny = some u →
      useMatches 3 UseType.kAny u = true ∧
      ((u ∈ (useAfterState.get 10).uses ∧
          ∀ v ∈ (useAfterState.get 10).uses, useMatches 3 UseType.kAny v = true →
            u.instr ≤ v.instr) ∨
        ((∀ v ∈ (useAfterState.get 10).uses, useMatches 3 UseType.kAny v = false) ∧
          ∃ pre c post, (useAfterState.get 10).split_children = pre ++ c :: post ∧
            (∀ d ∈ pre, ∀ v ∈ (useAfterState.get d).uses,
              useMatches 3 UseType.kAny v = false) ∧
            u ∈ (useAfterState.get c).uses ∧
            ∀ v ∈ (useAfterState.get c).uses, useMatches 3 UseType.kAny v = true →
              u.instr ≤ v.instr))) ∧
    ((∀ u ∈ (useAfterState.get 10).uses, ∀ c ∈ (useAfterState.get 10).split_children,
        ∀ v ∈ (useAfterState.get c).uses, u.instr ≤ v.instr) →
      (useAfterState.get 10).split_children.Pairwise
        (fun c d => ∀ u ∈ (useAfterState.get c).uses, ∀ v ∈ (useAfterState.get d).uses,
          u.instr ≤ v.instr) →
      ∀ u, useAfterState.UseAfter 10 3 UseType.kAny = some u →
        (∀ v ∈ (useAfterState.get 10).uses, useMatches 3 UseType.kAny v = true →
          u.instr ≤ v.instr) ∧
        ∀ c ∈ (useAfterState.get 10).split_children, ∀ v ∈ (useAfterState.get c).uses,
          useMatches 3 UseType.kAny v = true → u.instr ≤ v.instr) :=
  UseAfter_first_match useAfterState 10 3 UseType.kAny (by unfold usesSorted; decide)
    (by unfold usesSorted; decide)

set_option maxRecDepth 100000 in
/-- The three splits of `useAfterSplits` return: the interval 10 keeps its use
at 2 and has the split children 15, 13 and 11, in this order in the list; the
uses are sorted, the child 13 has the use at 8 and the child 15 the use at 12.
`UseAfter(3, kAny)` on the interval 10 returns the use at 12, although the use at
8, of a split child, is at or after 3 as well. -/
theorem UseAfter_returns_later_use :
    useAfterSplits.map (fun r => (r.2.1, r.2.2.1, r.2.2.2)) = some (11, 13, 15) ∧
    useAfterSplits.map (fun r => r.1) = some useAfterState ∧
    (useAfterState.get 10).split_children = [15, 13, 11] ∧
    (useAfterState.get 10).uses = [⟨UseType.kAny, 2⟩] ∧
    (useAfterState.get 13).uses = [⟨UseType.kAny, 8⟩] ∧
    (useAfterState.get 15).uses = [⟨UseType.kAny, 12⟩] ∧
    useMatches 3 UseType.kAny ⟨UseType.kAny, 8⟩ = true ∧
    useAfterState.UseAfter 10 3 UseType.kAny = some ⟨UseType.kAny, 12⟩ := by
  refine ⟨by decide, ?_, by decide, by decide, by decide, by decide, by decide, by decide⟩
  have h : useAfterSplits.isSome = true := by decide
  unfold useAfterState
  cases hs : useAfterSplits with
  | none => rw [hs] at h; cases h
  | some r => rfl

/-! ## Spill indices fit the frame -/

/-- The interval table after a slot is given to `cur`. -/
theorem assignSpill_get (g : LGen) (cur : Nat) (k nsi : Int) (hcid : (g.get cur).id = cur)
    (hclt : cur < g.intervals.length) (id : Nat) :
    LGen.get { g.assignSpill cur k with spill_index := nsi } id =
      if id = cur then (g.get cur).Spill k else g.get id := by
  show (g.put ((g.get cur).Spill k)).get id = _
  rw [get_put]
  simp only [LInterval.Spill, hcid]
  by_cases h : id = cur
  · subst h; simp [hclt]
  · simp [h]

/-- One turn of the loop of `AllocateSpills` gives the interval a slot that is
not negative, and leaves the slots of the finished intervals. -/
theorem spillStep_nonneg (g0 g : LGen) (done L : List Nat) (lo pos : Int) (cur : Nat)
    (hL : ∀ id ∈ L, spillReady g0 id) (hdone : ∀ id ∈ done, id ∈ L) (hcur : cur ∈ L)
    (hnd : cur ∉ done) (inv : SpillInv g0 g done lo)
    (hpos : (g0.get cur).start = some pos)
    (hnn : ∀ id ∈ done, 0 ≤ (g.get id).index)
    (g1 : LGen) (hstep : g.spillStep cur = some g1) :
    ∀ id ∈ cur :: done, 0 ≤ (g1.get id).index := by
  have hsame := inv.same cur hnd
  obtain ⟨c1, c2, c3, c4, c5, c6, c7⟩ := hL cur hcur
  have hcid : (g.get cur).id = cur := by rw [hsame]; exact c2
  have hclt : cur < g.intervals.length := by rw [inv.len]; exact c1
  have hend : ∀ id ∈ done, ∃ e, (g.get id).end_ = some e := by
    intro id hid
    apply end_some_of_ne_nil
    rw [inv.ranges]
    exact (hL id (hdone id hid)).2.2.2.2.1
  obtain ⟨sh, hsh, hmem, _⟩ := ShuffleIntervals_spec g pos g.active_spills g.inactive_spills
    (fun id hid => hend id (inv.lists id (Or.inl hid)))
    (fun id hid => hend id (inv.lists id (Or.inr (Or.inl hid))))
  have hcs : (g.get cur).start = some pos := by rw [hsame]; exact hpos
  have hshdone : ∀ id, (id ∈ sh.1 ∨ id ∈ sh.2.1 ∨ id ∈ sh.2.2) → id ∈ done := by
    intro id hid
    rcases (hmem id).mpr hid with h | h
    · exact inv.lists id (Or.inl h)
    · exact inv.lists id (Or.inr (Or.inl h))
  -- the new table: `cur` gets a slot `k`, the other intervals stay
  have key : ∀ (g2 : LGen) (k nsi : Int), (∀ id, g2.get id = g.get id) →
      g2.intervals.length = g.intervals.length → 0 ≤ k →
      ∀ id ∈ cur :: done,
        0 ≤ (LGen.get { g2.assignSpill cur k with spill_index := nsi } id).index := by
    intro g2 k nsi h2 hl2 hk id hid
    rw [assignSpill_get g2 cur k nsi (by rw [h2]; exact hcid) (by rw [hl2]; exact hclt)]
    by_cases h : id = cur
    · rw [if_pos h]; exact hk
    · rw [if_neg h, h2]
      rcases List.mem_cons.1 hid with h3 | h3
      · exact absurd h3 h
      · exact hnn id h3
  unfold LGen.spillStep at hstep
  simp only [hcs, hsh, Option.bind_eq_bind, Option.some_bind, Option.pure_def] at hstep
  generalize hg1 : g.setSpillLists sh.1 sh.2.1 (g.free_spills ++ sh.2.2) = ga at hstep
  have g1g : ∀ id, ga.get id = g.get id := by intro id; rw [← hg1]; rfl
  have g1f : ga.free_spills = g.free_spills ++ sh.2.2 := by rw [← hg1]; rfl
  have g1l : ga.intervals.length = g.intervals.length := by rw [← hg1]; rfl
  have g1s : ga.spill_index = g.spill_index := by rw [← hg1]; rfl
  have hpfs := pickFree_spec ga cur ga.free_spills
  generalize hpf : ga.pickFree cur ga.free_spills = pf at hstep hpfs
  generalize hg2 : ga.setSpillLists ga.active_spills ga.inactive_spills pf.2 = gb at hstep
  have g2g : ∀ id, gb.get id = g.get id := by intro id; rw [← hg2]; exact g1g id
  have g2l : gb.intervals.length = g.intervals.length := by rw [← hg2]; exact g1l
  have g2s : gb.spill_index = g.spill_index := by rw [← hg2]; exact g1s
  cases hp1 : pf.1 with
  | some f =>
    rw [hp1] at hstep
    simp only [Option.some.injEq] at hstep
    subst hstep
    have hf := (hpfs.1 f hp1).1
    rw [g1f] at hf
    have hfd : f ∈ done := by
      rcases List.mem_append.1 hf with h | h
      · exact inv.lists f (Or.inr (Or.inr h))
      · exact hshdone f (Or.inr (Or.inr h))
    exact key gb (gb.get f).index gb.spill_index g2g g2l (by rw [g2g]; exact hnn f hfd)
  | none =>
    rw [hp1] at hstep
    simp only at hstep
    cases hfu : firstUnblocked (gb.blockedSpills cur) (maxIndex (gb.blockedSpills cur)) with
    | some i =>
      rw [hfu] at hstep
      simp only [Option.some.injEq] at hstep
      subst hstep
      obtain ⟨_, hi0, _⟩ := firstUnblocked_spec _ _ _ hfu
      exact key gb i gb.spill_index g2g g2l hi0
    | none =>
      rw [hfu] at hstep
      simp only at hstep
      have hci : (gb.get cur).index = -1 := by rw [g2g, hsame]; exact c4
      rw [if_neg (by simp [hci])] at hstep
      simp only [Option.some.injEq] at hstep
      subst hstep
      exact key gb gb.spill_index (gb.spill_index + 1) g2g g2l (by rw [g2s]; exact inv.nonneg)

/-- The loop of `AllocateSpills` keeps its invariant and gives every interval
of the queue a slot that is not negative. -/
theorem spillLoop_nonneg (g0 : LGen) (L : List Nat) (hL : ∀ id ∈ L, spillReady g0 id)
    (rest : List Nat) :
    ∀ (g : LGen) (done : List Nat) (lo : Int),
      (∀ id ∈ done, id ∈ L) → (∀ id ∈ rest, id ∈ L) → (∀ id ∈ rest, id ∉ done) → rest.Nodup →
      rest.Pairwise (fun a b => g0.startKey a ≤ g0.startKey b) →
      (∀ id ∈ rest, lo ≤ g0.startKey id) → SpillInv g0 g done lo →
      (∀ id ∈ done, 0 ≤ (g.get id).index) →
      ∃ g1 lo1, LGen.spillLoop rest g = some g1 ∧ SpillInv g0 g1 (rest.reverse ++ done) lo1 ∧
        ∀ id ∈ rest.reverse ++ done, 0 ≤ (g1.get id).index := by
  induction rest with
  | nil =>
    intro g done lo _ _ _ _ _ _ inv hnn
    exact ⟨g, lo, rfl, by simpa using inv, by simpa using hnn⟩
  | cons cur rest ih =>
    intro g done lo hdone hrest hnd hnodup hsorted hlo inv hnn
    have hcur : cur ∈ L := hrest cur (List.mem_cons_self _ _)
    obtain ⟨pos, hpos⟩ := start_some_of_ne_nil (g0.get cur) (hL cur hcur).2.2.2.2.1
    have hkey : g0.startKey cur = pos := by simp [LGen.startKey, hpos]
    have hnodup1 := List.nodup_cons.mp hnodup
    have hsorted1 := List.pairwise_cons.mp hsorted
    obtain ⟨g1, hg1, inv1⟩ := spillStep_inv g0 { g with unhandled_spills := rest } done L lo pos
      cur hL hdone hcur (hnd cur (List.mem_cons_self _ _))
      (SpillInv.unhandled g0 g done lo rest inv)
      hpos (by rw [← hkey]; exact hlo cur (List.mem_cons_self _ _))
    have hnn1 := spillStep_nonneg g0 { g with unhandled_spills := rest } done L lo pos cur hL
      hdone hcur (hnd cur (List.mem_cons_self _ _)) (SpillInv.unhandled g0 g done lo rest inv)
      hpos hnn g1 hg1
    obtain ⟨g2, lo2, hg2, inv2, hnn2⟩ := ih g1 (cur :: done) pos
      (by
        intro id hid
        rcases List.mem_cons.mp hid with rfl | h
        · exact hcur
        · exact hdone id h)
      (fun id hid => hrest id (List.mem_cons_of_mem _ hid))
      (by
        intro id hid hmem
        rcases List.mem_cons.mp hmem with rfl | h
        · exact hnodup1.1 hid
        · exact hnd id (List.mem_cons_of_mem _ hid) h)
      hnodup1.2 hsorted1.2
      (by intro id hid; rw [← hkey]; exact hsorted1.1 id hid)
      inv1 hnn1
    refine ⟨g2, lo2, ?_, ?_, ?_⟩
    · unfold LGen.spillLoop
      simp only [hg1, Option.bind_eq_bind, Option.some_bind, hg2]
    · simpa using inv2
    · simpa using hnn2

/-- The bound on the spill indices. At the entry of `AllocateSpills`, with empty
spill lists and `spill_index_` not negative, let every interval of the table in
stackslot state
be one that `LGen::Spill` has queued: it is in `unhandled_spills_` once, with the
placeholder `-1`, and has ranges. Then `AllocateSpills` returns, and afterwards
every interval of the table in stackslot state has a spill index `i` with
`0 ≤ i < spill_index_`, so that `i + 1` is below the number of stack slots
`spill_index_ + 1` that `LGen::Generate` asks for. -/
theorem AllocateSpills_indices_fit (g : LGen)
    (hempty : g.active_spills = [] ∧ g.inactive_spills = [] ∧ g.free_spills = [])
    (hnd : g.unhandled_spills.Nodup)
    (hready : ∀ id ∈ g.unhandled_spills, spillReady g id)
    (hsi : 0 ≤ g.spill_index)
    (hall : ∀ id, id < g.intervals.length → (g.get id).is_stackslot = true →
      id ∈ g.unhandled_spills) :
    ∃ g1, g.AllocateSpills = some g1 ∧ g1.intervals.length = g.intervals.length ∧
      ∀ id, id < g1.intervals.length → (g1.get id).is_stackslot = true →
        0 ≤ (g1.get id).index ∧ (g1.get id).index < g1.spill_index ∧
        (g1.get id).index + 1 < g1.stack_slots := by
  have hmemS : ∀ id, id ∈ sortStableBy g.startKey g.unhandled_spills ↔
      id ∈ g.unhandled_spills := by
    intro id
    unfold sortStableBy
    rw [mem_sortBy, List.mem_reverse]
  have inv0 : ∀ lo, SpillInv g g [] lo := by
    intro lo
    refine ⟨rfl, fun _ => rfl, fun _ _ => rfl, ?_, ?_, ?_, ?_, hsi⟩
    · intro id hid; cases hid
    · intro id hid
      rw [hempty.1, hempty.2.1, hempty.2.2] at hid
      simp at hid
    · intro id hid; cases hid
    · intro a ha; cases ha
  obtain ⟨g1, lo1, hg1, inv1, hnn1⟩ := spillLoop_nonneg g g.unhandled_spills hready
    (sortStableBy g.startKey g.unhandled_spills) g []
    (match sortStableBy g.startKey g.unhandled_spills with
      | [] => 0
      | x :: _ => g.startKey x)
    (by intro id hid; cases hid)
    (fun id hid => (hmemS id).mp hid)
    (by intro id _ h; cases h)
    (by unfold sortStableBy; exact nodup_sortBy _ _ (List.nodup_reverse.mpr hnd))
    (by unfold sortStableBy; exact pairwise_sortBy _ _)
    (by
      have hp : (sortStableBy g.startKey g.unhandled_spills).Pairwise
          (fun a b => g.startKey a ≤ g.startKey b) := by
        unfold sortStableBy; exact pairwise_sortBy _ _
      cases hs : sortStableBy g.startKey g.unhandled_spills with
      | nil => intro id hid; cases hid
      | cons x xs =>
        rw [hs] at hp
        intro id hid
        rcases List.mem_cons.mp hid with rfl | h
        · exact le_refl _
        · exact (List.pairwise_cons.mp hp).1 id h)
    (inv0 _) (by intro id hid; cases hid)
  refine ⟨g1, hg1, inv1.len, ?_⟩
  intro id hlt hst
  by_cases hq : id ∈ g.unhandled_spills
  · have hd : id ∈ (sortStableBy g.startKey g.unhandled_spills).reverse ++ [] := by
      simpa using (hmemS id).mpr hq
    have h1 := hnn1 id hd
    have h2 := (inv1.typed id hd).2
    refine ⟨h1, h2, ?_⟩
    unfold LGen.stack_slots
    omega
  · have hd : id ∉ (sortStableBy g.startKey g.unhandled_spills).reverse ++ [] := by
      simpa using fun h => hq ((hmemS id).mp h)
    have hsame := inv1.same id hd
    rw [hsame] at hst
    rw [inv1.len] at hlt
    exact absurd (hall id hlt hst) hq

set_option maxRecDepth 10000 in
/-- The theorem on spill indices applied to `spillSample`. -/
theorem AllocateSpills_indices_fit_witness :
    ∃ g1, spillSample.AllocateSpills = some g1 ∧
      g1.intervals.length = spillSample.intervals.length ∧
      ∀ id, id < g1.intervals.length → (g1.get id).is_stackslot = true →
        0 ≤ (g1.get id).index ∧ (g1.get id).index < g1.spill_index ∧
        (g1.get id).index + 1 < g1.stack_slots :=
  AllocateSpills_indices_fit spillSample (by decide) (by decide)
    (by unfold spillReady rangesSorted; decide) (by decide) (by decide)

/-- On `spillSample` the three intervals get the slots 0, 1 and 0, `spill_index_`
ends at 2 and `LGen::Generate` asks for 3 stack slots. -/
theorem AllocateSpills_sample_slots :
    (spillSample.AllocateSpills.map fun g =>
      (g.intervals.map fun i => i.index, g.spill_index, g.stack_slots)) =
      some ([0, 1, 0], 2, 3) := by
  decide

/-! ## The registers restored by two stubs -/

/-- What `pop` does when the stack pointer is `s`. -/
theorem pop_spec (c : Cpu) (dst : Register) (s : Nat) (hs : c.reg Register.esp = s)
    (hlt : s + 4 < 2 ^ 32) (hd : dst ≠ Register.esp) :
    (c.pop 32 dst).reg Register.esp = s + 4 ∧
    (c.pop 32 dst).reg dst = c.mem s ∧
    (∀ r, r ≠ Register.esp → r ≠ dst → (c.pop 32 dst).reg r = c.reg r) ∧
    (c.pop 32 dst).mem = c.mem := by
  have h1 : ofInt 32 ((s : Int) + 0) = s := by
    rw [add_zero]; exact ofInt_of_lt 32 _ (by omega)
  have h2 : (s + 32 / 8) % 2 ^ 32 = s + 4 := by
    rw [Nat.mod_eq_of_lt (by omega)]
  refine ⟨?_, ?_, ?_, ?_⟩
  · simp only [Cpu.pop, Cpu.set, hs, h2, if_neg hd.symm, if_true]
  · simp only [Cpu.pop, Cpu.set, Cpu.load, Cpu.address, hs, h1, if_true]
  · intro r hr hrd
    simp only [Cpu.pop, Cpu.set, if_neg hr, if_neg hrd]
  · simp only [Cpu.pop, Cpu.set]

/-- The four pushes of the two stubs: the stack pointer moves down by 16 and
the words of `esi`, `edi`, `ebx` and `ecx` are at 12, 8, 4 and 0 above it. -/
theorem saves_spec (c : Cpu) (s : Nat) (hs : c.reg Register.esp = s) (h16 : 16 ≤ s)
    (hlt : s < 2 ^ 32) :
    (CloneObjectStub.saves c).reg Register.esp = s - 16 ∧
    (CloneObjectStub.saves c).mem (s - 4) = c.reg Register.esi ∧
    (CloneObjectStub.saves c).mem (s - 8) = c.reg Register.edi ∧
    (CloneObjectStub.saves c).mem (s - 12) = c.reg Register.ebx ∧
    (CloneObjectStub.saves c).mem (s - 16) = c.reg Register.ecx := by
  unfold CloneObjectStub.saves
  simp only []
  generalize h1 : c.push 32 (c.reg Register.esi) = c1
  obtain ⟨p1, q1, m1, _⟩ := push_spec c (c.reg Register.esi) s hs (by omega) hlt
  rw [h1] at p1 q1 m1
  generalize h2 : c1.push 32 (c1.reg Register.edi) = c2
  obtain ⟨p2, q2, m2, n2⟩ := push_spec c1 (c1.reg Register.edi) (s - 4) p1 (by omega) (by omega)
  rw [h2] at p2 q2 m2 n2
  generalize h3 : c2.push 32 (c2.reg Register.ebx) = c3
  obtain ⟨p3, q3, m3, n3⟩ := push_spec c2 (c2.reg Register.ebx) (s - 4 - 4) p2 (by omega)
    (by omega)
  rw [h3] at p3 q3 m3 n3
  generalize h4 : c3.push 32 (c3.reg Register.ecx) = c4
  obtain ⟨p4, q4, m4, n4⟩ := push_spec c3 (c3.reg Register.ecx) (s - 4 - 4 - 4) p3 (by omega)
    (by omega)
  rw [h4] at p4 q4 m4 n4
  have e8 : s - 4 - 4 = s - 8 := by omega
  have e12 : s - 4 - 4 - 4 = s - 12 := by omega
  have e16 : s - 4 - 4 - 4 - 4 = s - 16 := by omega
  rw [e16] at p4 m4 n4
  rw [e12] at m3 n3
  rw [e8] at m2 n2
  refine ⟨p4, ?_, ?_, ?_, ?_⟩
  · rw [n4 _ (by omega), n3 _ (by omega), n2 _ (by omega), m1]
  · rw [n4 _ (by omega), n3 _ (by omega), m2, q1 _ (by decide)]
  · rw [n4 _ (by omega), m3, q2 _ (by decide), q1 _ (by decide)]
  · rw [m4, q3 _ (by decide), q2 _ (by decide), q1 _ (by decide)]

/-- Four pops in a row: the registers get the words at 0, 4, 8 and 12 above
the stack pointer, in the order of the pops, and no other register but the
stack pointer changes. -/
theorem four_pops (d : Cpu) (t : Nat) (r1 r2 r3 r4 : Register) (ht : d.reg Register.esp = t)
    (hlt : t + 16 < 2 ^ 32) (h1 : r1 ≠ Register.esp) (h2 : r2 ≠ Register.esp)
    (h3 : r3 ≠ Register.esp) (h4 : r4 ≠ Register.esp)
    (h12 : r1 ≠ r2) (h13 : r1 ≠ r3) (h14 : r1 ≠ r4) (h23 : r2 ≠ r3) (h24 : r2 ≠ r4)
    (h34 : r3 ≠ r4) :
    let e := (((d.pop 32 r1).pop 32 r2).pop 32 r3).pop 32 r4
    e.reg Register.esp = t + 16 ∧ e.reg r1 = d.mem t ∧ e.reg r2 = d.mem (t + 4) ∧
    e.reg r3 = d.mem (t + 8) ∧ e.reg r4 = d.mem (t + 12) ∧
    ∀ r, r ≠ Register.esp → r ≠ r1 → r ≠ r2 → r ≠ r3 → r ≠ r4 → e.reg r = d.reg r := by
  intro e
  obtain ⟨p1, v1, q1, m1⟩ := pop_spec d r1 t ht (by omega) h1
  obtain ⟨p2, v2, q2, m2⟩ := pop_spec (d.pop 32 r1) r2 (t + 4) p1 (by omega) h2
  obtain ⟨p3, v3, q3, m3⟩ := pop_spec ((d.pop 32 r1).pop 32 r2) r3 (t + 4 + 4) p2 (by omega) h3
  obtain ⟨p4, v4, q4, m4⟩ := pop_spec (((d.pop 32 r1).pop 32 r2).pop 32 r3) r4 (t + 4 + 4 + 4) p3
    (by omega) h4
  refine ⟨by rw [p4], ?_, ?_, ?_, ?_, ?_⟩
  · show ((((d.pop 32 r1).pop 32 r2).pop 32 r3).pop 32 r4).reg r1 = _
    rw [q4 r1 h1 h14, q3 r1 h1 h13, q2 r1 h1 h12, v1]
  · show ((((d.pop 32 r1).pop 32 r2).pop 32 r3).pop 32 r4).reg r2 = _
    rw [q4 r2 h2 h24, q3 r2 h2 h23, v2, m1]
  · show ((((d.pop 32 r1).pop 32 r2).pop 32 r3).pop 32 r4).reg r3 = _
    rw [q4 r3 h3 h34, v3, m2, m1]
  · show ((((d.pop 32 r1).pop 32 r2).pop 32 r3).pop 32 r4).reg r4 = _
    rw [v4, m3, m2, m1]
  · intro r hr n1 n2 n3 n4
    show ((((d.pop 32 r1).pop 32 r2).pop 32 r3).pop 32 r4).reg r = _
    rw [q4 r hr n4, q3 r hr n3, q2 r hr n2, q1 r hr n1]

/-- C38: the pops of `LookupPropertyStub` and `CloneObjectStub` do not mirror
their pushes. Let the four pushes of a stub run on a machine `c` whose stack
pointer has room for them, and let `d` be a machine at the label `done` on which
the stack pointer and the four saved words are as the pushes left them. After
the four pops of `LookupPropertyStub`, `ecx`, `edi` and `esi` hold their words
of `c`, but `edx` holds the word `ebx` had in `c` and `ebx` is not written.
After the four pops of `CloneObjectStub`, `ecx` and `ebx` hold their words of
`c`, but `esi` holds the word `edi` had in `c` and `edi` the word of `esi`. -/
theorem saved_registers_not_restored (c1 d1 c2 d2 : Cpu) (s1 s2 : Nat)
    (hs1 : c1.reg Register.esp = s1) (h1 : 16 ≤ s1) (hlt1 : s1 < 2 ^ 32)
    (he1 : d1.reg Register.esp = (LookupPropertyStub.saves c1).reg Register.esp)
    (hm1 : ∀ k ∈ [4, 8, 12, 16],
      d1.mem (s1 - k) = (LookupPropertyStub.saves c1).mem (s1 - k))
    (hs2 : c2.reg Register.esp = s2) (h2 : 16 ≤ s2) (hlt2 : s2 < 2 ^ 32)
    (he2 : d2.reg Register.esp = (CloneObjectStub.saves c2).reg Register.esp)
    (hm2 : ∀ k ∈ [4, 8, 12, 16],
      d2.mem (s2 - k) = (CloneObjectStub.saves c2).mem (s2 - k)) :
    ((LookupPropertyStub.restores d1).reg Register.ecx = c1.reg Register.ecx ∧
      (LookupPropertyStub.restores d1).reg Register.edx = c1.reg Register.ebx ∧
      (LookupPropertyStub.restores d1).reg Register.ebx = d1.reg Register.ebx ∧
      (LookupPropertyStub.restores d1).reg Register.edi = c1.reg Register.edi ∧
      (LookupPropertyStub.restores d1).reg Register.esi = c1.reg Register.esi) ∧
    ((CloneObjectStub.restores d2).reg Register.ecx = c2.reg Register.ecx ∧
      (CloneObjectStub.restores d2).reg Register.ebx = c2.reg Register.ebx ∧
      (CloneObjectStub.restores d2).reg Register.esi = c2.reg Register.edi ∧
      (CloneObjectStub.restores d2).reg Register.edi = c2.reg Register.esi) := by
  constructor
  · obtain ⟨p, m4, m8, m12, m16⟩ := saves_spec c1 s1 hs1 h1 hlt1
    have p1 : d1.reg Register.esp = s1 - 16 := he1.trans p
    obtain ⟨_, r1, r2, r3, r4, r5⟩ := four_pops d1 (s1 - 16) Register.ecx Register.edx
      Register.edi Register.esi p1 (by omega) (by decide) (by decide) (by decide) (by decide)
      (by decide) (by decide) (by decide) (by decide) (by decide) (by decide)
    have a4 : s1 - 16 + 12 = s1 - 4 := by omega
    have a8 : s1 - 16 + 8 = s1 - 8 := by omega
    have a12 : s1 - 16 + 4 = s1 - 12 := by omega
    rw [a12] at r2
    rw [a8] at r3
    rw [a4] at r4
    refine ⟨?_, ?_, ?_, ?_, ?_⟩
    · exact r1.trans ((hm1 16 (by simp)).trans m16)
    · exact r2.trans ((hm1 12 (by simp)).trans m12)
    · exact r5 Register.ebx (by decide) (by decide) (by decide) (by decide) (by decide)
    · exact r3.trans ((hm1 8 (by simp)).trans m8)
    · exact r4.trans ((hm1 4 (by simp)).trans m4)
  · obtain ⟨p, m4, m8, m12, m16⟩ := saves_spec c2 s2 hs2 h2 hlt2
    have p1 : d2.reg Register.esp = s2 - 16 := he2.trans p
    obtain ⟨_, r1, r2, r3, r4, _⟩ := four_pops d2 (s2 - 16) Register.ecx Register.ebx
      Register.esi Register.edi p1 (by omega) (by decide) (by decide) (by decide) (by decide)
      (by decide) (by decide) (by decide) (by decide) (by decide) (by decide)
    have a4 : s2 - 16 + 12 = s2 - 4 := by omega
    have a8 : s2 - 16 + 8 = s2 - 8 := by omega
    have a12 : s2 - 16 + 4 = s2 - 12 := by omega
    rw [a12] at r2
    rw [a8] at r3
    rw [a4] at r4
    refine ⟨?_, ?_, ?_, ?_⟩
    · exact r1.trans ((hm2 16 (by simp)).trans m16)
    · exact r2.trans ((hm2 12 (by simp)).trans m12)
    · exact r3.trans ((hm2 8 (by simp)).trans m8)
    · exact r4.trans ((hm2 4 (by simp)).trans m4)

set_option maxRecDepth 100000 in
/-- The theorem on the pops applied to two runs: `LookupPropertyStub` entered
with the number 3 as receiver, which leaves by `non_object_error`, and
`CloneObjectStub` entered with the Object of `cloneSample`, which copies the
object. -/
theorem saved_registers_not_restored_witness :
    ((LookupPropertyStub.restores
        ((LookupPropertyStub.saves (atSaves (lookupOf 6 3001))).mov Register.eax kTagNil)).reg
        Register.edx = 0xB1 ∧
      (atSaves (lookupOf 6 3001)).reg Register.edx = 3001) ∧
    ((CloneObjectStub.restores
        ((CloneObjectStub.Generate sampleAllocate 10
          (CloneObjectStub.saves (atSaves cloneSample))).getD cloneSample)).reg
        Register.esi = 0xD1 ∧
      (atSaves cloneSample).reg Register.esi = 0x51) :=
  match saved_registers_not_restored (atSaves (lookupOf 6 3001))
      ((LookupPropertyStub.saves (atSaves (lookupOf 6 3001))).mov Register.eax kTagNil)
      (atSaves cloneSample)
      ((CloneObjectStub.Generate sampleAllocate 10
        (CloneObjectStub.saves (atSaves cloneSample))).getD cloneSample)
      8980 8980 (by decide) (by decide) (by decide) (by decide) (by decide)
      (by decide) (by decide) (by decide) (by decide) (by decide) with
  | ⟨⟨_, h2, _, _, _⟩, ⟨_, _, h3, _⟩⟩ =>
    ⟨⟨h2.trans (by decide), by decide⟩, ⟨h3.trans (by decide), by decide⟩⟩

set_option maxRecDepth 100000 in
/-- Runs of the whole of `LookupPropertyStub::Generate` entered with 0x51, 0xD1,
0xB1, 0 and the key in `esi`, `edi`, `ebx`, `ecx` and `edx`. With the number 3
as receiver the stub leaves by `non_object_error` and `edx` holds 0xB1 at the
exit; with the Object at 1001 and the string key at 3001 it leaves by the
epilogue of the first fast path, where `esi` holds 1 and `ebx` 0; with the Array
at 5001 and the index 3 it leaves by the epilogue of the second fast path, where
`ebx` and `edx` hold 0; with the index 20, above the mask, it goes through
`cleanup` and the pops, and leaves with 0 in `ebx` and 0xB1 in `edx`. -/
theorem LookupPropertyStub_exit_registers :
    (withSavedRegisters (lookupOf 6 3001)).saved = [0x51, 0xD1, 0xB1, 0, 3001] ∧
    (LookupPropertyStub.GenerateWhole (fun c => c) (fun _ => true)
      (fun c => c.subl 32 Register.esp 16) (fun c => c)
      (withSavedRegisters (lookupOf 6 3001))).saved = [0x51, 0xD1, 0xB1, 0, 0xB1] ∧
    (LookupPropertyStub.GenerateWhole (fun c => c) (fun _ => true)
      (fun c => c.subl 32 Register.esp 16) (fun c => c)
      (withSavedRegisters (lookupOf 1001 3001))).saved = [1, 0xD1, 0, 0, 3001] ∧
    (LookupPropertyStub.GenerateWhole (fun c => c) (fun _ => true)
      (fun c => c.subl 32 Register.esp 16) (fun c => c)
      (withSavedRegisters (lookupOf 5001 6))).saved = [0x51, 0xD1, 0, 0, 0] ∧
    (LookupPropertyStub.GenerateWhole (fun c => c) (fun _ => true)
      (fun c => c.subl 32 Register.esp 16) (fun c => c)
      (withSavedRegisters (lookupOf 5001 40))).saved = [0x51, 0xD1, 0, 0, 0xB1] := by
  decide

set_option maxRecDepth 100000 in
/-- A run of the whole of `CloneObjectStub::Generate` on the Object of
`cloneSample`, entered with 0x51, 0xD1, 0xB1 and 0 in `esi`, `edi`, `ebx` and
`ecx`: at the exit `esi` holds 0xD1 and `edi` holds 0x51. -/
theorem CloneObjectStub_exit_registers :
    (withSavedRegisters cloneSample).saved = [0x51, 0xD1, 0xB1, 0, 0] ∧
    (CloneObjectStub.GenerateWhole (fun c => c.subl 32 Register.esp 16) sampleAllocate 10
      (withSavedRegisters cloneSample)).map Cpu.saved = some [0xD1, 0x51, 0xB1, 0, 5001] := by
  decide

/-- The pushes and pops in the code the two stubs emit, in emission order. The
pops of `ecx`, `edx`, `edi`, `esi` are emitted once in `LookupPropertyStub`,
which has three epilogues. -/
theorem pushes_and_pops_emitted :
    pushesOf LookupPropertyStub.GenerateCode.code =
      [Register.ebp, Register.esi, Register.edi, Register.ebx, Register.ecx,
       Register.ecx, Register.edx, Register.eax] ∧
    popsOf LookupPropertyStub.GenerateCode.code =
      [Register.ebp, Register.ebp, Register.ecx, Register.edx, Register.edi, Register.esi,
       Register.ebp] ∧
    pushesOf CloneObjectStub.GenerateCode.code =
      [Register.ebp, Register.esi, Register.edi, Register.ebx, Register.ecx] ∧
    popsOf CloneObjectStub.GenerateCode.code =
      [Register.ecx, Register.ebx, Register.esi, Register.edi, Register.ebp] := by
  decide

/-! ## The stack pointer after a call -/

/-- The test of bit 1 of a tagged count: it is clear exactly when the count is
even. -/
theorem testb_tagged (n : Nat) : ((2 * n) % 256 &&& 2 % 256) = 2 * (n % 2) := by
  have h : ∀ m, m < 128 → ((2 * m) % 256 &&& 2 % 256) = 2 * (m % 2) := by decide
  have h1 : (2 * n) % 256 = (2 * (n % 128)) % 256 := by omega
  rw [h1, h (n % 128) (Nat.mod_lt _ (by norm_num))]
  omega

/-- C35: after the code of `LCall::Generate`, entered with the tagged `argc` in
`eax` and the stack pointer `s`, the stack pointer is `s` plus 8 bytes, two
words of `HValue::kPointerSize = 4` bytes, for each of `argc` rounded up to the
next even number, on the function path and on the not-a-function path alike:
the shift by 2 is applied to the tagged count. For `argc ≥ 1` this is more than
the `4 * (argc + argc % 2)` bytes of the words pushed for the call. -/
theorem LCall_unwinds_two_words_per_argument (scratch fn_reg : Register)
    (callee : Cpu → Cpu) (c : Cpu) (argc s : Nat) (hsc : scratch ≠ Register.esp)
    (hargc : c.reg Register.eax = (HNumber.Tag argc).toNat) (hs : c.reg Register.esp = s)
    (hlt : s + 8 * (argc + argc % 2) < 2 ^ 32) :
    (LCall.Generate scratch fn_reg callee c).reg Register.esp =
      s + 2 * HValue.kPointerSize * (argc + argc % 2) ∧
    (0 < argc → (LCall.Generate scratch fn_reg callee c).reg Register.esp ≠
      s + HValue.kPointerSize * (argc + argc % 2)) := by
  have htag : (HNumber.Tag argc).toNat = 2 * argc := by
    unfold HNumber.Tag; omega
  have h2 : ofInt 32 (HNumber.Tag 1) = 2 := by decide
  rw [htag] at hargc
  have key : (LCall.Generate scratch fn_reg callee c).reg Register.esp =
      s + 8 * (argc + argc % 2) := by
    have hz : (2 * argc % 256 &&& 2) = 2 * (argc % 2) := testb_tagged argc
    unfold LCall.Generate
    simp only [Cpu.mov, Cpu.set, if_true]
    by_cases hodd : argc % 2 = 0
    · simp [Cpu.testb, Cpu.setFlags, Cpu.cond, Cpu.addl, Cpu.shl, Cpu.set, h2,
        hargc, hz, sal, hsc.symm, hsc, hs, hodd]
      omega
    · have h1 : argc % 2 = 1 := by omega
      simp [Cpu.testb, Cpu.setFlags, Cpu.cond, Cpu.addl, Cpu.shl, Cpu.set, h2,
        hargc, hz, sal, hsc.symm, hsc, hs, h1]
      omega
  refine ⟨?_, ?_⟩
  · rw [key]; unfold HValue.kPointerSize; omega
  · intro hpos
    rw [key]; unfold HValue.kPointerSize; omega

/-- The theorem on the unwinding applied to a call of the Function at 4001 with
one argument and the stack pointer 1040. -/
theorem LCall_unwinds_two_words_per_argument_witness :
    (LCall.Generate Register.edi Register.esi (fun c => c) (callOf 4001)).reg Register.esp =
      1040 + 2 * HValue.kPointerSize * (1 + 1 % 2) ∧
    (0 < 1 →
      (LCall.Generate Register.edi Register.esi (fun c => c) (callOf 4001)).reg Register.esp ≠
        1040 + HValue.kPointerSize * (1 + 1 % 2)) :=
  LCall_unwinds_two_words_per_argument Register.edi Register.esi (fun c => c) (callOf 4001) 1
    1040 (by decide) (by decide) (by decide) (by decide)

/-- A call site with one argument, entered with the stack pointer 1040: the
alignment word and the argument take 8 bytes, and after the call the stack
pointer is 1048, on the function path (callee at 4001, called once) and on the
not-a-function path (the Object at 5001, no call). -/
theorem callSite_stack_pointer :
    (callOf 4001).reg Register.esp = 1040 ∧
    (LStoreArg.Generate Register.edx
      (LAlignStack.Generate Register.eax (callOf 4001))).reg Register.esp = 1032 ∧
    (callSite 4001).reg Register.esp = 1048 ∧ (callSite 4001).calls = [9000] ∧
    (callSite 5001).reg Register.esp = 1048 ∧ (callSite 5001).calls = [] := by
  decide

/-! ## Removed instructions in lowering -/

/-- The setter of the LIR instruction leaves the list of LIR instructions and
`current_instruction_` alone. -/
theorem setLir_instructions (s : LowerState) (i : Nat) (l : LIRInstr) :
    (s.setLir i l).instructions_ = s.instructions_ ∧
    (s.setLir i l).current_instruction_ = s.current_instruction_ := by
  unfold LowerState.setLir
  cases s.hir[i]? <;> exact ⟨rfl, rfl⟩

/-- The LIR instruction of a phi is set without adding an instruction. -/
theorem phiLir_instructions (s : LowerState) (phi : Nat) (p : HIRInstruction) :
    (s.phiLir phi p).1.instructions_ = s.instructions_ ∧
    (s.phiLir phi p).1.current_instruction_ = s.current_instruction_ := by
  unfold LowerState.phiLir
  cases p.lir_ with
  | none => exact setLir_instructions _ _ _
  | some l => exact ⟨rfl, rfl⟩

/-- The LIR instruction of an input is set without adding an instruction. -/
theorem inputLir_instructions (s : LowerState) (input : Nat) (inp : HIRInstruction)
    (t : LowerState) (h : s.inputLir input inp = some t) :
    t.instructions_ = s.instructions_ ∧ t.current_instruction_ = s.current_instruction_ := by
  unfold LowerState.inputLir at h
  split_ifs at h with hc
  · simp only [Option.bind_eq_some, Option.some.injEq] at h
    obtain ⟨_, _, h⟩ := h
    rw [← h]
    exact setLir_instructions _ _ _
  · simp only [Option.some.injEq] at h
    rw [← h]
    exact ⟨rfl, rfl⟩

/-- One turn of the loop of `VisitGoto` adds one move. -/
theorem phiMove_appends (parent_index : Nat) (s : LowerState) (phi : Nat) (t : LowerState)
    (h : LowerState.phiMove parent_index s phi = some t) :
    ∃ m, t.instructions_ = s.instructions_ ++ [m] ∧ m.kind = LIRKind.kMove ∧
      t.current_instruction_ = s.current_instruction_ := by
  unfold LowerState.phiMove at h
  simp only [Option.bind_eq_some, Option.some.injEq] at h
  obtain ⟨p, _, _, _, input, _, inp, _, s2, hs2, r, _, ht⟩ := h
  subst ht
  have h1 := inputLir_instructions _ _ _ _ hs2
  have h2 := phiLir_instructions s phi p
  refine ⟨LIRInstr.mk LIRKind.kMove [LArg.hir input] (some r) none, ?_, rfl, ?_⟩
  · simp only [LowerState.Add, h1.1, h2.1]
  · simp only [LowerState.Add, h1.2, h2.2]

/-- The loop of `VisitGoto` adds moves only. -/
theorem phiMoves_append (parent_index : Nat) (phis : List Nat) :
    ∀ (s t : LowerState), phis.foldlM (LowerState.phiMove parent_index) s = some t →
      ∃ moves, t.instructions_ = s.instructions_ ++ moves ∧
        (∀ m ∈ moves, m.kind = LIRKind.kMove) ∧ moves.length = phis.length ∧
        t.current_instruction_ = s.current_instruction_ := by
  induction phis with
  | nil =>
    intro s t h
    simp only [List.foldlM, Option.pure_def, Option.some.injEq] at h
    subst h
    exact ⟨[], by simp, by simp, rfl, rfl⟩
  | cons phi rest ih =>
    intro s t h
    simp only [List.foldlM, Option.bind_eq_bind, Option.bind_eq_some] at h
    obtain ⟨s1, h1, h2⟩ := h
    obtain ⟨m, e1, k1, c1⟩ := phiMove_appends parent_index s phi s1 h1
    obtain ⟨moves, e2, k2, l2, c2⟩ := ih s1 t h2
    refine ⟨m :: moves, ?_, ?_, ?_, ?_⟩
    · rw [e2, e1, List.append_assoc]; rfl
    · intro x hx
      rcases List.mem_cons.mp hx with rfl | hx
      · exact k1
      · exact k2 x hx
    · simp [l2]
    · rw [c2, c1]

/-- The visitor of a Goto adds one move for each phi of the successor and then
an `LGoto` tied to `current_instruction_`; it does not read the removed flag of
the Goto. -/
theorem VisitGoto_emits (blocks : List HIRBlockBody) (s t : LowerState) (instr : Nat)
    (h : s.VisitGoto blocks instr = some t) :
    ∃ moves, t.instructions_ = s.instructions_ ++ moves ++
        [{ kind := LIRKind.kGoto, inputs := [], result := none,
           hir := some s.current_instruction_ }] ∧
      ∀ m ∈ moves, m.kind = LIRKind.kMove := by
  unfold LowerState.VisitGoto at h
  simp only [Option.bind_eq_bind, Option.bind_eq_some, Option.pure_def, Option.some.injEq] at h
  obtain ⟨i, _, b, _, succ, _, sb, _, p0, _, s1, hs1, ht⟩ := h
  obtain ⟨moves, e, k, _, c⟩ := phiMoves_append _ _ _ _ hs1
  refine ⟨moves, ?_, k⟩
  rw [← ht]
  unfold LowerState.Bind
  rw [(setLir_instructions _ _ _).1]
  simp only [LowerState.Add, e, c]

/-- The visitor of a Phi adds the LIR instruction of the phi, tied to
`current_instruction_`; it does not read the removed flag. -/
theorem VisitPhi_emits (s t : LowerState) (instr : Nat) (h : s.VisitPhi instr = some t) :
    ∃ i l, s.hir[instr]? = some i ∧ i.lir_ = some l ∧
      t.instructions_ = s.instructions_ ++ [{ l with hir := some s.current_instruction_ }] := by
  unfold LowerState.VisitPhi at h
  simp only [Option.bind_eq_bind, Option.bind_eq_some, Option.pure_def, Option.some.injEq] at h
  obtain ⟨i, hi, l, hl, _, _, _, _, ht⟩ := h
  refine ⟨i, l, hi, hl, ?_⟩
  rw [← ht]
  unfold LowerState.Bind
  rw [(setLir_instructions _ _ _).1]
  rfl

/-- The inner loop visits every instruction of the list, in order. -/
theorem visitAll_visited (VisitOther : Nat → LowerState → Nat → Option LowerState)
    (blocks : List HIRBlockBody) (l : List Nat) :
    ∀ (s t : LowerState) (visited : List Nat),
      LowerState.visitAll VisitOther blocks l s = some (t, visited) → visited = l := by
  induction l with
  | nil =>
    intro s t visited h
    simp only [LowerState.visitAll, Option.some.injEq, Prod.mk.injEq] at h
    exact h.2.symm
  | cons instr rest ih =>
    intro s t visited h
    simp only [LowerState.visitAll, Option.bind_eq_bind, Option.bind_eq_some, Option.pure_def,
      Option.some.injEq, Prod.mk.injEq] at h
    obtain ⟨s1, _, ⟨s2, v2⟩, h2, _, hv⟩ := h
    rw [← hv, ih s1 s2 v2 h2]

/-- The function `GenerateInstructions` visits every instruction of every block
of the list, in order. -/
theorem GenerateInstructions_visited (VisitOther : Nat → LowerState → Nat → Option LowerState)
    (blocks : List HIRBlockBody) (blocks_ : List Nat) :
    ∀ (s t : LowerState) (visited : List Nat),
      LowerState.GenerateInstructions VisitOther blocks blocks_ s = some (t, visited) →
      visited = (blocks_.map fun b => (blocks.getD b ⟨[], [], [], []⟩).instructions_).flatten := by
  induction blocks_ with
  | nil =>
    intro s t visited h
    simp only [LowerState.GenerateInstructions, Option.some.injEq, Prod.mk.injEq] at h
    rw [← h.2]; rfl
  | cons b rest ih =>
    intro s t visited h
    simp only [LowerState.GenerateInstructions, Option.bind_eq_bind, Option.bind_eq_some,
      Option.pure_def, Option.some.injEq, Prod.mk.injEq] at h
    obtain ⟨blk, hblk, ⟨s1, v1⟩, h1, ⟨s2, v2⟩, h2, _, hv⟩ := h
    have e1 := visitAll_visited VisitOther blocks _ _ _ _ h1
    have e2 := ih s1 s2 v2 h2
    rw [← hv, e1, e2]
    simp only [List.map_cons, List.flatten_cons, List.getD_eq_getElem?_getD, hblk, Option.getD_some]

/-- The setter of the LIR instruction leaves the kinds alone. -/
theorem setLir_kinds (s : LowerState) (i : Nat) (l : LIRInstr) :
    (s.setLir i l).kinds = s.kinds := by
  unfold LowerState.setLir LowerState.kinds
  cases h : s.hir[i]? with
  | none => rfl
  | some x =>
    simp only
    apply List.ext_getElem?
    intro n
    simp only [List.getElem?_map, List.getElem?_set]
    by_cases hn : i = n
    · subst hn
      rw [if_pos rfl]
      have hlt : i < s.hir.length := by
        by_contra hc
        rw [List.getElem?_eq_none (not_lt.mp hc)] at h
        cases h
      simp [hlt, h]
    · rw [if_neg hn]

/-- One turn of the loop of `VisitGoto` leaves the kinds alone. -/
theorem phiMove_kinds (parent_index : Nat) (s : LowerState) (phi : Nat) (t : LowerState)
    (h : LowerState.phiMove parent_index s phi = some t) : t.kinds = s.kinds := by
  unfold LowerState.phiMove at h
  simp only [Option.bind_eq_some, Option.some.injEq] at h
  obtain ⟨p, _, _, _, input, _, inp, _, s2, hs2, r, _, ht⟩ := h
  subst ht
  have h2 : (s.phiLir phi p).1.kinds = s.kinds := by
    unfold LowerState.phiLir
    cases p.lir_ with
    | none => exact setLir_kinds _ _ _
    | some l => rfl
  have h1 : s2.kinds = (s.phiLir phi p).1.kinds := by
    unfold LowerState.inputLir at hs2
    split_ifs at hs2 with hc
    · simp only [Option.bind_eq_some, Option.some.injEq] at hs2
      obtain ⟨_, _, hs2⟩ := hs2
      rw [← hs2]
      exact setLir_kinds _ _ _
    · simp only [Option.some.injEq] at hs2
      rw [← hs2]
  exact h1.trans h2

/-- The loop of `VisitGoto` leaves the kinds alone. -/
theorem phiMoves_kinds (parent_index : Nat) (phis : List Nat) :
    ∀ (s t : LowerState), phis.foldlM (LowerState.phiMove parent_index) s = some t →
      t.kinds = s.kinds := by
  induction phis with
  | nil =>
    intro s t h
    simp only [List.foldlM, Option.pure_def, Option.some.injEq] at h
    rw [h]
  | cons phi rest ih =>
    intro s t h
    simp only [List.foldlM, Option.bind_eq_bind, Option.bind_eq_some] at h
    obtain ⟨s1, h1, h2⟩ := h
    rw [ih s1 t h2, phiMove_kinds parent_index s phi s1 h1]

/-- A visit of one instruction leaves the kinds alone and adds LIR instructions
at the end of the list; for a Goto, removed or not, an `LGoto` tied to
`current_instruction_` is among them. -/
theorem VisitInstruction_emits (VisitOther : Nat → LowerState → Nat → Option LowerState)
    (hV : VisitorAppends VisitOther) (blocks : List HIRBlockBody) (s t : LowerState)
    (instr : Nat) (h : LowerState.VisitInstruction VisitOther blocks s instr = some t) :
    t.kinds = s.kinds ∧ ∃ ext, t.instructions_ = s.instructions_ ++ ext ∧
      (s.kinds[instr]? = some HIRType.kGoto → LGoto.of s.current_instruction_ ∈ ext) := by
  unfold LowerState.VisitInstruction at h
  simp only [Option.bind_eq_bind, Option.bind_eq_some] at h
  obtain ⟨i, hi, h⟩ := h
  have hk : s.kinds[instr]? = some i.type_ := by
    unfold LowerState.kinds
    rw [List.getElem?_map, hi]; rfl
  cases hty : i.type_ with
  | kGoto =>
    rw [hty] at h
    simp only at h
    obtain ⟨moves, e, _⟩ := VisitGoto_emits blocks s t instr h
    refine ⟨?_, moves ++ [LGoto.of s.current_instruction_], ?_, ?_⟩
    · unfold LowerState.VisitGoto at h
      simp only [Option.bind_eq_bind, Option.bind_eq_some, Option.pure_def,
        Option.some.injEq] at h
      obtain ⟨_, _, _, _, _, _, _, _, _, _, s1, hs1, ht⟩ := h
      rw [← ht]
      unfold LowerState.Bind
      rw [setLir_kinds]
      exact phiMoves_kinds _ _ s s1 hs1
    · rw [e, List.append_assoc]; rfl
    · intro _
      simp
  | kPhi =>
    rw [hty] at h
    simp only at h
    obtain ⟨i1, l, _, _, e⟩ := VisitPhi_emits s t instr h
    refine ⟨?_, _, e, ?_⟩
    · unfold LowerState.VisitPhi at h
      simp only [Option.bind_eq_bind, Option.bind_eq_some, Option.pure_def,
        Option.some.injEq] at h
      obtain ⟨_, _, _, _, _, _, _, _, ht⟩ := h
      rw [← ht]
      unfold LowerState.Bind
      rw [setLir_kinds]
      rfl
    · intro hg
      rw [hk, hty] at hg
      cases hg
  | kOther k =>
    rw [hty] at h
    simp only at h
    obtain ⟨e1, ext, e2⟩ := hV k s instr t h
    refine ⟨e1, ext, e2, ?_⟩
    intro hg
    rw [hk, hty] at hg
    cases hg

/-- The inner loop leaves the kinds alone and adds LIR instructions at the end
of the list, among them an `LGoto` for every Goto of the list. -/
theorem visitAll_emits (VisitOther : Nat → LowerState → Nat → Option LowerState)
    (hV : VisitorAppends VisitOther) (blocks : List HIRBlockBody) (l : List Nat) :
    ∀ (s t : LowerState) (visited : List Nat),
      LowerState.visitAll VisitOther blocks l s = some (t, visited) →
      t.kinds = s.kinds ∧ ∃ ext, t.instructions_ = s.instructions_ ++ ext ∧
        ∀ g ∈ l, s.kinds[g]? = some HIRType.kGoto → LGoto.of g ∈ ext := by
  induction l with
  | nil =>
    intro s t visited h
    simp only [LowerState.visitAll, Option.some.injEq, Prod.mk.injEq] at h
    rw [← h.1]
    exact ⟨rfl, [], by simp, by simp⟩
  | cons instr rest ih =>
    intro s t visited h
    simp only [LowerState.visitAll, Option.bind_eq_bind, Option.bind_eq_some, Option.pure_def,
      Option.some.injEq, Prod.mk.injEq] at h
    obtain ⟨s1, h1, ⟨s2, v2⟩, h2, hs2, _⟩ := h
    simp only at hs2
    subst hs2
    obtain ⟨k1, ext1, e1, g1⟩ := VisitInstruction_emits VisitOther hV blocks _ s1 instr h1
    obtain ⟨k2, ext2, e2, g2⟩ := ih s1 s2 v2 h2
    have k1s : s1.kinds = s.kinds := k1
    have e1s : s1.instructions_ = s.instructions_ ++ ext1 := e1
    refine ⟨k2.trans k1s, ext1 ++ ext2, ?_, ?_⟩
    · rw [e2, e1s, List.append_assoc]
    · intro g hg hk
      rcases List.mem_cons.mp hg with rfl | hg
      · exact List.mem_append_left _ (g1 hk)
      · exact List.mem_append_right _ (g2 g hg (by rw [k1s]; exact hk))

/-- The function `GenerateInstructions` leaves the kinds alone and adds LIR
instructions at the end of the list, among them an `LGoto` for every Goto of
every block of the list. -/
theorem GenerateInstructions_emits (VisitOther : Nat → LowerState → Nat → Option LowerState)
    (hV : VisitorAppends VisitOther) (blocks : List HIRBlockBody) (blocks_ : List Nat) :
    ∀ (s t : LowerState) (visited : List Nat),
      LowerState.GenerateInstructions VisitOther blocks blocks_ s = some (t, visited) →
      t.kinds = s.kinds ∧ ∃ ext, t.instructions_ = s.instructions_ ++ ext ∧
        ∀ b ∈ blocks_, ∀ blk, blocks[b]? = some blk → ∀ g ∈ blk.instructions_,
          s.kinds[g]? = some HIRType.kGoto → LGoto.of g ∈ ext := by
  induction blocks_ with
  | nil =>
    intro s t visited h
    simp only [LowerState.GenerateInstructions, Option.some.injEq, Prod.mk.injEq] at h
    rw [← h.1]
    exact ⟨rfl, [], by simp, by simp⟩
  | cons b rest ih =>
    intro s t visited h
    simp only [LowerState.GenerateInstructions, Option.bind_eq_bind, Option.bind_eq_some,
      Option.pure_def, Option.some.injEq, Prod.mk.injEq] at h
    obtain ⟨blk, hblk, ⟨s1, v1⟩, h1, ⟨s2, v2⟩, h2, hs2, _⟩ := h
    simp only at hs2
    subst hs2
    obtain ⟨k1, ext1, e1, g1⟩ := visitAll_emits VisitOther hV blocks _ _ s1 v1 h1
    obtain ⟨k2, ext2, e2, g2⟩ := ih s1 s2 v2 h2
    have k1s : s1.kinds = s.kinds := k1
    have e1s : s1.instructions_ = s.instructions_ ++
        ([{ kind := LIRKind.kLabel b, inputs := [], result := none, hir := none }] ++ ext1) := by
      rw [e1]
      simp only [LowerState.Add, List.append_assoc]
    refine ⟨k2.trans k1s, [LIRInstr.mk (LIRKind.kLabel b) [] none none] ++ ext1 ++ ext2,
      ?_, ?_⟩
    · rw [e2, e1s]
      simp only [List.append_assoc]
    · intro b1 hb1 blk1 hblk1 g hg hk
      rcases List.mem_cons.mp hb1 with rfl | hb1
      · rw [hblk] at hblk1
        cases hblk1
        exact List.mem_append_left _ (List.mem_append_right _ (g1 g hg hk))
      · exact List.mem_append_right _ (g2 b1 hb1 blk1 hblk1 g hg (by rw [k1s]; exact hk))

/-- C32: `HIRInstruction::Remove` sets the removed flag and nothing else: kind,
arguments, users, block, LIR instruction and inputs are unchanged, and the lists
of the blocks are not touched. `LGen::GenerateInstructions` does not read the
flag. When it returns (the visitors that are not part of the sources only add LIR
instructions and keep the kinds), it has visited every instruction of every block
of `blocks_`, in list order, and for every Goto in the list of such a block,
removed or not, the LIR instructions after the run hold an `LGoto` tied to it. -/
theorem removed_instructions_are_lowered
    (VisitOther : Nat → LowerState → Nat → Option LowerState)
    (hV : VisitorAppends VisitOther) (blocks : List HIRBlockBody) (blocks_ : List Nat)
    (s t : LowerState) (visited : List Nat)
    (h : LowerState.GenerateInstructions VisitOther blocks blocks_ s = some (t, visited)) :
    (∀ i : HIRInstruction, i.Remove.IsRemoved = true ∧ i.Remove.type_ = i.type_ ∧
      i.Remove.args_ = i.args_ ∧ i.Remove.uses_ = i.uses_ ∧ i.Remove.block_ = i.block_ ∧
      i.Remove.lir_ = i.lir_ ∧ i.Remove.inputs_ = i.inputs_) ∧
    visited = (blocks_.map fun b => (blocks.getD b ⟨[], [], [], []⟩).instructions_).flatten ∧
    ∀ b ∈ blocks_, ∀ blk, blocks[b]? = some blk → ∀ g ∈ blk.instructions_,
      ∀ i, s.hir[g]? = some i → i.type_ = HIRType.kGoto →
        g ∈ visited ∧ LGoto.of g ∈ t.instructions_ := by
  refine ⟨fun i => ⟨rfl, rfl, rfl, rfl, rfl, rfl, rfl⟩,
    GenerateInstructions_visited VisitOther blocks blocks_ s t visited h, ?_⟩
  intro b hb blk hblk g hg i hi hty
  obtain ⟨_, ext, e, hext⟩ := GenerateInstructions_emits VisitOther hV blocks blocks_ s t visited h
  constructor
  · rw [GenerateInstructions_visited VisitOther blocks blocks_ s t visited h]
    simp only [List.mem_flatten, List.mem_map]
    refine ⟨blk.instructions_, ⟨b, hb, ?_⟩, hg⟩
    simp only [List.getD_eq_getElem?_getD, hblk, Option.getD_some]
  · rw [e]
    apply List.mem_append_right
    apply hext b hb blk hblk g hg
    unfold LowerState.kinds
    rw [List.getElem?_map, hi, ← hty]
    rfl

/-- The theorem on lowering applied to `removedSample`, where no visitor other
than those of `lir.cc` is called: the removed Goto 0 is visited and has its
`LGoto`. -/
theorem removed_instructions_are_lowered_witness :
    ∃ t visited,
      LowerState.GenerateInstructions (fun _ _ _ => none) removedSample.1 [0, 1]
        removedSample.2 = some (t, visited) ∧
      visited = [0, 1] ∧ LGoto.of 0 ∈ t.instructions_ := by
  have hsome : (LowerState.GenerateInstructions (fun _ _ _ => none) removedSample.1 [0, 1]
      removedSample.2).isSome = true := by decide
  obtain ⟨⟨t, visited⟩, h⟩ := Option.isSome_iff_exists.mp hsome
  have hthm := removed_instructions_are_lowered (fun _ _ _ => none)
    (fun _ _ _ _ hn => by cases hn) removedSample.1 [0, 1] removedSample.2 t visited h
  exact ⟨t, visited, h, hthm.2.1.trans (by decide),
    (hthm.2.2 0 (by simp) _ rfl 0 (by decide) _ rfl rfl).2⟩

/-- On `removedSample` both instructions are removed, and `GenerateInstructions`
emits, after the label of block 0, an `LGoto` tied to the removed Goto 0 and,
after the label of block 1, the `LPhi` of the removed Phi 1. -/
theorem removed_instructions_get_lir :
    removedSample.2.hir.map HIRInstruction.IsRemoved = [true, true] ∧
    (LowerState.GenerateInstructions (fun _ _ _ => none) removedSample.1 [0, 1]
      removedSample.2).map (fun r => (r.1.instructions_, r.2)) =
      some ([{ kind := LIRKind.kLabel 0, inputs := [], result := none, hir := none },
             { kind := LIRKind.kGoto, inputs := [], result := none, hir := some 0 },
             { kind := LIRKind.kLabel 1, inputs := [], result := none, hir := none },
             { kind := LIRKind.kPhi, inputs := [LArg.interval 7], result := some 7,
               hir := some 1 }], [0, 1]) := by
  decide

/-! ## The precondition of `Split` at its call sites -/

/-- A call of `Split` outside its precondition fails at one of the two
assertions at its top. -/
theorem Split_none_of_not_pre (g : LGen) (iid : Nat) (pos : Int)
    (h : g.SplitPre iid pos = false) : g.Split iid pos = none := by
  unfold LGen.SplitPre at h
  unfold LGen.Split LGen.SplitCore
  cases hf : (g.get iid).IsFixed with
  | true => simp [assert]
  | false =>
    rw [hf] at h
    cases hs : (g.get iid).start with
    | none => simp [assert]
    | some s =>
      cases he : (g.get iid).end_ with
      | none => simp [assert]
      | some e =>
        rw [hs, he] at h
        simp only [Bool.not_false, Bool.true_and, decide_eq_false_iff_not] at h
        simp [assert, h]

/-- The branch of `AllocateBlockedReg` that spills `current`: when `current`
has a register use after its start, the routine calls the procedure that stands
for `Split` once, on `current` and the position before that use, and returns
what it returns. -/
theorem AllocateBlockedRegWith_spill_branch (split : LGen → Nat → Int → Option (LGen × Nat))
    (g g1 : LGen) (cur : Nat) (cs : Int) (up bp : List Int) (m r : Int) (u : LUse)
    (hcs : (g.get cur).start = some cs)
    (hub : g.blockedInactive cur cs g.inactive
      (g.blockedActive cs g.active
        (List.replicate kLIRRegisterCount INT_MAX, List.replicate kLIRRegisterCount INT_MAX))
      = (up, bp))
    (hmax : maxLoop up 0 (-1) 0 = (m, r)) (hm : m ≥ 0)
    (hspill : (match g.UseAfter cur cs UseType.kAny with
      | none => true
      | some f => decide (m < f.instr) || decide (getAt bp r - 1 ≤ cs)) = true)
    (hg1 : g.Spill cur = some g1) (hu : g1.UseAfter cur cs UseType.kRegister = some u)
    (hgt : u.instr > cs) :
    LGen.AllocateBlockedRegWith split g cur = (split g1 cur (u.instr - 1)).map Prod.fst := by
  unfold LGen.AllocateBlockedRegWith
  simp only [hcs, Option.bind_eq_bind, Option.some_bind, hub, hmax, assert, hm, decide_True,
    if_true, hg1, hu, if_pos hgt]
  split_ifs with hc
  · rfl
  · exact absurd hspill hc

/-- C34: a state in which `AllocateBlockedReg` calls `Split` outside its
precondition. Let `current` start at `cs`, let the routine take the branch that
spills `current` (no use of `current` after its start, a use before which no
register stays free, or the chosen register blocked at or before `cs + 1`), and
let the first register use of `current` after `cs` be at the instruction
`cs + 1`. Then the guard `reg_use->instr()->id > current->start()` lets the call
through, the routine calls whatever stands for `Split` exactly once, with
`current` and the position `cs`, which is the start of `current` and not after
it; `Split` fails at its assertion and `AllocateBlockedReg` does not return. -/
theorem AllocateBlockedReg_splits_at_start (g g1 : LGen) (cur : Nat) (cs : Int)
    (up bp : List Int) (m r : Int) (u : LUse)
    (hcs : (g.get cur).start = some cs)
    (hub : g.blockedInactive cur cs g.inactive
      (g.blockedActive cs g.active
        (List.replicate kLIRRegisterCount INT_MAX, List.replicate kLIRRegisterCount INT_MAX))
      = (up, bp))
    (hmax : maxLoop up 0 (-1) 0 = (m, r)) (hm : m ≥ 0)
    (hspill : (match g.UseAfter cur cs UseType.kAny with
      | none => true
      | some f => decide (m < f.instr) || decide (getAt bp r - 1 ≤ cs)) = true)
    (hg1 : g.Spill cur = some g1) (hcs1 : (g1.get cur).start = some cs)
    (hu : g1.UseAfter cur cs UseType.kRegister = some u) (hnext : u.instr = cs + 1) :
    (∀ split : LGen → Nat → Int → Option (LGen × Nat),
      LGen.AllocateBlockedRegWith split g cur = (split g1 cur cs).map Prod.fst) ∧
    g1.SplitPre cur cs = false ∧ g1.Split cur cs = none ∧
    g.AllocateBlockedReg cur = none := by
  have hpos : u.instr - 1 = cs := by omega
  have hall : ∀ split : LGen → Nat → Int → Option (LGen × Nat),
      LGen.AllocateBlockedRegWith split g cur = (split g1 cur cs).map Prod.fst := by
    intro split
    rw [AllocateBlockedRegWith_spill_branch split g g1 cur cs up bp m r u hcs hub hmax hm hspill
      hg1 hu (by omega), hpos]
  have hpre : g1.SplitPre cur cs = false := by
    unfold LGen.SplitPre
    rw [hcs1]
    cases (g1.get cur).end_ with
    | none => simp
    | some e => simp
  have hsplit := Split_none_of_not_pre g1 cur cs hpre
  refine ⟨hall, hpre, hsplit, ?_⟩
  rw [← AllocateBlockedRegWith_Split, hall, hsplit]
  rfl

set_option maxRecDepth 100000 in
/-- The theorem applied to the second turn of `WalkIntervals` on
`callRegisterProgram`: `current` is the interval 11, the child of `v10` that
starts at 5, and its register use is at the call, 6. -/
theorem AllocateBlockedReg_splits_at_start_witness :
    (∀ split : LGen → Nat → Int → Option (LGen × Nat),
      LGen.AllocateBlockedRegWith split callRegisterState 11 =
        (split callRegisterSpilled 11 5).map Prod.fst) ∧
    callRegisterSpilled.SplitPre 11 5 = false ∧ callRegisterSpilled.Split 11 5 = none ∧
    callRegisterState.AllocateBlockedReg 11 = none :=
  AllocateBlockedReg_splits_at_start callRegisterState callRegisterSpilled 11 5
    [6, 6, 6, 6, 6, 6, 6, 6, 6, 6] [6, 6, 6, 6, 6, 6, 6, 6, 6, 6] 6 0 ⟨UseType.kRegister, 6⟩
    (by decide) (by decide) (by decide) (by decide) (by decide)
    (some_getD_of_isSome _ _ (by decide)) (by decide) (by decide) (by decide)

set_option maxRecDepth 100000 in
/-- The run of `WalkIntervals` on `callRegisterProgram`, turn by turn. The
intervals are built: `v10` is live on `[2, 8)` and every register is taken on
`[6, 7)`. The first turn splits `v10` at 5 and queues the child 11, live on
`[5, 8)` with the register use at 6. In the second turn `TryAllocateFreeReg`
gives the interval 11 no register and `AllocateBlockedReg` is called on
`callRegisterState`. -/
theorem callRegister_run :
    (callRegisterBuilt.map fun g => ((g.get 10).ranges, (g.get 10).uses,
        (g.get 0).ranges, (g.get 9).ranges)) =
      some ([⟨2, 8⟩], [⟨UseType.kAny, 2⟩, ⟨UseType.kRegister, 6⟩, ⟨UseType.kAny, 8⟩],
        [⟨6, 7⟩], [⟨6, 7⟩]) ∧
    (callRegisterPopulated.map fun g => (g.unhandled, g.active, g.inactive)) =
      some ([10], [], [0, 1, 2, 3, 4, 5, 6, 7, 8, 9]) ∧
    (callRegisterTurn.map fun g => (g.unhandled, (g.get 10).ranges, (g.get 11).ranges,
        (g.get 11).uses, (g.get 11).IsFixed)) =
      some ([11], [⟨2, 5⟩], [⟨5, 8⟩], [⟨UseType.kRegister, 6⟩, ⟨UseType.kAny, 8⟩], false) ∧
    callRegisterBlocked.isSome = true ∧
    (callRegisterState.get 11).is_register = false ∧
    (callRegisterState.get 11).start = some 5 := by
  refine ⟨?_, ?_, ?_, ?_, ?_, ?_⟩ <;> decide

set_option maxRecDepth 100000 in
/-- On `callRegisterProgram` the procedure `WalkIntervals` does not return,
whatever the fuel: the second turn of its loop stops at the assertion of
`Split`. -/
theorem WalkIntervals_stops_in_Split (fuel : Nat) :
    callRegisterBuilt.isSome = true ∧
    callRegisterBuilt.bind (LGen.WalkIntervals fuel) = none := by
  refine ⟨by decide, ?_⟩
  have h0 : callRegisterBuilt.bind (LGen.WalkIntervals fuel) =
      callRegisterPopulated.bind (LGen.walkLoop fuel) := by
    unfold callRegisterPopulated LGen.WalkIntervals
    cases callRegisterBuilt with
    | none => rfl
    | some g =>
      simp only [Option.bind_eq_bind, Option.some_bind]
      cases LGen.populate g.intervals g with
      | none => rfl
      | some g1 => rfl
  obtain ⟨g2, hg2, hun⟩ := exists_of_map_decide callRegisterPopulated
    (fun g => g.unhandled = [10]) (by decide)
  obtain ⟨s1, hs1, hq1, hq2⟩ := exists_of_map_decide callRegisterTurn
    (fun s => s.unhandled = [11] ∧
      (LGen.walkStep { s with unhandled := [] } 11).isNone = true) (by decide)
  unfold callRegisterTurn at hs1
  rw [hg2] at hs1
  simp only [Option.bind_eq_bind, Option.some_bind] at hs1
  rw [h0, hg2]
  simp only [Option.some_bind]
  cases fuel with
  | zero => simp [LGen.walkLoop, hun]
  | succ n =>
    simp only [LGen.walkLoop, hun, Option.bind_eq_bind, hs1, Option.some_bind]
    cases n with
    | zero => simp [LGen.walkLoop, hq1]
    | succ k =>
      simp only [LGen.walkLoop, hq1, Option.bind_eq_bind]
      rw [Option.isNone_iff_eq_none.mp hq2]
      rfl

/-- The call of `Split` in `TryAllocateFreeReg` is within the precondition:
it is made when `max - 2 > start` and `max ≤ end`, at the greatest odd position
below `max`. -/
theorem TryAllocateFreeReg_split_pre (g : LGen) (cur : Nat) (cs ce max : Int)
    (hfix : (g.get cur).IsFixed = false) (hcs : (g.get cur).start = some cs)
    (hce : (g.get cur).end_ = some ce) (h1 : ¬ max - 2 ≤ cs) (h2 : max ≤ ce) :
    g.SplitPre cur (freeSplitPos max) = true := by
  have h := freeSplitPos_odd max
  unfold LGen.SplitPre
  rw [hfix, hcs, hce]
  simp only [Bool.not_false, Bool.true_and, decide_eq_true_eq]
  omega

/-- The call `Split(current, block_pos[use_reg] - 1)` of `AllocateBlockedReg` is
within the precondition: it is made when `block_pos[use_reg] - 1 > start` and
`block_pos[use_reg] ≤ end`. -/
theorem AllocateBlockedReg_block_split_pre (g : LGen) (cur : Nat) (cs ce bp : Int)
    (hfix : (g.get cur).IsFixed = false) (hcs : (g.get cur).start = some cs)
    (hce : (g.get cur).end_ = some ce) (h1 : ¬ bp - 1 ≤ cs) (h2 : bp ≤ ce) :
    g.SplitPre cur (bp - 1) = true := by
  unfold LGen.SplitPre
  rw [hfix, hcs, hce]
  simp only [Bool.not_false, Bool.true_and, decide_eq_true_eq]
  omega

/-! ## Splitting at the id of an instruction -/

set_option maxRecDepth 100000 in
/-- On `splitSample` the interval 0 is not fixed, its one range is `[2, 8)` and
its uses, at 2 and 6, are sorted; the positions 4 and 6 lie strictly between
its start and its end. At both `Split` returns nothing: `GetGap` finds the
instruction with that id, which is not a gap, and `LGap::Cast` fails. At the odd
positions 3, 5 and 7 it returns a child. -/
theorem Split_fails_at_instruction_id :
    (splitSample.get 0).IsFixed = false ∧ (splitSample.get 0).start = some 2 ∧
    (splitSample.get 0).end_ = some 8 ∧
    (splitSample.Split 0 4).isSome = false ∧ (splitSample.Split 0 6).isSome = false ∧
    (splitSample.GetGap 4).isSome = false ∧ (splitSample.GetGap 6).isSome = false ∧
    (splitSample.Split 0 3).isSome = true ∧ (splitSample.Split 0 5).isSome = true ∧
    (splitSample.Split 0 7).isSome = true := by
  refine ⟨?_, ?_, ?_, ?_, ?_, ?_, ?_, ?_, ?_, ?_⟩ <;> decide

/-! ## The grey loop on the Nil value -/

/-- A collection that finds Nil on the stack of `nilSample` never completes,
whatever the bound on the loops. -/
theorem CollectGarbage_nil_aborts (fuel : Nat) :
    GC.CollectGarbage fuel nilSample 1 = none := by
  match fuel with
  | 0 => rfl
  | 1 => rfl
  | 2 => rfl
  | 3 => rfl
  | n + 4 => rfl

/-- C4 (refuted by the code): the Nil value, the pointer `0x1`, is a grey item
with a boxed value for the collector: its low bit is set, so neither the stack
walk nor the grey loop skips it, but there is no header behind it. The body of
the grey loop reads the GC mark of its value first, so for Nil it has nothing to
read, in every state of the collector and for every slot. On `nilSample` the
stack walk queues the object and the Nil word above it, and the collection does
not complete for any bound on the loops; with the unboxed word 2 in the place of
Nil it completes. -/
theorem greyStep_dereferences_nil :
    HValue.IsUnboxed HNil.New = false ∧
    (∀ (g : GC) (s : Slot), g.heap.obj HNil.New = none ∧
      HValue.IsGCMarked g.heap HNil.New = none ∧ GC.greyStep g ⟨HNil.New, s⟩ = none) ∧
    nilSample.heap.GetTag HNil.New = some kTagNil ∧
    GC.walkStack nilSample.heap 10 1 [] =
      some [⟨addrOf 1, Slot.stack 1⟩, ⟨HNil.New, Slot.stack 2⟩] ∧
    (∀ fuel, GC.CollectGarbage fuel nilSample 1 = none) ∧
    (GC.CollectGarbage 10
      { nilSample with
        heap := { nilSample.heap with stack := [0, addrOf 1, 2, 0xFEEEDBEE, 0] } } 1).isSome
      = true := by
  refine ⟨by decide, ?_, by decide, by decide, CollectGarbage_nil_aborts, by decide⟩
  intro g s
  have h1 : g.heap.obj HNil.New = none := by
    unfold Heap.obj
    rw [if_neg (by decide)]
  refine ⟨h1, ?_, ?_⟩
  · unfold HValue.IsGCMarked
    rw [h1]; rfl
  · unfold GC.greyStep HValue.IsGCMarked
    rw [h1]
    rfl

/-! ## The old space during a collection -/

set_option maxRecDepth 100000 in
/-- The collection of `promotionSample`, whose stack holds a number of
generation 4 and one of generation 0: both are evacuated, the first copy has
the generation 5, which is `kMinOldSpaceGeneration`, and both copies are in the
new space while the old space is empty. -/
theorem CollectGarbage_keeps_old_generation_in_new_space :
    kMinOldSpaceGeneration = 5 ∧
    promotionSample.heap.obj (addrOf 0) = some ⟨kTagNumber, 0, 4, false, [77]⟩ ∧
    (GC.CollectGarbage 10 promotionSample 1).map
        (fun g => (g.heap.new_space, g.heap.old_space, g.heap.stack)) =
      some ([addrOf 2, addrOf 3], [], [0, addrOf 2, addrOf 3, 0xFEEEDBEE, 0]) ∧
    (GC.CollectGarbage 10 promotionSample 1).map (fun g => g.heap.obj (addrOf 2)) =
      some (some ⟨kTagNumber, 0, 5, false, [77]⟩) ∧
    (GC.CollectGarbage 10 promotionSample 1).map (fun g => g.heap.obj (addrOf 3)) =
      some (some ⟨kTagNumber, 0, 1, false, [78]⟩) := by
  refine ⟨?_, ?_, ?_, ?_, ?_⟩ <;> decide

/-! ## The breakpoint in the entry stub -/

/-- C21 (refuted by the code): `EntryStub::Generate` stops at the byte `0xcc`
(`int3`, `stubs-ia32.cc` line 45) before it pushes anything for the call. For
every machine with the stack pointer `s` (`16 ≤ s < 2 ^ 32`), whatever the
tagged `argc` at `[s + 8]` is, the machine at the breakpoint has the stack
pointer at `s - 16` (the saved `ebp` and the three spill slots), the frame
pointer at `s - 4`, no call made, and the memory of the start except the word at
`s - 4`, which holds the caller's `ebp`: no padding word and no argument is on
the stack, and the three saved registers are not stored. What the claim
describes is the code a debugger resumes, `EntryStub.afterBreakpoint`. -/
theorem EntryStub_Generate_stops_before_pushes (scratch : Register)
    (EnterFramePrologue EnterFrameEpilogue callee : Cpu → Cpu) (fuel : Nat) (c : Cpu) (s : Nat)
    (hs : c.reg Register.esp = s) (h16 : 16 ≤ s) (hlt : s < 2 ^ 32) :
    let e := EntryStub.Generate scratch EnterFramePrologue EnterFrameEpilogue callee fuel c
    e.breakpoint.reg Register.esp = s - 16 ∧
    e.breakpoint.reg Register.ebp = s - 4 ∧
    (∀ r, r ≠ Register.esp → r ≠ Register.ebp → e.breakpoint.reg r = c.reg r) ∧
    e.breakpoint.calls = c.calls ∧
    e.breakpoint.mem (s - 4) = c.reg Register.ebp ∧
    (∀ a, a ≠ s - 4 → e.breakpoint.mem a = c.mem a) ∧
    e.resumed = EntryStub.afterBreakpoint scratch EnterFramePrologue EnterFrameEpilogue callee
      fuel e.breakpoint := by
  obtain ⟨p1, p2, p3, p4⟩ := push_spec c (c.reg Register.ebp) s hs (by omega) hlt
  have hcalls : (c.push 32 (c.reg Register.ebp)).calls = c.calls := rfl
  have hne : Register.ebp ≠ Register.esp := by decide
  have hsub : (s - 4 + 2 ^ 32 - 3 * 4) % 2 ^ 32 = s - 16 := by
    have : s - 4 + 2 ^ 32 - 3 * 4 = (s - 16) + 2 ^ 32 := by omega
    rw [this, Nat.add_mod_right]
    exact Nat.mod_eq_of_lt (by omega)
  intro e
  refine ⟨?_, ?_, ?_, ?_, ?_, ?_, rfl⟩
  · show (EntryStub.Generate scratch EnterFramePrologue EnterFrameEpilogue callee fuel
      c).breakpoint.reg Register.esp = s - 16
    simp only [EntryStub.Generate, BaseStub.GeneratePrologue, Cpu.subl, Cpu.mov, Cpu.set,
      Cpu.setFlags, if_true, p1, if_neg hne.symm, hsub]
  · show (EntryStub.Generate scratch EnterFramePrologue EnterFrameEpilogue callee fuel
      c).breakpoint.reg Register.ebp = s - 4
    simp only [EntryStub.Generate, BaseStub.GeneratePrologue, Cpu.subl, Cpu.mov, Cpu.set,
      Cpu.setFlags, if_true, p1, if_neg hne]
  · intro r h1 h2
    show (EntryStub.Generate scratch EnterFramePrologue EnterFrameEpilogue callee fuel
      c).breakpoint.reg r = c.reg r
    simp only [EntryStub.Generate, BaseStub.GeneratePrologue, Cpu.subl, Cpu.mov, Cpu.set,
      Cpu.setFlags, if_neg h1, if_neg h2]
    exact p2 r h1
  · exact hcalls
  · exact p3
  · intro a ha
    exact p4 a ha

/-- The theorem `EntryStub_Generate_stops_before_pushes` at `entrySample`, a
call with three arguments: at the breakpoint the stack pointer is at 984, and
the words from 956 to 980, where the padding word, the arguments and the saved
registers would be, are as at the start. -/
theorem EntryStub_Generate_stops_before_pushes_witness :
    let e := EntryStub.Generate Register.ecx id id entryCallee 4 entrySample
    e.breakpoint.reg Register.esp = 1000 - 16 ∧
    e.breakpoint.reg Register.ebp = 1000 - 4 ∧
    (∀ r, r ≠ Register.esp → r ≠ Register.ebp → e.breakpoint.reg r = entrySample.reg r) ∧
    e.breakpoint.calls = entrySample.calls ∧
    e.breakpoint.mem (1000 - 4) = entrySample.reg Register.ebp ∧
    (∀ a, a ≠ 1000 - 4 → e.breakpoint.mem a = entrySample.mem a) ∧
    e.resumed = EntryStub.afterBreakpoint Register.ecx id id entryCallee 4 e.breakpoint :=
  EntryStub_Generate_stops_before_pushes Register.ecx id id entryCallee 4 entrySample 1000 rfl
    (by decide) (by decide)

set_option maxRecDepth 100000 in
/-- On `entrySample` (three arguments, so one padding word is due) the machine
at the breakpoint of `EntryStub.Generate` has made no call and has the stack
pointer at 984; the code after the breakpoint, were it resumed, starts at
`entryState` after its three pushes and three loads. -/
theorem EntryStub_Generate_sample :
    (EntryStub.Generate Register.ecx id id entryCallee 4 entrySample).breakpoint.reg
      Register.esp = 984 ∧
    (EntryStub.Generate Register.ecx id id entryCallee 4 entrySample).breakpoint.calls = [] ∧
    (EntryStub.Generate Register.ecx id id entryCallee 4 entrySample).breakpoint.mem 980 = 0 ∧
    entrySample.mem 1008 = 2 * 3 := by
  refine ⟨?_, ?_, ?_, ?_⟩ <;> decide

/-! ## The spill slots inside the requested stack slots -/

/-- The displacement of `Masm::SpillSlot` when it does not wrap. -/
theorem SpillSlot_disp (spill_offset j : Nat)
    (h : spill_offset + 8 + HValue.kPointerSize * j ≤ 2 ^ 31) :
    (Masm.SpillSlot spill_offset j).disp =
      -(spill_offset : Int) - 8 - (HValue.kPointerSize : Int) * j := by
  unfold Masm.SpillSlot
  simp only
  apply toSigned_ofInt 32 (by decide)
  rw [fits_iff]
  unfold HValue.kPointerSize at h ⊢
  push_cast
  constructor <;> omega

/-- C37: at the entry of `AllocateSpills`, with empty spill lists and
`spill_index_` not negative, let every interval of the table in stackslot state
be one that `LGen::Spill` has queued: it is in `unhandled_spills_` once, with the
placeholder `-1`, and has ranges. Then `AllocateSpills` returns, and afterwards
every interval of the table in stackslot state has a spill index `i` with
`0 ≤ i < spill_index_`. The operand `LUse::ToOperand` makes for it is relative to
`ebp`; its word ends at or below the word of the saved `argc` at `[ebp - 8]`
and starts inside the `stack_slots` words that begin with that word, where
`stack_slots` is the number `spill_index_ + 1` that `LGen::Generate` passes to
the assembler. Whenever the assembler keeps its own spill slots
`spill_offset_ ≥ kPointerSize * stack_slots` bytes down, every slot
`Masm::SpillSlot` addresses ends at or below that word. -/
theorem AllocateSpills_slots_covered (g : LGen)
    (hempty : g.active_spills = [] ∧ g.inactive_spills = [] ∧ g.free_spills = [])
    (hnd : g.unhandled_spills.Nodup)
    (hready : ∀ id ∈ g.unhandled_spills, spillReady g id)
    (hsi : 0 ≤ g.spill_index)
    (hall : ∀ id, id < g.intervals.length → (g.get id).is_stackslot = true →
      id ∈ g.unhandled_spills) :
    ∃ g1, g.AllocateSpills = some g1 ∧ g1.intervals.length = g.intervals.length ∧
      ∀ id, id < g1.intervals.length → (g1.get id).is_stackslot = true →
        0 ≤ (g1.get id).index ∧ (g1.get id).index < g1.spill_index ∧
        ∃ op, LUse.ToOperand (g1.get id) = some op ∧ op.base = Register.ebp ∧
          op.disp + HValue.kPointerSize ≤ -((HValue.kPointerSize : Int) * 2) ∧
          -((HValue.kPointerSize : Int) * (g1.stack_slots + 1)) ≤ op.disp ∧
          ∀ spill_offset j : Nat,
            (HValue.kPointerSize : Int) * g1.stack_slots ≤ spill_offset →
            spill_offset + 8 + HValue.kPointerSize * j ≤ 2 ^ 31 →
            (Masm.SpillSlot spill_offset j).base = Register.ebp ∧
            (Masm.SpillSlot spill_offset j).disp + HValue.kPointerSize ≤ op.disp := by
  obtain ⟨g1, hg1, hlen, hfit⟩ := AllocateSpills_indices_fit g hempty hnd hready hsi hall
  refine ⟨g1, hg1, hlen, ?_⟩
  intro id hlt hst
  obtain ⟨h0, h1, _⟩ := hfit id hlt hst
  refine ⟨h0, h1, _, by rw [LUse.ToOperand, if_pos hst], rfl, ?_, ?_, ?_⟩
  · simp only [HValue.kPointerSize, Nat.cast_ofNat]
    omega
  · simp only [HValue.kPointerSize, Nat.cast_ofNat, LGen.stack_slots]
    omega
  · intro spill_offset j hso hj
    refine ⟨rfl, ?_⟩
    rw [SpillSlot_disp spill_offset j hj]
    simp only [HValue.kPointerSize, Nat.cast_ofNat, LGen.stack_slots] at hso ⊢
    omega

set_option maxRecDepth 10000 in
/-- The theorem `AllocateSpills_slots_covered` applied to `spillSample`. -/
theorem AllocateSpills_slots_covered_witness :
    ∃ g1, spillSample.AllocateSpills = some g1 ∧
      g1.intervals.length = spillSample.intervals.length ∧
      ∀ id, id < g1.intervals.length → (g1.get id).is_stackslot = true →
        0 ≤ (g1.get id).index ∧ (g1.get id).index < g1.spill_index ∧
        ∃ op, LUse.ToOperand (g1.get id) = some op ∧ op.base = Register.ebp ∧
          op.disp + HValue.kPointerSize ≤ -((HValue.kPointerSize : Int) * 2) ∧
          -((HValue.kPointerSize : Int) * (g1.stack_slots + 1)) ≤ op.disp ∧
          ∀ spill_offset j : Nat,
            (HValue.kPointerSize : Int) * g1.stack_slots ≤ spill_offset →
            spill_offset + 8 + HValue.kPointerSize * j ≤ 2 ^ 31 →
            (Masm.SpillSlot spill_offset j).base = Register.ebp ∧
            (Masm.SpillSlot spill_offset j).disp + HValue.kPointerSize ≤ op.disp :=
  AllocateSpills_slots_covered spillSample (by decide) (by decide)
    (by unfold spillReady rangesSorted; decide) (by decide) (by decide)

set_option maxRecDepth 100000 in
/-- On `spillSample` `LGen::Generate` asks for 3 stack slots and the three
intervals are addressed at `[ebp - 12]`, `[ebp - 16]` and `[ebp - 12]`, below the
saved `argc` at `[ebp - 8]`. With `spill_offset_ = 12`, the size of the 3 slots,
the first spill slot of the assembler is the word at `[ebp - 20]`, next below
the lowest of them; with `spill_offset_ = 8`, the size of `spill_index_` slots
without the one for `argc`, it is the word at `[ebp - 16]`, the slot of the
interval 1. -/
theorem AllocateSpills_sample_frame :
    (spillSample.AllocateSpills.map fun g =>
      (g.stack_slots, g.intervals.map fun i => (LUse.ToOperand i).map fun op => op.disp)) =
      some (3, [some (-12), some (-16), some (-12)]) ∧
    (Masm.SpillSlot 12 0).disp = -20 ∧ (Masm.SpillSlot 12 1).disp = -24 ∧
    (Masm.SpillSlot 8 0).disp = -16 := by
  refine ⟨?_, ?_, ?_, ?_⟩ <;> decide

end candor
